import Mathlib

/-!
# simpledatatypes: the ordered map (`sdmap`) over a slot arena

A shallow embedding of `include/sdmap_single.h` (the AVL tree engine of the
ordered map) and of the validators of `include/sdmap_debug.h`.

Modelling conventions

* `sdmap_index` is `uint32_t`; indices are natural numbers and the all-bits-set
  index is `NONE`.  The byte capacity of the heap block is a 32-bit field: a
  growth whose capacity would not fit is a failed allocation (the
  `sdmap_realloc returned NULL` assertion).
* The heap block (`sdmap_heap`: capacity, header, slots) is one record; the
  slots that fit in `capacity` bytes are the list `slots`.  Reading or writing
  a slot outside that list is a fault (`none`).
* `height` is `int8_t`; a tree of height 127 needs more nodes than a 32-bit
  capacity can hold, so heights are integers.
* Keys and values are integers, compared by the generated
  `detail_sdmap_compare_*` function; a key is passed by value (a pointer to a
  temporary outside the arena).
* Every `while (1)` loop is a function that recurses on a fuel argument and
  gives `none` when the fuel runs out.
-/

namespace Sdmap

/-- The index `(sdmap_index)-1`. -/
def NONE : Nat := 4294967295

/-- The macro `SDMAP_DEFAULT_CAPACITY`. -/
def SDMAP_DEFAULT_CAPACITY : Nat := 16

/-- The record `struct sdmap_slot` followed by its key and value. -/
structure sdmap_slot where
  left : Nat
  right : Nat
  parent : Nat
  height : Int
  key : Int
  value : Int
  deriving DecidableEq

/-- The record `struct sdmap_heap`: the capacity in bytes, the header fields
and the slots that follow the header. -/
structure sdmap_heap where
  capacity : Nat
  count : Nat
  slot_count : Nat
  root_slot : Nat
  empty_slot : Nat
  slots : List sdmap_slot
  deriving DecidableEq

/-- The value of `sizeof(sdmap_slot)`. -/
def sizeof_sdmap_slot : Nat := 16

/-- The local `slot_size` of the implementation functions. -/
def slot_size (key_size value_size : Nat) : Nat :=
  sizeof_sdmap_slot + key_size + value_size

/-- A slot of a block returned by the allocator, before it is written. -/
def fresh_slot : sdmap_slot :=
  { left := 0, right := 0, parent := 0, height := 0, key := 0, value := 0 }

/-- The macro `detail_sdmap_slot`, read access. -/
def detail_sdmap_slot (m : sdmap_heap) (index : Nat) : Option sdmap_slot :=
  m.slots[index]?

/-- A store through the pointer `detail_sdmap_slot(header, index)`. -/
def store (m : sdmap_heap) (index : Nat) (f : sdmap_slot → sdmap_slot) :
    Option sdmap_heap :=
  match m.slots[index]? with
  | none => none
  | some s => some { m with slots := m.slots.set index (f s) }

/-- The generated comparison function `detail_sdmap_compare_*`. -/
def detail_sdmap_compare (a b : Int) : Int :=
  if a = b then 0 else if a < b then -1 else 1

/-- Function `detail_sdmap_count_impl`. -/
def detail_sdmap_count_impl (header : Option sdmap_heap) : Nat :=
  match header with
  | some h => h.count
  | none => 0

/-- Functions `detail_sdmap_new_heap_impl` and `detail_sdmap_new_stack_impl`:
a block of `capacity` bytes whose slots are not yet written. -/
def detail_sdmap_new_heap_impl (capacity : Nat) (garbage : List sdmap_slot) :
    sdmap_heap :=
  { capacity := capacity, count := 0, slot_count := 0, root_slot := NONE,
    empty_slot := NONE, slots := garbage }

/-- The loop of `detail_sdmap_contains_impl`. -/
def detail_sdmap_contains_loop :
    Nat → sdmap_heap → Nat → Int → Option Bool
  | 0, _, _, _ => none
  | fuel + 1, m, slot_index, key =>
    match detail_sdmap_slot m slot_index with
    | none => none
    | some slot =>
      let compare_result := detail_sdmap_compare slot.key key
      if compare_result = 0 then some true
      else if compare_result > 0 then
        if slot.left = slot_index then some false
        else detail_sdmap_contains_loop fuel m slot.left key
      else
        if slot.right = slot_index then some false
        else detail_sdmap_contains_loop fuel m slot.right key

/-- Function `detail_sdmap_contains_impl`. -/
def detail_sdmap_contains_impl (fuel : Nat) (header : Option sdmap_heap)
    (key : Int) : Option Bool :=
  match header with
  | none => some false
  | some m =>
    if m.count = 0 then some false
    else detail_sdmap_contains_loop fuel m m.root_slot key

/-- The capacity doubling loop `while (new_capacity < needed) new_capacity *= 2`. -/
def grow_capacity : Nat → Nat → Nat → Option Nat
  | 0, _, _ => none
  | fuel + 1, new_capacity, needed =>
    if new_capacity < needed then grow_capacity fuel (new_capacity * 2) needed
    else some new_capacity

/-- The call of `sdmap_realloc` with its assertion: the block keeps its
contents and is extended to `new_capacity` bytes. -/
def realloc_heap (m : sdmap_heap) (ssize new_capacity : Nat) :
    Option sdmap_heap :=
  if new_capacity > m.capacity then
    if new_capacity < 4294967296 then
      some { m with
        capacity := new_capacity,
        slots := m.slots ++
          List.replicate (new_capacity / ssize - m.slots.length) fresh_slot }
    else none
  else some m

/-- Function `detail_sdmap_insert_heap_impl`. -/
def detail_sdmap_insert_heap_impl (m : sdmap_heap) (key_size value_size : Nat)
    (key : Int) : Option (sdmap_heap × Nat) :=
  let ssize := slot_size key_size value_size
  if m.empty_slot ≠ NONE then
    let slot_index := m.empty_slot
    match detail_sdmap_slot m slot_index with
    | none => none
    | some slot =>
      let m1 := { m with empty_slot := slot.right }
      match store m1 slot_index (fun s =>
          { s with left := slot_index, right := slot_index, height := 0, key := key }) with
      | none => none
      | some m2 => some ({ m2 with count := m2.count + 1 }, slot_index)
  else
    let m1 := { m with slot_count := m.slot_count + 1 }
    let start := if m1.capacity > 0 then m1.capacity else ssize * SDMAP_DEFAULT_CAPACITY
    match grow_capacity (ssize * m1.slot_count + 1) start (ssize * m1.slot_count) with
    | none => none
    | some new_capacity =>
      match realloc_heap m1 ssize new_capacity with
      | none => none
      | some m2 =>
        let slot_index := m2.count
        match store m2 slot_index (fun s =>
            { s with left := slot_index, right := slot_index, height := 0, key := key }) with
        | none => none
        | some m3 => some ({ m3 with count := m3.count + 1 }, slot_index)

/-- Function `detail_sdmap_compute_height`. -/
def detail_sdmap_compute_height (m : sdmap_heap) (node : Nat) : Option sdmap_heap :=
  match detail_sdmap_slot m node with
  | none => none
  | some slot =>
    let h0 : Int := -1
    let r1 : Option Int :=
      if slot.left ≠ node then
        match detail_sdmap_slot m slot.left with
        | none => none
        | some c => some (if h0 < c.height then c.height else h0)
      else some h0
    match r1 with
    | none => none
    | some h1 =>
      let r2 : Option Int :=
        if slot.right ≠ node then
          match detail_sdmap_slot m slot.right with
          | none => none
          | some c => some (if h1 < c.height then c.height else h1)
        else some h1
      match r2 with
      | none => none
      | some h2 => store m node (fun s => { s with height := h2 + 1 })

/-- Function `detail_sdmap_compute_balance`. -/
def detail_sdmap_compute_balance (m : sdmap_heap) (node : Nat) : Option Int :=
  match detail_sdmap_slot m node with
  | none => none
  | some slot =>
    let r1 : Option Int :=
      if slot.left ≠ node then
        match detail_sdmap_slot m slot.left with
        | none => none
        | some c => some (0 - (1 + c.height))
      else some 0
    match r1 with
    | none => none
    | some b1 =>
      if slot.right ≠ node then
        match detail_sdmap_slot m slot.right with
        | none => none
        | some c => some (b1 + (1 + c.height))
      else some b1

/-- Function `detail_sdmap_taller_child`. -/
def detail_sdmap_taller_child (m : sdmap_heap) (node : Nat) : Option Nat :=
  match detail_sdmap_slot m node with
  | none => none
  | some slot =>
    if slot.left ≠ node ∧ slot.right = node then some slot.left
    else if slot.right ≠ node ∧ slot.left = node then some slot.right
    else if slot.right = node ∨ slot.left = node then some node
    else
      match detail_sdmap_slot m slot.right, detail_sdmap_slot m slot.left with
      | some r, some l => if r.height > l.height then some slot.right else some slot.left
      | _, _ => none

/-- Function `detail_sdmap_rotate_l_impl`. -/
def detail_sdmap_rotate_l_impl (m : sdmap_heap) (node : Nat) : Option sdmap_heap := do
  let p ← detail_sdmap_slot m node
  let q_index := p.right
  if q_index = node then none else
  let q ← detail_sdmap_slot m q_index
  let m ← (if q.left = q_index then store m node (fun s => { s with right := node })
    else do
      let m ← store m q.left (fun s => { s with parent := node })
      store m node (fun s => { s with right := q.left }))
  let m ← store m q_index (fun s => { s with left := node })
  let m ← detail_sdmap_compute_height m node
  let m ← detail_sdmap_compute_height m q_index
  let p ← detail_sdmap_slot m node
  let m ← store m q_index (fun s => { s with parent := p.parent })
  let m ← store m node (fun s => { s with parent := q_index })
  if node = m.root_slot then some { m with root_slot := q_index }
  else do
    let q ← detail_sdmap_slot m q_index
    let g ← detail_sdmap_slot m q.parent
    if g.right = node then store m q.parent (fun s => { s with right := q_index })
    else store m q.parent (fun s => { s with left := q_index })

/-- Function `detail_sdmap_rotate_r_impl`. -/
def detail_sdmap_rotate_r_impl (m : sdmap_heap) (node : Nat) : Option sdmap_heap := do
  let q ← detail_sdmap_slot m node
  let p_index := q.left
  if p_index = node then none else
  let p ← detail_sdmap_slot m p_index
  let m ← (if p.right = p_index then store m node (fun s => { s with left := node })
    else do
      let m ← store m p.right (fun s => { s with parent := node })
      store m node (fun s => { s with left := p.right }))
  let m ← store m p_index (fun s => { s with right := node })
  let m ← detail_sdmap_compute_height m node
  let m ← detail_sdmap_compute_height m p_index
  let q ← detail_sdmap_slot m node
  let m ← store m p_index (fun s => { s with parent := q.parent })
  let m ← store m node (fun s => { s with parent := p_index })
  if node = m.root_slot then some { m with root_slot := p_index }
  else do
    let p ← detail_sdmap_slot m p_index
    let g ← detail_sdmap_slot m p.parent
    if g.right = node then store m p.parent (fun s => { s with right := p_index })
    else store m p.parent (fun s => { s with left := p_index })

/-- The first loop of `detail_sdmap_insert_rotate`; the result is the header
and the value of `at` when the loop is left. -/
def detail_sdmap_insert_rotate_loop1 :
    Nat → sdmap_heap → Nat → Option (sdmap_heap × Nat)
  | 0, _, _ => none
  | fuel + 1, m, at_ =>
    if at_ = m.root_slot then some (m, at_)
    else do
      let a ← detail_sdmap_slot m at_
      let parent := a.parent
      let m ← detail_sdmap_compute_height m parent
      let m ← detail_sdmap_compute_height m at_
      let balance ← detail_sdmap_compute_balance m parent
      let balance_child ← detail_sdmap_compute_balance m at_
      if balance > 1 then
        if balance_child ≥ 0 then do
          let m ← detail_sdmap_rotate_l_impl m parent
          some (m, at_)
        else do
          let m ← detail_sdmap_rotate_r_impl m at_
          let m ← detail_sdmap_rotate_l_impl m parent
          some (m, at_)
      else if balance < -1 then
        if balance_child > 0 then do
          let m ← detail_sdmap_rotate_l_impl m at_
          let m ← detail_sdmap_rotate_r_impl m parent
          some (m, at_)
        else do
          let m ← detail_sdmap_rotate_r_impl m parent
          some (m, at_)
      else detail_sdmap_insert_rotate_loop1 fuel m parent

/-- The second loop of `detail_sdmap_insert_rotate`. -/
def detail_sdmap_insert_rotate_loop2 :
    Nat → sdmap_heap → Nat → Option sdmap_heap
  | 0, _, _ => none
  | fuel + 1, m, at_ =>
    if at_ = m.root_slot then some m
    else do
      let m ← detail_sdmap_compute_height m at_
      let a ← detail_sdmap_slot m at_
      detail_sdmap_insert_rotate_loop2 fuel m a.parent

/-- Function `detail_sdmap_insert_rotate`. -/
def detail_sdmap_insert_rotate (fuel : Nat) (m : sdmap_heap) (at_ : Nat) :
    Option sdmap_heap := do
  let r ← detail_sdmap_insert_rotate_loop1 fuel m at_
  detail_sdmap_insert_rotate_loop2 fuel r.1 r.2

/-- Function `detail_sdmap_erase_rotate`. -/
def detail_sdmap_erase_rotate : Nat → sdmap_heap → Nat → Option sdmap_heap
  | 0, _, _ => none
  | fuel + 1, m, z =>
    if z = m.root_slot then some m
    else do
      let zs ← detail_sdmap_slot m z
      let z := zs.parent
      if z = NONE then some m
      else do
        let y ← detail_sdmap_taller_child m z
        let x ← detail_sdmap_taller_child m y
        let m ← detail_sdmap_compute_height m z
        if z ≠ y ∧ y ≠ x then do
          let balance ← detail_sdmap_compute_balance m z
          let balance_child ← detail_sdmap_compute_balance m y
          if balance > 1 then do
            let m ← (if balance_child ≥ 0 then detail_sdmap_rotate_l_impl m z
              else do
                let m ← detail_sdmap_rotate_r_impl m y
                detail_sdmap_rotate_l_impl m z)
            let m ← detail_sdmap_compute_height m y
            detail_sdmap_erase_rotate fuel m z
          else if balance < -1 then do
            let m ← (if balance_child > 0 then do
                let m ← detail_sdmap_rotate_l_impl m y
                detail_sdmap_rotate_r_impl m z
              else detail_sdmap_rotate_r_impl m z)
            let m ← detail_sdmap_compute_height m y
            detail_sdmap_erase_rotate fuel m z
          else detail_sdmap_erase_rotate fuel m z
        else detail_sdmap_erase_rotate fuel m z

/-- Function `detail_sdmap_get_min_in_subtree`. -/
def detail_sdmap_get_min_in_subtree : Nat → sdmap_heap → Nat → Option Nat
  | 0, _, _ => none
  | fuel + 1, m, slot_index =>
    match detail_sdmap_slot m slot_index with
    | none => none
    | some slot =>
      if slot.left = slot_index then some slot_index
      else detail_sdmap_get_min_in_subtree fuel m slot.left

/-- Function `detail_sdmap_set_heap_empty`; the result is the header and the
index of the slot whose value is returned. -/
def detail_sdmap_set_heap_empty (m : sdmap_heap) (key_size value_size : Nat)
    (key : Int) : Option (sdmap_heap × Nat) :=
  let ssize := slot_size key_size value_size
  let start := if m.capacity > 0 then m.capacity
    else (sizeof_sdmap_slot + key_size + value_size) * SDMAP_DEFAULT_CAPACITY
  match grow_capacity (ssize * (m.slot_count + 1) + 1) start (ssize * (m.slot_count + 1)) with
  | none => none
  | some new_capacity =>
    match realloc_heap m ssize new_capacity with
    | none => none
    | some m1 =>
      match store m1 0 (fun s =>
          { s with left := 0, right := 0, height := 0, parent := NONE, key := key }) with
      | none => none
      | some m2 =>
        some ({ m2 with root_slot := 0, count := m2.count + 1,
                        slot_count := m2.slot_count + 1, empty_slot := NONE }, 0)

/-- The branch of the loop of `detail_sdmap_set_heap_impl` that inserts the key
as a child of the slot `slot_index`. -/
def detail_sdmap_set_heap_insert (fuel_rotate : Nat) (m : sdmap_heap)
    (key_size value_size slot_index : Nat) (compare_result : Int) (key : Int) :
    Option (sdmap_heap × Nat) := do
  let r ← detail_sdmap_insert_heap_impl m key_size value_size key
  let new_index := r.2
  let m ← (if compare_result > 0 then
      store r.1 slot_index (fun s => { s with left := new_index })
    else store r.1 slot_index (fun s => { s with right := new_index }))
  let m ← store m new_index (fun s => { s with parent := slot_index })
  let m ← detail_sdmap_insert_rotate fuel_rotate m slot_index
  some (m, new_index)

/-- The loop of `detail_sdmap_set_heap_impl`. -/
def detail_sdmap_set_heap_loop :
    Nat → Nat → sdmap_heap → Nat → Nat → Nat → Int → Option (sdmap_heap × Nat)
  | 0, _, _, _, _, _, _ => none
  | fuel + 1, fuel_rotate, m, key_size, value_size, slot_index, key =>
    match detail_sdmap_slot m slot_index with
    | none => none
    | some slot =>
      let compare_result := detail_sdmap_compare slot.key key
      if compare_result = 0 then some (m, slot_index)
      else if (compare_result > 0 ∧ slot.left = slot_index) ∨
          (compare_result < 0 ∧ slot.right = slot_index) then
        detail_sdmap_set_heap_insert fuel_rotate m key_size value_size slot_index
          compare_result key
      else if compare_result > 0 then
        detail_sdmap_set_heap_loop fuel fuel_rotate m key_size value_size slot.left key
      else
        detail_sdmap_set_heap_loop fuel fuel_rotate m key_size value_size slot.right key

/-- Function `detail_sdmap_set_heap_impl`; the result is the header and the
index of the slot whose value address is returned. -/
def detail_sdmap_set_heap_impl (fuel : Nat) (m : sdmap_heap)
    (key_size value_size : Nat) (key : Int) : Option (sdmap_heap × Nat) :=
  if m.count = 0 ∧ m.slot_count = 0 then
    detail_sdmap_set_heap_empty m key_size value_size key
  else
    detail_sdmap_set_heap_loop fuel fuel m key_size value_size m.root_slot key

/-- The assignment through the lvalue that `sdmap_get` returns, as in
`sdmap_set(map, key, value)`. -/
def write_value (m : sdmap_heap) (index : Nat) (value : Int) : Option sdmap_heap :=
  store m index (fun s => { s with value := value })

/-- Macro `sdmap_set` on an initialised heap map: insert-or-get, then the
write of the value. -/
def sdmap_set (fuel : Nat) (m : sdmap_heap) (key_size value_size : Nat)
    (key value : Int) : Option sdmap_heap := do
  let r ← detail_sdmap_set_heap_impl fuel m key_size value_size key
  write_value r.1 r.2 value

/-- The statements of `detail_sdmap_erase_impl` that unlink the found slot:
the result is the header and the index of the slot that is released. -/
def detail_sdmap_erase_unlink (fuel : Nat) (m : sdmap_heap) (slot_index : Nat) :
    Option (sdmap_heap × Nat) := do
  let slot ← detail_sdmap_slot m slot_index
  if slot.left ≠ slot_index ∧ slot.right ≠ slot_index then do
    let target := slot_index
    let slot_index ← detail_sdmap_get_min_in_subtree fuel m slot.right
    let succ ← detail_sdmap_slot m slot_index
    let m ← store m target (fun s => { s with key := succ.key, value := succ.value })
    let slot_original ← detail_sdmap_slot m slot_index
    let slot ← detail_sdmap_slot m slot_original.parent
    if slot_original.right ≠ slot_index then
      if slot.left = slot_index then do
        let m ← store m slot_original.parent (fun s => { s with left := slot_original.right })
        let m ← store m slot_original.right (fun s => { s with parent := slot_original.parent })
        some (m, slot_index)
      else do
        let m ← store m slot_original.parent (fun s => { s with right := slot_original.right })
        let m ← store m slot_original.right (fun s => { s with parent := slot_original.parent })
        some (m, slot_index)
    else
      if slot.left = slot_index then do
        let m ← store m slot_original.parent (fun s => { s with left := slot_original.parent })
        some (m, slot_index)
      else do
        let m ← store m slot_original.parent (fun s => { s with right := slot_original.parent })
        some (m, slot_index)
  else if slot.parent = NONE then
    if slot.left ≠ slot_index then do
      let m := { m with root_slot := slot.left }
      let m ← store m slot.left (fun s => { s with parent := NONE })
      some (m, slot_index)
    else if slot.right ≠ slot_index then do
      let m := { m with root_slot := slot.right }
      let m ← store m slot.right (fun s => { s with parent := NONE })
      some (m, slot_index)
    else some ({ m with root_slot := NONE }, slot_index)
  else do
    let slot_original := slot
    let slot ← detail_sdmap_slot m slot_original.parent
    if slot_original.left ≠ slot_index then
      if slot.left = slot_index then do
        let m ← store m slot_original.parent (fun s => { s with left := slot_original.left })
        let m ← store m slot_original.left (fun s => { s with parent := slot_original.parent })
        some (m, slot_index)
      else do
        let m ← store m slot_original.parent (fun s => { s with right := slot_original.left })
        let m ← store m slot_original.left (fun s => { s with parent := slot_original.parent })
        some (m, slot_index)
    else if slot_original.right ≠ slot_index then
      if slot.left = slot_index then do
        let m ← store m slot_original.parent (fun s => { s with left := slot_original.right })
        let m ← store m slot_original.right (fun s => { s with parent := slot_original.parent })
        some (m, slot_index)
      else do
        let m ← store m slot_original.parent (fun s => { s with right := slot_original.right })
        let m ← store m slot_original.right (fun s => { s with parent := slot_original.parent })
        some (m, slot_index)
    else
      if slot.left = slot_index then do
        let m ← store m slot_original.parent (fun s => { s with left := slot_original.parent })
        some (m, slot_index)
      else do
        let m ← store m slot_original.parent (fun s => { s with right := slot_original.parent })
        some (m, slot_index)

/-- The statements of `detail_sdmap_erase_impl` that put the released slot on
the list of empty slots and adjust the element count. -/
def detail_sdmap_erase_release (m : sdmap_heap) (slot_index : Nat) :
    Option sdmap_heap :=
  if m.empty_slot ≠ NONE ∧ slot_index > m.empty_slot then do
    let e ← detail_sdmap_slot m m.empty_slot
    let m ← store m slot_index (fun s => { s with right := e.right })
    let m ← store m slot_index (fun s => { s with height := -1 })
    let m ← store m m.empty_slot (fun s => { s with right := slot_index })
    some { m with count := m.count - 1 }
  else do
    let m ← store m slot_index (fun s => { s with right := m.empty_slot })
    let m ← store m slot_index (fun s => { s with height := -1 })
    some { m with empty_slot := slot_index, count := m.count - 1 }

/-- The branch of the loop of `detail_sdmap_erase_impl` that erases the found
slot `slot_index`. -/
def detail_sdmap_erase_found (fuel : Nat) (m : sdmap_heap) (slot_index : Nat) :
    Option sdmap_heap := do
  let r ← detail_sdmap_erase_unlink fuel m slot_index
  let m ← detail_sdmap_erase_rotate fuel r.1 r.2
  detail_sdmap_erase_release m r.2

/-- The loop of `detail_sdmap_erase_impl`. -/
def detail_sdmap_erase_loop : Nat → Nat → sdmap_heap → Nat → Int → Option sdmap_heap
  | 0, _, _, _, _ => none
  | fuel + 1, fuel_inner, m, slot_index, key =>
    match detail_sdmap_slot m slot_index with
    | none => none
    | some slot =>
      let compare_result := detail_sdmap_compare slot.key key
      if compare_result = 0 then detail_sdmap_erase_found fuel_inner m slot_index
      else if compare_result > 0 then
        if slot.left = slot_index then some m
        else detail_sdmap_erase_loop fuel fuel_inner m slot.left key
      else
        if slot.right = slot_index then some m
        else detail_sdmap_erase_loop fuel fuel_inner m slot.right key

/-- Function `detail_sdmap_erase_impl`; the header pointer is `none` for
`NULL`. -/
def detail_sdmap_erase_impl (fuel : Nat) (header : Option sdmap_heap)
    (key : Int) : Option (Option sdmap_heap) :=
  match header with
  | none => some none
  | some m =>
    if m.count = 0 then some (some m)
    else (detail_sdmap_erase_loop fuel fuel m m.root_slot key).map some

/-- The loop of `detail_sdmap_optimize_empty_slots`: `n` iterations are left,
`i` is the loop index and `parent` the index of the last empty slot seen. -/
def detail_sdmap_optimize_empty_slots_loop :
    Nat → sdmap_heap → Nat → Option Nat → Option (sdmap_heap × Option Nat)
  | 0, m, _, parent => some (m, parent)
  | n + 1, m, i, parent =>
    match detail_sdmap_slot m i with
    | none => none
    | some slot =>
      if slot.height ≥ 0 then detail_sdmap_optimize_empty_slots_loop n m (i + 1) parent
      else
        match parent with
        | some p =>
          match store m p (fun s => { s with right := i }) with
          | none => none
          | some m1 => detail_sdmap_optimize_empty_slots_loop n m1 (i + 1) (some i)
        | none =>
          detail_sdmap_optimize_empty_slots_loop n { m with empty_slot := i } (i + 1) (some i)

/-- Function `detail_sdmap_optimize_empty_slots`. -/
def detail_sdmap_optimize_empty_slots (m : sdmap_heap) : Option sdmap_heap :=
  if m.empty_slot = NONE then some m
  else
    match detail_sdmap_optimize_empty_slots_loop m.slot_count m 0 none with
    | none => none
    | some (m1, some p) => store m1 p (fun s => { s with right := NONE })
    | some (m1, none) => some m1

/-- The loop of `detail_sdmap_optimize_reduce_slots`: `n` iterations are left
and `i` is the loop index. -/
def detail_sdmap_optimize_reduce_slots_loop :
    Nat → sdmap_heap → Nat → Option sdmap_heap
  | 0, m, _ => some m
  | n + 1, m, i =>
    match detail_sdmap_slot m i with
    | none => none
    | some slot =>
      if slot.height < 0 then detail_sdmap_optimize_reduce_slots_loop n m (i + 1)
      else do
        let m ← (if m.root_slot = i then some { m with root_slot := m.empty_slot }
          else do
            let parent ← detail_sdmap_slot m slot.parent
            if parent.left = i then store m slot.parent (fun s => { s with left := m.empty_slot })
            else store m slot.parent (fun s => { s with right := m.empty_slot }))
        let slot ← detail_sdmap_slot m i
        let m ← (if slot.right ≠ i then
            store m slot.right (fun s => { s with parent := m.empty_slot })
          else store m i (fun s => { s with right := m.empty_slot }))
        let slot ← detail_sdmap_slot m i
        let m ← (if slot.left ≠ i then
            store m slot.left (fun s => { s with parent := m.empty_slot })
          else store m i (fun s => { s with left := m.empty_slot }))
        let target := m.empty_slot
        let parent ← detail_sdmap_slot m target
        let m := { m with empty_slot := parent.right }
        let slot ← detail_sdmap_slot m i
        let m ← store m target (fun _ => slot)
        detail_sdmap_optimize_reduce_slots_loop n m (i + 1)

/-- Function `detail_sdmap_optimize_reduce_slots`. -/
def detail_sdmap_optimize_reduce_slots (m : sdmap_heap) : Option sdmap_heap :=
  match detail_sdmap_optimize_reduce_slots_loop (m.slot_count - m.count) m m.count with
  | none => none
  | some m1 => some { m1 with slot_count := m1.count, empty_slot := NONE }

/-- Function `detail_sdmap_optimize_impl`. -/
def detail_sdmap_optimize_impl (m : sdmap_heap) : Option sdmap_heap := do
  let m ← detail_sdmap_optimize_empty_slots m
  detail_sdmap_optimize_reduce_slots m


/-! ## The tree that the links of the slots describe -/

/-- The slot at `i`, or a fresh slot outside the block. -/
def get (m : sdmap_heap) (i : Nat) : sdmap_slot := m.slots.getD i fresh_slot

/-- The index `i` lies inside the block. -/
def valid (m : sdmap_heap) (i : Nat) : Prop := i < m.slots.length

/-- The block with slot `i` replaced. -/
def put (m : sdmap_heap) (i : Nat) (s : sdmap_slot) : sdmap_heap :=
  { m with slots := m.slots.set i s }

/-- A tree of slots: a node carries the index of its slot and the key, the
value and the height stored there. -/
inductive Tree where
  | nil : Tree
  | node (l : Tree) (i : Nat) (k v h : Int) (r : Tree) : Tree
  deriving DecidableEq

/-- The link that the owner `o` stores for the child `t`: the owner's own
index when there is no child. -/
def Tree.lnk : Tree → Nat → Nat
  | .nil, o => o
  | .node _ i _ _ _ _, _ => i

/-- The slot indices of a tree, in order. -/
def Tree.idx : Tree → List Nat
  | .nil => []
  | .node l i _ _ _ r => l.idx ++ i :: r.idx

/-- The keys of a tree, in order. -/
def Tree.keys : Tree → List Int
  | .nil => []
  | .node l _ k _ _ r => l.keys ++ k :: r.keys

/-- The key and value pairs of a tree, in order. -/
def Tree.pairs : Tree → List (Int × Int)
  | .nil => []
  | .node l _ k v _ r => l.pairs ++ (k, v) :: r.pairs

/-- The number of levels of a tree. -/
def Tree.depth : Tree → Nat
  | .nil => 0
  | .node l _ _ _ _ r => 1 + max l.depth r.depth

/-- The height of a tree as the slots count it: a leaf has height 0. -/
def Tree.hgt : Tree → Int
  | .nil => -1
  | .node l _ _ _ _ r => 1 + max l.hgt r.hgt

/-- The slots of the block hold the tree `t` as the child of `o`. -/
def Rep (m : sdmap_heap) : Tree → Nat → Prop
  | .nil, _ => True
  | .node l i k v h r, o =>
    valid m i ∧
    get m i = { left := l.lnk i, right := r.lnk i, parent := o, height := h,
                key := k, value := v } ∧
    Rep m l i ∧ Rep m r i

/-- One step of a path from a subtree to the root: the node above and the
subtree on the other side. -/
inductive Frame where
  | L (i : Nat) (k v h : Int) (r : Tree) : Frame
  | R (l : Tree) (i : Nat) (k v h : Int) : Frame
  deriving DecidableEq

/-- The node of a frame with the subtree `t` put in its open side. -/
def Frame.fill : Frame → Tree → Tree
  | .L i k v h r, t => .node t i k v h r
  | .R l i k v h, t => .node l i k v h t

/-- The slot index of the node of a frame. -/
def Frame.i : Frame → Nat
  | .L i _ _ _ _ => i
  | .R _ i _ _ _ => i

/-- The slot indices of a frame: its node and the subtree on the other side. -/
def Frame.idx : Frame → List Nat
  | .L i _ _ _ r => i :: r.idx
  | .R l i _ _ _ => i :: l.idx

/-- The whole tree around a subtree: the frames from the subtree up to the
root are filled in turn. -/
def plug : List Frame → Tree → Tree
  | [], t => t
  | f :: c, t => plug c (f.fill t)

/-- The index of the node right above the open place of a path, `NONE` at the
root. -/
def own : List Frame → Nat
  | [] => NONE
  | f :: _ => f.i

/-- The slot indices of a path. -/
def cidx : List Frame → List Nat
  | [] => []
  | f :: c => f.idx ++ cidx c

/-- The slots of the block hold the path `c`, whose open place holds the
link `x`; at the root the link is `root_slot`. -/
def RepC (m : sdmap_heap) : List Frame → Nat → Prop
  | [], x => m.root_slot = x
  | .L i k v h r :: c, x =>
    valid m i ∧
    get m i = { left := x, right := r.lnk i, parent := own c, height := h,
                key := k, value := v } ∧
    Rep m r i ∧ RepC m c i
  | .R l i k v h :: c, x =>
    valid m i ∧
    get m i = { left := l.lnk i, right := x, parent := own c, height := h,
                key := k, value := v } ∧
    Rep m l i ∧ RepC m c i

/-- The block holds the subtree `t` at the open place of the path `c`. -/
def RepZ (m : sdmap_heap) (c : List Frame) (t : Tree) : Prop :=
  RepC m c (t.lnk (own c)) ∧ Rep m t (own c)

/-- Two blocks agree on the header fields other than `root_slot` and on the
number of slots. -/
def SameHdr (m m' : sdmap_heap) : Prop :=
  m'.capacity = m.capacity ∧ m'.count = m.count ∧ m'.slot_count = m.slot_count ∧
  m'.empty_slot = m.empty_slot ∧ m'.slots.length = m.slots.length

/-- Two blocks agree on every slot outside the list `s`. -/
def SameOut (m m' : sdmap_heap) (s : List Nat) : Prop :=
  ∀ j, j ∉ s → get m' j = get m j

/-- The keys of a path that come before the open place, in order. -/
def lkeys : List Frame → List Int
  | [] => []
  | .L _ _ _ _ _ :: c => lkeys c
  | .R l _ k _ _ :: c => lkeys c ++ (l.keys ++ [k])

/-- The keys of a path that come after the open place, in order. -/
def rkeys : List Frame → List Int
  | [] => []
  | .L _ k _ _ r :: c => (k :: r.keys) ++ rkeys c
  | .R _ _ _ _ _ :: c => rkeys c

/-! ## The operations on the tree -/

/-- One step of the maximum that `detail_sdmap_compute_height` takes over the
children that exist. -/
def foldh (h0 : Int) : Tree → Int
  | .nil => h0
  | .node _ _ _ _ h _ => if h0 < h then h else h0

/-- The height that `detail_sdmap_compute_height` stores in a node with the
children `l` and `r`. -/
def ch (l r : Tree) : Int := foldh (foldh (-1) l) r + 1

/-- The result of `detail_sdmap_compute_balance` in a node with the children
`l` and `r`. -/
def balOf (l r : Tree) : Int :=
  (match l with
    | .nil => 0
    | .node _ _ _ _ h _ => 0 - (1 + h)) +
  (match r with
    | .nil => 0
    | .node _ _ _ _ h _ => 1 + h)

/-- The result of `detail_sdmap_taller_child` in a node `i` with the children
`l` and `r`. -/
def tallerOf (l : Tree) (i : Nat) (r : Tree) : Nat :=
  match l, r with
  | .nil, .nil => i
  | .node _ li _ _ _ _, .nil => li
  | .nil, .node _ ri _ _ _ _ => ri
  | .node _ li _ _ hl _, .node _ ri _ _ hr _ => if hr > hl then ri else li

/-- The root of a subtree with its height computed again. -/
def recompute : Tree → Tree
  | .nil => .nil
  | .node l i k v _ r => .node l i k v (ch l r) r

/-- The left rotation of `detail_sdmap_rotate_l_impl`. -/
def rotL : Tree → Option Tree
  | .node a i k v _ (.node b q kq vq _ c) =>
    some (.node (.node a i k v (ch a b) b) q kq vq
      (ch (.node a i k v (ch a b) b) c) c)
  | _ => none

/-- The right rotation of `detail_sdmap_rotate_r_impl`. -/
def rotR : Tree → Option Tree
  | .node (.node a p kp vp _ b) i k v _ c =>
    some (.node a p kp vp
      (ch a (.node b i k v (ch b c) c)) (.node b i k v (ch b c) c))
  | _ => none

/-- What a node `o` can read of its child `t`: the index and the stored
height of the root of `t`. -/
def ChildH (m : sdmap_heap) : Tree → Nat → Prop
  | .nil, _ => True
  | .node _ j _ _ h _, o => j ≠ o ∧ valid m j ∧ (get m j).height = h

/-- The stored height that a node `o` reads through the link `x`: nothing
when the link is the node's own index. -/
def cht (m : sdmap_heap) (x o : Nat) : Option Int :=
  if x = o then none else some (get m x).height

/-- One step of the maximum of `detail_sdmap_compute_height`. -/
def foldo (h0 : Int) : Option Int → Int
  | none => h0
  | some h => if h0 < h then h else h0

/-- The height that `detail_sdmap_compute_height` stores, from the heights
read through the two links. -/
def hcalc (hl hr : Option Int) : Int := foldo (foldo (-1) hl) hr + 1

/-- The result of `detail_sdmap_compute_balance`, from the heights read
through the two links. -/
def bcalc (hl hr : Option Int) : Int :=
  (match hl with
    | none => 0
    | some h => 0 - (1 + h)) +
  (match hr with
    | none => 0
    | some h => 1 + h)

/-- The stored height of the root of a tree. -/
def Tree.sh : Tree → Option Int
  | .nil => none
  | .node _ _ _ _ h _ => some h

/-- The height stored in the node of a frame. -/
def Frame.seth : Frame → Int → Frame
  | .L i k v _ r, h => .L i k v h r
  | .R l i k v _, h => .R l i k v h

/-- The height that `detail_sdmap_compute_height` stores in the node of a
frame whose open side holds `t`. -/
def Frame.chf : Frame → Tree → Int
  | .L _ _ _ _ r, t => ch t r
  | .R l _ _ _ _, t => ch l t

/-- The result of `detail_sdmap_compute_balance` in the node of a frame whose
open side holds `t`. -/
def Frame.balf : Frame → Tree → Int
  | .L _ _ _ _ r, t => balOf t r
  | .R l _ _ _ _, t => balOf l t

/-- The result of `detail_sdmap_compute_balance` at the root of a tree. -/
def Tree.bal : Tree → Int
  | .nil => 0
  | .node l _ _ _ _ r => balOf l r

/-- The result of `detail_sdmap_taller_child` at the root of a tree. -/
def Tree.taller : Tree → Nat
  | .nil => 0
  | .node l i _ _ _ r => tallerOf l i r

/-- The first loop of `detail_sdmap_insert_rotate` on a path: the subtree `t`
is the one rooted at `at`, the result is the path and the subtree rooted at
`at` when the loop is left.  The cases that a balanced tree cannot reach give
`none`. -/
def insLoop1 : List Frame → Tree → Option (List Frame × Tree)
  | [], t => some ([], t)
  | f :: c, t =>
    let f1 := f.seth (f.chf t)
    let t1 := recompute t
    let balance := f1.balf t1
    let balance_child := t1.bal
    if balance > 1 then
      if balance_child ≥ 0 then
        match f1 with
        | .R l g kg vg hg => (rotL (.node l g kg vg hg t1)).map (fun t' => (c, t'))
        | .L _ _ _ _ _ => none
      else
        match f1 with
        | .R l g kg vg hg =>
          match rotR t1 with
          | some t2 =>
            match rotL (.node l g kg vg hg t2) with
            | some (.node p x kx vx hx t3) => some (.R p x kx vx hx :: c, t3)
            | _ => none
          | none => none
        | .L _ _ _ _ _ => none
    else if balance < -1 then
      if balance_child > 0 then
        match f1 with
        | .L g kg vg hg r =>
          match rotL t1 with
          | some t2 =>
            match rotR (.node t2 g kg vg hg r) with
            | some (.node t3 x kx vx hx p) => some (.L x kx vx hx p :: c, t3)
            | _ => none
          | none => none
        | .R _ _ _ _ _ => none
      else
        match f1 with
        | .L g kg vg hg r => (rotR (.node t1 g kg vg hg r)).map (fun t' => (c, t'))
        | .R _ _ _ _ _ => none
    else insLoop1 c (f1.fill t1)

/-- The second loop of `detail_sdmap_insert_rotate` on a path: the result is
the whole tree. -/
def insLoop2 : List Frame → Tree → Tree
  | [], t => t
  | f :: c, t => insLoop2 c (f.fill (recompute t))

/-- The state of a rebalancing loop: the slots hold the path and the subtree,
and no slot occurs twice. -/
def ZOK (m : sdmap_heap) (c : List Frame) (t : Tree) : Prop :=
  RepZ m c t ∧ (t.idx ++ cidx c).Nodup

/-- What the steps of a rebalancing loop keep: the header, the slots outside
the slots `s` of the tree, and the set of slots of the tree. -/
def Step (m m' : sdmap_heap) (s : List Nat) (c' : List Frame) (t' : Tree) : Prop :=
  ZOK m' c' t' ∧ SameHdr m m' ∧ SameOut m m' s ∧ (t'.idx ++ cidx c').Perm s

/-- The walk of the loops of `detail_sdmap_set_heap_impl`,
`detail_sdmap_erase_impl` and `detail_sdmap_contains_impl` from the root of a
subtree: the result is the path to the node with the key, or to the place
where the key is missing. -/
def descend (key : Int) : List Frame → Tree → List Frame × Tree
  | c, .nil => (c, .nil)
  | c, .node l i k v h r =>
    if detail_sdmap_compare k key = 0 then (c, .node l i k v h r)
    else if detail_sdmap_compare k key > 0 then descend key (.L i k v h r :: c) l
    else descend key (.R l i k v h :: c) r

/-- The list of empty slots that starts at `e`: the slots are linked by
`right`, have a negative height, and the last link is `NONE`. -/
def FreeL (m : sdmap_heap) : Nat → List Nat → Prop
  | e, [] => e = NONE
  | e, i :: fl => e = i ∧ i ≠ NONE ∧ valid m i ∧ (get m i).height < 0 ∧
      FreeL m (get m i).right fl

/-- The block has room for the slots in use: the slots that fit in `capacity`
bytes are present and the capacity fits the 32-bit field. -/
def CapOK (key_size value_size : Nat) (m : sdmap_heap) : Prop :=
  m.slots.length = m.capacity / slot_size key_size value_size ∧
  m.slot_count ≤ m.slots.length ∧ m.capacity < 4294967296

/-- The node of a freshly inserted slot. -/
def leaf (n : Nat) (key value : Int) : Tree := .node .nil n key value 0 .nil

/-- The key stored in the node of a frame. -/
def Frame.k : Frame → Int
  | .L _ k _ _ _ => k
  | .R _ _ k _ _ => k

/-- The tree after the insert branch of `detail_sdmap_set_heap_impl`: the key
is not in the tree `t`, which is not empty; `n` is the new slot and `v0` the
value found in it. -/
def insTree (key : Int) (n : Nat) (v0 : Int) (t : Tree) : Option Tree :=
  match descend key [] t with
  | (f :: c, .nil) =>
    (insLoop1 c (f.fill (leaf n key v0))).map (fun r => insLoop2 r.1 r.2)
  | _ => none

/-- The nodes of a tree in order: slot index, key and value. -/
def Tree.nodes : Tree → List (Nat × Int × Int)
  | .nil => []
  | .node l i k v _ r => l.nodes ++ (i, k, v) :: r.nodes

/-- Every stored height is the height of the subtree. -/
def Exact : Tree → Prop
  | .nil => True
  | .node l _ _ _ h r => h = 1 + max l.hgt r.hgt ∧ Exact l ∧ Exact r

/-- Every node is balanced: the heights of its subtrees differ by at most 1. -/
def AVL : Tree → Prop
  | .nil => True
  | .node l _ _ _ _ r => (l.hgt - r.hgt ≤ 1 ∧ r.hgt - l.hgt ≤ 1) ∧ AVL l ∧ AVL r

/-- The tree of a heap map: balanced, with the stored heights right below
the root; the height stored in the root is not negative. -/
def Good : Tree → Prop
  | .nil => True
  | .node l i k v h r => 0 ≤ h ∧ Exact l ∧ Exact r ∧ AVL (.node l i k v h r)

/-- The keys are strictly increasing in order. -/
def BST (t : Tree) : Prop := t.keys.Pairwise (· < ·)

/-- The sibling subtree of a frame. -/
def Frame.sib : Frame → Tree
  | .L _ _ _ _ r => r
  | .R l _ _ _ _ => l

/-- The height stored in the node of a frame. -/
def Frame.h : Frame → Int
  | .L _ _ _ h _ => h
  | .R _ _ _ _ h => h

/-- The path above a subtree that had the height `oh` when the tree was
`Good`: the stored heights along the path are the old heights, except in the
root. -/
def CtxGood : List Frame → Int → Prop
  | [], _ => True
  | f :: c, oh =>
    Exact f.sib ∧ AVL f.sib ∧ (oh - f.sib.hgt ≤ 1 ∧ f.sib.hgt - oh ≤ 1) ∧
    (c ≠ [] → f.h = 1 + max oh f.sib.hgt) ∧ 0 ≤ f.h ∧
    CtxGood c (1 + max oh f.sib.hgt)

/-! ## The states of a heap map and what is read from them -/

/-- Function `debug_sdmap_sanity_height`: the height of the subtree at `index`
as the links give it. -/
def debug_sdmap_sanity_height : Nat → sdmap_heap → Nat → Option Int
  | 0, _, _ => none
  | fuel + 1, m, index =>
    match detail_sdmap_slot m index with
    | none => none
    | some slot =>
      let result : Int := 0
      match (if slot.left ≠ index then
          (debug_sdmap_sanity_height fuel m slot.left).map
            (fun h => if h + 1 > result then h + 1 else result)
        else some result) with
      | none => none
      | some result =>
        if slot.right ≠ index then
          (debug_sdmap_sanity_height fuel m slot.right).map
            (fun h => if h + 1 > result then h + 1 else result)
        else some result

/-- The heap maps that a sequence of `sdmap_set`, `detail_sdmap_erase_impl`
and `detail_sdmap_optimize_impl` reaches from the map that
`detail_sdmap_new_heap_impl` makes. -/
inductive Reachable (key_size value_size : Nat) : sdmap_heap → Prop
  | new (capacity : Nat) (garbage : List sdmap_slot)
      (hlen : garbage.length = capacity / slot_size key_size value_size)
      (hcap : capacity < 4294967296) :
      Reachable key_size value_size (detail_sdmap_new_heap_impl capacity garbage)
  | set {m m' : sdmap_heap} (fuel : Nat) (key value : Int)
      (hm : Reachable key_size value_size m)
      (h : sdmap_set fuel m key_size value_size key value = some m') :
      Reachable key_size value_size m'
  | erase {m m' : sdmap_heap} (fuel : Nat) (key : Int)
      (hm : Reachable key_size value_size m)
      (h : detail_sdmap_erase_impl fuel (some m) key = some (some m')) :
      Reachable key_size value_size m'
  | optimize {m m' : sdmap_heap}
      (hm : Reachable key_size value_size m)
      (h : detail_sdmap_optimize_impl m = some m') :
      Reachable key_size value_size m'

/-- The heap map after `sdmap_set(map, 0, 0)` and `detail_sdmap_erase_impl` of
the key 0 on a new map of 4-byte keys and values, before any shrink: no
element, one slot, in the list of empty slots. -/
def emptied : sdmap_heap :=
  { capacity := 384, count := 0, slot_count := 1, root_slot := NONE, empty_slot := 0,
    slots := { left := 0, right := NONE, parent := NONE, height := -1, key := 0, value := 0 } ::
      List.replicate 15 fresh_slot }

/-- The heap map after `sdmap_set(map, 0, 0)` and `sdmap_set(map, 1, 0)` on a
new map of 4-byte keys and values. -/
def two_keys : sdmap_heap :=
  { capacity := 384, count := 2, slot_count := 2, root_slot := 0, empty_slot := NONE,
    slots := { left := 0, right := 1, parent := NONE, height := 0, key := 0, value := 0 } ::
      { left := 1, right := 1, parent := 0, height := 0, key := 1, value := 0 } ::
      List.replicate 14 fresh_slot }

/-- The heap map after `sdmap_set(map, 0, 0)` on a new map of 4-byte keys and
values. -/
def one_key : sdmap_heap :=
  { capacity := 384, count := 1, slot_count := 1, root_slot := 0, empty_slot := NONE,
    slots := { left := 0, right := 0, parent := NONE, height := 0, key := 0, value := 0 } ::
      List.replicate 15 fresh_slot }

/-- The height stored in the root of a tree, -1 for no tree. -/
def Tree.sht : Tree → Int
  | .nil => -1
  | .node _ _ _ _ h _ => h

/-- The subtree rooted at `at` when the first loop of
`detail_sdmap_insert_rotate` tests its condition: the subtrees below are right,
the height stored in the node is the height `oh` that the subtree had before
the insert, and when the subtree is taller now its children differ in
height. -/
def InsFocus (c : List Frame) : Tree → Prop
  | .nil => False
  | .node l i k v h r => Exact l ∧ Exact r ∧ AVL (.node l i k v h r) ∧ 0 ≤ h ∧
      ∃ oh, (c ≠ [] → h = oh) ∧
        ((1 + max l.hgt r.hgt = oh) ∨ (1 + max l.hgt r.hgt = oh + 1 ∧ l.hgt ≠ r.hgt)) ∧
        CtxGood c oh

/-- The path and subtree when the first loop of `detail_sdmap_insert_rotate`
is left. -/
def InsDone (c : List Frame) (t : Tree) : Prop :=
  (c = [] ∧ Good t) ∨ (Exact t ∧ AVL t ∧ CtxGood c t.hgt)

/-- The key lies on the open side of the node of a frame. -/
def Frame.side (key : Int) : Frame → Prop
  | .L _ k _ _ _ => key < k
  | .R _ _ k _ _ => k < key

/-! ## Smallest and largest key, neighbours, traversals, capacity -/

/-- The loop of `detail_sdmap_get_min_key_impl`. -/
def detail_sdmap_get_min_key_loop : Nat → sdmap_heap → Nat → Option Int
  | 0, _, _ => none
  | fuel + 1, m, index =>
    match detail_sdmap_slot m index with
    | none => none
    | some slot =>
      if slot.left = index then some slot.key
      else detail_sdmap_get_min_key_loop fuel m slot.left

/-- Function `detail_sdmap_get_min_key_impl`: the inner `none` is `NULL`. -/
def detail_sdmap_get_min_key_impl (fuel : Nat) (header : Option sdmap_heap) :
    Option (Option Int) :=
  match header with
  | none => some none
  | some m =>
    if m.count = 0 then some none
    else (detail_sdmap_get_min_key_loop fuel m m.root_slot).map some

/-- The loop of `detail_sdmap_get_max_key_impl`. -/
def detail_sdmap_get_max_key_loop : Nat → sdmap_heap → Nat → Option Int
  | 0, _, _ => none
  | fuel + 1, m, index =>
    match detail_sdmap_slot m index with
    | none => none
    | some slot =>
      if slot.right = index then some slot.key
      else detail_sdmap_get_max_key_loop fuel m slot.right

/-- Function `detail_sdmap_get_max_key_impl`: the inner `none` is `NULL`. -/
def detail_sdmap_get_max_key_impl (fuel : Nat) (header : Option sdmap_heap) :
    Option (Option Int) :=
  match header with
  | none => some none
  | some m =>
    if m.count = 0 then some none
    else (detail_sdmap_get_max_key_loop fuel m m.root_slot).map some

/-- Function `detail_sdmap_get_max_in_subtree`. -/
def detail_sdmap_get_max_in_subtree : Nat → sdmap_heap → Nat → Option Nat
  | 0, _, _ => none
  | fuel + 1, m, slot_index =>
    match detail_sdmap_slot m slot_index with
    | none => none
    | some slot =>
      if slot.right = slot_index then some slot_index
      else detail_sdmap_get_max_in_subtree fuel m slot.right

/-- Function `detail_sdmap_get_left_parent`. -/
def detail_sdmap_get_left_parent : Nat → sdmap_heap → Nat → Option Nat
  | 0, _, _ => none
  | fuel + 1, m, slot_index =>
    match detail_sdmap_slot m slot_index with
    | none => none
    | some slot =>
      if slot.parent = NONE then some NONE
      else
        match detail_sdmap_slot m slot.parent with
        | none => none
        | some p =>
          if p.left = slot_index then some slot.parent
          else detail_sdmap_get_left_parent fuel m slot.parent

/-- Function `detail_sdmap_get_right_parent`. -/
def detail_sdmap_get_right_parent : Nat → sdmap_heap → Nat → Option Nat
  | 0, _, _ => none
  | fuel + 1, m, slot_index =>
    match detail_sdmap_slot m slot_index with
    | none => none
    | some slot =>
      if slot.parent = NONE then some NONE
      else
        match detail_sdmap_slot m slot.parent with
        | none => none
        | some p =>
          if p.right = slot_index then some slot.parent
          else detail_sdmap_get_right_parent fuel m slot.parent

/-- The statements of `detail_sdmap_get_next_impl` after the label `found`;
the result is the index of the slot whose value address is returned, the
inner `none` is `NULL`. -/
def detail_sdmap_get_next_found (fuel : Nat) (m : sdmap_heap) (slot_index : Nat)
    (slot : sdmap_slot) : Option (Option Nat) :=
  if slot.right ≠ slot_index then
    (detail_sdmap_get_min_in_subtree fuel m slot_index).map some
  else
    (detail_sdmap_get_left_parent fuel m slot_index).map
      (fun p => if p ≠ NONE then some p else none)

/-- The loop of `detail_sdmap_get_next_impl`, for a key that does not point
into the block. -/
def detail_sdmap_get_next_loop : Nat → Nat → sdmap_heap → Nat → Int → Option (Option Nat)
  | 0, _, _, _, _ => none
  | fuel + 1, fuel_inner, m, slot_index, key =>
    match detail_sdmap_slot m slot_index with
    | none => none
    | some slot =>
      let compare_result := detail_sdmap_compare slot.key key
      if compare_result = 0 then detail_sdmap_get_next_found fuel_inner m slot_index slot
      else if compare_result > 0 then
        detail_sdmap_get_next_loop fuel fuel_inner m slot.left key
      else detail_sdmap_get_next_loop fuel fuel_inner m slot.right key

/-- Function `detail_sdmap_get_next_impl`, for a key that does not point into
the block: the index of the slot whose value address is returned. -/
def detail_sdmap_get_next_impl (fuel : Nat) (header : Option sdmap_heap) (key : Int) :
    Option (Option Nat) :=
  match header with
  | none => some none
  | some m =>
    if m.count = 0 then some none
    else detail_sdmap_get_next_loop fuel fuel m m.root_slot key

/-- Function `detail_sdmap_get_next_key_impl`: the address `result - value_size`
is the key of the slot when keys and values have the same size, and no key
otherwise. -/
def detail_sdmap_get_next_key_impl (fuel : Nat) (header : Option sdmap_heap)
    (key_size value_size : Nat) (key : Int) : Option (Option Int) :=
  match detail_sdmap_get_next_impl fuel header key, header with
  | some (some index), some m =>
    if key_size = value_size then (detail_sdmap_slot m index).map (fun s => some s.key)
    else none
  | some (some _), none => none
  | some none, _ => some none
  | none, _ => none

/-- The statements of `detail_sdmap_get_prev_impl` after the label `found`. -/
def detail_sdmap_get_prev_found (fuel : Nat) (m : sdmap_heap) (slot_index : Nat)
    (slot : sdmap_slot) : Option (Option Nat) :=
  if slot.left ≠ slot_index then
    (detail_sdmap_get_max_in_subtree fuel m slot_index).map some
  else
    (detail_sdmap_get_right_parent fuel m slot_index).map
      (fun p => if p ≠ NONE then some p else none)

/-- The loop of `detail_sdmap_get_prev_impl`, for a key that does not point
into the block. -/
def detail_sdmap_get_prev_loop : Nat → Nat → sdmap_heap → Nat → Int → Option (Option Nat)
  | 0, _, _, _, _ => none
  | fuel + 1, fuel_inner, m, slot_index, key =>
    match detail_sdmap_slot m slot_index with
    | none => none
    | some slot =>
      let compare_result := detail_sdmap_compare slot.key key
      if compare_result = 0 then detail_sdmap_get_prev_found fuel_inner m slot_index slot
      else if compare_result > 0 then
        detail_sdmap_get_prev_loop fuel fuel_inner m slot.left key
      else detail_sdmap_get_prev_loop fuel fuel_inner m slot.right key

/-- Function `detail_sdmap_get_prev_impl`, for a key that does not point into
the block. -/
def detail_sdmap_get_prev_impl (fuel : Nat) (header : Option sdmap_heap) (key : Int) :
    Option (Option Nat) :=
  match header with
  | none => some none
  | some m =>
    if m.count = 0 then some none
    else detail_sdmap_get_prev_loop fuel fuel m m.root_slot key

/-- Function `detail_sdmap_get_prev_key_impl`, as
`detail_sdmap_get_next_key_impl`. -/
def detail_sdmap_get_prev_key_impl (fuel : Nat) (header : Option sdmap_heap)
    (key_size value_size : Nat) (key : Int) : Option (Option Int) :=
  match detail_sdmap_get_prev_impl fuel header key, header with
  | some (some index), some m =>
    if key_size = value_size then (detail_sdmap_slot m index).map (fun s => some s.key)
    else none
  | some (some _), none => none
  | some none, _ => some none
  | none, _ => none

/-- The inner loop of `detail_sdmap_inorder_body` and of
`detail_sdmap_preorder_body`: the walk along the `right` links from the left
child of `current_index`. -/
def detail_sdmap_body_pre : Nat → sdmap_heap → Nat → Nat → Option Nat
  | 0, _, _, _ => none
  | fuel + 1, m, current_index, pre_index =>
    match detail_sdmap_slot m pre_index with
    | none => none
    | some pre =>
      if pre.right ≠ pre_index ∧ pre.right ≠ current_index then
        detail_sdmap_body_pre fuel m current_index pre.right
      else some pre_index

/-- The outer loop of `detail_sdmap_inorder_body`; `visit` is what the
callback is given of the slot `current`, and the result is the block and the
list of the calls made. -/
def detail_sdmap_inorder_loop {α : Type} (visit : sdmap_slot → α) :
    Nat → Nat → sdmap_heap → Nat → List α → Option (sdmap_heap × List α)
  | 0, _, _, _, _ => none
  | fuel + 1, fuel_inner, m, current_index, calls =>
    match detail_sdmap_slot m current_index with
    | none => none
    | some current =>
      if current.left = current_index then
        if current.right = current_index then some (m, calls ++ [visit current])
        else detail_sdmap_inorder_loop visit fuel fuel_inner m current.right
          (calls ++ [visit current])
      else
        match detail_sdmap_body_pre fuel_inner m current_index current.left with
        | none => none
        | some pre_index =>
          match detail_sdmap_slot m pre_index with
          | none => none
          | some pre =>
            if pre.right = pre_index then
              match store m pre_index (fun s => { s with right := current_index }) with
              | none => none
              | some m1 =>
                match detail_sdmap_slot m1 current_index with
                | none => none
                | some current1 =>
                  detail_sdmap_inorder_loop visit fuel fuel_inner m1 current1.left calls
            else
              match store m pre_index (fun s => { s with right := pre_index }) with
              | none => none
              | some m1 =>
                match detail_sdmap_slot m1 current_index with
                | none => none
                | some current1 =>
                  detail_sdmap_inorder_loop visit fuel fuel_inner m1 current1.right
                    (calls ++ [visit current1])

/-- Macro `detail_sdmap_inorder_body`. -/
def detail_sdmap_inorder_body {α : Type} (visit : sdmap_slot → α) (fuel : Nat)
    (header : Option sdmap_heap) : Option (Option sdmap_heap × List α) :=
  match header with
  | none => some (none, [])
  | some m =>
    if m.root_slot = NONE then some (some m, [])
    else (detail_sdmap_inorder_loop visit fuel fuel m m.root_slot []).map
      (fun r => (some r.1, r.2))

/-- The outer loop of `detail_sdmap_preorder_body`. -/
def detail_sdmap_preorder_loop {α : Type} (visit : sdmap_slot → α) :
    Nat → Nat → sdmap_heap → Nat → List α → Option (sdmap_heap × List α)
  | 0, _, _, _, _ => none
  | fuel + 1, fuel_inner, m, current_index, calls =>
    match detail_sdmap_slot m current_index with
    | none => none
    | some current =>
      if current.left = current_index then
        if current.right = current_index then some (m, calls ++ [visit current])
        else detail_sdmap_preorder_loop visit fuel fuel_inner m current.right
          (calls ++ [visit current])
      else
        match detail_sdmap_body_pre fuel_inner m current_index current.left with
        | none => none
        | some pre_index =>
          match detail_sdmap_slot m pre_index with
          | none => none
          | some pre =>
            if pre.right = current_index then
              match store m pre_index (fun s => { s with right := pre_index }) with
              | none => none
              | some m1 =>
                match detail_sdmap_slot m1 current_index with
                | none => none
                | some current1 =>
                  detail_sdmap_preorder_loop visit fuel fuel_inner m1 current1.right calls
            else
              match store m pre_index (fun s => { s with right := current_index }) with
              | none => none
              | some m1 =>
                match detail_sdmap_slot m1 current_index with
                | none => none
                | some current1 =>
                  detail_sdmap_preorder_loop visit fuel fuel_inner m1 current1.left
                    (calls ++ [visit current])

/-- Macro `detail_sdmap_preorder_body`. -/
def detail_sdmap_preorder_body {α : Type} (visit : sdmap_slot → α) (fuel : Nat)
    (header : Option sdmap_heap) : Option (Option sdmap_heap × List α) :=
  match header with
  | none => some (none, [])
  | some m =>
    if m.root_slot = NONE then some (some m, [])
    else (detail_sdmap_preorder_loop visit fuel fuel m m.root_slot []).map
      (fun r => (some r.1, r.2))

/-- Function `detail_sdmap_traverse_inorder_keys_impl` with a callback that
records the key it is given. -/
def detail_sdmap_traverse_inorder_keys_impl (fuel : Nat) (header : Option sdmap_heap) :
    Option (Option sdmap_heap × List Int) :=
  detail_sdmap_inorder_body (fun current => current.key) fuel header

/-- Function `detail_sdmap_traverse_preorder_keys_impl`. -/
def detail_sdmap_traverse_preorder_keys_impl (fuel : Nat) (header : Option sdmap_heap) :
    Option (Option sdmap_heap × List Int) :=
  detail_sdmap_preorder_body (fun current => current.key) fuel header

/-- Function `detail_sdmap_traverse_inorder_values_impl`. -/
def detail_sdmap_traverse_inorder_values_impl (fuel : Nat) (header : Option sdmap_heap) :
    Option (Option sdmap_heap × List Int) :=
  detail_sdmap_inorder_body (fun current => current.value) fuel header

/-- Function `detail_sdmap_traverse_preorder_values_impl`: its body is
`detail_sdmap_inorder_body`. -/
def detail_sdmap_traverse_preorder_values_impl (fuel : Nat) (header : Option sdmap_heap) :
    Option (Option sdmap_heap × List Int) :=
  detail_sdmap_inorder_body (fun current => current.value) fuel header

/-- Function `detail_sdmap_traverse_inorder_pairs_impl`. -/
def detail_sdmap_traverse_inorder_pairs_impl (fuel : Nat) (header : Option sdmap_heap) :
    Option (Option sdmap_heap × List (Int × Int)) :=
  detail_sdmap_inorder_body (fun current => (current.key, current.value)) fuel header

/-- Function `detail_sdmap_traverse_preorder_pairs_impl`: its body is
`detail_sdmap_inorder_body`. -/
def detail_sdmap_traverse_preorder_pairs_impl (fuel : Nat) (header : Option sdmap_heap) :
    Option (Option sdmap_heap × List (Int × Int)) :=
  detail_sdmap_inorder_body (fun current => (current.key, current.value)) fuel header

/-- Function `detail_sdmap_capacity_impl`. -/
def detail_sdmap_capacity_impl (header : Option sdmap_heap) (ssize : Nat) : Nat :=
  match header with
  | some m => m.capacity / ssize
  | none => 0

/-- Function `detail_sdmap_ensure_initialized_impl`: the byte count is taken
as a 32-bit value; on an allocated map only the comparison function is set. -/
def detail_sdmap_ensure_initialized_impl (header : Option sdmap_heap) (capacity : Nat)
    (garbage : List sdmap_slot) : sdmap_heap :=
  match header with
  | none => detail_sdmap_new_heap_impl (capacity % 4294967296) garbage
  | some m => m

/-- Macro `sdmap_reserve` on a heap map. -/
def sdmap_reserve (header : Option sdmap_heap) (key_size value_size capacity : Nat)
    (garbage : List sdmap_slot) : sdmap_heap :=
  detail_sdmap_ensure_initialized_impl header (slot_size key_size value_size * capacity) garbage

/-- Function `debug_sdmap_sanity_count_helper`. -/
def debug_sdmap_sanity_count_helper : Nat → sdmap_heap → Nat → Option Nat
  | 0, _, _ => none
  | fuel + 1, m, index =>
    match detail_sdmap_slot m index with
    | none => none
    | some slot =>
      let count := 1
      match (if slot.left ≠ index then
          (debug_sdmap_sanity_count_helper fuel m slot.left).map (fun n => count + n)
        else some count) with
      | none => none
      | some count =>
        if slot.right ≠ index then
          (debug_sdmap_sanity_count_helper fuel m slot.right).map (fun n => count + n)
        else some count

/-- The heap map after `sdmap_set(map, key, value)` on a new map of 4-byte
keys and values. -/
def single (key value : Int) : sdmap_heap :=
  { capacity := 384, count := 1, slot_count := 1, root_slot := 0, empty_slot := NONE,
    slots := { left := 0, right := 0, parent := NONE, height := 0, key := key,
               value := value } :: List.replicate 15 fresh_slot }

/-- The heap map after `sdmap_set(map, 1, v1)` and `sdmap_set(map, 0, v0)` on a
new map of 4-byte keys and values: the root holds the largest key and has a
left child only. -/
def root_and_left (v1 v0 : Int) : sdmap_heap :=
  { capacity := 384, count := 2, slot_count := 2, root_slot := 0, empty_slot := NONE,
    slots := { left := 1, right := 0, parent := NONE, height := 0, key := 1, value := v1 } ::
      { left := 1, right := 1, parent := 0, height := 0, key := 0, value := v0 } ::
      List.replicate 14 fresh_slot }

/-- The heap map after `sdmap_set(map, 1, 0)` and `sdmap_set(map, 0, 0)` on a
new map of 4-byte keys and values. -/
def left_child_only : sdmap_heap := root_and_left 0 0

/-- The heap map after `sdmap_set(map, 1, 10)`, `sdmap_set(map, 0, 20)` and
`sdmap_set(map, 2, 30)` on a new map of 4-byte keys and values. -/
def three_keys : sdmap_heap :=
  { capacity := 384, count := 3, slot_count := 3, root_slot := 0, empty_slot := NONE,
    slots := { left := 1, right := 2, parent := NONE, height := 0, key := 1, value := 10 } ::
      { left := 1, right := 1, parent := 0, height := 0, key := 0, value := 20 } ::
      { left := 2, right := 2, parent := 0, height := 0, key := 2, value := 30 } ::
      List.replicate 13 fresh_slot }

/-- The tree with the value `v` stored in the node of slot `i`. -/
def Tree.setv (i : Nat) (v : Int) : Tree → Tree
  | .nil => .nil
  | .node l j k w h r => .node (l.setv i v) j k (if j = i then v else w) h (r.setv i v)

/-- The invariant of a heap map: the slots reached from `root_slot` form a
balanced search tree `T` with the right stored heights below the root, the
other slots below `slot_count` form the list `fl` of empty slots, and the
counts fit. -/
def Inv (key_size value_size : Nat) (m : sdmap_heap) : Prop :=
  ∃ (T : Tree) (fl : List Nat), ZOK m [] T ∧ Good T ∧ BST T ∧
    FreeL m m.empty_slot fl ∧ (T.idx ++ fl).Nodup ∧ (∀ j ∈ T.idx ++ fl, j < m.slot_count) ∧
    m.count = T.idx.length ∧ m.count + fl.length = m.slot_count ∧
    CapOK key_size value_size m

/-- The body of the loop of `detail_sdmap_erase_rotate` after `z` is set to
its parent. -/
def detail_sdmap_erase_rotate_body (m : sdmap_heap) (z : Nat) : Option sdmap_heap := do
  let y ← detail_sdmap_taller_child m z
  let x ← detail_sdmap_taller_child m y
  let m ← detail_sdmap_compute_height m z
  if z ≠ y ∧ y ≠ x then do
    let balance ← detail_sdmap_compute_balance m z
    let balance_child ← detail_sdmap_compute_balance m y
    if balance > 1 then do
      let m ← (if balance_child ≥ 0 then detail_sdmap_rotate_l_impl m z
        else do
          let m ← detail_sdmap_rotate_r_impl m y
          detail_sdmap_rotate_l_impl m z)
      detail_sdmap_compute_height m y
    else if balance < -1 then do
      let m ← (if balance_child > 0 then do
          let m ← detail_sdmap_rotate_l_impl m y
          detail_sdmap_rotate_r_impl m z
        else detail_sdmap_rotate_r_impl m z)
      detail_sdmap_compute_height m y
    else some m
  else some m

/-- The taller child of a node with the children `l` and `r`, as
`detail_sdmap_taller_child` picks it by the stored heights: whether it is the
right child, and the child. -/
def tallerSub : Tree → Tree → Option (Bool × Tree)
  | .nil, .nil => none
  | .node a i k v h b, .nil => some (false, .node a i k v h b)
  | .nil, .node a i k v h b => some (true, .node a i k v h b)
  | .node a i k v h b, .node a' i' k' v' h' b' =>
    if h' > h then some (true, .node a' i' k' v' h' b') else some (false, .node a i k v h b)

/-- The taller child of the root of a tree. -/
def Tree.tc : Tree → Option (Bool × Tree)
  | .nil => none
  | .node l _ _ _ _ r => tallerSub l r

/-- The body of the loop of `detail_sdmap_erase_rotate` on the subtree rooted
at `z`: the result is the subtree rooted at `z` afterwards and, after a
rotation, the frame of the node above it.  The cases that a balanced tree
cannot reach give `none`. -/
def eraseStep : Tree → Option (Option Frame × Tree)
  | .nil => none
  | .node l i k v _ r =>
    let z1 := Tree.node l i k v (ch l r) r
    match tallerSub l r with
    | none => some (none, z1)
    | some (side, y) =>
      match y.tc with
      | none => some (none, z1)
      | some _ =>
        if balOf l r > 1 then
          if side then
            if y.bal ≥ 0 then
              match rotL z1 with
              | some t2 =>
                match recompute t2 with
                | .node zsub q kq vq hq c => some (some (.L q kq vq hq c), zsub)
                | .nil => none
              | none => none
            else
              match rotR r with
              | some r2 =>
                match rotL (.node l i k v (ch l r) r2) with
                | some (.node zsub q kq vq hq ysub) =>
                  some (some (.L q kq vq hq (recompute ysub)), zsub)
                | _ => none
              | none => none
          else none
        else if balOf l r < -1 then
          if side then none
          else if y.bal > 0 then
            match rotL l with
            | some l2 =>
              match rotR (.node l2 i k v (ch l r) r) with
              | some (.node ysub q kq vq hq zsub) =>
                some (some (.R (recompute ysub) q kq vq hq), zsub)
              | _ => none
            | none => none
          else
            match rotR z1 with
            | some t2 =>
              match recompute t2 with
              | .node a q kq vq hq zsub => some (some (.R a q kq vq hq), zsub)
              | .nil => none
            | none => none
        else some (none, z1)

/-- The loop of `detail_sdmap_erase_rotate` on a path whose open place holds
the subtree `t`: the result is the whole tree. -/
def eraseLoop : Nat → List Frame → Tree → Option Tree
  | 0, _, _ => none
  | _ + 1, [], t => some t
  | fuel + 1, f :: c, t =>
    match eraseStep (f.fill t) with
    | some (none, t') => eraseLoop fuel c t'
    | some (some g, t') => eraseLoop fuel (g :: c) t'
    | none => none

/-- The open side of a frame is the left one. -/
def Frame.isL : Frame → Bool
  | .L _ _ _ _ _ => true
  | .R _ _ _ _ _ => false

/-- The walk of `detail_sdmap_get_min_in_subtree`: the path to the leftmost
node of a subtree, and that node. -/
def splitMin : List Frame → Tree → List Frame × Tree
  | c, .nil => (c, .nil)
  | c, .node .nil i k v h r => (c, .node .nil i k v h r)
  | c, .node (.node ll li lk lv lh lr) i k v h r =>
    splitMin (.L i k v h r :: c) (.node ll li lk lv lh lr)

/-- The statements of `detail_sdmap_erase_impl` that unlink the found node,
the root of the subtree at the open place of the path `c`: the result is the
path and the subtree at its open place afterwards, and the slot that is
released.  A node with two children gets the key and value of the leftmost
node of its right subtree, which is unlinked in its place. -/
def unlinkAt (c : List Frame) : Tree → Option (List Frame × Tree × Nat)
  | .nil => none
  | .node .nil i _ _ _ r => some (c, r, i)
  | .node (.node ll li lk lv lh lr) i _ _ _ .nil => some (c, .node ll li lk lv lh lr, i)
  | .node (.node ll li lk lv lh lr) i _ _ h (.node rl ri rk rv rh rr) =>
    match splitMin [] (.node rl ri rk rv rh rr) with
    | (cr, .node _ si sk sv _ sr) =>
      some (cr ++ .R (.node ll li lk lv lh lr) i sk sv h :: c, sr, si)
    | _ => none

/-- What the unlinking of a node leaves: the path and subtree are held, the
released slot `z` lies outside them and still names the node above the open
place as its parent. -/
def Unlinked (m m' : sdmap_heap) (s : List Nat) (C : List Frame) (t : Tree) (z : Nat) : Prop :=
  ZOK m' C t ∧ SameHdr m m' ∧ SameOut m m' s ∧ (z :: (t.idx ++ cidx C)).Perm s ∧
  valid m' z ∧ (get m' z).parent = own C ∧ z ≠ m'.root_slot

/-- The path above a subtree that had the height `oh` in a balanced tree:
the subtrees beside the path are right and balanced with it. -/
def CtxOld : List Frame → Int → Prop
  | [], _ => True
  | f :: c, oh =>
    Exact f.sib ∧ AVL f.sib ∧ (oh - f.sib.hgt ≤ 1 ∧ f.sib.hgt - oh ≤ 1) ∧
    CtxOld c (1 + max oh f.sib.hgt)

/-- The path and subtree when the loop of `detail_sdmap_erase_rotate` tests
its condition: the subtree is right and balanced, the subtree beside it is
at most 2 taller, and the node above gets the height it had before the erase
or one less. -/
def EraInv : List Frame → Tree → Prop
  | [], t => Exact t ∧ AVL t
  | f :: c, t => Exact t ∧ AVL t ∧ Exact f.sib ∧ AVL f.sib ∧
    f.sib.hgt - t.hgt ≤ 2 ∧ t.hgt - f.sib.hgt ≤ 1 ∧
    ∃ oh, CtxOld c oh ∧ (1 + max t.hgt f.sib.hgt = oh ∨
      (1 + max t.hgt f.sib.hgt = oh - 1 ∧ f.sib.hgt - t.hgt ≤ 1))

/-- The number of passes of the loop of `detail_sdmap_erase_rotate` that a
path needs at most. -/
def eraseFuel : List Frame → Tree → Nat
  | [], _ => 0
  | f :: c, t => if f.sib.hgt - t.hgt ≤ 1 then 2 * c.length + 1 else 2 * c.length + 2

/-- The keys of the subtree at `index` read in order: left subtree, node,
right subtree, where a link to the node itself means no child. -/
def inorder_keys : Nat → sdmap_heap → Nat → Option (List Int)
  | 0, _, _ => none
  | fuel + 1, m, index =>
    match detail_sdmap_slot m index with
    | none => none
    | some slot =>
      match (if slot.left ≠ index then inorder_keys fuel m slot.left else some []) with
      | none => none
      | some ls =>
        match (if slot.right ≠ index then inorder_keys fuel m slot.right else some []) with
        | none => none
        | some rs => some (ls ++ slot.key :: rs)

/-- The keys of a map read in order from `root_slot`. -/
def map_keys (fuel : Nat) (m : sdmap_heap) : Option (List Int) :=
  if m.root_slot = NONE then some [] else inorder_keys fuel m m.root_slot

/-- The live slots of a map: the ones reached from `root_slot` through the
`left` and `right` links, where a link to the slot itself means no child. -/
inductive Live (m : sdmap_heap) : Nat → Prop
  | root : m.root_slot ≠ NONE → Live m m.root_slot
  | left {i : Nat} {s : sdmap_slot} : Live m i → detail_sdmap_slot m i = some s →
      s.left ≠ i → Live m s.left
  | right {i : Nat} {s : sdmap_slot} : Live m i → detail_sdmap_slot m i = some s →
      s.right ≠ i → Live m s.right

/-- The balance factor of the slot `index` by the heights that
`debug_sdmap_sanity_height` reads from the links: the height of the right
side minus the height of the left side, a side without child counting 0 and
a child of height h counting h + 1. -/
def structural_balance (fuel : Nat) (m : sdmap_heap) (index : Nat) : Option Int :=
  match detail_sdmap_slot m index with
  | none => none
  | some slot =>
    match (if slot.left ≠ index then
        (debug_sdmap_sanity_height fuel m slot.left).map (fun h => h + 1) else some 0) with
    | none => none
    | some hl =>
      match (if slot.right ≠ index then
          (debug_sdmap_sanity_height fuel m slot.right).map (fun h => h + 1) else some 0) with
      | none => none
      | some hr => some (hr - hl)

/-- Function `debug_sdmap_sanity_count`: 0 when the count of the header is
the number of slots reached from `root_slot`. -/
def debug_sdmap_sanity_count (fuel : Nat) (header : Option sdmap_heap) : Option Int :=
  match header with
  | none => some 0
  | some m =>
    if m.root_slot = NONE then some 0
    else
      match debug_sdmap_sanity_count_helper fuel m m.root_slot with
      | none => none
      | some read_count => if read_count ≠ m.count then some 1 else some 0

/-- Function `detail_sdmap_get_root_key_impl`: the inner `none` is `NULL`. -/
def detail_sdmap_get_root_key_impl (header : Option sdmap_heap) : Option (Option Int) :=
  match header with
  | none => some none
  | some m =>
    if m.count = 0 then some none
    else (detail_sdmap_slot m m.root_slot).map (fun s => some s.key)

/-- Function `detail_sdmap_delete_impl`: the header pointer after the call;
the block of an allocated map is freed. -/
def detail_sdmap_delete_impl (header : Option sdmap_heap) : Option sdmap_heap :=
  match header with
  | some _ => none
  | none => none

/-- The outcome of a call on a stack map: the result, the failure of the
assertion "sdmap_stack capacity exceeded", or a fault: an access outside the
block, or no fuel left. -/
inductive stack_result (α : Type) where
  | done (a : α) : stack_result α
  | capacity_exceeded : stack_result α
  | fault : stack_result α
  deriving DecidableEq

/-- Function `detail_sdmap_new_stack_impl` on the block of a stack map: the
slots of the block are not written; the field `capacity` of a heap block does
not exist in a stack map and is left 0. -/
def detail_sdmap_new_stack_impl (garbage : List sdmap_slot) : sdmap_heap :=
  { capacity := 0, count := 0, slot_count := 0, root_slot := NONE, empty_slot := NONE,
    slots := garbage }

/-- Function `detail_sdmap_insert_stack_impl`; the product in the assertion
is a 32-bit value. -/
def detail_sdmap_insert_stack_impl (m : sdmap_heap) (key_size value_size : Nat)
    (key : Int) (capacity : Nat) : stack_result (sdmap_heap × Nat) :=
  let ssize := slot_size key_size value_size
  if m.empty_slot ≠ NONE then
    let slot_index := m.empty_slot
    match detail_sdmap_slot m slot_index with
    | none => .fault
    | some slot =>
      let m1 := { m with empty_slot := slot.right }
      match store m1 slot_index (fun s =>
          { s with left := slot_index, right := slot_index, height := 0, key := key }) with
      | none => .fault
      | some m2 => .done ({ m2 with count := m2.count + 1 }, slot_index)
  else
    let m1 := { m with slot_count := m.slot_count + 1 }
    if (ssize * m1.slot_count) % 4294967296 ≤ capacity then
      let slot_index := m1.count
      match store m1 slot_index (fun s =>
          { s with left := slot_index, right := slot_index, height := 0, key := key }) with
      | none => .fault
      | some m2 => .done ({ m2 with count := m2.count + 1 }, slot_index)
    else .capacity_exceeded

/-- The branch of the loop of `detail_sdmap_set_stack_impl` that inserts the
key as a child of the slot `slot_index`. -/
def detail_sdmap_set_stack_insert (fuel_rotate : Nat) (m : sdmap_heap)
    (key_size value_size slot_index : Nat) (compare_result : Int) (key : Int)
    (capacity : Nat) : stack_result (sdmap_heap × Nat) :=
  match detail_sdmap_insert_stack_impl m key_size value_size key capacity with
  | .done r =>
    let new_index := r.2
    match (do
        let m ← (if compare_result > 0 then
            store r.1 slot_index (fun s => { s with left := new_index })
          else store r.1 slot_index (fun s => { s with right := new_index }))
        let m ← store m new_index (fun s => { s with parent := slot_index })
        detail_sdmap_insert_rotate fuel_rotate m new_index) with
    | some m => .done (m, new_index)
    | none => .fault
  | .capacity_exceeded => .capacity_exceeded
  | .fault => .fault

/-- The loop of `detail_sdmap_set_stack_impl`. -/
def detail_sdmap_set_stack_loop :
    Nat → Nat → sdmap_heap → Nat → Nat → Nat → Int → Nat → stack_result (sdmap_heap × Nat)
  | 0, _, _, _, _, _, _, _ => .fault
  | fuel + 1, fuel_rotate, m, key_size, value_size, slot_index, key, capacity =>
    match detail_sdmap_slot m slot_index with
    | none => .fault
    | some slot =>
      let compare_result := detail_sdmap_compare slot.key key
      if compare_result = 0 then .done (m, slot_index)
      else if (compare_result > 0 ∧ slot.left = slot_index) ∨
          (compare_result < 0 ∧ slot.right = slot_index) then
        detail_sdmap_set_stack_insert fuel_rotate m key_size value_size slot_index
          compare_result key capacity
      else if compare_result > 0 then
        detail_sdmap_set_stack_loop fuel fuel_rotate m key_size value_size slot.left key
          capacity
      else
        detail_sdmap_set_stack_loop fuel fuel_rotate m key_size value_size slot.right key
          capacity

/-- Function `detail_sdmap_set_stack_impl`; `capacity` is the argument of
that name, which the macro `sdmap_get` takes from `sdmap_capacity(map)`, the
number of elements of the stack map. The result is the header and the index
of the slot whose value address is returned. -/
def detail_sdmap_set_stack_impl (fuel : Nat) (m : sdmap_heap)
    (key_size value_size : Nat) (key : Int) (capacity : Nat) :
    stack_result (sdmap_heap × Nat) :=
  if m.count = 0 ∧ m.slot_count = 0 then
    if slot_size key_size value_size ≤ capacity then
      match store m 0 (fun s => { s with left := 0, right := 0, height := 0, key := key }) with
      | none => .fault
      | some m1 =>
        .done ({ m1 with count := m1.count + 1, slot_count := m1.slot_count + 1,
                         empty_slot := NONE }, 0)
    else .capacity_exceeded
  else
    detail_sdmap_set_stack_loop fuel fuel m key_size value_size m.root_slot key capacity

/-- The macro `SDHMAP_DEFAULT_CAPACITY`. -/
def SDHMAP_DEFAULT_CAPACITY : Nat := 16

/-- The value of `sizeof(sdhmap_slot)`. -/
def sizeof_sdhmap_slot : Nat := 12

/-- The value of `sizeof(sdhmap_heap)` where pointers have 8 bytes. -/
def sizeof_sdhmap_heap : Nat := 40

/-- The record `struct sdhmap_slot` followed by its key and value: `slot` is
the head of the chain of the bucket with the index of the record, and `next`
and `prev` link the element stored in the record. -/
structure sdhmap_slot where
  slot : Nat
  next : Nat
  prev : Nat
  key : Int
  value : Int
  deriving DecidableEq

/-- The record `struct sdhmap_heap`: the field `capacity`, the header fields
and the slots that the allocated block has room for. The functions
`hash_func` and `eq_func` of the header are arguments of the operations: the
keys are compared by `=`. -/
structure sdhmap_heap where
  capacity : Nat
  count : Nat
  slot_count : Nat
  used_bucket_count : Nat
  empty_slot : Nat
  slots : List sdhmap_slot
  deriving DecidableEq

/-- A slot of a block before it is written, where the content does not come
from an argument. -/
def fresh_hslot : sdhmap_slot :=
  { slot := 0, next := 0, prev := 0, key := 0, value := 0 }

/-- The macro `detail_sdhmap_slot`, read access. -/
def detail_sdhmap_slot (m : sdhmap_heap) (index : Nat) : Option sdhmap_slot :=
  m.slots[index]?

/-- A store through the pointer `detail_sdhmap_slot(header, index)`. -/
def hstore (m : sdhmap_heap) (index : Nat) (f : sdhmap_slot → sdhmap_slot) :
    Option sdhmap_heap :=
  match m.slots[index]? with
  | none => none
  | some s => some { m with slots := m.slots.set index (f s) }

/-- Function `detail_sdhmap_count_impl`. -/
def detail_sdhmap_count_impl (header : Option sdhmap_heap) : Nat :=
  match header with
  | some h => h.count
  | none => 0

/-- The loop of `detail_sdhmap_init_slots`, from the index `i`; the result
is the block and the index after the loop. -/
def detail_sdhmap_init_slots_loop : Nat → sdhmap_heap → Nat → Option (sdhmap_heap × Nat)
  | 0, _, _ => none
  | fuel + 1, m, i =>
    if i + 1 < m.slot_count then
      match hstore m i (fun s => { s with slot := NONE, next := i + 1, prev := i - 1 }) with
      | none => none
      | some m1 => detail_sdhmap_init_slots_loop fuel m1 (i + 1)
    else some (m, i)

/-- Function `detail_sdhmap_init_slots`: the loop runs less than `slot_count`
times. -/
def detail_sdhmap_init_slots (m : sdhmap_heap) : Option sdhmap_heap := do
  let m ← hstore m 0 (fun s => { s with slot := NONE, next := 1, prev := NONE })
  let r ← detail_sdhmap_init_slots_loop (m.slot_count + 1) m 1
  hstore r.1 r.2 (fun s => { s with slot := NONE, next := NONE, prev := r.2 - 1 })

/-- Function `detail_sdhmap_new_stack_impl` on a block with the slots `m.slots`. -/
def detail_sdhmap_new_stack_impl (m : sdhmap_heap) (count : Nat) : Option sdhmap_heap :=
  let m := { m with count := 0, slot_count := count, used_bucket_count := 0 }
  if count > 0 then detail_sdhmap_init_slots { m with empty_slot := 0 }
  else some { m with empty_slot := NONE }

/-- Function `detail_sdhmap_new_heap_impl`: the block has room for the
slots `garbage`, not yet written, which are `count` slots when `malloc` is
given `sizeof(sdhmap_heap) + count * slot_size`. -/
def detail_sdhmap_new_heap_impl (count slot_size : Nat) (garbage : List sdhmap_slot) :
    Option sdhmap_heap :=
  detail_sdhmap_new_stack_impl
    { capacity := (count * slot_size) % 4294967296, count := 0, slot_count := 0,
      used_bucket_count := 0, empty_slot := 0, slots := garbage } count

/-- The loop of the lookups: the walk along the chain from the slot `hash`;
the result is the index of the slot with the key. -/
def detail_sdhmap_find_loop : Nat → sdhmap_heap → Nat → Int → Option (Option Nat)
  | 0, _, _, _ => none
  | fuel + 1, m, hash, key =>
    match detail_sdhmap_slot m hash with
    | none => none
    | some slot =>
      if slot.key = key then some (some hash)
      else if slot.next ≠ NONE then detail_sdhmap_find_loop fuel m slot.next key
      else some none

/-- Function `detail_sdhmap_getp_impl`: the index of the slot whose value
address is returned; the inner `none` is `NULL`. -/
def detail_sdhmap_getp_impl (fuel : Nat) (hash_func : Int → Nat)
    (header : Option sdhmap_heap) (key : Int) : Option (Option Nat) :=
  match header with
  | none => some none
  | some m =>
    if m.slot_count = 0 then some none
    else
      let hash := hash_func key % m.slot_count
      match detail_sdhmap_slot m hash with
      | none => none
      | some slot =>
        if slot.slot = NONE then some none
        else detail_sdhmap_find_loop fuel m slot.slot key

/-- Function `detail_sdhmap_contains_impl`, whose statements are those of
`detail_sdhmap_getp_impl` with the results 1 and 0. -/
def detail_sdhmap_contains_impl (fuel : Nat) (hash_func : Int → Nat)
    (header : Option sdhmap_heap) (key : Int) : Option Bool :=
  match header with
  | none => some false
  | some m =>
    if m.slot_count = 0 then some false
    else
      let hash := hash_func key % m.slot_count
      match detail_sdhmap_slot m hash with
      | none => none
      | some slot =>
        if slot.slot = NONE then some false
        else (detail_sdhmap_find_loop fuel m slot.slot key).map (fun r => r.isSome)

/-- Function `detail_sdhmap_pop_empty`. -/
def detail_sdhmap_pop_empty (m : sdhmap_heap) : Option (sdhmap_heap × Nat) :=
  if m.empty_slot = NONE then none
  else do
    let index := m.empty_slot
    let slot ← detail_sdhmap_slot m index
    let m ← (if slot.next ≠ NONE then
        hstore m slot.next (fun s => { s with prev := slot.prev })
      else some m)
    let slot ← detail_sdhmap_slot m index
    let m := { m with empty_slot := slot.next }
    let m ← hstore m index (fun s => { s with next := NONE, prev := NONE })
    some (m, index)

/-- Function `detail_sdhmap_insert_to_empty`; the result is the block and
the index of the slot whose value address is returned. -/
def detail_sdhmap_insert_to_empty (m : sdhmap_heap) (key : Int) (empty_index : Nat) :
    Option (sdhmap_heap × Nat) := do
  let r ← detail_sdhmap_pop_empty m
  let new_index := r.2
  let m ← hstore r.1 empty_index (fun s => { s with slot := new_index })
  let m ← hstore m new_index (fun s => { s with key := key })
  some ({ m with count := m.count + 1, used_bucket_count := m.used_bucket_count + 1 },
    new_index)

/-- Function `detail_sdhmap_insert_to_list`. -/
def detail_sdhmap_insert_to_list (m : sdhmap_heap) (key : Int) (end_index : Nat) :
    Option (sdhmap_heap × Nat) := do
  let r ← detail_sdhmap_pop_empty m
  let new_index := r.2
  let m ← hstore r.1 end_index (fun s => { s with next := new_index })
  let m ← hstore m new_index (fun s => { s with key := key })
  some ({ m with count := m.count + 1 }, new_index)

/-- The loop of `detail_sdhmap_set_common`. -/
def detail_sdhmap_set_common_loop : Nat → sdhmap_heap → Nat → Int →
    Option (sdhmap_heap × Nat)
  | 0, _, _, _ => none
  | fuel + 1, m, hash, key =>
    match detail_sdhmap_slot m hash with
    | none => none
    | some slot =>
      if slot.key = key then some (m, hash)
      else if slot.next ≠ NONE then detail_sdhmap_set_common_loop fuel m slot.next key
      else detail_sdhmap_insert_to_list m key hash

/-- Function `detail_sdhmap_set_common`: the remainder by a `slot_count` of
0 has no result. -/
def detail_sdhmap_set_common (fuel : Nat) (hash_func : Int → Nat) (m : sdhmap_heap)
    (key : Int) : Option (sdhmap_heap × Nat) :=
  if m.slot_count = 0 then none
  else
    let hash := hash_func key % m.slot_count
    match detail_sdhmap_slot m hash with
    | none => none
    | some slot =>
      if slot.slot = NONE then detail_sdhmap_insert_to_empty m key hash
      else detail_sdhmap_set_common_loop fuel m slot.slot key

/-- A write of a pair into the buffer `pairs` of `detail_sdhmap_get_kv_pairs`. -/
def set_pair (pairs : List (Int × Int)) (j : Nat) (p : Int × Int) :
    Option (List (Int × Int)) :=
  if j < pairs.length then some (pairs.set j p) else none

/-- The inner loop of `detail_sdhmap_get_kv_pairs` with the copy before it:
the pairs of the chain from the slot `index` are written from the place `j`. -/
def detail_sdhmap_get_kv_pairs_chain :
    Nat → sdhmap_heap → Nat → List (Int × Int) → Nat → Option (List (Int × Int) × Nat)
  | 0, _, _, _, _ => none
  | fuel + 1, m, index, pairs, j =>
    match detail_sdhmap_slot m index with
    | none => none
    | some slot =>
      match set_pair pairs j (slot.key, slot.value) with
      | none => none
      | some pairs1 =>
        if slot.next = NONE then some (pairs1, j + 1)
        else detail_sdhmap_get_kv_pairs_chain fuel m slot.next pairs1 (j + 1)

/-- The outer loop of `detail_sdhmap_get_kv_pairs`: `n` iterations are left
and `i` is the loop index. -/
def detail_sdhmap_get_kv_pairs_loop :
    Nat → Nat → sdhmap_heap → Nat → List (Int × Int) → Nat → Option (List (Int × Int))
  | 0, _, _, _, pairs, _ => some pairs
  | n + 1, fuel, m, i, pairs, j =>
    match detail_sdhmap_slot m i with
    | none => none
    | some slot =>
      if slot.slot ≠ NONE then
        match detail_sdhmap_get_kv_pairs_chain fuel m slot.slot pairs j with
        | none => none
        | some r => detail_sdhmap_get_kv_pairs_loop n fuel m (i + 1) r.1 r.2
      else detail_sdhmap_get_kv_pairs_loop n fuel m (i + 1) pairs j

/-- Function `detail_sdhmap_get_kv_pairs`: `garbage` is the content of the
buffer of `count` pairs that `sdhmap_malloc` returns; with `slot_count` 0 the
result is `NULL`, here the empty buffer. -/
def detail_sdhmap_get_kv_pairs (fuel : Nat) (m : sdhmap_heap) (garbage : List (Int × Int)) :
    Option (List (Int × Int)) :=
  if m.slot_count = 0 then some []
  else detail_sdhmap_get_kv_pairs_loop m.slot_count fuel m 0 (garbage.take m.count) 0

/-- The loop of `detail_sdhmap_heap_realloc` on the 32-bit variable
`capacity`. -/
def detail_sdhmap_heap_realloc_loop : Nat → Nat → Nat → Option Nat
  | 0, _, _ => none
  | fuel + 1, capacity, needed =>
    if capacity < needed then
      detail_sdhmap_heap_realloc_loop fuel ((capacity * 2) % 4294967296) needed
    else some capacity

/-- The block after `sdhmap_realloc(heap, size)`: it has room for the slots
that fit in `size` bytes after the record `sdhmap_heap`, and keeps the
content of the slots that it had. -/
def sdhmap_realloc (m : sdhmap_heap) (slot_size size : Nat) : sdhmap_heap :=
  let n := (size - sizeof_sdhmap_heap) / slot_size
  { m with slots := (m.slots ++ List.replicate (n - m.slots.length) fresh_hslot).take n }

/-- Function `detail_sdhmap_heap_realloc`; the product `slot_size *
slot_count` is a 32-bit value. -/
def detail_sdhmap_heap_realloc (fuel : Nat) (m : sdhmap_heap) (slot_size : Nat) :
    Option sdhmap_heap :=
  match detail_sdhmap_heap_realloc_loop fuel m.capacity
      (sizeof_sdhmap_heap + (slot_size * m.slot_count) % 4294967296) with
  | none => none
  | some capacity =>
    if capacity > m.capacity then
      some { sdhmap_realloc m slot_size capacity with capacity := capacity }
    else some m

/-- The value of `(float)n` for a 32-bit `n`: the nearest number with 24
significant bits, the even one of two nearest. -/
def float_of_index (n : Nat) : Nat :=
  if n < 16777216 then n
  else
    let e := Nat.log2 n - 23
    let q := n / 2 ^ e
    let r := n % 2 ^ e
    (if 2 * r > 2 ^ e ∨ (2 * r = 2 ^ e ∧ q % 2 = 1) then q + 1 else q) * 2 ^ e

/-- The loop of `detail_sdhmap_heap_resize` that inserts the pairs of the
buffer again: `detail_sdhmap_set_common` of the key, then the copy of the
value. -/
def detail_sdhmap_heap_resize_loop (fuel : Nat) (hash_func : Int → Nat) :
    List (Int × Int) → sdhmap_heap → Option sdhmap_heap
  | [], m => some m
  | p :: pairs, m =>
    match detail_sdhmap_set_common fuel hash_func m p.1 with
    | none => none
    | some r =>
      match hstore r.1 r.2 (fun s => { s with value := p.2 }) with
      | none => none
      | some m1 => detail_sdhmap_heap_resize_loop fuel hash_func pairs m1

/-- Function `detail_sdhmap_heap_resize`. -/
def detail_sdhmap_heap_resize (fuel : Nat) (hash_func : Int → Nat) (m : sdhmap_heap)
    (slot_size target : Nat) (garbage : List (Int × Int)) : Option sdhmap_heap :=
  if m.slot_count = target then some m
  else do
    let j := m.count
    let pairs ← detail_sdhmap_get_kv_pairs fuel m garbage
    let m := { m with count := 0, slot_count := target, used_bucket_count := 0,
                      empty_slot := 0 }
    let m ← detail_sdhmap_heap_realloc fuel m slot_size
    let m ← detail_sdhmap_init_slots m
    if j ≤ pairs.length then detail_sdhmap_heap_resize_loop fuel hash_func (pairs.take j) m
    else none

/-- Function `detail_sdhmap_set_heap_impl`: the product of `(float)slot_count`
and 0.75 is compared with `count` as a `double`. -/
def detail_sdhmap_set_heap_impl (fuel : Nat) (hash_func : Int → Nat) (m : sdhmap_heap)
    (slot_size : Nat) (key : Int) (garbage : List (Int × Int)) :
    Option (sdhmap_heap × Nat) := do
  let m ← (if 3 * float_of_index m.slot_count < 4 * m.count ∨ m.slot_count = 0 then
      detail_sdhmap_heap_resize fuel hash_func m slot_size
        (if m.slot_count = 0 then SDHMAP_DEFAULT_CAPACITY
          else (m.slot_count * 2) % 4294967296) garbage
    else some m)
  detail_sdhmap_set_common fuel hash_func m key

/-- Macro `sdhmap_set` on an allocated heap map: insert-or-get, then the
write of the value. -/
def sdhmap_set (fuel : Nat) (hash_func : Int → Nat) (m : sdhmap_heap) (slot_size : Nat)
    (key value : Int) (garbage : List (Int × Int)) : Option sdhmap_heap := do
  let r ← detail_sdhmap_set_heap_impl fuel hash_func m slot_size key garbage
  hstore r.1 r.2 (fun s => { s with value := value })

/-- The statements of `detail_sdhmap_erase_at` that both branches end with:
the slot `hash` becomes the head of the list of empty slots. -/
def detail_sdhmap_erase_at_release (m : sdhmap_heap) (hash : Nat) : Option sdhmap_heap := do
  let m ← hstore m m.empty_slot (fun s => { s with prev := hash })
  let m ← hstore m hash (fun s => { s with prev := NONE })
  let m ← hstore m hash (fun s => { s with next := m.empty_slot })
  some { m with empty_slot := hash }

/-- Function `detail_sdhmap_erase_at`; the decrements are 32-bit. -/
def detail_sdhmap_erase_at (m : sdhmap_heap) (bucket hash : Nat) : Option sdhmap_heap := do
  let h_slot ← detail_sdhmap_slot m hash
  let m ← (if h_slot.prev = NONE then do
      let m ← (if h_slot.next = NONE then do
          let m ← hstore m bucket (fun s => { s with slot := NONE })
          some { m with used_bucket_count := (m.used_bucket_count + 4294967295) % 4294967296 }
        else do
          let m ← hstore m bucket (fun s => { s with slot := h_slot.next })
          let h_slot ← detail_sdhmap_slot m hash
          hstore m h_slot.next (fun s => { s with prev := NONE }))
      detail_sdhmap_erase_at_release m hash
    else do
      let m ← (if h_slot.next = NONE then
          hstore m h_slot.prev (fun s => { s with next := NONE })
        else do
          let m ← hstore m h_slot.prev (fun s => { s with next := h_slot.next })
          let h_slot ← detail_sdhmap_slot m hash
          hstore m h_slot.next (fun s => { s with prev := h_slot.prev }))
      detail_sdhmap_erase_at_release m hash)
  some { m with count := (m.count + 4294967295) % 4294967296 }

/-- The loop of `detail_sdhmap_erase_impl`. -/
def detail_sdhmap_erase_loop : Nat → sdhmap_heap → Nat → Nat → Int → Option sdhmap_heap
  | 0, _, _, _, _ => none
  | fuel + 1, m, bucket, hash, key =>
    match detail_sdhmap_slot m hash with
    | none => none
    | some slot =>
      if slot.key = key then detail_sdhmap_erase_at m bucket hash
      else if slot.next ≠ NONE then detail_sdhmap_erase_loop fuel m bucket slot.next key
      else some m

/-- Function `detail_sdhmap_erase_impl`; the header pointer is `none` for
`NULL`. -/
def detail_sdhmap_erase_impl (fuel : Nat) (hash_func : Int → Nat)
    (header : Option sdhmap_heap) (key : Int) : Option (Option sdhmap_heap) :=
  match header with
  | none => some none
  | some m =>
    if m.slot_count = 0 then some (some m)
    else
      let hash := hash_func key % m.slot_count
      match detail_sdhmap_slot m hash with
      | none => none
      | some slot =>
        if slot.slot = NONE then some (some m)
        else (detail_sdhmap_erase_loop fuel m hash slot.slot key).map some

/-- Function `detail_sdhmap_reserve_heap_impl`. -/
def detail_sdhmap_reserve_heap_impl (fuel : Nat) (hash_func : Int → Nat) (m : sdhmap_heap)
    (slot_size target : Nat) (garbage : List (Int × Int)) : Option sdhmap_heap :=
  if target > m.count then detail_sdhmap_heap_resize fuel hash_func m slot_size target garbage
  else some m

/-- Function `detail_sdhmap_shrink_heap_impl` on an allocated map. -/
def detail_sdhmap_shrink_heap_impl (fuel : Nat) (hash_func : Int → Nat) (m : sdhmap_heap)
    (slot_size : Nat) (garbage : List (Int × Int)) : Option sdhmap_heap :=
  if m.slot_count > m.count then do
    let m ← detail_sdhmap_heap_resize fuel hash_func m slot_size m.count garbage
    let capacity := (sizeof_sdhmap_heap + (slot_size * m.slot_count) % 4294967296) % 4294967296
    some { sdhmap_realloc m slot_size capacity with capacity := capacity }
  else some m

/-- The heap hash maps that `sdhmap_set`, `detail_sdhmap_erase_impl`,
`detail_sdhmap_heap_resize` and `detail_sdhmap_reserve_heap_impl` reach from a
map that `detail_sdhmap_new_heap_impl` makes for a 32-bit number of slots,
with the hash function `hash_func` and slots of `slot_size` bytes. -/
inductive sdhmap_reachable (hash_func : Int → Nat) (slot_size : Nat) : sdhmap_heap → Prop
  | new {m : sdhmap_heap} (count : Nat) (garbage : List sdhmap_slot)
      (hlen : garbage.length = count) (hcount : count < 4294967296)
      (h32 : count * slot_size < 4294967296)
      (h : detail_sdhmap_new_heap_impl count slot_size garbage = some m) :
      sdhmap_reachable hash_func slot_size m
  | set {m m' : sdhmap_heap} (fuel : Nat) (key value : Int) (garbage : List (Int × Int))
      (hm : sdhmap_reachable hash_func slot_size m) (hg : garbage.length = m.count)
      (h : sdhmap_set fuel hash_func m slot_size key value garbage = some m') :
      sdhmap_reachable hash_func slot_size m'
  | erase {m m' : sdhmap_heap} (fuel : Nat) (key : Int)
      (hm : sdhmap_reachable hash_func slot_size m)
      (h : detail_sdhmap_erase_impl fuel hash_func (some m) key = some (some m')) :
      sdhmap_reachable hash_func slot_size m'
  | resize {m m' : sdhmap_heap} (fuel target : Nat) (garbage : List (Int × Int))
      (hm : sdhmap_reachable hash_func slot_size m) (hg : garbage.length = m.count)
      (h : detail_sdhmap_heap_resize fuel hash_func m slot_size target garbage = some m') :
      sdhmap_reachable hash_func slot_size m'
  | reserve {m m' : sdhmap_heap} (fuel target : Nat) (garbage : List (Int × Int))
      (hm : sdhmap_reachable hash_func slot_size m) (hg : garbage.length = m.count)
      (h : detail_sdhmap_reserve_heap_impl fuel hash_func m slot_size target garbage = some m') :
      sdhmap_reachable hash_func slot_size m'

/-- A hash function for `sdhmap_new(map, hash_func, eq_func)`: the key itself
(0 for a negative key). -/
def hash_identity (key : Int) : Nat := key.toNat

/-- The heap hash map that `detail_sdhmap_new_heap_impl` makes for 0 slots:
the byte capacity is 0. -/
def empty_table : sdhmap_heap :=
  { capacity := 0, count := 0, slot_count := 0, used_bucket_count := 0, empty_slot := NONE,
    slots := [] }

/-- The heap hash map that `detail_sdhmap_new_heap_impl` makes for 16 slots of 20
bytes: no element, and the 16 slots in the list of empty slots. -/
def table_of_16 : sdhmap_heap :=
  { capacity := 320, count := 0, slot_count := 16, used_bucket_count := 0, empty_slot := 0,
    slots := [
      { slot := NONE, next := 1, prev := NONE, key := 0, value := 0 },
      { slot := NONE, next := 2, prev := 0, key := 0, value := 0 },
      { slot := NONE, next := 3, prev := 1, key := 0, value := 0 },
      { slot := NONE, next := 4, prev := 2, key := 0, value := 0 },
      { slot := NONE, next := 5, prev := 3, key := 0, value := 0 },
      { slot := NONE, next := 6, prev := 4, key := 0, value := 0 },
      { slot := NONE, next := 7, prev := 5, key := 0, value := 0 },
      { slot := NONE, next := 8, prev := 6, key := 0, value := 0 },
      { slot := NONE, next := 9, prev := 7, key := 0, value := 0 },
      { slot := NONE, next := 10, prev := 8, key := 0, value := 0 },
      { slot := NONE, next := 11, prev := 9, key := 0, value := 0 },
      { slot := NONE, next := 12, prev := 10, key := 0, value := 0 },
      { slot := NONE, next := 13, prev := 11, key := 0, value := 0 },
      { slot := NONE, next := 14, prev := 12, key := 0, value := 0 },
      { slot := NONE, next := 15, prev := 13, key := 0, value := 0 },
      { slot := NONE, next := NONE, prev := 14, key := 0, value := 0 }] }

/-- The heap hash map that `detail_sdhmap_new_heap_impl` makes for 2 slots. -/
def table_of_2 : sdhmap_heap :=
  { capacity := 40, count := 0, slot_count := 2, used_bucket_count := 0, empty_slot := 0,
    slots := [
      { slot := NONE, next := 1, prev := NONE, key := 0, value := 0 },
      { slot := NONE, next := NONE, prev := 0, key := 0, value := 0 }] }

/-- The map `table_of_2` after `sdhmap_set(map, 0, 10)`. -/
def one_in_2 : sdhmap_heap :=
  { capacity := 40, count := 1, slot_count := 2, used_bucket_count := 1, empty_slot := 1,
    slots := [
      { slot := 0, next := NONE, prev := NONE, key := 0, value := 10 },
      { slot := NONE, next := NONE, prev := NONE, key := 0, value := 0 }] }

/-- The map `table_of_2` after `sdhmap_set(map, 0, 10)` and `sdhmap_set(map, 1, 11)`,
with the hash function `hash_identity`: both slots are in use and the list of
empty slots is empty. -/
def full_table_of_2 : sdhmap_heap :=
  { capacity := 40, count := 2, slot_count := 2, used_bucket_count := 2, empty_slot := NONE,
    slots := [
      { slot := 0, next := NONE, prev := NONE, key := 0, value := 10 },
      { slot := 1, next := NONE, prev := NONE, key := 1, value := 11 }] }

/-- The map `table_of_16` after `sdhmap_set(map, 0, 10)`. -/
def chain_head : sdhmap_heap :=
  { capacity := 320, count := 1, slot_count := 16, used_bucket_count := 1, empty_slot := 1,
    slots := [
      { slot := 0, next := NONE, prev := NONE, key := 0, value := 10 },
      { slot := NONE, next := 2, prev := NONE, key := 0, value := 0 },
      { slot := NONE, next := 3, prev := 1, key := 0, value := 0 },
      { slot := NONE, next := 4, prev := 2, key := 0, value := 0 },
      { slot := NONE, next := 5, prev := 3, key := 0, value := 0 },
      { slot := NONE, next := 6, prev := 4, key := 0, value := 0 },
      { slot := NONE, next := 7, prev := 5, key := 0, value := 0 },
      { slot := NONE, next := 8, prev := 6, key := 0, value := 0 },
      { slot := NONE, next := 9, prev := 7, key := 0, value := 0 },
      { slot := NONE, next := 10, prev := 8, key := 0, value := 0 },
      { slot := NONE, next := 11, prev := 9, key := 0, value := 0 },
      { slot := NONE, next := 12, prev := 10, key := 0, value := 0 },
      { slot := NONE, next := 13, prev := 11, key := 0, value := 0 },
      { slot := NONE, next := 14, prev := 12, key := 0, value := 0 },
      { slot := NONE, next := 15, prev := 13, key := 0, value := 0 },
      { slot := NONE, next := NONE, prev := 14, key := 0, value := 0 }] }

/-- The map `table_of_16` after `sdhmap_set(map, 0, 10)` and `sdhmap_set(map, 16, 11)`,
with the hash function `hash_identity`: the keys 0 and 16 form the chain of
the bucket 0, in the slots 0 and 1. -/
def chain_of_two : sdhmap_heap :=
  { capacity := 320, count := 2, slot_count := 16, used_bucket_count := 1, empty_slot := 2,
    slots := [
      { slot := 0, next := 1, prev := NONE, key := 0, value := 10 },
      { slot := NONE, next := NONE, prev := NONE, key := 16, value := 11 },
      { slot := NONE, next := 3, prev := NONE, key := 0, value := 0 },
      { slot := NONE, next := 4, prev := 2, key := 0, value := 0 },
      { slot := NONE, next := 5, prev := 3, key := 0, value := 0 },
      { slot := NONE, next := 6, prev := 4, key := 0, value := 0 },
      { slot := NONE, next := 7, prev := 5, key := 0, value := 0 },
      { slot := NONE, next := 8, prev := 6, key := 0, value := 0 },
      { slot := NONE, next := 9, prev := 7, key := 0, value := 0 },
      { slot := NONE, next := 10, prev := 8, key := 0, value := 0 },
      { slot := NONE, next := 11, prev := 9, key := 0, value := 0 },
      { slot := NONE, next := 12, prev := 10, key := 0, value := 0 },
      { slot := NONE, next := 13, prev := 11, key := 0, value := 0 },
      { slot := NONE, next := 14, prev := 12, key := 0, value := 0 },
      { slot := NONE, next := 15, prev := 13, key := 0, value := 0 },
      { slot := NONE, next := NONE, prev := 14, key := 0, value := 0 }] }

/-- The map `chain_of_two` after `sdhmap_erase(map, 16)`: the bucket 0 has no
chain, the slot 1 is the first empty slot, and the slot 0 still holds the
key 0. -/
def chain_lost : sdhmap_heap :=
  { capacity := 320, count := 1, slot_count := 16, used_bucket_count := 0, empty_slot := 1,
    slots := [
      { slot := NONE, next := 1, prev := NONE, key := 0, value := 10 },
      { slot := NONE, next := 2, prev := NONE, key := 16, value := 11 },
      { slot := NONE, next := 3, prev := 1, key := 0, value := 0 },
      { slot := NONE, next := 4, prev := 2, key := 0, value := 0 },
      { slot := NONE, next := 5, prev := 3, key := 0, value := 0 },
      { slot := NONE, next := 6, prev := 4, key := 0, value := 0 },
      { slot := NONE, next := 7, prev := 5, key := 0, value := 0 },
      { slot := NONE, next := 8, prev := 6, key := 0, value := 0 },
      { slot := NONE, next := 9, prev := 7, key := 0, value := 0 },
      { slot := NONE, next := 10, prev := 8, key := 0, value := 0 },
      { slot := NONE, next := 11, prev := 9, key := 0, value := 0 },
      { slot := NONE, next := 12, prev := 10, key := 0, value := 0 },
      { slot := NONE, next := 13, prev := 11, key := 0, value := 0 },
      { slot := NONE, next := 14, prev := 12, key := 0, value := 0 },
      { slot := NONE, next := 15, prev := 13, key := 0, value := 0 },
      { slot := NONE, next := NONE, prev := 14, key := 0, value := 0 }] }

/-- The map `table_of_16` after `sdhmap_set(map, i, i)` for i = 0, ..., 11, with the
hash function `hash_identity`. -/
def twelve_keys : sdhmap_heap :=
  { capacity := 320, count := 12, slot_count := 16, used_bucket_count := 12, empty_slot := 12,
    slots := [
      { slot := 0, next := NONE, prev := NONE, key := 0, value := 0 },
      { slot := 1, next := NONE, prev := NONE, key := 1, value := 1 },
      { slot := 2, next := NONE, prev := NONE, key := 2, value := 2 },
      { slot := 3, next := NONE, prev := NONE, key := 3, value := 3 },
      { slot := 4, next := NONE, prev := NONE, key := 4, value := 4 },
      { slot := 5, next := NONE, prev := NONE, key := 5, value := 5 },
      { slot := 6, next := NONE, prev := NONE, key := 6, value := 6 },
      { slot := 7, next := NONE, prev := NONE, key := 7, value := 7 },
      { slot := 8, next := NONE, prev := NONE, key := 8, value := 8 },
      { slot := 9, next := NONE, prev := NONE, key := 9, value := 9 },
      { slot := 10, next := NONE, prev := NONE, key := 10, value := 10 },
      { slot := 11, next := NONE, prev := NONE, key := 11, value := 11 },
      { slot := NONE, next := 13, prev := NONE, key := 0, value := 0 },
      { slot := NONE, next := 14, prev := 12, key := 0, value := 0 },
      { slot := NONE, next := 15, prev := 13, key := 0, value := 0 },
      { slot := NONE, next := NONE, prev := 14, key := 0, value := 0 }] }

/-- The heap map after the calls `sdhmap_set(map, key, value)` for the pairs
of a list, in order; the buffers of a resize hold zeros before they are
written. -/
def sdhmap_set_all (fuel : Nat) (hash_func : Int → Nat) (slot_size : Nat) :
    List (Int × Int) → sdhmap_heap → Option sdhmap_heap
  | [], m => some m
  | p :: ps, m =>
    match sdhmap_set fuel hash_func m slot_size p.1 p.2 (List.replicate m.count (0, 0)) with
    | none => none
    | some m1 => sdhmap_set_all fuel hash_func slot_size ps m1

/-- The indices met from `index` along the `next` links, up to `NONE`. -/
def sdhmap_walk : Nat → sdhmap_heap → Nat → Option (List Nat)
  | 0, _, _ => none
  | fuel + 1, m, index =>
    if index = NONE then some []
    else
      match detail_sdhmap_slot m index with
      | none => none
      | some s => (sdhmap_walk fuel m s.next).map (fun l => index :: l)

/-- The list of the empty slots: the walk from `empty_slot`. -/
def sdhmap_free_list (fuel : Nat) (m : sdhmap_heap) : Option (List Nat) :=
  sdhmap_walk fuel m m.empty_slot

/-- The chain of a bucket: the walk from the head that the slot of the bucket
names. -/
def sdhmap_chain (fuel : Nat) (m : sdhmap_heap) (bucket : Nat) : Option (List Nat) :=
  match detail_sdhmap_slot m bucket with
  | none => none
  | some s => sdhmap_walk fuel m s.slot

/-- The chains of the buckets `bucket`, ..., `bucket + n - 1`, one after the
other. -/
def sdhmap_chains_from (fuel : Nat) (m : sdhmap_heap) : Nat → Nat → Option (List Nat)
  | 0, _ => some []
  | n + 1, bucket =>
    match sdhmap_chain fuel m bucket with
    | none => none
    | some l => (sdhmap_chains_from fuel m n (bucket + 1)).map (fun r => l ++ r)

/-- The slots that the chains of the buckets hold. -/
def sdhmap_chains (fuel : Nat) (m : sdhmap_heap) : Option (List Nat) :=
  sdhmap_chains_from fuel m m.slot_count 0

/-- The slot at `i` of a hash map, or a fresh slot outside the block. -/
def hget (m : sdhmap_heap) (i : Nat) : sdhmap_slot := m.slots.getD i fresh_hslot

/-- The index `i` lies inside the block of a hash map. -/
def hvalid (m : sdhmap_heap) (i : Nat) : Prop := i < m.slots.length

/-- The block of a hash map with slot `i` replaced. -/
def hput (m : sdhmap_heap) (i : Nat) (s : sdhmap_slot) : sdhmap_heap :=
  { m with slots := m.slots.set i s }

/-- The sum of `g 0`, ..., `g (n - 1)`. -/
def bsum (g : Nat → Nat) : Nat → Nat
  | 0 => 0
  | n + 1 => bsum g n + g n

/-- The number of the buckets whose head is not `NONE`. -/
def sdhmap_used_buckets (m : sdhmap_heap) : Nat :=
  bsum (fun b => match detail_sdhmap_slot m b with
    | some s => if s.slot ≠ NONE then 1 else 0
    | none => 0) m.slot_count

/-- The slots `l` are linked by `next` from the index `i` up to `NONE`; in a
chain of a bucket every slot has `prev` equal to `NONE`. -/
def HList (chain : Bool) (m : sdhmap_heap) : Nat → List Nat → Prop
  | i, [] => i = NONE
  | i, j :: l => i = j ∧ j ≠ NONE ∧ hvalid m j ∧
      (chain = true → (hget m j).prev = NONE) ∧ HList chain m (hget m j).next l

/-- The invariant of a heap hash map with the chains `ch` of the buckets and
the list `fl` of the empty slots: the chains and the list are linked in the
block, they share no slot, the counter of the used buckets is right, the
chains hold at most `count` slots, and the elements and the empty slots are
no more than the slots that `detail_sdhmap_init_slots` links, which are
`slot_count` slots, or 2 for a `slot_count` below 2. -/
def HInvW (m : sdhmap_heap) (ch : Nat → List Nat) (fl : List Nat) : Prop :=
  (∀ b, b < m.slot_count → hvalid m b ∧ HList true m (hget m b).slot (ch b)) ∧
  HList false m m.empty_slot fl ∧
  (∀ b, b < m.slot_count → (ch b).Nodup) ∧
  (∀ b b', b < m.slot_count → b' < m.slot_count → b ≠ b' → ∀ x ∈ ch b, x ∉ ch b') ∧
  fl.Nodup ∧
  (∀ b, b < m.slot_count → ∀ x ∈ ch b, x ∉ fl) ∧
  m.used_bucket_count = sdhmap_used_buckets m ∧
  bsum (fun b => (ch b).length) m.slot_count ≤ m.count ∧
  m.count + fl.length ≤ m.slots.length ∧
  m.slots.length < 4294967296 ∧
  m.count + fl.length ≤ max m.slot_count 2

/-- The invariant of a heap hash map, for some chains and list. -/
def HInv (m : sdhmap_heap) : Prop := ∃ ch fl, HInvW m ch fl

/-- The empty slots below `i`, in the order of their indices. -/
def seg (fl : List Nat) (i : Nat) : List Nat := (List.range i).filter (fun j => decide (j ∈ fl))

/-- The state of the loop of `detail_sdmap_optimize_empty_slots` before the
index `i`, from the block `m0` with the empty slots `fl`: the empty slots
below `i` are linked in the order of their indices, `parent` is the last of
them, and nothing else has changed but the `right` links of empty slots. -/
def OptInv (m0 : sdmap_heap) (fl : List Nat) (i : Nat) (m : sdmap_heap)
    (parent : Option Nat) : Prop :=
  m.slots.length = m0.slots.length ∧ m.slot_count = m0.slot_count ∧ m.count = m0.count ∧
  m.root_slot = m0.root_slot ∧ m.capacity = m0.capacity ∧
  (∀ j, j ∉ fl → get m j = get m0 j) ∧ (∀ j, (get m j).height = (get m0 j).height) ∧
  List.Chain' (fun a b => (get m a).right = b) (seg fl i) ∧
  parent = (seg fl i).getLast? ∧ (∀ x, (seg fl i).head? = some x → m.empty_slot = x)

/-- The tree without the indices of its slots: what a move of the nodes to
other slots keeps. -/
def Tree.shape : Tree → Tree
  | .nil => .nil
  | .node l _ k v h r => .node l.shape 0 k v h r.shape

/-- The key, the value and the stored height of the nodes of a tree, in
order. -/
def Tree.triples : Tree → List (Int × Int × Int)
  | .nil => []
  | .node l _ k v h r => l.triples ++ (k, v, h) :: r.triples

/-- The state of the loop of `detail_sdmap_optimize_reduce_slots` before the
index `i`, from the block `m0` with the tree `T0`: the tree has the same nodes
in slots below `count` or from `i` on, the empty slots are listed in the order
of their indices, and the slots below `count` and from `i` on are all in the
tree or in the list. -/
def RedInv (m0 : sdmap_heap) (T0 : Tree) (i : Nat) (m : sdmap_heap) : Prop :=
  ∃ (T : Tree) (fl : List Nat), ZOK m [] T ∧ T.shape = T0.shape ∧
    FreeL m m.empty_slot fl ∧ fl.Pairwise (· < ·) ∧ (T.idx ++ fl).Nodup ∧
    (∀ j ∈ T.idx, j < m0.count ∨ i ≤ j) ∧ (∀ j ∈ T.idx ++ fl, j < m0.slot_count) ∧
    T.idx.length = m0.count ∧
    (∀ j, j < m0.slot_count → j < m0.count ∨ i ≤ j → j ∈ T.idx ∨ j ∈ fl) ∧
    m.count = m0.count ∧ m.slot_count = m0.slot_count ∧ m.capacity = m0.capacity ∧
    m.slots.length = m0.slots.length

/-- The key, the value and the stored height of the slots of the subtree at
`index` read in order: left subtree, node, right subtree, where a link to the
node itself means no child. -/
def inorder_nodes : Nat → sdmap_heap → Nat → Option (List (Int × Int × Int))
  | 0, _, _ => none
  | fuel + 1, m, index =>
    match detail_sdmap_slot m index with
    | none => none
    | some slot =>
      match (if slot.left ≠ index then inorder_nodes fuel m slot.left else some []) with
      | none => none
      | some ls =>
        match (if slot.right ≠ index then inorder_nodes fuel m slot.right else some []) with
        | none => none
        | some rs => some (ls ++ (slot.key, slot.value, slot.height) :: rs)

/-- The keys, values and stored heights of a map read in order from
`root_slot`. -/
def map_nodes (fuel : Nat) (m : sdmap_heap) : Option (List (Int × Int × Int)) :=
  if m.root_slot = NONE then some [] else inorder_nodes fuel m m.root_slot

/-- The slots that the loop of `debug_sdmap_sanity_empty_count` visits: the
`right` links are followed from `slot_index` until `NONE`. -/
def empty_slots_walk : Nat → sdmap_heap → Nat → Option (List Nat)
  | 0, _, _ => none
  | fuel + 1, m, slot_index =>
    if slot_index = NONE then some []
    else
      match detail_sdmap_slot m slot_index with
      | none => none
      | some slot => (empty_slots_walk fuel m slot.right).map (fun l => slot_index :: l)

/-- The loop of `debug_sdmap_sanity_empty_count` with its final test. -/
def debug_sdmap_sanity_empty_count_loop : Nat → sdmap_heap → Nat → Nat → Option Int
  | 0, _, _, _ => none
  | fuel + 1, m, slot_index, count =>
    if slot_index = NONE then
      some (if (count + m.count) % 4294967296 ≠ m.slot_count then 1 else 0)
    else
      match detail_sdmap_slot m slot_index with
      | none => none
      | some slot =>
        if slot.height ≥ 0 then some 1
        else debug_sdmap_sanity_empty_count_loop fuel m slot.right ((count + 1) % 4294967296)

/-- Function `debug_sdmap_sanity_empty_count`: 0 when the list of empty slots
holds `slot_count - count` slots of negative height. -/
def debug_sdmap_sanity_empty_count (fuel : Nat) (header : Option sdmap_heap) : Option Int :=
  match header with
  | none => some 0
  | some m =>
    if m.empty_slot = NONE ∧ m.count ≠ m.slot_count then some 1
    else debug_sdmap_sanity_empty_count_loop fuel m m.empty_slot 0

/-- The heap map after `detail_sdmap_erase_impl` of the key 0 on the map
`three_keys`: the slot 1 is empty and the slot 2, above `count`, is in use. -/
def hole_below_top : sdmap_heap :=
  { capacity := 384, count := 2, slot_count := 3, root_slot := 0, empty_slot := 1,
    slots := { left := 0, right := 2, parent := NONE, height := 1, key := 1, value := 10 } ::
      { left := 1, right := NONE, parent := 0, height := -1, key := 0, value := 20 } ::
      { left := 2, right := 2, parent := 0, height := 0, key := 2, value := 30 } ::
      List.replicate 13 fresh_slot }

/-- The loop of `detail_sdhmap_first_impl`, which is also the last loop of
`detail_sdhmap_next_impl`: the scan of the buckets from `hash`. The result is
the index of the slot whose key address is returned, the inner `none` is
`NULL`; the increment is 32-bit. -/
def detail_sdhmap_scan_loop : Nat → sdhmap_heap → Nat → Option (Option Nat)
  | 0, _, _ => none
  | fuel + 1, m, hash =>
    match detail_sdhmap_slot m hash with
    | none => none
    | some slot =>
      if slot.slot ≠ NONE then some (some slot.slot)
      else
        let hash := (hash + 1) % 4294967296
        if hash = m.slot_count then some none
        else detail_sdhmap_scan_loop fuel m hash

/-- Function `detail_sdhmap_first_impl`; the header pointer is `none` for
`NULL`. -/
def detail_sdhmap_first_impl (fuel : Nat) (header : Option sdhmap_heap) :
    Option (Option Nat) :=
  match header with
  | none => some none
  | some m =>
    if m.slot_count = 0 then some none
    else detail_sdhmap_scan_loop fuel m 0

/-- Function `detail_sdhmap_next_impl`, for a key that is compared by value:
the first loop is the walk of the lookups, and after the label `match` the
next slot of the chain or the head of the next chain is returned. -/
def detail_sdhmap_next_impl (fuel : Nat) (hash_func : Int → Nat)
    (header : Option sdhmap_heap) (key : Int) : Option (Option Nat) :=
  match header with
  | none => some none
  | some m =>
    if m.slot_count = 0 then some none
    else
      let hash := hash_func key % m.slot_count
      match detail_sdhmap_slot m hash with
      | none => none
      | some slot =>
        if slot.slot = NONE then some none
        else
          match detail_sdhmap_find_loop fuel m slot.slot key with
          | none => none
          | some none => some none
          | some (some index) =>
            match detail_sdhmap_slot m index with
            | none => none
            | some slot =>
              if slot.next ≠ NONE then some (some slot.next)
              else
                let hash := (hash + 1) % 4294967296
                if hash = m.slot_count then some none
                else detail_sdhmap_scan_loop fuel m hash

/-- The keys that the iteration of the macros `sdhmap_first` and
`sdhmap_next` visits from the slot `index`: the key of the slot, then the
keys from the slot that `detail_sdhmap_next_impl` returns for that key, for
at most `n` keys. -/
def sdhmap_iterate_from (fuel : Nat) (hash_func : Int → Nat) (m : sdhmap_heap) :
    Nat → Option Nat → Option (List Int)
  | _, none => some []
  | 0, some _ => none
  | n + 1, some index =>
    match detail_sdhmap_slot m index with
    | none => none
    | some slot =>
      match detail_sdhmap_next_impl fuel hash_func (some m) slot.key with
      | none => none
      | some r => (sdhmap_iterate_from fuel hash_func m n r).map (fun l => slot.key :: l)

/-- The keys that the iteration visits from `detail_sdhmap_first_impl` on. -/
def sdhmap_iterate (fuel : Nat) (hash_func : Int → Nat) (m : sdhmap_heap) (n : Nat) :
    Option (List Int) :=
  match detail_sdhmap_first_impl fuel (some m) with
  | none => none
  | some r => sdhmap_iterate_from fuel hash_func m n r

/-- Function `detail_sdhmap_stack_resize`. -/
def detail_sdhmap_stack_resize (fuel : Nat) (hash_func : Int → Nat) (m : sdhmap_heap)
    (capacity target : Nat) (garbage : List (Int × Int)) : Option sdhmap_heap := do
  let j := m.count
  let pairs ← detail_sdhmap_get_kv_pairs fuel m garbage
  let m := { m with count := 0, slot_count := target, used_bucket_count := 0,
                    empty_slot := 0 }
  let m := if m.slot_count > capacity then { m with slot_count := capacity } else m
  let m ← detail_sdhmap_init_slots m
  if j ≤ pairs.length then detail_sdhmap_heap_resize_loop fuel hash_func (pairs.take j) m
  else none

/-- Function `detail_sdhmap_set_stack_impl`: the assertion on `capacity`
has no result when it fails, and the product of `(float)slot_count` and 0.75
is compared with `count` as a `double`. -/
def detail_sdhmap_set_stack_impl (fuel : Nat) (hash_func : Int → Nat) (m : sdhmap_heap)
    (key : Int) (capacity : Nat) (garbage : List (Int × Int)) :
    Option (sdhmap_heap × Nat) :=
  if capacity = 0 then none
  else do
    let m ← (if 3 * float_of_index m.slot_count > 4 * m.count ∧ m.slot_count ≠ capacity then
        detail_sdhmap_stack_resize fuel hash_func m capacity
          (if m.slot_count = 0 then SDHMAP_DEFAULT_CAPACITY
            else (m.slot_count * 2) % 4294967296) garbage
      else some m)
    detail_sdhmap_set_common fuel hash_func m key

/-- The memory of a stack hash map of 1 element after
`detail_sdhmap_new_stack_impl` with `count` 1, where the slot 1 is the memory
after the buffer: the list of empty slots has the slots 0 and 1. -/
def stack_of_1 : sdhmap_heap :=
  { capacity := 0, count := 0, slot_count := 1, used_bucket_count := 0, empty_slot := 0,
    slots := [
      { slot := NONE, next := 1, prev := NONE, key := 0, value := 0 },
      { slot := NONE, next := NONE, prev := 0, key := 0, value := 0 }] }

/-- The map `stack_of_1` after the insert of the key 0. -/
def stack_of_1_full : sdhmap_heap :=
  { capacity := 0, count := 1, slot_count := 1, used_bucket_count := 1, empty_slot := 1,
    slots := [
      { slot := 0, next := NONE, prev := NONE, key := 0, value := 0 },
      { slot := NONE, next := NONE, prev := NONE, key := 0, value := 0 }] }

/-- The map `stack_of_1_full` after the insert of the key 1, which is stored
in the slot 1 after the buffer. -/
def stack_of_1_over : sdhmap_heap :=
  { capacity := 0, count := 2, slot_count := 1, used_bucket_count := 1, empty_slot := NONE,
    slots := [
      { slot := 0, next := 1, prev := NONE, key := 0, value := 0 },
      { slot := NONE, next := NONE, prev := NONE, key := 1, value := 0 }] }

/-- The map `chain_head` after `sdhmap_erase(map, 0)`: no element in 16
slots. -/
def chain_head_erased : sdhmap_heap :=
  { chain_head with
    count := 0, used_bucket_count := 0, empty_slot := 0,
    slots := { slot := NONE, next := 1, prev := NONE, key := 0, value := 10 } ::
      { slot := NONE, next := 2, prev := 0, key := 0, value := 0 } ::
      chain_head.slots.drop 2 }

/-- The heap map after `detail_sdmap_erase_impl` of the key 2 on the map
`hole_below_top`: the slot 1 is still the first empty slot, and the released
slot 2 comes after it. -/
def two_holes : sdmap_heap :=
  { capacity := 384, count := 1, slot_count := 3, root_slot := 0, empty_slot := 1,
    slots := { left := 0, right := 0, parent := NONE, height := 0, key := 1, value := 10 } ::
      { left := 1, right := 2, parent := 0, height := -1, key := 0, value := 20 } ::
      { left := 2, right := NONE, parent := 0, height := -1, key := 2, value := 30 } ::
      List.replicate 13 fresh_slot }

/-- The invariant of a heap map with its tree `T`: `Inv` for this tree. -/
def InvT (key_size value_size : Nat) (m : sdmap_heap) (T : Tree) : Prop :=
  ∃ fl : List Nat, ZOK m [] T ∧ Good T ∧ BST T ∧
    FreeL m m.empty_slot fl ∧ (T.idx ++ fl).Nodup ∧ (∀ j ∈ T.idx ++ fl, j < m.slot_count) ∧
    m.count = T.idx.length ∧ m.count + fl.length = m.slot_count ∧
    CapOK key_size value_size m

/-- The value that a list of key and value pairs gives for a key: the value
of the first pair with the key. -/
def pairs_value (ps : List (Int × Int)) (key : Int) : Option Int :=
  (ps.find? (fun p => p.1 == key)).map (fun p => p.2)

/-- Function `detail_sdmap_shrink_impl` on an allocated heap map: the
compaction, and when the capacity is above the 32-bit product `slot_size *
slot_count`, the capacity becomes that product and `sdmap_realloc` cuts the
block to the slots that fit in it. -/
def detail_sdmap_shrink_impl (m : sdmap_heap) (ssize : Nat) : Option sdmap_heap := do
  let m ← detail_sdmap_optimize_impl m
  if m.capacity > (ssize * m.slot_count) % 4294967296 then
    let capacity := (ssize * m.slot_count) % 4294967296
    some { m with capacity := capacity, slots := m.slots.take (capacity / ssize) }
  else some m

/-- Macro `sdmap_erase` on an allocated heap map with `SDMAP_ENABLE_AUTOSHRINK`
at its default 1: `detail_sdmap_erase_impl`, then `detail_sdmap_shrink_impl`
when `sdmap_capacity(map)` is at least `sdmap_count(map) *
SDMAP_SHRINK_DENOMINATOR`, which is `count * 4.0`. The sizes of the keys and
values leave no padding in a slot, so that `sizeof(map[0].type_data->slot)` is
`slot_size`. -/
def sdmap_erase (fuel : Nat) (m : sdmap_heap) (key_size value_size : Nat) (key : Int) :
    Option sdmap_heap :=
  match detail_sdmap_erase_impl fuel (some m) key with
  | some (some m1) =>
    if detail_sdmap_capacity_impl (some m1) (slot_size key_size value_size) ≥
        detail_sdmap_count_impl (some m1) * 4 then
      detail_sdmap_shrink_impl m1 (slot_size key_size value_size)
    else some m1
  | _ => none

/-- The value found for a key: `detail_sdmap_contains_impl` tells whether the
key is present, and the value of a present key is read in the slot that the
insert-or-get `detail_sdmap_set_heap_impl` returns. The result `some none`
stands for an absent key. -/
def sdmap_value_of (fuel : Nat) (m : sdmap_heap) (key_size value_size : Nat) (key : Int) :
    Option (Option Int) :=
  match detail_sdmap_contains_impl fuel (some m) key with
  | none => none
  | some false => some none
  | some true =>
    match detail_sdmap_set_heap_impl fuel m key_size value_size key with
    | none => none
    | some r => (detail_sdmap_slot r.1 r.2).map (fun s => some s.value)

/-- The heap maps that the macros `sdmap_set` and `sdmap_erase`, which shrinks
the map, reach from the map that `detail_sdmap_new_heap_impl` makes. -/
inductive ReachableShrink (key_size value_size : Nat) : sdmap_heap → Prop
  | new (capacity : Nat) (garbage : List sdmap_slot)
      (hlen : garbage.length = capacity / slot_size key_size value_size)
      (hcap : capacity < 4294967296) :
      ReachableShrink key_size value_size (detail_sdmap_new_heap_impl capacity garbage)
  | set {m m' : sdmap_heap} (fuel : Nat) (key value : Int)
      (hm : ReachableShrink key_size value_size m)
      (h : sdmap_set fuel m key_size value_size key value = some m') :
      ReachableShrink key_size value_size m'
  | erase {m m' : sdmap_heap} (fuel : Nat) (key : Int)
      (hm : ReachableShrink key_size value_size m)
      (h : sdmap_erase fuel m key_size value_size key = some m') :
      ReachableShrink key_size value_size m'

/-- The slot index of the rightmost node of a tree, `o` for no tree. -/
def Tree.rmost : Tree → Nat → Nat
  | .nil, o => o
  | .node _ i _ _ _ r, _ => r.rmost i

/-- The `right` link of the slot `i` whose right subtree is `r`, during a
walk of `detail_sdmap_inorder_body` or `detail_sdmap_preorder_body`: without a
right child the link holds the thread `th`, and the index `i` itself when
there is no thread. -/
def rlnk (th : Option Nat) : Tree → Nat → Nat
  | .nil, i => th.getD i
  | .node _ j _ _ _ _, _ => j

/-- The slots of the block hold the tree `t` as the child of `o`, with the
thread `th` in the `right` link of its rightmost node. -/
def RepT (m : sdmap_heap) (th : Option Nat) : Tree → Nat → Prop
  | .nil, _ => True
  | .node l i k v h r, o =>
    valid m i ∧
    get m i = { left := l.lnk i, right := rlnk th r i, parent := o, height := h,
                key := k, value := v } ∧
    Rep m l i ∧ RepT m th r i

/-- The thread of the subtree at the open place of a path: the node of the
nearest frame whose left side is open, when the walk has passed it. -/
def hth : List Frame → Option Nat
  | [] => none
  | .L i _ _ _ _ :: _ => some i
  | .R _ _ _ _ _ :: c => hth c

/-- The slots of the block hold the path `c` during a walk, with the link `x`
at its open place: the right subtree of a frame whose left side is open holds
the thread of the frame. -/
def RepCT (m : sdmap_heap) : List Frame → Nat → Prop
  | [], x => m.root_slot = x
  | .L i k v h r :: c, x =>
    valid m i ∧
    get m i = { left := x, right := rlnk (hth c) r i, parent := own c, height := h,
                key := k, value := v } ∧
    RepT m (hth c) r i ∧ RepCT m c i
  | .R l i k v h :: c, x =>
    valid m i ∧
    get m i = { left := l.lnk i, right := x, parent := own c, height := h,
                key := k, value := v } ∧
    Rep m l i ∧ RepCT m c i

/-- A walk has come to the node `a` from above: the left subtree holds no
thread. -/
def StA (m : sdmap_heap) (c : List Frame) (l : Tree) (a : Nat) (k v h : Int) (r : Tree) : Prop :=
  RepCT m c a ∧ RepT m (hth c) (.node l a k v h r) (own c)

/-- A walk has come back to the node `a` along the thread of its left
subtree. -/
def StB (m : sdmap_heap) (c : List Frame) (l : Tree) (a : Nat) (k v h : Int) (r : Tree) : Prop :=
  l ≠ .nil ∧ RepCT m c a ∧ valid m a ∧
  get m a = { left := l.lnk a, right := rlnk (hth c) r a, parent := own c, height := h,
              key := k, value := v } ∧
  RepT m (some a) l a ∧ RepT m (hth c) r a

/-- The state of a walk of `detail_sdmap_inorder_body` or of
`detail_sdmap_preorder_body` over the tree `T` at the slot `x`. -/
def Walk (m : sdmap_heap) (T : Tree) (x : Nat) : Prop :=
  ∃ c l k v h r, plug c (.node l x k v h r) = T ∧
    ((Tree.node l x k v h r).idx ++ cidx c).Nodup ∧
    (StA m c l x k v h r ∨ StB m c l x k v h r)

/-! ## Reading and writing slots -/

theorem slot_eq_some {m : sdmap_heap} {i : Nat} (h : valid m i) :
    detail_sdmap_slot m i = some (get m i) := by
  unfold detail_sdmap_slot get valid at *
  simp [List.getD, List.getElem?_eq_getElem h]

theorem slot_eq_none {m : sdmap_heap} {i : Nat} (h : ¬ valid m i) :
    detail_sdmap_slot m i = none := by
  unfold detail_sdmap_slot valid at *
  simp at h
  simp [h]

theorem store_eq_some {m : sdmap_heap} {i : Nat} (f : sdmap_slot → sdmap_slot)
    (h : valid m i) : store m i f = some (put m i (f (get m i))) := by
  have := slot_eq_some h
  unfold detail_sdmap_slot at this
  simp [store, this, put]

theorem valid_put {m : sdmap_heap} {i j : Nat} {s : sdmap_slot} :
    valid (put m i s) j ↔ valid m j := by
  simp [valid, put]

theorem get_put {m : sdmap_heap} {i j : Nat} {s : sdmap_slot} (h : valid m i) :
    get (put m i s) j = if j = i then s else get m j := by
  unfold get put valid at *
  simp only [List.getD_eq_getElem?_getD]
  by_cases hji : j = i
  · subst hji; simp [h]
  · simp [hji, List.getElem?_set_ne (Ne.symm hji)]

@[simp] theorem put_count (m : sdmap_heap) (i : Nat) (s : sdmap_slot) :
    (put m i s).count = m.count := rfl
@[simp] theorem put_slot_count (m : sdmap_heap) (i : Nat) (s : sdmap_slot) :
    (put m i s).slot_count = m.slot_count := rfl
@[simp] theorem put_root_slot (m : sdmap_heap) (i : Nat) (s : sdmap_slot) :
    (put m i s).root_slot = m.root_slot := rfl
@[simp] theorem put_empty_slot (m : sdmap_heap) (i : Nat) (s : sdmap_slot) :
    (put m i s).empty_slot = m.empty_slot := rfl
@[simp] theorem put_capacity (m : sdmap_heap) (i : Nat) (s : sdmap_slot) :
    (put m i s).capacity = m.capacity := rfl
@[simp] theorem put_length (m : sdmap_heap) (i : Nat) (s : sdmap_slot) :
    (put m i s).slots.length = m.slots.length := by simp [put]


/-! ## The tree held by the slots: frame lemmas -/

theorem Rep_congr {m m' : sdmap_heap} (hv : ∀ j, valid m j → valid m' j) :
    ∀ (t : Tree) (o : Nat), (∀ j ∈ t.idx, get m' j = get m j) → Rep m t o → Rep m' t o
  | .nil, _, _, _ => trivial
  | .node l i k v h r, o, hg, ⟨h1, h2, h3, h4⟩ => by
    refine ⟨hv _ h1, ?_,
      Rep_congr hv l i (fun j hj => hg j (by simp [Tree.idx, hj])) h3,
      Rep_congr hv r i (fun j hj => hg j (by simp [Tree.idx, hj])) h4⟩
    rw [hg i (by simp [Tree.idx])]; exact h2

theorem RepC_congr {m m' : sdmap_heap} (hv : ∀ j, valid m j → valid m' j)
    (hr : m'.root_slot = m.root_slot) :
    ∀ (c : List Frame) (x : Nat), (∀ j ∈ cidx c, get m' j = get m j) →
      RepC m c x → RepC m' c x
  | [], x, _, h => by simpa [RepC, hr] using h
  | .L i k v h r :: c, x, hg, ⟨h1, h2, h3, h4⟩ => by
    refine ⟨hv _ h1, ?_,
      Rep_congr hv r i (fun j hj => hg j (by simp [cidx, Frame.idx, hj])) h3,
      RepC_congr hv hr c i (fun j hj => hg j (by simp [cidx, hj])) h4⟩
    rw [hg i (by simp [cidx, Frame.idx])]; exact h2
  | .R l i k v h :: c, x, hg, ⟨h1, h2, h3, h4⟩ => by
    refine ⟨hv _ h1, ?_,
      Rep_congr hv l i (fun j hj => hg j (by simp [cidx, Frame.idx, hj])) h3,
      RepC_congr hv hr c i (fun j hj => hg j (by simp [cidx, hj])) h4⟩
    rw [hg i (by simp [cidx, Frame.idx])]; exact h2

/-- The owner of a subtree is only recorded in the root of the subtree. -/
theorem Rep_valid_of_mem {m : sdmap_heap} :
    ∀ (t : Tree) (o : Nat), Rep m t o → ∀ j ∈ t.idx, valid m j
  | .nil, _, _, j, hj => by simp [Tree.idx] at hj
  | .node l i k v h r, o, ⟨h1, _, h3, h4⟩, j, hj => by
    simp only [Tree.idx, List.mem_append, List.mem_cons] at hj
    rcases hj with hj | hj | hj
    · exact Rep_valid_of_mem l i h3 j hj
    · exact hj ▸ h1
    · exact Rep_valid_of_mem r i h4 j hj

theorem RepC_valid_of_mem {m : sdmap_heap} :
    ∀ (c : List Frame) (x : Nat), RepC m c x → ∀ j ∈ cidx c, valid m j
  | [], _, _, j, hj => by simp [cidx] at hj
  | .L i k v h r :: c, x, ⟨h1, _, h3, h4⟩, j, hj => by
    simp only [cidx, Frame.idx, List.mem_append, List.mem_cons] at hj
    rcases hj with (hj | hj) | hj
    · exact hj ▸ h1
    · exact Rep_valid_of_mem r i h3 j hj
    · exact RepC_valid_of_mem c i h4 j hj
  | .R l i k v h :: c, x, ⟨h1, _, h3, h4⟩, j, hj => by
    simp only [cidx, Frame.idx, List.mem_append, List.mem_cons] at hj
    rcases hj with (hj | hj) | hj
    · exact hj ▸ h1
    · exact Rep_valid_of_mem l i h3 j hj
    · exact RepC_valid_of_mem c i h4 j hj

theorem fill_lnk (f : Frame) (t : Tree) (o : Nat) : (f.fill t).lnk o = f.i := by
  cases f <;> rfl

theorem fill_idx_perm (f : Frame) (t : Tree) : (f.fill t).idx.Perm (t.idx ++ f.idx) := by
  cases f with
  | L i k v h r => simp [Frame.fill, Tree.idx, Frame.idx]
  | R l i k v h =>
    simp only [Frame.fill, Tree.idx, Frame.idx]
    have h1 : (l.idx ++ i :: t.idx).Perm (i :: (l.idx ++ t.idx)) := List.perm_middle
    have h2 : (t.idx ++ i :: l.idx).Perm (i :: (t.idx ++ l.idx)) := List.perm_middle
    exact h1.trans ((List.Perm.cons i List.perm_append_comm).trans h2.symm)

theorem plug_idx_perm : ∀ (c : List Frame) (t : Tree),
    (plug c t).idx.Perm (t.idx ++ cidx c)
  | [], t => by simp [plug, cidx]
  | f :: c, t => by
    simp only [plug, cidx]
    refine (plug_idx_perm c (f.fill t)).trans ?_
    rw [← List.append_assoc]
    exact List.Perm.append_right _ (fill_idx_perm f t)

theorem fill_keys (f : Frame) (t : Tree) :
    (f.fill t).keys = lkeys [f] ++ t.keys ++ rkeys [f] := by
  cases f <;> simp [Frame.fill, Tree.keys, lkeys, rkeys]

theorem plug_keys : ∀ (c : List Frame) (t : Tree),
    (plug c t).keys = lkeys c ++ t.keys ++ rkeys c
  | [], t => by simp [plug, lkeys, rkeys]
  | .L i k v h r :: c, t => by
    simp [plug, plug_keys c, Frame.fill, Tree.keys, lkeys, rkeys]
  | .R l i k v h :: c, t => by
    simp [plug, plug_keys c, Frame.fill, Tree.keys, lkeys, rkeys]

/-- The whole tree is held at the root exactly when the path and the subtree
are held. -/
theorem RepZ_plug {m : sdmap_heap} : ∀ (c : List Frame) (t : Tree),
    RepZ m [] (plug c t) ↔ RepZ m c t
  | [], t => by simp [plug]
  | .L i k v h r :: c, t => by
    rw [plug, RepZ_plug c]
    simp only [RepZ, Frame.fill, Tree.lnk, own, Frame.i, RepC, Rep]
    tauto
  | .R l i k v h :: c, t => by
    rw [plug, RepZ_plug c]
    simp only [RepZ, Frame.fill, Tree.lnk, own, Frame.i, RepC, Rep]
    tauto

theorem own_nil : own [] = NONE := rfl
theorem own_cons (f : Frame) (c : List Frame) : own (f :: c) = f.i := rfl
theorem Frame.i_L (i : Nat) (k v h : Int) (r : Tree) : (Frame.L i k v h r).i = i := rfl
theorem Frame.i_R (l : Tree) (i : Nat) (k v h : Int) : (Frame.R l i k v h).i = i := rfl

/-! ## The reading functions on a node of the tree -/

theorem ChildH_of_Rep {m : sdmap_heap} {t : Tree} {o : Nat} (h : Rep m t o)
    (ho : o ∉ t.idx) : ChildH m t o := by
  cases t with
  | nil => trivial
  | node l j k v hh r =>
    obtain ⟨h1, h2, -, -⟩ := h
    refine ⟨?_, h1, by rw [h2]⟩
    intro hj; apply ho; simp [Tree.idx, hj]

theorem ChildH_congr {m m' : sdmap_heap} {t : Tree} {o : Nat}
    (hv : ∀ j, valid m j → valid m' j)
    (hg : ∀ j, j ≠ o → valid m j → (get m' j).height = (get m j).height)
    (h : ChildH m t o) : ChildH m' t o := by
  cases t with
  | nil => trivial
  | node l j k v hh r =>
    obtain ⟨h1, h2, h3⟩ := h
    exact ⟨h1, hv _ h2, by rw [hg j h1 h2, h3]⟩

theorem compute_height_eq {m : sdmap_heap} {i : Nat} (l r : Tree)
    (hv : valid m i) (hl : (get m i).left = l.lnk i) (hr : (get m i).right = r.lnk i)
    (cl : ChildH m l i) (cr : ChildH m r i) :
    detail_sdmap_compute_height m i =
      some (put m i { get m i with height := ch l r }) := by
  unfold detail_sdmap_compute_height
  rw [slot_eq_some hv]
  obtain ⟨s, hs⟩ : ∃ s, get m i = s := ⟨_, rfl⟩
  rw [hs] at hl hr
  cases l with
  | nil =>
    cases r with
    | nil => simp_all [Tree.lnk, store_eq_some _ hv, ch, foldh]
    | node rl rj rk rv rh rr =>
      obtain ⟨c1, c2, c3⟩ := cr
      simp_all [Tree.lnk, slot_eq_some c2, store_eq_some _ hv, ch, foldh]
  | node ll lj lk lv lh lr =>
    obtain ⟨d1, d2, d3⟩ := cl
    cases r with
    | nil => simp_all [Tree.lnk, slot_eq_some d2, store_eq_some _ hv, ch, foldh]
    | node rl rj rk rv rh rr =>
      obtain ⟨c1, c2, c3⟩ := cr
      simp_all [Tree.lnk, slot_eq_some c2, slot_eq_some d2, store_eq_some _ hv, ch,
        foldh]

theorem compute_balance_eq {m : sdmap_heap} {i : Nat} (l r : Tree)
    (hv : valid m i) (hl : (get m i).left = l.lnk i) (hr : (get m i).right = r.lnk i)
    (cl : ChildH m l i) (cr : ChildH m r i) :
    detail_sdmap_compute_balance m i = some (balOf l r) := by
  unfold detail_sdmap_compute_balance
  rw [slot_eq_some hv]
  simp only [hl, hr]
  cases l with
  | nil =>
    cases r with
    | nil => simp [Tree.lnk, balOf]
    | node rl rj rk rv rh rr =>
      obtain ⟨c1, c2, c3⟩ := cr
      simp [Tree.lnk, c1, slot_eq_some c2, balOf, c3]
  | node ll lj lk lv lh lr =>
    obtain ⟨d1, d2, d3⟩ := cl
    cases r with
    | nil => simp [Tree.lnk, d1, slot_eq_some d2, balOf, d3]
    | node rl rj rk rv rh rr =>
      obtain ⟨c1, c2, c3⟩ := cr
      simp [Tree.lnk, c1, d1, slot_eq_some c2, slot_eq_some d2, balOf, c3, d3]

theorem taller_child_eq {m : sdmap_heap} {i : Nat} (l r : Tree)
    (hv : valid m i) (hl : (get m i).left = l.lnk i) (hr : (get m i).right = r.lnk i)
    (cl : ChildH m l i) (cr : ChildH m r i) :
    detail_sdmap_taller_child m i = some (tallerOf l i r) := by
  unfold detail_sdmap_taller_child
  rw [slot_eq_some hv]
  simp only [hl, hr]
  cases l with
  | nil =>
    cases r with
    | nil => simp [Tree.lnk, tallerOf]
    | node rl rj rk rv rh rr =>
      obtain ⟨c1, c2, c3⟩ := cr
      simp [Tree.lnk, c1, tallerOf]
  | node ll lj lk lv lh lr =>
    obtain ⟨d1, d2, d3⟩ := cl
    cases r with
    | nil => simp [Tree.lnk, d1, tallerOf]
    | node rl rj rk rv rh rr =>
      obtain ⟨c1, c2, c3⟩ := cr
      simp only [Tree.lnk, c1, d1, slot_eq_some c2, slot_eq_some d2, tallerOf, c3, d3]
      simp only [ne_eq, not_false_eq_true, and_false, false_and, or_self, if_false, gt_iff_lt]
      split <;> rfl

/-! ## Stores, height computation and rotations on the slots -/

@[simp] theorem lnk_nil (o : Nat) : Tree.nil.lnk o = o := rfl
@[simp] theorem lnk_node (l : Tree) (i : Nat) (k v h : Int) (r : Tree) (o : Nat) :
    (Tree.node l i k v h r).lnk o = i := rfl

theorem SameHdr.hrefl (a : sdmap_heap) : SameHdr a a := ⟨rfl, rfl, rfl, rfl, rfl⟩

theorem SameHdr.htrans {a b c : sdmap_heap} (h1 : SameHdr a b) (h2 : SameHdr b c) :
    SameHdr a c := by
  obtain ⟨a1, a2, a3, a4, a5⟩ := h1
  obtain ⟨b1, b2, b3, b4, b5⟩ := h2
  exact ⟨b1.trans a1, b2.trans a2, b3.trans a3, b4.trans a4, b5.trans a5⟩

theorem SameHdr.valid_iff {a b : sdmap_heap} (h : SameHdr a b) (j : Nat) :
    Sdmap.valid b j ↔ Sdmap.valid a j := by
  unfold Sdmap.valid; rw [h.2.2.2.2]

theorem store_spec {m : sdmap_heap} {i : Nat} (f : sdmap_slot → sdmap_slot) (hv : valid m i) :
    ∃ m', store m i f = some m' ∧ SameHdr m m' ∧ m'.root_slot = m.root_slot ∧
      (∀ j, valid m' j ↔ valid m j) ∧
      (∀ j, get m' j = if j = i then f (get m i) else get m j) := by
  refine ⟨_, store_eq_some f hv, ⟨rfl, rfl, rfl, rfl, by simp⟩, rfl, fun j => valid_put,
    fun j => get_put hv⟩

theorem compute_height_mem {m : sdmap_heap} {i : Nat} (hv : valid m i)
    (hl : (get m i).left = i ∨ valid m (get m i).left)
    (hr : (get m i).right = i ∨ valid m (get m i).right) :
    detail_sdmap_compute_height m i =
      some (put m i { get m i with
        height := hcalc (cht m (get m i).left i) (cht m (get m i).right i) }) := by
  unfold detail_sdmap_compute_height
  rw [slot_eq_some hv]
  rcases hl with hl | hl <;> rcases hr with hr | hr
  · simp [hl, hr, store_eq_some _ hv, hcalc, cht, foldo]
  · by_cases e : (get m i).right = i
    · simp [hl, e, store_eq_some _ hv, hcalc, cht, foldo]
    · simp [hl, e, slot_eq_some hr, store_eq_some _ hv, hcalc, cht, foldo]
  · by_cases e : (get m i).left = i
    · simp [hr, e, store_eq_some _ hv, hcalc, cht, foldo]
    · simp [hr, e, slot_eq_some hl, store_eq_some _ hv, hcalc, cht, foldo]
  · by_cases e : (get m i).left = i <;> by_cases e' : (get m i).right = i <;>
      simp [e, e', slot_eq_some hl, slot_eq_some hr, store_eq_some _ hv, hcalc, cht, foldo]

theorem compute_height_spec {m : sdmap_heap} {i : Nat} (hv : valid m i)
    (hl : (get m i).left = i ∨ valid m (get m i).left)
    (hr : (get m i).right = i ∨ valid m (get m i).right) :
    ∃ m', detail_sdmap_compute_height m i = some m' ∧ SameHdr m m' ∧
      m'.root_slot = m.root_slot ∧ (∀ j, valid m' j ↔ valid m j) ∧
      (∀ j, get m' j = if j = i then
        { left := (get m i).left, right := (get m i).right, parent := (get m i).parent,
          height := hcalc (cht m (get m i).left i) (cht m (get m i).right i),
          key := (get m i).key, value := (get m i).value } else get m j) := by
  refine ⟨_, compute_height_mem hv hl hr, ⟨rfl, rfl, rfl, rfl, by simp⟩, rfl,
    fun j => valid_put, fun j => ?_⟩
  rw [get_put hv]

theorem compute_balance_mem {m : sdmap_heap} {i : Nat} (hv : valid m i)
    (hl : (get m i).left = i ∨ valid m (get m i).left)
    (hr : (get m i).right = i ∨ valid m (get m i).right) :
    detail_sdmap_compute_balance m i =
      some (bcalc (cht m (get m i).left i) (cht m (get m i).right i)) := by
  unfold detail_sdmap_compute_balance
  rw [slot_eq_some hv]
  rcases hl with hl | hl <;> rcases hr with hr | hr
  · simp [hl, hr, bcalc, cht]
  · by_cases e : (get m i).right = i
    · simp [hl, e, bcalc, cht]
    · simp [hl, e, slot_eq_some hr, bcalc, cht]
  · by_cases e : (get m i).left = i
    · simp [hr, e, bcalc, cht]
    · simp [hr, e, slot_eq_some hl, bcalc, cht]
  · by_cases e : (get m i).left = i <;> by_cases e' : (get m i).right = i <;>
      simp [e, e', slot_eq_some hl, slot_eq_some hr, bcalc, cht]

set_option maxHeartbeats 2000000 in
/-- What `detail_sdmap_rotate_l_impl` does to the slots: `p` is the node, `q`
its right child, which takes its place. -/
theorem rotate_l_mem {m : sdmap_heap} {p q : Nat}
    (hp : valid m p) (hq : valid m q) (hqp : q ≠ p)
    (hPr : (get m p).right = q)
    (hPl : (get m p).left = p ∨ (valid m (get m p).left ∧ (get m p).left ≠ q))
    (hQl : (get m q).left = q ∨ (valid m (get m q).left ∧ (get m q).left ≠ p ∧
        (get m q).left ≠ (get m p).left))
    (hQr : (get m q).right = q ∨ (valid m (get m q).right ∧ (get m q).right ≠ p ∧
        (get m q).right ≠ (get m q).left))
    (hg : p = m.root_slot ∨ (valid m (get m p).parent ∧ (get m p).parent ≠ p ∧
        (get m p).parent ≠ q ∧ (get m p).parent ≠ (get m q).left)) :
    ∃ m', detail_sdmap_rotate_l_impl m p = some m' ∧ SameHdr m m' ∧
      m'.root_slot = (if p = m.root_slot then q else m.root_slot) ∧
      (∀ j, get m' j =
        if j = p then
          { left := (get m p).left,
            right := if (get m q).left = q then p else (get m q).left,
            parent := q,
            height := hcalc (cht m (get m p).left p) (cht m (get m q).left q),
            key := (get m p).key, value := (get m p).value }
        else if j = q then
          { left := p, right := (get m q).right, parent := (get m p).parent,
            height := hcalc (some (hcalc (cht m (get m p).left p) (cht m (get m q).left q))) (cht m (get m q).right q),
            key := (get m q).key, value := (get m q).value }
        else if j = (get m q).left then
          { left := (get m j).left, right := (get m j).right, parent := p,
            height := (get m j).height, key := (get m j).key, value := (get m j).value }
        else if p ≠ m.root_slot ∧ j = (get m p).parent then
          (if (get m j).right = p then
            { left := (get m j).left, right := q, parent := (get m j).parent,
              height := (get m j).height, key := (get m j).key, value := (get m j).value }
          else
            { left := q, right := (get m j).right, parent := (get m j).parent,
              height := (get m j).height, key := (get m j).key, value := (get m j).value })
        else get m j) := by
  have hpq : p ≠ q := Ne.symm hqp
  have hPl' : (get m p).left ≠ q := by
    rcases hPl with h | ⟨-, h⟩
    · rw [h]; exact hpq
    · exact h
  have hQr' : (get m q).right ≠ p := by
    rcases hQr with h | ⟨-, h, -⟩
    · rw [h]; exact hqp
    · exact h
  have hrs : ∀ (mm : sdmap_heap) (x j : Nat), get { mm with root_slot := x } j = get mm j :=
    fun _ _ _ => rfl
  unfold detail_sdmap_rotate_l_impl
  simp only [slot_eq_some hp, Option.some_bind, Option.bind_eq_bind, hPr, hqp, if_false,
    slot_eq_some hq]
  by_cases hb : (get m q).left = q
  · simp only [hb, if_true]
    obtain ⟨m1, e1, d1, r1, v1, g1⟩ := store_spec (fun s => { s with right := p }) hp
    rw [e1]; simp only [Option.some_bind]
    obtain ⟨m2, e2, d2, r2, v2, g2⟩ :=
      store_spec (m := m1) (fun s => { s with left := p }) ((v1 q).2 hq)
    rw [e2]; simp only [Option.some_bind]
    obtain ⟨m3, e3, d3, r3, v3, g3⟩ := compute_height_spec (m := m2) (i := p)
      (by simp [v1, v2, hp])
      (by rcases hPl with h | ⟨h1, h2⟩
          · left; simp [g1, g2, hpq, hqp, h]
          · right; simp [g1, g2, v1, v2, hpq, hqp, h1])
      (by left; simp [g1, g2, hpq, hqp])
    rw [e3]; simp only [Option.some_bind]
    obtain ⟨m4, e4, d4, r4, v4, g4⟩ := compute_height_spec (m := m3) (i := q)
      (by simp [v1, v2, v3, hq])
      (by right; simp [g1, g2, g3, v1, v2, v3, hqp, hpq, hp])
      (by rcases hQr with h | ⟨h1, h2, h3⟩
          · left; simp [g1, g2, g3, hqp, hpq, h]
          · right; simp [g1, g2, g3, v1, v2, v3, hqp, hpq, h1])
    rw [e4]; simp only [Option.some_bind]
    rw [slot_eq_some (by simp [v1, v2, v3, v4, hp])]
    simp only [Option.some_bind]
    obtain ⟨m5, e5, d5, r5, v5, g5⟩ := store_spec (m := m4)
      (fun s => { s with parent := (get m4 p).parent }) (i := q) (by simp [v1, v2, v3, v4, hq])
    rw [e5]; simp only [Option.some_bind]
    obtain ⟨m6, e6, d6, r6, v6, g6⟩ := store_spec (m := m5)
      (fun s => { s with parent := q }) (i := p) (by simp [v1, v2, v3, v4, v5, hp])
    rw [e6]; simp only [Option.some_bind]
    have hd := ((((d1.htrans d2).htrans d3).htrans d4).htrans d5).htrans d6
    have hr : m6.root_slot = m.root_slot := by rw [r6, r5, r4, r3, r2, r1]
    rw [hr]
    have hfin : ∀ j, get m6 j =
        if j = p then
          { left := (get m p).left, right := p, parent := q,
            height := hcalc (cht m (get m p).left p) (cht m (get m q).left q),
            key := (get m p).key, value := (get m p).value }
        else if j = q then
          { left := p, right := (get m q).right, parent := (get m p).parent,
            height := hcalc (some (hcalc (cht m (get m p).left p) (cht m (get m q).left q))) (cht m (get m q).right q),
            key := (get m q).key, value := (get m q).value }
        else get m j := by
      intro j
      by_cases hjp : j = p
      · rw [hjp]
        by_cases hA : (get m p).left = p <;>
          simp [g1, g2, g3, g4, g5, g6, hpq, hqp, cht, hb, hPl', hQr', hA]
      · by_cases hjq : j = q
        · rw [hjq]
          by_cases hA : (get m p).left = p <;> by_cases hC : (get m q).right = q <;>
            simp [g1, g2, g3, g4, g5, g6, hpq, hqp, cht, hb, hPl', hQr', hA, hC]
        · simp [g1, g2, g3, g4, g5, g6, hjp, hjq]
    by_cases hroot : p = m.root_slot
    · rw [if_pos hroot]
      refine ⟨_, rfl, hd, by rw [if_pos hroot], fun j => ?_⟩
      rw [hrs, hfin j]
      by_cases hjp : j = p
      · simp [hjp, hb]
      · by_cases hjq : j = q
        · simp [hjq, hb, hqp]
        · simp [hjp, hjq, hb, hroot]
    · rw [if_neg hroot]
      rcases hg with hg | ⟨hg1, hg2, hg3, hg4⟩
      · exact absurd hg hroot
      rw [slot_eq_some (by simp [v1, v2, v3, v4, v5, v6, hq])]
      simp only [Option.some_bind]
      have hqpar : (get m6 q).parent = (get m p).parent := by simp [hfin, hqp]
      rw [hqpar, slot_eq_some (by simp [v1, v2, v3, v4, v5, v6, hg1])]
      simp only [Option.some_bind]
      have hgg : get m6 (get m p).parent = get m (get m p).parent := by
        simp [hfin, hg2, hg3]
      obtain ⟨m7, e7, d7, r7, v7, g7⟩ := store_spec (m := m6)
        (fun s => { s with right := q }) (i := (get m p).parent)
        (by simp [v1, v2, v3, v4, v5, v6, hg1])
      obtain ⟨m8, e8, d8, r8, v8, g8⟩ := store_spec (m := m6)
        (fun s => { s with left := q }) (i := (get m p).parent)
        (by simp [v1, v2, v3, v4, v5, v6, hg1])
      rw [e7, e8, hgg]
      by_cases hside : (get m (get m p).parent).right = p
      · rw [if_pos hside]
        refine ⟨_, rfl, hd.htrans d7, by rw [r7, hr, if_neg hroot], fun j => ?_⟩
        rw [g7 j]; simp only [hfin]
        by_cases hjp : j = p
        · simp [hjp, hb, hg2.symm]
        · by_cases hjq : j = q
          · simp [hjq, hb, hqp, hg3.symm]
          · by_cases hjg : j = (get m p).parent
            · rw [hjg]; simp [hg2, hg3, hb, hside, hfin, hroot]
            · simp [hjp, hjq, hjg, hb]
      · rw [if_neg hside]
        refine ⟨_, rfl, hd.htrans d8, by rw [r8, hr, if_neg hroot], fun j => ?_⟩
        rw [g8 j]; simp only [hfin]
        by_cases hjp : j = p
        · simp [hjp, hb, hg2.symm]
        · by_cases hjq : j = q
          · simp [hjq, hb, hqp, hg3.symm]
          · by_cases hjg : j = (get m p).parent
            · rw [hjg]; simp [hg2, hg3, hb, hside, hfin, hroot]
            · simp [hjp, hjq, hjg, hb]
  · rcases hQl with hQl | ⟨hb1, hb2, hb3⟩
    · exact absurd hQl hb
    simp only [hb, if_false]
    obtain ⟨m0, e0, d0, r0, v0, g0⟩ := store_spec (fun s => { s with parent := p }) hb1
    rw [e0]; simp only [Option.some_bind]
    obtain ⟨m1, e1, d1, r1, v1, g1⟩ := store_spec (m := m0)
      (fun s => { s with right := (get m q).left }) ((v0 p).2 hp)
    rw [e1]; simp only [Option.some_bind]
    obtain ⟨m2, e2, d2, r2, v2, g2⟩ :=
      store_spec (m := m1) (fun s => { s with left := p }) ((v1 q).2 ((v0 q).2 hq))
    rw [e2]; simp only [Option.some_bind]
    obtain ⟨m3, e3, d3, r3, v3, g3⟩ := compute_height_spec (m := m2) (i := p)
      (by simp [v0, v1, v2, hp])
      (by rcases hPl with h | ⟨h1, h2⟩
          · left; simp [g0, g1, g2, hpq, hqp, hb2.symm, h]
          · right; simp [g0, g1, g2, v0, v1, v2, hpq, hqp, hb2.symm, h1])
      (by right; simp [g0, g1, g2, v0, v1, v2, hpq, hqp, hb2.symm, hb1])
    rw [e3]; simp only [Option.some_bind]
    obtain ⟨m4, e4, d4, r4, v4, g4⟩ := compute_height_spec (m := m3) (i := q)
      (by simp [v0, v1, v2, v3, hq])
      (by right; simp [g0, g1, g2, g3, v0, v1, v2, v3, hqp, hpq, hp, hb])
      (by rcases hQr with h | ⟨h1, h2, h3⟩
          · left; simp [g0, g1, g2, g3, hqp, hpq, Ne.symm hb, h]
          · right; simp [g0, g1, g2, g3, v0, v1, v2, v3, hqp, hpq, Ne.symm hb, h1])
    rw [e4]; simp only [Option.some_bind]
    rw [slot_eq_some (by simp [v0, v1, v2, v3, v4, hp])]
    simp only [Option.some_bind]
    obtain ⟨m5, e5, d5, r5, v5, g5⟩ := store_spec (m := m4)
      (fun s => { s with parent := (get m4 p).parent }) (i := q)
      (by simp [v0, v1, v2, v3, v4, hq])
    rw [e5]; simp only [Option.some_bind]
    obtain ⟨m6, e6, d6, r6, v6, g6⟩ := store_spec (m := m5)
      (fun s => { s with parent := q }) (i := p) (by simp [v0, v1, v2, v3, v4, v5, hp])
    rw [e6]; simp only [Option.some_bind]
    have hd := (((((d0.htrans d1).htrans d2).htrans d3).htrans d4).htrans d5).htrans d6
    have hr : m6.root_slot = m.root_slot := by rw [r6, r5, r4, r3, r2, r1, r0]
    rw [hr]
    have hQr'' : (get m q).right ≠ (get m q).left := by
      rcases hQr with h | ⟨-, -, h⟩
      · rw [h]; exact Ne.symm hb
      · exact h
    have hfin : ∀ j, get m6 j =
        if j = p then
          { left := (get m p).left, right := (get m q).left, parent := q,
            height := hcalc (cht m (get m p).left p) (cht m (get m q).left q),
            key := (get m p).key, value := (get m p).value }
        else if j = q then
          { left := p, right := (get m q).right, parent := (get m p).parent,
            height := hcalc (some (hcalc (cht m (get m p).left p) (cht m (get m q).left q))) (cht m (get m q).right q),
            key := (get m q).key, value := (get m q).value }
        else if j = (get m q).left then
          { left := (get m j).left, right := (get m j).right, parent := p,
            height := (get m j).height, key := (get m j).key, value := (get m j).value }
        else get m j := by
      intro j
      by_cases hjp : j = p
      · rw [hjp]
        by_cases hA : (get m p).left = p <;>
          simp [g0, g1, g2, g3, g4, g5, g6, hpq, hqp, cht, hb, hb2, hb2.symm, hb3.symm,
            hPl', hQr', hA]
      · by_cases hjq : j = q
        · rw [hjq]
          by_cases hA : (get m p).left = p <;> by_cases hC : (get m q).right = q <;>
            simp [g0, g1, g2, g3, g4, g5, g6, hpq, hqp, cht, hb, Ne.symm hb, hPl', hQr',
              hQr'', hb2, hb2.symm, hb3.symm, hA, hC]
        · by_cases hjb : j = (get m q).left
          · simp [g0, g1, g2, g3, g4, g5, g6, hjp, hjq, hjb, hb, hb2]
          · simp [g0, g1, g2, g3, g4, g5, g6, hjp, hjq, hjb]
    by_cases hroot : p = m.root_slot
    · rw [if_pos hroot]
      refine ⟨_, rfl, hd, by rw [if_pos hroot], fun j => ?_⟩
      rw [hrs, hfin j]
      by_cases hjp : j = p
      · simp [hjp, hb]
      · by_cases hjq : j = q
        · simp [hjq, hb, hqp]
        · simp [hjp, hjq, hb, hroot]
    · rw [if_neg hroot]
      rcases hg with hg | ⟨hg1, hg2, hg3, hg4⟩
      · exact absurd hg hroot
      rw [slot_eq_some (by simp [v0, v1, v2, v3, v4, v5, v6, hq])]
      simp only [Option.some_bind]
      have hqpar : (get m6 q).parent = (get m p).parent := by simp [hfin, hqp]
      rw [hqpar, slot_eq_some (by simp [v0, v1, v2, v3, v4, v5, v6, hg1])]
      simp only [Option.some_bind]
      have hgg : get m6 (get m p).parent = get m (get m p).parent := by
        simp [hfin, hg2, hg3, hg4]
      obtain ⟨m7, e7, d7, r7, v7, g7⟩ := store_spec (m := m6)
        (fun s => { s with right := q }) (i := (get m p).parent)
        (by simp [v0, v1, v2, v3, v4, v5, v6, hg1])
      obtain ⟨m8, e8, d8, r8, v8, g8⟩ := store_spec (m := m6)
        (fun s => { s with left := q }) (i := (get m p).parent)
        (by simp [v0, v1, v2, v3, v4, v5, v6, hg1])
      rw [e7, e8, hgg]
      by_cases hside : (get m (get m p).parent).right = p
      · rw [if_pos hside]
        refine ⟨_, rfl, hd.htrans d7, by rw [r7, hr, if_neg hroot], fun j => ?_⟩
        rw [g7 j]; simp only [hfin]
        by_cases hjp : j = p
        · simp [hjp, hb, hg2.symm]
        · by_cases hjq : j = q
          · simp [hjq, hb, hqp, hg3.symm]
          · by_cases hjb : j = (get m q).left
            · simp [hjb, hb, hb2, hg4.symm]
            · by_cases hjg : j = (get m p).parent
              · rw [hjg]; simp [hg2, hg3, hg4, hb, hside, hfin, hroot]
              · simp [hjp, hjq, hjg, hjb, hb]
      · rw [if_neg hside]
        refine ⟨_, rfl, hd.htrans d8, by rw [r8, hr, if_neg hroot], fun j => ?_⟩
        rw [g8 j]; simp only [hfin]
        by_cases hjp : j = p
        · simp [hjp, hb, hg2.symm]
        · by_cases hjq : j = q
          · simp [hjq, hb, hqp, hg3.symm]
          · by_cases hjb : j = (get m q).left
            · simp [hjb, hb, hb2, hg4.symm]
            · by_cases hjg : j = (get m p).parent
              · rw [hjg]; simp [hg2, hg3, hg4, hb, hside, hfin, hroot]
              · simp [hjp, hjq, hjg, hjb, hb]

set_option maxHeartbeats 2000000 in
/-- What `detail_sdmap_rotate_r_impl` does to the slots: `p` is the node, `q`
its left child, which takes its place. -/
theorem rotate_r_mem {m : sdmap_heap} {p q : Nat}
    (hp : valid m p) (hq : valid m q) (hqp : q ≠ p)
    (hPr : (get m p).left = q)
    (hPl : (get m p).right = p ∨ (valid m (get m p).right ∧ (get m p).right ≠ q))
    (hQl : (get m q).right = q ∨ (valid m (get m q).right ∧ (get m q).right ≠ p ∧
        (get m q).right ≠ (get m p).right))
    (hQr : (get m q).left = q ∨ (valid m (get m q).left ∧ (get m q).left ≠ p ∧
        (get m q).left ≠ (get m q).right))
    (hg : p = m.root_slot ∨ (valid m (get m p).parent ∧ (get m p).parent ≠ p ∧
        (get m p).parent ≠ q ∧ (get m p).parent ≠ (get m q).right)) :
    ∃ m', detail_sdmap_rotate_r_impl m p = some m' ∧ SameHdr m m' ∧
      m'.root_slot = (if p = m.root_slot then q else m.root_slot) ∧
      (∀ j, get m' j =
        if j = p then
          { right := (get m p).right,
            left := if (get m q).right = q then p else (get m q).right,
            parent := q,
            height := hcalc (cht m (get m q).right q) (cht m (get m p).right p),
            key := (get m p).key, value := (get m p).value }
        else if j = q then
          { right := p, left := (get m q).left, parent := (get m p).parent,
            height := hcalc (cht m (get m q).left q) (some (hcalc (cht m (get m q).right q) (cht m (get m p).right p))),
            key := (get m q).key, value := (get m q).value }
        else if j = (get m q).right then
          { left := (get m j).left, right := (get m j).right, parent := p,
            height := (get m j).height, key := (get m j).key, value := (get m j).value }
        else if p ≠ m.root_slot ∧ j = (get m p).parent then
          (if (get m j).right = p then
            { left := (get m j).left, right := q, parent := (get m j).parent,
              height := (get m j).height, key := (get m j).key, value := (get m j).value }
          else
            { left := q, right := (get m j).right, parent := (get m j).parent,
              height := (get m j).height, key := (get m j).key, value := (get m j).value })
        else get m j) := by
  have hpq : p ≠ q := Ne.symm hqp
  have hPl' : (get m p).right ≠ q := by
    rcases hPl with h | ⟨-, h⟩
    · rw [h]; exact hpq
    · exact h
  have hQr' : (get m q).left ≠ p := by
    rcases hQr with h | ⟨-, h, -⟩
    · rw [h]; exact hqp
    · exact h
  have hrs : ∀ (mm : sdmap_heap) (x j : Nat), get { mm with root_slot := x } j = get mm j :=
    fun _ _ _ => rfl
  unfold detail_sdmap_rotate_r_impl
  simp only [slot_eq_some hp, Option.some_bind, Option.bind_eq_bind, hPr, hqp, if_false,
    slot_eq_some hq]
  by_cases hb : (get m q).right = q
  · simp only [hb, if_true]
    obtain ⟨m1, e1, d1, r1, v1, g1⟩ := store_spec (fun s => { s with left := p }) hp
    rw [e1]; simp only [Option.some_bind]
    obtain ⟨m2, e2, d2, r2, v2, g2⟩ :=
      store_spec (m := m1) (fun s => { s with right := p }) ((v1 q).2 hq)
    rw [e2]; simp only [Option.some_bind]
    obtain ⟨m3, e3, d3, r3, v3, g3⟩ := compute_height_spec (m := m2) (i := p)
      (by simp [v1, v2, hp])
      (by left; simp [g1, g2, hpq, hqp])
      (by rcases hPl with h | ⟨h1, h2⟩
          · left; simp [g1, g2, hpq, hqp, h]
          · right; simp [g1, g2, v1, v2, hpq, hqp, h1])
    rw [e3]; simp only [Option.some_bind]
    obtain ⟨m4, e4, d4, r4, v4, g4⟩ := compute_height_spec (m := m3) (i := q)
      (by simp [v1, v2, v3, hq])
      (by rcases hQr with h | ⟨h1, h2, h3⟩
          · left; simp [g1, g2, g3, hqp, hpq, h]
          · right; simp [g1, g2, g3, v1, v2, v3, hqp, hpq, h1])
      (by right; simp [g1, g2, g3, v1, v2, v3, hqp, hpq, hp])
    rw [e4]; simp only [Option.some_bind]
    rw [slot_eq_some (by simp [v1, v2, v3, v4, hp])]
    simp only [Option.some_bind]
    obtain ⟨m5, e5, d5, r5, v5, g5⟩ := store_spec (m := m4)
      (fun s => { s with parent := (get m4 p).parent }) (i := q) (by simp [v1, v2, v3, v4, hq])
    rw [e5]; simp only [Option.some_bind]
    obtain ⟨m6, e6, d6, r6, v6, g6⟩ := store_spec (m := m5)
      (fun s => { s with parent := q }) (i := p) (by simp [v1, v2, v3, v4, v5, hp])
    rw [e6]; simp only [Option.some_bind]
    have hd := ((((d1.htrans d2).htrans d3).htrans d4).htrans d5).htrans d6
    have hr : m6.root_slot = m.root_slot := by rw [r6, r5, r4, r3, r2, r1]
    rw [hr]
    have hfin : ∀ j, get m6 j =
        if j = p then
          { right := (get m p).right, left := p, parent := q,
            height := hcalc (cht m (get m q).right q) (cht m (get m p).right p),
            key := (get m p).key, value := (get m p).value }
        else if j = q then
          { right := p, left := (get m q).left, parent := (get m p).parent,
            height := hcalc (cht m (get m q).left q) (some (hcalc (cht m (get m q).right q) (cht m (get m p).right p))),
            key := (get m q).key, value := (get m q).value }
        else get m j := by
      intro j
      by_cases hjp : j = p
      · rw [hjp]
        by_cases hA : (get m p).right = p <;>
          simp [g1, g2, g3, g4, g5, g6, hpq, hqp, cht, hb, hPl', hQr', hA]
      · by_cases hjq : j = q
        · rw [hjq]
          by_cases hA : (get m p).right = p <;> by_cases hC : (get m q).left = q <;>
            simp [g1, g2, g3, g4, g5, g6, hpq, hqp, cht, hb, hPl', hQr', hA, hC]
        · simp [g1, g2, g3, g4, g5, g6, hjp, hjq]
    by_cases hroot : p = m.root_slot
    · rw [if_pos hroot]
      refine ⟨_, rfl, hd, by rw [if_pos hroot], fun j => ?_⟩
      rw [hrs, hfin j]
      by_cases hjp : j = p
      · simp [hjp, hb]
      · by_cases hjq : j = q
        · simp [hjq, hb, hqp]
        · simp [hjp, hjq, hb, hroot]
    · rw [if_neg hroot]
      rcases hg with hg | ⟨hg1, hg2, hg3, hg4⟩
      · exact absurd hg hroot
      rw [slot_eq_some (by simp [v1, v2, v3, v4, v5, v6, hq])]
      simp only [Option.some_bind]
      have hqpar : (get m6 q).parent = (get m p).parent := by simp [hfin, hqp]
      rw [hqpar, slot_eq_some (by simp [v1, v2, v3, v4, v5, v6, hg1])]
      simp only [Option.some_bind]
      have hgg : get m6 (get m p).parent = get m (get m p).parent := by
        simp [hfin, hg2, hg3]
      obtain ⟨m7, e7, d7, r7, v7, g7⟩ := store_spec (m := m6)
        (fun s => { s with right := q }) (i := (get m p).parent)
        (by simp [v1, v2, v3, v4, v5, v6, hg1])
      obtain ⟨m8, e8, d8, r8, v8, g8⟩ := store_spec (m := m6)
        (fun s => { s with left := q }) (i := (get m p).parent)
        (by simp [v1, v2, v3, v4, v5, v6, hg1])
      rw [e7, e8, hgg]
      by_cases hside : (get m (get m p).parent).right = p
      · rw [if_pos hside]
        refine ⟨_, rfl, hd.htrans d7, by rw [r7, hr, if_neg hroot], fun j => ?_⟩
        rw [g7 j]; simp only [hfin]
        by_cases hjp : j = p
        · simp [hjp, hb, hg2.symm]
        · by_cases hjq : j = q
          · simp [hjq, hb, hqp, hg3.symm]
          · by_cases hjg : j = (get m p).parent
            · rw [hjg]; simp [hg2, hg3, hb, hside, hfin, hroot]
            · simp [hjp, hjq, hjg, hb]
      · rw [if_neg hside]
        refine ⟨_, rfl, hd.htrans d8, by rw [r8, hr, if_neg hroot], fun j => ?_⟩
        rw [g8 j]; simp only [hfin]
        by_cases hjp : j = p
        · simp [hjp, hb, hg2.symm]
        · by_cases hjq : j = q
          · simp [hjq, hb, hqp, hg3.symm]
          · by_cases hjg : j = (get m p).parent
            · rw [hjg]; simp [hg2, hg3, hb, hside, hfin, hroot]
            · simp [hjp, hjq, hjg, hb]
  · rcases hQl with hQl | ⟨hb1, hb2, hb3⟩
    · exact absurd hQl hb
    simp only [hb, if_false]
    obtain ⟨m0, e0, d0, r0, v0, g0⟩ := store_spec (fun s => { s with parent := p }) hb1
    rw [e0]; simp only [Option.some_bind]
    obtain ⟨m1, e1, d1, r1, v1, g1⟩ := store_spec (m := m0)
      (fun s => { s with left := (get m q).right }) ((v0 p).2 hp)
    rw [e1]; simp only [Option.some_bind]
    obtain ⟨m2, e2, d2, r2, v2, g2⟩ :=
      store_spec (m := m1) (fun s => { s with right := p }) ((v1 q).2 ((v0 q).2 hq))
    rw [e2]; simp only [Option.some_bind]
    obtain ⟨m3, e3, d3, r3, v3, g3⟩ := compute_height_spec (m := m2) (i := p)
      (by simp [v0, v1, v2, hp])
      (by right; simp [g0, g1, g2, v0, v1, v2, hpq, hqp, hb2.symm, hb1])
      (by rcases hPl with h | ⟨h1, h2⟩
          · left; simp [g0, g1, g2, hpq, hqp, hb2.symm, h]
          · right; simp [g0, g1, g2, v0, v1, v2, hpq, hqp, hb2.symm, h1])
    rw [e3]; simp only [Option.some_bind]
    obtain ⟨m4, e4, d4, r4, v4, g4⟩ := compute_height_spec (m := m3) (i := q)
      (by simp [v0, v1, v2, v3, hq])
      (by rcases hQr with h | ⟨h1, h2, h3⟩
          · left; simp [g0, g1, g2, g3, hqp, hpq, Ne.symm hb, h]
          · right; simp [g0, g1, g2, g3, v0, v1, v2, v3, hqp, hpq, Ne.symm hb, h1])
      (by right; simp [g0, g1, g2, g3, v0, v1, v2, v3, hqp, hpq, hp, hb])
    rw [e4]; simp only [Option.some_bind]
    rw [slot_eq_some (by simp [v0, v1, v2, v3, v4, hp])]
    simp only [Option.some_bind]
    obtain ⟨m5, e5, d5, r5, v5, g5⟩ := store_spec (m := m4)
      (fun s => { s with parent := (get m4 p).parent }) (i := q)
      (by simp [v0, v1, v2, v3, v4, hq])
    rw [e5]; simp only [Option.some_bind]
    obtain ⟨m6, e6, d6, r6, v6, g6⟩ := store_spec (m := m5)
      (fun s => { s with parent := q }) (i := p) (by simp [v0, v1, v2, v3, v4, v5, hp])
    rw [e6]; simp only [Option.some_bind]
    have hd := (((((d0.htrans d1).htrans d2).htrans d3).htrans d4).htrans d5).htrans d6
    have hr : m6.root_slot = m.root_slot := by rw [r6, r5, r4, r3, r2, r1, r0]
    rw [hr]
    have hQr'' : (get m q).left ≠ (get m q).right := by
      rcases hQr with h | ⟨-, -, h⟩
      · rw [h]; exact Ne.symm hb
      · exact h
    have hfin : ∀ j, get m6 j =
        if j = p then
          { right := (get m p).right, left := (get m q).right, parent := q,
            height := hcalc (cht m (get m q).right q) (cht m (get m p).right p),
            key := (get m p).key, value := (get m p).value }
        else if j = q then
          { right := p, left := (get m q).left, parent := (get m p).parent,
            height := hcalc (cht m (get m q).left q) (some (hcalc (cht m (get m q).right q) (cht m (get m p).right p))),
            key := (get m q).key, value := (get m q).value }
        else if j = (get m q).right then
          { left := (get m j).left, right := (get m j).right, parent := p,
            height := (get m j).height, key := (get m j).key, value := (get m j).value }
        else get m j := by
      intro j
      by_cases hjp : j = p
      · rw [hjp]
        by_cases hA : (get m p).right = p <;>
          simp [g0, g1, g2, g3, g4, g5, g6, hpq, hqp, cht, hb, hb2, hb2.symm, hb3.symm,
            hPl', hQr', hA]
      · by_cases hjq : j = q
        · rw [hjq]
          by_cases hA : (get m p).right = p <;> by_cases hC : (get m q).left = q <;>
            simp [g0, g1, g2, g3, g4, g5, g6, hpq, hqp, cht, hb, Ne.symm hb, hPl', hQr',
              hQr'', hb2, hb2.symm, hb3.symm, hA, hC]
        · by_cases hjb : j = (get m q).right
          · simp [g0, g1, g2, g3, g4, g5, g6, hjp, hjq, hjb, hb, hb2]
          · simp [g0, g1, g2, g3, g4, g5, g6, hjp, hjq, hjb]
    by_cases hroot : p = m.root_slot
    · rw [if_pos hroot]
      refine ⟨_, rfl, hd, by rw [if_pos hroot], fun j => ?_⟩
      rw [hrs, hfin j]
      by_cases hjp : j = p
      · simp [hjp, hb]
      · by_cases hjq : j = q
        · simp [hjq, hb, hqp]
        · simp [hjp, hjq, hb, hroot]
    · rw [if_neg hroot]
      rcases hg with hg | ⟨hg1, hg2, hg3, hg4⟩
      · exact absurd hg hroot
      rw [slot_eq_some (by simp [v0, v1, v2, v3, v4, v5, v6, hq])]
      simp only [Option.some_bind]
      have hqpar : (get m6 q).parent = (get m p).parent := by simp [hfin, hqp]
      rw [hqpar, slot_eq_some (by simp [v0, v1, v2, v3, v4, v5, v6, hg1])]
      simp only [Option.some_bind]
      have hgg : get m6 (get m p).parent = get m (get m p).parent := by
        simp [hfin, hg2, hg3, hg4]
      obtain ⟨m7, e7, d7, r7, v7, g7⟩ := store_spec (m := m6)
        (fun s => { s with right := q }) (i := (get m p).parent)
        (by simp [v0, v1, v2, v3, v4, v5, v6, hg1])
      obtain ⟨m8, e8, d8, r8, v8, g8⟩ := store_spec (m := m6)
        (fun s => { s with left := q }) (i := (get m p).parent)
        (by simp [v0, v1, v2, v3, v4, v5, v6, hg1])
      rw [e7, e8, hgg]
      by_cases hside : (get m (get m p).parent).right = p
      · rw [if_pos hside]
        refine ⟨_, rfl, hd.htrans d7, by rw [r7, hr, if_neg hroot], fun j => ?_⟩
        rw [g7 j]; simp only [hfin]
        by_cases hjp : j = p
        · simp [hjp, hb, hg2.symm]
        · by_cases hjq : j = q
          · simp [hjq, hb, hqp, hg3.symm]
          · by_cases hjb : j = (get m q).right
            · simp [hjb, hb, hb2, hg4.symm]
            · by_cases hjg : j = (get m p).parent
              · rw [hjg]; simp [hg2, hg3, hg4, hb, hside, hfin, hroot]
              · simp [hjp, hjq, hjg, hjb, hb]
      · rw [if_neg hside]
        refine ⟨_, rfl, hd.htrans d8, by rw [r8, hr, if_neg hroot], fun j => ?_⟩
        rw [g8 j]; simp only [hfin]
        by_cases hjp : j = p
        · simp [hjp, hb, hg2.symm]
        · by_cases hjq : j = q
          · simp [hjq, hb, hqp, hg3.symm]
          · by_cases hjb : j = (get m q).right
            · simp [hjb, hb, hb2, hg4.symm]
            · by_cases hjg : j = (get m p).parent
              · rw [hjg]; simp [hg2, hg3, hg4, hb, hside, hfin, hroot]
              · simp [hjp, hjq, hjg, hjb, hb]

/-! ## Rotations on the tree held by the slots -/

theorem cht_lnk {m : sdmap_heap} {t : Tree} {o : Nat} (h : ChildH m t o) :
    cht m (t.lnk o) o = t.sh := by
  cases t with
  | nil => simp [cht, Tree.sh]
  | node l j k v hh r =>
    obtain ⟨h1, -, h3⟩ := h
    simp [cht, Tree.sh, h1, h3]

theorem ch_eq (l r : Tree) : ch l r = hcalc l.sh r.sh := by
  cases l <;> cases r <;> rfl

theorem balOf_eq (l r : Tree) : balOf l r = bcalc l.sh r.sh := by
  cases l <;> cases r <;> rfl

theorem RepC_root_mem {m : sdmap_heap} : ∀ (c : List Frame) (x : Nat),
    RepC m c x → c ≠ [] → m.root_slot ∈ cidx c
  | [], _, _, h => absurd rfl h
  | .L i k v h r :: c, x, ⟨_, _, _, h4⟩, _ => by
    cases c with
    | nil => simp [RepC] at h4; simp [cidx, Frame.idx, h4]
    | cons f c' =>
      have := RepC_root_mem (f :: c') i h4 (by simp)
      simp only [cidx, List.mem_append] at this ⊢
      tauto
  | .R l i k v h :: c, x, ⟨_, _, _, h4⟩, _ => by
    cases c with
    | nil => simp [RepC] at h4; simp [cidx, Frame.idx, h4]
    | cons f c' =>
      have := RepC_root_mem (f :: c') i h4 (by simp)
      simp only [cidx, List.mem_append] at this ⊢
      tauto

theorem own_mem_cidx : ∀ (c : List Frame), c ≠ [] → own c ∈ cidx c
  | [], h => absurd rfl h
  | f :: c, _ => by cases f <;> simp [own, Frame.i, cidx, Frame.idx]

/-- The slot of a node of the held tree. -/
theorem Rep_get {m : sdmap_heap} {l r : Tree} {i o : Nat} {k v h : Int}
    (hr : Rep m (.node l i k v h r) o) :
    get m i = { left := l.lnk i, right := r.lnk i, parent := o, height := h,
                key := k, value := v } := hr.2.1

/-- A subtree that is moved under another owner: only the slot of its root
changes. -/
theorem Rep_reparent {m m' : sdmap_heap} {t : Tree} {o o' : Nat}
    (hv : ∀ j, valid m j → valid m' j) (hnd : t.idx.Nodup)
    (hroot : ∀ l i k v h r, t = .node l i k v h r →
      get m' i = { left := (get m i).left, right := (get m i).right, parent := o',
                   height := (get m i).height, key := (get m i).key,
                   value := (get m i).value })
    (hrest : ∀ j ∈ t.idx, j ≠ t.lnk o → get m' j = get m j)
    (h : Rep m t o) : Rep m' t o' := by
  cases t with
  | nil => trivial
  | node l i k v hh r =>
    obtain ⟨h1, h2, h3, h4⟩ := h
    simp only [Tree.idx, List.nodup_append, List.nodup_cons] at hnd
    obtain ⟨nl, ⟨nil, nr⟩, dis⟩ := hnd
    have il : i ∉ l.idx := fun hi => dis hi (by simp)
    refine ⟨hv _ h1, ?_, ?_, ?_⟩
    · rw [hroot l i k v hh r rfl, h2]
    · refine Rep_congr hv l i (fun j hj => hrest j (by simp [Tree.idx, hj]) ?_) h3
      simp only [lnk_node]; intro e; exact il (e ▸ hj)
    · refine Rep_congr hv r i (fun j hj => hrest j (by simp [Tree.idx, hj]) ?_) h4
      simp only [lnk_node]; intro e; exact nil (e ▸ hj)

theorem lnk_mem_or (t : Tree) (o : Nat) : t.lnk o = o ∨ t.lnk o ∈ t.idx := by
  cases t <;> simp [Tree.idx]

/-! ## Rotations on the held tree -/

theorem lnk_ne_of_not_mem {t : Tree} {o x : Nat} (hx : x ∉ t.idx) (ho : x ≠ o) :
    t.lnk o ≠ x := by
  cases t with
  | nil => simpa using Ne.symm ho
  | node l i k v h r =>
    simp only [lnk_node]; intro e; apply hx; simp [Tree.idx, e]

theorem lnk_other (t : Tree) {o o' : Nat} (h : t.lnk o ≠ o) : t.lnk o' = t.lnk o := by
  cases t with
  | nil => simp at h
  | node l i k v hh r => rfl

theorem lnk_self_iff (t : Tree) {o : Nat} (ho : o ∉ t.idx) : t.lnk o = o ↔ t = .nil := by
  cases t with
  | nil => simp
  | node l i k v hh r =>
    simp only [lnk_node, reduceCtorEq, iff_false]
    intro e; apply ho; simp [Tree.idx, e]

set_option maxHeartbeats 1000000 in
/-- The rotation `detail_sdmap_rotate_l_impl` at the root of the subtree at the
open place of a path. -/
theorem rotate_l_zip {m : sdmap_heap} {c : List Frame} {a b c' : Tree} {i q : Nat}
    {k v h kq vq hq : Int}
    (hz : RepZ m c (Tree.node a i k v h (.node b q kq vq hq c')))
    (hnd : ((Tree.node a i k v h (.node b q kq vq hq c')).idx ++ cidx c).Nodup) :
    ∃ m', detail_sdmap_rotate_l_impl m i = some m' ∧
      RepZ m' c (.node (.node a i k v (ch a b) b) q kq vq (ch (.node a i k v (ch a b) b) c') c') ∧
      SameHdr m m' ∧
      SameOut m m' ((Tree.node a i k v h (.node b q kq vq hq c')).idx ++ cidx c) := by
  obtain ⟨hC, hvi, hP, hRa, hvq, hQ, hRb, hRc⟩ := hz
  simp only [lnk_node] at hC hP hQ
  -- distinctness of the slots
  obtain ⟨hA, hB, hAB⟩ := List.nodup_append.1 hnd
  have hmem : ∀ j, j ∈ (Tree.node a i k v h (.node b q kq vq hq c')).idx ↔
      (j = i ∨ j = q ∨ j ∈ a.idx ∨ j ∈ b.idx ∨ j ∈ c'.idx) := by
    intro j; simp only [Tree.idx, List.mem_append, List.mem_cons]; tauto
  have hperm : (Tree.node a i k v h (.node b q kq vq hq c')).idx.Perm
      (i :: q :: (a.idx ++ (b.idx ++ c'.idx))) := by
    simp only [Tree.idx]
    have h1 : (a.idx ++ i :: (b.idx ++ q :: c'.idx)).Perm (i :: (a.idx ++ (b.idx ++ q :: c'.idx))) :=
      List.perm_middle
    have h2 : (b.idx ++ q :: c'.idx).Perm (q :: (b.idx ++ c'.idx)) := List.perm_middle
    have h3 : (a.idx ++ q :: (b.idx ++ c'.idx)).Perm (q :: (a.idx ++ (b.idx ++ c'.idx))) :=
      List.perm_middle
    exact h1.trans (List.Perm.cons i ((List.Perm.append_left a.idx h2).trans h3))
  have hA' := hperm.nodup_iff.1 hA
  obtain ⟨hi1, hA2⟩ := List.nodup_cons.1 hA'
  obtain ⟨hq1, hA3⟩ := List.nodup_cons.1 hA2
  obtain ⟨na, hbc, dabc⟩ := List.nodup_append.1 hA3
  obtain ⟨nb, nc, dbc0⟩ := List.nodup_append.1 hbc
  have hiq : i ≠ q := by intro e; apply hi1; simp [e]
  have hqi : q ≠ i := Ne.symm hiq
  have ia : i ∉ a.idx := fun hx => hi1 (by simp [hx])
  have ib : i ∉ b.idx := fun hx => hi1 (by simp [hx])
  have ic : i ∉ c'.idx := fun hx => hi1 (by simp [hx])
  have qa : q ∉ a.idx := fun hx => hq1 (by simp [hx])
  have qb : q ∉ b.idx := fun hx => hq1 (by simp [hx])
  have qc : q ∉ c'.idx := fun hx => hq1 (by simp [hx])
  have iC : i ∉ cidx c := fun hx => hAB ((hmem i).2 (by simp)) hx
  have qC : q ∉ cidx c := fun hx => hAB ((hmem q).2 (by simp)) hx
  have dab : ∀ j, j ∈ a.idx → j ∉ b.idx := fun j h1 h2 => dabc h1 (by simp [h2])
  have dac : ∀ j, j ∈ a.idx → j ∉ c'.idx := fun j h1 h2 => dabc h1 (by simp [h2])
  have dbc : ∀ j, j ∈ b.idx → j ∉ c'.idx := fun j h1 h2 => dbc0 h1 h2
  have daC : ∀ j, j ∈ a.idx → j ∉ cidx c := fun j h1 h2 => hAB ((hmem j).2 (by simp [h1])) h2
  have dbC : ∀ j, j ∈ b.idx → j ∉ cidx c := fun j h1 h2 => hAB ((hmem j).2 (by simp [h1])) h2
  have dcC : ∀ j, j ∈ c'.idx → j ∉ cidx c := fun j h1 h2 => hAB ((hmem j).2 (by simp [h1])) h2
  have cha : ChildH m a i := ChildH_of_Rep hRa ia
  have chb : ChildH m b q := ChildH_of_Rep hRb qb
  have chc : ChildH m c' q := ChildH_of_Rep hRc qc
  have hbl : b.lnk q = q ∨ b.lnk q ∈ b.idx := lnk_mem_or b q
  have hbi : b.lnk q ≠ i := by
    rcases hbl with e | e
    · rw [e]; exact hqi
    · exact fun e' => ib (e' ▸ e)
  have hbC : b.lnk q ∉ cidx c := by
    rcases hbl with e | e
    · rw [e]; exact qC
    · exact dbC _ e
  -- the hypotheses of the slot-level lemma
  have hPr : (get m i).right = q := by rw [hP]
  have hPl : (get m i).left = i ∨ (valid m (get m i).left ∧ (get m i).left ≠ q) := by
    rw [hP]
    rcases lnk_mem_or a i with e | e
    · left; exact e
    · right; exact ⟨Rep_valid_of_mem a i hRa _ e, fun e' => qa (e' ▸ e)⟩
  have hQl : (get m q).left = q ∨ (valid m (get m q).left ∧ (get m q).left ≠ i ∧
      (get m q).left ≠ (get m i).left) := by
    rw [hQ, hP]
    rcases hbl with e | e
    · left; exact e
    · right
      refine ⟨Rep_valid_of_mem b q hRb _ e, hbi, ?_⟩
      simp only
      rcases lnk_mem_or a i with e2 | e2
      · rw [e2]; exact hbi
      · exact fun e' => dab _ e2 (e' ▸ e)
  have hQr : (get m q).right = q ∨ (valid m (get m q).right ∧ (get m q).right ≠ i ∧
      (get m q).right ≠ (get m q).left) := by
    rw [hQ]
    rcases lnk_mem_or c' q with e | e
    · left; exact e
    · right
      refine ⟨Rep_valid_of_mem c' q hRc _ e, fun e' => ic (e' ▸ e), ?_⟩
      simp only
      rcases hbl with e2 | e2
      · rw [e2]; exact fun e' => qc (e' ▸ e)
      · exact fun e' => dbc _ e2 (e' ▸ e)
  have hrootc : (c = [] ∧ i = m.root_slot) ∨
      (c ≠ [] ∧ i ≠ m.root_slot ∧ own c ∈ cidx c ∧ valid m (own c)) := by
    cases c with
    | nil => left; exact ⟨rfl, hC.symm⟩
    | cons f c2 =>
      right
      have h1 := RepC_root_mem _ _ hC (by simp)
      have h2 := own_mem_cidx (f :: c2) (by simp)
      exact ⟨by simp, fun e => iC (e ▸ h1), h2, RepC_valid_of_mem _ _ hC _ h2⟩
  have hg : i = m.root_slot ∨ (valid m (get m i).parent ∧ (get m i).parent ≠ i ∧
      (get m i).parent ≠ q ∧ (get m i).parent ≠ (get m q).left) := by
    simp only [hP, hQ]
    rcases hrootc with ⟨-, h⟩ | ⟨-, -, h2, h3⟩
    · left; exact h
    · right
      exact ⟨h3, fun e => iC (e ▸ h2), fun e => qC (e ▸ h2), fun e => hbC (e ▸ h2)⟩
  obtain ⟨m', hrun, hd, hroot, hget⟩ := rotate_l_mem hvi hvq hqi hPr hPl hQl hQr hg
  have hv : ∀ j, valid m j → valid m' j := fun j hj => (hd.valid_iff j).2 hj
  simp only [hP, hQ] at hget
  have hun : ∀ j, j ≠ i → j ≠ q → j ≠ b.lnk q → (i = m.root_slot ∨ j ≠ own c) →
      get m' j = get m j := by
    intro j h1 h2 h3 h4
    rw [hget j, if_neg h1, if_neg h2, if_neg h3]
    rcases h4 with h4 | h4
    · rw [if_neg (by simp [h4])]
    · rw [if_neg (by simp [h4])]
  have hunT : ∀ j, j ≠ i → j ≠ q → j ≠ b.lnk q → j ∉ cidx c → get m' j = get m j := by
    intro j h1 h2 h3 h4
    refine hun j h1 h2 h3 ?_
    rcases hrootc with ⟨-, h⟩ | ⟨-, -, h5, -⟩
    · left; exact h
    · right; exact fun e => h4 (e ▸ h5)
  have hbla : ∀ j, j ∈ a.idx → j ≠ b.lnk q := by
    intro j hj e
    rcases hbl with e2 | e2
    · exact qa (e2 ▸ e ▸ hj)
    · exact dab _ hj (e ▸ e2)
  have hblc : ∀ j, j ∈ c'.idx → j ≠ b.lnk q := by
    intro j hj e
    rcases hbl with e2 | e2
    · exact qc (e2 ▸ e ▸ hj)
    · exact dbc _ e2 (e ▸ hj)
  refine ⟨m', hrun, ⟨?_, ?_⟩, hd, ?_⟩
  · -- the path
    simp only [lnk_node]
    cases c with
    | nil =>
      simp only [RepC] at hC ⊢
      rw [hroot, if_pos hC.symm]
    | cons f c2 =>
      rcases hrootc with ⟨hnil, -⟩ | ⟨-, hne, hown, hvo⟩
      · exact absurd hnil (by simp)
      have hroot' : m'.root_slot = m.root_slot := by rw [hroot, if_neg hne]
      have hoi : own (f :: c2) ≠ i := fun e => iC (e ▸ hown)
      have hoq : own (f :: c2) ≠ q := fun e => qC (e ▸ hown)
      have hob : own (f :: c2) ≠ b.lnk q := fun e => hbC (e ▸ hown)
      have hgo := hget (own (f :: c2))
      rw [if_neg hoi, if_neg hoq, if_neg hob, if_pos ⟨hne, rfl⟩] at hgo
      have hB2 : (cidx (f :: c2)).Nodup := hB
      cases f with
      | L g kg vg hg0 r =>
        obtain ⟨hvg, hG, hRr, hC2⟩ := hC
        simp only [own, Frame.i] at hgo hoi hoq hob
        simp only [cidx, Frame.idx, List.cons_append, List.nodup_cons, List.mem_append,
          not_or] at hB2
        obtain ⟨⟨gr, gc⟩, hB3⟩ := hB2
        obtain ⟨nr, nc2, drc⟩ := List.nodup_append.1 hB3
        have irr : i ∉ r.idx := fun hx => iC (by simp [cidx, Frame.idx, hx])
        have hside : ¬ (get m g).right = i := by
          rw [hG]; exact lnk_ne_of_not_mem irr (Ne.symm hoi)
        rw [if_neg hside, hG] at hgo
        refine ⟨hv _ hvg, hgo, ?_, ?_⟩
        · refine Rep_congr hv r g (fun j hj => hun j ?_ ?_ ?_ (Or.inr ?_)) hRr
          · exact fun e => iC (by simp [cidx, Frame.idx, e ▸ hj])
          · exact fun e => qC (by simp [cidx, Frame.idx, e ▸ hj])
          · exact fun e => hbC (by simp [cidx, Frame.idx, e ▸ hj])
          · simp only [own, Frame.i]; exact fun e => gr (e ▸ hj)
        · refine RepC_congr hv hroot' c2 g (fun j hj => hun j ?_ ?_ ?_ (Or.inr ?_)) hC2
          · exact fun e => iC (by simp [cidx, Frame.idx, e ▸ hj])
          · exact fun e => qC (by simp [cidx, Frame.idx, e ▸ hj])
          · exact fun e => hbC (by simp [cidx, Frame.idx, e ▸ hj])
          · simp only [own, Frame.i]; exact fun e => gc (e ▸ hj)
      | R l g kg vg hg0 =>
        obtain ⟨hvg, hG, hRl, hC2⟩ := hC
        simp only [own, Frame.i] at hgo hoi hoq hob
        simp only [cidx, Frame.idx, List.cons_append, List.nodup_cons, List.mem_append,
          not_or] at hB2
        obtain ⟨⟨gr, gc⟩, hB3⟩ := hB2
        obtain ⟨nr, nc2, drc⟩ := List.nodup_append.1 hB3
        have hside : (get m g).right = i := by rw [hG]
        rw [if_pos hside, hG] at hgo
        refine ⟨hv _ hvg, hgo, ?_, ?_⟩
        · refine Rep_congr hv l g (fun j hj => hun j ?_ ?_ ?_ (Or.inr ?_)) hRl
          · exact fun e => iC (by simp [cidx, Frame.idx, e ▸ hj])
          · exact fun e => qC (by simp [cidx, Frame.idx, e ▸ hj])
          · exact fun e => hbC (by simp [cidx, Frame.idx, e ▸ hj])
          · simp only [own, Frame.i]; exact fun e => gr (e ▸ hj)
        · refine RepC_congr hv hroot' c2 g (fun j hj => hun j ?_ ?_ ?_ (Or.inr ?_)) hC2
          · exact fun e => iC (by simp [cidx, Frame.idx, e ▸ hj])
          · exact fun e => qC (by simp [cidx, Frame.idx, e ▸ hj])
          · exact fun e => hbC (by simp [cidx, Frame.idx, e ▸ hj])
          · simp only [own, Frame.i]; exact fun e => gc (e ▸ hj)
  · -- the rotated subtree
    have hgq := hget q
    rw [if_neg hqi, if_pos rfl] at hgq
    have hgi := hget i
    rw [if_pos rfl] at hgi
    have hbi' : (if b.lnk q = q then i else b.lnk q) = b.lnk i := by
      cases b with
      | nil => simp
      | node bl bj bk bv bh br =>
        have : bj ≠ q := fun e => qb (by simp [Tree.idx, e])
        simp [this]
    rw [cht_lnk cha, cht_lnk chb, cht_lnk chc, ← ch_eq] at hgq
    rw [cht_lnk cha, cht_lnk chb, ← ch_eq, hbi'] at hgi
    refine ⟨hv _ hvq, ?g1, ⟨hv _ hvi, ?g2, ?g3, ?g4⟩, ?g5⟩
    case g1 => rw [hgq, ch_eq _ c']; rfl
    case g2 => exact hgi
    case g3 =>
      refine Rep_congr hv a i (fun j hj => hunT j ?_ ?_ (hbla j hj) (daC j hj)) hRa
      · exact fun e => ia (e ▸ hj)
      · exact fun e => qa (e ▸ hj)
    case g5 =>
      refine Rep_congr hv c' q (fun j hj => hunT j ?_ ?_ (hblc j hj) (dcC j hj)) hRc
      · exact fun e => ic (e ▸ hj)
      · exact fun e => qc (e ▸ hj)
    · refine Rep_reparent hv nb ?_ ?_ hRb
      · intro l x kx vx hx r e
        subst e
        have hx1 : x ≠ i := fun e => ib (by simp [Tree.idx, e])
        have hx2 : x ≠ q := fun e => qb (by simp [Tree.idx, e])
        have := hget x
        rw [if_neg hx1, if_neg hx2, if_pos (by simp)] at this
        exact this
      · intro j hj hne
        refine hunT j ?_ ?_ ?_ (dbC j hj)
        · exact fun e => ib (e ▸ hj)
        · exact fun e => qb (e ▸ hj)
        · rcases hbl with e2 | e2
          · rw [e2]; exact fun e => qb (e ▸ hj)
          · exact hne
  · -- the slots outside the tree
    intro j hj
    simp only [List.mem_append, not_or] at hj
    obtain ⟨hj1, hj2⟩ := hj
    rw [hmem] at hj1
    simp only [not_or] at hj1
    obtain ⟨h1, h2, h3, h4, h5⟩ := hj1
    refine hunT j h1 h2 ?_ hj2
    rcases hbl with e2 | e2
    · rw [e2]; exact h2
    · exact fun e => h4 (e ▸ e2)

set_option maxHeartbeats 1000000 in
/-- The rotation `detail_sdmap_rotate_r_impl` at the root of the subtree at the
open place of a path. -/
theorem rotate_r_zip {m : sdmap_heap} {c : List Frame} {a b c' : Tree} {i q : Nat}
    {k v h kq vq hq : Int}
    (hz : RepZ m c (Tree.node (.node c' q kq vq hq b) i k v h a))
    (hnd : ((Tree.node (.node c' q kq vq hq b) i k v h a).idx ++ cidx c).Nodup) :
    ∃ m', detail_sdmap_rotate_r_impl m i = some m' ∧
      RepZ m' c (.node c' q kq vq (ch c' (.node b i k v (ch b a) a)) (.node b i k v (ch b a) a)) ∧
      SameHdr m m' ∧
      SameOut m m' ((Tree.node (.node c' q kq vq hq b) i k v h a).idx ++ cidx c) := by
  obtain ⟨hC, hvi, hP, ⟨hvq, hQ, hRc, hRb⟩, hRa⟩ := hz
  simp only [lnk_node] at hC hP hQ
  -- distinctness of the slots
  obtain ⟨hA, hB, hAB⟩ := List.nodup_append.1 hnd
  have hmem : ∀ j, j ∈ (Tree.node (.node c' q kq vq hq b) i k v h a).idx ↔
      (j = i ∨ j = q ∨ j ∈ a.idx ∨ j ∈ b.idx ∨ j ∈ c'.idx) := by
    intro j; simp only [Tree.idx, List.mem_append, List.mem_cons]; tauto
  have hperm : (Tree.node (.node c' q kq vq hq b) i k v h a).idx.Perm
      (i :: q :: (a.idx ++ (b.idx ++ c'.idx))) := by
    simp only [Tree.idx]
    have h1 : ((c'.idx ++ q :: b.idx) ++ i :: a.idx).Perm (i :: ((c'.idx ++ q :: b.idx) ++ a.idx)) :=
      List.perm_middle
    have h2 : (c'.idx ++ q :: b.idx).Perm (q :: (c'.idx ++ b.idx)) := List.perm_middle
    have h3 : (q :: (c'.idx ++ b.idx) ++ a.idx).Perm (q :: (a.idx ++ (b.idx ++ c'.idx))) := by
      simp only [List.cons_append]
      refine List.Perm.cons q ?_
      have h4 : ((c'.idx ++ b.idx) ++ a.idx).Perm (a.idx ++ (c'.idx ++ b.idx)) :=
        List.perm_append_comm
      exact h4.trans (List.Perm.append_left a.idx List.perm_append_comm)
    exact h1.trans (List.Perm.cons i ((List.Perm.append_right a.idx h2).trans h3))
  have hA' := hperm.nodup_iff.1 hA
  obtain ⟨hi1, hA2⟩ := List.nodup_cons.1 hA'
  obtain ⟨hq1, hA3⟩ := List.nodup_cons.1 hA2
  obtain ⟨na, hbc, dabc⟩ := List.nodup_append.1 hA3
  obtain ⟨nb, nc, dbc0⟩ := List.nodup_append.1 hbc
  have hiq : i ≠ q := by intro e; apply hi1; simp [e]
  have hqi : q ≠ i := Ne.symm hiq
  have ia : i ∉ a.idx := fun hx => hi1 (by simp [hx])
  have ib : i ∉ b.idx := fun hx => hi1 (by simp [hx])
  have ic : i ∉ c'.idx := fun hx => hi1 (by simp [hx])
  have qa : q ∉ a.idx := fun hx => hq1 (by simp [hx])
  have qb : q ∉ b.idx := fun hx => hq1 (by simp [hx])
  have qc : q ∉ c'.idx := fun hx => hq1 (by simp [hx])
  have iC : i ∉ cidx c := fun hx => hAB ((hmem i).2 (by simp)) hx
  have qC : q ∉ cidx c := fun hx => hAB ((hmem q).2 (by simp)) hx
  have dab : ∀ j, j ∈ a.idx → j ∉ b.idx := fun j h1 h2 => dabc h1 (by simp [h2])
  have dac : ∀ j, j ∈ a.idx → j ∉ c'.idx := fun j h1 h2 => dabc h1 (by simp [h2])
  have dbc : ∀ j, j ∈ b.idx → j ∉ c'.idx := fun j h1 h2 => dbc0 h1 h2
  have daC : ∀ j, j ∈ a.idx → j ∉ cidx c := fun j h1 h2 => hAB ((hmem j).2 (by simp [h1])) h2
  have dbC : ∀ j, j ∈ b.idx → j ∉ cidx c := fun j h1 h2 => hAB ((hmem j).2 (by simp [h1])) h2
  have dcC : ∀ j, j ∈ c'.idx → j ∉ cidx c := fun j h1 h2 => hAB ((hmem j).2 (by simp [h1])) h2
  have cha : ChildH m a i := ChildH_of_Rep hRa ia
  have chb : ChildH m b q := ChildH_of_Rep hRb qb
  have chc : ChildH m c' q := ChildH_of_Rep hRc qc
  have hbl : b.lnk q = q ∨ b.lnk q ∈ b.idx := lnk_mem_or b q
  have hbi : b.lnk q ≠ i := by
    rcases hbl with e | e
    · rw [e]; exact hqi
    · exact fun e' => ib (e' ▸ e)
  have hbC : b.lnk q ∉ cidx c := by
    rcases hbl with e | e
    · rw [e]; exact qC
    · exact dbC _ e
  -- the hypotheses of the slot-level lemma
  have hPr : (get m i).left = q := by rw [hP]
  have hPl : (get m i).right = i ∨ (valid m (get m i).right ∧ (get m i).right ≠ q) := by
    rw [hP]
    rcases lnk_mem_or a i with e | e
    · left; exact e
    · right; exact ⟨Rep_valid_of_mem a i hRa _ e, fun e' => qa (e' ▸ e)⟩
  have hQl : (get m q).right = q ∨ (valid m (get m q).right ∧ (get m q).right ≠ i ∧
      (get m q).right ≠ (get m i).right) := by
    rw [hQ, hP]
    rcases hbl with e | e
    · left; exact e
    · right
      refine ⟨Rep_valid_of_mem b q hRb _ e, hbi, ?_⟩
      simp only
      rcases lnk_mem_or a i with e2 | e2
      · rw [e2]; exact hbi
      · exact fun e' => dab _ e2 (e' ▸ e)
  have hQr : (get m q).left = q ∨ (valid m (get m q).left ∧ (get m q).left ≠ i ∧
      (get m q).left ≠ (get m q).right) := by
    rw [hQ]
    rcases lnk_mem_or c' q with e | e
    · left; exact e
    · right
      refine ⟨Rep_valid_of_mem c' q hRc _ e, fun e' => ic (e' ▸ e), ?_⟩
      simp only
      rcases hbl with e2 | e2
      · rw [e2]; exact fun e' => qc (e' ▸ e)
      · exact fun e' => dbc _ e2 (e' ▸ e)
  have hrootc : (c = [] ∧ i = m.root_slot) ∨
      (c ≠ [] ∧ i ≠ m.root_slot ∧ own c ∈ cidx c ∧ valid m (own c)) := by
    cases c with
    | nil => left; exact ⟨rfl, hC.symm⟩
    | cons f c2 =>
      right
      have h1 := RepC_root_mem _ _ hC (by simp)
      have h2 := own_mem_cidx (f :: c2) (by simp)
      exact ⟨by simp, fun e => iC (e ▸ h1), h2, RepC_valid_of_mem _ _ hC _ h2⟩
  have hg : i = m.root_slot ∨ (valid m (get m i).parent ∧ (get m i).parent ≠ i ∧
      (get m i).parent ≠ q ∧ (get m i).parent ≠ (get m q).right) := by
    simp only [hP, hQ]
    rcases hrootc with ⟨-, h⟩ | ⟨-, -, h2, h3⟩
    · left; exact h
    · right
      exact ⟨h3, fun e => iC (e ▸ h2), fun e => qC (e ▸ h2), fun e => hbC (e ▸ h2)⟩
  obtain ⟨m', hrun, hd, hroot, hget⟩ := rotate_r_mem hvi hvq hqi hPr hPl hQl hQr hg
  have hv : ∀ j, valid m j → valid m' j := fun j hj => (hd.valid_iff j).2 hj
  simp only [hP, hQ] at hget
  have hun : ∀ j, j ≠ i → j ≠ q → j ≠ b.lnk q → (i = m.root_slot ∨ j ≠ own c) →
      get m' j = get m j := by
    intro j h1 h2 h3 h4
    rw [hget j, if_neg h1, if_neg h2, if_neg h3]
    rcases h4 with h4 | h4
    · rw [if_neg (by simp [h4])]
    · rw [if_neg (by simp [h4])]
  have hunT : ∀ j, j ≠ i → j ≠ q → j ≠ b.lnk q → j ∉ cidx c → get m' j = get m j := by
    intro j h1 h2 h3 h4
    refine hun j h1 h2 h3 ?_
    rcases hrootc with ⟨-, h⟩ | ⟨-, -, h5, -⟩
    · left; exact h
    · right; exact fun e => h4 (e ▸ h5)
  have hbla : ∀ j, j ∈ a.idx → j ≠ b.lnk q := by
    intro j hj e
    rcases hbl with e2 | e2
    · exact qa (e2 ▸ e ▸ hj)
    · exact dab _ hj (e ▸ e2)
  have hblc : ∀ j, j ∈ c'.idx → j ≠ b.lnk q := by
    intro j hj e
    rcases hbl with e2 | e2
    · exact qc (e2 ▸ e ▸ hj)
    · exact dbc _ e2 (e ▸ hj)
  refine ⟨m', hrun, ⟨?_, ?_⟩, hd, ?_⟩
  · -- the path
    simp only [lnk_node]
    cases c with
    | nil =>
      simp only [RepC] at hC ⊢
      rw [hroot, if_pos hC.symm]
    | cons f c2 =>
      rcases hrootc with ⟨hnil, -⟩ | ⟨-, hne, hown, hvo⟩
      · exact absurd hnil (by simp)
      have hroot' : m'.root_slot = m.root_slot := by rw [hroot, if_neg hne]
      have hoi : own (f :: c2) ≠ i := fun e => iC (e ▸ hown)
      have hoq : own (f :: c2) ≠ q := fun e => qC (e ▸ hown)
      have hob : own (f :: c2) ≠ b.lnk q := fun e => hbC (e ▸ hown)
      have hgo := hget (own (f :: c2))
      rw [if_neg hoi, if_neg hoq, if_neg hob, if_pos ⟨hne, rfl⟩] at hgo
      have hB2 : (cidx (f :: c2)).Nodup := hB
      cases f with
      | L g kg vg hg0 r =>
        obtain ⟨hvg, hG, hRr, hC2⟩ := hC
        simp only [own, Frame.i] at hgo hoi hoq hob
        simp only [cidx, Frame.idx, List.cons_append, List.nodup_cons, List.mem_append,
          not_or] at hB2
        obtain ⟨⟨gr, gc⟩, hB3⟩ := hB2
        obtain ⟨nr, nc2, drc⟩ := List.nodup_append.1 hB3
        have irr : i ∉ r.idx := fun hx => iC (by simp [cidx, Frame.idx, hx])
        have hside : ¬ (get m g).right = i := by
          rw [hG]; exact lnk_ne_of_not_mem irr (Ne.symm hoi)
        rw [if_neg hside, hG] at hgo
        refine ⟨hv _ hvg, hgo, ?_, ?_⟩
        · refine Rep_congr hv r g (fun j hj => hun j ?_ ?_ ?_ (Or.inr ?_)) hRr
          · exact fun e => iC (by simp [cidx, Frame.idx, e ▸ hj])
          · exact fun e => qC (by simp [cidx, Frame.idx, e ▸ hj])
          · exact fun e => hbC (by simp [cidx, Frame.idx, e ▸ hj])
          · simp only [own, Frame.i]; exact fun e => gr (e ▸ hj)
        · refine RepC_congr hv hroot' c2 g (fun j hj => hun j ?_ ?_ ?_ (Or.inr ?_)) hC2
          · exact fun e => iC (by simp [cidx, Frame.idx, e ▸ hj])
          · exact fun e => qC (by simp [cidx, Frame.idx, e ▸ hj])
          · exact fun e => hbC (by simp [cidx, Frame.idx, e ▸ hj])
          · simp only [own, Frame.i]; exact fun e => gc (e ▸ hj)
      | R l g kg vg hg0 =>
        obtain ⟨hvg, hG, hRl, hC2⟩ := hC
        simp only [own, Frame.i] at hgo hoi hoq hob
        simp only [cidx, Frame.idx, List.cons_append, List.nodup_cons, List.mem_append,
          not_or] at hB2
        obtain ⟨⟨gr, gc⟩, hB3⟩ := hB2
        obtain ⟨nr, nc2, drc⟩ := List.nodup_append.1 hB3
        have hside : (get m g).right = i := by rw [hG]
        rw [if_pos hside, hG] at hgo
        refine ⟨hv _ hvg, hgo, ?_, ?_⟩
        · refine Rep_congr hv l g (fun j hj => hun j ?_ ?_ ?_ (Or.inr ?_)) hRl
          · exact fun e => iC (by simp [cidx, Frame.idx, e ▸ hj])
          · exact fun e => qC (by simp [cidx, Frame.idx, e ▸ hj])
          · exact fun e => hbC (by simp [cidx, Frame.idx, e ▸ hj])
          · simp only [own, Frame.i]; exact fun e => gr (e ▸ hj)
        · refine RepC_congr hv hroot' c2 g (fun j hj => hun j ?_ ?_ ?_ (Or.inr ?_)) hC2
          · exact fun e => iC (by simp [cidx, Frame.idx, e ▸ hj])
          · exact fun e => qC (by simp [cidx, Frame.idx, e ▸ hj])
          · exact fun e => hbC (by simp [cidx, Frame.idx, e ▸ hj])
          · simp only [own, Frame.i]; exact fun e => gc (e ▸ hj)
  · -- the rotated subtree
    have hgq := hget q
    rw [if_neg hqi, if_pos rfl] at hgq
    have hgi := hget i
    rw [if_pos rfl] at hgi
    have hbi' : (if b.lnk q = q then i else b.lnk q) = b.lnk i := by
      cases b with
      | nil => simp
      | node bl bj bk bv bh br =>
        have : bj ≠ q := fun e => qb (by simp [Tree.idx, e])
        simp [this]
    rw [cht_lnk cha, cht_lnk chb, cht_lnk chc, ← ch_eq] at hgq
    rw [cht_lnk cha, cht_lnk chb, ← ch_eq, hbi'] at hgi
    refine ⟨hv _ hvq, ?g1, ?g5, ⟨hv _ hvi, ?g2, ?g4, ?g3⟩⟩
    case g1 => rw [hgq, ch_eq c' _]; rfl
    case g2 => exact hgi
    case g3 =>
      refine Rep_congr hv a i (fun j hj => hunT j ?_ ?_ (hbla j hj) (daC j hj)) hRa
      · exact fun e => ia (e ▸ hj)
      · exact fun e => qa (e ▸ hj)
    case g5 =>
      refine Rep_congr hv c' q (fun j hj => hunT j ?_ ?_ (hblc j hj) (dcC j hj)) hRc
      · exact fun e => ic (e ▸ hj)
      · exact fun e => qc (e ▸ hj)
    · refine Rep_reparent hv nb ?_ ?_ hRb
      · intro l x kx vx hx r e
        subst e
        have hx1 : x ≠ i := fun e => ib (by simp [Tree.idx, e])
        have hx2 : x ≠ q := fun e => qb (by simp [Tree.idx, e])
        have := hget x
        rw [if_neg hx1, if_neg hx2, if_pos (by simp)] at this
        exact this
      · intro j hj hne
        refine hunT j ?_ ?_ ?_ (dbC j hj)
        · exact fun e => ib (e ▸ hj)
        · exact fun e => qb (e ▸ hj)
        · rcases hbl with e2 | e2
          · rw [e2]; exact fun e => qb (e ▸ hj)
          · exact hne
  · -- the slots outside the tree
    intro j hj
    simp only [List.mem_append, not_or] at hj
    obtain ⟨hj1, hj2⟩ := hj
    rw [hmem] at hj1
    simp only [not_or] at hj1
    obtain ⟨h1, h2, h3, h4, h5⟩ := hj1
    refine hunT j h1 h2 ?_ hj2
    rcases hbl with e2 | e2
    · rw [e2]; exact h2
    · exact fun e => h4 (e ▸ e2)

/-! ## Moving along a path -/

theorem RepZ_cons {m : sdmap_heap} (f : Frame) (c : List Frame) (t : Tree) :
    RepZ m (f :: c) t ↔ RepZ m c (f.fill t) := by
  cases f <;> simp only [RepZ, Frame.fill, own, Frame.i, RepC, Rep, lnk_node] <;> tauto

theorem zip_perm (f : Frame) (c : List Frame) (t : Tree) :
    (t.idx ++ cidx (f :: c)).Perm ((f.fill t).idx ++ cidx c) := by
  simp only [cidx, ← List.append_assoc]
  exact List.Perm.append_right _ (fill_idx_perm f t).symm

theorem zip_nodup (f : Frame) (c : List Frame) (t : Tree) :
    (t.idx ++ cidx (f :: c)).Nodup ↔ ((f.fill t).idx ++ cidx c).Nodup :=
  (zip_perm f c t).nodup_iff

theorem SameOut_perm {m m' : sdmap_heap} {s s' : List Nat} (h : SameOut m m' s)
    (hp : ∀ j, j ∈ s → j ∈ s') : SameOut m m' s' :=
  fun j hj => h j (fun hx => hj (hp j hx))

theorem SameOut.otrans {a b c : sdmap_heap} {s : List Nat} (h1 : SameOut a b s)
    (h2 : SameOut b c s) : SameOut a c s :=
  fun j hj => (h2 j hj).trans (h1 j hj)

theorem SameOut.orefl (a : sdmap_heap) (s : List Nat) : SameOut a a s := fun _ _ => rfl

/-- The effect of `detail_sdmap_compute_height` at the root of the subtree at
the open place of a path. -/
theorem compute_height_zip {m : sdmap_heap} {c : List Frame} {l r : Tree} {i : Nat}
    {k v h : Int} (hz : RepZ m c (.node l i k v h r))
    (hnd : ((Tree.node l i k v h r).idx ++ cidx c).Nodup) :
    ∃ m', detail_sdmap_compute_height m i = some m' ∧
      RepZ m' c (.node l i k v (ch l r) r) ∧ SameHdr m m' ∧
      m'.root_slot = m.root_slot ∧
      SameOut m m' ((Tree.node l i k v h r).idx ++ cidx c) := by
  obtain ⟨hC, hvi, hP, hRl, hRr⟩ := hz
  obtain ⟨hA, hB, hAB⟩ := List.nodup_append.1 hnd
  simp only [Tree.idx] at hA hAB
  obtain ⟨nl, hiR, dlR⟩ := List.nodup_append.1 hA
  obtain ⟨ir, nr⟩ := List.nodup_cons.1 hiR
  have il : i ∉ l.idx := fun hx => dlR hx (by simp)
  have iC : i ∉ cidx c := fun hx => hAB (by simp) hx
  have e := compute_height_eq l r hvi (by rw [hP]) (by rw [hP]) (ChildH_of_Rep hRl il)
    (ChildH_of_Rep hRr ir)
  have hv : ∀ j, valid m j → valid (put m i { get m i with height := ch l r }) j :=
    fun j hj => valid_put.2 hj
  have hun : ∀ j, j ≠ i → get (put m i { get m i with height := ch l r }) j = get m j := by
    intro j hj; rw [get_put hvi, if_neg hj]
  refine ⟨_, e, ⟨?_, ?_⟩, ⟨rfl, rfl, rfl, rfl, by simp⟩, rfl, ?_⟩
  · exact RepC_congr hv rfl c _ (fun j hj => hun j (fun e => iC (e ▸ hj))) hC
  · refine ⟨hv _ hvi, ?_, ?_, ?_⟩
    · rw [get_put hvi, if_pos rfl, hP]
    · exact Rep_congr hv l i (fun j hj => hun j (fun e => il (e ▸ hj))) hRl
    · exact Rep_congr hv r i (fun j hj => hun j (fun e => ir (e ▸ hj))) hRr
  · intro j hj
    exact hun j (fun e => hj (by simp [Tree.idx, e]))

theorem compute_balance_zip {m : sdmap_heap} {o : Nat} {l r : Tree} {i : Nat}
    {k v h : Int} (hz : Rep m (.node l i k v h r) o)
    (hnd : (Tree.node l i k v h r).idx.Nodup) :
    detail_sdmap_compute_balance m i = some (balOf l r) := by
  obtain ⟨hvi, hP, hRl, hRr⟩ := hz
  simp only [Tree.idx] at hnd
  obtain ⟨nl, hiR, dlR⟩ := List.nodup_append.1 hnd
  obtain ⟨ir, nr⟩ := List.nodup_cons.1 hiR
  have il : i ∉ l.idx := fun hx => dlR hx (by simp)
  exact compute_balance_eq l r hvi (by rw [hP]) (by rw [hP]) (ChildH_of_Rep hRl il)
    (ChildH_of_Rep hRr ir)

theorem taller_child_zip {m : sdmap_heap} {o : Nat} {l r : Tree} {i : Nat}
    {k v h : Int} (hz : Rep m (.node l i k v h r) o)
    (hnd : (Tree.node l i k v h r).idx.Nodup) :
    detail_sdmap_taller_child m i = some (tallerOf l i r) := by
  obtain ⟨hvi, hP, hRl, hRr⟩ := hz
  simp only [Tree.idx] at hnd
  obtain ⟨nl, hiR, dlR⟩ := List.nodup_append.1 hnd
  obtain ⟨ir, nr⟩ := List.nodup_cons.1 hiR
  have il : i ∉ l.idx := fun hx => dlR hx (by simp)
  exact taller_child_eq l r hvi (by rw [hP]) (by rw [hP]) (ChildH_of_Rep hRl il)
    (ChildH_of_Rep hRr ir)

/-! ## The steps of the rebalancing loops on a path -/

theorem recompute_idx (t : Tree) : (recompute t).idx = t.idx := by
  cases t <;> rfl

theorem recompute_lnk (t : Tree) (o : Nat) : (recompute t).lnk o = t.lnk o := by
  cases t <;> rfl

theorem seth_idx (f : Frame) (h : Int) : (f.seth h).idx = f.idx := by
  cases f <;> rfl

theorem seth_i (f : Frame) (h : Int) : (f.seth h).i = f.i := by
  cases f <;> rfl

theorem recompute_fill (f : Frame) (t : Tree) :
    recompute (f.fill t) = (f.seth (f.chf t)).fill t := by
  cases f <;> rfl

theorem rotL_idx {t t' : Tree} (h : rotL t = some t') : t'.idx.Perm t.idx := by
  cases t with
  | nil => simp [rotL] at h
  | node a i k v hh r =>
    cases r with
    | nil => simp [rotL] at h
    | node b q kq vq hq c =>
      simp only [rotL, Option.some.injEq] at h
      subst h
      simp [Tree.idx]

theorem rotR_idx {t t' : Tree} (h : rotR t = some t') : t'.idx.Perm t.idx := by
  cases t with
  | nil => simp [rotR] at h
  | node l i k v hh c =>
    cases l with
    | nil => simp [rotR] at h
    | node a p kp vp hp b =>
      simp only [rotR, Option.some.injEq] at h
      subst h
      simp [Tree.idx]

theorem rotL_ne_nil {t t' : Tree} (h : rotL t = some t') : t' ≠ .nil := by
  cases t with
  | nil => simp [rotL] at h
  | node a i k v hh r =>
    cases r with
    | nil => simp [rotL] at h
    | node b q kq vq hq c =>
      simp only [rotL, Option.some.injEq] at h
      subst h; simp

theorem rotR_ne_nil {t t' : Tree} (h : rotR t = some t') : t' ≠ .nil := by
  cases t with
  | nil => simp [rotR] at h
  | node l i k v hh c =>
    cases l with
    | nil => simp [rotR] at h
    | node a p kp vp hp b =>
      simp only [rotR, Option.some.injEq] at h
      subst h; simp

theorem Step.strans {m m' m'' : sdmap_heap} {s : List Nat} {c' c'' : List Frame}
    {t' t'' : Tree} (h1 : Step m m' s c' t') (h2 : Step m' m'' (t'.idx ++ cidx c') c'' t'') :
    Step m m'' s c'' t'' := by
  obtain ⟨a1, a2, a3, a4⟩ := h1
  obtain ⟨b1, b2, b3, b4⟩ := h2
  refine ⟨b1, a2.htrans b2, ?_, b4.trans a4⟩
  exact a3.otrans (SameOut_perm b3 (fun j hj => a4.subset hj))

theorem Step.srefl {m : sdmap_heap} {c : List Frame} {t : Tree} (h : ZOK m c t) :
    Step m m (t.idx ++ cidx c) c t :=
  ⟨h, SameHdr.hrefl m, SameOut.orefl m _, List.Perm.refl _⟩

theorem ZOK_cons {m : sdmap_heap} (f : Frame) (c : List Frame) (t : Tree) :
    ZOK m (f :: c) t ↔ ZOK m c (f.fill t) := by
  unfold ZOK; rw [RepZ_cons, zip_nodup]

theorem Step_cons {m m' : sdmap_heap} {s : List Nat} {f : Frame} {c : List Frame}
    {t : Tree} : Step m m' s (f :: c) t ↔ Step m m' s c (f.fill t) := by
  unfold Step
  rw [ZOK_cons]
  constructor
  · rintro ⟨a1, a2, a3, a4⟩
    exact ⟨a1, a2, a3, (zip_perm f c t).symm.trans a4⟩
  · rintro ⟨a1, a2, a3, a4⟩
    exact ⟨a1, a2, a3, (zip_perm f c t).trans a4⟩

theorem Step_src {m m' : sdmap_heap} {s s' : List Nat} {c : List Frame} {t : Tree}
    (hp : s.Perm s') (h : Step m m' s c t) : Step m m' s' c t := by
  obtain ⟨a1, a2, a3, a4⟩ := h
  exact ⟨a1, a2, SameOut_perm a3 (fun j hj => hp.subset hj), a4.trans hp⟩

theorem rotate_l_step {m : sdmap_heap} {c : List Frame} {t t' : Tree}
    (hz : ZOK m c t) (hr : rotL t = some t') :
    ∃ m', detail_sdmap_rotate_l_impl m (t.lnk 0) = some m' ∧ Step m m' (t.idx ++ cidx c) c t' := by
  have hperm := rotL_idx hr
  cases t with
  | nil => simp [rotL] at hr
  | node a i k v hh r =>
    cases r with
    | nil => simp [rotL] at hr
    | node b q kq vq hq c' =>
      simp only [rotL, Option.some.injEq] at hr
      subst hr
      obtain ⟨m', e, h1, h2, h3⟩ := rotate_l_zip hz.1 hz.2
      exact ⟨m', e, ⟨h1, (List.Perm.append_right _ hperm).nodup_iff.2 hz.2⟩, h2, h3,
        List.Perm.append_right _ hperm⟩

theorem rotate_r_step {m : sdmap_heap} {c : List Frame} {t t' : Tree}
    (hz : ZOK m c t) (hr : rotR t = some t') :
    ∃ m', detail_sdmap_rotate_r_impl m (t.lnk 0) = some m' ∧ Step m m' (t.idx ++ cidx c) c t' := by
  have hperm := rotR_idx hr
  cases t with
  | nil => simp [rotR] at hr
  | node l i k v hh a =>
    cases l with
    | nil => simp [rotR] at hr
    | node c' q kq vq hq b =>
      simp only [rotR, Option.some.injEq] at hr
      subst hr
      obtain ⟨m', e, h1, h2, h3⟩ := rotate_r_zip hz.1 hz.2
      exact ⟨m', e, ⟨h1, (List.Perm.append_right _ hperm).nodup_iff.2 hz.2⟩, h2, h3,
        List.Perm.append_right _ hperm⟩

theorem compute_height_step {m : sdmap_heap} {c : List Frame} {t : Tree}
    (hz : ZOK m c t) (ht : t ≠ .nil) :
    ∃ m', detail_sdmap_compute_height m (t.lnk 0) = some m' ∧
      Step m m' (t.idx ++ cidx c) c (recompute t) ∧ m'.root_slot = m.root_slot := by
  cases t with
  | nil => exact absurd rfl ht
  | node l i k v h r =>
    obtain ⟨m', e, h1, h2, h3, h4⟩ := compute_height_zip hz.1 hz.2
    exact ⟨m', e, ⟨⟨h1, hz.2⟩, h2, h4, List.Perm.refl _⟩, h3⟩

theorem compute_balance_step {m : sdmap_heap} {c : List Frame} {t : Tree}
    (hz : ZOK m c t) (ht : t ≠ .nil) :
    detail_sdmap_compute_balance m (t.lnk 0) = some t.bal := by
  cases t with
  | nil => exact absurd rfl ht
  | node l i k v h r =>
    exact compute_balance_zip hz.1.2 (List.nodup_append.1 hz.2).1

/-- The test `at != header->root_slot` of the loops. -/
theorem root_slot_eq_iff {m : sdmap_heap} {c : List Frame} {t : Tree}
    (hz : ZOK m c t) (ht : t ≠ .nil) : t.lnk 0 = m.root_slot ↔ c = [] := by
  cases t with
  | nil => exact absurd rfl ht
  | node l i k v h r =>
    simp only [lnk_node]
    constructor
    · intro e
      by_contra hc
      have h1 := RepC_root_mem c _ hz.1.1 hc
      have h2 := (List.nodup_append.1 hz.2).2.2
      exact h2 (by simp [Tree.idx]) (e ▸ h1)
    · intro e
      subst e
      exact hz.1.1.symm

/-! ## The loops of `detail_sdmap_insert_rotate` on a path -/

theorem fill_bal (f : Frame) (t : Tree) : (f.fill t).bal = f.balf t := by
  cases f <;> rfl

theorem fill_ne_nil (f : Frame) (t : Tree) : f.fill t ≠ .nil := by
  cases f <;> simp [Frame.fill]

theorem recompute_ne_nil {t : Tree} (h : t ≠ .nil) : recompute t ≠ .nil := by
  cases t with
  | nil => exact absurd rfl h
  | node l i k v hh r => simp [recompute]

theorem ZOK_parent {m : sdmap_heap} {f : Frame} {c : List Frame} {t : Tree}
    (hz : ZOK m (f :: c) t) (ht : t ≠ .nil) :
    valid m (t.lnk 0) ∧ (get m (t.lnk 0)).parent = f.i := by
  cases t with
  | nil => exact absurd rfl ht
  | node l i k v h r =>
    obtain ⟨⟨-, h1, h2, -⟩, -⟩ := hz
    exact ⟨h1, by show (get m i).parent = f.i; rw [h2]; rfl⟩

theorem rotL_lnk {l t1 t' : Tree} {g : Nat} {kg vg hg : Int}
    (h : rotL (.node l g kg vg hg t1) = some t') : t'.lnk 0 = t1.lnk 0 := by
  cases t1 with
  | nil => simp [rotL] at h
  | node b q kq vq hq c =>
    simp only [rotL, Option.some.injEq] at h
    subst h; rfl

theorem rotR_lnk {r t1 t' : Tree} {g : Nat} {kg vg hg : Int}
    (h : rotR (.node t1 g kg vg hg r) = some t') : t'.lnk 0 = t1.lnk 0 := by
  cases t1 with
  | nil => simp [rotR] at h
  | node b q kq vq hq c =>
    simp only [rotR, Option.some.injEq] at h
    subst h; rfl

/-- After `rotate_r(at); rotate_l(parent)` the node `at` is the right child of
the new root of the subtree. -/
theorem rotRL_lnk {l t1 t2 p t3 : Tree} {g x : Nat} {kg vg hg kx vx hx : Int}
    (h1 : rotR t1 = some t2)
    (h2 : rotL (.node l g kg vg hg t2) = some (.node p x kx vx hx t3)) :
    t3.lnk 0 = t1.lnk 0 ∧ t3 ≠ .nil := by
  cases t1 with
  | nil => simp [rotR] at h1
  | node a i k v hh c =>
    cases a with
    | nil => simp [rotR] at h1
    | node a1 q kq vq hq a2 =>
      simp only [rotR, Option.some.injEq] at h1
      subst h1
      simp only [rotL, Option.some.injEq, Tree.node.injEq] at h2
      obtain ⟨-, -, -, -, -, e⟩ := h2
      subst e
      exact ⟨rfl, by simp⟩

theorem rotLR_lnk {r t1 t2 p t3 : Tree} {g x : Nat} {kg vg hg kx vx hx : Int}
    (h1 : rotL t1 = some t2)
    (h2 : rotR (.node t2 g kg vg hg r) = some (.node t3 x kx vx hx p)) :
    t3.lnk 0 = t1.lnk 0 ∧ t3 ≠ .nil := by
  cases t1 with
  | nil => simp [rotL] at h1
  | node c i k v hh a =>
    cases a with
    | nil => simp [rotL] at h1
    | node a1 q kq vq hq a2 =>
      simp only [rotL, Option.some.injEq] at h1
      subst h1
      simp only [rotR, Option.some.injEq, Tree.node.injEq] at h2
      obtain ⟨e, -, -, -, -, -⟩ := h2
      subst e
      exact ⟨rfl, by simp⟩

set_option maxHeartbeats 1000000 in
theorem insert_rotate_loop1_zip : ∀ (c : List Frame) (t : Tree) (m : sdmap_heap)
    (c' : List Frame) (t' : Tree),
    ZOK m c t → t ≠ .nil → insLoop1 c t = some (c', t') →
    ∃ m', (∀ fuel, c.length < fuel →
        detail_sdmap_insert_rotate_loop1 fuel m (t.lnk 0) = some (m', t'.lnk 0)) ∧
      Step m m' (t.idx ++ cidx c) c' t' ∧ t' ≠ .nil
  | [], t, m, c', t', hz, ht, h => by
    simp only [insLoop1, Option.some.injEq, Prod.mk.injEq] at h
    obtain ⟨rfl, rfl⟩ := h
    refine ⟨m, ?_, Step.srefl hz, ht⟩
    intro fuel hf
    obtain ⟨n, rfl⟩ : ∃ n, fuel = n + 1 := ⟨fuel - 1, by simp at hf; omega⟩
    simp [detail_sdmap_insert_rotate_loop1, (root_slot_eq_iff hz ht).2 rfl]
  | f :: c, t, m, c', t', hz, ht, h => by
    have hne : ¬ t.lnk 0 = m.root_slot := fun e => by
      have := (root_slot_eq_iff hz ht).1 e; simp at this
    obtain ⟨hva, hpar⟩ := ZOK_parent hz ht
    -- compute_height(parent)
    obtain ⟨m1, e1, s1, r1⟩ := compute_height_step ((ZOK_cons f c t).1 hz) (fill_ne_nil f t)
    rw [fill_lnk] at e1
    rw [recompute_fill] at s1
    have s1' : Step m m1 (t.idx ++ cidx (f :: c)) (f.seth (f.chf t) :: c) t :=
      Step_cons.2 (Step_src (zip_perm f c t).symm s1)
    -- compute_height(at)
    obtain ⟨m2, e2, s2, r2⟩ := compute_height_step s1'.1 ht
    have s2' : Step m m2 (t.idx ++ cidx (f :: c)) (f.seth (f.chf t) :: c) (recompute t) :=
      s1'.strans s2
    have hz2 := s2'.1
    have hz2' := (ZOK_cons _ _ _).1 hz2
    have hb := compute_balance_step hz2' (fill_ne_nil _ _)
    rw [fill_lnk, fill_bal, seth_i] at hb
    have hbc := compute_balance_step hz2 (recompute_ne_nil ht)
    rw [recompute_lnk] at hbc
    have hrun : ∀ n, detail_sdmap_insert_rotate_loop1 (n + 1) m (t.lnk 0) =
        (if (f.seth (f.chf t)).balf (recompute t) > 1 then
          if (recompute t).bal ≥ 0 then
            (detail_sdmap_rotate_l_impl m2 f.i).bind fun m => some (m, t.lnk 0)
          else
            (detail_sdmap_rotate_r_impl m2 (t.lnk 0)).bind fun m =>
              (detail_sdmap_rotate_l_impl m f.i).bind fun m => some (m, t.lnk 0)
        else if (f.seth (f.chf t)).balf (recompute t) < -1 then
          if (recompute t).bal > 0 then
            (detail_sdmap_rotate_l_impl m2 (t.lnk 0)).bind fun m =>
              (detail_sdmap_rotate_r_impl m f.i).bind fun m => some (m, t.lnk 0)
          else
            (detail_sdmap_rotate_r_impl m2 f.i).bind fun m => some (m, t.lnk 0)
        else detail_sdmap_insert_rotate_loop1 n m2 f.i) := by
      intro n
      rw [detail_sdmap_insert_rotate_loop1]
      simp only [hne, if_false, slot_eq_some hva, hpar, Option.some_bind, Option.bind_eq_bind,
        e1, e2, hb, hbc]
    simp only [insLoop1] at h
    by_cases hb1 : (f.seth (f.chf t)).balf (recompute t) > 1
    · simp only [hb1, if_true] at h hrun
      by_cases hc1 : (recompute t).bal ≥ 0
      · simp only [hc1, if_true] at h hrun
        cases f with
        | L g kg vg hg r => simp [Frame.seth] at h
        | R l g kg vg hg =>
          simp only [Frame.seth, Option.map_eq_some', Prod.mk.injEq] at h
          obtain ⟨t2, hr, rfl, rfl⟩ := h
          obtain ⟨m3, e3, s3⟩ := rotate_l_step hz2' hr
          refine ⟨m3, ?_, s2'.strans (Step_src (zip_perm _ _ _).symm s3), rotL_ne_nil hr⟩
          intro fuel hf
          obtain ⟨n, rfl⟩ : ∃ n, fuel = n + 1 := ⟨fuel - 1, by simp at hf; omega⟩
          rw [hrun]
          simp only [Frame.fill, lnk_node, Frame.i, Frame.seth] at e3 ⊢
          rw [e3, Option.some_bind, rotL_lnk hr, recompute_lnk]
      · simp only [hc1, if_false] at h hrun
        cases f with
        | L g kg vg hg r => simp [Frame.seth] at h
        | R l g kg vg hg =>
          simp only [Frame.seth] at h
          cases hr1 : rotR (recompute t) with
          | none => simp [hr1] at h
          | some t2 =>
            simp only [hr1] at h
            cases hr2 : rotL (.node l g kg vg (Frame.chf (.R l g kg vg hg) t) t2) with
            | none => simp [hr2] at h
            | some t4 =>
              cases t4 with
              | nil => simp [hr2] at h
              | node p x kx vx hx t3 =>
                simp only [hr2, Option.some.injEq, Prod.mk.injEq] at h
                obtain ⟨rfl, rfl⟩ := h
                obtain ⟨m3, e3, s3⟩ := rotate_r_step hz2 hr1
                have hz3 := (ZOK_cons _ _ _).1 s3.1
                obtain ⟨m4, e4, s4⟩ := rotate_l_step hz3 hr2
                obtain ⟨hl3, hn3⟩ := rotRL_lnk hr1 hr2
                refine ⟨m4, ?_, ?_, hn3⟩
                · intro fuel hf
                  obtain ⟨n, rfl⟩ : ∃ n, fuel = n + 1 := ⟨fuel - 1, by simp at hf; omega⟩
                  rw [hrun]
                  rw [recompute_lnk] at e3
                  simp only [Frame.fill, lnk_node, Frame.i, Frame.seth] at e4 ⊢
                  rw [e3, Option.some_bind, e4, Option.some_bind, hl3, recompute_lnk]
                · have s5 := (s2'.strans s3).strans (Step_src (zip_perm _ _ _).symm s4)
                  exact Step_cons.2 s5
    · simp only [hb1, if_false] at h hrun
      by_cases hb2 : (f.seth (f.chf t)).balf (recompute t) < -1
      · simp only [hb2, if_true] at h hrun
        by_cases hc1 : (recompute t).bal > 0
        · simp only [hc1, if_true] at h hrun
          cases f with
          | R l g kg vg hg => simp [Frame.seth] at h
          | L g kg vg hg r =>
            simp only [Frame.seth] at h
            cases hr1 : rotL (recompute t) with
            | none => simp [hr1] at h
            | some t2 =>
              simp only [hr1] at h
              cases hr2 : rotR (.node t2 g kg vg (Frame.chf (.L g kg vg hg r) t) r) with
              | none => simp [hr2] at h
              | some t4 =>
                cases t4 with
                | nil => simp [hr2] at h
                | node t3 x kx vx hx p =>
                  simp only [hr2, Option.some.injEq, Prod.mk.injEq] at h
                  obtain ⟨rfl, rfl⟩ := h
                  obtain ⟨m3, e3, s3⟩ := rotate_l_step hz2 hr1
                  have hz3 := (ZOK_cons _ _ _).1 s3.1
                  obtain ⟨m4, e4, s4⟩ := rotate_r_step hz3 hr2
                  obtain ⟨hl3, hn3⟩ := rotLR_lnk hr1 hr2
                  refine ⟨m4, ?_, ?_, hn3⟩
                  · intro fuel hf
                    obtain ⟨n, rfl⟩ : ∃ n, fuel = n + 1 := ⟨fuel - 1, by simp at hf; omega⟩
                    rw [hrun]
                    rw [recompute_lnk] at e3
                    simp only [Frame.fill, lnk_node, Frame.i, Frame.seth] at e4 ⊢
                    rw [e3, Option.some_bind, e4, Option.some_bind, hl3, recompute_lnk]
                  · have s5 := (s2'.strans s3).strans (Step_src (zip_perm _ _ _).symm s4)
                    exact Step_cons.2 s5
        · simp only [hc1, if_false] at h hrun
          cases f with
          | R l g kg vg hg => simp [Frame.seth] at h
          | L g kg vg hg r =>
            simp only [Frame.seth, Option.map_eq_some', Prod.mk.injEq] at h
            obtain ⟨t2, hr, rfl, rfl⟩ := h
            obtain ⟨m3, e3, s3⟩ := rotate_r_step hz2' hr
            refine ⟨m3, ?_, s2'.strans (Step_src (zip_perm _ _ _).symm s3), rotR_ne_nil hr⟩
            intro fuel hf
            obtain ⟨n, rfl⟩ : ∃ n, fuel = n + 1 := ⟨fuel - 1, by simp at hf; omega⟩
            rw [hrun]
            simp only [Frame.fill, lnk_node, Frame.i, Frame.seth] at e3 ⊢
            rw [e3, Option.some_bind, rotR_lnk hr, recompute_lnk]
      · simp only [hb2, if_false] at h hrun
        obtain ⟨m3, e3, s3, hn3⟩ := insert_rotate_loop1_zip c _ m2 c' t' hz2'
          (fill_ne_nil _ _) h
        refine ⟨m3, ?_, ?_, hn3⟩
        · intro fuel hf
          obtain ⟨n, rfl⟩ : ∃ n, fuel = n + 1 := ⟨fuel - 1, by simp at hf; omega⟩
          rw [hrun, ← e3 n (by simp at hf; omega), fill_lnk, seth_i]
        · exact s2'.strans (Step_src (zip_perm _ _ _).symm s3)

/-! ## The second loop of `detail_sdmap_insert_rotate` and the walk down -/

theorem insLoop1_length : ∀ (c : List Frame) (t : Tree) (c' : List Frame) (t' : Tree),
    insLoop1 c t = some (c', t') → c'.length ≤ c.length
  | [], t, c', t', h => by
    simp only [insLoop1, Option.some.injEq, Prod.mk.injEq] at h
    rw [← h.1]
  | f :: c, t, c', t', h => by
    simp only [insLoop1] at h
    split at h
    · split at h
      · cases f <;> simp only [Frame.seth, Option.map_eq_some', Prod.mk.injEq, reduceCtorEq] at h
        obtain ⟨_, -, rfl, -⟩ := h
        simp
      · cases f <;> simp only [Frame.seth, reduceCtorEq] at h
        split at h
        · split at h
          · simp only [Option.some.injEq, Prod.mk.injEq] at h
            rw [← h.1]; simp
          · simp at h
        · simp at h
    · split at h
      · split at h
        · cases f <;> simp only [Frame.seth, reduceCtorEq] at h
          split at h
          · split at h
            · simp only [Option.some.injEq, Prod.mk.injEq] at h
              rw [← h.1]; simp
            · simp at h
          · simp at h
        · cases f <;> simp only [Frame.seth, Option.map_eq_some', Prod.mk.injEq, reduceCtorEq] at h
          obtain ⟨_, -, rfl, -⟩ := h
          simp
      · have := insLoop1_length c _ c' t' h
        simp only [List.length_cons]; omega

theorem insert_rotate_loop2_zip : ∀ (c : List Frame) (t : Tree) (m : sdmap_heap),
    ZOK m c t → t ≠ .nil →
    ∃ m', (∀ fuel, c.length < fuel →
        detail_sdmap_insert_rotate_loop2 fuel m (t.lnk 0) = some m') ∧
      Step m m' (t.idx ++ cidx c) [] (insLoop2 c t)
  | [], t, m, hz, ht => by
    refine ⟨m, ?_, Step.srefl hz⟩
    intro fuel hf
    obtain ⟨n, rfl⟩ : ∃ n, fuel = n + 1 := ⟨fuel - 1, by simp at hf; omega⟩
    simp [detail_sdmap_insert_rotate_loop2, (root_slot_eq_iff hz ht).2 rfl]
  | f :: c, t, m, hz, ht => by
    have hne : ¬ t.lnk 0 = m.root_slot := fun e => by
      have := (root_slot_eq_iff hz ht).1 e; simp at this
    obtain ⟨m1, e1, s1, r1⟩ := compute_height_step hz ht
    obtain ⟨hva, hpar⟩ := ZOK_parent s1.1 (recompute_ne_nil ht)
    rw [recompute_lnk] at hva hpar
    obtain ⟨m2, e2, s2⟩ := insert_rotate_loop2_zip c _ m1 ((ZOK_cons _ _ _).1 s1.1)
      (fill_ne_nil _ _)
    refine ⟨m2, ?_, ?_⟩
    · intro fuel hf
      obtain ⟨n, rfl⟩ : ∃ n, fuel = n + 1 := ⟨fuel - 1, by simp at hf; omega⟩
      rw [detail_sdmap_insert_rotate_loop2]
      simp only [hne, if_false, e1, Option.some_bind, Option.bind_eq_bind, slot_eq_some hva,
        hpar]
      rw [← e2 n (by simp at hf; omega), fill_lnk]
    · simp only [insLoop2]
      exact s1.strans (Step_src (zip_perm _ _ _).symm s2)

theorem insert_rotate_zip {c : List Frame} {t : Tree} {m : sdmap_heap}
    {c' : List Frame} {t' : Tree}
    (hz : ZOK m c t) (ht : t ≠ .nil) (h : insLoop1 c t = some (c', t')) :
    ∃ m', (∀ fuel, c.length < fuel →
        detail_sdmap_insert_rotate fuel m (t.lnk 0) = some m') ∧
      Step m m' (t.idx ++ cidx c) [] (insLoop2 c' t') := by
  obtain ⟨m1, e1, s1, hn1⟩ := insert_rotate_loop1_zip c t m c' t' hz ht h
  obtain ⟨m2, e2, s2⟩ := insert_rotate_loop2_zip c' t' m1 s1.1 hn1
  have hl := insLoop1_length c t c' t' h
  refine ⟨m2, ?_, s1.strans s2⟩
  intro fuel hf
  unfold detail_sdmap_insert_rotate
  rw [e1 fuel hf]
  simp only [Option.some_bind, Option.bind_eq_bind]
  exact e2 fuel (by omega)

/-! ## Fuel, the list of empty slots and `detail_sdmap_insert_heap_impl` -/

theorem insert_rotate_loop2_mono : ∀ (fuel : Nat) (m : sdmap_heap) (at_ : Nat) (r : sdmap_heap),
    detail_sdmap_insert_rotate_loop2 fuel m at_ = some r →
    detail_sdmap_insert_rotate_loop2 (fuel + 1) m at_ = some r
  | 0, _, _, _, h => by simp [detail_sdmap_insert_rotate_loop2] at h
  | n + 1, m, at_, r, h => by
    rw [detail_sdmap_insert_rotate_loop2] at h ⊢
    split
    · next e => simpa [e] using h
    · next e =>
      simp only [e, if_false, Option.bind_eq_bind, Option.bind_eq_some] at h ⊢
      obtain ⟨m1, h1, a, h2, h3⟩ := h
      exact ⟨m1, h1, a, h2, insert_rotate_loop2_mono n _ _ _ h3⟩

theorem insert_rotate_loop1_mono : ∀ (fuel : Nat) (m : sdmap_heap) (at_ : Nat)
    (r : sdmap_heap × Nat),
    detail_sdmap_insert_rotate_loop1 fuel m at_ = some r →
    detail_sdmap_insert_rotate_loop1 (fuel + 1) m at_ = some r
  | 0, _, _, _, h => by simp [detail_sdmap_insert_rotate_loop1] at h
  | n + 1, m, at_, r, h => by
    rw [detail_sdmap_insert_rotate_loop1] at h ⊢
    split
    · next e => simpa [e] using h
    · next e =>
      simp only [e, if_false, Option.bind_eq_bind, Option.bind_eq_some] at h ⊢
      obtain ⟨a, h1, m1, h2, m2, h3, b, h4, bc, h5, h6⟩ := h
      refine ⟨a, h1, m1, h2, m2, h3, b, h4, bc, h5, ?_⟩
      split
      · next e1 => simpa [e1] using h6
      · next e1 =>
        simp only [e1, if_false] at h6
        split
        · next e2 => simpa [e2] using h6
        · next e2 =>
          simp only [e2, if_false] at h6
          exact insert_rotate_loop1_mono n _ _ _ h6

/-- More fuel does not change a result. -/
theorem mono_of_succ {α β : Type} (f : Nat → α → Option β)
    (h : ∀ n a r, f n a = some r → f (n + 1) a = some r) :
    ∀ n n' a r, n ≤ n' → f n a = some r → f n' a = some r := by
  intro n n' a r hle hf
  induction hle with
  | refl => exact hf
  | step _ ih => exact h _ _ _ ih

theorem insert_rotate_mono (fuel fuel' : Nat) (m : sdmap_heap) (at_ : Nat) (r : sdmap_heap)
    (hle : fuel ≤ fuel') (h : detail_sdmap_insert_rotate fuel m at_ = some r) :
    detail_sdmap_insert_rotate fuel' m at_ = some r := by
  unfold detail_sdmap_insert_rotate at h ⊢
  simp only [Option.bind_eq_bind, Option.bind_eq_some] at h ⊢
  obtain ⟨a, h1, h2⟩ := h
  refine ⟨a, ?_, ?_⟩
  · exact mono_of_succ (fun n (x : sdmap_heap × Nat) => detail_sdmap_insert_rotate_loop1 n x.1 x.2)
      (fun n x r => insert_rotate_loop1_mono n x.1 x.2 r) fuel fuel' (m, at_) a hle h1
  · exact mono_of_succ (fun n (x : sdmap_heap × Nat) => detail_sdmap_insert_rotate_loop2 n x.1 x.2)
      (fun n x r => insert_rotate_loop2_mono n x.1 x.2 r) fuel fuel' (a.1, a.2) r hle h2

theorem FreeL_congr {m m' : sdmap_heap} (hv : ∀ j, valid m j → valid m' j) :
    ∀ (fl : List Nat) (e : Nat), (∀ j ∈ fl, get m' j = get m j) → FreeL m e fl → FreeL m' e fl
  | [], _, _, h => h
  | i :: fl, e, hg, ⟨h1, h2, h3, h4, h5⟩ => by
    have hi := hg i (by simp)
    refine ⟨h1, h2, hv _ h3, by rw [hi]; exact h4, ?_⟩
    rw [hi]
    exact FreeL_congr hv fl _ (fun j hj => hg j (by simp [hj])) h5

theorem FreeL_valid {m : sdmap_heap} : ∀ (fl : List Nat) (e : Nat), FreeL m e fl →
    ∀ j ∈ fl, valid m j ∧ (get m j).height < 0
  | [], _, _, j, hj => by simp at hj
  | i :: fl, e, ⟨_, _, h3, h4, h5⟩, j, hj => by
    simp only [List.mem_cons] at hj
    rcases hj with rfl | hj
    · exact ⟨h3, h4⟩
    · exact FreeL_valid fl _ h5 j hj

theorem grow_capacity_ge : ∀ (fuel start needed c : Nat),
    grow_capacity fuel start needed = some c → needed ≤ c ∧ start ≤ c
  | 0, _, _, _, h => by simp [grow_capacity] at h
  | n + 1, start, needed, c, h => by
    rw [grow_capacity] at h
    split at h
    · have := grow_capacity_ge n _ _ _ h
      omega
    · simp only [Option.some.injEq] at h
      omega

theorem get_append_fresh (l : List sdmap_slot) (k j : Nat) :
    (l ++ List.replicate k fresh_slot).getD j fresh_slot = l.getD j fresh_slot := by
  simp only [List.getD_eq_getElem?_getD]
  by_cases h : j < l.length
  · rw [List.getElem?_append_left h]
  · rw [List.getElem?_append_right (by omega)]
    have : l[j]? = none := by simp; omega
    rw [this]
    by_cases h2 : j - l.length < k
    · simp [List.getElem?_replicate, h2]
    · simp [List.getElem?_replicate, h2]

theorem realloc_heap_spec {ks vs : Nat} {m m1 : sdmap_heap} {nc : Nat}
    (hc : m.slots.length = m.capacity / slot_size ks vs) (hcap : m.capacity < 4294967296)
    (h : realloc_heap m (slot_size ks vs) nc = some m1) :
    m1.slots.length = m1.capacity / slot_size ks vs ∧ m1.capacity < 4294967296 ∧
    nc ≤ m1.capacity ∧ m.slots.length ≤ m1.slots.length ∧
    (∀ j, get m1 j = get m j) ∧ m1.count = m.count ∧ m1.slot_count = m.slot_count ∧
    m1.root_slot = m.root_slot ∧ m1.empty_slot = m.empty_slot := by
  unfold realloc_heap at h
  split at h
  · next hgt =>
    split at h
    · next hlt =>
      simp only [Option.some.injEq] at h
      subst h
      have hdiv : m.capacity / slot_size ks vs ≤ nc / slot_size ks vs :=
        Nat.div_le_div_right (by omega)
      refine ⟨?_, hlt, le_refl _, ?_, ?_, rfl, rfl, rfl, rfl⟩
      · simp only [List.length_append, List.length_replicate]; omega
      · simp
      · intro j; exact get_append_fresh _ _ _
    · simp at h
  · next hgt =>
    simp only [Option.some.injEq] at h
    subst h
    exact ⟨hc, hcap, by omega, le_refl _, fun _ => rfl, rfl, rfl, rfl, rfl⟩

theorem slot_size_pos (ks vs : Nat) : 0 < slot_size ks vs := by
  unfold slot_size sizeof_sdmap_slot; omega

theorem get_congr_slots {m1 m2 : sdmap_heap} (h : m1.slots = m2.slots) (j : Nat) :
    get m1 j = get m2 j := by unfold get; rw [h]

theorem valid_congr_slots {m1 m2 : sdmap_heap} (h : m1.slots = m2.slots) (j : Nat) :
    valid m1 j ↔ valid m2 j := by unfold valid; rw [h]

set_option maxHeartbeats 1000000 in
theorem insert_heap_impl_spec {ks vs : Nat} {m m1 : sdmap_heap} {n : Nat} {key : Int}
    {fl : List Nat} (hcap : CapOK ks vs m) (hfree : FreeL m m.empty_slot fl)
    (hnd : fl.Nodup) (hfull : fl = [] → m.count = m.slot_count)
    (h : detail_sdmap_insert_heap_impl m ks vs key = some (m1, n)) :
    n = fl.headD m.count ∧ valid m1 n ∧
    get m1 n = { left := n, right := n, parent := (get m n).parent, height := 0,
                 key := key, value := (get m n).value } ∧
    (∀ j, j ≠ n → get m1 j = get m j) ∧ (∀ j, valid m j → valid m1 j) ∧
    m1.root_slot = m.root_slot ∧ m1.count = m.count + 1 ∧
    FreeL m1 m1.empty_slot fl.tail ∧
    m1.slot_count = (if fl = [] then m.slot_count + 1 else m.slot_count) ∧
    CapOK ks vs m1 := by
  obtain ⟨hc1, hc2, hc3⟩ := hcap
  unfold detail_sdmap_insert_heap_impl at h
  cases fl with
  | nil =>
    have he : m.empty_slot = NONE := hfree
    rw [if_neg (by simp [he])] at h
    simp only at h
    split at h
    · simp at h
    · next nc hg =>
      split at h
      · simp at h
      · next m2 hr =>
        have hss := slot_size_pos ks vs
        obtain ⟨g1, g2⟩ := grow_capacity_ge _ _ _ _ hg
        obtain ⟨r1, r2, r3, r4, r5, r6, r7, r8, r9⟩ :=
          realloc_heap_spec (m := { m with slot_count := m.slot_count + 1 }) hc1 hc3 hr
        simp only at r6 r7 r8 r9 g1 r4
        have hlen : m.slot_count + 1 ≤ m2.slots.length := by
          rw [r1]
          refine (Nat.le_div_iff_mul_le hss).2 ?_
          rw [Nat.mul_comm]
          exact le_trans g1 r3
        have hv2 : valid m2 m2.count := by
          unfold valid; rw [r6, hfull rfl]; omega
        rw [store_eq_some _ hv2] at h
        simp only [Option.some.injEq, Prod.mk.injEq] at h
        obtain ⟨rfl, rfl⟩ := h
        have hg2 : ∀ j, get m2 j = get m j := r5
        have hgp : ∀ (s : sdmap_slot) (c j : Nat),
            get { put m2 m2.count s with count := c } j = get (put m2 m2.count s) j :=
          fun _ _ _ => rfl
        refine ⟨by simp [r6], ?_, ?_, ?_, ?_, ?_, ?_, ?_, ?_, ?_⟩
        · exact (@valid_congr_slots _ (put m2 m2.count _) rfl _).2 (valid_put.2 hv2)
        · rw [hgp, get_put hv2, if_pos rfl, hg2]
        · intro j hj
          rw [hgp, get_put hv2, if_neg hj, hg2]
        · intro j hj
          refine (@valid_congr_slots _ (put m2 m2.count _) rfl _).2 (valid_put.2 ?_)
          unfold valid at hj ⊢; omega
        · simpa using r8
        · simp [r6]
        · show FreeL _ m2.empty_slot []
          simpa [FreeL, he] using r9
        · simpa using r7
        · refine ⟨by simpa using r1, ?_, by simpa using r2⟩
          simp only [put_slot_count, put_length, r7]; exact hlen
  | cons i fl' =>
    obtain ⟨f1, f2, f3, f4, f5⟩ := hfree
    rw [if_pos (by rw [f1]; exact f2)] at h
    simp only [f1, slot_eq_some f3] at h
    have hv' : valid { m with empty_slot := (get m i).right } i := f3
    rw [store_eq_some _ hv'] at h
    simp only [Option.some.injEq, Prod.mk.injEq] at h
    obtain ⟨rfl, rfl⟩ := h
    obtain ⟨hi, hnd'⟩ := List.nodup_cons.1 hnd
    have hgp : ∀ (s : sdmap_slot) (c j : Nat),
        get { put { m with empty_slot := (get m i).right } i s with count := c } j =
          get (put m i s) j := fun _ _ _ => rfl
    have hvp : ∀ (s : sdmap_slot) (c j : Nat),
        valid { put { m with empty_slot := (get m i).right } i s with count := c } j ↔
          valid m j := fun s _ _ =>
      (@valid_congr_slots _ (put m i s) rfl _).trans valid_put
    refine ⟨rfl, (hvp _ _ _).2 f3, ?_, ?_, ?_, rfl, rfl, ?_, by simp, ?_⟩
    · rw [hgp, get_put f3, if_pos rfl]; rfl
    · intro j hj
      rw [hgp, get_put f3, if_neg hj]
    · intro j hj
      exact (hvp _ _ _).2 hj
    · refine FreeL_congr (m := m) (fun j hj => (hvp _ _ _).2 hj) fl' _ (fun j hj => ?_) f5
      rw [hgp, get_put f3, if_neg (fun (e : j = i) => hi (e ▸ hj))]
    · exact ⟨by simpa [put] using hc1, by simpa [put] using hc2, hc3⟩


/-! ## The insert branch of `detail_sdmap_set_heap_impl` -/

theorem Frame_cases_cmp (f : Frame) (key : Int) :
    (∃ i k v h r, f = .L i k v h r) ∨ (∃ l i k v h, f = .R l i k v h) := by
  cases f with
  | L i k v h r => exact Or.inl ⟨i, k, v, h, r, rfl⟩
  | R l i k v h => exact Or.inr ⟨l, i, k, v, h, rfl⟩

set_option maxHeartbeats 1000000 in
/-- The stores that link a new slot below the node of a frame. -/
theorem link_zip {m1 : sdmap_heap} {f : Frame} {c : List Frame} {n : Nat} {key v0 : Int}
    {cr : Int} (hz : ZOK m1 (f :: c) .nil)
    (hcr : cr > 0 ↔ ∃ i k v h r, f = .L i k v h r)
    (hn : n ∉ cidx (f :: c)) (hv : valid m1 n)
    (hg : get m1 n = { left := n, right := n, parent := (get m1 n).parent, height := 0,
                       key := key, value := v0 }) :
    ∃ m3, ((if cr > 0 then store m1 f.i (fun s => { s with left := n })
            else store m1 f.i (fun s => { s with right := n })).bind
          fun m => store m n (fun s => { s with parent := f.i })) = some m3 ∧
      ZOK m3 (f :: c) (leaf n key v0) ∧ SameHdr m1 m3 ∧ m3.root_slot = m1.root_slot ∧
      SameOut m1 m3 (n :: cidx (f :: c)) := by
  obtain ⟨⟨hC, -⟩, hnd⟩ := hz
  simp only [Tree.idx, List.nil_append] at hnd
  have hfi : f.i ∈ cidx (f :: c) := own_mem_cidx (f :: c) (by simp)
  have hnf : n ≠ f.i := fun e => hn (e ▸ hfi)
  have hvf : valid m1 f.i := RepC_valid_of_mem _ _ hC _ hfi
  cases f with
  | L g kg vg hg0 r =>
    have hpos : cr > 0 := hcr.2 ⟨_, _, _, _, _, rfl⟩
    obtain ⟨hvg, hG, hRr, hC2⟩ := hC
    simp only [lnk_nil, own_cons, Frame.i_L, Frame.i_R] at hG hnf hvf ⊢
    rw [if_pos hpos, store_eq_some _ hvg, Option.some_bind,
      store_eq_some _ (valid_put.2 hv)]
    simp only [cidx, Frame.idx, List.cons_append, List.nodup_cons, List.mem_append,
      not_or, List.mem_cons] at hnd hn
    obtain ⟨⟨gr, gc⟩, hrest⟩ := hnd
    obtain ⟨hn1, hn2, hn3⟩ := hn
    have hv3 : ∀ j, valid m1 j → valid (put (put m1 g
        { get m1 g with left := n }) n
        { get (put m1 g { get m1 g with left := n }) n with parent := g }) j :=
      fun j hj => valid_put.2 (valid_put.2 hj)
    have hun : ∀ j, j ≠ n → j ≠ g → get (put (put m1 g
        { get m1 g with left := n }) n
        { get (put m1 g { get m1 g with left := n }) n with parent := g }) j = get m1 j := by
      intro j h1 h2
      rw [get_put (valid_put.2 hv), if_neg h1, get_put hvg, if_neg h2]
    refine ⟨_, rfl, ⟨⟨⟨hv3 _ hvg, ?_, ?_, ?_⟩, ⟨hv3 _ hv, ?_, trivial, trivial⟩⟩, ?_⟩,
      ⟨rfl, rfl, rfl, rfl, by simp⟩, rfl, ?_⟩
    · rw [get_put (valid_put.2 hv), if_neg (Ne.symm hnf), get_put hvg, if_pos rfl, hG]
      simp [leaf]
    · exact Rep_congr hv3 r g (fun j hj => hun j (fun e => hn2 (e ▸ hj))
        (fun e => gr (e ▸ hj))) hRr
    · exact RepC_congr hv3 rfl c g (fun j hj => hun j (fun e => hn3 (e ▸ hj))
        (fun e => gc (e ▸ hj))) hC2
    · rw [get_put (valid_put.2 hv), if_pos rfl, get_put hvg, if_neg hnf, hg]
      simp [own_cons, Frame.i_L, Frame.i_R]
    · simp only [leaf, Tree.idx, List.nil_append, cidx, Frame.idx, List.cons_append,
        List.nodup_cons, List.mem_cons, List.mem_append, not_or, List.singleton_append]
      exact ⟨⟨hn1, hn2, hn3⟩, ⟨gr, gc⟩, hrest⟩
    · intro j hj
      simp only [cidx, Frame.idx, List.cons_append, List.mem_cons, List.mem_append,
        not_or] at hj
      exact hun j hj.1 hj.2.1
  | R l g kg vg hg0 =>
    have hpos : ¬ cr > 0 := fun h => by
      obtain ⟨_, _, _, _, _, e⟩ := hcr.1 h
      cases e
    obtain ⟨hvg, hG, hRl, hC2⟩ := hC
    simp only [lnk_nil, own_cons, Frame.i_L, Frame.i_R] at hG hnf hvf ⊢
    rw [if_neg hpos, store_eq_some _ hvg, Option.some_bind,
      store_eq_some _ (valid_put.2 hv)]
    simp only [cidx, Frame.idx, List.cons_append, List.nodup_cons, List.mem_append,
      not_or, List.mem_cons] at hnd hn
    obtain ⟨⟨gr, gc⟩, hrest⟩ := hnd
    obtain ⟨hn1, hn2, hn3⟩ := hn
    have hv3 : ∀ j, valid m1 j → valid (put (put m1 g
        { get m1 g with right := n }) n
        { get (put m1 g { get m1 g with right := n }) n with parent := g }) j :=
      fun j hj => valid_put.2 (valid_put.2 hj)
    have hun : ∀ j, j ≠ n → j ≠ g → get (put (put m1 g
        { get m1 g with right := n }) n
        { get (put m1 g { get m1 g with right := n }) n with parent := g }) j = get m1 j := by
      intro j h1 h2
      rw [get_put (valid_put.2 hv), if_neg h1, get_put hvg, if_neg h2]
    refine ⟨_, rfl, ⟨⟨⟨hv3 _ hvg, ?_, ?_, ?_⟩, ⟨hv3 _ hv, ?_, trivial, trivial⟩⟩, ?_⟩,
      ⟨rfl, rfl, rfl, rfl, by simp⟩, rfl, ?_⟩
    · rw [get_put (valid_put.2 hv), if_neg (Ne.symm hnf), get_put hvg, if_pos rfl, hG]
      simp [leaf]
    · exact Rep_congr hv3 l g (fun j hj => hun j (fun e => hn2 (e ▸ hj))
        (fun e => gr (e ▸ hj))) hRl
    · exact RepC_congr hv3 rfl c g (fun j hj => hun j (fun e => hn3 (e ▸ hj))
        (fun e => gc (e ▸ hj))) hC2
    · rw [get_put (valid_put.2 hv), if_pos rfl, get_put hvg, if_neg hnf, hg]
      simp [own_cons, Frame.i_L, Frame.i_R]
    · simp only [leaf, Tree.idx, List.nil_append, cidx, Frame.idx, List.cons_append,
        List.nodup_cons, List.mem_cons, List.mem_append, not_or, List.singleton_append]
      exact ⟨⟨hn1, hn2, hn3⟩, ⟨gr, gc⟩, hrest⟩
    · intro j hj
      simp only [cidx, Frame.idx, List.cons_append, List.mem_cons, List.mem_append,
        not_or] at hj
      exact hun j hj.1 hj.2.1

/-! ## The walk from the root -/

theorem compare_lt_of {a b : Int} (h0 : ¬ detail_sdmap_compare a b = 0)
    (h1 : ¬ detail_sdmap_compare a b > 0) : detail_sdmap_compare a b < 0 := by
  unfold detail_sdmap_compare at *
  split_ifs at * <;> simp_all

theorem node_facts {m : sdmap_heap} {c : List Frame} {l r : Tree} {i : Nat} {k v h : Int}
    (hz : ZOK m c (.node l i k v h r)) :
    valid m i ∧ (get m i).key = k ∧ (get m i).left = l.lnk i ∧ (get m i).right = r.lnk i ∧
    (l.lnk i = i ↔ l = .nil) ∧ (r.lnk i = i ↔ r = .nil) ∧
    ZOK m (.L i k v h r :: c) l ∧ ZOK m (.R l i k v h :: c) r := by
  obtain ⟨⟨hC, hvi, hP, hRl, hRr⟩, hnd⟩ := hz
  have hA := (List.nodup_append.1 hnd).1
  simp only [Tree.idx] at hA
  obtain ⟨nl, hiR, dlR⟩ := List.nodup_append.1 hA
  obtain ⟨ir, nr⟩ := List.nodup_cons.1 hiR
  have il : i ∉ l.idx := fun hx => dlR hx (by simp)
  refine ⟨hvi, by rw [hP], by rw [hP], by rw [hP], lnk_self_iff l il, lnk_self_iff r ir,
    ?_, ?_⟩
  · exact (ZOK_cons _ _ _).2 ⟨⟨hC, hvi, hP, hRl, hRr⟩, hnd⟩
  · exact (ZOK_cons _ _ _).2 ⟨⟨hC, hvi, hP, hRl, hRr⟩, hnd⟩

theorem set_heap_loop_zip (frot ks vs : Nat) (key : Int) :
    ∀ (t : Tree) (c : List Frame) (m : sdmap_heap), ZOK m c t → t ≠ .nil →
    ∀ fuel, t.depth ≤ fuel →
    detail_sdmap_set_heap_loop fuel frot m ks vs (t.lnk 0) key =
      (match descend key c t with
        | (_, .node _ i _ _ _ _) => some (m, i)
        | (f :: _, .nil) =>
          detail_sdmap_set_heap_insert frot m ks vs f.i (detail_sdmap_compare f.k key) key
        | ([], .nil) => none)
  | .nil, _, _, _, ht, _, _ => absurd rfl ht
  | .node l i k v h r, c, m, hz, _, fuel, hf => by
    obtain ⟨hvi, hk, hl, hr, hln, hrn, hzl, hzr⟩ := node_facts hz
    obtain ⟨n, rfl⟩ : ∃ n, fuel = n + 1 := ⟨fuel - 1, by simp [Tree.depth] at hf; omega⟩
    simp only [Tree.depth] at hf
    rw [detail_sdmap_set_heap_loop, lnk_node, slot_eq_some hvi]
    simp only [hk, hl, hr]
    rw [descend]
    by_cases h0 : detail_sdmap_compare k key = 0
    · simp [h0]
    · rw [if_neg h0, if_neg h0]
      by_cases hpos : detail_sdmap_compare k key > 0
      · have hneg : ¬ detail_sdmap_compare k key < 0 := by omega
        simp only [hpos, hneg, true_and, false_and, or_false, if_true]
        cases l with
        | nil => simp [descend, Frame.i, Frame.k]
        | node ll li lk lv lh lr =>
          have : ¬ li = i := fun e => by simpa using hln.1 e
          simp only [lnk_node, this, if_false]
          exact set_heap_loop_zip frot ks vs key _ _ m hzl (by simp) n
            (by simp [Tree.depth] at hf ⊢; omega)
      · have hneg : detail_sdmap_compare k key < 0 := compare_lt_of h0 hpos
        simp only [hpos, hneg, true_and, false_and, false_or, if_false]
        cases r with
        | nil => simp [descend, Frame.i, Frame.k]
        | node rl ri rk rv rh rr =>
          have : ¬ ri = i := fun e => by simpa using hrn.1 e
          simp only [lnk_node, this, if_false]
          exact set_heap_loop_zip frot ks vs key _ _ m hzr (by simp) n
            (by simp [Tree.depth] at hf ⊢; omega)


theorem contains_loop_zip (key : Int) :
    ∀ (t : Tree) (c : List Frame) (m : sdmap_heap), ZOK m c t → t ≠ .nil →
    ∀ fuel, t.depth ≤ fuel →
    detail_sdmap_contains_loop fuel m (t.lnk 0) key =
      (match descend key c t with
        | (_, .node _ _ _ _ _ _) => some true
        | (_, .nil) => some false)
  | .nil, _, _, _, ht, _, _ => absurd rfl ht
  | .node l i k v h r, c, m, hz, _, fuel, hf => by
    obtain ⟨hvi, hk, hl, hr, hln, hrn, hzl, hzr⟩ := node_facts hz
    obtain ⟨n, rfl⟩ : ∃ n, fuel = n + 1 := ⟨fuel - 1, by simp [Tree.depth] at hf; omega⟩
    simp only [Tree.depth] at hf
    rw [detail_sdmap_contains_loop, lnk_node, slot_eq_some hvi]
    simp only [hk, hl, hr]
    rw [descend]
    by_cases h0 : detail_sdmap_compare k key = 0
    · simp [h0]
    · rw [if_neg h0, if_neg h0]
      by_cases hpos : detail_sdmap_compare k key > 0
      · simp only [hpos, if_true]
        cases l with
        | nil => simp [descend]
        | node ll li lk lv lh lr =>
          have : ¬ li = i := fun e => by simpa using hln.1 e
          simp only [lnk_node, this, if_false]
          exact contains_loop_zip key _ _ m hzl (by simp) n
            (by simp [Tree.depth] at hf ⊢; omega)
      · simp only [hpos, if_false]
        cases r with
        | nil => simp [descend]
        | node rl ri rk rv rh rr =>
          have : ¬ ri = i := fun e => by simpa using hrn.1 e
          simp only [lnk_node, this, if_false]
          exact contains_loop_zip key _ _ m hzr (by simp) n
            (by simp [Tree.depth] at hf ⊢; omega)

theorem erase_loop_zip (finner : Nat) (key : Int) :
    ∀ (t : Tree) (c : List Frame) (m : sdmap_heap), ZOK m c t → t ≠ .nil →
    ∀ fuel, t.depth ≤ fuel →
    detail_sdmap_erase_loop fuel finner m (t.lnk 0) key =
      (match descend key c t with
        | (_, .node _ i _ _ _ _) => detail_sdmap_erase_found finner m i
        | (_, .nil) => some m)
  | .nil, _, _, _, ht, _, _ => absurd rfl ht
  | .node l i k v h r, c, m, hz, _, fuel, hf => by
    obtain ⟨hvi, hk, hl, hr, hln, hrn, hzl, hzr⟩ := node_facts hz
    obtain ⟨n, rfl⟩ : ∃ n, fuel = n + 1 := ⟨fuel - 1, by simp [Tree.depth] at hf; omega⟩
    simp only [Tree.depth] at hf
    rw [detail_sdmap_erase_loop, lnk_node, slot_eq_some hvi]
    simp only [hk, hl, hr]
    rw [descend]
    by_cases h0 : detail_sdmap_compare k key = 0
    · simp [h0]
    · rw [if_neg h0, if_neg h0]
      by_cases hpos : detail_sdmap_compare k key > 0
      · simp only [hpos, if_true]
        cases l with
        | nil => simp [descend]
        | node ll li lk lv lh lr =>
          have : ¬ li = i := fun e => by simpa using hln.1 e
          simp only [lnk_node, this, if_false]
          exact erase_loop_zip finner key _ _ m hzl (by simp) n
            (by simp [Tree.depth] at hf ⊢; omega)
      · simp only [hpos, if_false]
        cases r with
        | nil => simp [descend]
        | node rl ri rk rv rh rr =>
          have : ¬ ri = i := fun e => by simpa using hrn.1 e
          simp only [lnk_node, this, if_false]
          exact erase_loop_zip finner key _ _ m hzr (by simp) n
            (by simp [Tree.depth] at hf ⊢; omega)

/-! ## The insert branch on the held tree -/

theorem leaf_fill_perm (f : Frame) (c : List Frame) (n : Nat) (key v0 : Int) :
    ((f.fill (leaf n key v0)).idx ++ cidx c).Perm (n :: cidx (f :: c)) := by
  have := (zip_perm f c (leaf n key v0)).symm
  simpa [leaf, Tree.idx] using this

set_option maxHeartbeats 1000000 in
theorem set_heap_insert_zip {ks vs : Nat} {m : sdmap_heap} {f : Frame} {c : List Frame}
    {key cr : Int} {fl : List Nat} {frot : Nat} {r : sdmap_heap × Nat}
    {c' : List Frame} {t' : Tree}
    (hz : ZOK m (f :: c) .nil)
    (hcr : cr > 0 ↔ ∃ i k v h r, f = .L i k v h r)
    (hcap : CapOK ks vs m) (hfree : FreeL m m.empty_slot fl) (hfl : fl.Nodup)
    (hfull : fl = [] → m.count = m.slot_count)
    (hdis : ∀ j ∈ cidx (f :: c), j ∉ fl ∧ j < m.slot_count)
    (h : detail_sdmap_set_heap_insert frot m ks vs f.i cr key = some r)
    (hL : insLoop1 c (f.fill (leaf (fl.headD m.count) key
      (get m (fl.headD m.count)).value)) = some (c', t')) :
    r.2 = fl.headD m.count ∧ ZOK r.1 [] (insLoop2 c' t') ∧ r.1.count = m.count + 1 ∧
    FreeL r.1 r.1.empty_slot fl.tail ∧
    r.1.slot_count = (if fl = [] then m.slot_count + 1 else m.slot_count) ∧
    CapOK ks vs r.1 ∧
    (∀ j, j ∉ fl.headD m.count :: cidx (f :: c) → get r.1 j = get m j) ∧
    (∀ j, valid m j → valid r.1 j) ∧
    (insLoop2 c' t').idx.Perm (fl.headD m.count :: cidx (f :: c)) := by
  unfold detail_sdmap_set_heap_insert at h
  simp only [Option.bind_eq_bind, Option.bind_eq_some] at h
  obtain ⟨⟨m1, n⟩, hI, m2, hs1, m3, hs2, m4, hrot, hres⟩ := h
  simp only [Option.some.injEq] at hres
  subst hres
  simp only at hs1 hs2 hrot ⊢
  obtain ⟨i1, i2, i3, i4, i5, i6, i7, i8, i9, i10⟩ :=
    insert_heap_impl_spec hcap hfree hfl hfull hI
  subst i1
  -- the new slot is not in the tree
  have hn : fl.headD m.count ∉ cidx (f :: c) := by
    intro hx
    obtain ⟨d1, d2⟩ := hdis _ hx
    cases fl with
    | nil => simp only [List.headD_nil] at d2; have := hfull rfl; omega
    | cons a fl' => exact d1 (by simp)
  have hz1 : ZOK m1 (f :: c) .nil := by
    refine ⟨⟨RepC_congr i5 i6 _ _ (fun j hj => i4 j (fun e => hn (e ▸ hj))) hz.1.1, trivial⟩,
      hz.2⟩
  obtain ⟨m3', e3, z3, d3, r3, o3⟩ := @link_zip _ _ _ _ key
    (get m (fl.headD m.count)).value _ hz1 hcr hn i2
    (by rw [i3])
  have e3' : m3 = m3' := by
    rw [hs1, Option.some_bind, hs2] at e3
    exact Option.some.inj e3
  subst e3'
  obtain ⟨m', e', s'⟩ := insert_rotate_zip ((ZOK_cons _ _ _).1 z3) (fill_ne_nil _ _) hL
  rw [fill_lnk] at e'
  have e4 : m4 = m' := by
    have h1 := insert_rotate_mono frot (max frot (c.length + 1)) _ _ _ (le_max_left _ _) hrot
    rw [e' _ (by omega)] at h1
    exact (Option.some.inj h1).symm
  subst e4
  obtain ⟨z4, d4, o4, p4⟩ := s'
  have hperm : (insLoop2 c' t').idx.Perm (fl.headD m.count :: cidx (f :: c)) := by
    have := p4.trans (leaf_fill_perm f c _ _ _)
    simpa [cidx] using this
  have hout : ∀ j, j ∉ fl.headD m.count :: cidx (f :: c) → get m4 j = get m j := by
    intro j hj
    have h1 : get m4 j = get m3 j :=
      o4 j (fun hx => hj ((leaf_fill_perm f c _ _ _).subset hx))
    have h2 : get m3 j = get m1 j := o3 j hj
    have h3 : get m1 j = get m j := i4 j (fun e => hj (by simp [e]))
    rw [h1, h2, h3]
  have hval : ∀ j, valid m j → valid m4 j := fun j hj =>
    (d4.valid_iff j).2 ((d3.valid_iff j).2 (i5 j hj))
  have hval1 : ∀ j, valid m1 j → valid m4 j := fun j hj =>
    (d4.valid_iff j).2 ((d3.valid_iff j).2 hj)
  refine ⟨rfl, z4, ?_, ?_, ?_, ?_, hout, hval, hperm⟩
  · rw [d4.2.1, d3.2.1, i7]
  · rw [d4.2.2.2.1, d3.2.2.2.1]
    refine FreeL_congr hval1 _ _ (fun j hj => ?_) i8
    have hj' : j ∈ fl := List.mem_of_mem_tail hj
    have h1 : j ∉ fl.headD m.count :: cidx (f :: c) := by
      simp only [List.mem_cons, not_or]
      constructor
      · intro e
        cases fl with
        | nil => simp at hj
        | cons a fl' =>
          simp only [List.headD_cons] at e
          simp only [List.tail_cons] at hj
          exact (List.nodup_cons.1 hfl).1 (e ▸ hj)
      · intro hx; exact (hdis _ hx).1 hj'
    have h2 : get m4 j = get m3 j :=
      o4 j (fun hx => h1 ((leaf_fill_perm f c _ _ _).subset hx))
    rw [h2, o3 j h1]
  · rw [d4.2.2.1, d3.2.2.1, i9]
  · obtain ⟨c1, c2, c3⟩ := i10
    refine ⟨?_, ?_, ?_⟩
    · rw [d4.2.2.2.2, d3.2.2.2.2, d4.1, d3.1]; exact c1
    · rw [d4.2.2.2.2, d3.2.2.2.2, d4.2.2.1, d3.2.2.1]; exact c2
    · rw [d4.1, d3.1]; exact c3


/-! ## The rebalancing of an insert keeps the nodes in order -/

theorem idx_eq_map (t : Tree) : t.idx = t.nodes.map (·.1) := by
  induction t with
  | nil => rfl
  | node l i k v h r ihl ihr => simp [Tree.idx, Tree.nodes, ihl, ihr]

theorem keys_eq_map (t : Tree) : t.keys = t.nodes.map (·.2.1) := by
  induction t with
  | nil => rfl
  | node l i k v h r ihl ihr => simp [Tree.keys, Tree.nodes, ihl, ihr]

theorem pairs_eq_map (t : Tree) : t.pairs = t.nodes.map (·.2) := by
  induction t with
  | nil => rfl
  | node l i k v h r ihl ihr => simp [Tree.pairs, Tree.nodes, ihl, ihr]

theorem recompute_nodes (t : Tree) : (recompute t).nodes = t.nodes := by
  cases t <;> rfl

theorem rotL_nodes {t t' : Tree} (h : rotL t = some t') : t'.nodes = t.nodes := by
  cases t with
  | nil => simp [rotL] at h
  | node a i k v hh r =>
    cases r with
    | nil => simp [rotL] at h
    | node b q kq vq hq c =>
      simp only [rotL, Option.some.injEq] at h
      subst h
      simp [Tree.nodes]

theorem rotR_nodes {t t' : Tree} (h : rotR t = some t') : t'.nodes = t.nodes := by
  cases t with
  | nil => simp [rotR] at h
  | node l i k v hh c =>
    cases l with
    | nil => simp [rotR] at h
    | node a p kp vp hp b =>
      simp only [rotR, Option.some.injEq] at h
      subst h
      simp [Tree.nodes]

/-- Two subtrees with the same nodes give the same nodes in any path. -/
theorem plug_nodes_congr : ∀ (c : List Frame) (t t' : Tree), t'.nodes = t.nodes →
    (plug c t').nodes = (plug c t).nodes
  | [], _, _, h => h
  | f :: c, t, t', h => by
    simp only [plug]
    apply plug_nodes_congr c
    cases f <;> simp [Frame.fill, Tree.nodes, h]

theorem fill_seth_nodes (f : Frame) (h : Int) (t : Tree) :
    ((f.seth h).fill t).nodes = (f.fill t).nodes := by
  cases f <;> rfl

theorem insLoop1_nodes : ∀ (c : List Frame) (t : Tree) (c' : List Frame) (t' : Tree),
    insLoop1 c t = some (c', t') → (plug c' t').nodes = (plug c t).nodes
  | [], t, c', t', h => by
    simp only [insLoop1, Option.some.injEq, Prod.mk.injEq] at h
    obtain ⟨rfl, rfl⟩ := h; rfl
  | f :: c, t, c', t', h => by
    have hbase : ∀ t2 : Tree, t2.nodes = ((f.seth (f.chf t)).fill (recompute t)).nodes →
        (plug c t2).nodes = (plug (f :: c) t).nodes := by
      intro t2 h2
      simp only [plug]
      apply plug_nodes_congr
      rw [h2, fill_seth_nodes]
      cases f <;> simp [Frame.fill, Tree.nodes, recompute_nodes]
    simp only [insLoop1] at h
    split at h
    · split at h
      · cases f with
        | L g kg vg hg r => simp [Frame.seth] at h
        | R l g kg vg hg =>
          simp only [Frame.seth, Option.map_eq_some', Prod.mk.injEq] at h
          obtain ⟨t2, hr, rfl, rfl⟩ := h
          exact hbase _ (rotL_nodes hr)
      · cases f with
        | L g kg vg hg r => simp [Frame.seth] at h
        | R l g kg vg hg =>
          simp only [Frame.seth] at h
          split at h
          · next t2 hr1 =>
            split at h
            · next p x kx vx hx t3 hr2 =>
              simp only [Option.some.injEq, Prod.mk.injEq] at h
              obtain ⟨rfl, rfl⟩ := h
              have := hbase (.node p x kx vx hx t3) (by
                rw [rotL_nodes hr2]
                simp [Frame.fill, Frame.seth, Tree.nodes, rotR_nodes hr1])
              simpa [plug, Frame.fill] using this
            · simp at h
          · simp at h
    · split at h
      · split at h
        · cases f with
          | R l g kg vg hg => simp [Frame.seth] at h
          | L g kg vg hg r =>
            simp only [Frame.seth] at h
            split at h
            · next t2 hr1 =>
              split at h
              · next t3 x kx vx hx p hr2 =>
                simp only [Option.some.injEq, Prod.mk.injEq] at h
                obtain ⟨rfl, rfl⟩ := h
                have := hbase (.node t3 x kx vx hx p) (by
                  rw [rotR_nodes hr2]
                  simp [Frame.fill, Frame.seth, Tree.nodes, rotL_nodes hr1])
                simpa [plug, Frame.fill] using this
              · simp at h
            · simp at h
        · cases f with
          | R l g kg vg hg => simp [Frame.seth] at h
          | L g kg vg hg r =>
            simp only [Frame.seth, Option.map_eq_some', Prod.mk.injEq] at h
            obtain ⟨t2, hr, rfl, rfl⟩ := h
            exact hbase _ (rotR_nodes hr)
      · rw [insLoop1_nodes c _ c' t' h]
        exact hbase _ rfl

theorem insLoop2_nodes : ∀ (c : List Frame) (t : Tree),
    (insLoop2 c t).nodes = (plug c t).nodes
  | [], _ => rfl
  | f :: c, t => by
    simp only [insLoop2, plug]
    rw [insLoop2_nodes c]
    apply plug_nodes_congr
    cases f <;> simp [Frame.fill, Tree.nodes, recompute_nodes]

/-! ## The rebalancing of an insert keeps the tree balanced -/

theorem hgt_ge (t : Tree) : -1 ≤ t.hgt := by
  cases t with
  | nil => simp [Tree.hgt]
  | node l i k v h r => simp only [Tree.hgt]; have := hgt_ge l; omega

theorem sht_of_Exact {t : Tree} (h : Exact t) : t.sht = t.hgt := by
  cases t with
  | nil => rfl
  | node l i k v hh r => exact h.1

theorem ch_sht (l r : Tree) : ch l r = 1 + max (max (-1) l.sht) r.sht := by
  cases l <;> cases r <;> simp only [ch, foldh, Tree.sht] <;> (try split_ifs) <;> omega

theorem balOf_sht (l r : Tree) : balOf l r = r.sht - l.sht := by
  cases l <;> cases r <;> simp only [balOf, Tree.sht] <;> omega

theorem ch_Exact {l r : Tree} (hl : Exact l) (hr : Exact r) :
    ch l r = 1 + max l.hgt r.hgt := by
  rw [ch_sht, sht_of_Exact hl, sht_of_Exact hr]
  have := hgt_ge l; have := hgt_ge r; omega

theorem Exact_nonneg {l r : Tree} {i : Nat} {k v h : Int} (hE : Exact (.node l i k v h r)) :
    0 ≤ h := by
  have := hE.1; have := hgt_ge l; have := hgt_ge r; omega

theorem Good_of_Exact {t : Tree} (hE : Exact t) (hA : AVL t) : Good t := by
  cases t with
  | nil => trivial
  | node l i k v h r => exact ⟨Exact_nonneg hE, hE.2.1, hE.2.2, hA⟩

theorem recompute_Exact {t : Tree} (hE : Exact t) : recompute t = t := by
  cases t with
  | nil => rfl
  | node l i k v h r =>
    simp only [recompute]
    rw [ch_Exact hE.2.1 hE.2.2, ← hE.1]

theorem fill_hgt (f : Frame) (t : Tree) : (f.fill t).hgt = 1 + max t.hgt f.sib.hgt := by
  cases f <;> simp only [Frame.fill, Tree.hgt, Frame.sib] <;> omega

theorem insLoop2_good_aux : ∀ (c : List Frame) (t : Tree),
    Exact t → AVL t → CtxGood c t.hgt → Good (insLoop2 c t)
  | [], t, hE, hA, _ => Good_of_Exact hE hA
  | f :: c, t, hE, hA, hC => by
    obtain ⟨sE, sA, hb, hh, h0, hC'⟩ := hC
    rw [insLoop2, recompute_Exact hE]
    have hAf : AVL (f.fill t) := by
      cases f <;> simp only [Frame.fill, AVL, Frame.sib] at * <;> exact ⟨by omega, by assumption, by assumption⟩
    by_cases hc : c = []
    · subst hc
      simp only [insLoop2]
      cases f <;> simp only [Frame.fill, Good, Frame.sib, Frame.h] at * <;>
        exact ⟨h0, by assumption, by assumption, hAf⟩
    · apply insLoop2_good_aux c _ _ hAf
      · rw [fill_hgt]; exact hC'
      · have := hh hc
        cases f <;> simp only [Frame.fill, Exact, Frame.sib, Frame.h] at * <;>
          exact ⟨by omega, by assumption, by assumption⟩

theorem insLoop2_good {c : List Frame} {t : Tree} (h : InsDone c t) : Good (insLoop2 c t) := by
  rcases h with ⟨rfl, hG⟩ | ⟨hE, hA, hC⟩
  · exact hG
  · exact insLoop2_good_aux c t hE hA hC

theorem Exact_mk {l r : Tree} (i : Nat) (k v : Int) (hl : Exact l) (hr : Exact r) :
    Exact (.node l i k v (ch l r) r) := ⟨ch_Exact hl hr, hl, hr⟩

theorem insLoop1_good : ∀ (c : List Frame) (t : Tree), InsFocus c t →
    ∃ c' t', insLoop1 c t = some (c', t') ∧ InsDone c' t'
  | [], t, h => by
    refine ⟨[], t, rfl, Or.inl ⟨rfl, ?_⟩⟩
    cases t with
    | nil => exact h.elim
    | node l i k v hh r => obtain ⟨hl, hr, hA, h0, -⟩ := h; exact ⟨h0, hl, hr, hA⟩
  | f :: c, t, h => by
    cases t with
    | nil => exact h.elim
    | node l i k v hh r =>
      obtain ⟨hl, hr, hA, h0, oh, hoh, hgrow, sE, sA, hb, hfh, hf0, hC⟩ := h
      have hhh := hoh (by simp)
      subst hhh
      obtain ⟨hbal, hAl, hAr⟩ := hA
      have gl := hgt_ge l
      have gr := hgt_ge r
      have gs := hgt_ge f.sib
      have hE1 : Exact (.node l i k v (ch l r) r) := Exact_mk i k v hl hr
      cases f with
      | L g kg vg hg s =>
        simp only [Frame.sib] at sE sA hb hC gs
        simp only [insLoop1, Frame.seth, Frame.chf, Frame.balf, recompute, Tree.bal]
        rw [balOf_sht, balOf_sht, sht_of_Exact hl, sht_of_Exact hr, sht_of_Exact sE]
        simp only [Tree.sht]
        rw [ch_Exact hl hr]
        have hc1 : ch (.node l i k v hh r) s = 1 + max hh s.hgt := by
          rw [ch_sht, sht_of_Exact sE]; simp only [Tree.sht]; omega
        rw [if_neg (by omega)]
        by_cases h1 : s.hgt - (1 + max l.hgt r.hgt) < -1
        · rw [if_pos h1]
          by_cases h2 : r.hgt - l.hgt > 0
          · rw [if_pos h2]
            cases r with
            | nil => simp only [Tree.hgt] at h2; omega
            | node a x kx vx hx b =>
              obtain ⟨hx1, ha, hb'⟩ := hr
              obtain ⟨hxb, hAa, hAb⟩ := hAr
              have ga := hgt_ge a
              have gb := hgt_ge b
              simp only [Tree.hgt] at h1 h2 hgrow hbal hx1 gr
              simp only [rotL, rotR]
              have e1 : Exact (.node l i k v (ch l a) a) := Exact_mk i k v hl ha
              have e2 : Exact (.node b g kg vg (ch b s) s) := Exact_mk g kg vg hb' sE
              refine ⟨_, _, rfl, Or.inr ⟨e1, ?_, e2, ?_, ?_, ?_, ?_, ?_⟩⟩
              · simp only [AVL]; exact ⟨by omega, hAl, hAa⟩
              · simp only [Frame.sib, AVL]; exact ⟨by omega, hAb, sA⟩
              · simp only [Frame.sib, Tree.hgt]; omega
              · intro _
                simp only [Frame.h, Frame.sib]
                rw [ch_Exact e1 e2]
              · simp only [Frame.h]
                rw [ch_Exact e1 e2]
                simp only [Tree.hgt]; omega
              · simp only [Frame.sib, Tree.hgt]
                have : 1 + max (1 + max l.hgt a.hgt) (1 + max b.hgt s.hgt) = 1 + max hh s.hgt := by
                  omega
                rw [this]; exact hC
          · rw [if_neg h2]
            simp only [rotR, Option.map]
            have e2 : Exact (.node r g kg vg (ch r s) s) := Exact_mk g kg vg hr sE
            refine ⟨_, _, rfl, Or.inr ⟨Exact_mk i k v hl e2, ?_, ?_⟩⟩
            · simp only [AVL, Tree.hgt]; exact ⟨by omega, hAl, by omega, hAr, sA⟩
            · simp only [Tree.hgt]
              have : 1 + max l.hgt (1 + max r.hgt s.hgt) = 1 + max hh s.hgt := by omega
              rw [this]; exact hC
        · rw [if_neg h1]
          apply insLoop1_good c
          simp only [Frame.fill, InsFocus]
          refine ⟨⟨rfl, hl, hr⟩, sE, ?_, by omega, 1 + max hh s.hgt, fun _ => hc1, ?_, hC⟩
          · simp only [AVL, Tree.hgt]; exact ⟨by omega, ⟨hbal, hAl, hAr⟩, sA⟩
          · simp only [Tree.hgt]; omega
      | R s g kg vg hg =>
        simp only [Frame.sib] at sE sA hb hC gs
        simp only [insLoop1, Frame.seth, Frame.chf, Frame.balf, recompute, Tree.bal]
        rw [balOf_sht, balOf_sht, sht_of_Exact hl, sht_of_Exact hr, sht_of_Exact sE]
        simp only [Tree.sht]
        rw [ch_Exact hl hr]
        have hc1 : ch s (.node l i k v hh r) = 1 + max hh s.hgt := by
          rw [ch_sht, sht_of_Exact sE]; simp only [Tree.sht]; omega
        by_cases h1 : 1 + max l.hgt r.hgt - s.hgt > 1
        · rw [if_pos h1]
          by_cases h2 : r.hgt - l.hgt ≥ 0
          · rw [if_pos h2]
            simp only [rotL, Option.map]
            have e2 : Exact (.node s g kg vg (ch s l) l) := Exact_mk g kg vg sE hl
            refine ⟨_, _, rfl, Or.inr ⟨Exact_mk i k v e2 hr, ?_, ?_⟩⟩
            · simp only [AVL, Tree.hgt]; exact ⟨by omega, ⟨by omega, sA, hAl⟩, hAr⟩
            · simp only [Tree.hgt]
              have : 1 + max (1 + max s.hgt l.hgt) r.hgt = 1 + max hh s.hgt := by omega
              rw [this]; exact hC
          · rw [if_neg h2]
            cases l with
            | nil => simp only [Tree.hgt] at h2; omega
            | node a x kx vx hx b =>
              obtain ⟨hx1, ha, hb'⟩ := hl
              obtain ⟨hxb, hAa, hAb⟩ := hAl
              have ga := hgt_ge a
              have gb := hgt_ge b
              simp only [Tree.hgt] at h1 h2 hgrow hbal hx1 gl
              simp only [rotL, rotR]
              have e1 : Exact (.node s g kg vg (ch s a) a) := Exact_mk g kg vg sE ha
              have e2 : Exact (.node b i k v (ch b r) r) := Exact_mk i k v hb' hr
              refine ⟨_, _, rfl, Or.inr ⟨e2, ?_, e1, ?_, ?_, ?_, ?_, ?_⟩⟩
              · simp only [AVL]; exact ⟨by omega, hAb, hAr⟩
              · simp only [Frame.sib, AVL]; exact ⟨by omega, sA, hAa⟩
              · simp only [Frame.sib, Tree.hgt]; omega
              · intro _
                simp only [Frame.h, Frame.sib]
                rw [ch_Exact e1 e2]
                simp only [Tree.hgt]; omega
              · simp only [Frame.h]
                rw [ch_Exact e1 e2]
                simp only [Tree.hgt]; omega
              · simp only [Frame.sib, Tree.hgt]
                have : 1 + max (1 + max b.hgt r.hgt) (1 + max s.hgt a.hgt) = 1 + max hh s.hgt := by
                  omega
                rw [this]; exact hC
        · rw [if_neg h1, if_neg (by omega)]
          apply insLoop1_good c
          simp only [Frame.fill, InsFocus]
          refine ⟨sE, ⟨rfl, hl, hr⟩, ?_, by omega, 1 + max hh s.hgt, fun _ => hc1, ?_, hC⟩
          · simp only [AVL, Tree.hgt]; exact ⟨by omega, sA, hbal, hAl, hAr⟩
          · simp only [Tree.hgt]; omega

theorem Good_plug : ∀ (c : List Frame) (t : Tree), c ≠ [] → Good (plug c t) →
    Exact t ∧ AVL t ∧ CtxGood c t.hgt
  | [], _, h, _ => absurd rfl h
  | [f], t, _, hG => by
    cases f with
    | L i k v h r =>
      obtain ⟨h0, hl, hr, hb, hAl, hAr⟩ := hG
      exact ⟨hl, hAl, hr, hAr, hb, fun hc => absurd rfl hc, h0, trivial⟩
    | R l i k v h =>
      obtain ⟨h0, hl, hr, hb, hAl, hAr⟩ := hG
      exact ⟨hr, hAr, hl, hAl, ⟨hb.2, hb.1⟩, fun hc => absurd rfl hc, h0, trivial⟩
  | f :: g :: c, t, _, hG => by
    obtain ⟨hE, hA, hC⟩ := Good_plug (g :: c) (f.fill t) (by simp) hG
    rw [fill_hgt] at hC
    cases f with
    | L i k v h r =>
      obtain ⟨h1, hl, hr⟩ := hE
      obtain ⟨hb, hAl, hAr⟩ := hA
      have := hgt_ge t
      exact ⟨hl, hAl, hr, hAr, hb, fun _ => h1, by simp only [Frame.h]; omega, hC⟩
    | R l i k v h =>
      obtain ⟨h1, hl, hr⟩ := hE
      obtain ⟨hb, hAl, hAr⟩ := hA
      have := hgt_ge t
      exact ⟨hr, hAr, hl, hAl, ⟨hb.2, hb.1⟩,
        fun _ => by simp only [Frame.h, Frame.sib]; omega, by simp only [Frame.h]; omega, hC⟩

theorem compare_eq_zero {a b : Int} : detail_sdmap_compare a b = 0 ↔ a = b := by
  unfold detail_sdmap_compare; split_ifs <;> simp_all

theorem compare_pos {a b : Int} : detail_sdmap_compare a b > 0 ↔ b < a := by
  unfold detail_sdmap_compare; split_ifs <;> simp_all <;> omega

theorem descend_spec (key : Int) : ∀ (t : Tree) (c c' : List Frame) (t' : Tree),
    (∀ f ∈ c, f.side key) → descend key c t = (c', t') →
    plug c' t' = plug c t ∧ (∀ f ∈ c', f.side key) ∧
    (t' = .nil ∨ ∃ l i v h r, t' = .node l i key v h r) ∧
    (t ≠ .nil → t' = .nil → c' ≠ [])
  | .nil, c, c', t', hs, h => by
    simp only [descend, Prod.mk.injEq] at h
    obtain ⟨rfl, rfl⟩ := h
    exact ⟨rfl, hs, Or.inl rfl, fun h => absurd rfl h⟩
  | .node l i k v hh r, c, c', t', hs, h => by
    rw [descend] at h
    by_cases h0 : detail_sdmap_compare k key = 0
    · rw [if_pos h0] at h
      simp only [Prod.mk.injEq] at h
      obtain ⟨rfl, rfl⟩ := h
      have := compare_eq_zero.1 h0
      subst this
      exact ⟨rfl, hs, Or.inr ⟨l, i, v, hh, r, rfl⟩, fun _ h => by simp at h⟩
    · rw [if_neg h0] at h
      by_cases h1 : detail_sdmap_compare k key > 0
      · rw [if_pos h1] at h
        obtain ⟨a, b, d, e⟩ := descend_spec key l _ c' t' (by
          intro f hf
          rcases List.mem_cons.1 hf with rfl | hf
          · exact compare_pos.1 h1
          · exact hs f hf) h
        refine ⟨a, b, d, fun _ ht => ?_⟩
        subst ht
        cases l with
        | nil =>
          simp only [descend, Prod.mk.injEq] at h
          rw [← h.1]; simp
        | node _ _ _ _ _ _ => exact e (by simp) rfl
      · rw [if_neg h1] at h
        have hlt : k < key := by
          have := compare_lt_of h0 h1
          unfold detail_sdmap_compare at this
          split_ifs at this <;> omega
        obtain ⟨a, b, d, e⟩ := descend_spec key r _ c' t' (by
          intro f hf
          rcases List.mem_cons.1 hf with rfl | hf
          · exact hlt
          · exact hs f hf) h
        refine ⟨a, b, d, fun _ ht => ?_⟩
        subst ht
        cases r with
        | nil =>
          simp only [descend, Prod.mk.injEq] at h
          rw [← h.1]; simp
        | node _ _ _ _ _ _ => exact e (by simp) rfl

theorem path_keys (key : Int) : ∀ (c : List Frame),
    (lkeys c ++ rkeys c).Pairwise (· < ·) → (∀ f ∈ c, f.side key) →
    (∀ x ∈ lkeys c, x < key) ∧ (∀ x ∈ rkeys c, key < x)
  | [], _, _ => by simp [lkeys, rkeys]
  | .L i k v h r :: c, hp, hs => by
    simp only [lkeys, rkeys] at hp ⊢
    have hk : key < k := hs _ (List.mem_cons_self _ _)
    have hsub : (lkeys c ++ rkeys c).Pairwise (· < ·) := by
      apply hp.sublist
      apply List.Sublist.append (List.Sublist.refl _)
      exact List.sublist_append_right _ _
    obtain ⟨a, b⟩ := path_keys key c hsub (fun f hf => hs f (List.mem_cons_of_mem _ hf))
    refine ⟨a, fun x hx => ?_⟩
    rcases List.mem_append.1 hx with hx | hx
    · rcases List.mem_cons.1 hx with rfl | hx
      · exact hk
      · have h2 := (List.pairwise_append.1 hp).2.1
        have h3 := (List.pairwise_append.1 h2).1
        have := (List.pairwise_cons.1 h3).1 x hx
        omega
    · exact b x hx
  | .R l i k v h :: c, hp, hs => by
    simp only [lkeys, rkeys] at hp ⊢
    have hk : k < key := hs _ (List.mem_cons_self _ _)
    have hsub : (lkeys c ++ rkeys c).Pairwise (· < ·) := by
      apply hp.sublist
      apply List.Sublist.append _ (List.Sublist.refl _)
      exact List.sublist_append_left _ _
    obtain ⟨a, b⟩ := path_keys key c hsub (fun f hf => hs f (List.mem_cons_of_mem _ hf))
    refine ⟨fun x hx => ?_, b⟩
    rcases List.mem_append.1 hx with hx | hx
    · exact a x hx
    · rcases List.mem_append.1 hx with hx | hx
      · have h2 := (List.pairwise_append.1 hp).1
        have h3 := (List.pairwise_append.1 h2).2.1
        have h4 := (List.pairwise_append.1 h3).2.2 x hx k (by simp)
        omega
      · simp only [List.mem_singleton] at hx; omega

/-! ## Insert-or-get keeps the invariant -/

theorem setv_lnk (i : Nat) (v : Int) (t : Tree) (o : Nat) : (t.setv i v).lnk o = t.lnk o := by
  cases t <;> rfl

theorem setv_idx (i : Nat) (v : Int) : ∀ t : Tree, (t.setv i v).idx = t.idx
  | .nil => rfl
  | .node l j k w h r => by simp [Tree.setv, Tree.idx, setv_idx i v l, setv_idx i v r]

theorem setv_keys (i : Nat) (v : Int) : ∀ t : Tree, (t.setv i v).keys = t.keys
  | .nil => rfl
  | .node l j k w h r => by simp [Tree.setv, Tree.keys, setv_keys i v l, setv_keys i v r]

theorem setv_hgt (i : Nat) (v : Int) : ∀ t : Tree, (t.setv i v).hgt = t.hgt
  | .nil => rfl
  | .node l j k w h r => by simp [Tree.setv, Tree.hgt, setv_hgt i v l, setv_hgt i v r]

theorem setv_Exact (i : Nat) (v : Int) : ∀ t : Tree, Exact t → Exact (t.setv i v)
  | .nil, _ => trivial
  | .node l j k w h r, ⟨h1, h2, h3⟩ => by
    refine ⟨?_, setv_Exact i v l h2, setv_Exact i v r h3⟩
    rw [setv_hgt, setv_hgt]; exact h1

theorem setv_AVL (i : Nat) (v : Int) : ∀ t : Tree, AVL t → AVL (t.setv i v)
  | .nil, _ => trivial
  | .node l j k w h r, ⟨h1, h2, h3⟩ => by
    refine ⟨?_, setv_AVL i v l h2, setv_AVL i v r h3⟩
    rw [setv_hgt, setv_hgt]; exact h1

theorem setv_Good (i : Nat) (v : Int) {t : Tree} (hG : Good t) : Good (t.setv i v) := by
  cases t with
  | nil => trivial
  | node l j k w h r =>
    obtain ⟨h0, hl, hr, hA⟩ := hG
    exact ⟨h0, setv_Exact i v l hl, setv_Exact i v r hr, setv_AVL i v _ hA⟩

theorem setv_Rep {m m' : sdmap_heap} {i : Nat} {v : Int}
    (hv : ∀ j, valid m j → valid m' j)
    (hg : ∀ j, get m' j = if j = i then { get m i with value := v } else get m j) :
    ∀ (t : Tree) (o : Nat), Rep m t o → Rep m' (t.setv i v) o
  | .nil, _, _ => trivial
  | .node l j k w h r, o, ⟨h1, h2, h3, h4⟩ => by
    refine ⟨hv _ h1, ?_, setv_Rep hv hg l j h3, setv_Rep hv hg r j h4⟩
    rw [hg j, setv_lnk, setv_lnk]
    by_cases hji : j = i
    · subst hji; simp [h2]
    · simp [hji, h2]

theorem set_heap_loop_mono (frot ks vs : Nat) (key : Int) :
    ∀ (fuel : Nat) (m : sdmap_heap) (i : Nat) (r : sdmap_heap × Nat),
    detail_sdmap_set_heap_loop fuel frot m ks vs i key = some r →
    detail_sdmap_set_heap_loop (fuel + 1) frot m ks vs i key = some r
  | 0, _, _, _, h => by simp [detail_sdmap_set_heap_loop] at h
  | n + 1, m, i, r, h => by
    rw [detail_sdmap_set_heap_loop] at h ⊢
    cases hs : detail_sdmap_slot m i with
    | none => simp [hs] at h
    | some slot =>
      simp only [hs] at h ⊢
      split_ifs at h ⊢ with h1 h2 h3
      · exact h
      · exact h
      · exact set_heap_loop_mono frot ks vs key n m _ r h
      · exact set_heap_loop_mono frot ks vs key n m _ r h

theorem not_valid_NONE {ks vs : Nat} {m : sdmap_heap} (hc : CapOK ks vs m) : ¬ valid m NONE := by
  obtain ⟨h1, _, h3⟩ := hc
  unfold valid NONE
  have : m.capacity / slot_size ks vs ≤ m.capacity := Nat.div_le_self _ _
  omega

theorem InvT_Inv {ks vs : Nat} {m : sdmap_heap} {T : Tree} (h : InvT ks vs m T) : Inv ks vs m := by
  obtain ⟨fl, h⟩ := h
  exact ⟨T, fl, h⟩

theorem Inv_InvT {ks vs : Nat} {m : sdmap_heap} (h : Inv ks vs m) : ∃ T, InvT ks vs m T := by
  obtain ⟨T, fl, h⟩ := h
  exact ⟨T, fl, h⟩

theorem plug_nodes_split : ∀ (c : List Frame),
    ∃ L R : List (Nat × Int × Int), ∀ t, (plug c t).nodes = L ++ t.nodes ++ R
  | [] => ⟨[], [], fun t => by simp [plug]⟩
  | f :: c => by
    obtain ⟨L, R, h⟩ := plug_nodes_split c
    cases f with
    | L i k v hh r =>
      exact ⟨L, (i, k, v) :: r.nodes ++ R, fun t => by simp [plug, h, Frame.fill, Tree.nodes]⟩
    | R l i k v hh =>
      exact ⟨L ++ l.nodes ++ [(i, k, v)], R,
        fun t => by simp [plug, h, Frame.fill, Tree.nodes]⟩

theorem setv_nodes (i : Nat) (v : Int) : ∀ t : Tree,
    (t.setv i v).nodes = t.nodes.map (fun n => if n.1 = i then (n.1, n.2.1, v) else n)
  | .nil => rfl
  | .node l j k w h r => by
    simp only [Tree.setv, Tree.nodes, setv_nodes i v l, setv_nodes i v r, List.map_append,
      List.map_cons]
    by_cases hj : j = i <;> simp [hj]

theorem InvT_write {ks vs : Nat} {m m' : sdmap_heap} {T : Tree} {i : Nat} {value : Int}
    (hI : InvT ks vs m T) (hi : i ∈ T.idx)
    (h : write_value m i value = some m') :
    InvT ks vs m' (T.setv i value) ∧ m'.count = m.count := by
  obtain ⟨fl, hz, hG, hB, hF, hnd, hlt, hcnt, hsc, hcap⟩ := hI
  have hvi : valid m i := Rep_valid_of_mem T _ hz.1.2 i hi
  obtain ⟨m2, e, hd, hr, hv, hg⟩ := store_spec (fun s => { s with value := value }) hvi
  unfold write_value at h
  rw [e] at h
  cases h
  obtain ⟨d1, d2, d3, d4, d5⟩ := hd
  have hifl : i ∉ fl := fun hx => (List.nodup_append.1 hnd).2.2 hi hx
  refine ⟨⟨fl, ⟨⟨?_, setv_Rep (fun j hj => (hv j).2 hj) hg T _ hz.1.2⟩, ?_⟩,
    setv_Good i value hG, ?_, ?_, ?_, ?_, ?_, ?_, ?_⟩, d2⟩
  · show m'.root_slot = (T.setv i value).lnk (own [])
    rw [setv_lnk, hr]; exact hz.1.1
  · rw [setv_idx]; exact hz.2
  · unfold BST; rw [setv_keys]; exact hB
  · rw [d4]
    exact FreeL_congr (fun j hj => (hv j).2 hj) fl _
      (fun j hj => by rw [hg j, if_neg (fun (e : j = i) => hifl (e ▸ hj))]) hF
  · rw [setv_idx]; exact hnd
  · rw [setv_idx, d3]; exact hlt
  · rw [setv_idx, d2]; exact hcnt
  · rw [d2, d3]; exact hsc
  · obtain ⟨c1, c2, c3⟩ := hcap
    exact ⟨by rw [d5, d1]; exact c1, by rw [d3, d5]; exact c2, by rw [d1]; exact c3⟩

theorem set_heap_empty_spec {ks vs : Nat} {m : sdmap_heap} {key : Int} {r : sdmap_heap × Nat}
    (hcap : CapOK ks vs m) (hc : m.count = 0) (hs : m.slot_count = 0)
    (h : detail_sdmap_set_heap_empty m ks vs key = some r) :
    ∃ v, r.2 = 0 ∧ ZOK r.1 [] (leaf 0 key v) ∧ r.1.empty_slot = NONE ∧ r.1.count = 1 ∧
      r.1.slot_count = 1 ∧ CapOK ks vs r.1 := by
  unfold detail_sdmap_set_heap_empty at h
  simp only at h
  split at h
  · simp at h
  · next nc hg =>
    split at h
    · simp at h
    · next m1 hr =>
      obtain ⟨a1, a2, a3, a4, a5, a6, a7, a8, a9⟩ := realloc_heap_spec hcap.1 hcap.2.2 hr
      have hge := (grow_capacity_ge _ _ _ _ hg).1
      rw [hs] at hge
      have hpos := slot_size_pos ks vs
      have hv0 : valid m1 0 := by
        unfold valid
        rw [a1]
        apply Nat.div_pos _ hpos
        simp only [zero_add, mul_one] at hge
        omega
      obtain ⟨m2, e, hd, hrs, hv, hgt⟩ := store_spec (fun s =>
        { s with left := 0, right := 0, height := 0, parent := NONE, key := key }) hv0
      rw [e] at h
      simp only [Option.some.injEq] at h
      subst h
      obtain ⟨d1, d2, d3, d4, d5⟩ := hd
      refine ⟨(get m1 0).value, rfl, ⟨⟨rfl, ?_, ?_, trivial, trivial⟩, by simp [leaf, Tree.idx, cidx]⟩,
        rfl, ?_, ?_, ?_⟩
      · exact (hv 0).2 hv0
      · show get m2 0 = _
        rw [hgt 0]; simp [lnk_nil, own]
      · show m2.count + 1 = 1
        rw [d2, a6, hc]
      · show m2.slot_count + 1 = 1
        rw [d3, a7, hs]
      · refine ⟨?_, ?_, ?_⟩
        · show m2.slots.length = m2.capacity / _
          rw [d5, d1]; exact a1
        · show m2.slot_count + 1 ≤ m2.slots.length
          rw [d3, a7, hs, d5]; exact hv0
        · show m2.capacity < _
          rw [d1]; exact a2

theorem InsFocus_leaf {f : Frame} {c : List Frame} (n : Nat) (key v0 : Int)
    (hG : Good (plug (f :: c) .nil)) : InsFocus c (f.fill (leaf n key v0)) := by
  obtain ⟨-, -, sE, sA, hb, hh, h0, hC⟩ := Good_plug (f :: c) .nil (by simp) hG
  have gs := hgt_ge f.sib
  simp only [Tree.hgt] at hb hh hC
  cases f with
  | L i k v h r =>
    simp only [Frame.sib, Frame.h] at *
    refine ⟨⟨rfl, trivial, trivial⟩, sE, ⟨?_, ⟨by simp [Tree.hgt], trivial, trivial⟩, sA⟩, h0,
      1 + max (-1) r.hgt, hh, ?_, hC⟩
    · simp only [Tree.hgt]; omega
    · simp only [Tree.hgt]; omega
  | R l i k v h =>
    simp only [Frame.sib, Frame.h] at *
    refine ⟨sE, ⟨rfl, trivial, trivial⟩, ⟨?_, sA, ⟨by simp [Tree.hgt], trivial, trivial⟩⟩, h0,
      1 + max (-1) l.hgt, hh, ?_, hC⟩
    · simp only [Tree.hgt]; omega
    · simp only [Tree.hgt]; omega

theorem BST_insert {c : List Frame} {key : Int} (n : Nat) (v0 : Int)
    (hB : BST (plug c .nil)) (hs : ∀ f ∈ c, f.side key) : BST (plug c (leaf n key v0)) := by
  unfold BST at *
  rw [plug_keys] at hB ⊢
  simp only [Tree.keys, leaf, List.append_nil, List.nil_append, List.append_assoc,
    List.singleton_append] at hB ⊢
  obtain ⟨a, b⟩ := path_keys key c hB hs
  obtain ⟨p1, p2, p3⟩ := List.pairwise_append.1 hB
  refine List.pairwise_append.2 ⟨p1, List.pairwise_cons.2 ⟨b, p2⟩, ?_⟩
  intro x hx y hy
  rcases List.mem_cons.1 hy with rfl | hy
  · exact a x hx
  · exact p3 x hx y hy

theorem keys_insLoop {c c' : List Frame} {t t' : Tree} (h : insLoop1 c t = some (c', t')) :
    (insLoop2 c' t').keys = (plug c t).keys := by
  rw [keys_eq_map, keys_eq_map, insLoop2_nodes, insLoop1_nodes c t c' t' h]

theorem not_mem_keys_of_descend {key : Int} {T : Tree} {c : List Frame} (hB : BST T)
    (hp : plug c .nil = T) (hside : ∀ f ∈ c, f.side key) : key ∉ T.keys := by
  have hkeys : T.keys = lkeys c ++ Tree.nil.keys ++ rkeys c := by rw [← hp, plug_keys]
  have hpk : (lkeys c ++ rkeys c).Pairwise (· < ·) := by
    have := hB; unfold BST at this; rw [hkeys] at this; simpa [Tree.keys] using this
  obtain ⟨a, b⟩ := path_keys key c hpk hside
  rw [hkeys]
  simp only [Tree.keys, List.append_nil, List.mem_append, not_or]
  exact ⟨fun hx => by have := a _ hx; omega, fun hx => by have := b _ hx; omega⟩

set_option maxHeartbeats 1000000 in
/-- The insert-or-get on a map that holds the tree `T`: a key of the tree is
found in its slot and nothing is written; another key is put in a new slot,
and the nodes of the tree in order get the new node at one place. -/
theorem set_heap_impl_spec {ks vs : Nat} {m : sdmap_heap} {T : Tree} {fuel : Nat} {key : Int}
    {r : sdmap_heap × Nat} (hI : InvT ks vs m T)
    (hr : detail_sdmap_set_heap_impl fuel m ks vs key = some r) :
    (key ∈ T.keys ∧ r.1 = m ∧ ∃ v, (r.2, key, v) ∈ T.nodes) ∨
    (key ∉ T.keys ∧ ∃ T1 v0 A B, InvT ks vs r.1 T1 ∧ T.nodes = A ++ B ∧
      T1.nodes = A ++ (r.2, key, v0) :: B ∧ r.2 ∉ T.idx ∧ r.1.count = m.count + 1) := by
  obtain ⟨fl, hz, hG, hB, hF, hnd, hlt, hcnt, hsc, hcap⟩ := hI
  unfold detail_sdmap_set_heap_impl at hr
  split_ifs at hr with he
  · obtain ⟨v, r2, z, e1, c1, s1, cap1⟩ := set_heap_empty_spec hcap he.1 he.2 hr
    have hT : T = .nil := by
      cases T with
      | nil => rfl
      | node l i k v h r => rw [he.1] at hcnt; simp [Tree.idx] at hcnt; omega
    subst hT
    right
    refine ⟨by simp [Tree.keys], leaf 0 key v, v, [], [], ?_, by simp [Tree.nodes], ?_,
      by simp [Tree.idx], by rw [c1, he.1]⟩
    · refine ⟨[], z, ⟨le_refl _, trivial, trivial, by simp [Tree.hgt], trivial, trivial⟩,
        by simp [BST, leaf, Tree.keys], e1, by simp [leaf, Tree.idx], ?_,
        by simp [leaf, Tree.idx, c1], by simp [c1, s1], cap1⟩
      intro j hj
      simp only [leaf, Tree.idx, List.append_nil, List.nil_append, List.mem_singleton] at hj
      omega
    · rw [r2]; simp [leaf, Tree.nodes]
  · cases T with
    | nil =>
      have hroot : m.root_slot = NONE := hz.1.1
      rw [hroot] at hr
      cases fuel with
      | zero => simp [detail_sdmap_set_heap_loop] at hr
      | succ n =>
        rw [detail_sdmap_set_heap_loop, slot_eq_none (not_valid_NONE hcap)] at hr
        simp at hr
    | node l i k v hh rr =>
      have hroot : m.root_slot = i := hz.1.1
      have hr1 := mono_of_succ
        (fun n (x : sdmap_heap × Nat) => detail_sdmap_set_heap_loop n fuel x.1 ks vs x.2 key)
        (fun n a r h => set_heap_loop_mono fuel ks vs key n a.1 a.2 r h)
        fuel (max fuel (Tree.node l i k v hh rr).depth) (m, m.root_slot) r (le_max_left _ _) hr
      have hr2 : detail_sdmap_set_heap_loop (max fuel (Tree.node l i k v hh rr).depth) fuel m
          ks vs ((Tree.node l i k v hh rr).lnk 0) key = some r := by
        rw [lnk_node, ← hroot]; exact hr1
      rw [set_heap_loop_zip fuel ks vs key _ [] m hz (by simp) _ (le_max_right _ _)] at hr2
      rcases hd : descend key [] (Tree.node l i k v hh rr) with ⟨c0, t0⟩
      obtain ⟨hp, hside, hcase, hne⟩ := descend_spec key _ [] c0 t0 (by simp) hd
      simp only [plug] at hp
      rw [hd] at hr2
      cases t0 with
      | node l0 i0 k0 v0 h0 r0 =>
        simp only [Option.some.injEq] at hr2
        subst hr2
        left
        have hk0 : k0 = key := by
          rcases hcase with hc | ⟨_, _, _, _, _, hc⟩
          · cases hc
          · cases hc; rfl
        subst hk0
        obtain ⟨L, R, hLR⟩ := plug_nodes_split c0
        have hmem : (i0, k0, v0) ∈ (Tree.node l i k v hh rr).nodes := by
          rw [← hp, hLR]; simp [Tree.nodes]
        refine ⟨?_, rfl, v0, hmem⟩
        rw [keys_eq_map]
        exact List.mem_map.2 ⟨_, hmem, rfl⟩
      | nil =>
        cases c0 with
        | nil => exact absurd rfl (hne (by simp) rfl)
        | cons f c =>
          simp only at hr2
          right
          have hTidx : (cidx (f :: c)).Perm (Tree.node l i k v hh rr).idx := by
            rw [← hp]
            simpa [Tree.idx] using (plug_idx_perm (f :: c) .nil).symm
          have hz0 : ZOK m (f :: c) .nil := by
            refine ⟨(RepZ_plug (f :: c) .nil).1 (by rw [hp]; exact hz.1), ?_⟩
            simp only [Tree.idx, List.nil_append]
            have := hz.2
            simp only [cidx, List.append_nil] at this
            exact hTidx.nodup_iff.2 this
          have hflnd : fl.Nodup := (List.nodup_append.1 hnd).2.1
          have hcr : detail_sdmap_compare f.k key > 0 ↔ ∃ i k v h r, f = .L i k v h r := by
            have := hside f (List.mem_cons_self _ _)
            cases f with
            | L i1 k1 v1 h1 r1 =>
              simp only [Frame.k, Frame.side] at *
              exact ⟨fun _ => ⟨_, _, _, _, _, rfl⟩, fun _ => compare_pos.2 this⟩
            | R l1 i1 k1 v1 h1 =>
              simp only [Frame.k, Frame.side] at *
              constructor
              · intro hc; have := compare_pos.1 hc; omega
              · rintro ⟨_, _, _, _, _, hx⟩; cases hx
          have hfull : fl = [] → m.count = m.slot_count := by
            intro e; subst e; simpa using hsc
          have hdis : ∀ j ∈ cidx (f :: c), j ∉ fl ∧ j < m.slot_count := by
            intro j hj
            have hjT := hTidx.subset hj
            exact ⟨fun hx => (List.nodup_append.1 hnd).2.2 hjT hx,
              hlt j (List.mem_append_left _ hjT)⟩
          have hGp : Good (plug (f :: c) .nil) := by rw [hp]; exact hG
          obtain ⟨c', t', hL, hD⟩ := insLoop1_good c _
            (InsFocus_leaf (fl.headD m.count) key (get m (fl.headD m.count)).value hGp)
          obtain ⟨q1, q2, q3, q4, q5, q6, -, -, q9⟩ :=
            set_heap_insert_zip hz0 hcr hcap hF hflnd hfull hdis hr2 hL
          have hperm : (insLoop2 c' t').idx.Perm (fl.headD m.count :: (Tree.node l i k v hh rr).idx) :=
            q9.trans (List.Perm.cons _ hTidx)
          have hnew : fl.headD m.count ∉ (Tree.node l i k v hh rr).idx := by
            intro hx
            cases fl with
            | nil =>
              simp only [List.headD_nil] at hx
              have := hlt _ (List.mem_append_left _ hx)
              have := hfull rfl
              omega
            | cons a fl' =>
              simp only [List.headD_cons] at hx
              exact (List.nodup_append.1 hnd).2.2 hx (List.mem_cons_self _ _)
          obtain ⟨L, R, hLR⟩ := plug_nodes_split (f :: c)
          refine ⟨not_mem_keys_of_descend hB hp hside, insLoop2 c' t',
            (get m (fl.headD m.count)).value, L, R, ?_, ?_, ?_, by rw [q1]; exact hnew, q3⟩
          · refine ⟨fl.tail, q2, insLoop2_good hD, ?_, q4, ?_, ?_, ?_, ?_, q6⟩
            · unfold BST
              rw [keys_insLoop hL]
              have := BST_insert (fl.headD m.count) (get m (fl.headD m.count)).value
                (show BST (plug (f :: c) .nil) by rw [hp]; exact hB) hside
              exact this
            · refine (List.Perm.append_right _ hperm).nodup_iff.2 ?_
              cases fl with
              | nil =>
                simp only [List.headD_nil, List.tail_nil, List.append_nil, List.nodup_cons]
                refine ⟨fun hx => ?_, by simpa using hnd⟩
                have := hlt _ (List.mem_append_left _ hx)
                have := hfull rfl
                omega
              | cons a fl' =>
                simp only [List.headD_cons, List.tail_cons]
                exact (List.perm_middle).nodup_iff.1 hnd
            · intro j hj
              rw [q5]
              rcases List.mem_append.1 hj with hj | hj
              · rcases List.mem_cons.1 (hperm.subset hj) with rfl | hj
                · cases fl with
                  | nil => simp only [List.headD_nil, if_true]; have := hfull rfl; omega
                  | cons a fl' =>
                    simp only [List.headD_cons, reduceCtorEq, if_false]
                    exact hlt a (by simp)
                · have := hlt j (List.mem_append_left _ hj)
                  split_ifs <;> omega
              · have := hlt j (List.mem_append_right _ (List.mem_of_mem_tail hj))
                split_ifs <;> omega
            · rw [q3, hperm.length_eq, hcnt]; simp
            · rw [q3, q5]
              cases fl with
              | nil => simp at hsc ⊢; omega
              | cons a fl' => simp at hsc ⊢; omega
          · rw [← hp, hLR]; simp [Tree.nodes]
          · rw [insLoop2_nodes, insLoop1_nodes c _ c' t' hL, q1]
            have := hLR (leaf (fl.headD m.count) key (get m (fl.headD m.count)).value)
            simp only [plug] at this
            rw [this]
            simp [leaf, Tree.nodes]

theorem Inv_set {ks vs : Nat} {m m' : sdmap_heap} {fuel : Nat} {key value : Int}
    (hI : Inv ks vs m) (h : sdmap_set fuel m ks vs key value = some m') : Inv ks vs m' := by
  obtain ⟨T, hT⟩ := Inv_InvT hI
  unfold sdmap_set at h
  simp only [Option.bind_eq_bind, Option.bind_eq_some] at h
  obtain ⟨r, hr, hw⟩ := h
  rcases set_heap_impl_spec hT hr with ⟨-, e, v, hv⟩ | ⟨-, T1, v0, A, B, hI1, -, hB1, -, -⟩
  · rw [e] at hw
    exact InvT_Inv (InvT_write hT (by rw [idx_eq_map]; exact List.mem_map.2 ⟨_, hv, rfl⟩) hw).1
  · exact InvT_Inv (InvT_write hI1 (by rw [idx_eq_map, hB1]; simp) hw).1

/-! ## The rebalancing loop of an erase on the held tree -/

theorem erase_rotate_succ (fuel : Nat) (m : sdmap_heap) (z : Nat) :
    detail_sdmap_erase_rotate (fuel + 1) m z =
      if z = m.root_slot then some m
      else (detail_sdmap_slot m z).bind fun zs =>
        if zs.parent = NONE then some m
        else (detail_sdmap_erase_rotate_body m zs.parent).bind fun m' =>
          detail_sdmap_erase_rotate fuel m' zs.parent := by
  rw [detail_sdmap_erase_rotate]
  unfold detail_sdmap_erase_rotate_body
  by_cases h0 : z = m.root_slot
  · simp [h0]
  · simp only [h0, if_false, Option.bind_eq_bind]
    cases detail_sdmap_slot m z with
    | none => rfl
    | some zs =>
      simp only [Option.some_bind]
      by_cases h1 : zs.parent = NONE
      · simp [h1]
      · simp only [h1, if_false]
        cases detail_sdmap_taller_child m zs.parent with
        | none => rfl
        | some y =>
          simp only [Option.some_bind]
          cases detail_sdmap_taller_child m y with
          | none => rfl
          | some x =>
            simp only [Option.some_bind]
            cases detail_sdmap_compute_height m zs.parent with
            | none => rfl
            | some m1 =>
              simp only [Option.some_bind]
              by_cases h2 : zs.parent ≠ y ∧ y ≠ x
              · simp only [h2, and_self, if_true, ne_eq, not_false_eq_true]
                cases detail_sdmap_compute_balance m1 zs.parent with
                | none => rfl
                | some b =>
                  simp only [Option.some_bind]
                  cases detail_sdmap_compute_balance m1 y with
                  | none => rfl
                  | some bc =>
                    simp only [Option.some_bind]
                    split_ifs <;> simp [Option.bind_assoc]
              · simp [h2]

theorem tallerOf_sub (l : Tree) (i : Nat) (r : Tree) :
    tallerOf l i r = (match tallerSub l r with
      | none => i
      | some (_, y) => y.lnk i) := by
  cases l <;> cases r <;> simp only [tallerOf, tallerSub] <;> (try split_ifs) <;> rfl

theorem taller_tc (t : Tree) :
    t.taller = (match t with
      | .nil => 0
      | .node _ i _ _ _ _ =>
        match t.tc with
        | none => i
        | some (_, y) => y.lnk i) := by
  cases t with
  | nil => rfl
  | node l i k v h r => exact tallerOf_sub l i r

theorem tallerSub_cases {l r : Tree} {side : Bool} {y : Tree} (h : tallerSub l r = some (side, y)) :
    y ≠ .nil ∧ ((side = false ∧ y = l) ∨ (side = true ∧ y = r)) := by
  cases l <;> cases r <;> simp only [tallerSub, reduceCtorEq] at h
  · simp only [Option.some.injEq, Prod.mk.injEq] at h
    obtain ⟨rfl, rfl⟩ := h; simp
  · simp only [Option.some.injEq, Prod.mk.injEq] at h
    obtain ⟨rfl, rfl⟩ := h; simp
  · split_ifs at h <;> simp only [Option.some.injEq, Prod.mk.injEq] at h <;>
      obtain ⟨rfl, rfl⟩ := h <;> simp

theorem tallerSub_none {l r : Tree} (h : tallerSub l r = none) : l = .nil ∧ r = .nil := by
  cases l <;> cases r <;> simp only [tallerSub, reduceCtorEq] at h
  · exact ⟨rfl, rfl⟩
  · split_ifs at h

theorem node_idx_facts {l r : Tree} {i : Nat} {k v h : Int} {s : List Nat}
    (hnd : ((Tree.node l i k v h r).idx ++ s).Nodup) :
    (Tree.node l i k v h r).idx.Nodup ∧ l.idx.Nodup ∧ r.idx.Nodup ∧ i ∉ l.idx ∧ i ∉ r.idx ∧
    (∀ j ∈ l.idx, j ∉ r.idx) := by
  have hA := (List.nodup_append.1 hnd).1
  have hA' := hA
  simp only [Tree.idx] at hA
  obtain ⟨nl, hiR, dlR⟩ := List.nodup_append.1 hA
  obtain ⟨ir, nr⟩ := List.nodup_cons.1 hiR
  exact ⟨hA', nl, nr, fun hx => dlR hx (by simp), ir, fun j hj hx => dlR hj (by simp [hx])⟩

set_option maxHeartbeats 1000000 in
theorem erase_body_zip {m : sdmap_heap} {c : List Frame} {Z : Tree} {og : Option Frame}
    {t' : Tree} (hz : ZOK m c Z) (h : eraseStep Z = some (og, t')) :
    ∃ m', detail_sdmap_erase_rotate_body m (Z.lnk 0) = some m' ∧
      Step m m' (Z.idx ++ cidx c) (og.toList ++ c) t' ∧ t'.lnk 0 = Z.lnk 0 ∧ t' ≠ .nil := by
  cases Z with
  | nil => simp [eraseStep] at h
  | node l i k v hh r =>
    obtain ⟨hndZ, hndl, hndr, hil, hir, hlr⟩ := node_idx_facts hz.2
    have hy := taller_child_zip hz.1.2 hndZ
    obtain ⟨m1, e1, s1, r1⟩ := compute_height_step hz (by simp)
    simp only [lnk_node, recompute] at e1 s1 ⊢
    have hb := compute_balance_step s1.1 (by simp)
    simp only [lnk_node, Tree.bal] at hb
    simp only [eraseStep] at h
    cases hts : tallerSub l r with
    | none =>
      simp only [hts, Option.some.injEq, Prod.mk.injEq] at h
      obtain ⟨rfl, rfl⟩ := h
      rw [tallerOf_sub, hts] at hy
      refine ⟨m1, ?_, by simpa using s1, rfl, by simp⟩
      unfold detail_sdmap_erase_rotate_body
      simp [hy, e1]
    | some p =>
      obtain ⟨side, y⟩ := p
      simp only [hts] at h
      obtain ⟨hyn, hside⟩ := tallerSub_cases hts
      rw [tallerOf_sub, hts] at hy
      simp only at hy
      cases y with
      | nil => exact absurd rfl hyn
      | node yl yi ky vy hy' yr =>
        simp only [lnk_node] at hy
        have hyR : Rep m (.node yl yi ky vy hy' yr) i ∧ (Tree.node yl yi ky vy hy' yr).idx.Nodup ∧
            yi ≠ i := by
          rcases hside with ⟨-, e⟩ | ⟨-, e⟩
          · rw [e]; exact ⟨hz.1.2.2.2.1, hndl, fun e2 => hil (by rw [← e, ← e2]; simp [Tree.idx])⟩
          · rw [e]; exact ⟨hz.1.2.2.2.2, hndr, fun e2 => hir (by rw [← e, ← e2]; simp [Tree.idx])⟩
        obtain ⟨hyRep, hynd, hyi⟩ := hyR
        have hx := taller_child_zip hyRep hynd
        rw [tallerOf_sub] at hx
        have hbc : detail_sdmap_compute_balance m1 yi = some (balOf yl yr) := by
          rcases hside with ⟨-, e⟩ | ⟨-, e⟩
          · have z := (ZOK_cons (.L i k v (ch l r) r) c l).2 s1.1
            rw [← e] at z
            exact compute_balance_step z (by simp)
          · have z := (ZOK_cons (.R l i k v (ch l r)) c r).2 s1.1
            rw [← e] at z
            exact compute_balance_step z (by simp)
        simp only [Tree.tc, Tree.bal] at h
        cases hts2 : tallerSub yl yr with
        | none =>
          simp only [hts2, Option.some.injEq, Prod.mk.injEq] at h
          obtain ⟨rfl, rfl⟩ := h
          rw [hts2] at hx
          refine ⟨m1, ?_, by simpa using s1, rfl, by simp⟩
          unfold detail_sdmap_erase_rotate_body
          simp [hy, hx, e1]
        | some p2 =>
          obtain ⟨s2, x⟩ := p2
          simp only [hts2] at h hx
          obtain ⟨hxn, hxside⟩ := tallerSub_cases hts2
          have hxy : x.lnk yi ≠ yi := by
            obtain ⟨-, -, -, a, b, -⟩ := node_idx_facts (s := []) (by simpa using hynd)
            cases x with
            | nil => exact absurd rfl hxn
            | node xl xi kx vx hx' xr =>
              simp only [lnk_node]
              rcases hxside with ⟨-, e⟩ | ⟨-, e⟩
              · intro e2; apply a; rw [← e, ← e2]; simp [Tree.idx]
              · intro e2; apply b; rw [← e, ← e2]; simp [Tree.idx]
          have hrun : detail_sdmap_erase_rotate_body m i =
              (if balOf l r > 1 then
                (if balOf yl yr ≥ 0 then detail_sdmap_rotate_l_impl m1 i
                  else (detail_sdmap_rotate_r_impl m1 yi).bind fun m =>
                    detail_sdmap_rotate_l_impl m i).bind fun m =>
                  detail_sdmap_compute_height m yi
              else if balOf l r < -1 then
                (if balOf yl yr > 0 then (detail_sdmap_rotate_l_impl m1 yi).bind fun m =>
                    detail_sdmap_rotate_r_impl m i
                  else detail_sdmap_rotate_r_impl m1 i).bind fun m =>
                  detail_sdmap_compute_height m yi
              else some m1) := by
            unfold detail_sdmap_erase_rotate_body
            simp only [hy, hx, e1, hb, hbc, Option.some_bind, Option.bind_eq_bind, ne_eq,
              hyi.symm, hxy.symm, not_false_eq_true, and_self, if_true]
          rw [hrun]
          by_cases hb1 : balOf l r > 1
          · simp only [hb1, if_true] at h ⊢
            cases side with
            | false => simp at h
            | true =>
              simp only [if_true] at h
              have hyr : Tree.node yl yi ky vy hy' yr = r := by
                rcases hside with ⟨e, -⟩ | ⟨-, e⟩
                · cases e
                · exact e
              subst hyr
              by_cases hc : balOf yl yr ≥ 0
              · simp only [hc, if_true, rotL, recompute, Option.some.injEq, Prod.mk.injEq] at h ⊢
                obtain ⟨rfl, rfl⟩ := h
                obtain ⟨m2, e2, s2⟩ := @rotate_l_step _ _ _ _ s1.1 rfl
                obtain ⟨m3, e3, s3, -⟩ := compute_height_step s2.1 (by simp)
                simp only [lnk_node, recompute] at e2 e3 s3
                refine ⟨m3, by rw [e2, Option.some_bind, e3], ?_, rfl, by simp⟩
                exact Step_cons.2 ((s1.strans s2).strans s3)
              · simp only [hc, if_false] at h ⊢
                cases yl with
                | nil => simp [rotR] at h
                | node a x kx vx hx' b =>
                  simp only [rotR, rotL, recompute, Option.some.injEq, Prod.mk.injEq] at h
                  obtain ⟨rfl, rfl⟩ := h
                  have z1 := (ZOK_cons (.R l i k v (ch l _)) c _).2 s1.1
                  obtain ⟨m2, e2, s2⟩ := @rotate_r_step _ _ _ _ z1 rfl
                  have z2 := (ZOK_cons _ _ _).1 s2.1
                  obtain ⟨m3, e3, s3⟩ := @rotate_l_step _ _ _ _ z2 rfl
                  have z3 := (ZOK_cons (.R _ x kx vx _) c _).2 s3.1
                  obtain ⟨m4, e4, s4, -⟩ := compute_height_step z3 (by simp)
                  simp only [lnk_node, recompute, Frame.fill] at e2 e3 e4 s4
                  refine ⟨m4, by rw [e2, Option.some_bind, e3, Option.some_bind, e4], ?_, rfl,
                    by simp⟩
                  have s2' := Step_src (zip_perm _ _ _) (Step_cons.1 s2)
                  have s12 := s1.strans s2'
                  have s123 := s12.strans s3
                  have s3' : Step m m3 _ (.R (Tree.node l i k v (ch l a) a) x kx vx
                      (ch (Tree.node l i k v (ch l a) a) (Tree.node b yi ky vy (ch b yr) yr)) :: c)
                      (Tree.node b yi ky vy (ch b yr) yr) := Step_cons.2 s123
                  have s1234 := Step_cons.1 (s3'.strans s4)
                  show Step m m4 _ (Frame.L _ _ _ _ _ :: c) _
                  exact Step_cons.2 s1234
          · simp only [hb1, if_false] at h ⊢
            by_cases hb2 : balOf l r < -1
            · simp only [hb2, if_true] at h ⊢
              cases side with
              | true => simp at h
              | false =>
                simp only [Bool.false_eq_true, if_false] at h
                have hyl : Tree.node yl yi ky vy hy' yr = l := by
                  rcases hside with ⟨-, e⟩ | ⟨e, -⟩
                  · exact e
                  · cases e
                subst hyl
                by_cases hc : balOf yl yr > 0
                · simp only [hc, if_true] at h ⊢
                  cases yr with
                  | nil => simp [rotL] at h
                  | node a x kx vx hx' b =>
                    simp only [rotR, rotL, recompute, Option.some.injEq, Prod.mk.injEq] at h
                    obtain ⟨rfl, rfl⟩ := h
                    have z1 := (ZOK_cons (.L i k v (ch _ r) r) c _).2 s1.1
                    obtain ⟨m2, e2, s2⟩ := @rotate_l_step _ _ _ _ z1 rfl
                    have z2 := (ZOK_cons _ _ _).1 s2.1
                    obtain ⟨m3, e3, s3⟩ := @rotate_r_step _ _ _ _ z2 rfl
                    have z3 := (ZOK_cons (.L x kx vx _ _) c _).2 s3.1
                    obtain ⟨m4, e4, s4, -⟩ := compute_height_step z3 (by simp)
                    simp only [lnk_node, recompute, Frame.fill] at e2 e3 e4 s4
                    refine ⟨m4, by rw [e2, Option.some_bind, e3, Option.some_bind, e4], ?_, rfl,
                      by simp⟩
                    have s2' := Step_src (zip_perm _ _ _) (Step_cons.1 s2)
                    have s12 := s1.strans s2'
                    have s123 := s12.strans s3
                    have s3' : Step m m3 _ (.L x kx vx
                        (ch (Tree.node yl yi ky vy (ch yl a) a) (Tree.node b i k v (ch b r) r))
                        (Tree.node b i k v (ch b r) r) :: c)
                        (Tree.node yl yi ky vy (ch yl a) a) := Step_cons.2 s123
                    have s1234 := Step_cons.1 (s3'.strans s4)
                    show Step m m4 _ (Frame.R _ _ _ _ _ :: c) _
                    exact Step_cons.2 s1234
                · simp only [hc, if_false, rotR, recompute, Option.some.injEq, Prod.mk.injEq] at h ⊢
                  obtain ⟨rfl, rfl⟩ := h
                  obtain ⟨m2, e2, s2⟩ := @rotate_r_step _ _ _ _ s1.1 rfl
                  obtain ⟨m3, e3, s3, -⟩ := compute_height_step s2.1 (by simp)
                  simp only [lnk_node, recompute] at e2 e3 s3
                  refine ⟨m3, by rw [e2, Option.some_bind, e3], ?_, rfl, by simp⟩
                  exact Step_cons.2 ((s1.strans s2).strans s3)
            · simp only [hb2, if_false, Option.some.injEq, Prod.mk.injEq] at h ⊢
              obtain ⟨rfl, rfl⟩ := h
              exact ⟨m1, rfl, by simpa using s1, rfl, by simp⟩

theorem ZOK_root {m : sdmap_heap} {c : List Frame} {t : Tree} (hz : ZOK m c t) (ht : t ≠ .nil) :
    valid m (t.lnk 0) ∧ (get m (t.lnk 0)).parent = own c := by
  cases t with
  | nil => exact absurd rfl ht
  | node l i k v h r =>
    obtain ⟨⟨-, h1, h2, -⟩, -⟩ := hz
    exact ⟨h1, by show (get m i).parent = own c; rw [h2]⟩

theorem own_ne_NONE {m : sdmap_heap} {f : Frame} {c : List Frame} {t : Tree}
    (hz : ZOK m (f :: c) t) (hN : ¬ valid m NONE) : f.i ≠ NONE := by
  have hz' := (ZOK_cons f c t).1 hz
  have := (ZOK_root hz' (fill_ne_nil f t)).1
  rw [fill_lnk] at this
  intro e; rw [e] at this; exact hN this

theorem erase_rotate_zip : ∀ (fuel : Nat) (c : List Frame) (t : Tree) (m : sdmap_heap) (z : Nat)
    (T' : Tree), ZOK m c t → ¬ valid m NONE → valid m z → (get m z).parent = own c →
    (z = m.root_slot → c = []) → eraseLoop fuel c t = some T' →
    ∃ m', detail_sdmap_erase_rotate fuel m z = some m' ∧ Step m m' (t.idx ++ cidx c) [] T'
  | 0, _, _, _, _, _, _, _, _, _, _, h => by simp [eraseLoop] at h
  | fuel + 1, [], t, m, z, T', hz, hN, hv, hp, hr, h => by
    simp only [eraseLoop, Option.some.injEq] at h
    subst h
    refine ⟨m, ?_, Step.srefl hz⟩
    rw [erase_rotate_succ, slot_eq_some hv]
    simp [hp, own]
  | fuel + 1, f :: c, t, m, z, T', hz, hN, hv, hp, hr, h => by
    have hz' := (ZOK_cons f c t).1 hz
    have hne := own_ne_NONE hz hN
    have hzr : ¬ z = m.root_slot := fun e => by simpa using hr e
    rw [erase_rotate_succ, slot_eq_some hv]
    simp only [hzr, if_false, Option.some_bind, hp, own_cons, hne]
    rw [eraseLoop] at h
    cases hs : eraseStep (f.fill t) with
    | none => simp [hs] at h
    | some p =>
      obtain ⟨og, t2⟩ := p
      have h2 : eraseLoop fuel (og.toList ++ c) t2 = some T' := by
        cases og <;> simpa [hs] using h
      obtain ⟨m1, e1, s1, l1, n1⟩ := erase_body_zip hz' hs
      rw [fill_lnk] at e1 l1
      obtain ⟨v2, p2⟩ := ZOK_root s1.1 n1
      have hN1 : ¬ valid m1 NONE := by
        intro hx; apply hN; unfold valid at *; rw [← s1.2.1.2.2.2.2]; exact hx
      obtain ⟨m2, e2, s2⟩ := erase_rotate_zip fuel _ t2 m1 (t2.lnk 0) T' s1.1 hN1 v2 p2
        (fun e => (root_slot_eq_iff s1.1 n1).1 e) h2
      rw [l1] at e2
      refine ⟨m2, by rw [e1, Option.some_bind, e2], ?_⟩
      exact (Step_src (zip_perm f c t).symm s1).strans s2

/-! ## The unlinking of the erased node on the held tree -/

theorem RepC_setlink {m m' : sdmap_heap} {f : Frame} {c : List Frame} {x x' : Nat}
    (hC : RepC m (f :: c) x) (hnd : (cidx (f :: c)).Nodup)
    (hv : ∀ j, valid m j → valid m' j) (hr : m'.root_slot = m.root_slot)
    (hf : get m' f.i = if f.isL then { get m f.i with left := x' }
      else { get m f.i with right := x' })
    (hrest : ∀ j ∈ cidx (f :: c), j ≠ f.i → get m' j = get m j) :
    RepC m' (f :: c) x' := by
  cases f with
  | L g kg vg hg r =>
    obtain ⟨hvg, hG, hRr, hC2⟩ := hC
    simp only [cidx, Frame.idx, List.cons_append, List.nodup_cons, List.mem_append, not_or]
      at hnd
    obtain ⟨⟨gr, gc⟩, hrest2⟩ := hnd
    simp only [Frame.i_L, Frame.isL, if_true] at hf hrest
    refine ⟨hv _ hvg, ?_, ?_, ?_⟩
    · rw [hf, hG]
    · exact Rep_congr hv r g (fun j hj => hrest j (by simp [cidx, Frame.idx, hj])
        (fun e => gr (e ▸ hj))) hRr
    · exact RepC_congr hv hr c g (fun j hj => hrest j (by simp [cidx, Frame.idx, hj])
        (fun e => gc (e ▸ hj))) hC2
  | R l g kg vg hg =>
    obtain ⟨hvg, hG, hRl, hC2⟩ := hC
    simp only [cidx, Frame.idx, List.cons_append, List.nodup_cons, List.mem_append, not_or]
      at hnd
    obtain ⟨⟨gr, gc⟩, hrest2⟩ := hnd
    simp only [Frame.i_R, Frame.isL, Bool.false_eq_true, if_false] at hf hrest
    refine ⟨hv _ hvg, ?_, ?_, ?_⟩
    · rw [hf, hG]
    · exact Rep_congr hv l g (fun j hj => hrest j (by simp [cidx, Frame.idx, hj])
        (fun e => gr (e ▸ hj))) hRl
    · exact RepC_congr hv hr c g (fun j hj => hrest j (by simp [cidx, Frame.idx, hj])
        (fun e => gc (e ▸ hj))) hC2

/-- The stores that put the subtree `t`, held below some other slot, into the
open place of a path. -/
theorem relink_zip {m : sdmap_heap} {f : Frame} {c : List Frame} {t : Tree} {x o : Nat}
    {p : Prop} [Decidable p]
    (hC : RepC m (f :: c) x) (hR : Rep m t o) (hnd : (t.idx ++ cidx (f :: c)).Nodup)
    (hp : p ↔ f.isL = true) :
    ∃ m', ((if p then store m f.i (fun s => { s with left := t.lnk f.i })
            else store m f.i (fun s => { s with right := t.lnk f.i })).bind
          fun m1 => if t.lnk f.i = f.i then some m1
            else store m1 (t.lnk f.i) (fun s => { s with parent := f.i })) = some m' ∧
      ZOK m' (f :: c) t ∧ SameHdr m m' ∧ m'.root_slot = m.root_slot ∧
      (∀ j, j ≠ f.i → j ≠ t.lnk f.i → get m' j = get m j) := by
  obtain ⟨ndt, ndc, hdis⟩ := List.nodup_append.1 hnd
  have hfi : f.i ∈ cidx (f :: c) := own_mem_cidx (f :: c) (by simp)
  have hvf : valid m f.i := RepC_valid_of_mem _ _ hC _ hfi
  have hft : f.i ∉ t.idx := fun hx => hdis hx hfi
  obtain ⟨m1, e1, d1, r1, v1, g1⟩ : ∃ m1,
      (if p then store m f.i (fun s => { s with left := t.lnk f.i })
        else store m f.i (fun s => { s with right := t.lnk f.i })) = some m1 ∧
      SameHdr m m1 ∧ m1.root_slot = m.root_slot ∧ (∀ j, valid m1 j ↔ valid m j) ∧
      (∀ j, get m1 j = if j = f.i then (if f.isL then { get m f.i with left := t.lnk f.i }
        else { get m f.i with right := t.lnk f.i }) else get m j) := by
    by_cases hL : f.isL = true
    · rw [if_pos (hp.2 hL)]
      simp only [hL, if_true]
      exact store_spec _ hvf
    · rw [if_neg (fun h => hL (hp.1 h))]
      simp only [hL, if_false]
      exact store_spec _ hvf
  rw [e1, Option.some_bind]
  have hC1 : RepC m1 (f :: c) (t.lnk f.i) :=
    RepC_setlink hC ndc (fun j hj => (v1 j).2 hj) r1 (by rw [g1, if_pos rfl])
      (fun j _ hj => by rw [g1, if_neg hj])
  cases t with
  | nil =>
    simp only [lnk_nil, if_true]
    refine ⟨m1, rfl, ⟨⟨hC1, trivial⟩, hnd⟩, d1, r1, fun j hj _ => by rw [g1, if_neg hj]⟩
  | node l i k v h r =>
    have hif : i ≠ f.i := fun e => hft (by rw [← e]; simp [Tree.idx])
    simp only [lnk_node, hif, if_false] at hC1 ⊢
    have hvi : valid m1 i := (v1 i).2 hR.1
    obtain ⟨m2, e2, d2, r2, v2, g2⟩ := store_spec (fun s => { s with parent := f.i }) hvi
    refine ⟨m2, e2, ⟨⟨?_, ?_⟩, hnd⟩, d1.htrans d2, r2.trans r1, ?_⟩
    · refine RepC_congr (fun j hj => (v2 j).2 hj) r2 _ _ (fun j hj => ?_) hC1
      rw [g2, if_neg (fun e => hdis (by rw [← e]; simp [Tree.idx]) hj)]
    · have hR1 : Rep m1 (.node l i k v h r) o :=
        Rep_congr (fun j hj => (v1 j).2 hj) _ _ (fun j hj => by
          rw [g1, if_neg (fun (e : j = f.i) => hft (e ▸ hj))]) hR
      refine Rep_reparent (fun j hj => (v2 j).2 hj) ndt ?_ ?_ hR1
      · intro l' i' k' v' h' r' e
        cases e
        rw [g2, if_pos rfl]; rfl
      · intro j _ hj
        simp only [lnk_node] at hj
        rw [g2, if_neg hj]
    · intro j h1 h2
      rw [g2, if_neg h2, g1, if_neg h1]

theorem splitMin_append : ∀ (t : Tree) (c : List Frame),
    splitMin c t = ((splitMin [] t).1 ++ c, (splitMin [] t).2)
  | .nil, c => by simp [splitMin]
  | .node .nil i k v h r, c => by simp [splitMin]
  | .node (.node ll li lk lv lh lr) i k v h r, c => by
    rw [splitMin, splitMin_append _ (_ :: c), splitMin, splitMin_append _ [_]]
    simp

theorem splitMin_spec : ∀ (t : Tree) (c : List Frame), t ≠ .nil →
    ∃ si sk sv sh sr, (splitMin c t).2 = .node .nil si sk sv sh sr ∧
      plug (splitMin c t).1 (splitMin c t).2 = plug c t
  | .nil, _, h => absurd rfl h
  | .node .nil i k v h r, c, _ => ⟨i, k, v, h, r, rfl, rfl⟩
  | .node (.node ll li lk lv lh lr) i k v h r, c, _ => by
    obtain ⟨si, sk, sv, sh, sr, e1, e2⟩ := splitMin_spec (.node ll li lk lv lh lr)
      (.L i k v h r :: c) (by simp)
    exact ⟨si, sk, sv, sh, sr, by rw [splitMin]; exact e1, by rw [splitMin, e2]; rfl⟩

theorem ZOK_plug {m : sdmap_heap} : ∀ (c1 c : List Frame) (t : Tree),
    ZOK m (c1 ++ c) t ↔ ZOK m c (plug c1 t)
  | [], c, t => by simp [plug]
  | f :: c1, c, t => by
    rw [List.cons_append, ZOK_cons, ZOK_plug c1 c (f.fill t)]; rfl

theorem get_min_zip : ∀ (t : Tree) (c : List Frame) (m : sdmap_heap), ZOK m c t → t ≠ .nil →
    ∀ fuel, t.depth ≤ fuel →
    detail_sdmap_get_min_in_subtree fuel m (t.lnk 0) = some ((splitMin c t).2.lnk 0)
  | .nil, _, _, _, ht, _, _ => absurd rfl ht
  | .node l i k v h r, c, m, hz, _, fuel, hf => by
    obtain ⟨hvi, hk, hl, hr, hln, hrn, hzl, hzr⟩ := node_facts hz
    obtain ⟨n, rfl⟩ : ∃ n, fuel = n + 1 := ⟨fuel - 1, by simp [Tree.depth] at hf; omega⟩
    simp only [Tree.depth] at hf
    rw [detail_sdmap_get_min_in_subtree, lnk_node, slot_eq_some hvi]
    simp only [hl]
    cases l with
    | nil => simp [splitMin]
    | node ll li lk lv lh lr =>
      have : ¬ li = i := fun e => by simpa using hln.1 e
      simp only [lnk_node, this, if_false, splitMin]
      exact get_min_zip _ _ m hzl (by simp) n (by simp [Tree.depth] at hf ⊢; omega)

theorem setkv_zip {m : sdmap_heap} {c : List Frame} {l r : Tree} {i : Nat} {k v h k' v' : Int}
    (hz : ZOK m c (.node l i k v h r)) :
    ∃ m1, store m i (fun s => { s with key := k', value := v' }) = some m1 ∧
      ZOK m1 c (.node l i k' v' h r) ∧ SameHdr m m1 ∧ m1.root_slot = m.root_slot ∧
      (∀ j, j ≠ i → get m1 j = get m j) ∧ (∀ j, valid m1 j ↔ valid m j) := by
  obtain ⟨hndZ, hndl, hndr, hil, hir, hlr⟩ := node_idx_facts hz.2
  obtain ⟨⟨hC, hvi, hG, hRl, hRr⟩, hnd⟩ := hz
  obtain ⟨m1, e1, d1, r1, v1, g1⟩ := store_spec (fun s => { s with key := k', value := v' }) hvi
  have hv : ∀ j, valid m j → valid m1 j := fun j hj => (v1 j).2 hj
  have hic : i ∉ cidx c := fun hx =>
    (List.nodup_append.1 hnd).2.2 (by simp [Tree.idx]) hx
  refine ⟨m1, e1, ⟨⟨?_, hv _ hvi, ?_, ?_, ?_⟩, hnd⟩, d1, r1,
    fun j hj => by rw [g1, if_neg hj], v1⟩
  · exact RepC_congr hv r1 c _ (fun j hj => by
      rw [g1, if_neg (fun (e : j = i) => hic (e ▸ hj))]) hC
  · rw [g1, if_pos rfl, hG]
  · exact Rep_congr hv l i (fun j hj => by
      rw [g1, if_neg (fun (e : j = i) => hil (e ▸ hj))]) hRl
  · exact Rep_congr hv r i (fun j hj => by
      rw [g1, if_neg (fun (e : j = i) => hir (e ▸ hj))]) hRr

theorem isL_left {m : sdmap_heap} {f : Frame} {c : List Frame} {t : Tree} {i : Nat}
    (hz : ZOK m (f :: c) t) (hi : t.lnk f.i = i) (hne : i ≠ f.i) (hit : i ∈ t.idx) :
    (get m f.i).left = i ↔ f.isL = true := by
  obtain ⟨⟨hC, -⟩, hnd⟩ := hz
  cases f with
  | L g kg vg hg r =>
    obtain ⟨-, hG, -, -⟩ := hC
    simp only [Frame.i_L, own_cons, Frame.isL] at *
    rw [hG]; simp [hi]
  | R l g kg vg hg =>
    obtain ⟨-, hG, -, -⟩ := hC
    simp only [Frame.i_R, own_cons, Frame.isL] at *
    rw [hG]
    simp only [Bool.false_eq_true, iff_false]
    apply lnk_ne_of_not_mem _ hne
    intro hx
    exact (List.nodup_append.1 hnd).2.2 hit (by simp [cidx, Frame.idx, hx])

theorem splice_zip {m : sdmap_heap} {f : Frame} {c : List Frame} {l r t : Tree} {i o : Nat}
    {k v h : Int} (hz : ZOK m (f :: c) (.node l i k v h r)) (hR : Rep m t o)
    (hperm : (i :: t.idx).Perm (Tree.node l i k v h r).idx) :
    ∃ m', ((if (get m f.i).left = i then store m f.i (fun s => { s with left := t.lnk f.i })
            else store m f.i (fun s => { s with right := t.lnk f.i })).bind
          fun m1 => if t.lnk f.i = f.i then some m1
            else store m1 (t.lnk f.i) (fun s => { s with parent := f.i })) = some m' ∧
      Unlinked m m' ((Tree.node l i k v h r).idx ++ cidx (f :: c)) (f :: c) t i := by
  have hnd' : ((i :: t.idx) ++ cidx (f :: c)).Nodup :=
    (List.Perm.append_right _ hperm).nodup_iff.2 hz.2
  have hnd : (t.idx ++ cidx (f :: c)).Nodup := by
    simp only [List.cons_append, List.nodup_cons] at hnd'; exact hnd'.2
  have hi : i ∉ t.idx ++ cidx (f :: c) := by
    simp only [List.cons_append, List.nodup_cons] at hnd'; exact hnd'.1
  have hfi : f.i ∈ cidx (f :: c) := own_mem_cidx (f :: c) (by simp)
  have hif : i ≠ f.i := fun e => hi (by rw [e]; exact List.mem_append_right _ hfi)
  obtain ⟨m', e, z, d, rs, g⟩ := relink_zip hz.1.1 hR hnd
    (isL_left hz rfl hif (by simp [Tree.idx]))
  have hgi : get m' i = get m i := by
    apply g i hif
    intro e2
    rcases lnk_mem_or t f.i with h1 | h1
    · exact hif (e2.trans h1)
    · exact hi (List.mem_append_left _ (e2 ▸ h1))
  refine ⟨m', e, z, d, ?_, ?_, (d.valid_iff i).2 hz.1.2.1, ?_, ?_⟩
  · intro j hj
    apply g j
    · intro e2; exact hj (by rw [e2]; exact List.mem_append_right _ hfi)
    · intro e2
      rcases lnk_mem_or t f.i with h1 | h1
      · exact hj (by rw [e2, h1]; exact List.mem_append_right _ hfi)
      · apply hj
        rw [e2]
        exact List.mem_append_left _ (hperm.subset (List.mem_cons_of_mem _ h1))
  · exact List.Perm.append_right _ hperm
  · rw [hgi, Rep_get hz.1.2]
  · rw [rs]
    intro e2
    apply hi
    rw [e2]
    exact List.mem_append_right _ (RepC_root_mem _ _ hz.1.1 (by simp))

/-- The unlinking of a root node with at most one child. -/
theorem unlink_root_zip {m : sdmap_heap} {l r t : Tree} {i : Nat} {k v h : Int}
    (hz : ZOK m [] (.node l i k v h r)) (hN : ¬ valid m NONE)
    (hperm : (i :: t.idx).Perm (Tree.node l i k v h r).idx) (ht : t = l ∨ t = r) :
    ∃ m', (if t.lnk NONE = NONE then some { m with root_slot := NONE }
        else store { m with root_slot := t.lnk NONE } (t.lnk NONE)
          (fun s => { s with parent := NONE })) = some m' ∧
      Unlinked m m' ((Tree.node l i k v h r).idx ++ cidx []) [] t i := by
  obtain ⟨hndZ, hndl, hndr, hil, hir, hlr⟩ := node_idx_facts hz.2
  have hnd' : (i :: t.idx).Nodup := hperm.nodup_iff.2 hndZ
  obtain ⟨hit, hndt⟩ := List.nodup_cons.1 hnd'
  have hRt : Rep m t i := by
    rcases ht with e | e
    · rw [e]; exact hz.1.2.2.2.1
    · rw [e]; exact hz.1.2.2.2.2
  have hvi : valid m i := hz.1.2.1
  have hiN : i ≠ NONE := fun e => hN (e ▸ hvi)
  have hg0 : ∀ (x j : Nat), get { m with root_slot := x } j = get m j := fun _ _ => rfl
  have hv0 : ∀ (x j : Nat), valid { m with root_slot := x } j ↔ valid m j := fun _ _ => Iff.rfl
  cases t with
  | nil =>
    simp only [lnk_nil, if_true]
    refine ⟨_, rfl, ⟨⟨rfl, trivial⟩, by simp [Tree.idx, cidx]⟩, ⟨rfl, rfl, rfl, rfl, rfl⟩,
      fun j _ => rfl, by simpa [cidx] using hperm, hvi, ?_, hiN⟩
    rw [hg0, Rep_get hz.1.2]
  | node tl ti tk tv th tr =>
    have hvt : valid m ti := hRt.1
    have htN : ti ≠ NONE := fun e => hN (e ▸ hvt)
    have hti : ti ≠ i := fun e => hit (by rw [← e]; simp [Tree.idx])
    simp only [lnk_node, htN, if_false]
    obtain ⟨m', e, d, rs, vv, g⟩ := store_spec (m := { m with root_slot := ti })
      (fun s => { s with parent := NONE }) hvt
    refine ⟨m', e, ⟨⟨rs, ?_⟩, by simpa [cidx] using hndt⟩, ?_, ?_,
      by simpa [cidx] using hperm, (vv i).2 hvi, ?_, ?_⟩
    · refine Rep_reparent (m := m) (fun j hj => (vv j).2 hj) hndt ?_ ?_ hRt
      · intro l' i' k' v' h' r' e2
        cases e2
        rw [g, if_pos rfl]; rfl
      · intro j _ hj
        simp only [lnk_node] at hj
        rw [g, if_neg hj]; rfl
    · obtain ⟨d1, d2, d3, d4, d5⟩ := d
      exact ⟨d1, d2, d3, d4, d5⟩
    · intro j hj
      rw [g, if_neg (fun (e2 : j = ti) => hj (by
        rw [e2]; exact List.mem_append_left _ (hperm.subset (by simp [Tree.idx])))), hg0]
    · rw [g, if_neg (Ne.symm hti), hg0, Rep_get hz.1.2]
    · rw [rs]; exact Ne.symm hti

set_option maxHeartbeats 1000000 in
/-- The unlinking of a node with at most one child. -/
theorem unlink_one_zip {m : sdmap_heap} {c : List Frame} {l r t : Tree} {i : Nat} {k v h : Int}
    (hz : ZOK m c (.node l i k v h r)) (hN : ¬ valid m NONE)
    (ht : (l = .nil ∧ t = r) ∨ (r = .nil ∧ l ≠ .nil ∧ t = l)) (fuel : Nat) :
    ∃ m', detail_sdmap_erase_unlink fuel m i = some (m', i) ∧
      Unlinked m m' ((Tree.node l i k v h r).idx ++ cidx c) c t i := by
  obtain ⟨hvi, hk, hl, hr, hln, hrn, hzl, hzr⟩ := node_facts hz
  have hG := Rep_get hz.1.2
  have hperm : (i :: t.idx).Perm (Tree.node l i k v h r).idx := by
    rcases ht with ⟨e1, e2⟩ | ⟨e1, -, e2⟩
    · subst e1 e2; simp [Tree.idx]
    · subst e1 e2; simp only [Tree.idx]
      have := (@List.perm_middle _ i t.idx []).symm
      simpa using this
  have htlr : t = l ∨ t = r := by
    rcases ht with ⟨-, e2⟩ | ⟨-, -, e2⟩
    · exact Or.inr e2
    · exact Or.inl e2
  have hRt : Rep m t i := by
    rcases htlr with e | e
    · rw [e]; exact hz.1.2.2.2.1
    · rw [e]; exact hz.1.2.2.2.2
  have hc1 : ¬ ((get m i).left ≠ i ∧ (get m i).right ≠ i) := by
    rw [hl, hr]
    rcases ht with ⟨e1, -⟩ | ⟨e1, -, -⟩
    · subst e1; simp
    · subst e1; simp
  unfold detail_sdmap_erase_unlink
  simp only [slot_eq_some hvi, Option.some_bind, Option.bind_eq_bind, hc1, if_false]
  cases c with
  | nil =>
    have hp : (get m i).parent = NONE := by rw [hG]; rfl
    simp only [hp, if_true]
    obtain ⟨m', e, hU⟩ := unlink_root_zip hz hN hperm htlr
    refine ⟨m', ?_, hU⟩
    rw [hl, hr]
    rcases ht with ⟨e1, e2⟩ | ⟨e1, e3, e2⟩
    · subst e1 e2
      simp only [lnk_nil, ne_eq, not_true_eq_false, if_false]
      cases t with
      | nil => simpa using e
      | node tl ti tk tv th tr =>
        have hti : ¬ ti = i := fun e4 => by simpa using hrn.1 e4
        have hvt : valid m ti := hRt.1
        have htN : ti ≠ NONE := fun e => hN (e ▸ hvt)
        simp only [lnk_node, htN, if_false] at e
        simp only [lnk_node, ne_eq, hti, not_false_eq_true, if_true, e, Option.some_bind]
    · subst e1 e2
      cases t with
      | nil => exact absurd rfl e3
      | node tl ti tk tv th tr =>
        have hti : ¬ ti = i := fun e4 => by simpa using hln.1 e4
        have hvt : valid m ti := hRt.1
        have htN : ti ≠ NONE := fun e => hN (e ▸ hvt)
        simp only [lnk_node, htN, if_false] at e
        simp only [lnk_node, ne_eq, hti, not_false_eq_true, if_true, e, Option.some_bind]
  | cons f c =>
    have hp : (get m i).parent = f.i := by rw [hG]; rfl
    have hne := own_ne_NONE hz hN
    simp only [hp, hne, if_false]
    have hvf : valid m f.i := by
      have := (ZOK_root ((ZOK_cons f c _).1 hz) (fill_ne_nil f _)).1
      rwa [fill_lnk] at this
    obtain ⟨m', e, hU⟩ := splice_zip hz hRt hperm
    refine ⟨m', ?_, hU⟩
    simp only [slot_eq_some hvf, Option.some_bind]
    rw [hl, hr]
    have hif : i ≠ f.i := by
      intro e4
      have := hz.2
      rw [e4] at this
      have h1 : f.i ∈ cidx (f :: c) := own_mem_cidx (f :: c) (by simp)
      exact (List.nodup_append.1 this).2.2 (by simp [Tree.idx]) h1
    rcases ht with ⟨e1, e2⟩ | ⟨e1, e3, e2⟩
    · subst e1 e2
      simp only [lnk_nil, ne_eq, not_true_eq_false, if_false]
      cases t with
      | nil =>
        simp only [lnk_nil, if_true] at e ⊢
        split_ifs at e ⊢ <;> simp_all
      | node tl ti tk tv th tr =>
        have hti : ¬ ti = i := fun e4 => by simpa using hrn.1 e4
        have htf : ¬ ti = f.i := by
          intro e4
          have := hz.2
          have h1 : f.i ∈ cidx (f :: c) := own_mem_cidx (f :: c) (by simp)
          exact (List.nodup_append.1 this).2.2 (by rw [← e4]; simp [Tree.idx]) h1
        simp only [lnk_node, htf, if_false] at e
        simp only [lnk_node, ne_eq, hti, not_false_eq_true, if_true]
        split_ifs at e ⊢ <;>
          (simp only [Option.bind_eq_some] at e ⊢
           obtain ⟨a, ha, hb⟩ := e
           exact ⟨a, ha, by simp [hb]⟩)
    · subst e1 e2
      cases t with
      | nil => exact absurd rfl e3
      | node tl ti tk tv th tr =>
        have hti : ¬ ti = i := fun e4 => by simpa using hln.1 e4
        have htf : ¬ ti = f.i := by
          intro e4
          have := hz.2
          have h1 : f.i ∈ cidx (f :: c) := own_mem_cidx (f :: c) (by simp)
          exact (List.nodup_append.1 this).2.2 (by rw [← e4]; simp [Tree.idx]) h1
        simp only [lnk_node, htf, if_false] at e
        simp only [lnk_node, ne_eq, hti, not_false_eq_true, if_true]
        split_ifs at e ⊢ <;>
          (simp only [Option.bind_eq_some] at e ⊢
           obtain ⟨a, ha, hb⟩ := e
           exact ⟨a, ha, by simp [hb]⟩)

theorem plug_zip_perm : ∀ (c1 c : List Frame) (t : Tree),
    (t.idx ++ cidx (c1 ++ c)).Perm ((plug c1 t).idx ++ cidx c)
  | [], c, t => by simp [plug]
  | f :: c1, c, t => by
    rw [List.cons_append, plug]
    exact (zip_perm f (c1 ++ c) t).trans (plug_zip_perm c1 c (f.fill t))

theorem Unlinked_pre {m m1 m' : sdmap_heap} {s s' : List Nat} {C : List Frame} {t : Tree}
    {z : Nat} (hd : SameHdr m m1) (ho : SameOut m m1 s) (hp : s'.Perm s)
    (h : Unlinked m1 m' s' C t z) : Unlinked m m' s C t z := by
  obtain ⟨a1, a2, a3, a4, a5, a6, a7⟩ := h
  exact ⟨a1, hd.htrans a2, ho.otrans (SameOut_perm a3 (fun j hj => hp.subset hj)),
    a4.trans hp, a5, a6, a7⟩

set_option maxHeartbeats 2000000 in
/-- The unlinking of a node with two children. -/
theorem unlink_two_zip {m : sdmap_heap} {c cr : List Frame} {l r sr : Tree} {i si : Nat}
    {k v h sk sv sh : Int}
    (hz : ZOK m c (.node l i k v h r)) (hl0 : l ≠ .nil) (hr0 : r ≠ .nil)
    (hs : splitMin [] r = (cr, .node .nil si sk sv sh sr)) (fuel : Nat) (hf : r.depth ≤ fuel) :
    ∃ m', detail_sdmap_erase_unlink fuel m i = some (m', si) ∧
      Unlinked m m' ((Tree.node l i k v h r).idx ++ cidx c) (cr ++ .R l i sk sv h :: c) sr si := by
  obtain ⟨hvi, hk, hl, hr, hln, hrn, hzl, hzr⟩ := node_facts hz
  have hc1 : (get m i).left ≠ i ∧ (get m i).right ≠ i := by
    rw [hl, hr]; exact ⟨fun e => hl0 (hln.1 e), fun e => hr0 (hrn.1 e)⟩
  -- the successor
  have hmin := get_min_zip r _ m hzr hr0 fuel hf
  rw [splitMin_append, hs] at hmin
  simp only [lnk_node] at hmin
  obtain ⟨_, _, _, _, _, -, hplug⟩ := splitMin_spec r [] hr0
  rw [hs] at hplug
  simp only [plug] at hplug
  have hzS : ZOK m (cr ++ .R l i k v h :: c) (.node .nil si sk sv sh sr) := by
    rw [ZOK_plug, hplug]; exact hzr
  have hGS := Rep_get hzS.1.2
  have hvS : valid m si := hzS.1.2.1
  -- the copy of key and value
  obtain ⟨m1, e1, z1, d1, r1, g1, v1⟩ := @setkv_zip _ _ _ _ _ _ _ _ sk sv hz
  have hzS1 : ZOK m1 (cr ++ .R l i sk sv h :: c) (.node .nil si sk sv sh sr) := by
    rw [ZOK_plug, hplug]; exact (ZOK_cons (.R l i sk sv h) c r).2 z1
  have hGS1 := Rep_get hzS1.1.2
  have hvS1 : valid m1 si := hzS1.1.2.1
  -- the path is not empty
  obtain ⟨fS, C', hC⟩ : ∃ fS C', cr ++ .R l i sk sv h :: c = fS :: C' := by
    cases cr with
    | nil => exact ⟨_, _, rfl⟩
    | cons a b => exact ⟨_, _, rfl⟩
  rw [hC] at hzS1 hGS1
  have hvf : valid m1 fS.i := by
    have := (ZOK_root ((ZOK_cons fS C' _).1 hzS1) (fill_ne_nil fS _)).1
    rwa [fill_lnk] at this
  obtain ⟨m', e, hU⟩ := splice_zip (t := sr) hzS1 hzS1.1.2.2.2.2 (by simp [Tree.idx])
  refine ⟨m', ?_, ?_⟩
  · have hri : r.lnk i = r.lnk 0 := by
      cases r with
      | nil => exact absurd rfl hr0
      | node _ _ _ _ _ _ => rfl
    rw [← hri, ← hr] at hmin
    unfold detail_sdmap_erase_unlink
    simp only [slot_eq_some hvi, Option.some_bind, Option.bind_eq_bind, hc1, and_self, if_true,
      ne_eq, not_false_eq_true, hmin, slot_eq_some hvS, hGS, e1, slot_eq_some hvS1, hGS1,
      own_cons, slot_eq_some hvf]
    cases sr with
    | nil =>
      simp only [lnk_nil, not_true_eq_false, if_false, if_true] at e ⊢
      split_ifs at e ⊢ <;> simp_all
    | node tl ti tk tv th tr =>
      obtain ⟨_, _, _, _, hti, _⟩ := node_idx_facts hzS1.2
      have hti' : ¬ ti = si := fun e4 => hti (by rw [← e4]; simp [Tree.idx])
      have htf : ¬ ti = fS.i := by
        intro e4
        have h1 : fS.i ∈ cidx (fS :: C') := own_mem_cidx (fS :: C') (by simp)
        exact (List.nodup_append.1 hzS1.2).2.2 (by rw [← e4]; simp [Tree.idx]) h1
      simp only [lnk_node, htf, if_false] at e
      simp only [lnk_node, hti', not_false_eq_true, if_true]
      split_ifs at e ⊢ <;>
        (simp only [Option.bind_eq_some] at e ⊢
         obtain ⟨a, ha, hb⟩ := e
         exact ⟨a, ha, by simp [hb]⟩)
  · rw [← hC] at hU
    refine Unlinked_pre d1 (fun j hj => g1 j (fun e4 => hj (by rw [e4]; simp [Tree.idx]))) ?_ hU
    have p1 := plug_zip_perm cr (.R l i sk sv h :: c) (.node .nil si sk sv sh sr)
    rw [hplug] at p1
    exact p1.trans (zip_perm (.R l i sk sv h) c r)

theorem erase_unlink_zip {m : sdmap_heap} {c C : List Frame} {N t : Tree} {z : Nat}
    (hz : ZOK m c N) (hN : ¬ valid m NONE) (h : unlinkAt c N = some (C, t, z))
    (fuel : Nat) (hf : N.depth ≤ fuel) :
    ∃ m', detail_sdmap_erase_unlink fuel m (N.lnk 0) = some (m', z) ∧
      Unlinked m m' (N.idx ++ cidx c) C t z := by
  cases N with
  | nil => simp [unlinkAt] at h
  | node l i k v hh r =>
    cases l with
    | nil =>
      simp only [unlinkAt, Option.some.injEq, Prod.mk.injEq] at h
      obtain ⟨rfl, rfl, rfl⟩ := h
      exact unlink_one_zip hz hN (Or.inl ⟨rfl, rfl⟩) fuel
    | node ll li lk lv lh lr =>
      cases r with
      | nil =>
        simp only [unlinkAt, Option.some.injEq, Prod.mk.injEq] at h
        obtain ⟨rfl, rfl, rfl⟩ := h
        exact unlink_one_zip hz hN (Or.inr ⟨rfl, by simp, rfl⟩) fuel
      | node rl ri rk rv rh rr =>
        simp only [unlinkAt] at h
        obtain ⟨si, sk, sv, sh, sr, e1, -⟩ := splitMin_spec (.node rl ri rk rv rh rr) [] (by simp)
        rcases hs : splitMin [] (.node rl ri rk rv rh rr) with ⟨cr, S⟩
        rw [hs] at e1 h
        simp only at e1
        subst e1
        simp only [Option.some.injEq, Prod.mk.injEq] at h
        obtain ⟨rfl, rfl, rfl⟩ := h
        exact unlink_two_zip hz (by simp) (by simp) hs fuel (by
          simp only [Tree.depth] at hf ⊢; omega)

/-! ## The release of the erased slot -/

set_option maxHeartbeats 1000000 in
theorem release_spec {m : sdmap_heap} {z : Nat} {fl : List Nat}
    (hF : FreeL m m.empty_slot fl) (hnd : fl.Nodup) (hz : z ∉ fl) (hv : valid m z)
    (hzN : z ≠ NONE) :
    ∃ m' fl', detail_sdmap_erase_release m z = some m' ∧ FreeL m' m'.empty_slot fl' ∧
      fl'.Perm (z :: fl) ∧ m'.count = m.count - 1 ∧ m'.slot_count = m.slot_count ∧
      m'.capacity = m.capacity ∧ m'.root_slot = m.root_slot ∧
      m'.slots.length = m.slots.length ∧ (∀ j, j ≠ z → j ∉ fl → get m' j = get m j) := by
  unfold detail_sdmap_erase_release
  by_cases hc : m.empty_slot ≠ NONE ∧ z > m.empty_slot
  · rw [if_pos hc]
    cases fl with
    | nil => exact absurd hF hc.1
    | cons e fl0 =>
      obtain ⟨he, heN, hve, hhe, hF0⟩ := hF
      obtain ⟨he0, hnd0⟩ := List.nodup_cons.1 hnd
      have hze : z ≠ e := fun e1 => hz (by simp [e1])
      have hz0 : z ∉ fl0 := fun hx => hz (by simp [hx])
      obtain ⟨m1, e1, d1, r1, v1, g1⟩ := store_spec (fun s => { s with right := (get m e).right }) hv
      obtain ⟨m2, e2, d2, r2, v2, g2⟩ := store_spec (fun s => { s with height := -1 })
        ((v1 z).2 hv)
      obtain ⟨m3, e3, d3, r3, v3, g3⟩ := store_spec (fun s => { s with right := z })
        ((v2 e).2 ((v1 e).2 hve))
      have hd := (d1.htrans d2).htrans d3
      obtain ⟨h1, h2, h3, h4, h5⟩ := hd
      have hv' : ∀ j, valid m j → valid ({ m3 with count := m3.count - 1 }) j :=
        fun j hj => (v3 j).2 ((v2 j).2 ((v1 j).2 hj))
      have hg' : ∀ j, get ({ m3 with count := m3.count - 1 }) j = get m3 j := fun _ => rfl
      refine ⟨{ m3 with count := m3.count - 1 }, e :: z :: fl0, ?_, ?_, List.Perm.swap _ _ _,
        ?_, h3, h1, ?_, h5, ?_⟩
      · rw [he, slot_eq_some hve]
        simp only [Option.some_bind, Option.bind_eq_bind, e1, e2]
        have : m2.empty_slot = e := by rw [d2.2.2.2.1, d1.2.2.2.1, he]
        rw [this, e3]; rfl
      · refine ⟨by show m3.empty_slot = e; rw [h4, he], heN, hv' _ hve, ?_, ?_, hzN, hv' _ hv,
          ?_, ?_⟩
        · rw [hg', g3, if_pos rfl]; simp only
          rw [g2, if_neg (Ne.symm hze), g1, if_neg (Ne.symm hze)]; exact hhe
        · rw [hg', g3, if_pos rfl]
        · rw [hg', g3, if_neg hze, g2, if_pos rfl]; simp
        · rw [hg', g3, if_neg hze, g2, if_pos rfl]; simp only
          rw [g1, if_pos rfl]; simp only
          refine FreeL_congr hv' fl0 _ (fun j hj => ?_) hF0
          rw [hg', g3, if_neg (fun (e4 : j = e) => he0 (e4 ▸ hj)), g2,
            if_neg (fun (e4 : j = z) => hz0 (e4 ▸ hj)), g1,
            if_neg (fun (e4 : j = z) => hz0 (e4 ▸ hj))]
      · show m3.count - 1 = m.count - 1
        rw [h2]
      · show m3.root_slot = m.root_slot
        rw [r3, r2, r1]
      · intro j hj1 hj2
        have hje : j ≠ e := fun e4 => hj2 (by simp [e4])
        rw [hg', g3, if_neg hje, g2, if_neg hj1, g1, if_neg hj1]
  · rw [if_neg hc]
    obtain ⟨m1, e1, d1, r1, v1, g1⟩ := store_spec (fun s => { s with right := m.empty_slot }) hv
    obtain ⟨m2, e2, d2, r2, v2, g2⟩ := store_spec (fun s => { s with height := -1 })
      ((v1 z).2 hv)
    obtain ⟨h1, h2, h3, h4, h5⟩ := d1.htrans d2
    have hv' : ∀ j, valid m j → valid ({ m2 with empty_slot := z, count := m2.count - 1 }) j :=
      fun j hj => (v2 j).2 ((v1 j).2 hj)
    have hg' : ∀ j, get ({ m2 with empty_slot := z, count := m2.count - 1 }) j = get m2 j :=
      fun _ => rfl
    refine ⟨{ m2 with empty_slot := z, count := m2.count - 1 }, z :: fl, ?_, ?_,
      List.Perm.refl _, ?_, h3, h1, ?_, h5, ?_⟩
    · simp only [Option.some_bind, Option.bind_eq_bind, e1, e2]
    · refine ⟨rfl, hzN, hv' _ hv, ?_, ?_⟩
      · rw [hg', g2, if_pos rfl]; simp
      · rw [hg', g2, if_pos rfl]; simp only
        rw [g1, if_pos rfl]; simp only
        refine FreeL_congr hv' fl _ (fun j hj => ?_) hF
        rw [hg', g2, if_neg (fun (e4 : j = z) => hz (e4 ▸ hj)), g1,
          if_neg (fun (e4 : j = z) => hz (e4 ▸ hj))]
    · show m2.count - 1 = m.count - 1
      rw [h2]
    · show m2.root_slot = m.root_slot
      rw [r2, r1]
    · intro j hj1 _
      rw [hg', g2, if_neg hj1, g1, if_neg hj1]

/-! ## The rebalancing of an erase keeps the tree balanced -/

theorem CtxOld_of_Good : ∀ (c : List Frame) (oh : Int), CtxGood c oh → CtxOld c oh
  | [], _, _ => trivial
  | f :: c, oh, ⟨a, b, d, _, _, e⟩ => ⟨a, b, d, CtxOld_of_Good c _ e⟩

theorem EraInv_of_old {c : List Frame} {t : Tree} {oh : Int} (hE : Exact t) (hA : AVL t)
    (hC : CtxOld c oh) (hh : t.hgt = oh ∨ t.hgt = oh - 1) : EraInv c t := by
  cases c with
  | nil => exact ⟨hE, hA⟩
  | cons f c =>
    obtain ⟨a, b, d, e⟩ := hC
    refine ⟨hE, hA, a, b, by omega, by omega, 1 + max oh f.sib.hgt, e, ?_⟩
    omega

theorem plug_nodes_append (c1 : List Frame) : ∀ (c : List Frame) (t : Tree),
    plug (c ++ c1) t = plug c1 (plug c t)
  | [], t => rfl
  | f :: c, t => by simp only [List.cons_append, plug]; exact plug_nodes_append c1 c (f.fill t)

theorem eraseStep_nodes {Z t' : Tree} {og : Option Frame} (h : eraseStep Z = some (og, t')) :
    (plug og.toList t').nodes = Z.nodes := by
  cases Z with
  | nil => simp [eraseStep] at h
  | node l i k v hh r =>
    simp only [eraseStep] at h
    have hz1 : ∀ (og : Option Frame) (t' : Tree),
        some ((none : Option Frame), Tree.node l i k v (ch l r) r) = some (og, t') →
        (plug og.toList t').nodes = (Tree.node l i k v hh r).nodes := by
      intro og t' e
      simp only [Option.some.injEq, Prod.mk.injEq] at e
      obtain ⟨rfl, rfl⟩ := e
      rfl
    split at h
    · exact hz1 _ _ h
    · split at h
      · exact hz1 _ _ h
      · split_ifs at h
        · split at h
          · next t2 hr1 =>
            split at h
            · next zsub q kq vq hq c hr2 =>
              simp only [Option.some.injEq, Prod.mk.injEq] at h
              obtain ⟨rfl, rfl⟩ := h
              have := rotL_nodes hr1
              rw [← recompute_nodes, hr2] at this
              simpa [plug, Frame.fill, Tree.nodes] using this
            · simp at h
          · simp at h
        · split at h
          · next r2 hr1 =>
            split at h
            · next zsub q kq vq hq ysub hr2 =>
              simp only [Option.some.injEq, Prod.mk.injEq] at h
              obtain ⟨rfl, rfl⟩ := h
              have h1 := rotR_nodes hr1
              have h2 := rotL_nodes hr2
              simp only [Tree.nodes] at h2
              simp only [Option.toList, plug, Frame.fill, Tree.nodes, recompute_nodes, h2, h1]
            · simp at h
          · simp at h
        · split at h
          · next l2 hr1 =>
            split at h
            · next ysub q kq vq hq zsub hr2 =>
              simp only [Option.some.injEq, Prod.mk.injEq] at h
              obtain ⟨rfl, rfl⟩ := h
              have h1 := rotL_nodes hr1
              have h2 := rotR_nodes hr2
              simp only [Tree.nodes] at h2
              simp only [Option.toList, plug, Frame.fill, Tree.nodes, recompute_nodes, h2, h1]
            · simp at h
          · simp at h
        · split at h
          · next t2 hr1 =>
            split at h
            · next a q kq vq hq zsub hr2 =>
              simp only [Option.some.injEq, Prod.mk.injEq] at h
              obtain ⟨rfl, rfl⟩ := h
              have := rotR_nodes hr1
              rw [← recompute_nodes, hr2] at this
              simpa [plug, Frame.fill, Tree.nodes] using this
            · simp at h
          · simp at h
        · exact hz1 _ _ h

theorem eraseLoop_nodes : ∀ (fuel : Nat) (c : List Frame) (t T' : Tree),
    eraseLoop fuel c t = some T' → T'.nodes = (plug c t).nodes
  | 0, _, _, _, h => by simp [eraseLoop] at h
  | _ + 1, [], t, T', h => by
    simp only [eraseLoop, Option.some.injEq] at h
    rw [← h]; rfl
  | fuel + 1, f :: c, t, T', h => by
    rw [eraseLoop] at h
    cases hs : eraseStep (f.fill t) with
    | none => simp [hs] at h
    | some p =>
      obtain ⟨og, t2⟩ := p
      have h2 : eraseLoop fuel (og.toList ++ c) t2 = some T' := by
        cases og <;> simpa [hs] using h
      rw [eraseLoop_nodes fuel _ t2 T' h2, plug_nodes_append]
      simp only [plug]
      exact plug_nodes_congr c _ _ (eraseStep_nodes hs)

theorem tallerSub_of_lt {l r : Tree} (hl : Exact l) (hr : Exact r) (h : l.hgt < r.hgt) :
    tallerSub l r = some (true, r) := by
  have gl := hgt_ge l
  cases r with
  | nil => simp only [Tree.hgt] at h; omega
  | node rl ri rk rv rh rr =>
    cases l with
    | nil => rfl
    | node ll li lk lv lh lr =>
      have e1 := hl.1
      have e2 := hr.1
      simp only [Tree.hgt] at h
      simp only [tallerSub]
      rw [if_pos (by omega)]

theorem tallerSub_of_gt {l r : Tree} (hl : Exact l) (hr : Exact r) (h : r.hgt < l.hgt) :
    tallerSub l r = some (false, l) := by
  have gr := hgt_ge r
  cases l with
  | nil => simp only [Tree.hgt] at h; omega
  | node ll li lk lv lh lr =>
    cases r with
    | nil => rfl
    | node rl ri rk rv rh rr =>
      have e1 := hl.1
      have e2 := hr.1
      simp only [Tree.hgt] at h
      simp only [tallerSub]
      rw [if_neg (by omega)]

theorem tc_isSome {t : Tree} (h : 1 ≤ t.hgt) : ∃ p, t.tc = some p := by
  cases t with
  | nil => simp [Tree.hgt] at h
  | node l i k v hh r =>
    cases l with
    | nil =>
      cases r with
      | nil => simp [Tree.hgt] at h
      | node _ _ _ _ _ _ => exact ⟨_, rfl⟩
    | node _ _ _ _ _ _ =>
      cases r with
      | nil => exact ⟨_, rfl⟩
      | node _ _ _ _ _ _ =>
        simp only [Tree.tc, tallerSub]
        split_ifs <;> exact ⟨_, rfl⟩

theorem balOf_Exact {l r : Tree} (hl : Exact l) (hr : Exact r) :
    balOf l r = r.hgt - l.hgt := by
  rw [balOf_sht, sht_of_Exact hl, sht_of_Exact hr]

theorem eraseStep_balanced {l r : Tree} (i : Nat) (k v h : Int) (hl : Exact l) (hr : Exact r)
    (hb : r.hgt - l.hgt ≤ 1 ∧ l.hgt - r.hgt ≤ 1) :
    eraseStep (.node l i k v h r) = some (none, .node l i k v (ch l r) r) := by
  have := balOf_Exact hl hr
  simp only [eraseStep]
  split
  · rfl
  · split
    · rfl
    · rw [if_neg (by omega), if_neg (by omega)]

set_option maxHeartbeats 1000000 in
/-- The pass at a node whose right subtree is 2 taller than the left one. -/
theorem eraseStep_right {t s : Tree} (i : Nat) (k v h : Int) (ht : Exact t) (hAt : AVL t)
    (hs : Exact s) (hAs : AVL s) (hd : s.hgt = t.hgt + 2) :
    ∃ g zsub, eraseStep (.node t i k v h s) = some (some g, zsub) ∧ Exact zsub ∧ AVL zsub ∧
      Exact g.sib ∧ AVL g.sib ∧ (g.sib.hgt - zsub.hgt ≤ 1 ∧ zsub.hgt - g.sib.hgt ≤ 1) ∧
      (1 + max zsub.hgt g.sib.hgt = 1 + s.hgt ∨ 1 + max zsub.hgt g.sib.hgt = s.hgt) := by
  have gt := hgt_ge t
  have hts := tallerSub_of_lt ht hs (by omega)
  obtain ⟨p, hp⟩ := tc_isSome (t := s) (by omega)
  have hbal := balOf_Exact ht hs
  cases s with
  | nil => simp only [Tree.hgt] at hd; omega
  | node sl y ky vy hy sr =>
    obtain ⟨ey, hsl, hsr⟩ := hs
    obtain ⟨by', hAl, hAr⟩ := hAs
    have gl := hgt_ge sl
    have gr := hgt_ge sr
    simp only [Tree.hgt] at hd hbal by' ey
    have hbc := balOf_Exact hsl hsr
    simp only [eraseStep, hts, hp, Tree.bal]
    rw [if_pos (by omega)]
    simp only [if_true]
    by_cases hc : balOf sl sr ≥ 0
    · rw [if_pos hc]
      simp only [rotL, recompute]
      have e1 : Exact (.node t i k v (ch t sl) sl) := Exact_mk i k v ht hsl
      refine ⟨_, _, rfl, e1, ?_, hsr, hAr, ?_, ?_⟩
      · exact ⟨by omega, hAt, hAl⟩
      · simp only [Frame.sib, Tree.hgt]; omega
      · simp only [Frame.sib, Tree.hgt]; omega
    · rw [if_neg hc]
      cases sl with
      | nil => simp only [Tree.hgt] at hbc; omega
      | node a x kx vx hx b =>
        obtain ⟨ex, ha, hb⟩ := hsl
        obtain ⟨bx, hAa, hAb⟩ := hAl
        have ga := hgt_ge a
        have gb := hgt_ge b
        simp only [Tree.hgt] at hd hbal by' ey hbc ex gl
        simp only [rotR, rotL, recompute]
        have e1 : Exact (.node t i k v (ch t a) a) := Exact_mk i k v ht ha
        have e2 : Exact (.node b y ky vy (ch b sr) sr) := Exact_mk y ky vy hb hsr
        refine ⟨_, _, rfl, e1, ?_, e2, ?_, ?_, ?_⟩
        · exact ⟨by omega, hAt, hAa⟩
        · exact ⟨by omega, hAb, hAr⟩
        · simp only [Frame.sib, Tree.hgt]; omega
        · simp only [Frame.sib, Tree.hgt]; omega

set_option maxHeartbeats 1000000 in
/-- The pass at a node whose left subtree is 2 taller than the right one. -/
theorem eraseStep_left {t s : Tree} (i : Nat) (k v h : Int) (ht : Exact t) (hAt : AVL t)
    (hs : Exact s) (hAs : AVL s) (hd : s.hgt = t.hgt + 2) :
    ∃ g zsub, eraseStep (.node s i k v h t) = some (some g, zsub) ∧ Exact zsub ∧ AVL zsub ∧
      Exact g.sib ∧ AVL g.sib ∧ (g.sib.hgt - zsub.hgt ≤ 1 ∧ zsub.hgt - g.sib.hgt ≤ 1) ∧
      (1 + max zsub.hgt g.sib.hgt = 1 + s.hgt ∨ 1 + max zsub.hgt g.sib.hgt = s.hgt) := by
  have gt := hgt_ge t
  have hts := tallerSub_of_gt hs ht (by omega)
  obtain ⟨p, hp⟩ := tc_isSome (t := s) (by omega)
  have hbal := balOf_Exact hs ht
  cases s with
  | nil => simp only [Tree.hgt] at hd; omega
  | node sl y ky vy hy sr =>
    obtain ⟨ey, hsl, hsr⟩ := hs
    obtain ⟨by', hAl, hAr⟩ := hAs
    have gl := hgt_ge sl
    have gr := hgt_ge sr
    simp only [Tree.hgt] at hd hbal by' ey
    have hbc := balOf_Exact hsl hsr
    simp only [eraseStep, hts, hp, Tree.bal]
    rw [if_neg (by omega), if_pos (by omega)]
    simp only [Bool.false_eq_true, if_false]
    by_cases hc : balOf sl sr > 0
    · rw [if_pos hc]
      cases sr with
      | nil => simp only [Tree.hgt] at hbc; omega
      | node a x kx vx hx b =>
        obtain ⟨ex, ha, hb⟩ := hsr
        obtain ⟨bx, hAa, hAb⟩ := hAr
        have ga := hgt_ge a
        have gb := hgt_ge b
        simp only [Tree.hgt] at hd hbal by' ey hbc ex gr
        simp only [rotR, rotL, recompute]
        have e1 : Exact (.node b i k v (ch b t) t) := Exact_mk i k v hb ht
        have e2 : Exact (.node sl y ky vy (ch sl a) a) := Exact_mk y ky vy hsl ha
        refine ⟨_, _, rfl, e1, ?_, e2, ?_, ?_, ?_⟩
        · exact ⟨by omega, hAb, hAt⟩
        · exact ⟨by omega, hAl, hAa⟩
        · simp only [Frame.sib, Tree.hgt]; omega
        · simp only [Frame.sib, Tree.hgt]; omega
    · rw [if_neg hc]
      simp only [rotR, recompute]
      have e1 : Exact (.node sr i k v (ch sr t) t) := Exact_mk i k v hsr ht
      refine ⟨_, _, rfl, e1, ?_, hsl, hAl, ?_, ?_⟩
      · exact ⟨by omega, hAr, hAt⟩
      · simp only [Frame.sib, Tree.hgt]; omega
      · simp only [Frame.sib, Tree.hgt]; omega

theorem eraseFuel_le (c : List Frame) (t : Tree) : eraseFuel c t ≤ 2 * c.length := by
  cases c with
  | nil => simp [eraseFuel]
  | cons f c => simp only [eraseFuel, List.length_cons]; split_ifs <;> omega

theorem eraseStep_good {f : Frame} {c : List Frame} {t : Tree} (h : EraInv (f :: c) t) :
    ∃ og t', eraseStep (f.fill t) = some (og, t') ∧ EraInv (og.toList ++ c) t' ∧
      eraseFuel (og.toList ++ c) t' < eraseFuel (f :: c) t := by
  obtain ⟨hE, hA, sE, sA, h2, h1, oh, hC, hoh⟩ := h
  by_cases hb : f.sib.hgt - t.hgt ≤ 1
  · have hfuel : eraseFuel c (recompute (f.fill t)) < eraseFuel (f :: c) t := by
      have := eraseFuel_le c (recompute (f.fill t))
      have e0 : eraseFuel (f :: c) t = 2 * c.length + 1 := if_pos hb
      rw [e0]; omega
    cases f with
    | L i k v hh s =>
      simp only [Frame.sib] at *
      refine ⟨none, _, eraseStep_balanced i k v hh hE sE ⟨hb, h1⟩, ?_, hfuel⟩
      refine EraInv_of_old (Exact_mk i k v hE sE) ⟨⟨h1, hb⟩, hA, sA⟩ hC ?_
      simp only [Tree.hgt]; omega
    | R s i k v hh =>
      simp only [Frame.sib] at *
      refine ⟨none, _, eraseStep_balanced i k v hh sE hE ⟨h1, hb⟩, ?_, hfuel⟩
      refine EraInv_of_old (Exact_mk i k v sE hE) ⟨⟨hb, h1⟩, sA, hA⟩ hC ?_
      simp only [Tree.hgt]; omega
  · have hd : f.sib.hgt = t.hgt + 2 := by omega
    have hoh' : 1 + max t.hgt f.sib.hgt = oh := by omega
    have key : ∀ (g : Frame) (zsub : Tree), Exact zsub → AVL zsub → Exact g.sib → AVL g.sib →
        (g.sib.hgt - zsub.hgt ≤ 1 ∧ zsub.hgt - g.sib.hgt ≤ 1) →
        (1 + max zsub.hgt g.sib.hgt = 1 + f.sib.hgt ∨ 1 + max zsub.hgt g.sib.hgt = f.sib.hgt) →
        EraInv ((some g).toList ++ c) zsub ∧
          eraseFuel ((some g).toList ++ c) zsub < eraseFuel (f :: c) t := by
      intro g zsub a1 a2 a3 a4 a5 a6
      constructor
      · exact ⟨a1, a2, a3, a4, by omega, by omega, oh, hC, by omega⟩
      · have e0 : eraseFuel (f :: c) t = 2 * c.length + 2 := if_neg hb
        have e1 : eraseFuel ((some g).toList ++ c) zsub = 2 * c.length + 1 := if_pos a5.1
        rw [e0, e1]; omega
    cases f with
    | L i k v hh s =>
      simp only [Frame.sib] at *
      obtain ⟨g, zsub, e, a1, a2, a3, a4, a5, a6⟩ := eraseStep_right i k v hh hE hA sE sA hd
      exact ⟨some g, zsub, e, key g zsub a1 a2 a3 a4 a5 a6⟩
    | R s i k v hh =>
      simp only [Frame.sib] at *
      obtain ⟨g, zsub, e, a1, a2, a3, a4, a5, a6⟩ := eraseStep_left i k v hh hE hA sE sA hd
      exact ⟨some g, zsub, e, key g zsub a1 a2 a3 a4 a5 a6⟩

theorem eraseLoop_good : ∀ (fuel : Nat) (c : List Frame) (t : Tree), EraInv c t →
    eraseFuel c t < fuel → ∃ T', eraseLoop fuel c t = some T' ∧ Exact T' ∧ AVL T'
  | 0, _, _, _, h => by omega
  | _ + 1, [], t, hI, _ => ⟨t, rfl, hI.1, hI.2⟩
  | fuel + 1, f :: c, t, hI, hf => by
    obtain ⟨og, t', e, hI', hlt⟩ := eraseStep_good hI
    obtain ⟨T', e2, h1, h2⟩ := eraseLoop_good fuel (og.toList ++ c) t' hI' (by omega)
    refine ⟨T', ?_, h1, h2⟩
    rw [eraseLoop, e]
    cases og <;> simpa using e2

theorem Good_plug_old {c : List Frame} {l r : Tree} {i : Nat} {k v h : Int}
    (hG : Good (plug c (.node l i k v h r))) :
    Exact l ∧ Exact r ∧ AVL (.node l i k v h r) ∧ CtxOld c (1 + max l.hgt r.hgt) := by
  cases c with
  | nil =>
    obtain ⟨-, hl, hr, hA⟩ := hG
    exact ⟨hl, hr, hA, trivial⟩
  | cons f c =>
    obtain ⟨hE, hA, hC⟩ := Good_plug (f :: c) _ (by simp) hG
    exact ⟨hE.2.1, hE.2.2, hA, CtxOld_of_Good _ _ hC⟩

theorem plug_old : ∀ (cr c0 : List Frame) (S : Tree), Exact (plug cr S) → AVL (plug cr S) →
    CtxOld c0 (plug cr S).hgt → Exact S ∧ AVL S ∧ CtxOld (cr ++ c0) S.hgt
  | [], _, _, hE, hA, hC => ⟨hE, hA, hC⟩
  | f :: cr, c0, S, hE, hA, hC => by
    obtain ⟨e1, a1, c1⟩ := plug_old cr c0 (f.fill S) hE hA hC
    rw [fill_hgt] at c1
    cases f with
    | L i k v h s =>
      obtain ⟨-, hS, hs⟩ := e1
      obtain ⟨hb, aS, as⟩ := a1
      exact ⟨hS, aS, hs, as, hb, c1⟩
    | R s i k v h =>
      obtain ⟨-, hs, hS⟩ := e1
      obtain ⟨hb, as, aS⟩ := a1
      exact ⟨hS, aS, hs, as, ⟨hb.2, hb.1⟩, c1⟩

theorem splitMin_lkeys : ∀ (t : Tree) (c : List Frame), lkeys (splitMin c t).1 = lkeys c
  | .nil, c => rfl
  | .node .nil i k v h r, c => rfl
  | .node (.node ll li lk lv lh lr) i k v h r, c => by
    rw [splitMin, splitMin_lkeys]; rfl

theorem splitMin_length : ∀ (t : Tree) (c : List Frame),
    (splitMin c t).1.length + 1 ≤ c.length + max t.depth 1
  | .nil, c => by simp [splitMin]
  | .node .nil i k v h r, c => by simp [splitMin]
  | .node (.node ll li lk lv lh lr) i k v h r, c => by
    rw [splitMin]
    have := splitMin_length (.node ll li lk lv lh lr) (.L i k v h r :: c)
    simp only [List.length_cons, Tree.depth] at this ⊢
    omega

theorem depth_plug : ∀ (c : List Frame) (t : Tree), c.length + t.depth ≤ (plug c t).depth
  | [], t => by simp [plug]
  | f :: c, t => by
    have := depth_plug c (f.fill t)
    simp only [plug, List.length_cons]
    cases f <;> simp only [Frame.fill, Tree.depth] at this ⊢ <;> omega

/-- The unlinking of a node of a balanced tree is defined, leaves a path that
the rebalancing loop accepts, and removes the key of the node from the keys in
order. -/
theorem unlinkAt_good {c : List Frame} {l r : Tree} {i : Nat} {k v h : Int}
    (hG : Good (plug c (.node l i k v h r))) :
    ∃ C t z, unlinkAt c (.node l i k v h r) = some (C, t, z) ∧ EraInv C t ∧
      C.length ≤ c.length + (Tree.node l i k v h r).depth ∧
      ∃ A B, (plug c (.node l i k v h r)).keys = A ++ k :: B ∧ (plug C t).keys = A ++ B := by
  obtain ⟨hl, hr, ⟨hb, hAl, hAr⟩, hC⟩ := Good_plug_old hG
  have gl := hgt_ge l
  have gr := hgt_ge r
  cases l with
  | nil =>
    refine ⟨c, r, i, rfl, EraInv_of_old hr hAr hC ?_, by omega, lkeys c, r.keys ++ rkeys c, ?_, ?_⟩
    · simp only [Tree.hgt]; omega
    · rw [plug_keys]; simp [Tree.keys]
    · rw [plug_keys]; simp
  | node ll li lk lv lh lr =>
    cases r with
    | nil =>
      refine ⟨c, _, i, rfl, EraInv_of_old hl hAl hC ?_, by omega,
        lkeys c ++ (Tree.node ll li lk lv lh lr).keys, rkeys c, ?_, ?_⟩
      · simp only [Tree.hgt] at gl ⊢; omega
      · rw [plug_keys]; simp [Tree.keys]
      · rw [plug_keys]
    | node rl ri rk rv rh rr =>
      obtain ⟨si, sk, sv, sh, sr, e1, e2⟩ := splitMin_spec (.node rl ri rk rv rh rr) [] (by simp)
      have hlk := splitMin_lkeys (.node rl ri rk rv rh rr) []
      have hlen := splitMin_length (.node rl ri rk rv rh rr) []
      rcases hs : splitMin [] (.node rl ri rk rv rh rr) with ⟨cr, S⟩
      rw [hs] at e1 e2 hlk hlen
      simp only [lkeys, List.length_nil] at e1 e2 hlk hlen
      subst e1
      simp only [plug] at e2
      have hC0 : CtxOld (.R (.node ll li lk lv lh lr) i sk sv h :: c)
          (plug cr (.node .nil si sk sv sh sr)).hgt := by
        rw [e2]
        refine ⟨hl, hAl, ⟨hb.2, hb.1⟩, ?_⟩
        simp only [Frame.sib]
        have : 1 + max (Tree.node rl ri rk rv rh rr).hgt (Tree.node ll li lk lv lh lr).hgt =
            1 + max (Tree.node ll li lk lv lh lr).hgt (Tree.node rl ri rk rv rh rr).hgt := by
          omega
        rw [this]; exact hC
      obtain ⟨⟨-, -, hsr⟩, ⟨-, -, hAsr⟩, hC1⟩ := plug_old cr _ _ (by rw [e2]; exact hr)
        (by rw [e2]; exact hAr) hC0
      have gsr := hgt_ge sr
      refine ⟨_, sr, si, ?_, EraInv_of_old hsr hAsr hC1 ?_, ?_,
        lkeys c ++ (Tree.node ll li lk lv lh lr).keys,
        (Tree.node rl ri rk rv rh rr).keys ++ rkeys c, ?_, ?_⟩
      · simp only [unlinkAt, hs]
      · simp only [Tree.hgt]; omega
      · simp only [List.length_append, List.length_cons, Tree.depth] at hlen ⊢
        omega
      · rw [plug_keys]; simp [Tree.keys]
      · rw [plug_nodes_append, plug_keys]
        simp only [plug, Frame.fill, Tree.keys]
        have h1 : (plug cr sr).keys = sr.keys ++ rkeys cr := by
          rw [plug_keys, hlk]; simp
        have h2 : (Tree.node rl ri rk rv rh rr).keys = sk :: sr.keys ++ rkeys cr := by
          rw [← e2, plug_keys, hlk]; simp [Tree.keys]
        rw [h1]
        simp only [Tree.keys] at h2
        rw [h2]
        simp [lkeys, rkeys, Tree.keys]

/-! ## The erase of a found node keeps the invariant -/

theorem get_min_mono : ∀ (fuel : Nat) (m : sdmap_heap) (i r : Nat),
    detail_sdmap_get_min_in_subtree fuel m i = some r →
    detail_sdmap_get_min_in_subtree (fuel + 1) m i = some r
  | 0, _, _, _, h => by simp [detail_sdmap_get_min_in_subtree] at h
  | n + 1, m, i, r, h => by
    rw [detail_sdmap_get_min_in_subtree] at h ⊢
    cases hs : detail_sdmap_slot m i with
    | none => simp [hs] at h
    | some slot =>
      simp only [hs] at h ⊢
      split_ifs at h ⊢
      · exact h
      · exact get_min_mono n m _ r h

theorem erase_rotate_mono : ∀ (fuel : Nat) (m : sdmap_heap) (z : Nat) (r : sdmap_heap),
    detail_sdmap_erase_rotate fuel m z = some r →
    detail_sdmap_erase_rotate (fuel + 1) m z = some r
  | 0, _, _, _, h => by simp [detail_sdmap_erase_rotate] at h
  | n + 1, m, z, r, h => by
    rw [erase_rotate_succ] at h ⊢
    split_ifs at h ⊢
    · exact h
    · cases hs : detail_sdmap_slot m z with
      | none => simp [hs] at h
      | some zs =>
        simp only [hs, Option.some_bind] at h ⊢
        split_ifs at h ⊢
        · exact h
        · cases hb : detail_sdmap_erase_rotate_body m zs.parent with
          | none => simp [hb] at h
          | some m' =>
            simp only [hb, Option.some_bind] at h ⊢
            exact erase_rotate_mono n m' _ r h

theorem erase_unlink_mono (fuel : Nat) (m : sdmap_heap) (i : Nat) (r : sdmap_heap × Nat)
    (h : detail_sdmap_erase_unlink fuel m i = some r) :
    detail_sdmap_erase_unlink (fuel + 1) m i = some r := by
  unfold detail_sdmap_erase_unlink at h ⊢
  cases hs : detail_sdmap_slot m i with
  | none => rw [hs] at h; exact absurd h (by simp)
  | some slot =>
    rw [hs] at h
    simp only [Option.some_bind, Option.bind_eq_bind] at h ⊢
    by_cases h1 : slot.left ≠ i ∧ slot.right ≠ i
    · rw [if_pos h1] at h ⊢
      cases hg : detail_sdmap_get_min_in_subtree fuel m slot.right with
      | none => rw [hg] at h; exact absurd h (by simp)
      | some si =>
        rw [hg] at h
        rw [get_min_mono fuel m _ si hg]
        exact h
    · rw [if_neg h1] at h ⊢
      exact h

theorem erase_found_mono (fuel : Nat) (m : sdmap_heap) (i : Nat) (r : sdmap_heap)
    (h : detail_sdmap_erase_found fuel m i = some r) :
    detail_sdmap_erase_found (fuel + 1) m i = some r := by
  unfold detail_sdmap_erase_found at h ⊢
  simp only [Option.bind_eq_bind, Option.bind_eq_some] at h ⊢
  obtain ⟨a, h1, b, h2, h3⟩ := h
  exact ⟨a, erase_unlink_mono fuel m i a h1, b, erase_rotate_mono fuel _ _ b h2, h3⟩

theorem erase_loop_mono_inner (key : Int) : ∀ (fuel fi : Nat) (m : sdmap_heap) (i : Nat)
    (r : sdmap_heap), detail_sdmap_erase_loop fuel fi m i key = some r →
    detail_sdmap_erase_loop fuel (fi + 1) m i key = some r
  | 0, _, _, _, _, h => by simp [detail_sdmap_erase_loop] at h
  | n + 1, fi, m, i, r, h => by
    rw [detail_sdmap_erase_loop] at h ⊢
    cases hs : detail_sdmap_slot m i with
    | none => simp [hs] at h
    | some slot =>
      simp only [hs] at h ⊢
      split_ifs at h ⊢
      · exact erase_found_mono fi m i r h
      · exact h
      · exact erase_loop_mono_inner key n fi m _ r h
      · exact h
      · exact erase_loop_mono_inner key n fi m _ r h

theorem erase_loop_mono_outer (key : Int) (fi : Nat) : ∀ (fuel : Nat) (m : sdmap_heap) (i : Nat)
    (r : sdmap_heap), detail_sdmap_erase_loop fuel fi m i key = some r →
    detail_sdmap_erase_loop (fuel + 1) fi m i key = some r
  | 0, _, _, _, h => by simp [detail_sdmap_erase_loop] at h
  | n + 1, m, i, r, h => by
    rw [detail_sdmap_erase_loop] at h ⊢
    cases hs : detail_sdmap_slot m i with
    | none => simp [hs] at h
    | some slot =>
      simp only [hs] at h ⊢
      split_ifs at h ⊢
      · exact h
      · exact h
      · exact erase_loop_mono_outer key fi n m _ r h
      · exact h
      · exact erase_loop_mono_outer key fi n m _ r h

theorem erase_loop_mono (key : Int) (m : sdmap_heap) (i : Nat) (r : sdmap_heap)
    {f1 f2 g1 g2 : Nat} (hf : f1 ≤ f2) (hg : g1 ≤ g2)
    (h : detail_sdmap_erase_loop f1 g1 m i key = some r) :
    detail_sdmap_erase_loop f2 g2 m i key = some r := by
  have h1 := mono_of_succ (fun n (x : sdmap_heap × Nat) => detail_sdmap_erase_loop n g1 x.1 x.2 key)
    (fun n a r h => erase_loop_mono_outer key g1 n a.1 a.2 r h) f1 f2 (m, i) r hf h
  exact mono_of_succ (fun n (x : sdmap_heap × Nat) => detail_sdmap_erase_loop f2 n x.1 x.2 key)
    (fun n a r h => erase_loop_mono_inner key f2 n a.1 a.2 r h) g1 g2 (m, i) r hg h1

theorem keys_eraseLoop {fuel : Nat} {c : List Frame} {t T' : Tree}
    (h : eraseLoop fuel c t = some T') : T'.keys = (plug c t).keys := by
  rw [keys_eq_map, keys_eq_map, eraseLoop_nodes fuel c t T' h]

theorem keys_eq_pairs (t : Tree) : t.keys = t.pairs.map (·.1) := by
  rw [keys_eq_map, pairs_eq_map, List.map_map]; rfl

theorem plug_pairs_split (c : List Frame) :
    ∃ L R : List (Int × Int), ∀ t, (plug c t).pairs = L ++ t.pairs ++ R := by
  obtain ⟨L, R, h⟩ := plug_nodes_split c
  refine ⟨L.map (·.2), R.map (·.2), fun t => ?_⟩
  rw [pairs_eq_map, pairs_eq_map, h]
  simp

theorem splitMin_nodes : ∀ (t : Tree) (c : List Frame), t ≠ .nil →
    ∃ cr si sk sv sh sr, splitMin c t = (cr ++ c, .node .nil si sk sv sh sr) ∧
      t.pairs = (sk, sv) :: (plug cr sr).pairs
  | .nil, _, h => absurd rfl h
  | .node .nil i k v h r, c, _ => ⟨[], i, k, v, h, r, rfl, by simp [Tree.pairs, plug]⟩
  | .node (.node ll li lk lv lh lr) i k v h r, c, _ => by
    obtain ⟨cr, si, sk, sv, sh, sr, e1, e2⟩ :=
      splitMin_nodes (.node ll li lk lv lh lr) (.L i k v h r :: c) (by simp)
    refine ⟨cr ++ [.L i k v h r], si, sk, sv, sh, sr, ?_, ?_⟩
    · rw [splitMin, e1]; simp
    · rw [plug_nodes_append]
      simp only [plug, Frame.fill]
      show (Tree.node ll li lk lv lh lr).pairs ++ (k, v) :: r.pairs =
        (sk, sv) :: ((plug cr sr).pairs ++ (k, v) :: r.pairs)
      rw [e2]
      simp

theorem unlinkAt_pairs {c C : List Frame} {l r t : Tree} {i z : Nat} {k v h : Int}
    (hu : unlinkAt c (.node l i k v h r) = some (C, t, z)) :
    ∃ P Q, (plug c (.node l i k v h r)).pairs = P ++ (k, v) :: Q ∧ (plug C t).pairs = P ++ Q := by
  obtain ⟨L, R, hLR⟩ := plug_pairs_split c
  cases l with
  | nil =>
    simp only [unlinkAt, Option.some.injEq, Prod.mk.injEq] at hu
    obtain ⟨rfl, rfl, rfl⟩ := hu
    exact ⟨L, r.pairs ++ R, by rw [hLR]; simp [Tree.pairs], by rw [hLR]; simp⟩
  | node ll li lk lv lh lr =>
    cases r with
    | nil =>
      simp only [unlinkAt, Option.some.injEq, Prod.mk.injEq] at hu
      obtain ⟨rfl, rfl, rfl⟩ := hu
      exact ⟨L ++ (Tree.node ll li lk lv lh lr).pairs, R, by rw [hLR]; simp [Tree.pairs],
        by rw [hLR]⟩
    | node rl ri rk rv rh rr =>
      obtain ⟨cr, si, sk, sv, sh, sr, e1, e2⟩ :=
        splitMin_nodes (.node rl ri rk rv rh rr) [] (by simp)
      simp only [List.append_nil] at e1
      simp only [unlinkAt, e1, Option.some.injEq, Prod.mk.injEq] at hu
      obtain ⟨rfl, rfl, rfl⟩ := hu
      refine ⟨L ++ (Tree.node ll li lk lv lh lr).pairs, (Tree.node rl ri rk rv rh rr).pairs ++ R,
        by rw [hLR]; simp [Tree.pairs], ?_⟩
      rw [plug_nodes_append]
      simp only [plug, Frame.fill]
      rw [hLR, e2]
      simp [Tree.pairs]

theorem pairs_eraseLoop {fuel : Nat} {c : List Frame} {t T' : Tree}
    (h : eraseLoop fuel c t = some T') : T'.pairs = (plug c t).pairs := by
  rw [pairs_eq_map, pairs_eq_map, eraseLoop_nodes fuel c t T' h]

set_option maxHeartbeats 2000000 in
/-- The erase of a node of the tree of a map that satisfies the invariant:
the pair of the node leaves the pairs in order. -/
theorem erase_found_specT {ks vs : Nat} {m : sdmap_heap} {T : Tree} {fl : List Nat}
    {c : List Frame} {l r : Tree} {i : Nat} {k v h : Int}
    (hz : ZOK m [] T) (hG : Good T) (hB : BST T)
    (hF : FreeL m m.empty_slot fl) (hnd : (T.idx ++ fl).Nodup)
    (hlt : ∀ j ∈ T.idx ++ fl, j < m.slot_count)
    (hcnt : m.count = T.idx.length) (hsc : m.count + fl.length = m.slot_count)
    (hcap : CapOK ks vs m) (hT : plug c (.node l i k v h r) = T) :
    ∃ m' T', detail_sdmap_erase_found (2 * T.depth + 2) m i = some m' ∧ InvT ks vs m' T' ∧
      m'.count + 1 = m.count ∧
      (∃ A B, T.keys = A ++ k :: B ∧ T'.keys = A ++ B) ∧
      ∃ P Q, T.pairs = P ++ (k, v) :: Q ∧ T'.pairs = P ++ Q := by
  subst hT
  have hzN : ZOK m c (.node l i k v h r) := by
    have := (ZOK_plug (m := m) c [] (.node l i k v h r)).2 hz
    simpa using this
  have hN : ¬ valid m NONE := not_valid_NONE hcap
  obtain ⟨C, t, z, hu, hE, hlen, A, B, hk1, hk2⟩ := unlinkAt_good hG
  have hdp := depth_plug c (.node l i k v h r)
  obtain ⟨m1, e1, U1, U2, U3, U4, U5, U6, U7⟩ := erase_unlink_zip hzN hN hu
    (2 * (plug c (.node l i k v h r)).depth + 2) (by omega)
  simp only [lnk_node] at e1
  have hfu := eraseFuel_le C t
  obtain ⟨T', el, hE', hA'⟩ := eraseLoop_good (2 * (plug c (.node l i k v h r)).depth + 2) C t hE
    (by omega)
  have hN1 : ¬ valid m1 NONE := fun hx => hN ((U2.valid_iff _).1 hx)
  obtain ⟨m2, e2, S1, S2, S3, S4⟩ := erase_rotate_zip _ C t m1 z T' U1 hN1 U5 U6
    (fun e => absurd e U7) el
  simp only [cidx, List.append_nil] at S4 S1
  -- the slots of the tree and the list of empty slots
  have hsT : ((Tree.node l i k v h r).idx ++ cidx c).Perm (plug c (.node l i k v h r)).idx :=
    (plug_idx_perm c _).symm
  have hzs : z ∈ (Tree.node l i k v h r).idx ++ cidx c := U4.subset (List.mem_cons_self _ _)
  have hdis : ∀ j ∈ fl, j ∉ (Tree.node l i k v h r).idx ++ cidx c := fun j hj hx =>
    (List.nodup_append.1 hnd).2.2 (hsT.subset hx) hj
  have hzfl : z ∉ fl := fun hx => hdis z hx hzs
  have hsub : ∀ j, j ∈ t.idx ++ cidx C → j ∈ (Tree.node l i k v h r).idx ++ cidx c :=
    fun j hj => U4.subset (List.mem_cons_of_mem _ hj)
  have hv2 : ∀ j, valid m j → valid m2 j := fun j hj =>
    (S2.valid_iff j).2 ((U2.valid_iff j).2 hj)
  have hF2 : FreeL m2 m2.empty_slot fl := by
    rw [S2.2.2.2.1, U2.2.2.2.1]
    refine FreeL_congr hv2 fl _ (fun j hj => ?_) hF
    rw [S3 j (fun hx => hdis j hj (hsub j hx)), U3 j (hdis j hj)]
  have hvz2 : valid m2 z := (S2.valid_iff z).2 U5
  have hzN' : z ≠ NONE := fun e => hN1 (e ▸ U5)
  obtain ⟨m3, fl', e3, hF3, hp3, c3, sc3, cap3, rs3, len3, g3⟩ :=
    release_spec hF2 (List.nodup_append.1 hnd).2.1 hzfl hvz2 hzN'
  have hnds : (z :: (t.idx ++ cidx C)).Nodup :=
    U4.nodup_iff.2 (hsT.nodup_iff.2 (List.nodup_append.1 hnd).1)
  have hzT' : z ∉ T'.idx := fun hx => (List.nodup_cons.1 hnds).1 (S4.subset hx)
  have hv3 : ∀ j, valid m2 j → valid m3 j := fun j hj => by
    unfold valid at *; rw [len3]; exact hj
  have hz3 : ZOK m3 [] T' := by
    refine ⟨⟨?_, ?_⟩, S1.2⟩
    · show m3.root_slot = _
      rw [rs3]; exact S1.1.1
    · refine Rep_congr hv3 T' _ (fun j hj => ?_) S1.1.2
      exact g3 j (fun e => hzT' (e ▸ hj)) (fun hx => hdis j hx (hsub j (S4.subset hj)))
  have hkT' : T'.keys = A ++ B := by rw [keys_eraseLoop el, hk2]
  have hpall : (T'.idx ++ fl').Perm ((plug c (.node l i k v h r)).idx ++ fl) := by
    have a1 : (T'.idx ++ fl').Perm ((t.idx ++ cidx C) ++ (z :: fl)) := List.Perm.append S4 hp3
    have a2 : ((t.idx ++ cidx C) ++ (z :: fl)).Perm ((z :: (t.idx ++ cidx C)) ++ fl) :=
      List.perm_middle
    exact (a1.trans a2).trans (List.Perm.append_right _ (U4.trans hsT))
  have hcount : 1 ≤ m.count := by
    rw [hcnt, ← hsT.length_eq]; simp [Tree.idx]; omega
  have hc3 : m3.count = m.count - 1 := by rw [c3, S2.2.1, U2.2.1]
  have hlen' : T'.idx.length + 1 = m.count := by
    rw [hcnt, ← hsT.length_eq, ← U4.length_eq, S4.length_eq]; simp
  obtain ⟨P, Q, hP1, hP2⟩ := unlinkAt_pairs hu
  refine ⟨m3, T', ?_, ⟨fl', hz3, Good_of_Exact hE' hA', ?_, hF3, hpall.nodup_iff.2 hnd, ?_, ?_, ?_,
    ?_⟩, by omega, ⟨A, B, hk1, hkT'⟩, P, Q, hP1, by rw [pairs_eraseLoop el, hP2]⟩
  · unfold detail_sdmap_erase_found
    rw [e1]
    simp only [Option.some_bind, Option.bind_eq_bind]
    rw [e2]
    exact e3
  · unfold BST at hB ⊢
    rw [hkT']
    rw [hk1] at hB
    exact hB.sublist (List.Sublist.append (List.Sublist.refl _) (List.sublist_cons_self _ _))
  · intro j hj
    rw [sc3, S2.2.2.1, U2.2.2.1]
    exact hlt j (hpall.subset hj)
  · omega
  · have := hp3.length_eq
    simp only [List.length_cons] at this
    rw [hc3, this, sc3, S2.2.2.1, U2.2.2.1]
    omega
  · obtain ⟨q1, q2, q3⟩ := hcap
    refine ⟨?_, ?_, ?_⟩
    · rw [len3, cap3, S2.2.2.2.2, S2.1, U2.2.2.2.2, U2.1]; exact q1
    · rw [len3, sc3, S2.2.2.2.2, S2.2.2.1, U2.2.2.2.2, U2.2.2.1]; exact q2
    · rw [cap3, S2.1, U2.1]; exact q3

/-- The erase of a node of the tree of a map that satisfies the invariant. -/
theorem erase_found_spec {ks vs : Nat} {m : sdmap_heap} {T : Tree} {fl : List Nat}
    {c : List Frame} {l r : Tree} {i : Nat} {k v h : Int}
    (hz : ZOK m [] T) (hG : Good T) (hB : BST T)
    (hF : FreeL m m.empty_slot fl) (hnd : (T.idx ++ fl).Nodup)
    (hlt : ∀ j ∈ T.idx ++ fl, j < m.slot_count)
    (hcnt : m.count = T.idx.length) (hsc : m.count + fl.length = m.slot_count)
    (hcap : CapOK ks vs m) (hT : plug c (.node l i k v h r) = T) :
    ∃ m', detail_sdmap_erase_found (2 * T.depth + 2) m i = some m' ∧ Inv ks vs m' ∧
      m'.count + 1 = m.count ∧
      ∃ T' A B, ZOK m' [] T' ∧ T.keys = A ++ k :: B ∧ T'.keys = A ++ B := by
  obtain ⟨m', T', e, hI, hc, ⟨A, B, q1, q2⟩, -⟩ :=
    erase_found_specT hz hG hB hF hnd hlt hcnt hsc hcap hT
  exact ⟨m', e, InvT_Inv hI, hc, T', A, B, hI.choose_spec.1, q1, q2⟩

/-! ## Every reachable map satisfies the invariant -/

theorem Inv_new (ks vs capacity : Nat) (garbage : List sdmap_slot)
    (hlen : garbage.length = capacity / slot_size ks vs) (hcap : capacity < 4294967296) :
    Inv ks vs (detail_sdmap_new_heap_impl capacity garbage) :=
  ⟨.nil, [], ⟨⟨rfl, trivial⟩, by simp [Tree.idx, cidx]⟩, trivial, by simp [BST, Tree.keys], rfl,
    by simp [Tree.idx], by simp [Tree.idx], rfl, rfl, hlen, Nat.zero_le _, hcap⟩

theorem root_lnk {m : sdmap_heap} {T : Tree} (hz : ZOK m [] T) (hT : T ≠ .nil) :
    m.root_slot = T.lnk 0 := by
  cases T with
  | nil => exact absurd rfl hT
  | node l i k v h r => exact hz.1.1

theorem T_ne_nil {m : sdmap_heap} {T : Tree} (hcnt : m.count = T.idx.length)
    (h0 : ¬ m.count = 0) : T ≠ .nil := by
  intro e; subst e; exact h0 (by simpa [Tree.idx] using hcnt)

/-- The erase on a map that satisfies the invariant, by the place where the
walk from the root ends. -/
theorem erase_impl_spec {ks vs : Nat} {m : sdmap_heap} {T : Tree} {fl : List Nat} (key : Int)
    (hz : ZOK m [] T) (hG : Good T) (hB : BST T)
    (hF : FreeL m m.empty_slot fl) (hnd : (T.idx ++ fl).Nodup)
    (hlt : ∀ j ∈ T.idx ++ fl, j < m.slot_count)
    (hcnt : m.count = T.idx.length) (hsc : m.count + fl.length = m.slot_count)
    (hcap : CapOK ks vs m) :
    (key ∉ T.keys ∧
      ∀ fuel, 2 * T.depth + 2 ≤ fuel → detail_sdmap_erase_impl fuel (some m) key = some (some m)) ∨
    (key ∈ T.keys ∧ ∃ m', (∀ fuel, 2 * T.depth + 2 ≤ fuel →
        detail_sdmap_erase_impl fuel (some m) key = some (some m')) ∧
      Inv ks vs m' ∧ m'.count + 1 = m.count ∧
      ∃ T' A B, ZOK m' [] T' ∧ T.keys = A ++ key :: B ∧ T'.keys = A ++ B) := by
  by_cases h0 : m.count = 0
  · left
    have hT : T = .nil := by
      cases T with
      | nil => rfl
      | node l i k v h r => rw [h0] at hcnt; simp [Tree.idx] at hcnt; omega
    subst hT
    exact ⟨by simp [Tree.keys], fun fuel _ => by simp [detail_sdmap_erase_impl, h0]⟩
  · have hT := T_ne_nil hcnt h0
    have hroot := root_lnk hz hT
    have hrun : ∀ fuel, T.depth ≤ fuel → detail_sdmap_erase_impl fuel (some m) key =
        (match descend key [] T with
          | (_, .node _ i _ _ _ _) => detail_sdmap_erase_found fuel m i
          | (_, .nil) => some m).map some := by
      intro fuel hf
      simp only [detail_sdmap_erase_impl, h0, if_false]
      rw [hroot, erase_loop_zip fuel key T [] m hz hT fuel hf]
      all_goals (rcases descend key [] T with ⟨a, b⟩; cases b <;> rfl)
    rcases hd : descend key [] T with ⟨c, t⟩
    obtain ⟨hp, hside, hcase, -⟩ := descend_spec key T [] c t (by simp) hd
    simp only [plug] at hp
    rw [hd] at hrun
    have hkeys : T.keys = lkeys c ++ t.keys ++ rkeys c := by rw [← hp, plug_keys]
    rcases hcase with rfl | ⟨l, i, v, h, r, rfl⟩
    · left
      constructor
      · have hpk : (lkeys c ++ rkeys c).Pairwise (· < ·) := by
          have := hB; unfold BST at this; rw [hkeys] at this; simpa [Tree.keys] using this
        obtain ⟨a, b⟩ := path_keys key c hpk hside
        rw [hkeys]
        simp only [Tree.keys, List.append_nil, List.mem_append, not_or]
        exact ⟨fun hx => by have := a _ hx; omega, fun hx => by have := b _ hx; omega⟩
      · intro fuel hf
        rw [hrun fuel (by omega)]; rfl
    · right
      refine ⟨by rw [hkeys]; simp [Tree.keys], ?_⟩
      obtain ⟨m', e, hI, hc, T', A, B, q1, q2, q3⟩ :=
        erase_found_spec hz hG hB hF hnd hlt hcnt hsc hcap hp
      refine ⟨m', fun fuel hf => ?_, hI, hc, T', A, B, q1, q2, q3⟩
      rw [hrun fuel (by omega)]
      simp only [Option.map_eq_some']
      refine ⟨m', ?_, rfl⟩
      exact mono_of_succ (fun n (x : sdmap_heap × Nat) => detail_sdmap_erase_found n x.1 x.2)
        (fun n a r h => erase_found_mono n a.1 a.2 r h) _ fuel (m, i) m' hf e

theorem erase_impl_mono (m : sdmap_heap) (key : Int) (r : Option sdmap_heap) {f1 f2 : Nat}
    (hf : f1 ≤ f2) (h : detail_sdmap_erase_impl f1 (some m) key = some r) :
    detail_sdmap_erase_impl f2 (some m) key = some r := by
  simp only [detail_sdmap_erase_impl] at h ⊢
  split_ifs at h ⊢
  · exact h
  · simp only [Option.map_eq_some'] at h ⊢
    obtain ⟨a, h1, h2⟩ := h
    exact ⟨a, erase_loop_mono key m _ a hf hf h1, h2⟩

theorem Inv_erase {ks vs : Nat} {m m' : sdmap_heap} {fuel : Nat} {key : Int}
    (hI : Inv ks vs m) (h : detail_sdmap_erase_impl fuel (some m) key = some (some m')) :
    Inv ks vs m' := by
  have hI0 := hI
  obtain ⟨T, fl, hz, hG, hB, hF, hnd, hlt, hcnt, hsc, hcap⟩ := hI
  have h2 := erase_impl_mono m key _ (le_max_left fuel (2 * T.depth + 2)) h
  rcases erase_impl_spec key hz hG hB hF hnd hlt hcnt hsc hcap with ⟨-, e⟩ | ⟨-, m2, e, hI2, -⟩
  · rw [e _ (le_max_right _ _)] at h2
    simp only [Option.some.injEq] at h2
    subst h2; exact hI0
  · rw [e _ (le_max_right _ _)] at h2
    simp only [Option.some.injEq] at h2
    subst h2; exact hI2

/-! ## The compaction of a heap map -/

theorem ZOK_nodup {m : sdmap_heap} {T : Tree} (hz : ZOK m [] T) : T.idx.Nodup := by
  simpa [cidx] using hz.2

theorem seg_succ_mem {fl : List Nat} {i : Nat} (h : i ∈ fl) : seg fl (i + 1) = seg fl i ++ [i] := by
  unfold seg
  rw [List.range_succ, List.filter_append]
  simp [h]

theorem seg_succ_not_mem {fl : List Nat} {i : Nat} (h : i ∉ fl) : seg fl (i + 1) = seg fl i := by
  unfold seg
  rw [List.range_succ, List.filter_append]
  simp [h]

theorem mem_seg {fl : List Nat} {i j : Nat} : j ∈ seg fl i ↔ j < i ∧ j ∈ fl := by
  unfold seg; simp

theorem seg_sorted (fl : List Nat) (i : Nat) : (seg fl i).Pairwise (· < ·) :=
  (List.pairwise_lt_range i).sublist (List.filter_sublist _)

theorem seg_nodup (fl : List Nat) (i : Nat) : (seg fl i).Nodup :=
  (List.nodup_range i).sublist (List.filter_sublist _)

theorem seg_perm {fl : List Nat} {n : Nat} (hnd : fl.Nodup) (hlt : ∀ j ∈ fl, j < n) :
    (seg fl n).Perm fl := by
  refine (List.perm_ext_iff_of_nodup (seg_nodup fl n) hnd).2 (fun j => ?_)
  rw [mem_seg]
  exact ⟨fun h => h.2, fun h => ⟨hlt j h, h⟩⟩

/-- The stored heights of the slots of an exact tree are not negative. -/
theorem height_nonneg_of_Exact {m : sdmap_heap} : ∀ (t : Tree) (o : Nat), Rep m t o → Exact t →
    ∀ j ∈ t.idx, 0 ≤ (get m j).height
  | .nil, _, _, _, j, hj => by simp [Tree.idx] at hj
  | .node l i k v h r, o, hR, hE, j, hj => by
    simp only [Tree.idx, List.mem_append, List.mem_cons] at hj
    rcases hj with hj | rfl | hj
    · exact height_nonneg_of_Exact l i hR.2.2.1 hE.2.1 j hj
    · rw [Rep_get hR]; exact Exact_nonneg hE
    · exact height_nonneg_of_Exact r i hR.2.2.2 hE.2.2 j hj

theorem height_nonneg_of_Good {m : sdmap_heap} {T : Tree} {o : Nat} (hR : Rep m T o)
    (hG : Good T) : ∀ j ∈ T.idx, 0 ≤ (get m j).height := by
  cases T with
  | nil => intro j hj; simp [Tree.idx] at hj
  | node l i k v h r =>
    intro j hj
    simp only [Tree.idx, List.mem_append, List.mem_cons] at hj
    rcases hj with hj | rfl | hj
    · exact height_nonneg_of_Exact l i hR.2.2.1 hG.2.1 j hj
    · rw [Rep_get hR]; exact hG.1
    · exact height_nonneg_of_Exact r i hR.2.2.2 hG.2.2.1 j hj

/-- A list without repetition of `n` numbers below `n` holds every number
below `n`. -/
theorem mem_of_nodup_of_length {l : List Nat} {n : Nat} (hnd : l.Nodup)
    (hlt : ∀ j ∈ l, j < n) (hlen : l.length = n) : ∀ j, j < n → j ∈ l := by
  have hsub : l ⊆ List.range n := fun j hj => List.mem_range.2 (hlt j hj)
  have hsp : l.Subperm (List.range n) := List.subperm_of_subset hnd hsub
  have hp : l.Perm (List.range n) :=
    hsp.perm_of_length_le (by rw [List.length_range, hlen])
  intro j hj
  exact hp.symm.subset (List.mem_range.2 hj)

theorem FreeL_of_chain {m : sdmap_heap} : ∀ (l : List Nat) (x : Nat),
    List.Chain' (fun a b => (get m a).right = b) (x :: l) →
    (∀ j ∈ x :: l, j ≠ NONE ∧ valid m j ∧ (get m j).height < 0) →
    (∀ p, (x :: l).getLast? = some p → (get m p).right = NONE) → FreeL m x (x :: l)
  | [], x, _, hp, hl => by
    obtain ⟨a, b, c⟩ := hp x (List.mem_cons_self _ _)
    refine ⟨rfl, a, b, c, ?_⟩
    rw [hl x (by simp)]
    rfl
  | y :: l, x, hc, hp, hl => by
    obtain ⟨a, b, c⟩ := hp x (List.mem_cons_self _ _)
    rw [List.chain'_cons] at hc
    refine ⟨rfl, a, b, c, ?_⟩
    rw [hc.1]
    exact FreeL_of_chain l y hc.2 (fun j hj => hp j (List.mem_cons_of_mem _ hj))
      (fun p hp' => hl p (by rw [List.getLast?_cons_cons]; exact hp'))

/-- A chain stays one when the relation changes at its last element only. -/
theorem chain_of_not_last {R S : Nat → Nat → Prop} : ∀ (l : List Nat), l.Nodup →
    List.Chain' R l → (∀ a b, a ∈ l → some a ≠ l.getLast? → R a b → S a b) → List.Chain' S l
  | [], _, _, _ => List.chain'_nil
  | [x], _, _, _ => List.chain'_singleton x
  | x :: y :: l, hnd, hc, h => by
    rw [List.chain'_cons] at hc ⊢
    have hx : x ∉ y :: l := (List.nodup_cons.1 hnd).1
    refine ⟨h x y (List.mem_cons_self _ _) (fun e => ?_) hc.1,
      chain_of_not_last (y :: l) (List.nodup_cons.1 hnd).2 hc.2 (fun a b ha hne hr =>
        h a b (List.mem_cons_of_mem _ ha) (by rw [List.getLast?_cons_cons]; exact hne) hr)⟩
    rw [List.getLast?_cons_cons] at e
    exact hx (List.mem_of_getLast?_eq_some e.symm)

theorem optimize_empty_slots_loop_spec {m0 : sdmap_heap} {fl : List Nat}
    (hfree : ∀ j, j < m0.slot_count → ((get m0 j).height < 0 ↔ j ∈ fl))
    (hval : ∀ j, j < m0.slot_count → valid m0 j) :
    ∀ (n i : Nat) (m : sdmap_heap) (parent : Option Nat), n + i = m0.slot_count →
    OptInv m0 fl i m parent →
    ∃ m' parent', detail_sdmap_optimize_empty_slots_loop n m i parent = some (m', parent') ∧
      OptInv m0 fl m0.slot_count m' parent'
  | 0, i, m, parent, hn, hI => by
    have : i = m0.slot_count := by omega
    subst this
    exact ⟨m, parent, rfl, hI⟩
  | n + 1, i, m, parent, hn, hI => by
    obtain ⟨a1, a2, a3, a4, a5, a6, a7, a8, a9, a10⟩ := hI
    have hi : i < m0.slot_count := by omega
    have hvm : ∀ j, valid m j ↔ valid m0 j := fun j => by unfold valid; rw [a1]
    have hvi : valid m i := (hvm i).2 (hval i hi)
    simp only [detail_sdmap_optimize_empty_slots_loop, slot_eq_some hvi]
    by_cases hh : (get m i).height ≥ 0
    · rw [if_pos hh]
      have hnot : i ∉ fl := fun hx => by
        have := (hfree i hi).2 hx
        rw [← a7] at this
        omega
      exact optimize_empty_slots_loop_spec hfree hval n (i + 1) m parent (by omega)
        ⟨a1, a2, a3, a4, a5, a6, a7, by rw [seg_succ_not_mem hnot]; exact a8,
          by rw [seg_succ_not_mem hnot]; exact a9, by rw [seg_succ_not_mem hnot]; exact a10⟩
    · rw [if_neg hh]
      have hmem : i ∈ fl := (hfree i hi).1 (by rw [← a7]; omega)
      cases hp : parent with
      | none =>
        simp only
        have hnil : seg fl i = [] := by
          rw [hp] at a9
          exact List.getLast?_eq_none_iff.1 a9.symm
        refine optimize_empty_slots_loop_spec hfree hval n (i + 1) { m with empty_slot := i }
          (some i) (by omega) ⟨a1, a2, a3, a4, a5, a6, a7, ?_, ?_, ?_⟩
        · rw [seg_succ_mem hmem, hnil]; simp
        · rw [seg_succ_mem hmem, hnil]; simp
        · rw [seg_succ_mem hmem, hnil]
          intro x hx
          simp only [List.nil_append, List.head?_cons, Option.some.injEq] at hx
          exact hx
      | some p =>
        simp only
        have hlast : (seg fl i).getLast? = some p := by rw [← a9, hp]
        have hpm : p ∈ seg fl i := List.mem_of_getLast?_eq_some hlast
        have hpfl : p ∈ fl := (mem_seg.1 hpm).2
        have hpi : p < i := (mem_seg.1 hpm).1
        have hvp : valid m p := (hvm p).2 (hval p (by omega))
        obtain ⟨m1, e1, d1, r1, v1, g1⟩ := store_spec (fun s => { s with right := i }) hvp
        rw [e1]
        simp only
        obtain ⟨c1, c2, c3, c4, c5⟩ := d1
        refine optimize_empty_slots_loop_spec hfree hval n (i + 1) m1 (some i) (by omega)
          ⟨c5.trans a1, c3.trans a2, c2.trans a3, r1.trans a4, c1.trans a5, fun j hj => ?_,
            fun j => ?_, ?_, ?_, ?_⟩
        · rw [g1, if_neg (fun (e : j = p) => hj (e ▸ hpfl))]; exact a6 j hj
        · rw [g1]
          split_ifs with e
          · subst e; exact a7 j
          · exact a7 j
        · rw [seg_succ_mem hmem, List.chain'_append]
          refine ⟨?_, List.chain'_singleton i, fun x hx y hy => ?_⟩
          · refine chain_of_not_last _ (seg_nodup fl i) a8 (fun a b _ hne hr => ?_)
            rw [g1, if_neg (fun (e : a = p) => hne (by rw [hlast, e])), hr]
          · rw [hlast] at hx
            simp only [Option.mem_def, Option.some.injEq, List.head?_cons] at hx hy
            subst hx; subst hy
            rw [g1, if_pos rfl]
        · rw [seg_succ_mem hmem]; simp
        · rw [seg_succ_mem hmem]
          intro x hx
          have hne : seg fl i ≠ [] := List.ne_nil_of_mem hpm
          obtain ⟨y, l, hl⟩ := List.exists_cons_of_ne_nil hne
          rw [hl] at hx
          simp only [List.cons_append, List.head?_cons, Option.some.injEq] at hx
          rw [c4]
          exact a10 x (by rw [hl]; simp [hx])

/-- The effect of `detail_sdmap_optimize_empty_slots` on a map that satisfies
the invariant: the empty slots are linked in the order of their indices. -/
theorem optimize_empty_slots_spec {m : sdmap_heap} {T : Tree} {fl : List Nat}
    (hz : ZOK m [] T) (hG : Good T) (hF : FreeL m m.empty_slot fl)
    (hnd : (T.idx ++ fl).Nodup) (hlt : ∀ j ∈ T.idx ++ fl, j < m.slot_count)
    (hcnt : m.count = T.idx.length) (hsum : m.count + fl.length = m.slot_count)
    (hcap : m.slot_count ≤ m.slots.length) (hnv : ¬ valid m NONE) :
    ∃ m', detail_sdmap_optimize_empty_slots m = some m' ∧
      m'.slots.length = m.slots.length ∧ m'.slot_count = m.slot_count ∧ m'.count = m.count ∧
      m'.root_slot = m.root_slot ∧ m'.capacity = m.capacity ∧
      (∀ j, j ∉ fl → get m' j = get m j) ∧ FreeL m' m'.empty_slot (seg fl m.slot_count) := by
  have hval : ∀ j, j < m.slot_count → valid m j := fun j hj => by unfold valid; omega
  have hall := mem_of_nodup_of_length hnd hlt (by rw [List.length_append, ← hcnt, hsum])
  have hfree : ∀ j, j < m.slot_count → ((get m j).height < 0 ↔ j ∈ fl) := by
    intro j hj
    constructor
    · intro hh
      rcases List.mem_append.1 (hall j hj) with h1 | h1
      · have := height_nonneg_of_Good hz.1.2 hG j h1
        omega
      · exact h1
    · intro h1
      exact (FreeL_valid fl _ hF j h1).2
  have hflt : ∀ j ∈ fl, j < m.slot_count := fun j hj => hlt j (List.mem_append_right _ hj)
  have hfnd : fl.Nodup := (List.nodup_append.1 hnd).2.1
  unfold detail_sdmap_optimize_empty_slots
  by_cases he : m.empty_slot = NONE
  · rw [if_pos he]
    have hnil : fl = [] := by
      cases fl with
      | nil => rfl
      | cons x l => exact absurd (he ▸ hF.1 : NONE = x) (fun e => hF.2.1 e.symm)
    subst hnil
    refine ⟨m, rfl, rfl, rfl, rfl, rfl, rfl, fun j _ => rfl, ?_⟩
    have : seg [] m.slot_count = [] := by unfold seg; simp
    rw [this, he]
    rfl
  · rw [if_neg he]
    have hne : fl ≠ [] := fun e => by subst e; exact he hF
    obtain ⟨m1, p', e1, a1, a2, a3, a4, a5, a6, a7, a8, a9, a10⟩ :=
      optimize_empty_slots_loop_spec hfree hval m.slot_count 0 m none (by omega)
        ⟨rfl, rfl, rfl, rfl, rfl, fun _ _ => rfl, fun _ => rfl,
          by unfold seg; simp, by unfold seg; simp, by unfold seg; simp⟩
    rw [e1]
    have hperm := seg_perm hfnd hflt
    have hsne : seg fl m.slot_count ≠ [] := fun e => hne (by
      have := hperm.length_eq
      rw [e] at this
      exact List.length_eq_zero.1 this.symm)
    obtain ⟨x, l, hxl⟩ := List.exists_cons_of_ne_nil hsne
    obtain ⟨p, hp⟩ : ∃ p, (seg fl m.slot_count).getLast? = some p := by
      rw [List.getLast?_eq_getLast _ hsne]; exact ⟨_, rfl⟩
    rw [hp] at a9
    subst a9
    simp only
    have hpm : p ∈ seg fl m.slot_count := List.mem_of_getLast?_eq_some hp
    have hvm : ∀ j, valid m1 j ↔ valid m j := fun j => by unfold valid; rw [a1]
    have hvp : valid m1 p := (hvm p).2 (hval p (mem_seg.1 hpm).1)
    obtain ⟨m2, e2, d2, r2, v2, g2⟩ := store_spec (fun s => { s with right := NONE }) hvp
    obtain ⟨c1, c2, c3, c4, c5⟩ := d2
    refine ⟨m2, e2, c5.trans a1, c3.trans a2, c2.trans a3, r2.trans a4, c1.trans a5,
      fun j hj => ?_, ?_⟩
    · rw [g2, if_neg (fun (e : j = p) => hj (e ▸ (mem_seg.1 hpm).2))]
      exact a6 j hj
    · rw [c4, a10 x (by rw [hxl]; rfl), hxl]
      refine FreeL_of_chain l x ?_ ?_ ?_
      · rw [← hxl]
        refine chain_of_not_last _ (seg_nodup fl _) a8 (fun a b _ hne hr => ?_)
        rw [g2, if_neg (fun (e : a = p) => hne (by rw [hp, e])), hr]
      · intro j hj
        rw [← hxl] at hj
        have hj1 := mem_seg.1 hj
        have hvj : valid m j := hval j hj1.1
        refine ⟨fun e => hnv (e ▸ hvj), (v2 j).2 ((hvm j).2 hvj), ?_⟩
        have hh : (get m2 j).height = (get m1 j).height := by
          rw [g2]; split_ifs with e
          · subst e; rfl
          · rfl
        rw [hh, a7]
        exact (hfree j hj1.1).2 hj1.2
      · intro q hq
        rw [← hxl, hp] at hq
        obtain rfl : p = q := by simpa using hq
        rw [g2, if_pos rfl]

/-- The store of `detail_sdmap_optimize_reduce_slots` that moves the right
subtree of the slot `i` below the slot `e`. -/
theorem reduce_fix_right {m : sdmap_heap} {r : Tree} {i e : Nat} (hv : valid m i)
    (hR : Rep m r i) (hri : (get m i).right = r.lnk i) (hir : i ∉ r.idx) (hnd : r.idx.Nodup) :
    ∃ m', (if (get m i).right ≠ i then
          store m (get m i).right (fun s => { s with parent := e })
        else store m i (fun s => { s with right := e })) = some m' ∧
      SameHdr m m' ∧ m'.root_slot = m.root_slot ∧ (∀ j, valid m' j ↔ valid m j) ∧
      Rep m' r e ∧ get m' i = { get m i with right := r.lnk e } ∧
      (∀ j, j ∉ r.idx → j ≠ i → get m' j = get m j) := by
  cases r with
  | nil =>
    simp only [lnk_nil] at hri ⊢
    rw [hri, if_neg (by simp)]
    obtain ⟨m', e1, d1, r1, v1, g1⟩ := store_spec (fun s => { s with right := e }) hv
    exact ⟨m', e1, d1, r1, v1, trivial, by rw [g1, if_pos rfl],
      fun j _ hj => by rw [g1, if_neg hj]⟩
  | node rl ri rk rv rh rr =>
    simp only [lnk_node] at hri ⊢
    have hne : ri ≠ i := fun e => hir (by simp [Tree.idx, e])
    rw [hri, if_pos hne]
    obtain ⟨m', e1, d1, r1, v1, g1⟩ := store_spec (fun s => { s with parent := e }) hR.1
    refine ⟨m', e1, d1, r1, v1, ?_, ?_, fun j hj _ => ?_⟩
    · refine Rep_reparent (fun j hj => (v1 j).2 hj) hnd ?_ ?_ hR
      · intro l' i' k' v' h' r' e'
        cases e'
        rw [g1, if_pos rfl]
      · intro j _ hj
        simp only [lnk_node] at hj
        rw [g1, if_neg hj]
    · rw [g1, if_neg (Ne.symm hne), ← hri]
    · rw [g1, if_neg (fun (e' : j = ri) => hj (by simp [Tree.idx, e']))]

/-- The store of `detail_sdmap_optimize_reduce_slots` that moves the left
subtree of the slot `i` below the slot `e`. -/
theorem reduce_fix_left {m : sdmap_heap} {l : Tree} {i e : Nat} (hv : valid m i)
    (hR : Rep m l i) (hli : (get m i).left = l.lnk i) (hil : i ∉ l.idx) (hnd : l.idx.Nodup) :
    ∃ m', (if (get m i).left ≠ i then
          store m (get m i).left (fun s => { s with parent := e })
        else store m i (fun s => { s with left := e })) = some m' ∧
      SameHdr m m' ∧ m'.root_slot = m.root_slot ∧ (∀ j, valid m' j ↔ valid m j) ∧
      Rep m' l e ∧ get m' i = { get m i with left := l.lnk e } ∧
      (∀ j, j ∉ l.idx → j ≠ i → get m' j = get m j) := by
  cases l with
  | nil =>
    simp only [lnk_nil] at hli ⊢
    rw [hli, if_neg (by simp)]
    obtain ⟨m', e1, d1, r1, v1, g1⟩ := store_spec (fun s => { s with left := e }) hv
    exact ⟨m', e1, d1, r1, v1, trivial, by rw [g1, if_pos rfl],
      fun j _ hj => by rw [g1, if_neg hj]⟩
  | node rl ri rk rv rh rr =>
    simp only [lnk_node] at hli ⊢
    have hne : ri ≠ i := fun e => hil (by simp [Tree.idx, e])
    rw [hli, if_pos hne]
    obtain ⟨m', e1, d1, r1, v1, g1⟩ := store_spec (fun s => { s with parent := e }) hR.1
    refine ⟨m', e1, d1, r1, v1, ?_, ?_, fun j hj _ => ?_⟩
    · refine Rep_reparent (fun j hj => (v1 j).2 hj) hnd ?_ ?_ hR
      · intro l' i' k' v' h' r' e'
        cases e'
        rw [g1, if_pos rfl]
      · intro j _ hj
        simp only [lnk_node] at hj
        rw [g1, if_neg hj]
    · rw [g1, if_neg (Ne.symm hne), ← hli]
    · rw [g1, if_neg (fun (e' : j = ri) => hj (by simp [Tree.idx, e']))]

/-- The first store of `detail_sdmap_optimize_reduce_slots`: the link to the
slot `i` from above becomes a link to the slot `e`. -/
theorem reduce_fix_parent {m : sdmap_heap} {c : List Frame} {l r : Tree} {i e : Nat}
    {k v h : Int} (hz : ZOK m c (.node l i k v h r)) :
    ∃ m', (if m.root_slot = i then some { m with root_slot := e }
        else do
          let parent ← detail_sdmap_slot m (own c)
          if parent.left = i then store m (own c) (fun s => { s with left := e })
          else store m (own c) (fun s => { s with right := e })) = some m' ∧
      SameHdr m m' ∧ (∀ j, valid m' j ↔ valid m j) ∧ RepC m' c e ∧
      (∀ j, j ∉ cidx c → get m' j = get m j) := by
  have hroot := root_slot_eq_iff hz (by simp)
  simp only [lnk_node] at hroot
  cases c with
  | nil =>
    rw [if_pos (hroot.2 rfl).symm]
    exact ⟨_, rfl, ⟨rfl, rfl, rfl, rfl, rfl⟩, fun _ => Iff.rfl, rfl, fun _ _ => rfl⟩
  | cons f c =>
    have hne : ¬ m.root_slot = i := fun e' => by simpa using hroot.1 e'.symm
    rw [if_neg hne]
    obtain ⟨⟨hC, hR⟩, hnd⟩ := hz
    obtain ⟨ndt, ndc, hdis⟩ := List.nodup_append.1 hnd
    have hfi : f.i ∈ cidx (f :: c) := own_mem_cidx (f :: c) (by simp)
    have hvf : valid m f.i := RepC_valid_of_mem _ _ hC _ hfi
    have hif : i ≠ f.i := fun e' => hdis (by simp [Tree.idx]) (e' ▸ hfi)
    have hL : (get m f.i).left = i ↔ f.isL = true :=
      isL_left (⟨⟨hC, hR⟩, hnd⟩ : ZOK m (f :: c) (.node l i k v h r)) rfl hif
        (by simp [Tree.idx])
    simp only [own_cons]
    rw [slot_eq_some hvf]
    simp only [Option.bind_eq_bind, Option.some_bind]
    by_cases hl : f.isL = true
    · rw [if_pos (hL.2 hl)]
      obtain ⟨m', e1, d1, r1, v1, g1⟩ := store_spec (fun s => { s with left := e }) hvf
      refine ⟨m', e1, d1, v1, ?_, fun j hj => ?_⟩
      · exact RepC_setlink hC ndc (fun j hj => (v1 j).2 hj) r1
          (by rw [g1, if_pos rfl, if_pos hl]) (fun j _ hj => by rw [g1, if_neg hj])
      · rw [g1, if_neg (fun (e' : j = f.i) => hj (e' ▸ hfi))]
    · rw [if_neg (fun e' => hl (hL.1 e'))]
      obtain ⟨m', e1, d1, r1, v1, g1⟩ := store_spec (fun s => { s with right := e }) hvf
      refine ⟨m', e1, d1, v1, ?_, fun j hj => ?_⟩
      · exact RepC_setlink hC ndc (fun j hj => (v1 j).2 hj) r1
          (by rw [g1, if_pos rfl, if_neg hl]) (fun j _ hj => by rw [g1, if_neg hj])
      · rw [g1, if_neg (fun (e' : j = f.i) => hj (e' ▸ hfi))]

set_option maxHeartbeats 1000000 in
/-- One turn of the loop of `detail_sdmap_optimize_reduce_slots` at a slot in
use: the node of the slot `i` moves to the first empty slot `e`. -/
theorem reduce_move {m : sdmap_heap} {c : List Frame} {l r : Tree} {i e : Nat} {k v h : Int}
    (hz : ZOK m c (.node l i k v h r)) (hh : 0 ≤ h) (he : m.empty_slot = e)
    (hve : valid m e) (hen : e ∉ (Tree.node l i k v h r).idx ++ cidx c) (n : Nat) :
    ∃ m', detail_sdmap_optimize_reduce_slots_loop (n + 1) m i =
        detail_sdmap_optimize_reduce_slots_loop n m' (i + 1) ∧
      ZOK m' c (.node l e k v h r) ∧ m'.capacity = m.capacity ∧ m'.count = m.count ∧
      m'.slot_count = m.slot_count ∧ m'.slots.length = m.slots.length ∧
      m'.empty_slot = (get m e).right ∧
      (∀ j, j ∉ (Tree.node l i k v h r).idx ++ cidx c → j ≠ e → get m' j = get m j) := by
  subst he
  obtain ⟨hvi, -, hl, hr, -, -, -, -⟩ := node_facts hz
  obtain ⟨ndN, ndl, ndr, hil, hir, hlr⟩ := node_idx_facts hz.2
  have hG := Rep_get hz.1.2
  have hdis := (List.nodup_append.1 hz.2).2.2
  have hic : i ∉ cidx c := fun hx => hdis (by simp [Tree.idx]) hx
  simp only [List.mem_append, Tree.idx, List.mem_cons, not_or] at hen
  obtain ⟨⟨hel, hei, her⟩, hec⟩ := hen
  have hpar : (get m i).parent = own c := by rw [hG]
  have hhe : ¬ (get m i).height < 0 := by rw [hG]; simpa using hh
  simp only [detail_sdmap_optimize_reduce_slots_loop, slot_eq_some hvi]
  rw [if_neg hhe, hpar]
  -- the link from above
  obtain ⟨m1, e1, d1, v1, C1, g1⟩ := @reduce_fix_parent m c l r i m.empty_slot k v h hz
  rw [e1]
  simp only [Option.bind_eq_bind, Option.some_bind]
  obtain ⟨c1, c2, c3, c4, c5⟩ := d1
  have hi1 : get m1 i = get m i := g1 i hic
  have hR1 : Rep m1 (.node l i k v h r) (own c) :=
    Rep_congr (fun j hj => (v1 j).2 hj) _ _ (fun j hj => g1 j (fun hx => hdis hj hx)) hz.1.2
  -- the right subtree
  rw [slot_eq_some ((v1 i).2 hvi)]
  simp only [Option.some_bind]
  obtain ⟨m2, e2, d2, r2, v2, R2, i2, g2⟩ := @reduce_fix_right m1 r i m1.empty_slot
    ((v1 i).2 hvi) hR1.2.2.2 (by rw [hi1, hr]) hir ndr
  rw [e2]
  simp only [Option.some_bind]
  obtain ⟨c21, c22, c23, c24, c25⟩ := d2
  rw [c4] at R2 i2
  have hem2 : m2.empty_slot = m.empty_slot := c24.trans c4
  -- the left subtree
  rw [slot_eq_some ((v2 i).2 ((v1 i).2 hvi))]
  simp only [Option.some_bind]
  have hL2 : Rep m2 l i := Rep_congr (fun j hj => (v2 j).2 hj) _ _
    (fun j hj => g2 j (hlr j hj) (fun (e : j = i) => hil (e ▸ hj))) hR1.2.2.1
  obtain ⟨m3, e3, d3, r3, v3, L3, i3, g3⟩ := @reduce_fix_left m2 l i m2.empty_slot
    ((v2 i).2 ((v1 i).2 hvi)) hL2 (by rw [i2, hi1]; exact hl) hil ndl
  rw [e3]
  simp only [Option.some_bind]
  obtain ⟨c31, c32, c33, c34, c35⟩ := d3
  rw [hem2] at L3 i3
  -- the copy
  have hem : m3.empty_slot = m.empty_slot := by rw [c34, c24, c4]
  have hv3 : ∀ j, valid m3 j ↔ valid m j := fun j => by rw [v3, v2, v1]
  have hei' : m.empty_slot ≠ i := hei
  have hge : get m3 m.empty_slot = get m m.empty_slot := by
    rw [g3 _ hel hei', g2 _ her hei', g1 _ hec]
  rw [hem, slot_eq_some ((hv3 _).2 hve)]
  simp only [Option.some_bind]
  have hvi4 : valid { m3 with empty_slot := (get m3 m.empty_slot).right } i := (hv3 i).2 hvi
  rw [slot_eq_some hvi4]
  simp only [Option.some_bind]
  have hve4 : valid { m3 with empty_slot := (get m3 m.empty_slot).right } m.empty_slot :=
    (hv3 _).2 hve
  obtain ⟨m5, e5, d5, r5, v5, g5⟩ := store_spec
    (fun _ => get { m3 with empty_slot := (get m3 m.empty_slot).right } i) hve4
  rw [e5]
  simp only [Option.some_bind]
  obtain ⟨c51, c52, c53, c54, c55⟩ := d5
  have hg5 : ∀ j, get m5 j = if j = m.empty_slot then get m3 i else get m3 j := g5
  have hv5 : ∀ j, valid m j → valid m5 j := fun j hj => (v5 j).2 ((hv3 j).2 hj)
  refine ⟨m5, rfl, ⟨⟨?_, hv5 _ hve, ?_, ?_, ?_⟩, ?_⟩, ?_, ?_, ?_, ?_, ?_, ?_⟩
  · refine RepC_congr (fun j hj => (v5 j).2 ((v3 j).2 ((v2 j).2 hj))) ?_ c _
      (fun j hj => ?_) C1
    · exact r5.trans (r3.trans r2)
    · have hjN : j ∉ (Tree.node l i k v h r).idx := fun hx => hdis hx hj
      simp only [Tree.idx, List.mem_append, List.mem_cons, not_or] at hjN
      rw [hg5, if_neg (fun (e : j = m.empty_slot) => hec (e ▸ hj)), g3 j hjN.1 hjN.2.1,
        g2 j hjN.2.2 hjN.2.1]
  · rw [hg5, if_pos rfl, i3, i2, hi1, hG]
  · refine @Rep_congr m3 m5 (fun j hj => (v5 j).2 hj) _ _ (fun j hj => ?_) L3
    rw [hg5, if_neg (fun (e : j = m.empty_slot) => hel (e ▸ hj))]
  · have R3 : Rep m3 r m.empty_slot := by
      refine Rep_congr (fun j hj => (v3 j).2 hj) _ _ (fun j hj => ?_) R2
      exact g3 j (fun hx => hlr j hx hj) (fun (e : j = i) => hir (e ▸ hj))
    refine @Rep_congr m3 m5 (fun j hj => (v5 j).2 hj) _ _ (fun j hj => ?_) R3
    rw [hg5, if_neg (fun (e : j = m.empty_slot) => her (e ▸ hj))]
  · have hp : ((Tree.node l m.empty_slot k v h r).idx ++ cidx c).Perm
        (m.empty_slot :: (l.idx ++ (r.idx ++ cidx c))) := by
      simp only [Tree.idx, List.append_assoc, List.cons_append]
      exact List.perm_middle
    have hq : ((Tree.node l i k v h r).idx ++ cidx c).Perm (i :: (l.idx ++ (r.idx ++ cidx c))) := by
      simp only [Tree.idx, List.append_assoc, List.cons_append]
      exact List.perm_middle
    rw [hp.nodup_iff, List.nodup_cons]
    refine ⟨by simp [hel, her, hec], (List.nodup_cons.1 (hq.nodup_iff.1 hz.2)).2⟩
  · rw [c51]; show m3.capacity = _; rw [c31, c21, c1]
  · rw [c52]; show m3.count = _; rw [c32, c22, c2]
  · rw [c53]; show m3.slot_count = _; rw [c33, c23, c3]
  · rw [c55]; show m3.slots.length = _; rw [c35, c25, c5]
  · rw [c54]; show (get m3 m.empty_slot).right = _; rw [hge]
  · intro j hj hje
    simp only [Tree.idx, List.mem_append, List.mem_cons, not_or] at hj
    rw [hg5, if_neg hje, g3 j hj.1.1 hj.1.2.1, g2 j hj.1.2.2 hj.1.2.1, g1 j hj.2]

theorem shape_fill (f : Frame) {t t' : Tree} (h : t'.shape = t.shape) :
    (f.fill t').shape = (f.fill t).shape := by
  cases f <;> simp [Frame.fill, Tree.shape, h]

theorem shape_plug : ∀ (c : List Frame) (t t' : Tree), t'.shape = t.shape →
    (plug c t').shape = (plug c t).shape
  | [], _, _, h => h
  | f :: c, t, t', h => shape_plug c _ _ (shape_fill f h)

theorem shape_keys : ∀ (t : Tree), t.shape.keys = t.keys
  | .nil => rfl
  | .node l _ _ _ _ r => by simp [Tree.shape, Tree.keys, shape_keys l, shape_keys r]

theorem shape_pairs : ∀ (t : Tree), t.shape.pairs = t.pairs
  | .nil => rfl
  | .node l _ _ _ _ r => by simp [Tree.shape, Tree.pairs, shape_pairs l, shape_pairs r]

theorem shape_triples : ∀ (t : Tree), t.shape.triples = t.triples
  | .nil => rfl
  | .node l _ _ _ _ r => by simp [Tree.shape, Tree.triples, shape_triples l, shape_triples r]

theorem shape_hgt : ∀ (t : Tree), t.shape.hgt = t.hgt
  | .nil => rfl
  | .node l _ _ _ _ r => by simp [Tree.shape, Tree.hgt, shape_hgt l, shape_hgt r]

theorem shape_depth : ∀ (t : Tree), t.shape.depth = t.depth
  | .nil => rfl
  | .node l _ _ _ _ r => by simp [Tree.shape, Tree.depth, shape_depth l, shape_depth r]

theorem shape_Exact : ∀ (t : Tree), Exact t.shape ↔ Exact t
  | .nil => Iff.rfl
  | .node l _ _ _ _ r => by
    simp only [Tree.shape, Exact, shape_hgt, shape_Exact l, shape_Exact r]

theorem shape_AVL : ∀ (t : Tree), AVL t.shape ↔ AVL t
  | .nil => Iff.rfl
  | .node l _ _ _ _ r => by
    simp only [Tree.shape, AVL, shape_hgt, shape_AVL l, shape_AVL r]

theorem shape_Good (t : Tree) : Good t.shape ↔ Good t := by
  cases t with
  | nil => exact Iff.rfl
  | node l i k v h r =>
    have := shape_AVL (.node l i k v h r)
    simp only [Tree.shape] at this
    simp only [Tree.shape, Good, shape_Exact, this]

theorem Good_of_shape {t t' : Tree} (h : t'.shape = t.shape) (hG : Good t) : Good t' :=
  (shape_Good t').1 (h ▸ (shape_Good t).2 hG)

theorem BST_of_shape {t t' : Tree} (h : t'.shape = t.shape) (hB : BST t) : BST t' := by
  unfold BST at *
  rw [← shape_keys, h, shape_keys]
  exact hB

theorem plug_snoc : ∀ (c : List Frame) (f : Frame) (t : Tree),
    plug (c ++ [f]) t = f.fill (plug c t)
  | [], _, _ => rfl
  | g :: c, f, t => by simp only [List.cons_append, plug]; exact plug_snoc c f _

/-- Every slot of a tree is the root of a subtree at the open place of a
path. -/
theorem exists_plug : ∀ (T : Tree) (i : Nat), i ∈ T.idx →
    ∃ c l k v h r, T = plug c (.node l i k v h r)
  | .nil, _, hi => by simp [Tree.idx] at hi
  | .node L j kj vj hj R, i, hi => by
    simp only [Tree.idx, List.mem_append, List.mem_cons] at hi
    rcases hi with hi | rfl | hi
    · obtain ⟨c, l, k, v, h, r, e⟩ := exists_plug L i hi
      exact ⟨c ++ [.L j kj vj hj R], l, k, v, h, r, by rw [plug_snoc, ← e]; rfl⟩
    · exact ⟨[], L, kj, vj, hj, R, rfl⟩
    · obtain ⟨c, l, k, v, h, r, e⟩ := exists_plug R i hi
      exact ⟨c ++ [.R L j kj vj hj], l, k, v, h, r, by rw [plug_snoc, ← e]; rfl⟩

/-- The stored height of the node at the open place of a path in a tree that
is `Good` is not negative. -/
theorem stored_height_nonneg {m : sdmap_heap} {T : Tree} (hz : ZOK m [] T) (hG : Good T)
    {c : List Frame} {l r : Tree} {i : Nat} {k v h : Int}
    (e : T = plug c (.node l i k v h r)) : 0 ≤ h := by
  have hz' : ZOK m c (.node l i k v h r) := by
    have := (ZOK_plug c [] (.node l i k v h r)).2 (e ▸ hz)
    simpa using this
  have hi : i ∈ T.idx := by
    rw [e]
    exact (plug_idx_perm c _).symm.subset (by simp [Tree.idx])
  have := height_nonneg_of_Good hz.1.2 hG i hi
  rw [Rep_get hz'.1.2] at this
  exact this

/-- A slot in use at or above `count` leaves an empty slot below `count`. -/
theorem exists_free_below {s : List Nat} {n i : Nat} (hlen : s.length = n)
    (hi : i ∈ s) (hge : n ≤ i) : ∃ j, j < n ∧ j ∉ s := by
  by_contra hc
  have hall : ∀ j, j < n → j ∈ s := fun j hj => by
    by_contra hx
    exact hc ⟨j, hj, hx⟩
  have hnd2 : (i :: List.range n).Nodup :=
    List.nodup_cons.2 ⟨fun hx => by have := List.mem_range.1 hx; omega, List.nodup_range n⟩
  have hsub : (i :: List.range n) ⊆ s := fun j hj => by
    rcases List.mem_cons.1 hj with rfl | hj
    · exact hi
    · exact hall j (List.mem_range.1 hj)
  have := (List.subperm_of_subset hnd2 hsub).length_le
  simp at this
  omega

set_option maxHeartbeats 1000000 in
theorem reduce_slots_loop_spec {m0 : sdmap_heap} {T0 : Tree} (hG0 : Good T0)
    (hcap : m0.slot_count ≤ m0.slots.length) :
    ∀ (n i : Nat) (m : sdmap_heap), n + i = m0.slot_count → m0.count ≤ i → RedInv m0 T0 i m →
    ∃ m', detail_sdmap_optimize_reduce_slots_loop n m i = some m' ∧
      RedInv m0 T0 m0.slot_count m'
  | 0, i, m, hn, _, hI => by
    have : i = m0.slot_count := by omega
    subst this
    exact ⟨m, rfl, hI⟩
  | n + 1, i, m, hn, hci, hI => by
    obtain ⟨T, fl, hz, hsh, hF, hso, hnd, hb, hlt, hlen, hcov, e1, e2, e3, e4⟩ := hI
    have hi : i < m0.slot_count := by omega
    have hvi : valid m i := by unfold valid; omega
    have hG : Good T := Good_of_shape hsh hG0
    obtain ⟨ndT, ndf, hdis⟩ := List.nodup_append.1 hnd
    rcases hcov i hi (Or.inr (le_refl i)) with hiT | hif
    · -- the slot is in use: its node moves to the first empty slot
      obtain ⟨c, l, k, v, h, r, eT⟩ := exists_plug T i hiT
      have hz' : ZOK m c (.node l i k v h r) := by
        have := (ZOK_plug c [] (.node l i k v h r)).2 (eT ▸ hz)
        simpa using this
      have hh := stored_height_nonneg hz hG eT
      have hperm : T.idx.Perm ((Tree.node l i k v h r).idx ++ cidx c) := by
        rw [eT]; exact plug_idx_perm c _
      obtain ⟨j0, hj0, hj0T⟩ := exists_free_below hlen hiT hci
      have hj0f : j0 ∈ fl := by
        rcases hcov j0 (by omega) (Or.inl hj0) with h1 | h1
        · exact absurd h1 hj0T
        · exact h1
      obtain ⟨e, fl', rfl⟩ : ∃ e fl', fl = e :: fl' := by
        cases fl with
        | nil => simp at hj0f
        | cons e fl' => exact ⟨e, fl', rfl⟩
      have hec : e < m0.count := by
        rcases List.mem_cons.1 hj0f with h1 | h1
        · omega
        · have := (List.pairwise_cons.1 hso).1 j0 h1
          omega
      obtain ⟨he, heN, hve, -, hF'⟩ := hF
      have heT : e ∉ T.idx := fun hx => hdis hx (List.mem_cons_self _ _)
      have hen : e ∉ (Tree.node l i k v h r).idx ++ cidx c := fun hx => heT (hperm.symm.subset hx)
      obtain ⟨m', el, hzm, c1, c2, c3, c4, c5, g⟩ := reduce_move hz' hh he hve hen n
      rw [el]
      have hzT : ZOK m' [] (plug c (.node l e k v h r)) := by
        have := (ZOK_plug c [] (.node l e k v h r)).1 (by simpa using hzm)
        exact this
      have hperm' : (plug c (.node l e k v h r)).idx.Perm
          ((Tree.node l e k v h r).idx ++ cidx c) := plug_idx_perm c _
      have hmem : ∀ j, j ∈ (plug c (.node l e k v h r)).idx → j = e ∨ (j ∈ T.idx ∧ j ≠ i) := by
        intro j hj
        have h1 := hperm'.subset hj
        have hndN := hperm.nodup_iff.1 ndT
        simp only [Tree.idx, List.mem_append, List.mem_cons] at h1
        simp only [Tree.idx, List.append_assoc, List.cons_append] at hndN
        have hq : (l.idx ++ i :: (r.idx ++ cidx c)).Perm (i :: (l.idx ++ (r.idx ++ cidx c))) :=
          List.perm_middle
        have hni := (List.nodup_cons.1 (hq.nodup_iff.1 hndN)).1
        simp only [List.mem_append, not_or] at hni
        rcases h1 with (h1 | rfl | h1) | h1
        · exact Or.inr ⟨hperm.symm.subset (by simp [Tree.idx, h1]),
            fun (e' : j = i) => hni.1 (e' ▸ h1)⟩
        · exact Or.inl rfl
        · exact Or.inr ⟨hperm.symm.subset (by simp [Tree.idx, h1]),
            fun (e' : j = i) => hni.2.1 (e' ▸ h1)⟩
        · exact Or.inr ⟨hperm.symm.subset (by simp [Tree.idx, h1]),
            fun (e' : j = i) => hni.2.2 (e' ▸ h1)⟩
      have hmem2 : ∀ j, j ∈ T.idx → j ≠ i → j ∈ (plug c (.node l e k v h r)).idx := by
        intro j hj hji
        have h1 := hperm.subset hj
        apply hperm'.symm.subset
        simp only [Tree.idx, List.mem_append, List.mem_cons] at h1 ⊢
        tauto
      have heT' : e ∈ (plug c (.node l e k v h r)).idx :=
        hperm'.symm.subset (by simp [Tree.idx])
      refine reduce_slots_loop_spec hG0 hcap n (i + 1) m' (by omega) (by omega)
        ⟨plug c (.node l e k v h r), fl', hzT, ?_, ?_, (List.pairwise_cons.1 hso).2, ?_, ?_, ?_,
          ?_, ?_, c2.trans e1, c3.trans e2, c1.trans e3, c4.trans e4⟩
      · rw [← hsh, eT]
        exact shape_plug c _ _ rfl
      · rw [c5]
        refine FreeL_congr (fun j hj => by unfold valid at *; omega) fl' _ (fun j hj => ?_) hF'
        refine g j (fun hx => hdis (hperm.symm.subset hx) (List.mem_cons_of_mem _ hj)) ?_
        intro e'
        exact (List.nodup_cons.1 ndf).1 (e' ▸ hj)
      · refine List.nodup_append.2 ⟨ZOK_nodup hzT, (List.nodup_cons.1 ndf).2, ?_⟩
        intro j hj hjf
        rcases hmem j hj with rfl | ⟨h1, -⟩
        · exact (List.nodup_cons.1 ndf).1 hjf
        · exact hdis h1 (List.mem_cons_of_mem _ hjf)
      · intro j hj
        rcases hmem j hj with rfl | ⟨h1, h2⟩
        · exact Or.inl hec
        · rcases hb j h1 with h3 | h3
          · exact Or.inl h3
          · exact Or.inr (by omega)
      · intro j hj
        rcases List.mem_append.1 hj with h1 | h1
        · rcases hmem j h1 with rfl | ⟨h2, -⟩
          · omega
          · exact hlt j (List.mem_append_left _ h2)
        · exact hlt j (List.mem_append_right _ (List.mem_cons_of_mem _ h1))
      · rw [← hlen, hperm'.length_eq, hperm.length_eq]
        simp [Tree.idx]
      · intro j hj hji
        have hji' : j ≠ i := by omega
        rcases hcov j hj (by omega) with h1 | h1
        · exact Or.inl (hmem2 j h1 hji')
        · rcases List.mem_cons.1 h1 with rfl | h2
          · exact Or.inl heT'
          · exact Or.inr h2
    · -- the slot is empty
      have hneg : (get m i).height < 0 := (FreeL_valid fl _ hF i hif).2
      simp only [detail_sdmap_optimize_reduce_slots_loop, slot_eq_some hvi]
      rw [if_pos hneg]
      refine reduce_slots_loop_spec hG0 hcap n (i + 1) m (by omega) (by omega)
        ⟨T, fl, hz, hsh, hF, hso, hnd, ?_, hlt, hlen, ?_, e1, e2, e3, e4⟩
      · intro j hj
        rcases hb j hj with h1 | h1
        · exact Or.inl h1
        · have : j ≠ i := fun e' => hdis hj (e' ▸ hif)
          exact Or.inr (by omega)
      · intro j hj hji
        exact hcov j hj (by omega)

/-- The effect of `detail_sdmap_optimize_impl` on a map that satisfies the
invariant: the same nodes are held in the slots below `count`, and no slot is
left over. -/
theorem optimize_impl_spec {m : sdmap_heap} {T : Tree} {fl : List Nat}
    (hz : ZOK m [] T) (hG : Good T) (hF : FreeL m m.empty_slot fl)
    (hnd : (T.idx ++ fl).Nodup) (hlt : ∀ j ∈ T.idx ++ fl, j < m.slot_count)
    (hcnt : m.count = T.idx.length) (hsum : m.count + fl.length = m.slot_count)
    (hcap : m.slot_count ≤ m.slots.length) (hnv : ¬ valid m NONE) :
    ∃ m' T', detail_sdmap_optimize_impl m = some m' ∧ ZOK m' [] T' ∧ T'.shape = T.shape ∧
      (∀ j ∈ T'.idx, j < m.count) ∧ T'.idx.length = m.count ∧ m'.count = m.count ∧
      m'.slot_count = m.count ∧ m'.empty_slot = NONE ∧ m'.root_slot = T'.lnk NONE ∧
      m'.capacity = m.capacity ∧ m'.slots.length = m.slots.length := by
  obtain ⟨m1, e1, a1, a2, a3, a4, a5, a6, a7⟩ :=
    optimize_empty_slots_spec hz hG hF hnd hlt hcnt hsum hcap hnv
  obtain ⟨ndT, ndf, hdis⟩ := List.nodup_append.1 hnd
  have hflt : ∀ j ∈ fl, j < m.slot_count := fun j hj => hlt j (List.mem_append_right _ hj)
  have hperm := seg_perm ndf hflt
  have hall := mem_of_nodup_of_length hnd hlt (by rw [List.length_append, ← hcnt, hsum])
  have hv1 : ∀ j, valid m j → valid m1 j := fun j hj => by unfold valid at *; omega
  have hz1 : ZOK m1 [] T := by
    refine ⟨⟨?_, ?_⟩, hz.2⟩
    · exact RepC_congr hv1 a4 [] _ (fun j hj => by simp [cidx] at hj) hz.1.1
    · exact Rep_congr hv1 T _ (fun j hj => a6 j (fun hx => hdis hj hx)) hz.1.2
  have hI : RedInv m1 T m1.count m1 := by
    refine ⟨T, seg fl m.slot_count, hz1, rfl, a7, seg_sorted _ _, ?_, fun j _ => ?_, ?_, ?_, ?_,
      rfl, rfl, rfl, rfl⟩
    · exact (List.Perm.append_left _ hperm).nodup_iff.2 hnd
    · exact (Nat.lt_or_ge j m1.count).imp id id
    · intro j hj
      rw [a2]
      exact hlt j ((List.Perm.append_left _ hperm).subset hj)
    · rw [a3, hcnt]
    · intro j hj _
      rw [a2] at hj
      rcases List.mem_append.1 (hall j hj) with h1 | h1
      · exact Or.inl h1
      · exact Or.inr (hperm.symm.subset h1)
  obtain ⟨m2, e2, T2, fl2, hz2, hsh, -, -, -, hb, hlt2, hlen, -, c1, c2, c3, c4⟩ :=
    reduce_slots_loop_spec (Good_of_shape rfl hG) (by rw [a1, a2]; exact hcap)
      (m1.slot_count - m1.count) m1.count m1 (by rw [a2, a3]; omega) (le_refl _) hI
  have hz3 : ZOK { m2 with slot_count := m2.count, empty_slot := NONE } [] T2 :=
    ⟨⟨hz2.1.1, @Rep_congr m2 { m2 with slot_count := m2.count, empty_slot := NONE }
      (fun j hj => hj) T2 _ (fun j _ => rfl) hz2.1.2⟩, hz2.2⟩
  refine ⟨{ m2 with slot_count := m2.count, empty_slot := NONE }, T2, ?_, hz3, hsh, ?_,
    hlen.trans a3, c1.trans a3, c1.trans a3, rfl, hz2.1.1, c3.trans a5, c4.trans a1⟩
  · unfold detail_sdmap_optimize_impl detail_sdmap_optimize_reduce_slots
    rw [e1]
    simp only [Option.bind_eq_bind, Option.some_bind]
    rw [e2]
  · intro j hj
    rw [← a3]
    rcases hb j hj with h1 | h1
    · exact h1
    · have := hlt2 j (List.mem_append_left _ hj)
      omega

/-- The compaction keeps the invariant of a heap map. -/
theorem Inv_optimize {ks vs : Nat} {m m' : sdmap_heap} (hI : Inv ks vs m)
    (h : detail_sdmap_optimize_impl m = some m') : Inv ks vs m' := by
  obtain ⟨T, fl, hz, hG, hB, hF, hnd, hlt, hcnt, hsum, hcap⟩ := hI
  obtain ⟨m2, T2, e, hz2, hsh, hb, hlen, c1, c2, c3, -, c5, c6⟩ :=
    optimize_impl_spec hz hG hF hnd hlt hcnt hsum hcap.2.1 (not_valid_NONE hcap)
  rw [e] at h
  obtain rfl : m2 = m' := Option.some.inj h
  refine ⟨T2, [], hz2, Good_of_shape hsh hG, BST_of_shape hsh hB, c3, ?_, ?_, ?_, ?_, ?_⟩
  · simpa using ZOK_nodup hz2
  · intro j hj
    rw [c2]
    exact hb j (by simpa using hj)
  · rw [c1, hlen]
  · rw [c1, c2]; rfl
  · obtain ⟨h1, h2, h3⟩ := hcap
    exact ⟨by rw [c6, c5]; exact h1, by rw [c2, c6]; omega, by rw [c5]; exact h3⟩

/-! ## The invariant holds in every reachable map -/

theorem Inv_of_Reachable {ks vs : Nat} {m : sdmap_heap} (h : Reachable ks vs m) : Inv ks vs m := by
  induction h with
  | new capacity garbage hlen hcap => exact Inv_new ks vs capacity garbage hlen hcap
  | set fuel key value _ h ih => exact Inv_set ih h
  | erase fuel key _ h ih => exact Inv_erase ih h
  | optimize _ h ih => exact Inv_optimize ih h

/-! ## The observers of the claims read the tree -/

theorem Rep_lnk0 {m : sdmap_heap} {t : Tree} {o : Nat} (h : Rep m t o) (ht : t ≠ .nil) :
    valid m (t.lnk 0) := by
  cases t with
  | nil => exact absurd rfl ht
  | node l i k v hh r => exact h.1

theorem node_links {m : sdmap_heap} {l r : Tree} {i o : Nat} {k v h : Int}
    (hR : Rep m (.node l i k v h r) o) (hnd : (Tree.node l i k v h r).idx.Nodup) :
    detail_sdmap_slot m i = some (get m i) ∧ (get m i).key = k ∧
    (get m i).left = l.lnk i ∧ (get m i).right = r.lnk i ∧
    (l.lnk i ≠ i ↔ l ≠ .nil) ∧ (r.lnk i ≠ i ↔ r ≠ .nil) ∧ l.idx.Nodup ∧ r.idx.Nodup := by
  obtain ⟨-, nl, nr, il, ir, -⟩ := node_idx_facts (s := []) (by simpa using hnd)
  have hG := Rep_get hR
  refine ⟨slot_eq_some hR.1, by rw [hG], by rw [hG], by rw [hG], ?_, ?_, nl, nr⟩
  · exact not_congr (lnk_self_iff l il)
  · exact not_congr (lnk_self_iff r ir)

theorem lnk_eq0 {t : Tree} (ht : t ≠ .nil) (o : Nat) : t.lnk o = t.lnk 0 := by
  cases t with
  | nil => exact absurd rfl ht
  | node _ _ _ _ _ _ => rfl

theorem inorder_keys_rep {m : sdmap_heap} : ∀ (t : Tree) (o : Nat), Rep m t o → t.idx.Nodup →
    t ≠ .nil → ∀ fuel, t.depth ≤ fuel → inorder_keys fuel m (t.lnk 0) = some t.keys
  | .nil, _, _, _, ht, _, _ => absurd rfl ht
  | .node l i k v h r, o, hR, hnd, _, fuel, hf => by
    obtain ⟨hs, hk, hl, hr, hln, hrn, nl, nr⟩ := node_links hR hnd
    obtain ⟨n, rfl⟩ : ∃ n, fuel = n + 1 := ⟨fuel - 1, by simp [Tree.depth] at hf; omega⟩
    simp only [Tree.depth] at hf
    rw [inorder_keys, lnk_node, hs]
    simp only [hk, hl, hr]
    have e1 : (if l.lnk i ≠ i then inorder_keys n m (l.lnk i) else some []) = some l.keys := by
      by_cases hl0 : l = .nil
      · subst hl0; simp [Tree.keys]
      · rw [if_pos (hln.2 hl0), lnk_eq0 hl0]
        exact inorder_keys_rep l i hR.2.2.1 nl hl0 n (by omega)
    have e2 : (if r.lnk i ≠ i then inorder_keys n m (r.lnk i) else some []) = some r.keys := by
      by_cases hr0 : r = .nil
      · subst hr0; simp [Tree.keys]
      · rw [if_pos (hrn.2 hr0), lnk_eq0 hr0]
        exact inorder_keys_rep r i hR.2.2.2 nr hr0 n (by omega)
    rw [e1, e2]; rfl

theorem sanity_height_rep {m : sdmap_heap} : ∀ (t : Tree) (o : Nat), Rep m t o → t.idx.Nodup →
    t ≠ .nil → ∀ fuel, t.depth ≤ fuel →
    debug_sdmap_sanity_height fuel m (t.lnk 0) = some t.hgt
  | .nil, _, _, _, ht, _, _ => absurd rfl ht
  | .node l i k v h r, o, hR, hnd, _, fuel, hf => by
    obtain ⟨hs, hk, hl, hr, hln, hrn, nl, nr⟩ := node_links hR hnd
    obtain ⟨n, rfl⟩ : ∃ n, fuel = n + 1 := ⟨fuel - 1, by simp [Tree.depth] at hf; omega⟩
    simp only [Tree.depth] at hf
    have gl := hgt_ge l
    have gr := hgt_ge r
    rw [debug_sdmap_sanity_height, lnk_node, hs]
    simp only [hl, hr]
    have e1 : (if l.lnk i ≠ i then
        (debug_sdmap_sanity_height n m (l.lnk i)).map (fun h => if h + 1 > 0 then h + 1 else 0)
        else some 0) = some (1 + l.hgt) := by
      by_cases hl0 : l = .nil
      · subst hl0; simp [Tree.hgt]
      · rw [if_pos (hln.2 hl0), lnk_eq0 hl0, sanity_height_rep l i hR.2.2.1 nl hl0 n (by omega)]
        have : 0 ≤ l.hgt := by
          cases l with
          | nil => exact absurd rfl hl0
          | node a _ _ _ _ b =>
            simp only [Tree.hgt]; have := hgt_ge a; have := hgt_ge b; omega
        simp only [Option.map_some', Option.some.injEq]
        rw [if_pos (by omega)]; omega
    rw [e1]
    simp only
    by_cases hr0 : r = .nil
    · subst hr0
      simp only [lnk_nil, ne_eq, not_true_eq_false, if_false, Tree.hgt, Option.some.injEq]
      omega
    · rw [if_pos (hrn.2 hr0), lnk_eq0 hr0, sanity_height_rep r i hR.2.2.2 nr hr0 n (by omega)]
      have : 0 ≤ r.hgt := by
        cases r with
        | nil => exact absurd rfl hr0
        | node a _ _ _ _ b =>
          simp only [Tree.hgt]; have := hgt_ge a; have := hgt_ge b; omega
      simp only [Option.map_some', Option.some.injEq, Tree.hgt]
      split_ifs <;> omega

/-! ## The lookups read the keys of the tree -/

theorem count_helper_rep {m : sdmap_heap} : ∀ (t : Tree) (o : Nat), Rep m t o → t.idx.Nodup →
    t ≠ .nil → ∀ fuel, t.depth ≤ fuel →
    debug_sdmap_sanity_count_helper fuel m (t.lnk 0) = some t.idx.length
  | .nil, _, _, _, ht, _, _ => absurd rfl ht
  | .node l i k v h r, o, hR, hnd, _, fuel, hf => by
    obtain ⟨hs, hk, hl, hr, hln, hrn, nl, nr⟩ := node_links hR hnd
    obtain ⟨n, rfl⟩ : ∃ n, fuel = n + 1 := ⟨fuel - 1, by simp [Tree.depth] at hf; omega⟩
    simp only [Tree.depth] at hf
    rw [debug_sdmap_sanity_count_helper, lnk_node, hs]
    simp only [hl, hr]
    have e1 : (if l.lnk i ≠ i then
        (debug_sdmap_sanity_count_helper n m (l.lnk i)).map (fun x => 1 + x)
        else some 1) = some (1 + l.idx.length) := by
      by_cases hl0 : l = .nil
      · subst hl0; simp [Tree.idx]
      · rw [if_pos (hln.2 hl0), lnk_eq0 hl0, count_helper_rep l i hR.2.2.1 nl hl0 n (by omega)]
        rfl
    rw [e1]
    simp only
    by_cases hr0 : r = .nil
    · subst hr0
      simp [Tree.idx]; omega
    · rw [if_pos (hrn.2 hr0), lnk_eq0 hr0, count_helper_rep r i hR.2.2.2 nr hr0 n (by omega)]
      simp [Tree.idx]; omega

theorem min_key_loop_rep {m : sdmap_heap} : ∀ (t : Tree) (o : Nat), Rep m t o → t.idx.Nodup →
    t ≠ .nil → ∀ fuel, t.depth ≤ fuel →
    ∃ k rest, t.keys = k :: rest ∧ detail_sdmap_get_min_key_loop fuel m (t.lnk 0) = some k
  | .nil, _, _, _, ht, _, _ => absurd rfl ht
  | .node l i k v h r, o, hR, hnd, _, fuel, hf => by
    obtain ⟨hs, hk, hl, hr, hln, hrn, nl, nr⟩ := node_links hR hnd
    obtain ⟨n, rfl⟩ : ∃ n, fuel = n + 1 := ⟨fuel - 1, by simp [Tree.depth] at hf; omega⟩
    simp only [Tree.depth] at hf
    rw [detail_sdmap_get_min_key_loop, lnk_node, hs]
    simp only [hl, hk]
    by_cases hl0 : l = .nil
    · subst hl0
      exact ⟨k, r.keys, by simp [Tree.keys], by simp⟩
    · rw [if_neg (hln.2 hl0), lnk_eq0 hl0]
      obtain ⟨k0, rest, e1, e2⟩ := min_key_loop_rep l i hR.2.2.1 nl hl0 n (by omega)
      exact ⟨k0, rest ++ k :: r.keys, by simp [Tree.keys, e1], e2⟩

theorem max_key_loop_rep {m : sdmap_heap} : ∀ (t : Tree) (o : Nat), Rep m t o → t.idx.Nodup →
    t ≠ .nil → ∀ fuel, t.depth ≤ fuel →
    ∃ k rest, t.keys = rest ++ [k] ∧ detail_sdmap_get_max_key_loop fuel m (t.lnk 0) = some k
  | .nil, _, _, _, ht, _, _ => absurd rfl ht
  | .node l i k v h r, o, hR, hnd, _, fuel, hf => by
    obtain ⟨hs, hk, hl, hr, hln, hrn, nl, nr⟩ := node_links hR hnd
    obtain ⟨n, rfl⟩ : ∃ n, fuel = n + 1 := ⟨fuel - 1, by simp [Tree.depth] at hf; omega⟩
    simp only [Tree.depth] at hf
    rw [detail_sdmap_get_max_key_loop, lnk_node, hs]
    simp only [hr, hk]
    by_cases hr0 : r = .nil
    · subst hr0
      exact ⟨k, l.keys, by simp [Tree.keys], by simp⟩
    · rw [if_neg (hrn.2 hr0), lnk_eq0 hr0]
      obtain ⟨k0, rest, e1, e2⟩ := max_key_loop_rep r i hR.2.2.2 nr hr0 n (by omega)
      exact ⟨k0, l.keys ++ k :: rest, by simp [Tree.keys, e1], e2⟩

theorem contains_loop_mono (key : Int) : ∀ (fuel : Nat) (m : sdmap_heap) (i : Nat) (r : Bool),
    detail_sdmap_contains_loop fuel m i key = some r →
    detail_sdmap_contains_loop (fuel + 1) m i key = some r
  | 0, _, _, _, h => by simp [detail_sdmap_contains_loop] at h
  | n + 1, m, i, r, h => by
    rw [detail_sdmap_contains_loop] at h ⊢
    cases hs : detail_sdmap_slot m i with
    | none => rw [hs] at h; simp at h
    | some s =>
      rw [hs] at h
      simp only at h ⊢
      split_ifs at h ⊢
      all_goals first
        | exact h
        | exact contains_loop_mono key n m _ r h

/-- The lookup on a map that holds the tree `T`: whether the key is one of
the keys of `T`. -/
theorem contains_impl_spec {m : sdmap_heap} {T : Tree} (key : Int)
    (hz : ZOK m [] T) (hB : BST T) (hcnt : m.count = T.idx.length) :
    ∀ fuel, T.depth ≤ fuel →
      detail_sdmap_contains_impl fuel (some m) key = some (decide (key ∈ T.keys)) := by
  intro fuel hf
  by_cases h0 : m.count = 0
  · have hT : T = .nil := by
      cases T with
      | nil => rfl
      | node l i k v h r => rw [h0] at hcnt; simp [Tree.idx] at hcnt; omega
    subst hT
    simp [detail_sdmap_contains_impl, h0, Tree.keys]
  · have hT := T_ne_nil hcnt h0
    simp only [detail_sdmap_contains_impl, h0, if_false]
    rw [root_lnk hz hT, contains_loop_zip key T [] m hz hT fuel hf]
    rcases hd : descend key [] T with ⟨c, t⟩
    obtain ⟨hp, hside, hcase, -⟩ := descend_spec key T [] c t (by simp) hd
    simp only [plug] at hp
    have hkeys : T.keys = lkeys c ++ t.keys ++ rkeys c := by rw [← hp, plug_keys]
    rcases hcase with rfl | ⟨l, i, v, h, r, rfl⟩
    · have hpk : (lkeys c ++ rkeys c).Pairwise (· < ·) := by
        have := hB; unfold BST at this; rw [hkeys] at this; simpa [Tree.keys] using this
      obtain ⟨a, b⟩ := path_keys key c hpk hside
      have : key ∉ T.keys := by
        rw [hkeys]
        simp only [Tree.keys, List.append_nil, List.mem_append, not_or]
        exact ⟨fun hx => by have := a _ hx; omega, fun hx => by have := b _ hx; omega⟩
      simp [this]
    · have : key ∈ T.keys := by rw [hkeys]; simp [Tree.keys]
      simp [this]

theorem contains_impl_mono (m : sdmap_heap) (key : Int) (r : Bool) {f1 f2 : Nat}
    (hf : f1 ≤ f2) (h : detail_sdmap_contains_impl f1 (some m) key = some r) :
    detail_sdmap_contains_impl f2 (some m) key = some r := by
  simp only [detail_sdmap_contains_impl] at h ⊢
  split_ifs at h ⊢
  · exact h
  · exact mono_of_succ (fun n (x : sdmap_heap × Nat) => detail_sdmap_contains_loop n x.1 x.2 key)
      (fun n a r h => contains_loop_mono key n a.1 a.2 r h) _ _ (m, m.root_slot) r hf h

/-- The lookup with any fuel that returns gives the membership in the keys. -/
theorem contains_iff {m : sdmap_heap} {T : Tree} {key : Int} {fuel : Nat} {r : Bool}
    (hz : ZOK m [] T) (hB : BST T) (hcnt : m.count = T.idx.length)
    (h : detail_sdmap_contains_impl fuel (some m) key = some r) : r = decide (key ∈ T.keys) := by
  have h1 := contains_impl_mono m key r (le_max_left fuel T.depth) h
  rw [contains_impl_spec key hz hB hcnt _ (le_max_right _ _)] at h1
  exact (Option.some.inj h1).symm

/-! ## The live slots are the slots of the tree -/

theorem links_in {m : sdmap_heap} : ∀ (t : Tree) (o : Nat), Rep m t o → t.idx.Nodup →
    ∀ i ∈ t.idx, valid m i ∧ ((get m i).left = i ∨ (get m i).left ∈ t.idx) ∧
      ((get m i).right = i ∨ (get m i).right ∈ t.idx)
  | .nil, _, _, _, i, hi => by simp [Tree.idx] at hi
  | .node l j k v h r, o, hR, hnd, i, hi => by
    obtain ⟨hs, hk, hl, hr, hln, hrn, nl, nr⟩ := node_links hR hnd
    simp only [Tree.idx, List.mem_append, List.mem_cons] at hi ⊢
    rcases hi with hi | rfl | hi
    · obtain ⟨a, b, c⟩ := links_in l j hR.2.2.1 nl i hi
      exact ⟨a, b.imp_right Or.inl, c.imp_right Or.inl⟩
    · refine ⟨hR.1, ?_, ?_⟩
      · rw [hl]
        cases l with
        | nil => left; rfl
        | node a x _ _ _ b => right; left; simp [Tree.idx]
      · rw [hr]
        cases r with
        | nil => left; rfl
        | node a x _ _ _ b => right; right; right; simp [Tree.idx]
    · obtain ⟨a, b, c⟩ := links_in r j hR.2.2.2 nr i hi
      exact ⟨a, b.imp_right (fun x => Or.inr (Or.inr x)), c.imp_right (fun x => Or.inr (Or.inr x))⟩

theorem lnk0_mem {t : Tree} (ht : t ≠ .nil) : t.lnk 0 ∈ t.idx := by
  cases t with
  | nil => exact absurd rfl ht
  | node l i k v h r => simp [Tree.idx]

theorem Live_mem {m : sdmap_heap} {T : Tree} {ks vs : Nat} (hz : ZOK m [] T)
    (hcnt : m.count = T.idx.length) (hlt : ∀ j ∈ T.idx, j < m.slot_count) (hcap : CapOK ks vs m)
    {i : Nat} (h : Live m i) : i ∈ T.idx := by
  have hnd : T.idx.Nodup := by simpa [cidx] using hz.2
  induction h with
  | root hr =>
    have hT : T ≠ .nil := by
      intro e; subst e
      exact hr hz.1.1
    rw [root_lnk hz hT]; exact lnk0_mem hT
  | left _ hs hne ih =>
    obtain ⟨a, b, -⟩ := links_in T _ hz.1.2 hnd _ ih
    rw [slot_eq_some a] at hs
    cases hs
    exact b.resolve_left hne
  | right _ hs hne ih =>
    obtain ⟨a, -, b⟩ := links_in T _ hz.1.2 hnd _ ih
    rw [slot_eq_some a] at hs
    cases hs
    exact b.resolve_left hne

theorem mem_Live_aux {m : sdmap_heap} : ∀ (t : Tree) (o : Nat), Rep m t o → t.idx.Nodup →
    (t ≠ .nil → Live m (t.lnk 0)) → ∀ i ∈ t.idx, Live m i
  | .nil, _, _, _, _, i, hi => by simp [Tree.idx] at hi
  | .node l j k v h r, o, hR, hnd, hroot, i, hi => by
    obtain ⟨hs, hk, hl, hr, hln, hrn, nl, nr⟩ := node_links hR hnd
    have hj : Live m j := hroot (by simp)
    simp only [Tree.idx, List.mem_append, List.mem_cons] at hi
    rcases hi with hi | rfl | hi
    · refine mem_Live_aux l j hR.2.2.1 nl (fun hl0 => ?_) i hi
      have := Live.left hj hs (by rw [hl]; exact hln.2 hl0)
      rwa [hl, lnk_eq0 hl0] at this
    · exact hj
    · refine mem_Live_aux r j hR.2.2.2 nr (fun hr0 => ?_) i hi
      have := Live.right hj hs (by rw [hr]; exact hrn.2 hr0)
      rwa [hr, lnk_eq0 hr0] at this

theorem NONE_not_mem {m : sdmap_heap} {T : Tree} {ks vs : Nat}
    (hlt : ∀ j ∈ T.idx, j < m.slot_count) (hcap : CapOK ks vs m) : NONE ∉ T.idx := by
  intro h
  have h1 := hlt _ h
  obtain ⟨a, b, c⟩ := hcap
  have : m.capacity / slot_size ks vs ≤ m.capacity := Nat.div_le_self _ _
  simp only [NONE] at h1
  omega

theorem root_NONE_iff {m : sdmap_heap} {T : Tree} {ks vs : Nat} (hz : ZOK m [] T)
    (hcnt : m.count = T.idx.length) (hlt : ∀ j ∈ T.idx, j < m.slot_count) (hcap : CapOK ks vs m) :
    m.root_slot = NONE ↔ m.count = 0 := by
  constructor
  · intro h
    by_contra h0
    have hT := T_ne_nil hcnt h0
    have := lnk0_mem hT
    rw [← root_lnk hz hT, h] at this
    exact NONE_not_mem hlt hcap this
  · intro h0
    have hT : T = .nil := by
      cases T with
      | nil => rfl
      | node l i k v h r => rw [h0] at hcnt; simp [Tree.idx] at hcnt; omega
    subst hT
    exact hz.1.1

theorem mem_Live {m : sdmap_heap} {T : Tree} {ks vs : Nat} (hz : ZOK m [] T)
    (hlt : ∀ j ∈ T.idx, j < m.slot_count) (hcap : CapOK ks vs m) {i : Nat} (hi : i ∈ T.idx) :
    Live m i := by
  have hnd : T.idx.Nodup := by simpa [cidx] using hz.2
  refine mem_Live_aux T _ hz.1.2 hnd (fun hT => ?_) i hi
  rw [← root_lnk hz hT]
  refine Live.root (fun e => ?_)
  have := lnk0_mem hT
  rw [← root_lnk hz hT, e] at this
  exact NONE_not_mem hlt hcap this

theorem parent_in {m : sdmap_heap} : ∀ (t : Tree) (o : Nat), Rep m t o → t.idx.Nodup →
    ∀ i ∈ t.idx, (i = t.lnk 0 ∧ (get m i).parent = o) ∨
      (i ≠ t.lnk 0 ∧ (get m i).parent ∈ t.idx ∧
        ((get m (get m i).parent).left = i ∨ (get m (get m i).parent).right = i))
  | .nil, _, _, _, i, hi => by simp [Tree.idx] at hi
  | .node l j k v h r, o, hR, hnd, i, hi => by
    obtain ⟨hs, hk, hl, hr, hln, hrn, nl, nr⟩ := node_links hR hnd
    obtain ⟨-, -, -, il, ir, -⟩ := node_idx_facts (s := []) (by simpa using hnd)
    simp only [Tree.idx, List.mem_append, List.mem_cons, lnk_node] at hi ⊢
    rcases hi with hi | rfl | hi
    · right
      refine ⟨fun e => il (e ▸ hi), ?_⟩
      rcases parent_in l j hR.2.2.1 nl i hi with ⟨e, p⟩ | ⟨-, p, q⟩
      · rw [p]
        refine ⟨Or.inr (Or.inl rfl), Or.inl ?_⟩
        rw [hl, e]
        cases l with
        | nil => simp [Tree.idx] at hi
        | node _ _ _ _ _ _ => rfl
      · exact ⟨Or.inl p, q⟩
    · left
      exact ⟨rfl, by rw [Rep_get hR]⟩
    · right
      refine ⟨fun e => ir (e ▸ hi), ?_⟩
      rcases parent_in r j hR.2.2.2 nr i hi with ⟨e, p⟩ | ⟨-, p, q⟩
      · rw [p]
        refine ⟨Or.inr (Or.inl rfl), Or.inr ?_⟩
        rw [hr, e]
        cases r with
        | nil => simp [Tree.idx] at hi
        | node _ _ _ _ _ _ => rfl
      · exact ⟨Or.inr (Or.inr p), q⟩

theorem hgt_nonneg {t : Tree} (ht : t ≠ .nil) : 0 ≤ t.hgt := by
  cases t with
  | nil => exact absurd rfl ht
  | node a _ _ _ _ b => simp only [Tree.hgt]; have := hgt_ge a; have := hgt_ge b; omega

theorem side_height {m : sdmap_heap} {t : Tree} {i : Nat} (hR : Rep m t i) (hnd : t.idx.Nodup)
    (hi : t.lnk i ≠ i ↔ t ≠ .nil) (fuel : Nat) (hf : t.depth ≤ fuel) :
    (if t.lnk i ≠ i then (debug_sdmap_sanity_height fuel m (t.lnk i)).map (fun h => h + 1)
      else some 0) = some (t.hgt + 1) := by
  by_cases h0 : t = .nil
  · subst h0; simp [Tree.hgt]
  · rw [if_pos (hi.2 h0), lnk_eq0 h0, sanity_height_rep t i hR hnd h0 fuel hf]
    rfl

theorem balance_in {m : sdmap_heap} : ∀ (t : Tree) (o : Nat), Rep m t o → t.idx.Nodup → AVL t →
    ∀ i ∈ t.idx, ∀ fuel, t.depth ≤ fuel →
      ∃ b, structural_balance fuel m i = some b ∧ -1 ≤ b ∧ b ≤ 1
  | .nil, _, _, _, _, i, hi => by simp [Tree.idx] at hi
  | .node l j k v h r, o, hR, hnd, hA, i, hi => by
    obtain ⟨hs, hk, hl, hr, hln, hrn, nl, nr⟩ := node_links hR hnd
    intro fuel hf
    simp only [Tree.depth] at hf
    simp only [Tree.idx, List.mem_append, List.mem_cons] at hi
    rcases hi with hi | rfl | hi
    · exact balance_in l j hR.2.2.1 nl hA.2.1 i hi fuel (by omega)
    · refine ⟨(r.hgt + 1) - (l.hgt + 1), ?_, ?_, ?_⟩
      · rw [structural_balance, hs]
        simp only [hl, hr]
        rw [side_height hR.2.2.1 nl hln fuel (by omega),
          side_height hR.2.2.2 nr hrn fuel (by omega)]
      · have := hA.1; omega
      · have := hA.1; omega
    · exact balance_in r j hR.2.2.2 nr hA.2.2 i hi fuel (by omega)

/-! ## The erase of a key that is present -/

theorem AVL_of_Good {t : Tree} (h : Good t) : AVL t := by
  cases t with
  | nil => trivial
  | node l i k v hh r => exact h.2.2.2

theorem idx_length_keys (t : Tree) : t.idx.length = t.keys.length := by
  rw [idx_eq_map, keys_eq_map, List.length_map, List.length_map]

theorem lt_of_append {T : Tree} {fl : List Nat} {n : Nat} (h : ∀ j ∈ T.idx ++ fl, j < n) :
    ∀ j ∈ T.idx, j < n := fun j hj => h j (List.mem_append_left _ hj)

theorem erase_present {ks vs : Nat} {m : sdmap_heap} (key : Int) (f0 : Nat)
    (hm : Reachable ks vs m)
    (hc : detail_sdmap_contains_impl f0 (some m) key = some true) :
    ∃ m' F,
      (∀ fuel, F ≤ fuel → detail_sdmap_erase_impl fuel (some m) key = some (some m')) ∧
      (∀ fuel, F ≤ fuel → detail_sdmap_contains_impl fuel (some m') key = some false) ∧
      m'.count + 1 = m.count := by
  obtain ⟨T, fl, hz, hG, hB, hF, hnd, hlt, hcnt, hsc, hcap⟩ := Inv_of_Reachable hm
  have hk : key ∈ T.keys := by
    have := contains_iff hz hB hcnt hc
    simpa using this.symm
  rcases erase_impl_spec key hz hG hB hF hnd hlt hcnt hsc hcap with ⟨hn, -⟩ | ⟨-, m', e, hI, hc1, T', A, B, hz', e1, e2⟩
  · exact absurd hk hn
  · have hB0 : (A ++ key :: B).Pairwise (· < ·) := by have := hB; unfold BST at this; rwa [e1] at this
    have hB' : BST T' := by
      unfold BST; rw [e2]
      exact hB0.sublist (List.Sublist.append (List.Sublist.refl _) (List.sublist_cons_self _ _))
    have hcnt' : m'.count = T'.idx.length := by
      have h1 := idx_length_keys T
      have h2 := idx_length_keys T'
      rw [e1] at h1; rw [e2] at h2
      simp only [List.length_append, List.length_cons] at h1 h2
      omega
    have hnot : key ∉ T'.keys := by
      rw [e2]
      intro hx
      rw [List.pairwise_append] at hB0
      obtain ⟨-, q2, q3⟩ := hB0
      rcases List.mem_append.1 hx with hx | hx
      · have := q3 _ hx _ (List.mem_cons_self _ _); omega
      · have := (List.pairwise_cons.1 q2).1 _ hx; omega
    refine ⟨m', max (2 * T.depth + 2) T'.depth, fun fuel hf => e fuel (le_trans (le_max_left _ _) hf),
      fun fuel hf => ?_, hc1⟩
    rw [contains_impl_spec key hz' hB' hcnt' fuel (le_trans (le_max_right _ _) hf)]
    simp [hnot]

/-! ## The descent for an absent key, and the release of the erased slot -/

/-- The descent of `detail_sdmap_get_next_impl` for a key that the subtree
does not hold never returns. -/
theorem next_loop_absent {m : sdmap_heap} {key : Int} (fi : Nat) :
    ∀ (t : Tree) (o : Nat), Rep m t o → t.idx.Nodup → t ≠ .nil → key ∉ t.keys →
    ∀ fuel, detail_sdmap_get_next_loop fuel fi m (t.lnk 0) key = none
  | .nil, _, _, _, ht, _ => absurd rfl ht
  | .node l i k v h r, o, hR, hnd, _, hk => by
    obtain ⟨hs, hkey, hl, hr, hln, hrn, nl, nr⟩ := node_links hR hnd
    simp only [Tree.keys, List.mem_append, List.mem_cons, not_or] at hk
    obtain ⟨hkl, hkk, hkr⟩ := hk
    have hc0 : ¬ detail_sdmap_compare k key = 0 := fun e => hkk (compare_eq_zero.1 e).symm
    intro fuel
    induction fuel with
    | zero => rfl
    | succ n ih =>
      rw [detail_sdmap_get_next_loop, lnk_node, hs]
      simp only [hkey, hl, hr, if_neg hc0]
      by_cases hc : detail_sdmap_compare k key > 0
      · rw [if_pos hc]
        by_cases hl0 : l = .nil
        · subst hl0
          exact ih
        · rw [lnk_eq0 hl0]
          exact next_loop_absent fi l i hR.2.2.1 nl hl0 hkl n
      · rw [if_neg hc]
        by_cases hr0 : r = .nil
        · subst hr0
          exact ih
        · rw [lnk_eq0 hr0]
          exact next_loop_absent fi r i hR.2.2.2 nr hr0 hkr n

/-- The descent of `detail_sdmap_get_prev_impl` for a key that the subtree
does not hold never returns. -/
theorem prev_loop_absent {m : sdmap_heap} {key : Int} (fi : Nat) :
    ∀ (t : Tree) (o : Nat), Rep m t o → t.idx.Nodup → t ≠ .nil → key ∉ t.keys →
    ∀ fuel, detail_sdmap_get_prev_loop fuel fi m (t.lnk 0) key = none
  | .nil, _, _, _, ht, _ => absurd rfl ht
  | .node l i k v h r, o, hR, hnd, _, hk => by
    obtain ⟨hs, hkey, hl, hr, hln, hrn, nl, nr⟩ := node_links hR hnd
    simp only [Tree.keys, List.mem_append, List.mem_cons, not_or] at hk
    obtain ⟨hkl, hkk, hkr⟩ := hk
    have hc0 : ¬ detail_sdmap_compare k key = 0 := fun e => hkk (compare_eq_zero.1 e).symm
    intro fuel
    induction fuel with
    | zero => rfl
    | succ n ih =>
      rw [detail_sdmap_get_prev_loop, lnk_node, hs]
      simp only [hkey, hl, hr, if_neg hc0]
      by_cases hc : detail_sdmap_compare k key > 0
      · rw [if_pos hc]
        by_cases hl0 : l = .nil
        · subst hl0
          exact ih
        · rw [lnk_eq0 hl0]
          exact prev_loop_absent fi l i hR.2.2.1 nl hl0 hkl n
      · rw [if_neg hc]
        by_cases hr0 : r = .nil
        · subst hr0
          exact ih
        · rw [lnk_eq0 hr0]
          exact prev_loop_absent fi r i hR.2.2.2 nr hr0 hkr n

set_option maxHeartbeats 1000000 in
/-- The erase of a node of the tree of a map that satisfies the invariant
ends with the release of a slot of the tree, in a block whose empty slots are
as they were. -/
theorem erase_found_release {ks vs : Nat} {m : sdmap_heap} {T : Tree} {fl : List Nat}
    {c : List Frame} {l r : Tree} {i : Nat} {k v h : Int}
    (hz : ZOK m [] T) (hG : Good T)
    (hnd : (T.idx ++ fl).Nodup) (hcap : CapOK ks vs m) (hT : plug c (.node l i k v h r) = T) :
    ∃ m2 z, detail_sdmap_erase_found (2 * T.depth + 2) m i = detail_sdmap_erase_release m2 z ∧
      m2.empty_slot = m.empty_slot ∧ (∀ j ∈ fl, get m2 j = get m j) ∧ z ∈ T.idx ∧
      (∀ j, valid m2 j ↔ valid m j) := by
  subst hT
  have hzN : ZOK m c (.node l i k v h r) := by
    have := (ZOK_plug (m := m) c [] (.node l i k v h r)).2 hz
    simpa using this
  have hN : ¬ valid m NONE := not_valid_NONE hcap
  obtain ⟨C, t, z, hu, hE, hlen, A, B, hk1, hk2⟩ := unlinkAt_good hG
  have hdp := depth_plug c (.node l i k v h r)
  obtain ⟨m1, e1, U1, U2, U3, U4, U5, U6, U7⟩ := erase_unlink_zip hzN hN hu
    (2 * (plug c (.node l i k v h r)).depth + 2) (by omega)
  simp only [lnk_node] at e1
  have hfu := eraseFuel_le C t
  obtain ⟨T', el, hE', hA'⟩ := eraseLoop_good (2 * (plug c (.node l i k v h r)).depth + 2) C t hE
    (by omega)
  have hN1 : ¬ valid m1 NONE := fun hx => hN ((U2.valid_iff _).1 hx)
  obtain ⟨m2, e2, S1, S2, S3, S4⟩ := erase_rotate_zip _ C t m1 z T' U1 hN1 U5 U6
    (fun e => absurd e U7) el
  have hsT : ((Tree.node l i k v h r).idx ++ cidx c).Perm (plug c (.node l i k v h r)).idx :=
    (plug_idx_perm c _).symm
  have hzs : z ∈ (Tree.node l i k v h r).idx ++ cidx c := U4.subset (List.mem_cons_self _ _)
  have hdis : ∀ j ∈ fl, j ∉ (Tree.node l i k v h r).idx ++ cidx c := fun j hj hx =>
    (List.nodup_append.1 hnd).2.2 (hsT.subset hx) hj
  have hsub : ∀ j, j ∈ t.idx ++ cidx C → j ∈ (Tree.node l i k v h r).idx ++ cidx c :=
    fun j hj => U4.subset (List.mem_cons_of_mem _ hj)
  refine ⟨m2, z, ?_, by rw [S2.2.2.2.1, U2.2.2.2.1], fun j hj => ?_, hsT.subset hzs,
    fun j => (S2.valid_iff j).trans (U2.valid_iff j)⟩
  · unfold detail_sdmap_erase_found
    rw [e1]
    simp only [Option.some_bind, Option.bind_eq_bind]
    rw [e2]
    rfl
  · rw [S3 j (fun hx => hdis j hj (hsub j hx)), U3 j (hdis j hj)]

/-- The links that the release statements of `detail_sdmap_erase_impl`
leave. -/
theorem release_links {m : sdmap_heap} {z : Nat} (hv : valid m z)
    (he : m.empty_slot = NONE ∨ valid m m.empty_slot) (hne : z ≠ m.empty_slot) :
    ∃ m', detail_sdmap_erase_release m z = some m' ∧ (get m' z).height = -1 ∧
      (∀ j, valid m' j ↔ valid m j) ∧
      (m.empty_slot ≠ NONE ∧ z > m.empty_slot →
        m'.empty_slot = m.empty_slot ∧ (get m' m.empty_slot).right = z ∧
        (get m' z).right = (get m m.empty_slot).right) ∧
      (¬ (m.empty_slot ≠ NONE ∧ z > m.empty_slot) →
        m'.empty_slot = z ∧ (get m' z).right = m.empty_slot) := by
  unfold detail_sdmap_erase_release
  by_cases hc : m.empty_slot ≠ NONE ∧ z > m.empty_slot
  · rw [if_pos hc]
    have hve : valid m m.empty_slot := he.resolve_left hc.1
    obtain ⟨m1, e1, d1, r1, v1, g1⟩ :=
      store_spec (fun s => { s with right := (get m m.empty_slot).right }) hv
    obtain ⟨m2, e2, d2, r2, v2, g2⟩ := store_spec (fun s => { s with height := -1 })
      ((v1 z).2 hv)
    have hem : m2.empty_slot = m.empty_slot := by rw [d2.2.2.2.1, d1.2.2.2.1]
    obtain ⟨m3, e3, d3, r3, v3, g3⟩ := store_spec (fun s => { s with right := z })
      ((v2 m.empty_slot).2 ((v1 m.empty_slot).2 hve))
    have hg : ∀ j, get ({ m3 with count := m3.count - 1 }) j = get m3 j := fun _ => rfl
    refine ⟨{ m3 with count := m3.count - 1 }, ?_, ?_, ?_, fun _ => ⟨?_, ?_, ?_⟩,
      fun h => absurd hc h⟩
    · rw [slot_eq_some hve]
      simp only [Option.some_bind, Option.bind_eq_bind, e1, e2]
      rw [hem, e3]
      rfl
    · rw [hg, g3, if_neg hne, g2, if_pos rfl]
    · intro j
      exact ((v3 j).trans (v2 j)).trans (v1 j)
    · show m3.empty_slot = _
      rw [d3.2.2.2.1, hem]
    · rw [hg, g3, if_pos rfl]
    · rw [hg, g3, if_neg hne, g2, if_pos rfl]
      simp only
      rw [g1, if_pos rfl]
  · rw [if_neg hc]
    obtain ⟨m1, e1, d1, r1, v1, g1⟩ :=
      store_spec (fun s => { s with right := m.empty_slot }) hv
    obtain ⟨m2, e2, d2, r2, v2, g2⟩ := store_spec (fun s => { s with height := -1 })
      ((v1 z).2 hv)
    have hg : ∀ j, get ({ m2 with empty_slot := z, count := m2.count - 1 }) j = get m2 j :=
      fun _ => rfl
    refine ⟨{ m2 with empty_slot := z, count := m2.count - 1 }, ?_, ?_, ?_,
      fun h => absurd h hc, fun _ => ⟨rfl, ?_⟩⟩
    · simp only [Option.some_bind, Option.bind_eq_bind, e1, e2]
    · rw [hg, g2, if_pos rfl]
    · intro j
      exact (v2 j).trans (v1 j)
    · rw [hg, g2, if_pos rfl]
      simp only
      rw [g1, if_pos rfl]

set_option maxHeartbeats 1000000 in
/-- The erase of a key of a map that satisfies the invariant: the map that it
returns, the slot that it releases, and the links of the list of empty slots
around that slot. -/
theorem erase_release_spec {ks vs : Nat} {m : sdmap_heap} {T : Tree} {fl : List Nat}
    (key : Int) (hz : ZOK m [] T) (hG : Good T) (hB : BST T)
    (hF : FreeL m m.empty_slot fl) (hnd : (T.idx ++ fl).Nodup)
    (hlt : ∀ j ∈ T.idx ++ fl, j < m.slot_count)
    (hcnt : m.count = T.idx.length) (hsc : m.count + fl.length = m.slot_count)
    (hcap : CapOK ks vs m) (hk : key ∈ T.keys) :
    ∃ m' z, (∀ fuel, 2 * T.depth + 2 ≤ fuel →
        detail_sdmap_erase_impl fuel (some m) key = some (some m')) ∧
      Inv ks vs m' ∧ z ∈ T.idx ∧ valid m' z ∧ (get m' z).height = -1 ∧
      (m.empty_slot ≠ NONE ∧ z > m.empty_slot →
        valid m m.empty_slot ∧ valid m' m.empty_slot ∧
        m'.empty_slot = m.empty_slot ∧ (get m' m.empty_slot).right = z ∧
        (get m' z).right = (get m m.empty_slot).right) ∧
      (¬ (m.empty_slot ≠ NONE ∧ z > m.empty_slot) →
        m'.empty_slot = z ∧ (get m' z).right = m.empty_slot) := by
  rcases erase_impl_spec key hz hG hB hF hnd hlt hcnt hsc hcap with ⟨hn, -⟩ | ⟨-, m', e, hI, -⟩
  · exact absurd hk hn
  have h0 : ¬ m.count = 0 := by
    intro h0
    rw [h0] at hcnt
    have : T = .nil := by
      cases T with
      | nil => rfl
      | node l i k v h r => simp [Tree.idx] at hcnt; omega
    subst this
    simp [Tree.keys] at hk
  have hT := T_ne_nil hcnt h0
  have hroot := root_lnk hz hT
  have hrun : detail_sdmap_erase_impl (2 * T.depth + 2) (some m) key =
      (match descend key [] T with
        | (_, .node _ i _ _ _ _) => detail_sdmap_erase_found (2 * T.depth + 2) m i
        | (_, .nil) => some m).map some := by
    simp only [detail_sdmap_erase_impl, h0, if_false]
    rw [hroot, erase_loop_zip (2 * T.depth + 2) key T [] m hz hT (2 * T.depth + 2) (by omega)]
    all_goals (rcases descend key [] T with ⟨a, b⟩; cases b <;> rfl)
  rcases hd : descend key [] T with ⟨c, t⟩
  obtain ⟨hp, hside, hcase, -⟩ := descend_spec key T [] c t (by simp) hd
  simp only [plug] at hp
  rw [hd] at hrun
  have hkeys : T.keys = lkeys c ++ t.keys ++ rkeys c := by rw [← hp, plug_keys]
  rcases hcase with rfl | ⟨l, i, v, h, r, rfl⟩
  · exfalso
    have hpk : (lkeys c ++ rkeys c).Pairwise (· < ·) := by
      have := hB; unfold BST at this; rw [hkeys] at this; simpa [Tree.keys] using this
    obtain ⟨a, b⟩ := path_keys key c hpk hside
    rw [hkeys] at hk
    simp only [Tree.keys, List.append_nil, List.mem_append] at hk
    rcases hk with hx | hx
    · have := a _ hx; omega
    · have := b _ hx; omega
  · obtain ⟨m2, z, ef, em, hg, hzT, hv2⟩ := erase_found_release hz hG hnd hcap hp
    simp only at hrun
    rw [ef, e _ (le_refl _)] at hrun
    obtain ⟨ndT, ndf, hdis⟩ := List.nodup_append.1 hnd
    have hvz : valid m z := Rep_valid_of_mem T _ hz.1.2 z hzT
    have hzN : z ≠ NONE := fun e' => not_valid_NONE hcap (e' ▸ hvz)
    have hfacts : (m.empty_slot = NONE ∨ (valid m m.empty_slot ∧ m.empty_slot ∈ fl)) := by
      cases fl with
      | nil => exact Or.inl hF
      | cons x fl' =>
        obtain ⟨a1, a2, a3, -⟩ := hF
        exact Or.inr ⟨a1 ▸ a3, by rw [a1]; exact List.mem_cons_self _ _⟩
    have hne : z ≠ m2.empty_slot := by
      rw [em]
      rcases hfacts with e' | ⟨-, e'⟩
      · rw [e']; exact hzN
      · exact fun e'' => hdis hzT (e'' ▸ e')
    obtain ⟨m3, e3, r1, rv, r2, r3⟩ := release_links ((hv2 z).2 hvz)
      (by rw [em]; exact hfacts.imp id (fun h => (hv2 _).2 h.1)) hne
    rw [e3] at hrun
    simp only [Option.map_some', Option.some.injEq] at hrun
    subst hrun
    have hvv : ∀ j, valid m' j ↔ valid m j := fun j => (rv j).trans (hv2 j)
    refine ⟨m', z, e, hI, hzT, (hvv z).2 hvz, r1, fun hc => ?_, fun hc => ?_⟩
    · have hve : valid m m.empty_slot ∧ m.empty_slot ∈ fl := hfacts.resolve_left hc.1
      obtain ⟨b1, b2, b3⟩ := r2 (by rw [em]; exact hc)
      rw [em] at b1 b2 b3
      exact ⟨hve.1, (hvv _).2 hve.1, b1, b2, by rw [b3, hg _ hve.2]⟩
    · obtain ⟨b1, b2⟩ := r3 (by rw [em]; exact hc)
      rw [em] at b2
      exact ⟨b1, b2⟩

/-! ## States of the hash map -/

theorem heap_realloc_loop_of_zero (needed : Nat) : ∀ fuel : Nat,
    detail_sdhmap_heap_realloc_loop fuel 0 (needed + 1) = none
  | 0 => rfl
  | fuel + 1 => by
    rw [detail_sdhmap_heap_realloc_loop, if_pos (Nat.succ_pos _)]
    exact heap_realloc_loop_of_zero needed fuel

theorem resize_of_empty_table (fuel : Nat) (hash_func : Int → Nat) (slot_size target : Nat)
    (garbage : List (Int × Int)) :
    detail_sdhmap_heap_resize fuel hash_func empty_table slot_size (target + 1) garbage
      = none := by
  have h : sizeof_sdhmap_heap + slot_size * (target + 1) % 4294967296
      = (39 + slot_size * (target + 1) % 4294967296) + 1 := by
    simp only [sizeof_sdhmap_heap]; omega
  simp only [detail_sdhmap_heap_resize, empty_table, detail_sdhmap_get_kv_pairs,
    detail_sdhmap_heap_realloc, h, heap_realloc_loop_of_zero]
  simp

theorem reachable_empty_table (hash_func : Int → Nat) (slot_size : Nat) :
    sdhmap_reachable hash_func slot_size empty_table :=
  sdhmap_reachable.new 0 [] rfl (by decide) (by simp)
    (by simp [detail_sdhmap_new_heap_impl, detail_sdhmap_new_stack_impl, empty_table])

theorem reachable_set_all {hash_func : Int → Nat} {slot_size fuel : Nat} :
    ∀ (l : List (Int × Int)) {m m' : sdhmap_heap}, sdhmap_reachable hash_func slot_size m →
    sdhmap_set_all fuel hash_func slot_size l m = some m' →
    sdhmap_reachable hash_func slot_size m'
  | [], m, m', hm, h => by
    simp only [sdhmap_set_all, Option.some.injEq] at h
    exact h ▸ hm
  | p :: ps, m, m', hm, h => by
    rw [sdhmap_set_all] at h
    cases hs : sdhmap_set fuel hash_func m slot_size p.1 p.2 (List.replicate m.count (0, 0)) with
    | none => rw [hs] at h; simp at h
    | some m1 =>
      rw [hs] at h
      exact reachable_set_all ps (sdhmap_reachable.set fuel p.1 p.2 _ hm (by simp) hs) h

theorem reachable_table_of_16 : sdhmap_reachable hash_identity 20 table_of_16 :=
  sdhmap_reachable.new 16 (List.replicate 16 fresh_hslot) (by decide) (by decide) (by decide)
    (show detail_sdhmap_new_heap_impl 16 20 (List.replicate 16 fresh_hslot) = some table_of_16
      by decide)

theorem reachable_table_of_2 : sdhmap_reachable hash_identity 20 table_of_2 :=
  sdhmap_reachable.new 2 (List.replicate 2 fresh_hslot) (by decide) (by decide) (by decide)
    (show detail_sdhmap_new_heap_impl 2 20 (List.replicate 2 fresh_hslot) = some table_of_2
      by decide)

theorem reachable_full_table_of_2 : sdhmap_reachable hash_identity 20 full_table_of_2 :=
  reachable_set_all [(0, 10), (1, 11)] reachable_table_of_2
    (show sdhmap_set_all 1 hash_identity 20 [(0, 10), (1, 11)] table_of_2
      = some full_table_of_2 by decide)

theorem reachable_chain_of_two : sdhmap_reachable hash_identity 20 chain_of_two :=
  reachable_set_all [(0, 10), (16, 11)] reachable_table_of_16
    (show sdhmap_set_all 1 hash_identity 20 [(0, 10), (16, 11)] table_of_16
      = some chain_of_two by decide)

theorem reachable_chain_lost : sdhmap_reachable hash_identity 20 chain_lost :=
  sdhmap_reachable.erase 2 16 reachable_chain_of_two
    (show detail_sdhmap_erase_impl 2 hash_identity (some chain_of_two) 16
      = some (some chain_lost) by decide)

theorem reachable_twelve_keys : sdhmap_reachable hash_identity 20 twelve_keys :=
  reachable_set_all _ reachable_table_of_16
    (show sdhmap_set_all 1 hash_identity 20
      [(0, 0), (1, 1), (2, 2), (3, 3), (4, 4), (5, 5), (6, 6), (7, 7), (8, 8), (9, 9),
        (10, 10), (11, 11)] table_of_16 = some twelve_keys by decide)

/-! ## The chains of the hash map in the block -/

theorem hslot_eq_some {m : sdhmap_heap} {i : Nat} (h : hvalid m i) :
    detail_sdhmap_slot m i = some (hget m i) := by
  unfold detail_sdhmap_slot hget hvalid at *
  simp [List.getD, List.getElem?_eq_getElem h]

theorem hslot_eq_none {m : sdhmap_heap} {i : Nat} (h : ¬ hvalid m i) :
    detail_sdhmap_slot m i = none := by
  unfold detail_sdhmap_slot hvalid at *
  exact List.getElem?_eq_none (Nat.le_of_not_lt h)

theorem hslot_some {m : sdhmap_heap} {i : Nat} {s : sdhmap_slot}
    (h : detail_sdhmap_slot m i = some s) : hvalid m i ∧ s = hget m i := by
  by_cases hv : hvalid m i
  · rw [hslot_eq_some hv] at h
    exact ⟨hv, (Option.some.inj h).symm⟩
  · rw [hslot_eq_none hv] at h
    cases h

theorem hstore_some {m m' : sdhmap_heap} {i : Nat} {f : sdhmap_slot → sdhmap_slot}
    (h : hstore m i f = some m') : hvalid m i ∧ m' = hput m i (f (hget m i)) := by
  unfold hstore at h
  by_cases hv : hvalid m i
  · have := hslot_eq_some hv
    unfold detail_sdhmap_slot at this
    rw [this] at h
    exact ⟨hv, (Option.some.inj h).symm⟩
  · have := hslot_eq_none hv
    unfold detail_sdhmap_slot at this
    rw [this] at h
    cases h

theorem hstore_eq {m : sdhmap_heap} {i : Nat} (f : sdhmap_slot → sdhmap_slot)
    (h : hvalid m i) : hstore m i f = some (hput m i (f (hget m i))) := by
  have := hslot_eq_some h
  unfold detail_sdhmap_slot at this
  simp [hstore, this, hput]

@[simp] theorem hvalid_hput {m : sdhmap_heap} {i j : Nat} {s : sdhmap_slot} :
    hvalid (hput m i s) j ↔ hvalid m j := by
  simp [hvalid, hput]

theorem hget_hput {m : sdhmap_heap} {i j : Nat} {s : sdhmap_slot} (h : hvalid m i) :
    hget (hput m i s) j = if j = i then s else hget m j := by
  unfold hget hput hvalid at *
  simp only [List.getD_eq_getElem?_getD]
  by_cases hji : j = i
  · subst hji; simp [h]
  · simp [hji, List.getElem?_set_ne (Ne.symm hji)]

theorem hget_hput_ne {m : sdhmap_heap} {i j : Nat} {s : sdhmap_slot} (h : j ≠ i) :
    hget (hput m i s) j = hget m j := by
  unfold hget hput
  simp only [List.getD_eq_getElem?_getD]
  simp [List.getElem?_set_ne (Ne.symm h)]

@[simp] theorem hput_count (m : sdhmap_heap) (i : Nat) (s : sdhmap_slot) :
    (hput m i s).count = m.count := rfl
@[simp] theorem hput_slot_count (m : sdhmap_heap) (i : Nat) (s : sdhmap_slot) :
    (hput m i s).slot_count = m.slot_count := rfl
@[simp] theorem hput_used (m : sdhmap_heap) (i : Nat) (s : sdhmap_slot) :
    (hput m i s).used_bucket_count = m.used_bucket_count := rfl
@[simp] theorem hput_empty_slot (m : sdhmap_heap) (i : Nat) (s : sdhmap_slot) :
    (hput m i s).empty_slot = m.empty_slot := rfl
@[simp] theorem hput_capacity (m : sdhmap_heap) (i : Nat) (s : sdhmap_slot) :
    (hput m i s).capacity = m.capacity := rfl
@[simp] theorem hput_length (m : sdhmap_heap) (i : Nat) (s : sdhmap_slot) :
    (hput m i s).slots.length = m.slots.length := by simp [hput]

theorem bsum_congr {g g' : Nat → Nat} : ∀ (n : Nat), (∀ x, x < n → g' x = g x) →
    bsum g' n = bsum g n
  | 0, _ => rfl
  | n + 1, h => by
    rw [bsum, bsum, bsum_congr n (fun x hx => h x (Nat.lt_succ_of_lt hx)), h n (Nat.lt_succ_self n)]

theorem bsum_update {g g' : Nat → Nat} {b : Nat} : ∀ (n : Nat), b < n →
    (∀ x, x < n → x ≠ b → g' x = g x) → bsum g' n + g b = bsum g n + g' b
  | 0, hb, _ => absurd hb (Nat.not_lt_zero _)
  | n + 1, hb, h => by
    rw [bsum, bsum]
    by_cases e : b = n
    · subst e
      rw [bsum_congr b (fun x hx => h x (Nat.lt_succ_of_lt hx) (Nat.ne_of_lt hx))]
      omega
    · have := bsum_update n (by omega) (fun x hx => h x (Nat.lt_succ_of_lt hx))
      rw [h n (Nat.lt_succ_self n) (Ne.symm e)]
      omega

theorem bsum_le {g g' : Nat → Nat} : ∀ (n : Nat), (∀ x, x < n → g x ≤ g' x) →
    bsum g n ≤ bsum g' n
  | 0, _ => Nat.le_refl _
  | n + 1, h => by
    rw [bsum, bsum]
    have := bsum_le n (fun x hx => h x (Nat.lt_succ_of_lt hx))
    have := h n (Nat.lt_succ_self n)
    omega

theorem bsum_zero {g : Nat → Nat} : ∀ (n : Nat), (∀ x, x < n → g x = 0) → bsum g n = 0
  | 0, _ => rfl
  | n + 1, h => by
    rw [bsum, bsum_zero n (fun x hx => h x (Nat.lt_succ_of_lt hx)), h n (Nat.lt_succ_self n)]

/-- A list in the block is kept by a change that keeps the links of its slots. -/
theorem HList_frame {c : Bool} {m m' : sdhmap_heap} : ∀ (l : List Nat) (i : Nat),
    (∀ j ∈ l, hvalid m' j ∧ (hget m' j).next = (hget m j).next ∧
      (c = true → (hget m' j).prev = (hget m j).prev)) → HList c m i l → HList c m' i l
  | [], _, _, h => h
  | j :: l, i, hf, h => by
    obtain ⟨a, b, -, d, e⟩ := h
    obtain ⟨v, n, p⟩ := hf j (List.mem_cons_self _ _)
    refine ⟨a, b, v, fun hc => by rw [p hc]; exact d hc, ?_⟩
    rw [n]
    exact HList_frame l _ (fun x hx => hf x (List.mem_cons_of_mem _ hx)) e

theorem hget_congr {m m' : sdhmap_heap} (h : m'.slots = m.slots) (j : Nat) :
    hget m' j = hget m j := by
  unfold hget; rw [h]

theorem hvalid_congr {m m' : sdhmap_heap} (h : m'.slots = m.slots) (j : Nat) :
    hvalid m' j ↔ hvalid m j := by
  unfold hvalid; rw [h]

theorem HList_valid {c : Bool} {m : sdhmap_heap} : ∀ (l : List Nat) (i : Nat),
    HList c m i l → ∀ j ∈ l, hvalid m j ∧ j ≠ NONE
  | [], _, _, j, hj => by simp at hj
  | x :: l, i, h, j, hj => by
    obtain ⟨-, b, v, -, e⟩ := h
    rcases List.mem_cons.1 hj with rfl | hj
    · exact ⟨v, b⟩
    · exact HList_valid l _ e j hj

theorem HList_prev {m : sdhmap_heap} : ∀ (l : List Nat) (i : Nat),
    HList true m i l → ∀ j ∈ l, (hget m j).prev = NONE
  | [], _, _, j, hj => by simp at hj
  | x :: l, i, h, j, hj => by
    obtain ⟨-, -, -, d, e⟩ := h
    rcases List.mem_cons.1 hj with rfl | hj
    · exact d rfl
    · exact HList_prev l _ e j hj

theorem HList_nil_iff {c : Bool} {m : sdhmap_heap} {l : List Nat} {i : Nat}
    (h : HList c m i l) : l = [] ↔ i = NONE := by
  cases l with
  | nil => simpa using h
  | cons j l =>
    obtain ⟨a, b, -⟩ := h
    simp only [reduceCtorEq, false_iff]
    rw [a]; exact b

/-- The weakening of a chain to a list without the condition on `prev`. -/
theorem HList_weaken {m : sdhmap_heap} : ∀ (l : List Nat) (i : Nat),
    HList true m i l → HList false m i l
  | [], _, h => h
  | j :: l, i, h => by
    obtain ⟨a, b, v, -, e⟩ := h
    exact ⟨a, b, v, fun hc => Bool.noConfusion hc, HList_weaken l _ e⟩

/-- The part of a list from one of its slots on. -/
theorem HList_split {c : Bool} {m : sdhmap_heap} : ∀ (pre : List Nat) (i : Nat) (post : List Nat),
    HList c m i (pre ++ post) → ∃ k, HList c m k post ∧ (pre = [] → k = i) ∧
      (∀ x, pre.getLast? = some x → k = (hget m x).next)
  | [], i, post, h => ⟨i, h, fun _ => rfl, fun x hx => by simp at hx⟩
  | j :: pre, i, post, h => by
    obtain ⟨a, b, v, d, e⟩ := h
    obtain ⟨k, hk, h1, h2⟩ := HList_split pre _ post e
    refine ⟨k, hk, fun hn => absurd hn (List.cons_ne_nil _ _), fun x hx => ?_⟩
    cases pre with
    | nil =>
      simp only [List.getLast?_singleton, Option.some.injEq] at hx
      subst hx
      exact h1 rfl
    | cons y pre =>
      apply h2
      simpa [List.getLast?_cons_cons] using hx

/-! ## Steps that keep the invariant of the hash map -/

/-- The pop of the first empty slot: the rest of the list stays linked, the
popped slot has no links, and no other slot outside the list changes. -/
theorem pop_empty_spec {m : sdhmap_heap} {fl : List Nat} {r : sdhmap_heap × Nat}
    (hF : HList false m m.empty_slot fl) (hnd : fl.Nodup)
    (h : detail_sdhmap_pop_empty m = some r) :
    ∃ f fl', fl = f :: fl' ∧ r.2 = f ∧ hvalid m f ∧
      HList false r.1 r.1.empty_slot fl' ∧
      (∀ j, hvalid r.1 j ↔ hvalid m j) ∧
      (hget r.1 f).next = NONE ∧ (hget r.1 f).prev = NONE ∧
      (∀ j, j ∉ fl → hget r.1 j = hget m j) ∧
      (∀ j, (hget r.1 j).slot = (hget m j).slot) ∧
      r.1.count = m.count ∧ r.1.slot_count = m.slot_count ∧
      r.1.used_bucket_count = m.used_bucket_count ∧ r.1.slots.length = m.slots.length := by
  unfold detail_sdhmap_pop_empty at h
  cases fl with
  | nil =>
    have e : m.empty_slot = NONE := hF
    rw [if_pos e] at h
    cases h
  | cons f fl' =>
    obtain ⟨e, hne, hv, -, hrest⟩ := hF
    have hfn : f ∉ fl' := (List.nodup_cons.1 hnd).1
    rw [if_neg (by rw [e]; exact hne)] at h
    simp only [e, hslot_eq_some hv, Option.bind_eq_bind, Option.some_bind] at h
    by_cases hn : (hget m f).next = NONE
    · -- the list has one slot
      rw [if_neg (by simpa using hn)] at h
      simp only [Option.some_bind, hslot_eq_some hv] at h
      have hfl : fl' = [] := (HList_nil_iff hrest).2 hn
      subst hfl
      cases hs : hstore { m with empty_slot := (hget m f).next } f
          (fun s => { s with next := NONE, prev := NONE }) with
      | none => rw [hs] at h; cases h
      | some m3 =>
        rw [hs] at h
        simp only [Option.some_bind, Option.some.injEq] at h
        subst h
        obtain ⟨hv3, rfl⟩ := hstore_some hs
        refine ⟨f, [], rfl, rfl, hv, ?_, fun j => by simp [hvalid], ?_, ?_, ?_, ?_,
          rfl, rfl, rfl, by simp⟩
        · exact hn
        · rw [hget_hput hv3, if_pos rfl]
        · rw [hget_hput hv3, if_pos rfl]
        · intro j hj
          rw [hget_hput_ne (fun e => hj (by simp [e]))]
          rfl
        · intro j
          rw [hget_hput hv3]
          split_ifs with e1
          · subst e1; rfl
          · rfl
    · -- the list goes on with the slot g
      rw [if_pos (by simpa using hn)] at h
      cases fl' with
      | nil => exact absurd hrest hn
      | cons g fl'' =>
        obtain ⟨eg, gne, gv, -, grest⟩ := hrest
        have hgf : g ≠ f := fun e => hfn (by simp [e])
        rw [hstore_eq _ (by rw [eg]; exact gv)] at h
        simp only [Option.some_bind] at h
        have hv1 : hvalid (hput m (hget m f).next
            { hget m (hget m f).next with prev := (hget m f).prev }) f := by
          simpa using hv
        rw [hslot_eq_some hv1, Option.some_bind] at h
        have hg1 : hget (hput m (hget m f).next
            { hget m (hget m f).next with prev := (hget m f).prev }) f = hget m f := by
          rw [hget_hput_ne (by rw [eg]; exact hgf.symm)]
        rw [hg1] at h
        rw [hstore_eq _ (by simpa [hvalid] using hv)] at h
        simp only [Option.some_bind, Option.some.injEq] at h
        subst h
        have hgn : g ∉ fl'' := (List.nodup_cons.1 (List.nodup_cons.1 hnd).2).1
        refine ⟨f, g :: fl'', rfl, rfl, hv, ?_, fun j => by simp [hvalid], ?_, ?_, ?_, ?_,
          rfl, rfl, rfl, by simp⟩
        · refine ⟨eg, gne, by simpa [hvalid] using gv, fun hc => Bool.noConfusion hc, ?_⟩
          have hh : (hget (hput { hput m (hget m f).next
              { hget m (hget m f).next with prev := (hget m f).prev } with
                empty_slot := (hget m f).next } f
              { hget { hput m (hget m f).next
                  { hget m (hget m f).next with prev := (hget m f).prev } with
                  empty_slot := (hget m f).next } f with next := NONE, prev := NONE }) g).next
              = (hget m g).next := by
            rw [hget_hput_ne hgf]
            show (hget (hput m (hget m f).next _) g).next = _
            rw [hget_hput (by rw [eg]; exact gv), if_pos eg.symm]
            rw [eg]
          rw [hh]
          refine HList_frame fl'' _ (fun j hj => ⟨by simpa [hvalid] using (HList_valid _ _ grest j hj).1,
            ?_, fun hc => Bool.noConfusion hc⟩) grest
          have j1 : j ≠ f := fun e => hfn (by simp [← e, hj])
          have j2 : j ≠ g := fun e => hgn (e ▸ hj)
          rw [hget_hput_ne j1]
          show (hget (hput m (hget m f).next _) j).next = _
          rw [hget_hput_ne (by rw [eg]; exact j2)]
        · rw [hget_hput (by simpa [hvalid] using hv), if_pos rfl]
        · rw [hget_hput (by simpa [hvalid] using hv), if_pos rfl]
        · intro j hj
          have j1 : j ≠ f := fun e => hj (by simp [e])
          have j2 : j ≠ g := fun e => hj (by simp [e])
          rw [hget_hput_ne j1]
          show hget (hput m (hget m f).next _) j = _
          rw [hget_hput_ne (by rw [eg]; exact j2)]
        · intro j
          rw [hget_hput (by simpa [hvalid] using hv)]
          split_ifs with e1
          · subst e1
            show (hget (hput m (hget m j).next _) j).slot = _
            rw [hget_hput_ne (by rw [eg]; exact hgf.symm)]
          · show (hget (hput m (hget m f).next _) j).slot = _
            rw [hget_hput (by rw [eg]; exact gv)]
            split_ifs with e2
            · subst e2; rfl
            · rfl

theorem used_buckets_eq {m : sdhmap_heap} (hv : ∀ x, x < m.slot_count → hvalid m x) :
    sdhmap_used_buckets m
      = bsum (fun x => if (hget m x).slot ≠ NONE then 1 else 0) m.slot_count := by
  unfold sdhmap_used_buckets
  apply bsum_congr
  intro x hx
  rw [hslot_eq_some (hv x hx)]

/-- The invariant after a step that changes the chain of one bucket `b` and
the list of empty slots. -/
theorem HInvW_step {m m' : sdhmap_heap} {ch : Nat → List Nat} {fl : List Nat}
    (hI : HInvW m ch fl) (b : Nat) (hb : b < m.slot_count) (lb fl' : List Nat)
    (hsc : m'.slot_count = m.slot_count) (hlen : m'.slots.length = m.slots.length)
    (hheads : ∀ x, x ≠ b → (hget m' x).slot = (hget m x).slot)
    (hlinks : ∀ x, x < m.slot_count → x ≠ b → ∀ j ∈ ch x,
      (hget m' j).next = (hget m j).next ∧ (hget m' j).prev = (hget m j).prev)
    (hlb : HList true m' (hget m' b).slot lb)
    (hfl : HList false m' m'.empty_slot fl')
    (n1 : lb.Nodup) (n2 : fl'.Nodup) (n3 : ∀ x ∈ lb, x ∉ fl')
    (n4 : ∀ x ∈ lb, ∀ b', b' < m.slot_count → b' ≠ b → x ∉ ch b')
    (n5 : ∀ b', b' < m.slot_count → b' ≠ b → ∀ x ∈ ch b', x ∉ fl')
    (hused : m'.used_bucket_count + (if (hget m b).slot ≠ NONE then 1 else 0)
      = m.used_bucket_count + (if (hget m' b).slot ≠ NONE then 1 else 0))
    (hcount : lb.length + m.count ≤ m'.count + (ch b).length)
    (hcap : m'.count + fl'.length ≤ m'.slots.length)
    (hfit : m'.count + fl'.length ≤ max m'.slot_count 2) :
    HInvW m' (Function.update ch b lb) fl' := by
  obtain ⟨h1, h2, h3, h4, h5, h6, h7, h8, h9, h10, h11⟩ := hI
  have hval : ∀ j, hvalid m' j ↔ hvalid m j := fun j => by unfold hvalid; rw [hlen]
  have hv' : ∀ x, x < m'.slot_count → hvalid m' x := fun x hx =>
    (hval x).2 (h1 x (hsc ▸ hx)).1
  refine ⟨fun x hx => ⟨hv' x hx, ?_⟩, hfl, fun x hx => ?_, fun x y hx hy hxy z hz => ?_, n2,
    fun x hx z hz => ?_, ?_, ?_, hcap, hlen ▸ h10, hfit⟩
  · rw [hsc] at hx
    by_cases e : x = b
    · subst e; simpa using hlb
    · rw [Function.update_noteq e, hheads x e]
      exact HList_frame _ _ (fun j hj => ⟨(hval j).2 (HList_valid _ _ (h1 x hx).2 j hj).1,
        (hlinks x hx e j hj).1, fun _ => (hlinks x hx e j hj).2⟩) (h1 x hx).2
  · rw [hsc] at hx
    by_cases e : x = b
    · subst e; simpa using n1
    · rw [Function.update_noteq e]; exact h3 x hx
  · rw [hsc] at hx hy
    by_cases e : x = b
    · subst e
      rw [Function.update_same] at hz
      rw [Function.update_noteq (Ne.symm hxy)]
      exact n4 z hz y hy (Ne.symm hxy)
    · rw [Function.update_noteq e] at hz
      by_cases e' : y = b
      · subst e'
        rw [Function.update_same]
        exact fun hz' => n4 z hz' x hx e hz
      · rw [Function.update_noteq e']
        exact h4 x y hx hy hxy z hz
  · rw [hsc] at hx
    by_cases e : x = b
    · subst e
      rw [Function.update_same] at hz
      exact n3 z hz
    · rw [Function.update_noteq e] at hz
      exact n5 x hx e z hz
  · rw [used_buckets_eq hv', hsc]
    rw [used_buckets_eq (fun x hx => (h1 x hx).1)] at h7
    have := @bsum_update (fun x => if (hget m x).slot ≠ NONE then 1 else 0)
      (fun x => if (hget m' x).slot ≠ NONE then 1 else 0) b m.slot_count hb
      (fun x _ hx => by simp only [hheads x hx])
    simp only at this
    omega
  · rw [hsc]
    have := @bsum_update (fun x => (ch x).length)
      (fun x => (Function.update ch b lb x).length) b m.slot_count hb
      (fun x _ hx => by simp only [Function.update_noteq hx])
    simp only [Function.update_same] at this
    omega

/-- The invariant after a step that keeps the links and the heads. -/
theorem HInvW_same {m m' : sdhmap_heap} {ch : Nat → List Nat} {fl : List Nat}
    (hI : HInvW m ch fl)
    (hsc : m'.slot_count = m.slot_count) (hlen : m'.slots.length = m.slots.length)
    (hcnt : m'.count = m.count) (hu : m'.used_bucket_count = m.used_bucket_count)
    (he : m'.empty_slot = m.empty_slot)
    (hg : ∀ j, (hget m' j).slot = (hget m j).slot ∧ (hget m' j).next = (hget m j).next ∧
      (hget m' j).prev = (hget m j).prev) :
    HInvW m' ch fl := by
  obtain ⟨h1, h2, h3, h4, h5, h6, h7, h8, h9, h10, h11⟩ := hI
  have hval : ∀ j, hvalid m' j ↔ hvalid m j := fun j => by unfold hvalid; rw [hlen]
  have hv' : ∀ x, x < m'.slot_count → hvalid m' x := fun x hx =>
    (hval x).2 (h1 x (hsc ▸ hx)).1
  refine ⟨fun x hx => ⟨hv' x hx, ?_⟩, ?_, hsc ▸ h3, hsc ▸ h4, h5, hsc ▸ h6, ?_, ?_, ?_,
    hlen ▸ h10, by rw [hcnt, hsc]; exact h11⟩
  · rw [(hg x).1]
    rw [hsc] at hx
    exact HList_frame _ _ (fun j hj => ⟨(hval j).2 (HList_valid _ _ (h1 x hx).2 j hj).1,
      (hg j).2.1, fun _ => (hg j).2.2⟩) (h1 x hx).2
  · rw [he]
    exact HList_frame _ _ (fun j hj => ⟨(hval j).2 (HList_valid _ _ h2 j hj).1,
      (hg j).2.1, fun _ => (hg j).2.2⟩) h2
  · rw [used_buckets_eq hv', hsc, hu, h7, used_buckets_eq (fun x hx => (h1 x hx).1)]
    exact bsum_congr _ (fun x _ => by simp only [(hg x).1])
  · rw [hsc, hcnt]; exact h8
  · rw [hcnt, hlen]; exact h9

/-! ## The insert of the hash map keeps the invariant -/

theorem NONE_not_hvalid {m : sdhmap_heap} (h : m.slots.length < 4294967296) : ¬ hvalid m NONE := by
  unfold hvalid NONE; omega

theorem insert_to_empty_inv {m : sdhmap_heap} {ch : Nat → List Nat} {fl : List Nat}
    {key : Int} {b : Nat} {r : sdhmap_heap × Nat}
    (hI : HInvW m ch fl) (hb : b < m.slot_count) (hhead : (hget m b).slot = NONE)
    (h : detail_sdhmap_insert_to_empty m key b = some r) : HInv r.1 := by
  have hI0 := hI
  obtain ⟨h1, h2, h3, h4, h5, h6, h7, h8, h9, h10, h11⟩ := hI
  unfold detail_sdhmap_insert_to_empty at h
  cases hp : detail_sdhmap_pop_empty m with
  | none => rw [hp] at h; cases h
  | some r1 =>
    rw [hp] at h
    obtain ⟨f, fl', rfl, rf, hvf, hF1, hval1, hn1, hp1, hfr1, hs1, c1, sc1, u1, l1⟩ :=
      pop_empty_spec h2 h5 hp
    simp only [Option.bind_eq_bind, Option.some_bind] at h
    have hvb : hvalid r1.1 b := (hval1 b).2 (h1 b hb).1
    rw [hstore_eq _ hvb] at h
    simp only [Option.some_bind] at h
    rw [rf] at h
    rw [hstore_eq _ (by simpa using (hval1 f).2 hvf)] at h
    simp only [Option.some_bind, Option.some.injEq] at h
    obtain ⟨m', i⟩ := r
    simp only [Prod.mk.injEq] at h
    obtain ⟨hm', -⟩ := h
    have hchb : ch b = [] := (HList_nil_iff (h1 b hb).2).2 hhead
    have hfne : f ≠ NONE := (HList_valid _ _ h2 f (List.mem_cons_self _ _)).2
    have hvf1 : hvalid r1.1 f := (hval1 f).2 hvf
    have e_sc : m'.slot_count = m.slot_count := by rw [← hm']; exact sc1
    have e_len : m'.slots.length = m.slots.length := by rw [← hm']; simpa using l1
    have e_cnt : m'.count = m.count + 1 := by rw [← hm', ← c1]; rfl
    have e_used : m'.used_bucket_count = m.used_bucket_count + 1 := by rw [← hm', ← u1]; rfl
    have e_emp : m'.empty_slot = r1.1.empty_slot := by rw [← hm']; rfl
    have key1 : ∀ j, (hget m' j).next = (hget r1.1 j).next ∧
        (hget m' j).prev = (hget r1.1 j).prev ∧
        (hget m' j).slot = if j = b then f else (hget r1.1 j).slot := by
      intro j
      rw [← hm']
      show (hget (hput (hput r1.1 b _) f _) j).next = _ ∧
        (hget (hput (hput r1.1 b _) f _) j).prev = _ ∧
        (hget (hput (hput r1.1 b _) f _) j).slot = _
      rw [hget_hput (by simpa using hvf1)]
      by_cases e1 : j = f
      · subst e1
        simp only [if_true]
        rw [hget_hput hvb]
        by_cases e2 : j = b
        · subst e2; simp
        · simp [e2]
      · simp only [if_neg e1]
        rw [hget_hput hvb]
        by_cases e2 : j = b
        · subst e2; simp
        · simp [e2]
    clear hm'
    have hval' : ∀ j, hvalid m' j ↔ hvalid m j := fun j => by unfold hvalid; rw [e_len]
    refine ⟨Function.update ch b [f], fl', ?_⟩
    apply HInvW_step hI0 b hb [f] fl' e_sc e_len
    · intro x hx
      rw [(key1 x).2.2, if_neg hx, hs1]
    · intro x hx hxb j hj
      have hjf : j ∉ f :: fl' := h6 x hx j hj
      rw [(key1 j).1, (key1 j).2.1, hfr1 j hjf]
      exact ⟨rfl, rfl⟩
    · rw [(key1 b).2.2, if_pos rfl]
      refine ⟨rfl, hfne, (hval' f).2 hvf, fun _ => ?_, ?_⟩
      · rw [(key1 f).2.1, hp1]
      · rw [(key1 f).1, hn1]
        rfl
    · rw [e_emp]
      refine HList_frame _ _ (fun j hj => ⟨(hval' j).2 ((hval1 j).1 (HList_valid _ _ hF1 j hj).1),
        (key1 j).1, fun hc => Bool.noConfusion hc⟩) hF1
    · simp
    · exact (List.nodup_cons.1 h5).2
    · intro x hx
      rw [List.mem_singleton.1 hx]
      exact (List.nodup_cons.1 h5).1
    · intro x hx b' hb' _ hx'
      rw [List.mem_singleton.1 hx] at hx'
      exact h6 b' hb' f hx' (List.mem_cons_self _ _)
    · intro b' hb' _ x hx hx'
      exact h6 b' hb' x hx (List.mem_cons_of_mem _ hx')
    · rw [(key1 b).2.2, if_pos rfl, if_neg (by simpa using hhead), if_pos hfne, e_used]
    · rw [e_cnt, hchb]
      simp only [List.length_singleton, List.length_nil]
      omega
    · rw [e_cnt, e_len]
      simp only [List.length_cons] at h9
      omega
    · rw [e_cnt, e_sc]
      simp only [List.length_cons] at h11
      omega

theorem HList_snoc {c : Bool} {m m' : sdhmap_heap} {e f : Nat} : ∀ (pre : List Nat) (i : Nat),
    HList c m i (pre ++ [e]) →
    (∀ j ∈ pre, hvalid m' j ∧ (hget m' j).next = (hget m j).next ∧
      (c = true → (hget m' j).prev = (hget m j).prev)) →
    hvalid m' e → (hget m' e).next = f → (c = true → (hget m' e).prev = NONE) →
    HList c m' f [f] → HList c m' i (pre ++ [e, f])
  | [], i, h, _, hv, hn, hp, hf => by
    obtain ⟨a, b, -, -, -⟩ := h
    exact ⟨a, b, hv, hp, by rw [hn]; exact hf⟩
  | x :: pre, i, h, hfr, hv, hn, hp, hf => by
    obtain ⟨a, b, -, d, r⟩ := h
    obtain ⟨v, n, p⟩ := hfr x (List.mem_cons_self _ _)
    refine ⟨a, b, v, fun hc => by rw [p hc]; exact d hc, ?_⟩
    rw [n]
    exact HList_snoc pre _ r (fun j hj => hfr j (List.mem_cons_of_mem _ hj)) hv hn hp hf

theorem insert_to_list_inv {m : sdhmap_heap} {ch : Nat → List Nat} {fl : List Nat}
    {key : Int} {b e : Nat} {pre : List Nat} {r : sdhmap_heap × Nat}
    (hI : HInvW m ch fl) (hb : b < m.slot_count) (hch : ch b = pre ++ [e])
    (h : detail_sdhmap_insert_to_list m key e = some r) : HInv r.1 := by
  have hI0 := hI
  obtain ⟨h1, h2, h3, h4, h5, h6, h7, h8, h9, h10, h11⟩ := hI
  unfold detail_sdhmap_insert_to_list at h
  cases hp : detail_sdhmap_pop_empty m with
  | none => rw [hp] at h; cases h
  | some r1 =>
    rw [hp] at h
    obtain ⟨f, fl', rfl, rf, hvf, hF1, hval1, hn1, hp1, hfr1, hs1, c1, sc1, u1, l1⟩ :=
      pop_empty_spec h2 h5 hp
    simp only [Option.bind_eq_bind, Option.some_bind] at h
    have hchain := (h1 b hb).2
    rw [hch] at hchain
    have heb : e ∈ ch b := by rw [hch]; simp
    have hve : hvalid m e := (HList_valid _ _ hchain e (by simp)).1
    have hve1 : hvalid r1.1 e := (hval1 e).2 hve
    have hef : e ≠ f := fun e1 => h6 b hb e heb (by simp [e1])
    rw [hstore_eq _ hve1] at h
    simp only [Option.some_bind] at h
    rw [rf] at h
    rw [hstore_eq _ (by simpa using (hval1 f).2 hvf)] at h
    simp only [Option.some_bind, Option.some.injEq] at h
    obtain ⟨m', i⟩ := r
    simp only [Prod.mk.injEq] at h
    obtain ⟨hm', -⟩ := h
    have hfne : f ≠ NONE := (HList_valid _ _ h2 f (List.mem_cons_self _ _)).2
    have hvf1 : hvalid r1.1 f := (hval1 f).2 hvf
    have e_sc : m'.slot_count = m.slot_count := by rw [← hm']; exact sc1
    have e_len : m'.slots.length = m.slots.length := by rw [← hm']; simpa using l1
    have e_cnt : m'.count = m.count + 1 := by rw [← hm', ← c1]; rfl
    have e_used : m'.used_bucket_count = m.used_bucket_count := by rw [← hm', ← u1]; rfl
    have e_emp : m'.empty_slot = r1.1.empty_slot := by rw [← hm']; rfl
    have key1 : ∀ j, (hget m' j).next = (if j = e then f else (hget r1.1 j).next) ∧
        (hget m' j).prev = (hget r1.1 j).prev ∧
        (hget m' j).slot = (hget r1.1 j).slot := by
      intro j
      rw [← hm']
      show (hget (hput (hput r1.1 e _) f _) j).next = _ ∧
        (hget (hput (hput r1.1 e _) f _) j).prev = _ ∧
        (hget (hput (hput r1.1 e _) f _) j).slot = _
      rw [hget_hput (by simpa using hvf1)]
      by_cases e1 : j = f
      · subst e1
        simp only [if_true]
        rw [hget_hput hve1]
        simp [Ne.symm hef]
      · simp only [if_neg e1]
        rw [hget_hput hve1]
        by_cases e2 : j = e
        · subst e2; simp
        · simp [e2]
    clear hm'
    have hval' : ∀ j, hvalid m' j ↔ hvalid m j := fun j => by unfold hvalid; rw [e_len]
    have hnd : (pre ++ [e]).Nodup := hch ▸ h3 b hb
    have hepre : e ∉ pre := by
      intro hx
      have := (List.nodup_append.1 hnd).2.2
      exact this hx (List.mem_singleton_self e) 
    have hnotfl : ∀ x ∈ pre ++ [e], x ∉ f :: fl' := fun x hx => h6 b hb x (hch ▸ hx)
    refine ⟨Function.update ch b (pre ++ [e, f]), fl', ?_⟩
    apply HInvW_step hI0 b hb (pre ++ [e, f]) fl' e_sc e_len
    · intro x _
      rw [(key1 x).2.2, hs1]
    · intro x hx hxb j hj
      have hjf : j ∉ f :: fl' := h6 x hx j hj
      have hje : j ≠ e := fun e1 => h4 x b hx hb hxb j hj (e1 ▸ heb)
      rw [(key1 j).1, (key1 j).2.1, if_neg hje, hfr1 j hjf]
      exact ⟨rfl, rfl⟩
    · rw [(key1 b).2.2, hs1]
      refine HList_snoc pre _ hchain (fun j hj => ⟨(hval' j).2
        (HList_valid _ _ hchain j (List.mem_append_left _ hj)).1, ?_, fun _ => ?_⟩)
        ((hval' e).2 hve) ?_ (fun _ => ?_) ⟨rfl, hfne, (hval' f).2 hvf, fun _ => ?_, ?_⟩
      · rw [(key1 j).1, if_neg (fun (e1 : j = e) => hepre (e1 ▸ hj)),
          hfr1 j (hnotfl j (List.mem_append_left _ hj))]
      · rw [(key1 j).2.1, hfr1 j (hnotfl j (List.mem_append_left _ hj))]
      · rw [(key1 e).1, if_pos rfl]
      · rw [(key1 e).2.1, hfr1 e (hnotfl e (by simp))]
        exact HList_prev _ _ hchain e (by simp)
      · rw [(key1 f).2.1, hp1]
      · rw [(key1 f).1, if_neg (Ne.symm hef), hn1]
        rfl
    · rw [e_emp]
      refine HList_frame _ _ (fun j hj => ⟨(hval' j).2 ((hval1 j).1 (HList_valid _ _ hF1 j hj).1),
        ?_, fun hc => Bool.noConfusion hc⟩) hF1
      rw [(key1 j).1, if_neg]
      intro e1
      exact h6 b hb e heb (by simp [← e1, hj])
    · have : pre ++ [e, f] = (pre ++ [e]) ++ [f] := by simp
      rw [this]
      refine List.nodup_append.2 ⟨hnd, List.nodup_singleton f, ?_⟩
      intro x hx hx'
      rw [List.mem_singleton.1 hx'] at hx
      exact hnotfl f hx (List.mem_cons_self _ _)
    · exact (List.nodup_cons.1 h5).2
    · intro x hx hx'
      have : x ∈ pre ++ [e] ∨ x = f := by
        simp only [List.mem_append, List.mem_cons, List.mem_singleton, List.not_mem_nil,
          or_false] at hx ⊢
        tauto
      rcases this with hx1 | rfl
      · exact hnotfl x hx1 (List.mem_cons_of_mem _ hx')
      · exact (List.nodup_cons.1 h5).1 hx'
    · intro x hx b' hb' hbb hx'
      have : x ∈ pre ++ [e] ∨ x = f := by
        simp only [List.mem_append, List.mem_cons, List.mem_singleton, List.not_mem_nil,
          or_false] at hx ⊢
        tauto
      rcases this with hx1 | rfl
      · exact h4 b b' hb hb' (Ne.symm hbb) x (hch ▸ hx1) hx'
      · exact h6 b' hb' x hx' (List.mem_cons_self _ _)
    · intro b' hb' _ x hx hx'
      exact h6 b' hb' x hx (List.mem_cons_of_mem _ hx')
    · rw [(key1 b).2.2, hs1, e_used]
    · rw [e_cnt, hch]
      simp only [List.length_append, List.length_cons, List.length_nil]
      omega
    · rw [e_cnt, e_len]
      simp only [List.length_cons] at h9
      omega
    · rw [e_cnt, e_sc]
      simp only [List.length_cons] at h11
      omega

theorem set_common_loop_inv {m : sdhmap_heap} {ch : Nat → List Nat} {fl : List Nat}
    {b : Nat} (hI : HInvW m ch fl) (hb : b < m.slot_count) (key : Int) :
    ∀ (fuel : Nat) (pre suf : List Nat) (i : Nat), ch b = pre ++ suf → suf ≠ [] →
    HList true m i suf → ∀ r, detail_sdhmap_set_common_loop fuel m i key = some r → HInv r.1
  | 0, _, _, _, _, _, _, r, h => by simp [detail_sdhmap_set_common_loop] at h
  | fuel + 1, pre, [], i, _, hne, _, r, h => absurd rfl hne
  | fuel + 1, pre, j :: suf, i, hch, _, hl, r, h => by
    obtain ⟨rfl, jne, jv, -, hrest⟩ := hl
    rw [detail_sdhmap_set_common_loop, hslot_eq_some jv] at h
    simp only at h
    by_cases hk : (hget m i).key = key
    · rw [if_pos hk] at h
      cases h
      exact ⟨ch, fl, hI⟩
    · rw [if_neg hk] at h
      by_cases hn : (hget m i).next = NONE
      · rw [if_neg (by simpa using hn)] at h
        have : suf = [] := (HList_nil_iff hrest).2 hn
        subst this
        exact insert_to_list_inv hI hb hch h
      · rw [if_pos (by simpa using hn)] at h
        have hs : suf ≠ [] := fun e => hn ((HList_nil_iff hrest).1 e)
        exact set_common_loop_inv hI hb key fuel (pre ++ [i]) suf _ (by simp [hch]) hs hrest r h

theorem set_common_inv {m : sdhmap_heap} {fuel : Nat} {hash_func : Int → Nat} {key : Int}
    {r : sdhmap_heap × Nat} (hI : HInv m)
    (h : detail_sdhmap_set_common fuel hash_func m key = some r) : HInv r.1 := by
  obtain ⟨ch, fl, hW⟩ := hI
  unfold detail_sdhmap_set_common at h
  by_cases h0 : m.slot_count = 0
  · rw [if_pos h0] at h; cases h
  · rw [if_neg h0] at h
    have hb : hash_func key % m.slot_count < m.slot_count := Nat.mod_lt _ (Nat.pos_of_ne_zero h0)
    simp only [hslot_eq_some (hW.1 _ hb).1] at h
    by_cases hs : (hget m (hash_func key % m.slot_count)).slot = NONE
    · rw [if_pos hs] at h
      exact insert_to_empty_inv hW hb hs h
    · rw [if_neg hs] at h
      have hl := (hW.1 _ hb).2
      have hne : ch (hash_func key % m.slot_count) ≠ [] := fun e => hs ((HList_nil_iff hl).1 e)
      exact set_common_loop_inv hW hb key fuel [] _ _ (by simp) hne hl r h

theorem write_value_inv {m m' : sdhmap_heap} {i : Nat} {v : Int} (hI : HInv m)
    (h : hstore m i (fun s => { s with value := v }) = some m') : HInv m' := by
  obtain ⟨ch, fl, hW⟩ := hI
  obtain ⟨hv, rfl⟩ := hstore_some h
  refine ⟨ch, fl, HInvW_same hW rfl (by simp) rfl rfl rfl (fun j => ?_)⟩
  rw [hget_hput hv]
  split_ifs with e
  · subst e; exact ⟨rfl, rfl, rfl⟩
  · exact ⟨rfl, rfl, rfl⟩

/-! ## The erase of the hash map keeps the invariant -/

theorem erase_at_release_spec {m m' : sdhmap_heap} {j : Nat}
    (h : detail_sdhmap_erase_at_release m j = some m') :
    hvalid m m.empty_slot ∧ hvalid m j ∧
    m'.empty_slot = j ∧ m'.count = m.count ∧ m'.slot_count = m.slot_count ∧
    m'.used_bucket_count = m.used_bucket_count ∧ m'.slots.length = m.slots.length ∧
    ∀ x, (hget m' x).slot = (hget m x).slot ∧
      (hget m' x).next = (if x = j then m.empty_slot else (hget m x).next) ∧
      (hget m' x).prev = (if x = j then NONE else if x = m.empty_slot then j
        else (hget m x).prev) := by
  unfold detail_sdhmap_erase_at_release at h
  simp only [Option.bind_eq_bind] at h
  cases h1 : hstore m m.empty_slot (fun s => { s with prev := j }) with
  | none => rw [h1] at h; cases h
  | some m1 =>
    rw [h1, Option.some_bind] at h
    obtain ⟨hv1, rfl⟩ := hstore_some h1
    cases h2 : hstore (hput m m.empty_slot { hget m m.empty_slot with prev := j }) j
        (fun s => { s with prev := NONE }) with
    | none => rw [h2] at h; cases h
    | some m2 =>
      rw [h2, Option.some_bind] at h
      obtain ⟨hv2, rfl⟩ := hstore_some h2
      have hvj : hvalid m j := by simpa using hv2
      rw [hstore_eq _ (by simpa using hvj)] at h
      simp only [Option.some_bind, Option.some.injEq] at h
      subst h
      refine ⟨hv1, hvj, rfl, rfl, rfl, rfl, by simp, fun x => ?_⟩
      show (hget (hput (hput (hput m m.empty_slot _) j _) j _) x).slot = _ ∧
        (hget (hput (hput (hput m m.empty_slot _) j _) j _) x).next = _ ∧
        (hget (hput (hput (hput m m.empty_slot _) j _) j _) x).prev = _
      rw [hget_hput (by simpa using hvj)]
      by_cases e1 : x = j
      · subst e1
        simp only [if_true]
        rw [hget_hput (by simpa using hvj), if_pos rfl]
        simp only
        rw [hget_hput hv1]
        split_ifs <;> simp_all
      · simp only [if_neg e1]
        rw [hget_hput (by simpa using hvj), if_neg e1, hget_hput hv1]
        split_ifs <;> simp_all

theorem bsum_ge {g : Nat → Nat} {b : Nat} : ∀ (n : Nat), b < n → g b ≤ bsum g n
  | 0, hb => absurd hb (Nat.not_lt_zero _)
  | n + 1, hb => by
    rw [bsum]
    by_cases e : b = n
    · subst e; omega
    · have := @bsum_ge g b n (by omega); omega

theorem bsum_le_of_le_one {g : Nat → Nat} : ∀ (n : Nat), (∀ x, x < n → g x ≤ 1) → bsum g n ≤ n
  | 0, _ => Nat.le_refl _
  | n + 1, h => by
    rw [bsum]
    have := bsum_le_of_le_one n (fun x hx => h x (Nat.lt_succ_of_lt hx))
    have := h n (Nat.lt_succ_self n)
    omega

theorem HInvW_slot_count_le {m : sdhmap_heap} {ch : Nat → List Nat} {fl : List Nat}
    (hI : HInvW m ch fl) : m.slot_count ≤ m.slots.length := by
  by_cases h0 : m.slot_count = 0
  · omega
  · have := (hI.1 (m.slot_count - 1) (by omega)).1
    unfold hvalid at this
    omega

/-- The erase of a slot of a chain keeps the invariant: the chain of the
bucket becomes the part behind the slot. -/
theorem erase_at_inv {m m' : sdhmap_heap} {ch : Nat → List Nat} {fl : List Nat}
    {b j : Nat} {pre post : List Nat}
    (hI : HInvW m ch fl) (hb : b < m.slot_count) (hch : ch b = pre ++ j :: post)
    (h : detail_sdhmap_erase_at m b j = some m') : HInv m' := by
  have hI0 := hI
  have hscl := HInvW_slot_count_le hI
  obtain ⟨h1, h2, h3, h4, h5, h6, h7, h8, h9, h10, h11⟩ := hI
  have hchain := (h1 b hb).2
  rw [hch] at hchain
  have hjb : j ∈ ch b := by rw [hch]; simp
  obtain ⟨hvj, hjne⟩ := HList_valid _ _ hchain j (by simp)
  have hprev : (hget m j).prev = NONE := HList_prev _ _ hchain j (by simp)
  obtain ⟨k, hk, -, -⟩ := HList_split pre _ (j :: post) hchain
  obtain ⟨-, -, -, -, hpost⟩ := hk
  have hhead : (hget m b).slot ≠ NONE := by
    intro e
    have := (HList_nil_iff (h1 b hb).2).2 e
    rw [hch] at this
    simp at this
  have hnd : (pre ++ j :: post).Nodup := hch ▸ h3 b hb
  have hjpost : j ∉ post := by
    have := (List.nodup_append.1 hnd).2.1
    exact (List.nodup_cons.1 this).1
  have hpnd : post.Nodup := (List.nodup_cons.1 (List.nodup_append.1 hnd).2.1).2
  have hjfl : j ∉ fl := h6 b hb j hjb
  have hpostb : ∀ x ∈ post, x ∈ ch b := fun x hx => by rw [hch]; simp [hx]
  -- the counters
  have hu1 : 1 ≤ m.used_bucket_count ∧ m.used_bucket_count < 4294967296 := by
    rw [h7, used_buckets_eq (fun x hx => (h1 x hx).1)]
    constructor
    · have := @bsum_ge (fun x => if (hget m x).slot ≠ NONE then 1 else 0) b m.slot_count hb
      simp only [if_pos hhead] at this
      exact this
    · have := @bsum_le_of_le_one (fun x => if (hget m x).slot ≠ NONE then 1 else 0)
        m.slot_count (fun x _ => by simp only; split_ifs <;> omega)
      omega
  have hc1 : (pre ++ j :: post).length ≤ m.count := by
    have := @bsum_ge (fun x => (ch x).length) b m.slot_count hb
    simp only [hch] at this
    omega
  have hc2 : m.count < 4294967296 := by omega
  unfold detail_sdhmap_erase_at at h
  simp only [Option.bind_eq_bind, hslot_eq_some hvj, Option.some_bind, hprev, if_true] at h
  obtain ⟨m5, h5', hfin⟩ := Option.bind_eq_some.1 h
  obtain ⟨m1, hX, hrel⟩ := Option.bind_eq_some.1 h5'
  simp only [Option.some.injEq] at hfin
  clear h h5'
  -- the state before the release
  have hm1 : m1.empty_slot = m.empty_slot ∧ m1.count = m.count ∧
      m1.slot_count = m.slot_count ∧ m1.slots.length = m.slots.length ∧
      m1.used_bucket_count + (if (hget m b).slot ≠ NONE then 1 else 0)
        = m.used_bucket_count + (if (hget m j).next ≠ NONE then 1 else 0) ∧
      ∀ x, (hget m1 x).slot = (if x = b then (hget m j).next else (hget m x).slot) ∧
        (hget m1 x).next = (hget m x).next ∧
        ((hget m x).prev = NONE → (hget m1 x).prev = NONE) ∧
        (x ∉ post → (hget m1 x).prev = (hget m x).prev) := by
    by_cases hn : (hget m j).next = NONE
    · rw [if_pos hn] at hX
      cases hs : hstore m b (fun s => { s with slot := NONE }) with
      | none => rw [hs] at hX; cases hX
      | some m0 =>
        rw [hs] at hX
        simp only [Option.some_bind, Option.some.injEq] at hX
        obtain ⟨hv0, hm0⟩ := hstore_some hs
        have a1 : ∀ x, hget m1 x = hget m0 x := fun x => hget_congr (by rw [← hX]) x
        have a2 : m1.used_bucket_count = (m0.used_bucket_count + 4294967295) % 4294967296 := by
          rw [← hX]
        refine ⟨by rw [← hX, hm0]; rfl, by rw [← hX, hm0]; rfl, by rw [← hX, hm0]; rfl,
          by rw [← hX, hm0]; simp, ?_, fun x => ?_⟩
        · rw [a2, hm0, if_pos hhead, if_neg (by simpa using hn)]
          simp only [hput_used]
          omega
        · rw [a1, hm0, hget_hput hv0]
          split_ifs with e
          · subst e; exact ⟨hn.symm, rfl, fun p => p, fun _ => rfl⟩
          · exact ⟨rfl, rfl, fun p => p, fun _ => rfl⟩
    · rw [if_neg hn] at hX
      cases hs : hstore m b (fun s => { s with slot := (hget m j).next }) with
      | none => rw [hs] at hX; cases hX
      | some m0 =>
        rw [hs] at hX
        simp only [Option.some_bind] at hX
        obtain ⟨hv0, hm0⟩ := hstore_some hs
        have g0 : ∀ x, hget m0 x = if x = b then { hget m b with slot := (hget m j).next }
            else hget m x := fun x => by rw [hm0, hget_hput hv0]
        have hvj0 : hvalid m0 j := by rw [hm0]; simpa using hvj
        rw [hslot_eq_some hvj0] at hX
        simp only [Option.some_bind] at hX
        have en : (hget m0 j).next = (hget m j).next := by
          rw [g0]
          split_ifs with e
          · subst e; rfl
          · rfl
        rw [en] at hX
        obtain ⟨hvg, hm1⟩ := hstore_some hX
        refine ⟨by rw [hm1, hm0]; rfl, by rw [hm1, hm0]; rfl, by rw [hm1, hm0]; rfl,
          by rw [hm1, hm0]; simp, ?_, fun x => ?_⟩
        · rw [hm1, hm0, if_pos hhead, if_pos hn]
          rfl
        · have hpne : post ≠ [] := fun e => hn ((HList_nil_iff hpost).1 e)
          obtain ⟨g, post', rfl⟩ := List.exists_cons_of_ne_nil hpne
          obtain ⟨eg, -, gv, -, -⟩ := hpost
          rw [hm1, hget_hput hvg]
          by_cases e1 : x = (hget m j).next
          · rw [if_pos e1, g0]
            refine ⟨?_, ?_, fun _ => rfl, fun hx => absurd (by rw [e1, eg]; simp) hx⟩
            · by_cases e2 : (hget m j).next = b
              · rw [if_pos e2, if_pos (e1.trans e2)]
              · rw [if_neg e2, if_neg (fun e3 => e2 (e1.symm.trans e3)), e1]
            · by_cases e2 : (hget m j).next = b
              · rw [if_pos e2, e1, e2]
              · rw [if_neg e2, e1]
          · rw [if_neg e1, g0]
            split_ifs with e
            · subst e; exact ⟨rfl, rfl, fun p => p, fun _ => rfl⟩
            · exact ⟨rfl, rfl, fun p => p, fun _ => rfl⟩
  obtain ⟨e1, c1, s1, l1, u1, g1⟩ := hm1
  obtain ⟨hve, -, r1, r2, r3, r4, r5, g5⟩ := erase_at_release_spec hrel
  rw [e1] at hve g5
  have hflne : fl ≠ [] := by
    intro e
    subst e
    have : m.empty_slot = NONE := h2
    rw [this] at hve
    exact NONE_not_hvalid (l1 ▸ h10) hve
  obtain ⟨e, fl', rfl⟩ := List.exists_cons_of_ne_nil hflne
  obtain ⟨ee, ene, ev, -, hflrest⟩ := h2
  have e_sc : m'.slot_count = m.slot_count := by rw [← hfin]; show m5.slot_count = _; rw [r3, s1]
  have e_len : m'.slots.length = m.slots.length := by
    rw [← hfin]; show m5.slots.length = _; rw [r5, l1]
  have e_cnt : m'.count = m.count - 1 := by
    rw [← hfin]; show (m5.count + 4294967295) % 4294967296 = _
    rw [r2, c1]
    have : 1 ≤ m.count := by
      simp only [List.length_append, List.length_cons] at hc1; omega
    omega
  have e_used : m'.used_bucket_count = m1.used_bucket_count := by
    rw [← hfin]; exact r4
  have e_emp : m'.empty_slot = j := by rw [← hfin]; exact r1
  have e_get : ∀ x, hget m' x = hget m5 x := fun x => hget_congr (by rw [← hfin]) x
  clear hfin hrel hX
  have hval' : ∀ x, hvalid m' x ↔ hvalid m x := fun x => by unfold hvalid; rw [e_len]
  have hje : j ≠ e := fun e1 => hjfl (by simp [e1])
  refine ⟨Function.update ch b post, j :: e :: fl', ?_⟩
  apply HInvW_step hI0 b hb post (j :: e :: fl') e_sc e_len
  · intro x hx
    rw [e_get, (g5 x).1, (g1 x).1, if_neg hx]
  · intro x hx hxb z hz
    have z1 : z ≠ j := fun e1 => h4 x b hx hb hxb z hz (e1 ▸ hjb)
    have z2 : z ≠ m.empty_slot := fun e1 => h6 x hx z hz (by rw [e1, ee]; simp)
    have z3 : z ∉ post := fun hz' => h4 x b hx hb hxb z hz (hpostb z hz')
    rw [e_get, (g5 z).2.1, (g5 z).2.2, if_neg z1, if_neg z1, if_neg z2, (g1 z).2.1,
      (g1 z).2.2.2 z3]
    exact ⟨rfl, rfl⟩
  · rw [e_get, (g5 b).1, (g1 b).1, if_pos rfl]
    refine HList_frame _ _ (fun z hz => ⟨(hval' z).2 (HList_valid _ _ hpost z hz).1, ?_,
      fun _ => ?_⟩) hpost
    · have z1 : z ≠ j := fun e1 => hjpost (e1 ▸ hz)
      rw [e_get, (g5 z).2.1, if_neg z1, (g1 z).2.1]
    · have z1 : z ≠ j := fun e1 => hjpost (e1 ▸ hz)
      have z2 : z ≠ m.empty_slot := fun e1 => h6 b hb z (hpostb z hz) (by rw [e1, ee]; simp)
      have zp : (hget m z).prev = NONE := HList_prev _ _ hpost z hz
      rw [e_get, (g5 z).2.2, if_neg z1, if_neg z2, (g1 z).2.2.1 zp, zp]
  · rw [e_emp]
    refine ⟨rfl, hjne, (hval' j).2 hvj, fun hc => Bool.noConfusion hc, ?_⟩
    rw [e_get, (g5 j).2.1, if_pos rfl, ee]
    refine ⟨rfl, ene, (hval' e).2 ev, fun hc => Bool.noConfusion hc, ?_⟩
    have en : (hget m' e).next = (hget m e).next := by
      rw [e_get, (g5 e).2.1, if_neg (Ne.symm hje), (g1 e).2.1]
    rw [en]
    refine HList_frame _ _ (fun z hz => ⟨(hval' z).2 (HList_valid _ _ hflrest z hz).1, ?_,
      fun hc => Bool.noConfusion hc⟩) hflrest
    have z1 : z ≠ j := fun e1 => hjfl (by simp [← e1, hz])
    rw [e_get, (g5 z).2.1, if_neg z1, (g1 z).2.1]
  · exact hpnd
  · exact List.nodup_cons.2 ⟨hjfl, h5⟩
  · intro x hx hx'
    rcases List.mem_cons.1 hx' with rfl | hx''
    · exact hjpost hx
    · exact h6 b hb x (hpostb x hx) hx''
  · intro x hx b' hb' hbb hx'
    exact h4 b b' hb hb' (Ne.symm hbb) x (hpostb x hx) hx'
  · intro b' hb' hbb x hx hx'
    rcases List.mem_cons.1 hx' with rfl | hx''
    · exact h4 b' b hb' hb hbb x hx hjb
    · exact h6 b' hb' x hx hx''
  · rw [e_used, e_get, (g5 b).1, (g1 b).1, if_pos rfl]
    exact u1
  · rw [e_cnt, hch]
    simp only [List.length_append, List.length_cons] at hc1 ⊢
    omega
  · rw [e_cnt, e_len]
    simp only [List.length_append, List.length_cons] at hc1 h9 ⊢
    omega
  · rw [e_cnt, e_sc]
    simp only [List.length_append, List.length_cons] at hc1 h11 ⊢
    omega

theorem hash_erase_loop_inv {m : sdhmap_heap} {ch : Nat → List Nat} {fl : List Nat}
    {b : Nat} (hI : HInvW m ch fl) (hb : b < m.slot_count) (key : Int) :
    ∀ (fuel : Nat) (pre suf : List Nat) (i : Nat), ch b = pre ++ suf → suf ≠ [] →
    HList true m i suf → ∀ m', detail_sdhmap_erase_loop fuel m b i key = some m' → HInv m'
  | 0, _, _, _, _, _, _, m', h => by simp [detail_sdhmap_erase_loop] at h
  | fuel + 1, pre, [], i, _, hne, _, m', h => absurd rfl hne
  | fuel + 1, pre, j :: suf, i, hch, _, hl, m', h => by
    obtain ⟨rfl, jne, jv, -, hrest⟩ := hl
    rw [detail_sdhmap_erase_loop, hslot_eq_some jv] at h
    simp only at h
    by_cases hk : (hget m i).key = key
    · rw [if_pos hk] at h
      exact erase_at_inv hI hb hch h
    · rw [if_neg hk] at h
      by_cases hn : (hget m i).next = NONE
      · rw [if_neg (by simpa using hn)] at h
        cases h
        exact ⟨ch, fl, hI⟩
      · rw [if_pos (by simpa using hn)] at h
        have hs : suf ≠ [] := fun e => hn ((HList_nil_iff hrest).1 e)
        exact hash_erase_loop_inv hI hb key fuel (pre ++ [i]) suf _ (by simp [hch]) hs hrest m' h

theorem hash_erase_impl_inv {m m' : sdhmap_heap} {fuel : Nat} {hash_func : Int → Nat}
    {key : Int} (hI : HInv m)
    (h : detail_sdhmap_erase_impl fuel hash_func (some m) key = some (some m')) : HInv m' := by
  have hI0 := hI
  obtain ⟨ch, fl, hW⟩ := hI
  unfold detail_sdhmap_erase_impl at h
  simp only at h
  by_cases h0 : m.slot_count = 0
  · rw [if_pos h0] at h
    simp only [Option.some.injEq] at h
    exact h ▸ hI0
  · rw [if_neg h0] at h
    have hb : hash_func key % m.slot_count < m.slot_count := Nat.mod_lt _ (Nat.pos_of_ne_zero h0)
    simp only [hslot_eq_some (hW.1 _ hb).1] at h
    by_cases hs : (hget m (hash_func key % m.slot_count)).slot = NONE
    · rw [if_pos hs] at h
      simp only [Option.some.injEq] at h
      exact h ▸ hI0
    · rw [if_neg hs] at h
      have hl := (hW.1 _ hb).2
      have hne : ch (hash_func key % m.slot_count) ≠ [] := fun e => hs ((HList_nil_iff hl).1 e)
      simp only [Option.map_eq_some'] at h
      obtain ⟨m2, hm2, e2⟩ := h
      simp only [Option.some.injEq] at e2
      subst e2
      exact hash_erase_loop_inv hW hb key fuel [] _ _ (by simp) hne hl m2 hm2

/-! ## The initialisation of the slots of the hash map -/

theorem init_slots_loop_spec : ∀ (fuel : Nat) (m : sdhmap_heap) (i : Nat)
    (r : sdhmap_heap × Nat), detail_sdhmap_init_slots_loop fuel m i = some r →
    i ≤ r.2 ∧ m.slot_count ≤ r.2 + 1 ∧
    r.1.slot_count = m.slot_count ∧ r.1.count = m.count ∧
    r.1.used_bucket_count = m.used_bucket_count ∧ r.1.empty_slot = m.empty_slot ∧
    r.1.slots.length = m.slots.length ∧
    (∀ x, x < i ∨ r.2 ≤ x → hget r.1 x = hget m x) ∧
    (∀ x, i ≤ x → x < r.2 → hvalid m x ∧ (hget r.1 x).slot = NONE ∧ (hget r.1 x).next = x + 1)
  | 0, _, _, _, h => by simp [detail_sdhmap_init_slots_loop] at h
  | fuel + 1, m, i, r, h => by
    rw [detail_sdhmap_init_slots_loop] at h
    by_cases hc : i + 1 < m.slot_count
    · rw [if_pos hc] at h
      cases hs : hstore m i (fun s => { s with slot := NONE, next := i + 1, prev := i - 1 }) with
      | none => rw [hs] at h; cases h
      | some m1 =>
        rw [hs] at h
        simp only at h
        obtain ⟨hv, hm1⟩ := hstore_some hs
        obtain ⟨a1, a2, a3, a4, a5, a6, a7, a8, a9⟩ := init_slots_loop_spec fuel m1 (i + 1) r h
        have g1 : ∀ x, hget m1 x = if x = i then
            { hget m i with slot := NONE, next := i + 1, prev := i - 1 } else hget m x :=
          fun x => by rw [hm1, hget_hput hv]
        refine ⟨by omega, by rw [hm1] at a2; exact a2, by rw [a3, hm1]; rfl, by rw [a4, hm1]; rfl,
          by rw [a5, hm1]; rfl, by rw [a6, hm1]; rfl, by rw [a7, hm1]; simp, fun x hx => ?_,
          fun x hx1 hx2 => ?_⟩
        · rw [a8 x (by omega), g1, if_neg (by omega)]
        · by_cases e : x = i
          · subst e
            rw [a8 x (by omega), g1, if_pos rfl]
            exact ⟨hv, rfl, rfl⟩
          · obtain ⟨b1, b2, b3⟩ := a9 x (by omega) hx2
            exact ⟨by rw [hm1] at b1; simpa using b1, b2, b3⟩
    · rw [if_neg hc] at h
      simp only [Option.some.injEq] at h
      subst h
      exact ⟨le_refl _, by omega, rfl, rfl, rfl, rfl, rfl, fun _ _ => rfl,
        fun x h1 h2 => absurd h1 (by omega)⟩

theorem HList_range {m : sdhmap_heap} {n : Nat} (hlen : m.slots.length < 4294967296)
    (h1 : ∀ x, x < n → hvalid m x ∧ (hget m x).next = x + 1)
    (h2 : hvalid m n) (h3 : (hget m n).next = NONE) :
    ∀ (k a : Nat), a + k = n → HList false m a (List.range' a (k + 1))
  | 0, a, e => by
    have : a = n := by omega
    subst this
    refine ⟨rfl, ?_, h2, fun hc => Bool.noConfusion hc, ?_⟩
    · intro e1; rw [e1] at h2; exact NONE_not_hvalid hlen h2
    · rw [h3]; rfl
  | k + 1, a, e => by
    rw [List.range'_succ]
    obtain ⟨v, n1⟩ := h1 a (by omega)
    refine ⟨rfl, ?_, v, fun hc => Bool.noConfusion hc, ?_⟩
    · intro e1; rw [e1] at v; exact NONE_not_hvalid hlen v
    · rw [n1]
      exact HList_range hlen h1 h2 h3 k (a + 1) (by omega)

theorem init_slots_loop_le : ∀ (fuel : Nat) (m : sdhmap_heap) (i : Nat)
    (r : sdhmap_heap × Nat), detail_sdhmap_init_slots_loop fuel m i = some r →
    r.2 + 1 ≤ max m.slot_count (i + 1)
  | 0, _, _, _, h => by simp [detail_sdhmap_init_slots_loop] at h
  | fuel + 1, m, i, r, h => by
    rw [detail_sdhmap_init_slots_loop] at h
    by_cases hc : i + 1 < m.slot_count
    · rw [if_pos hc] at h
      cases hs : hstore m i (fun s => { s with slot := NONE, next := i + 1, prev := i - 1 }) with
      | none => rw [hs] at h; cases h
      | some m1 =>
        rw [hs] at h
        simp only at h
        have := init_slots_loop_le fuel m1 (i + 1) r h
        rw [(hstore_some hs).2] at this
        simp only [hput] at this
        omega
    · rw [if_neg hc] at h
      simp only [Option.some.injEq] at h
      subst h
      exact le_max_right _ _

/-- The invariant after `detail_sdhmap_init_slots` on a header with no
element: no bucket has a chain and the initialised slots form the list of
empty slots. -/
theorem init_slots_inv {m m' : sdhmap_heap} (hlen : m.slots.length < 4294967296)
    (hc : m.count = 0) (hu : m.used_bucket_count = 0) (he : m.empty_slot = 0)
    (h : detail_sdhmap_init_slots m = some m') : HInv m' := by
  unfold detail_sdhmap_init_slots at h
  simp only [Option.bind_eq_bind] at h
  cases hs : hstore m 0 (fun s => { s with slot := NONE, next := 1, prev := NONE }) with
  | none => rw [hs] at h; cases h
  | some m0 =>
    rw [hs, Option.some_bind] at h
    obtain ⟨hv0, hm0⟩ := hstore_some hs
    cases hl : detail_sdhmap_init_slots_loop (m0.slot_count + 1) m0 1 with
    | none => rw [hl] at h; cases h
    | some r =>
      rw [hl, Option.some_bind] at h
      obtain ⟨a1, a2, a3, a4, a5, a6, a7, a8, a9⟩ := init_slots_loop_spec _ _ _ _ hl
      obtain ⟨hvn, hm'⟩ := hstore_some h
      have g0 : ∀ x, hget m0 x = if x = 0 then
          { hget m 0 with slot := NONE, next := 1, prev := NONE } else hget m x :=
        fun x => by rw [hm0, hget_hput hv0]
      have g' : ∀ x, hget m' x = if x = r.2 then
          { hget r.1 r.2 with slot := NONE, next := NONE, prev := r.2 - 1 } else hget r.1 x :=
        fun x => by rw [hm', hget_hput hvn]
      have e_len : m'.slots.length = m.slots.length := by rw [hm']; simp [a7, hm0]
      have e_sc : m'.slot_count = m.slot_count := by rw [hm']; simp [a3, hm0]
      have hval : ∀ x, hvalid m' x ↔ hvalid m x := fun x => by unfold hvalid; rw [e_len]
      have hvn' : hvalid m r.2 := by
        have : hvalid m0 r.2 := by unfold hvalid at hvn ⊢; rw [← a7]; exact hvn
        rw [hm0] at this; simpa using this
      -- the slots up to the last one
      have hslot : ∀ x, x ≤ r.2 → hvalid m x ∧ (hget m' x).slot = NONE := by
        intro x hx
        rw [g']
        by_cases e : x = r.2
        · rw [if_pos e]; exact ⟨e ▸ hvn', rfl⟩
        · rw [if_neg e]
          by_cases e0 : x = 0
          · subst e0
            rw [a8 0 (Or.inl (by omega)), g0, if_pos rfl]
            exact ⟨hv0, rfl⟩
          · obtain ⟨b1, b2, -⟩ := a9 x (by omega) (by omega)
            exact ⟨by rw [hm0] at b1; simpa using b1, b2⟩
      have hnext : ∀ x, x < r.2 → hvalid m' x ∧ (hget m' x).next = x + 1 := by
        intro x hx
        refine ⟨(hval x).2 (hslot x (by omega)).1, ?_⟩
        rw [g', if_neg (by omega)]
        by_cases e0 : x = 0
        · subst e0
          rw [a8 0 (Or.inl (by omega)), g0, if_pos rfl]
        · exact (a9 x (by omega) hx).2.2
      have hlast : (hget m' r.2).next = NONE := by rw [g', if_pos rfl]
      have hfl := HList_range (e_len ▸ hlen) hnext ((hval _).2 hvn') hlast r.2 0 (by omega)
      have hsc : m'.slot_count ≤ r.2 + 1 := by rw [e_sc]; rw [hm0] at a2; exact a2
      refine ⟨fun _ => [], List.range' 0 (r.2 + 1), fun b hb => ⟨(hval b).2
        (hslot b (by omega)).1, ?_⟩, ?_, fun _ _ => List.nodup_nil, fun _ _ _ _ _ x hx =>
          absurd hx (List.not_mem_nil _), List.nodup_range' _ _, fun _ _ x hx =>
          absurd hx (List.not_mem_nil _), ?_, ?_, ?_, e_len ▸ hlen, ?_⟩
      · rw [(hslot b (by omega)).2]; rfl
      · have : m'.empty_slot = 0 := by rw [hm']; simp [a6, hm0, he]
        rw [this]; exact hfl
      · rw [used_buckets_eq (fun x hx => (hval x).2 (hslot x (by omega)).1)]
        rw [bsum_zero _ (fun x hx => by simp [(hslot x (by omega)).2])]
        rw [hm']; simp [a5, hm0, hu]
      · rw [@bsum_zero (fun b => ((fun _ => ([] : List Nat)) b).length) _ (fun x _ => rfl)]
        exact Nat.zero_le _
      · have : m'.count = 0 := by rw [hm']; simp [a4, hm0, hc]
        rw [this, List.length_range', e_len]
        unfold hvalid at hvn'
        omega
      · have : m'.count = 0 := by rw [hm']; simp [a4, hm0, hc]
        rw [this, List.length_range', e_sc]
        have hle := init_slots_loop_le _ _ _ _ hl
        rw [hm0] at hle
        simp only [hput] at hle
        omega

/-! ## Every reachable hash map satisfies the invariant -/

theorem heap_realloc_loop_lt : ∀ (fuel c needed c' : Nat),
    detail_sdhmap_heap_realloc_loop fuel c needed = some c' → c' = c ∨ c' < 4294967296
  | 0, _, _, _, h => by simp [detail_sdhmap_heap_realloc_loop] at h
  | fuel + 1, c, needed, c', h => by
    rw [detail_sdhmap_heap_realloc_loop] at h
    by_cases hc : c < needed
    · rw [if_pos hc] at h
      rcases heap_realloc_loop_lt fuel _ needed c' h with e | e
      · right; rw [e]; exact Nat.mod_lt _ (by decide)
      · exact Or.inr e
    · rw [if_neg hc] at h
      exact Or.inl (Option.some.inj h).symm

theorem heap_realloc_spec {fuel : Nat} {m m' : sdhmap_heap} {slot_size : Nat}
    (hlen : m.slots.length < 4294967296)
    (h : detail_sdhmap_heap_realloc fuel m slot_size = some m') :
    m'.slots.length < 4294967296 ∧ m'.count = m.count ∧ m'.slot_count = m.slot_count ∧
    m'.used_bucket_count = m.used_bucket_count ∧ m'.empty_slot = m.empty_slot := by
  unfold detail_sdhmap_heap_realloc at h
  cases hl : detail_sdhmap_heap_realloc_loop fuel m.capacity
      (sizeof_sdhmap_heap + slot_size * m.slot_count % 4294967296) with
  | none => rw [hl] at h; cases h
  | some c =>
    rw [hl] at h
    simp only at h
    by_cases hc : c > m.capacity
    · rw [if_pos hc] at h
      simp only [Option.some.injEq] at h
      subst h
      refine ⟨?_, rfl, rfl, rfl, rfl⟩
      show ((m.slots ++ List.replicate _ fresh_hslot).take ((c - sizeof_sdhmap_heap) / slot_size)).length
        < 4294967296
      have h1 : c < 4294967296 := by
        rcases heap_realloc_loop_lt _ _ _ _ hl with e | e
        · omega
        · exact e
      have h2 : (c - sizeof_sdhmap_heap) / slot_size ≤ c :=
        le_trans (Nat.div_le_self _ _) (Nat.sub_le _ _)
      rw [List.length_take]
      omega
    · rw [if_neg hc] at h
      simp only [Option.some.injEq] at h
      subst h
      exact ⟨hlen, rfl, rfl, rfl, rfl⟩

theorem heap_resize_loop_inv (fuel : Nat) (hash_func : Int → Nat) :
    ∀ (pairs : List (Int × Int)) (m m' : sdhmap_heap), HInv m →
    detail_sdhmap_heap_resize_loop fuel hash_func pairs m = some m' → HInv m'
  | [], m, m', hI, h => by
    simp only [detail_sdhmap_heap_resize_loop, Option.some.injEq] at h
    exact h ▸ hI
  | p :: pairs, m, m', hI, h => by
    rw [detail_sdhmap_heap_resize_loop] at h
    cases hs : detail_sdhmap_set_common fuel hash_func m p.1 with
    | none => rw [hs] at h; cases h
    | some r =>
      rw [hs] at h
      simp only at h
      cases hw : hstore r.1 r.2 (fun s => { s with value := p.2 }) with
      | none => rw [hw] at h; cases h
      | some m1 =>
        rw [hw] at h
        exact heap_resize_loop_inv fuel hash_func pairs m1 m'
          (write_value_inv (set_common_inv hI hs) hw) h

theorem HInv_length {m : sdhmap_heap} (h : HInv m) : m.slots.length < 4294967296 := by
  obtain ⟨ch, fl, hW⟩ := h
  exact hW.2.2.2.2.2.2.2.2.2.1

theorem heap_resize_inv {fuel : Nat} {hash_func : Int → Nat} {m m' : sdhmap_heap}
    {slot_size target : Nat} {garbage : List (Int × Int)} (hI : HInv m)
    (h : detail_sdhmap_heap_resize fuel hash_func m slot_size target garbage = some m') :
    HInv m' := by
  unfold detail_sdhmap_heap_resize at h
  by_cases ht : m.slot_count = target
  · rw [if_pos ht] at h
    exact (Option.some.inj h) ▸ hI
  · rw [if_neg ht] at h
    simp only [Option.bind_eq_bind] at h
    obtain ⟨pairs, -, h⟩ := Option.bind_eq_some.1 h
    obtain ⟨m2, h2, h⟩ := Option.bind_eq_some.1 h
    obtain ⟨m3, h3, h⟩ := Option.bind_eq_some.1 h
    have hl0 : m.slots.length < 4294967296 := HInv_length hI
    obtain ⟨l2, c2, -, u2, e2⟩ := heap_realloc_spec (by exact hl0) h2
    have hI3 : HInv m3 := init_slots_inv l2 c2 u2 e2 h3
    split_ifs at h
    exact heap_resize_loop_inv fuel hash_func _ _ _ hI3 h

theorem set_heap_impl_inv {fuel : Nat} {hash_func : Int → Nat} {m : sdhmap_heap}
    {slot_size : Nat} {key : Int} {garbage : List (Int × Int)} {r : sdhmap_heap × Nat}
    (hI : HInv m)
    (h : detail_sdhmap_set_heap_impl fuel hash_func m slot_size key garbage = some r) :
    HInv r.1 := by
  unfold detail_sdhmap_set_heap_impl at h
  simp only [Option.bind_eq_bind] at h
  obtain ⟨m1, h1, h⟩ := Option.bind_eq_some.1 h
  refine set_common_inv ?_ h
  by_cases hc : 3 * float_of_index m.slot_count < 4 * m.count ∨ m.slot_count = 0
  · rw [if_pos hc] at h1
    exact heap_resize_inv hI h1
  · rw [if_neg hc] at h1
    exact (Option.some.inj h1) ▸ hI

theorem sdhmap_set_inv {fuel : Nat} {hash_func : Int → Nat} {m m' : sdhmap_heap}
    {slot_size : Nat} {key value : Int} {garbage : List (Int × Int)} (hI : HInv m)
    (h : sdhmap_set fuel hash_func m slot_size key value garbage = some m') : HInv m' := by
  unfold sdhmap_set at h
  simp only [Option.bind_eq_bind] at h
  obtain ⟨r, h1, h⟩ := Option.bind_eq_some.1 h
  exact write_value_inv (set_heap_impl_inv hI h1) h

theorem new_heap_impl_inv {count slot_size : Nat} {garbage : List sdhmap_slot}
    {m : sdhmap_heap} (hlen : garbage.length = count) (hcount : count < 4294967296)
    (h : detail_sdhmap_new_heap_impl count slot_size garbage = some m) : HInv m := by
  unfold detail_sdhmap_new_heap_impl detail_sdhmap_new_stack_impl at h
  simp only at h
  by_cases hc : count > 0
  · rw [if_pos hc] at h
    exact init_slots_inv (by simpa [hlen] using hcount) rfl rfl rfl h
  · rw [if_neg hc] at h
    simp only [Option.some.injEq] at h
    subst h
    have h0 : count = 0 := by omega
    subst h0
    refine ⟨fun _ => [], [], fun b hb => absurd hb (Nat.not_lt_zero _), rfl,
      fun _ _ => List.nodup_nil, fun _ _ _ _ _ x hx => absurd hx (List.not_mem_nil _),
      List.nodup_nil, fun _ _ x hx => absurd hx (List.not_mem_nil _), rfl, Nat.le_refl _,
      Nat.zero_le _, by simp [hlen], by simp⟩

theorem HInv_of_reachable {hash_func : Int → Nat} {slot_size : Nat} {m : sdhmap_heap}
    (h : sdhmap_reachable hash_func slot_size m) : HInv m := by
  induction h with
  | new count garbage hlen hcount _ h => exact new_heap_impl_inv hlen hcount h
  | set fuel key value garbage _ _ h ih => exact sdhmap_set_inv ih h
  | erase fuel key _ h ih => exact hash_erase_impl_inv ih h
  | resize fuel target garbage _ _ h ih => exact heap_resize_inv ih h
  | reserve fuel target garbage _ _ h ih =>
    unfold detail_sdhmap_reserve_heap_impl at h
    split_ifs at h
    · exact heap_resize_inv ih h
    · exact (Option.some.inj h) ▸ ih

theorem used_le_count {m : sdhmap_heap} (hI : HInv m) :
    m.used_bucket_count = sdhmap_used_buckets m ∧ m.used_bucket_count ≤ m.count := by
  obtain ⟨ch, fl, h1, h2, h3, h4, h5, h6, h7, h8, h9, h10, h11⟩ := hI
  refine ⟨h7, ?_⟩
  rw [h7, used_buckets_eq (fun x hx => (h1 x hx).1)]
  refine le_trans (bsum_le _ (fun x hx => ?_)) h8
  split_ifs with e
  · have : ch x ≠ [] := fun e1 => e ((HList_nil_iff (h1 x hx).2).1 e1)
    exact List.length_pos.2 this
  · exact Nat.zero_le _

/-! ## The erase of the hash map and the header -/

theorem hstore_hdr {m m' : sdhmap_heap} {i : Nat} {f : sdhmap_slot → sdhmap_slot}
    (h : hstore m i f = some m') :
    m'.empty_slot = m.empty_slot ∧ m'.slot_count = m.slot_count ∧
    m'.slots.length = m.slots.length := by
  obtain ⟨-, rfl⟩ := hstore_some h
  exact ⟨rfl, rfl, by simp [hput]⟩

/-- What every path through `detail_sdhmap_erase_at` needs and keeps: the
slot `empty_slot` is written, and `slot_count` is not. -/
theorem erase_at_hdr {m m' : sdhmap_heap} {bucket hash : Nat}
    (h : detail_sdhmap_erase_at m bucket hash = some m') :
    hvalid m m.empty_slot ∧ m'.slot_count = m.slot_count := by
  unfold detail_sdhmap_erase_at at h
  simp only [Option.bind_eq_bind] at h
  obtain ⟨hs, -, h⟩ := Option.bind_eq_some.1 h
  obtain ⟨m5, h5, hfin⟩ := Option.bind_eq_some.1 h
  simp only [Option.some.injEq] at hfin
  have key : ∀ m1, m1.empty_slot = m.empty_slot ∧ m1.slot_count = m.slot_count ∧
      m1.slots.length = m.slots.length → detail_sdhmap_erase_at_release m1 hash = some m5 →
      hvalid m m.empty_slot ∧ m'.slot_count = m.slot_count := by
    intro m1 ⟨a1, a2, a3⟩ hrel
    obtain ⟨r1, -, -, -, r5, -⟩ := erase_at_release_spec hrel
    refine ⟨?_, ?_⟩
    · unfold hvalid at r1 ⊢
      rw [a1, a3] at r1
      exact r1
    · rw [← hfin]
      show m5.slot_count = _
      rw [r5, a2]
  by_cases hp : hs.prev = NONE
  · rw [if_pos hp] at h5
    obtain ⟨m1, hX, hrel⟩ := Option.bind_eq_some.1 h5
    refine key m1 ?_ hrel
    by_cases hn : hs.next = NONE
    · rw [if_pos hn] at hX
      obtain ⟨m0, hs0, e0⟩ := Option.bind_eq_some.1 hX
      simp only [Option.some.injEq] at e0
      obtain ⟨b1, b2, b3⟩ := hstore_hdr hs0
      rw [← e0]
      exact ⟨b1, b2, b3⟩
    · rw [if_neg hn] at hX
      obtain ⟨m0, hs0, e0⟩ := Option.bind_eq_some.1 hX
      obtain ⟨s2, -, e1⟩ := Option.bind_eq_some.1 e0
      obtain ⟨b1, b2, b3⟩ := hstore_hdr hs0
      obtain ⟨c1, c2, c3⟩ := hstore_hdr e1
      exact ⟨c1.trans b1, c2.trans b2, c3.trans b3⟩
  · rw [if_neg hp] at h5
    obtain ⟨m1, hX, hrel⟩ := Option.bind_eq_some.1 h5
    refine key m1 ?_ hrel
    by_cases hn : hs.next = NONE
    · rw [if_pos hn] at hX
      exact hstore_hdr hX
    · rw [if_neg hn] at hX
      obtain ⟨m0, hs0, e0⟩ := Option.bind_eq_some.1 hX
      obtain ⟨s2, -, e1⟩ := Option.bind_eq_some.1 e0
      obtain ⟨b1, b2, b3⟩ := hstore_hdr hs0
      obtain ⟨c1, c2, c3⟩ := hstore_hdr e1
      exact ⟨c1.trans b1, c2.trans b2, c3.trans b3⟩

theorem erase_loop_slot_count {m : sdhmap_heap} {bucket : Nat} {key : Int} :
    ∀ (fuel hash : Nat) (m' : sdhmap_heap),
    detail_sdhmap_erase_loop fuel m bucket hash key = some m' → m'.slot_count = m.slot_count
  | 0, _, _, h => by simp [detail_sdhmap_erase_loop] at h
  | fuel + 1, hash, m', h => by
    rw [detail_sdhmap_erase_loop] at h
    cases hs : detail_sdhmap_slot m hash with
    | none => rw [hs] at h; cases h
    | some s =>
      rw [hs] at h
      simp only at h
      split_ifs at h with h1 h2
      · exact (erase_at_hdr h).2
      · exact erase_loop_slot_count fuel _ m' h
      · simp only [Option.some.injEq] at h
        rw [← h]

/-- With no empty slot `detail_sdhmap_erase_at` has no result. -/
theorem erase_at_none {m : sdhmap_heap} (he : m.empty_slot = NONE) (hv : ¬ hvalid m NONE)
    (bucket hash : Nat) : detail_sdhmap_erase_at m bucket hash = none := by
  cases h : detail_sdhmap_erase_at m bucket hash with
  | none => rfl
  | some m' => exact absurd (he ▸ (erase_at_hdr h).1) hv

theorem erase_loop_found_none {m : sdhmap_heap} (he : m.empty_slot = NONE)
    (hv : ¬ hvalid m NONE) (bucket : Nat) (key : Int) :
    ∀ (f0 hash i : Nat), detail_sdhmap_find_loop f0 m hash key = some (some i) →
    ∀ fuel, detail_sdhmap_erase_loop fuel m bucket hash key = none
  | 0, _, _, h, _ => by simp [detail_sdhmap_find_loop] at h
  | f0 + 1, hash, i, h, fuel => by
    cases fuel with
    | zero => rfl
    | succ n =>
      rw [detail_sdhmap_find_loop] at h
      rw [detail_sdhmap_erase_loop]
      cases hs : detail_sdhmap_slot m hash with
      | none => rfl
      | some s =>
        rw [hs] at h
        simp only at h ⊢
        split_ifs at h ⊢ with h1 h2
        · exact erase_at_none he hv bucket hash
        · exact erase_loop_found_none he hv bucket key f0 _ i h n
        · cases h

/-! ## The value of a key in the pairs -/

theorem pairs_value_append (A B : List (Int × Int)) (key : Int) :
    pairs_value (A ++ B) key = (pairs_value A key).or (pairs_value B key) := by
  unfold pairs_value
  rw [List.find?_append]
  cases List.find? (fun p => p.1 == key) A <;> simp

theorem pairs_value_cons_ne {k key : Int} (v : Int) (B : List (Int × Int)) (h : key ≠ k) :
    pairs_value ((k, v) :: B) key = pairs_value B key := by
  unfold pairs_value
  rw [List.find?_cons_of_neg]
  simp only [beq_iff_eq]
  exact fun e => h e.symm

theorem pairs_value_cons_eq (k v : Int) (B : List (Int × Int)) :
    pairs_value ((k, v) :: B) k = some v := by
  simp [pairs_value]

theorem pairs_value_none {ps : List (Int × Int)} {key : Int} (h : key ∉ ps.map (·.1)) :
    pairs_value ps key = none := by
  unfold pairs_value
  rw [Option.map_eq_none', List.find?_eq_none]
  intro p hp
  simp only [beq_iff_eq]
  exact fun e => h (List.mem_map.2 ⟨p, hp, e⟩)

theorem pairs_value_some {ps : List (Int × Int)} {key v : Int}
    (h : pairs_value ps key = some v) : (key, v) ∈ ps := by
  unfold pairs_value at h
  obtain ⟨p, hp, rfl⟩ := Option.map_eq_some'.1 h
  have h1 := List.find?_some hp
  have h2 := List.mem_of_find?_eq_some hp
  simp only [beq_iff_eq] at h1
  rw [← h1]
  exact h2

/-- With keys in strictly increasing order a pair of the list gives the value
of its key. -/
theorem pairs_value_mem {ps : List (Int × Int)} {key v : Int}
    (hs : (ps.map (·.1)).Pairwise (· < ·)) (h : (key, v) ∈ ps) :
    pairs_value ps key = some v := by
  induction ps with
  | nil => simp at h
  | cons p ps ih =>
    simp only [List.map_cons, List.pairwise_cons] at hs
    rcases List.mem_cons.1 h with e | hm
    · subst e; exact pairs_value_cons_eq _ _ _
    · have hlt := hs.1 key (List.mem_map.2 ⟨_, hm, rfl⟩)
      have : pairs_value (p :: ps) key = pairs_value ps key := by
        obtain ⟨pk, pv⟩ := p
        exact pairs_value_cons_ne pv ps (by simp only at hlt; omega)
      rw [this]
      exact ih hs.2 hm

theorem pairs_value_insert {A B : List (Int × Int)} {k key : Int} (v : Int) (h : key ≠ k) :
    pairs_value (A ++ (k, v) :: B) key = pairs_value (A ++ B) key := by
  rw [pairs_value_append, pairs_value_append, pairs_value_cons_ne v B h]

theorem pairs_value_insert_eq {A B : List (Int × Int)} {k : Int} (v : Int)
    (h : k ∉ (A ++ B).map (·.1)) :
    pairs_value (A ++ (k, v) :: B) k = some v := by
  have hA : pairs_value A k = none :=
    pairs_value_none (fun hx => h (by
      simp only [List.map_append, List.mem_append]; exact Or.inl hx))
  rw [pairs_value_append, hA, pairs_value_cons_eq]
  rfl

theorem pairs_value_erase_eq {A B : List (Int × Int)} {k : Int} (v : Int)
    (hs : ((A ++ (k, v) :: B).map (·.1)).Pairwise (· < ·)) :
    pairs_value (A ++ B) k = none := by
  apply pairs_value_none
  simp only [List.map_append, List.map_cons, List.mem_append] at hs ⊢
  obtain ⟨h1, h2, h3⟩ := List.pairwise_append.1 hs
  rintro (hx | hx)
  · have := h3 k hx k (List.mem_cons_self _ _)
    omega
  · have := (List.pairwise_cons.1 h2).1 k hx
    omega

/-- The pairs of the tree after the write of a value into the slot of a key. -/
theorem setv_pairs_value {T : Tree} {i : Nat} {key v0 : Int} (value : Int)
    (hnd : T.idx.Nodup) (hB : BST T) (hm : (i, key, v0) ∈ T.nodes) (k2 : Int) :
    pairs_value (T.setv i value).pairs k2 =
      if k2 = key then some value else pairs_value T.pairs k2 := by
  have hkey : ∀ n ∈ T.nodes, n.1 = i → n.2.1 = key := by
    intro n hn e
    rw [idx_eq_map] at hnd
    have := List.inj_on_of_nodup_map hnd hn hm e
    rw [this]
  have hB2 : ((T.setv i value).pairs.map (·.1)).Pairwise (· < ·) := by
    rw [← keys_eq_pairs, setv_keys]; exact hB
  by_cases hk : k2 = key
  · rw [if_pos hk, hk]
    apply pairs_value_mem hB2
    rw [pairs_eq_map, setv_nodes]
    exact List.mem_map.2 ⟨_, List.mem_map.2 ⟨_, hm, rfl⟩, by simp⟩
  · rw [if_neg hk]
    have hB1 : (T.pairs.map (·.1)).Pairwise (· < ·) := by rw [← keys_eq_pairs]; exact hB
    cases hv : pairs_value T.pairs k2 with
    | none =>
      apply pairs_value_none
      rw [← keys_eq_pairs, setv_keys, keys_eq_pairs]
      intro hx
      obtain ⟨p, hp, e⟩ := List.mem_map.1 hx
      have := pairs_value_mem hB1 (show (k2, p.2) ∈ T.pairs by rw [← e]; exact hp)
      rw [hv] at this
      cases this
    | some w =>
      apply pairs_value_mem hB2
      have hmem := pairs_value_some hv
      rw [pairs_eq_map] at hmem ⊢
      obtain ⟨n, hn, e⟩ := List.mem_map.1 hmem
      rw [setv_nodes]
      refine List.mem_map.2 ⟨_, List.mem_map.2 ⟨n, hn, rfl⟩, ?_⟩
      have hni : n.1 ≠ i := by
        intro e2
        have := hkey n hn e2
        rw [e] at this
        exact hk this
      rw [if_neg hni]
      exact e

/-! ## The erase with the pairs that it leaves -/

/-- The erase on a map that holds the tree `T`, with the pairs of the tree
that it leaves. -/
theorem erase_impl_specT {ks vs : Nat} {m : sdmap_heap} {T : Tree} (key : Int)
    (hI : InvT ks vs m T) :
    (key ∉ T.keys ∧
      ∀ fuel, 2 * T.depth + 2 ≤ fuel → detail_sdmap_erase_impl fuel (some m) key = some (some m)) ∨
    (key ∈ T.keys ∧ ∃ m' T', (∀ fuel, 2 * T.depth + 2 ≤ fuel →
        detail_sdmap_erase_impl fuel (some m) key = some (some m')) ∧
      InvT ks vs m' T' ∧ m'.count + 1 = m.count ∧
      ∃ P Q v, T.pairs = P ++ (key, v) :: Q ∧ T'.pairs = P ++ Q) := by
  obtain ⟨fl, hz, hG, hB, hF, hnd, hlt, hcnt, hsc, hcap⟩ := hI
  by_cases h0 : m.count = 0
  · left
    have hT : T = .nil := by
      cases T with
      | nil => rfl
      | node l i k v h r => rw [h0] at hcnt; simp [Tree.idx] at hcnt; omega
    subst hT
    exact ⟨by simp [Tree.keys], fun fuel _ => by simp [detail_sdmap_erase_impl, h0]⟩
  · have hT := T_ne_nil hcnt h0
    have hroot := root_lnk hz hT
    have hrun : ∀ fuel, T.depth ≤ fuel → detail_sdmap_erase_impl fuel (some m) key =
        (match descend key [] T with
          | (_, .node _ i _ _ _ _) => detail_sdmap_erase_found fuel m i
          | (_, .nil) => some m).map some := by
      intro fuel hf
      simp only [detail_sdmap_erase_impl, h0, if_false]
      rw [hroot, erase_loop_zip fuel key T [] m hz hT fuel hf]
      all_goals (rcases descend key [] T with ⟨a, b⟩; cases b <;> rfl)
    rcases hd : descend key [] T with ⟨c, t⟩
    obtain ⟨hp, hside, hcase, -⟩ := descend_spec key T [] c t (by simp) hd
    simp only [plug] at hp
    rw [hd] at hrun
    have hkeys : T.keys = lkeys c ++ t.keys ++ rkeys c := by rw [← hp, plug_keys]
    rcases hcase with rfl | ⟨l, i, v, h, r, rfl⟩
    · left
      exact ⟨not_mem_keys_of_descend hB hp hside,
        fun fuel hf => by rw [hrun fuel (by omega)]; rfl⟩
    · right
      refine ⟨by rw [hkeys]; simp [Tree.keys], ?_⟩
      obtain ⟨m', T', e, hI, hc, -, P, Q, q1, q2⟩ :=
        erase_found_specT hz hG hB hF hnd hlt hcnt hsc hcap hp
      refine ⟨m', T', fun fuel hf => ?_, hI, hc, P, Q, v, q1, q2⟩
      rw [hrun fuel (by omega)]
      simp only [Option.map_eq_some']
      refine ⟨m', ?_, rfl⟩
      exact mono_of_succ (fun n (x : sdmap_heap × Nat) => detail_sdmap_erase_found n x.1 x.2)
        (fun n a r h => erase_found_mono n a.1 a.2 r h) _ fuel (m, i) m' hf e

/-! ## The shrink after an erase -/

theorem Rep_congr_idx {m m' : sdmap_heap} :
    ∀ (t : Tree) (o : Nat), (∀ j ∈ t.idx, valid m' j ∧ get m' j = get m j) →
    Rep m t o → Rep m' t o
  | .nil, _, _, _ => trivial
  | .node l i k v h r, o, hg, ⟨_, h2, h3, h4⟩ => by
    refine ⟨(hg i (by simp [Tree.idx])).1, ?_,
      Rep_congr_idx l i (fun j hj => hg j (by simp [Tree.idx, hj])) h3,
      Rep_congr_idx r i (fun j hj => hg j (by simp [Tree.idx, hj])) h4⟩
    rw [(hg i (by simp [Tree.idx])).2]; exact h2

theorem InvT_optimize {ks vs : Nat} {m : sdmap_heap} {T : Tree} (hI : InvT ks vs m T) :
    ∃ m' T', detail_sdmap_optimize_impl m = some m' ∧ InvT ks vs m' T' ∧
      T'.pairs = T.pairs ∧ m'.count = m.count ∧ m'.slot_count = m.count ∧
      m'.empty_slot = NONE ∧ (∀ j ∈ T'.idx, j < m.count) := by
  obtain ⟨fl, hz, hG, hB, hF, hnd, hlt, hcnt, hsum, hcap⟩ := hI
  obtain ⟨m2, T2, e, hz2, hsh, hb, hlen, c1, c2, c3, -, c5, c6⟩ :=
    optimize_impl_spec hz hG hF hnd hlt hcnt hsum hcap.2.1 (not_valid_NONE hcap)
  refine ⟨m2, T2, e, ⟨[], hz2, Good_of_shape hsh hG, BST_of_shape hsh hB, c3, ?_, ?_, ?_, ?_, ?_⟩,
    ?_, c1, c2, c3, hb⟩
  · simpa using ZOK_nodup hz2
  · intro j hj
    rw [c2]
    exact hb j (by simpa using hj)
  · rw [c1, hlen]
  · rw [c1, c2]; rfl
  · obtain ⟨h1, h2, h3⟩ := hcap
    exact ⟨by rw [c6, c5]; exact h1, by rw [c2, c6]; omega, by rw [c5]; exact h3⟩
  · rw [← shape_pairs, hsh, shape_pairs]

/-- The shrink of a map that holds the tree `T` returns a map with the same
pairs and with as many slots as elements. -/
theorem shrink_impl_spec {ks vs : Nat} {m : sdmap_heap} {T : Tree} (hI : InvT ks vs m T) :
    ∃ m' T', detail_sdmap_shrink_impl m (slot_size ks vs) = some m' ∧ InvT ks vs m' T' ∧
      T'.pairs = T.pairs ∧ m'.count = m.count ∧ m'.slot_count = m.count := by
  obtain ⟨m2, T2, e, hI2, hp, c1, c2, c3, hb⟩ := InvT_optimize hI
  unfold detail_sdmap_shrink_impl
  rw [e]
  simp only [Option.some_bind, Option.bind_eq_bind]
  obtain ⟨fl, hz, hG, hB, hF, hnd, hlt, hcnt, hsum, hcap⟩ := hI2
  have hpos := slot_size_pos ks vs
  have hle : slot_size ks vs * m2.slot_count ≤ m2.capacity := by
    obtain ⟨h1, h2, h3⟩ := hcap
    rw [h1] at h2
    calc slot_size ks vs * m2.slot_count ≤ slot_size ks vs * (m2.capacity / slot_size ks vs) :=
          Nat.mul_le_mul_left _ h2
      _ ≤ m2.capacity := Nat.mul_div_le _ _
  have hmod : slot_size ks vs * m2.slot_count % 4294967296 = slot_size ks vs * m2.slot_count :=
    Nat.mod_eq_of_lt (lt_of_le_of_lt hle hcap.2.2)
  rw [hmod]
  split_ifs with hc
  · have hdiv : slot_size ks vs * m2.slot_count / slot_size ks vs = m2.slot_count :=
      Nat.mul_div_cancel_left _ hpos
    rw [hdiv]
    refine ⟨_, T2, rfl, ⟨[], ⟨⟨hz.1.1, ?_⟩, hz.2⟩, hG, hB, ?_, by simpa using ZOK_nodup hz, ?_,
      hcnt, ?_, ?_⟩, hp, c1, c2⟩
    · refine Rep_congr_idx T2 _ (fun j hj => ?_) hz.1.2
      have hj2 : j < m2.slot_count := by rw [c2]; exact hb j hj
      constructor
      · show j < (m2.slots.take m2.slot_count).length
        rw [List.length_take]
        exact lt_min hj2 (lt_of_lt_of_le hj2 hcap.2.1)
      · show (m2.slots.take m2.slot_count).getD j fresh_slot = m2.slots.getD j fresh_slot
        simp only [List.getD_eq_getElem?_getD]
        rw [List.getElem?_take_of_lt hj2]
    · show m2.empty_slot = NONE
      exact c3
    · intro j hj
      show j < m2.slot_count
      rw [c2]
      exact hb j (by simpa using hj)
    · show m2.count + 0 = m2.slot_count
      rw [c1, c2]; rfl
    · refine ⟨?_, ?_, ?_⟩
      · show (m2.slots.take m2.slot_count).length = _ / _
        rw [List.length_take, hdiv]
        exact min_eq_left hcap.2.1
      · show m2.slot_count ≤ (m2.slots.take m2.slot_count).length
        rw [List.length_take]
        exact le_min (le_refl _) hcap.2.1
      · show slot_size ks vs * m2.slot_count < _
        exact lt_of_le_of_lt hle hcap.2.2
  · exact ⟨m2, T2, rfl, ⟨fl, hz, hG, hB, hF, hnd, hlt, hcnt, hsum, hcap⟩, hp, c1, c2⟩

theorem BST_pairs {T : Tree} (hB : BST T) : (T.pairs.map (·.1)).Pairwise (· < ·) := by
  rw [← keys_eq_pairs]; exact hB

/-- The macro `sdmap_erase` on a map that holds the tree `T` returns with
enough fuel: the key has no value afterwards, every other key has the value
that it had, and a map without elements has no slots. -/
theorem sdmap_erase_spec {ks vs : Nat} {m : sdmap_heap} {T : Tree} (key : Int)
    (hI : InvT ks vs m T) :
    ∃ m' T', (∀ fuel, 2 * T.depth + 2 ≤ fuel → sdmap_erase fuel m ks vs key = some m') ∧
      (∀ fuel r, sdmap_erase fuel m ks vs key = some r → r = m') ∧
      InvT ks vs m' T' ∧
      (∀ k2, pairs_value T'.pairs k2 = if k2 = key then none else pairs_value T.pairs k2) ∧
      m'.count + (if key ∈ T.keys then 1 else 0) = m.count ∧
      (m'.count = 0 → m'.slot_count = 0) := by
  -- the state after `detail_sdmap_erase_impl`
  have step1 : ∃ m1 T1, (∀ fuel, 2 * T.depth + 2 ≤ fuel →
        detail_sdmap_erase_impl fuel (some m) key = some (some m1)) ∧
      InvT ks vs m1 T1 ∧
      (∀ k2, pairs_value T1.pairs k2 = if k2 = key then none else pairs_value T.pairs k2) ∧
      m1.count + (if key ∈ T.keys then 1 else 0) = m.count := by
    have hB : BST T := hI.choose_spec.2.2.1
    rcases erase_impl_specT key hI with ⟨hn, e⟩ | ⟨hk, m1, T1, e, hI1, hc, P, Q, v, q1, q2⟩
    · refine ⟨m, T, e, hI, fun k2 => ?_, by rw [if_neg hn]; rfl⟩
      split_ifs with h2
      · subst h2
        exact pairs_value_none (by rw [← keys_eq_pairs]; exact hn)
      · rfl
    · refine ⟨m1, T1, e, hI1, fun k2 => ?_, by rw [if_pos hk]; exact hc⟩
      rw [q1, q2]
      split_ifs with h2
      · subst h2
        exact pairs_value_erase_eq v (by rw [← q1]; exact BST_pairs hB)
      · exact (pairs_value_insert v h2).symm
  obtain ⟨m1, T1, e1, hI1, hv1, hc1⟩ := step1
  have hdet : ∀ fuel r, detail_sdmap_erase_impl fuel (some m) key = some r → r = some m1 := by
    intro fuel r h
    have h2 := erase_impl_mono m key _ (le_max_left fuel (2 * T.depth + 2)) h
    rw [e1 _ (le_max_right _ _)] at h2
    exact (Option.some.inj h2).symm
  by_cases hc : detail_sdmap_capacity_impl (some m1) (slot_size ks vs) ≥
      detail_sdmap_count_impl (some m1) * 4
  · obtain ⟨m2, T2, e2, hI2, hp2, c1, c2⟩ := shrink_impl_spec hI1
    refine ⟨m2, T2, fun fuel hf => ?_, fun fuel r h => ?_, hI2, fun k2 => by rw [hp2]; exact hv1 k2,
      by rw [c1]; exact hc1, fun h0 => by rw [c2, ← c1]; exact h0⟩
    · unfold sdmap_erase
      rw [e1 fuel hf]
      simp only
      rw [if_pos hc, e2]
    · unfold sdmap_erase at h
      cases he : detail_sdmap_erase_impl fuel (some m) key with
      | none => rw [he] at h; cases h
      | some o =>
        have := hdet fuel o he
        subst this
        rw [he] at h
        simp only at h
        rw [if_pos hc, e2] at h
        exact (Option.some.inj h).symm
  · refine ⟨m1, T1, fun fuel hf => ?_, fun fuel r h => ?_, hI1, hv1, hc1, fun h0 => ?_⟩
    · unfold sdmap_erase
      rw [e1 fuel hf]
      simp only
      rw [if_neg hc]
    · unfold sdmap_erase at h
      cases he : detail_sdmap_erase_impl fuel (some m) key with
      | none => rw [he] at h; cases h
      | some o =>
        have := hdet fuel o he
        subst this
        rw [he] at h
        simp only at h
        rw [if_neg hc] at h
        exact (Option.some.inj h).symm
    · exfalso
      apply hc
      simp only [detail_sdmap_count_impl, h0]
      omega

/-! ## The lookups read the pairs of the tree -/

theorem Rep_node_get {m : sdmap_heap} {i : Nat} {k v : Int} :
    ∀ (t : Tree) (o : Nat), Rep m t o → (i, k, v) ∈ t.nodes →
    valid m i ∧ (get m i).key = k ∧ (get m i).value = v
  | .nil, _, _, h => by simp [Tree.nodes] at h
  | .node l j k1 v1 h1 r, o, ⟨a1, a2, a3, a4⟩, h => by
    simp only [Tree.nodes, List.mem_append, List.mem_cons, Prod.mk.injEq] at h
    rcases h with h | ⟨rfl, rfl, rfl⟩ | h
    · exact Rep_node_get l j a3 h
    · exact ⟨a1, by rw [a2], by rw [a2]⟩
    · exact Rep_node_get r j a4 h

theorem nodes_unique {T : Tree} (hB : BST T) {i j : Nat} {k v w : Int}
    (h1 : (i, k, v) ∈ T.nodes) (h2 : (j, k, w) ∈ T.nodes) : i = j ∧ v = w := by
  have hnd : (T.nodes.map (·.2.1)).Nodup := by
    rw [← keys_eq_map]
    exact hB.imp (fun h => ne_of_lt h)
  have := List.inj_on_of_nodup_map hnd h1 h2 rfl
  simp only [Prod.mk.injEq] at this
  exact ⟨this.1, this.2.2⟩

theorem mem_nodes_of_pairs {T : Tree} {k v : Int} (h : (k, v) ∈ T.pairs) :
    ∃ i, (i, k, v) ∈ T.nodes := by
  rw [pairs_eq_map] at h
  obtain ⟨n, hn, e⟩ := List.mem_map.1 h
  exact ⟨n.1, by rw [← e]; exact hn⟩

theorem pairs_of_mem_nodes {T : Tree} {i : Nat} {k v : Int} (h : (i, k, v) ∈ T.nodes) :
    (k, v) ∈ T.pairs := by
  rw [pairs_eq_map]
  exact List.mem_map.2 ⟨_, h, rfl⟩

/-- The insert-or-get of a key of the tree returns the slot of the key and
leaves the map as it is. -/
theorem set_heap_impl_present {ks vs : Nat} {m : sdmap_heap} {T : Tree} {i : Nat} {key v : Int}
    (hI : InvT ks vs m T) (hm : (i, key, v) ∈ T.nodes) :
    (∀ fuel, T.depth ≤ fuel → detail_sdmap_set_heap_impl fuel m ks vs key = some (m, i)) ∧
    (detail_sdmap_slot m i).map (fun s => (s.key, s.value)) = some (key, v) := by
  obtain ⟨fl, hz, hG, hB, hF, hnd, hlt, hcnt, hsc, hcap⟩ := hI
  have hT : T ≠ .nil := by
    intro e; subst e; simp [Tree.nodes] at hm
  obtain ⟨g1, g2, g3⟩ := Rep_node_get T _ hz.1.2 hm
  refine ⟨fun fuel hf => ?_, by rw [slot_eq_some g1]; simp [g2, g3]⟩
  have h0 : ¬ (m.count = 0 ∧ m.slot_count = 0) := by
    rintro ⟨hc0, -⟩
    rw [hc0] at hcnt
    cases T with
    | nil => exact hT rfl
    | node l1 i1 k1 v1 hh1 r1 => simp [Tree.idx] at hcnt; omega
  unfold detail_sdmap_set_heap_impl
  rw [if_neg h0, root_lnk hz hT, set_heap_loop_zip fuel ks vs key T [] m hz hT fuel hf]
  rcases hd : descend key [] T with ⟨c0, t0⟩
  obtain ⟨hp, hside, hcase, hne⟩ := descend_spec key _ [] c0 t0 (by simp) hd
  simp only [plug] at hp
  have hk : key ∈ T.keys := by
    rw [keys_eq_map]; exact List.mem_map.2 ⟨_, hm, rfl⟩
  rcases hcase with rfl | ⟨l0, i0, v0, h0, r0, rfl⟩
  · exact absurd hk (not_mem_keys_of_descend hB hp hside)
  · obtain ⟨L, R, hLR⟩ := plug_nodes_split c0
    have hmem : (i0, key, v0) ∈ T.nodes := by
      rw [← hp, hLR]; simp [Tree.nodes]
    obtain ⟨e, -⟩ := nodes_unique hB hmem hm
    subst e
    simp only

/-- The value found for a key in a map that holds the tree `T` is the value
that the pairs of `T` give. -/
theorem value_of_spec {ks vs : Nat} {m : sdmap_heap} {T : Tree} (key : Int)
    (hI : InvT ks vs m T) :
    ∀ fuel, T.depth ≤ fuel →
      sdmap_value_of fuel m ks vs key = some (pairs_value T.pairs key) := by
  intro fuel hf
  have hI0 := hI
  obtain ⟨fl, hz, hG, hB, hF, hnd, hlt, hcnt, hsc, hcap⟩ := hI
  unfold sdmap_value_of
  rw [contains_impl_spec key hz hB hcnt fuel hf]
  by_cases hk : key ∈ T.keys
  · rw [decide_eq_true hk]
    simp only
    rw [keys_eq_pairs] at hk
    obtain ⟨p, hp, e⟩ := List.mem_map.1 hk
    have hp2 : (key, p.2) ∈ T.pairs := by rw [← e]; exact hp
    obtain ⟨i, hi⟩ := mem_nodes_of_pairs hp2
    obtain ⟨a, b⟩ := set_heap_impl_present hI0 hi
    rw [a fuel hf]
    simp only
    rw [pairs_value_mem (BST_pairs hB) hp2]
    cases hs : detail_sdmap_slot m i with
    | none => rw [hs] at b; cases b
    | some s =>
      rw [hs] at b
      simp only [Option.map_some', Option.some.injEq, Prod.mk.injEq] at b
      simp [b.2]
  · rw [decide_eq_false hk]
    simp only
    rw [pairs_value_none (by rw [← keys_eq_pairs]; exact hk)]

/-- The macro `sdmap_set` on a map that holds the tree `T`: afterwards the key
has the value, every other key has the value that it had, and `count` has
grown by 1 exactly when the key was not in the tree. -/
theorem sdmap_set_spec {ks vs : Nat} {m m' : sdmap_heap} {T : Tree} {fuel : Nat}
    {key value : Int} (hI : InvT ks vs m T)
    (h : sdmap_set fuel m ks vs key value = some m') :
    ∃ T', InvT ks vs m' T' ∧
      (∀ k2, pairs_value T'.pairs k2 = if k2 = key then some value else pairs_value T.pairs k2) ∧
      m'.count = m.count + (if key ∈ T.keys then 0 else 1) := by
  unfold sdmap_set at h
  simp only [Option.bind_eq_bind, Option.bind_eq_some] at h
  obtain ⟨r, hr, hw⟩ := h
  have hB : BST T := hI.choose_spec.2.2.1
  have hndT : T.idx.Nodup := ZOK_nodup hI.choose_spec.1
  rcases set_heap_impl_spec hI hr with ⟨hk, e, v, hv⟩ | ⟨hk, T1, v0, A, B, hI1, hA, hB1, hn, hc⟩
  · rw [e] at hw
    have hi : r.2 ∈ T.idx := by rw [idx_eq_map]; exact List.mem_map.2 ⟨_, hv, rfl⟩
    obtain ⟨hI2, hc2⟩ := InvT_write hI hi hw
    exact ⟨_, hI2, fun k2 => setv_pairs_value value hndT hB hv k2, by rw [hc2, if_pos hk]; rfl⟩
  · have hm1 : (r.2, key, v0) ∈ T1.nodes := by rw [hB1]; simp
    have hi : r.2 ∈ T1.idx := by rw [idx_eq_map]; exact List.mem_map.2 ⟨_, hm1, rfl⟩
    obtain ⟨hI2, hc2⟩ := InvT_write hI1 hi hw
    have hB1' : BST T1 := hI1.choose_spec.2.2.1
    have hnd1 : T1.idx.Nodup := ZOK_nodup hI1.choose_spec.1
    refine ⟨_, hI2, fun k2 => ?_, by rw [hc2, hc, if_neg hk]⟩
    rw [setv_pairs_value value hnd1 hB1' hm1 k2]
    split_ifs with h2
    · rfl
    · rw [pairs_eq_map, pairs_eq_map, hA, hB1]
      simp only [List.map_append, List.map_cons]
      exact pairs_value_insert v0 h2

/-! ## The insert-or-get returns when the block can grow -/

theorem grow_capacity_returns (needed : Nat) : ∀ (fuel start : Nat), 0 < start →
    needed < start + fuel →
    ∃ c, grow_capacity (fuel + 1) start needed = some c ∧ (c = start ∨ c < 2 * needed)
  | 0, start, _, h => ⟨start, by
      rw [grow_capacity, if_neg (by omega)], Or.inl rfl⟩
  | fuel + 1, start, hpos, h => by
    rw [grow_capacity]
    by_cases hlt : start < needed
    · rw [if_pos hlt]
      obtain ⟨c, e, hc⟩ := grow_capacity_returns needed fuel (start * 2) (by omega) (by omega)
      exact ⟨c, e, Or.inr (by omega)⟩
    · rw [if_neg hlt]
      exact ⟨start, rfl, Or.inl rfl⟩

theorem realloc_grown {ks vs : Nat} {m : sdmap_heap} {needed : Nat}
    (hcap : m.capacity < 4294967296) (hn : 2 * needed ≤ 4294967296)
    (hd : slot_size ks vs * SDMAP_DEFAULT_CAPACITY < 4294967296) :
    ∃ c m2, grow_capacity (needed + 1)
        (if m.capacity > 0 then m.capacity else slot_size ks vs * SDMAP_DEFAULT_CAPACITY) needed
          = some c ∧
      realloc_heap m (slot_size ks vs) c = some m2 := by
  have hpos := slot_size_pos ks vs
  have hs0 : 0 < (if m.capacity > 0 then m.capacity else slot_size ks vs * SDMAP_DEFAULT_CAPACITY) := by
    split_ifs with h
    · exact h
    · exact Nat.mul_pos hpos (by decide)
  obtain ⟨c, e, hc⟩ := grow_capacity_returns needed needed _ hs0 (by omega)
  refine ⟨c, ?_⟩
  have hc32 : c > m.capacity → c < 4294967296 := by
    intro hgt
    rcases hc with hc | hc
    · rw [hc]; split_ifs with h
      · exact hcap
      · exact hd
    · omega
  unfold realloc_heap
  by_cases hgt : c > m.capacity
  · rw [if_pos hgt, if_pos (hc32 hgt)]
    exact ⟨_, e, rfl⟩
  · rw [if_neg hgt]
    exact ⟨_, e, rfl⟩

theorem insert_heap_impl_returns {ks vs : Nat} {m : sdmap_heap} {fl : List Nat} (key : Int)
    (hcap : CapOK ks vs m) (hfree : FreeL m m.empty_slot fl)
    (hfull : fl = [] → m.count = m.slot_count)
    (hroom : slot_size ks vs * (2 * m.slot_count + 16) < 4294967296) :
    ∃ r, detail_sdmap_insert_heap_impl m ks vs key = some r := by
  obtain ⟨hc1, hc2, hc3⟩ := hcap
  have hpos := slot_size_pos ks vs
  unfold detail_sdmap_insert_heap_impl
  cases fl with
  | nil =>
    have he : m.empty_slot = NONE := hfree
    rw [if_neg (by simp [he])]
    simp only
    obtain ⟨c, m2, e1, e2⟩ := @realloc_grown ks vs { m with slot_count := m.slot_count + 1 }
      (slot_size ks vs * (m.slot_count + 1)) hc3
      (by
        have : 2 * (slot_size ks vs * (m.slot_count + 1)) ≤
            slot_size ks vs * (2 * m.slot_count + 16) := by
          rw [← Nat.mul_assoc, Nat.mul_comm 2, Nat.mul_assoc]
          exact Nat.mul_le_mul_left _ (by omega)
        omega)
      (by
        have : slot_size ks vs * SDMAP_DEFAULT_CAPACITY ≤
            slot_size ks vs * (2 * m.slot_count + 16) :=
          Nat.mul_le_mul_left _ (by unfold SDMAP_DEFAULT_CAPACITY; omega)
        omega)
    simp only at e1
    rw [e1]
    simp only
    rw [e2]
    simp only
    obtain ⟨g1, g2⟩ := grow_capacity_ge _ _ _ _ e1
    obtain ⟨r1, r2, r3, r4, r5, r6, r7, r8, r9⟩ :=
      realloc_heap_spec (m := { m with slot_count := m.slot_count + 1 }) hc1 hc3 e2
    simp only at r6 r7
    have hlen : m.slot_count + 1 ≤ m2.slots.length := by
      rw [r1]
      refine (Nat.le_div_iff_mul_le hpos).2 ?_
      rw [Nat.mul_comm]
      exact le_trans g1 r3
    have hv2 : valid m2 m2.count := by
      unfold valid; rw [r6, hfull rfl]; omega
    rw [store_eq_some _ hv2]
    exact ⟨_, rfl⟩
  | cons i fl' =>
    obtain ⟨f1, f2, f3, f4, f5⟩ := hfree
    rw [if_pos (by rw [f1]; exact f2)]
    simp only [f1, slot_eq_some f3]
    have hv' : valid { m with empty_slot := (get m i).right } i := f3
    rw [store_eq_some _ hv']
    exact ⟨_, rfl⟩

theorem set_heap_empty_returns {ks vs : Nat} {m : sdmap_heap} (key : Int)
    (hcap : CapOK ks vs m) (hs : m.slot_count = 0)
    (hroom : slot_size ks vs * (2 * m.slot_count + 16) < 4294967296) :
    ∃ r, detail_sdmap_set_heap_empty m ks vs key = some r := by
  obtain ⟨hc1, hc2, hc3⟩ := hcap
  have hpos := slot_size_pos ks vs
  unfold detail_sdmap_set_heap_empty
  simp only
  obtain ⟨c, m2, e1, e2⟩ := @realloc_grown ks vs m (slot_size ks vs * (m.slot_count + 1)) hc3
    (by
      have : 2 * (slot_size ks vs * (m.slot_count + 1)) ≤
          slot_size ks vs * (2 * m.slot_count + 16) := by
        rw [← Nat.mul_assoc, Nat.mul_comm 2, Nat.mul_assoc]
        exact Nat.mul_le_mul_left _ (by omega)
      omega)
    (by
      have : slot_size ks vs * SDMAP_DEFAULT_CAPACITY ≤
          slot_size ks vs * (2 * m.slot_count + 16) :=
        Nat.mul_le_mul_left _ (by unfold SDMAP_DEFAULT_CAPACITY; omega)
      omega)
  have e1' : grow_capacity (slot_size ks vs * (m.slot_count + 1) + 1)
      (if m.capacity > 0 then m.capacity
        else (sizeof_sdmap_slot + ks + vs) * SDMAP_DEFAULT_CAPACITY)
      (slot_size ks vs * (m.slot_count + 1)) = some c := e1
  rw [e1']
  simp only
  rw [e2]
  simp only
  obtain ⟨g1, g2⟩ := grow_capacity_ge _ _ _ _ e1
  obtain ⟨r1, r2, r3, r4, r5, r6, r7, r8, r9⟩ := realloc_heap_spec hc1 hc3 e2
  have hv0 : valid m2 0 := by
    unfold valid
    rw [r1]
    apply Nat.div_pos _ hpos
    rw [hs] at g1
    simp only [zero_add, mul_one] at g1
    omega
  rw [store_eq_some _ hv0]
  exact ⟨_, rfl⟩

set_option maxHeartbeats 1000000 in
theorem set_heap_insert_returns {ks vs : Nat} {m : sdmap_heap} {f : Frame} {c : List Frame}
    {cr : Int} {fl : List Nat} (key : Int)
    (hz : ZOK m (f :: c) .nil) (hG : Good (plug (f :: c) .nil))
    (hcr : cr > 0 ↔ ∃ i k v h r, f = .L i k v h r)
    (hcap : CapOK ks vs m) (hfree : FreeL m m.empty_slot fl) (hfl : fl.Nodup)
    (hfull : fl = [] → m.count = m.slot_count)
    (hdis : ∀ j ∈ cidx (f :: c), j ∉ fl ∧ j < m.slot_count)
    (hroom : slot_size ks vs * (2 * m.slot_count + 16) < 4294967296) :
    ∃ r, ∀ frot, c.length < frot →
      detail_sdmap_set_heap_insert frot m ks vs f.i cr key = some r := by
  obtain ⟨⟨m1, n⟩, hI⟩ := insert_heap_impl_returns key hcap hfree hfull hroom
  obtain ⟨i1, i2, i3, i4, i5, i6, i7, i8, i9, i10⟩ :=
    insert_heap_impl_spec hcap hfree hfl hfull hI
  subst i1
  have hn : fl.headD m.count ∉ cidx (f :: c) := by
    intro hx
    obtain ⟨d1, d2⟩ := hdis _ hx
    cases fl with
    | nil => simp only [List.headD_nil] at d2; have := hfull rfl; omega
    | cons a fl' => exact d1 (by simp)
  have hz1 : ZOK m1 (f :: c) .nil := by
    refine ⟨⟨RepC_congr i5 i6 _ _ (fun j hj => i4 j (fun e => hn (e ▸ hj))) hz.1.1, trivial⟩,
      hz.2⟩
  obtain ⟨m3, e3, z3, d3, r3, o3⟩ := @link_zip _ _ _ _ key
    (get m (fl.headD m.count)).value cr hz1 hcr hn i2
    (by rw [i3])
  obtain ⟨c', t', hL, hD⟩ := insLoop1_good c _
    (InsFocus_leaf (fl.headD m.count) key (get m (fl.headD m.count)).value hG)
  obtain ⟨m', e', s'⟩ := insert_rotate_zip ((ZOK_cons _ _ _).1 z3) (fill_ne_nil _ _) hL
  rw [fill_lnk] at e'
  refine ⟨(m', fl.headD m.count), fun frot hf => ?_⟩
  unfold detail_sdmap_set_heap_insert
  rw [hI]
  simp only [Option.some_bind, Option.bind_eq_bind]
  rw [← Option.bind_assoc, e3]
  simp only [Option.some_bind]
  rw [e' frot hf]
  rfl

/-- The insert-or-get on a map that holds the tree `T` returns, with enough
fuel, when twice the slots and 16 more fit a 32-bit capacity and a map without
elements has no slots. -/
theorem set_heap_impl_returns {ks vs : Nat} {m : sdmap_heap} {T : Tree} (key : Int)
    (hI : InvT ks vs m T) (h0 : m.count = 0 → m.slot_count = 0)
    (hroom : slot_size ks vs * (2 * m.slot_count + 16) < 4294967296) :
    ∃ r, ∀ fuel, T.depth ≤ fuel → detail_sdmap_set_heap_impl fuel m ks vs key = some r := by
  obtain ⟨fl, hz, hG, hB, hF, hnd, hlt, hcnt, hsc, hcap⟩ := hI
  by_cases hc0 : m.count = 0
  · obtain ⟨r, hr⟩ := set_heap_empty_returns key hcap (h0 hc0) hroom
    refine ⟨r, fun fuel _ => ?_⟩
    unfold detail_sdmap_set_heap_impl
    rw [if_pos ⟨hc0, h0 hc0⟩]
    exact hr
  · have hT := T_ne_nil hcnt hc0
    have hrun : ∀ fuel, T.depth ≤ fuel → detail_sdmap_set_heap_impl fuel m ks vs key =
        detail_sdmap_set_heap_loop fuel fuel m ks vs (T.lnk 0) key := by
      intro fuel hf
      unfold detail_sdmap_set_heap_impl
      rw [if_neg (fun h => hc0 h.1), root_lnk hz hT]
    have hzip := fun fuel hf => set_heap_loop_zip fuel ks vs key T [] m hz hT fuel hf
    rcases hd : descend key [] T with ⟨c0, t0⟩
    obtain ⟨hp, hside, hcase, hne⟩ := descend_spec key _ [] c0 t0 (by simp) hd
    simp only [plug] at hp
    cases t0 with
    | node l0 i0 k0 v0 hh0 r0 =>
      exact ⟨(m, i0), fun fuel hf => by rw [hrun fuel hf, hzip fuel hf]; simp only [hd]⟩
    | nil =>
      cases c0 with
      | nil => exact absurd rfl (hne hT rfl)
      | cons f c =>
        have hTidx : (cidx (f :: c)).Perm T.idx := by
          rw [← hp]
          simpa [Tree.idx] using (plug_idx_perm (f :: c) .nil).symm
        have hz0 : ZOK m (f :: c) .nil := by
          refine ⟨(RepZ_plug (f :: c) .nil).1 (by rw [hp]; exact hz.1), ?_⟩
          simp only [Tree.idx, List.nil_append]
          have := hz.2
          simp only [cidx, List.append_nil] at this
          exact hTidx.nodup_iff.2 this
        have hflnd : fl.Nodup := (List.nodup_append.1 hnd).2.1
        have hcr : detail_sdmap_compare f.k key > 0 ↔ ∃ i k v h r, f = .L i k v h r := by
          have := hside f (List.mem_cons_self _ _)
          cases f with
          | L i1 k1 v1 h1 r1 =>
            simp only [Frame.k, Frame.side] at *
            exact ⟨fun _ => ⟨_, _, _, _, _, rfl⟩, fun _ => compare_pos.2 this⟩
          | R l1 i1 k1 v1 h1 =>
            simp only [Frame.k, Frame.side] at *
            constructor
            · intro hc; have := compare_pos.1 hc; omega
            · rintro ⟨_, _, _, _, _, hx⟩; cases hx
        have hfull : fl = [] → m.count = m.slot_count := by
          intro e; subst e; simpa using hsc
        have hdis : ∀ j ∈ cidx (f :: c), j ∉ fl ∧ j < m.slot_count := by
          intro j hj
          have hjT := hTidx.subset hj
          exact ⟨fun hx => (List.nodup_append.1 hnd).2.2 hjT hx,
            hlt j (List.mem_append_left _ hjT)⟩
        have hGp : Good (plug (f :: c) .nil) := by rw [hp]; exact hG
        obtain ⟨r, hr⟩ := set_heap_insert_returns key hz0 hGp hcr hcap hF hflnd hfull
          hdis hroom
        have hdp := depth_plug (f :: c) .nil
        rw [hp] at hdp
        simp only [List.length_cons, Tree.depth] at hdp
        exact ⟨r, fun fuel hf => by
          rw [hrun fuel hf, hzip fuel hf]; simp only [hd]; exact hr fuel (by omega)⟩

/-- The macro `sdmap_set` returns under the same conditions. -/
theorem sdmap_set_returns {ks vs : Nat} {m : sdmap_heap} {T : Tree} (key value : Int)
    (hI : InvT ks vs m T) (h0 : m.count = 0 → m.slot_count = 0)
    (hroom : slot_size ks vs * (2 * m.slot_count + 16) < 4294967296) :
    ∃ m', ∀ fuel, T.depth ≤ fuel → sdmap_set fuel m ks vs key value = some m' := by
  obtain ⟨r, hr⟩ := set_heap_impl_returns key hI h0 hroom
  have hr0 := hr T.depth (le_refl _)
  have hv : ∃ T1, InvT ks vs r.1 T1 ∧ r.2 ∈ T1.idx := by
    rcases set_heap_impl_spec hI hr0 with ⟨-, e, v, hv⟩ | ⟨-, T1, v0, A, B, hI1, -, hB1, -, -⟩
    · exact ⟨T, by rw [e]; exact hI, by rw [idx_eq_map]; exact List.mem_map.2 ⟨_, hv, rfl⟩⟩
    · exact ⟨T1, hI1, by rw [idx_eq_map, hB1]; simp⟩
  obtain ⟨T1, hI1, hi⟩ := hv
  have hvalid : valid r.1 r.2 := Rep_valid_of_mem T1 _ hI1.choose_spec.1.1.2 _ hi
  refine ⟨put r.1 r.2 { get r.1 r.2 with value := value }, fun fuel hf => ?_⟩
  unfold sdmap_set
  rw [hr fuel hf]
  simp only [Option.some_bind, Option.bind_eq_bind]
  unfold write_value
  exact store_eq_some _ hvalid

/-! ## The maps that the inserts and the shrinking erases reach -/

theorem pairs_value_isSome (ps : List (Int × Int)) (key : Int) :
    (pairs_value ps key).isSome = decide (key ∈ ps.map (·.1)) := by
  by_cases h : key ∈ ps.map (·.1)
  · rw [decide_eq_true h]
    obtain ⟨p, hp, e⟩ := List.mem_map.1 h
    unfold pairs_value
    rw [Option.isSome_map']
    rw [List.find?_isSome]
    exact ⟨p, hp, by simpa using e⟩
  · rw [decide_eq_false h, pairs_value_none h]
    rfl

/-- Every map that the inserts and the shrinking erases reach holds a tree,
and has no slots when it has no elements. -/
theorem InvT_of_ReachableShrink {ks vs : Nat} {m : sdmap_heap} (hm : ReachableShrink ks vs m) :
    (∃ T, InvT ks vs m T) ∧ (m.count = 0 → m.slot_count = 0) := by
  induction hm with
  | new capacity garbage hlen hcap =>
    exact ⟨Inv_InvT (Inv_new ks vs capacity garbage hlen hcap), fun _ => rfl⟩
  | set fuel key value _ h ih =>
    obtain ⟨⟨T, hI⟩, h0⟩ := ih
    obtain ⟨T', hI', -, hc⟩ := sdmap_set_spec hI h
    refine ⟨⟨T', hI'⟩, fun hz => ?_⟩
    exfalso
    have hk : key ∈ T.keys := by
      by_contra hk
      rw [if_neg hk] at hc
      omega
    rw [if_pos hk] at hc
    have hcnt := hI.choose_spec.2.2.2.2.2.2.1
    have hm0 : T.idx.length = 0 := by omega
    cases T with
    | nil => simp [Tree.keys] at hk
    | node l i k v h r => simp [Tree.idx] at hm0
  | erase fuel key _ h ih =>
    obtain ⟨⟨T, hI⟩, -⟩ := ih
    obtain ⟨m2, T2, -, hdet, hI2, -, -, h02⟩ := sdmap_erase_spec key hI
    obtain rfl := hdet fuel _ h
    exact ⟨⟨T2, hI2⟩, h02⟩

/-! ## The counters of the hash map through an insert and a resize -/

theorem hstore_cnt {m m' : sdhmap_heap} {i : Nat} {f : sdhmap_slot → sdhmap_slot}
    (h : hstore m i f = some m') :
    m'.count = m.count ∧ m'.slot_count = m.slot_count := by
  obtain ⟨-, rfl⟩ := hstore_some h
  exact ⟨rfl, rfl⟩

theorem pop_empty_cnt {m : sdhmap_heap} {r : sdhmap_heap × Nat}
    (h : detail_sdhmap_pop_empty m = some r) :
    r.1.count = m.count ∧ r.1.slot_count = m.slot_count := by
  unfold detail_sdhmap_pop_empty at h
  split_ifs at h with he
  simp only [Option.bind_eq_bind] at h
  obtain ⟨s, -, h⟩ := Option.bind_eq_some.1 h
  obtain ⟨m1, h1, h⟩ := Option.bind_eq_some.1 h
  obtain ⟨s2, -, h⟩ := Option.bind_eq_some.1 h
  obtain ⟨m2, h2, h⟩ := Option.bind_eq_some.1 h
  simp only [Option.some.injEq] at h
  subst h
  have a1 : m1.count = m.count ∧ m1.slot_count = m.slot_count := by
    split_ifs at h1
    · exact hstore_cnt h1
    · simp only [Option.some.injEq] at h1
      subst h1
      exact ⟨rfl, rfl⟩
  obtain ⟨b1, b2⟩ := hstore_cnt h2
  exact ⟨b1.trans a1.1, b2.trans a1.2⟩

theorem insert_to_empty_cnt {m : sdhmap_heap} {key : Int} {e : Nat} {r : sdhmap_heap × Nat}
    (h : detail_sdhmap_insert_to_empty m key e = some r) :
    r.1.count = m.count + 1 ∧ r.1.slot_count = m.slot_count := by
  unfold detail_sdhmap_insert_to_empty at h
  simp only [Option.bind_eq_bind] at h
  obtain ⟨p, hp, h⟩ := Option.bind_eq_some.1 h
  obtain ⟨m1, h1, h⟩ := Option.bind_eq_some.1 h
  obtain ⟨m2, h2, h⟩ := Option.bind_eq_some.1 h
  simp only [Option.some.injEq] at h
  subst h
  obtain ⟨a1, a2⟩ := pop_empty_cnt hp
  obtain ⟨b1, b2⟩ := hstore_cnt h1
  obtain ⟨c1, c2⟩ := hstore_cnt h2
  exact ⟨by show m2.count + 1 = _; omega, by show m2.slot_count = _; omega⟩

theorem insert_to_list_cnt {m : sdhmap_heap} {key : Int} {e : Nat} {r : sdhmap_heap × Nat}
    (h : detail_sdhmap_insert_to_list m key e = some r) :
    r.1.count = m.count + 1 ∧ r.1.slot_count = m.slot_count := by
  unfold detail_sdhmap_insert_to_list at h
  simp only [Option.bind_eq_bind] at h
  obtain ⟨p, hp, h⟩ := Option.bind_eq_some.1 h
  obtain ⟨m1, h1, h⟩ := Option.bind_eq_some.1 h
  obtain ⟨m2, h2, h⟩ := Option.bind_eq_some.1 h
  simp only [Option.some.injEq] at h
  subst h
  obtain ⟨a1, a2⟩ := pop_empty_cnt hp
  obtain ⟨b1, b2⟩ := hstore_cnt h1
  obtain ⟨c1, c2⟩ := hstore_cnt h2
  exact ⟨by show m2.count + 1 = _; omega, by show m2.slot_count = _; omega⟩

theorem set_common_loop_cnt {m : sdhmap_heap} {key : Int} : ∀ (fuel hash : Nat)
    (r : sdhmap_heap × Nat), detail_sdhmap_set_common_loop fuel m hash key = some r →
    r.1.count ≤ m.count + 1 ∧ r.1.slot_count = m.slot_count
  | 0, _, _, h => by simp [detail_sdhmap_set_common_loop] at h
  | fuel + 1, hash, r, h => by
    rw [detail_sdhmap_set_common_loop] at h
    cases hs : detail_sdhmap_slot m hash with
    | none => rw [hs] at h; cases h
    | some s =>
      rw [hs] at h
      simp only at h
      split_ifs at h with h1 h2
      · simp only [Option.some.injEq] at h
        subst h
        exact ⟨Nat.le_succ _, rfl⟩
      · exact set_common_loop_cnt fuel _ r h
      · obtain ⟨a, b⟩ := insert_to_list_cnt h
        exact ⟨a.le, b⟩

theorem set_common_cnt {fuel : Nat} {hash_func : Int → Nat} {m : sdhmap_heap} {key : Int}
    {r : sdhmap_heap × Nat} (h : detail_sdhmap_set_common fuel hash_func m key = some r) :
    r.1.count ≤ m.count + 1 ∧ r.1.slot_count = m.slot_count ∧ m.slot_count ≠ 0 := by
  unfold detail_sdhmap_set_common at h
  split_ifs at h with h0
  simp only at h
  cases hs : detail_sdhmap_slot m (hash_func key % m.slot_count) with
  | none => rw [hs] at h; cases h
  | some s =>
    rw [hs] at h
    simp only at h
    split_ifs at h with h1
    · obtain ⟨a, b⟩ := insert_to_empty_cnt h
      exact ⟨a.le, b, h0⟩
    · obtain ⟨a, b⟩ := set_common_loop_cnt _ _ _ h
      exact ⟨a, b, h0⟩

theorem heap_realloc_cnt {fuel : Nat} {m m' : sdhmap_heap} {slot_size : Nat}
    (h : detail_sdhmap_heap_realloc fuel m slot_size = some m') :
    m'.count = m.count ∧ m'.slot_count = m.slot_count := by
  unfold detail_sdhmap_heap_realloc at h
  cases hl : detail_sdhmap_heap_realloc_loop fuel m.capacity
      (sizeof_sdhmap_heap + slot_size * m.slot_count % 4294967296) with
  | none => rw [hl] at h; cases h
  | some c =>
    rw [hl] at h
    simp only at h
    split_ifs at h <;> simp only [Option.some.injEq] at h <;> subst h <;> exact ⟨rfl, rfl⟩

theorem init_slots_cnt {m m' : sdhmap_heap} (h : detail_sdhmap_init_slots m = some m') :
    m'.count = m.count ∧ m'.slot_count = m.slot_count := by
  unfold detail_sdhmap_init_slots at h
  simp only [Option.bind_eq_bind] at h
  obtain ⟨m1, h1, h⟩ := Option.bind_eq_some.1 h
  obtain ⟨r, hr, h⟩ := Option.bind_eq_some.1 h
  obtain ⟨-, -, a1, a2, -⟩ := init_slots_loop_spec _ _ _ _ hr
  obtain ⟨b1, b2⟩ := hstore_cnt h1
  obtain ⟨c1, c2⟩ := hstore_cnt h
  exact ⟨by omega, by omega⟩

theorem heap_resize_loop_cnt (fuel : Nat) (hash_func : Int → Nat) :
    ∀ (pairs : List (Int × Int)) (m m' : sdhmap_heap),
    detail_sdhmap_heap_resize_loop fuel hash_func pairs m = some m' →
    m'.count ≤ m.count + pairs.length ∧ m'.slot_count = m.slot_count
  | [], m, m', h => by
    simp only [detail_sdhmap_heap_resize_loop, Option.some.injEq] at h
    subst h
    exact ⟨Nat.le_add_right _ _, rfl⟩
  | p :: pairs, m, m', h => by
    rw [detail_sdhmap_heap_resize_loop] at h
    cases hs : detail_sdhmap_set_common fuel hash_func m p.1 with
    | none => rw [hs] at h; cases h
    | some r =>
      rw [hs] at h
      simp only at h
      cases hw : hstore r.1 r.2 (fun s => { s with value := p.2 }) with
      | none => rw [hw] at h; cases h
      | some m1 =>
        rw [hw] at h
        simp only at h
        obtain ⟨a1, a2, -⟩ := set_common_cnt hs
        obtain ⟨b1, b2⟩ := hstore_cnt hw
        obtain ⟨c1, c2⟩ := heap_resize_loop_cnt fuel hash_func pairs m1 m' h
        simp only [List.length_cons]
        exact ⟨by omega, by omega⟩

theorem heap_resize_cnt {fuel : Nat} {hash_func : Int → Nat} {m m' : sdhmap_heap}
    {slot_size target : Nat} {garbage : List (Int × Int)}
    (h : detail_sdhmap_heap_resize fuel hash_func m slot_size target garbage = some m') :
    m'.count ≤ m.count ∧ m'.slot_count = target := by
  unfold detail_sdhmap_heap_resize at h
  split_ifs at h with h0
  · simp only [Option.some.injEq] at h
    subst h
    exact ⟨le_refl _, h0⟩
  · simp only [Option.bind_eq_bind] at h
    obtain ⟨pairs, -, h⟩ := Option.bind_eq_some.1 h
    obtain ⟨m1, h1, h⟩ := Option.bind_eq_some.1 h
    obtain ⟨m2, h2, h⟩ := Option.bind_eq_some.1 h
    split_ifs at h with hj
    obtain ⟨a1, a2⟩ := heap_realloc_cnt h1
    obtain ⟨b1, b2⟩ := init_slots_cnt h2
    obtain ⟨c1, c2⟩ := heap_resize_loop_cnt _ _ _ _ _ h
    simp only at a1 a2
    rw [List.length_take] at c1
    exact ⟨by omega, by omega⟩

theorem rlnk_none (r : Tree) (i : Nat) : rlnk none r i = r.lnk i := by
  cases r <;> rfl

theorem rlnk_node (th : Option Nat) {r : Tree} (hr : r ≠ .nil) (i : Nat) :
    rlnk th r i = r.lnk i := by
  cases r with
  | nil => exact absurd rfl hr
  | node _ _ _ _ _ _ => rfl

theorem RepT_none {m : sdmap_heap} : ∀ (t : Tree) (o : Nat), RepT m none t o ↔ Rep m t o
  | .nil, _ => Iff.rfl
  | .node l i k v h r, o => by
    simp only [RepT, Rep, rlnk_none, RepT_none r i]

theorem RepCT_none {m : sdmap_heap} : ∀ (c : List Frame) (x : Nat), hth c = none →
    (RepCT m c x ↔ RepC m c x)
  | [], _, _ => Iff.rfl
  | .L i k v h r :: c, x, hc => by simp [hth] at hc
  | .R l i k v h :: c, x, hc => by
    simp only [hth] at hc
    simp only [RepCT, RepC, RepCT_none c i hc]

theorem RepT_congr {m m' : sdmap_heap} {th : Option Nat} (hv : ∀ j, valid m j → valid m' j) :
    ∀ (t : Tree) (o : Nat), (∀ j ∈ t.idx, get m' j = get m j) →
    RepT m th t o → RepT m' th t o
  | .nil, _, _, _ => trivial
  | .node l i k v h r, o, hg, ⟨h1, h2, h3, h4⟩ => by
    refine ⟨hv _ h1, ?_,
      Rep_congr hv l i (fun j hj => hg j (by simp [Tree.idx, hj])) h3,
      RepT_congr hv r i (fun j hj => hg j (by simp [Tree.idx, hj])) h4⟩
    rw [hg i (by simp [Tree.idx])]; exact h2

theorem RepCT_congr {m m' : sdmap_heap} (hr : m'.root_slot = m.root_slot)
    (hv : ∀ j, valid m j → valid m' j) :
    ∀ (c : List Frame) (x : Nat), (∀ j ∈ cidx c, get m' j = get m j) →
    RepCT m c x → RepCT m' c x
  | [], x, _, h => by
    show m'.root_slot = x
    rw [hr]; exact h
  | .L i k v h r :: c, x, hg, ⟨h1, h2, h3, h4⟩ => by
    have hi := hg i (by simp [cidx, Frame.idx])
    refine ⟨hv _ h1, by rw [hi]; exact h2,
      RepT_congr hv r i (fun j hj => hg j (by simp [cidx, Frame.idx, hj])) h3,
      RepCT_congr hr hv c i (fun j hj => hg j (by simp [cidx, hj])) h4⟩
  | .R l i k v h :: c, x, hg, ⟨h1, h2, h3, h4⟩ => by
    have hi := hg i (by simp [cidx, Frame.idx])
    refine ⟨hv _ h1, by rw [hi]; exact h2,
      Rep_congr hv l i (fun j hj => hg j (by simp [cidx, Frame.idx, hj])) h3,
      RepCT_congr hr hv c i (fun j hj => hg j (by simp [cidx, hj])) h4⟩

theorem RepT_valid_of_mem {m : sdmap_heap} {th : Option Nat} :
    ∀ (t : Tree) (o : Nat), RepT m th t o → ∀ j ∈ t.idx, valid m j
  | .nil, _, _, j, hj => by simp [Tree.idx] at hj
  | .node l i k v h r, o, ⟨h1, _, h3, h4⟩, j, hj => by
    simp only [Tree.idx, List.mem_append, List.mem_cons] at hj
    rcases hj with hj | hj | hj
    · exact Rep_valid_of_mem l i h3 j hj
    · exact hj ▸ h1
    · exact RepT_valid_of_mem r i h4 j hj

theorem rmost_mem : ∀ (t : Tree) (o : Nat), t ≠ .nil → t.rmost o ∈ t.idx
  | .nil, _, h => absurd rfl h
  | .node l i k v h r, o, _ => by
    simp only [Tree.rmost, Tree.idx, List.mem_append, List.mem_cons]
    cases r with
    | nil => exact Or.inr (Or.inl rfl)
    | node rl ri rk rv rh rr =>
      exact Or.inr (Or.inr (rmost_mem (.node rl ri rk rv rh rr) i (by simp)))

theorem rmost_eq0 {t : Tree} (ht : t ≠ .nil) (o : Nat) : t.rmost o = t.rmost 0 := by
  cases t with
  | nil => exact absurd rfl ht
  | node _ _ _ _ _ _ => rfl

/-- The thread put in the rightmost node of a subtree. -/
theorem RepT_install {m m' : sdmap_heap} {x : Nat} : ∀ (t : Tree) (o : Nat), Rep m t o →
    t ≠ .nil → t.idx.Nodup → (∀ j, valid m' j ↔ valid m j) →
    (∀ j, get m' j = if j = t.rmost o then { get m j with right := x } else get m j) →
    RepT m' (some x) t o
  | .nil, _, _, h, _, _, _ => absurd rfl h
  | .node l i k v h r, o, ⟨h1, h2, h3, h4⟩, _, hnd, hv, hg => by
    obtain ⟨hi, nl, nr, il, ir, dlr⟩ := node_idx_facts (s := []) (by simpa using hnd)
    simp only [Tree.rmost] at hg
    cases r with
    | nil =>
      simp only [Tree.rmost] at hg
      refine ⟨(hv i).2 h1, ?_, ?_, trivial⟩
      · rw [hg i, if_pos rfl, h2]; rfl
      · exact Rep_congr_idx l i (fun j hj => ⟨(hv j).2 (Rep_valid_of_mem l i h3 j hj), by
          rw [hg j, if_neg (fun (e : j = i) => il (e ▸ hj))]⟩) h3
    | node rl ri rk rv rh rr =>
      have hrm := rmost_mem (.node rl ri rk rv rh rr) i (by simp)
      refine ⟨(hv i).2 h1, ?_, ?_, ?_⟩
      · rw [hg i, if_neg (fun (e : i = _) => ir (e ▸ hrm)), h2]; rfl
      · exact Rep_congr_idx l i (fun j hj => ⟨(hv j).2 (Rep_valid_of_mem l i h3 j hj), by
          rw [hg j, if_neg (fun (e : j = _) => dlr j hj (e ▸ hrm))]⟩) h3
      · exact RepT_install (.node rl ri rk rv rh rr) i h4 (by simp) nr hv hg

/-- The thread taken out of the rightmost node of a subtree. -/
theorem RepT_remove {m m' : sdmap_heap} {x : Nat} : ∀ (t : Tree) (o : Nat),
    RepT m (some x) t o → t ≠ .nil → t.idx.Nodup → (∀ j, valid m' j ↔ valid m j) →
    (∀ j, get m' j = if j = t.rmost o then { get m j with right := j } else get m j) →
    Rep m' t o
  | .nil, _, _, h, _, _, _ => absurd rfl h
  | .node l i k v h r, o, ⟨h1, h2, h3, h4⟩, _, hnd, hv, hg => by
    obtain ⟨hi, nl, nr, il, ir, dlr⟩ := node_idx_facts (s := []) (by simpa using hnd)
    simp only [Tree.rmost] at hg
    cases r with
    | nil =>
      simp only [Tree.rmost] at hg
      refine ⟨(hv i).2 h1, ?_, ?_, trivial⟩
      · rw [hg i, if_pos rfl, h2]; rfl
      · exact Rep_congr_idx l i (fun j hj => ⟨(hv j).2 (Rep_valid_of_mem l i h3 j hj), by
          rw [hg j, if_neg (fun (e : j = i) => il (e ▸ hj))]⟩) h3
    | node rl ri rk rv rh rr =>
      have hrm := rmost_mem (.node rl ri rk rv rh rr) i (by simp)
      refine ⟨(hv i).2 h1, ?_, ?_, ?_⟩
      · rw [hg i, if_neg (fun (e : i = _) => ir (e ▸ hrm)), h2]; rfl
      · exact Rep_congr_idx l i (fun j hj => ⟨(hv j).2 (Rep_valid_of_mem l i h3 j hj), by
          rw [hg j, if_neg (fun (e : j = _) => dlr j hj (e ▸ hrm))]⟩) h3
      · exact RepT_remove (.node rl ri rk rv rh rr) i h4 (by simp) nr hv hg

theorem hth_mem : ∀ (c : List Frame) (a : Nat), hth c = some a → a ∈ cidx c
  | [], _, h => by simp [hth] at h
  | .L i k v h r :: c, a, e => by
    simp only [hth, Option.some.injEq] at e
    subst e
    simp [cidx, Frame.idx]
  | .R l i k v h :: c, a, e => by
    simp only [hth] at e
    simp only [cidx, List.mem_append]
    exact Or.inr (hth_mem c a e)

theorem body_pre_plain {m : sdmap_heap} {cur : Nat} : ∀ (fuel : Nat) (t : Tree) (o : Nat),
    Rep m t o → t ≠ .nil → t.idx.Nodup → cur ∉ t.idx → ∀ p,
    detail_sdmap_body_pre fuel m cur (t.lnk o) = some p →
    p = t.rmost o ∧ (get m p).right = p
  | 0, _, _, _, _, _, _, _, h => by simp [detail_sdmap_body_pre] at h
  | _, .nil, _, _, h, _, _, _, _ => absurd rfl h
  | fuel + 1, .node l i k v hh r, o, hR, _, hnd, hc, p, h => by
    obtain ⟨-, nl, nr, il, ir, dlr⟩ := node_idx_facts (s := []) (by simpa using hnd)
    have hg := Rep_get hR
    simp only [Tree.lnk, detail_sdmap_body_pre, slot_eq_some hR.1] at h
    cases r with
    | nil =>
      have e : (get m i).right = i := by rw [hg]; rfl
      rw [if_neg (by rw [e]; simp)] at h
      simp only [Option.some.injEq] at h
      subst h
      exact ⟨rfl, e⟩
    | node rl ri rk rv rh rr =>
      have e : (get m i).right = ri := by rw [hg]; rfl
      have h1 : ri ≠ i := fun x => ir (by rw [← x]; simp [Tree.idx])
      have h2 : ri ≠ cur := fun x => hc (by rw [← x]; simp [Tree.idx])
      rw [e, if_pos ⟨h1, h2⟩] at h
      exact body_pre_plain fuel (.node rl ri rk rv rh rr) i hR.2.2.2 (by simp) nr
        (fun x => hc (by simp only [Tree.idx, List.mem_append, List.mem_cons] at x ⊢; tauto)) p h

theorem body_pre_thread {m : sdmap_heap} {cur : Nat} : ∀ (fuel : Nat) (t : Tree) (o : Nat),
    RepT m (some cur) t o → t ≠ .nil → t.idx.Nodup → cur ∉ t.idx → ∀ p,
    detail_sdmap_body_pre fuel m cur (t.lnk o) = some p →
    p = t.rmost o ∧ (get m p).right = cur
  | 0, _, _, _, _, _, _, _, h => by simp [detail_sdmap_body_pre] at h
  | _, .nil, _, _, h, _, _, _, _ => absurd rfl h
  | fuel + 1, .node l i k v hh r, o, hR, _, hnd, hc, p, h => by
    obtain ⟨-, nl, nr, il, ir, dlr⟩ := node_idx_facts (s := []) (by simpa using hnd)
    have hg := hR.2.1
    simp only [Tree.lnk, detail_sdmap_body_pre, slot_eq_some hR.1] at h
    cases r with
    | nil =>
      have e : (get m i).right = cur := by rw [hg]; rfl
      rw [if_neg (by rw [e]; simp)] at h
      simp only [Option.some.injEq] at h
      subst h
      exact ⟨rfl, e⟩
    | node rl ri rk rv rh rr =>
      have e : (get m i).right = ri := by rw [hg]; rfl
      have h1 : ri ≠ i := fun x => ir (by rw [← x]; simp [Tree.idx])
      have h2 : ri ≠ cur := fun x => hc (by rw [← x]; simp [Tree.idx])
      rw [e, if_pos ⟨h1, h2⟩] at h
      exact body_pre_thread fuel (.node rl ri rk rv rh rr) i hR.2.2.2 (by simp) nr
        (fun x => hc (by simp only [Tree.idx, List.mem_append, List.mem_cons] at x ⊢; tauto)) p h

/-- A walk whose thread is none has the tree as it was built. -/
theorem walk_restored {m : sdmap_heap} {c : List Frame} {l r : Tree} {a : Nat} {k v h : Int}
    (hA : StA m c l a k v h r) (hc : hth c = none) : RepZ m [] (plug c (.node l a k v h r)) := by
  rw [RepZ_plug]
  obtain ⟨h1, h2⟩ := hA
  rw [hc, RepT_none] at h2
  exact ⟨(RepCT_none c a hc).1 h1, h2⟩

/-- The way back along a thread: the node of the thread, with the subtree of
the walk as the end of its left subtree. -/
theorem walk_up {m : sdmap_heap} {x : Nat} : ∀ (c : List Frame) (S : Tree), S ≠ .nil →
    hth c = some x → RepCT m c (S.lnk 0) → RepT m (some x) S (own c) →
    (S.idx ++ cidx c).Nodup →
    ∃ c' l k v h r, plug c' (.node l x k v h r) = plug c S ∧
      ((Tree.node l x k v h r).idx ++ cidx c').Nodup ∧ StB m c' l x k v h r
  | [], _, _, e, _, _, _ => by simp [hth] at e
  | .L i k v h r :: c, S, hS, e, hC, hT, hnd => by
    simp only [hth, Option.some.injEq] at e
    subst e
    obtain ⟨h1, h2, h3, h4⟩ := hC
    refine ⟨c, S, k, v, h, r, rfl, ?_, hS, h4, h1, ?_, hT, h3⟩
    · exact (zip_nodup (.L i k v h r) c S).1 hnd
    · rw [h2, lnk_eq0 hS i]
  | .R l i k v h :: c, S, hS, e, hC, hT, hnd => by
    simp only [hth] at e
    obtain ⟨h1, h2, h3, h4⟩ := hC
    have hnd' := (zip_nodup (.R l i k v h) c S).1 hnd
    have := walk_up c (.node l i k v h S) (by simp) e h4
      ⟨h1, by rw [h2, rlnk_node _ hS, lnk_eq0 hS i], h3, hT⟩ hnd'
    exact this

/-- The step of a walk from a node to its right link. -/
theorem walk_after {m : sdmap_heap} {c : List Frame} {l r : Tree} {a : Nat} {k v h : Int}
    (hA : StA m c l a k v h r) (hnd : ((Tree.node l a k v h r).idx ++ cidx c).Nodup) :
    Walk m (plug c (.node l a k v h r)) (get m a).right ∧
    ((get m a).right = a → hth c = none) := by
  have hA0 := hA
  obtain ⟨h1, h2, h3, h4, h5⟩ := hA
  obtain ⟨-, nl, nr, il, ir, dlr⟩ := node_idx_facts hnd
  cases r with
  | node rl ri rk rv rh rr =>
    have e : (get m a).right = ri := by rw [h3]; rfl
    have hne : ri ≠ a := fun x => ir (by rw [← x]; simp [Tree.idx])
    rw [e]
    refine ⟨⟨.R l a k v h :: c, rl, rk, rv, rh, rr, rfl, ?_, Or.inl ⟨⟨h2, ?_, h4, h1⟩, h5⟩⟩,
      fun x => absurd x hne⟩
    · exact (zip_nodup (.R l a k v h) c _).2 hnd
    · rw [h3]; rfl
  | nil =>
    rcases hc : hth c with _ | x
    · have e : (get m a).right = a := by rw [h3, hc]; rfl
      rw [e]
      exact ⟨⟨c, l, k, v, h, .nil, rfl, hnd, Or.inl hA0⟩, fun _ => rfl⟩
    · have e : (get m a).right = x := by rw [h3, hc]; rfl
      have hx := hth_mem c x hc
      have hne : x ≠ a := by
        intro y
        rw [y] at hx
        exact (List.nodup_append.1 hnd).2.2 (by simp [Tree.idx]) hx
      rw [e]
      refine ⟨?_, fun y => absurd y hne⟩
      obtain ⟨c', l', k', v', h', r', e1, e2, e3⟩ := walk_up c (.node l a k v h .nil) (by simp) hc h1
        (by rw [← hc]; exact ⟨h2, h3, h4, h5⟩) hnd
      exact ⟨c', l', k', v', h', r', e1, e2, Or.inr e3⟩

theorem Walk_valid {m : sdmap_heap} {T : Tree} {x : Nat} (hW : Walk m T x) :
    valid m x ∧ x ∈ T.idx := by
  obtain ⟨c, l, k, v, h, r, e, hnd, hS⟩ := hW
  have hx : x ∈ T.idx := by
    rw [← e]
    exact (plug_idx_perm c _).mem_iff.2 (by simp [Tree.idx])
  rcases hS with hA | hB
  · exact ⟨hA.2.1, hx⟩
  · exact ⟨hB.2.2.1, hx⟩

/-- A node without a left child: the walk ends, on the tree as it was built,
or goes on along the right link. -/
theorem walk_leaf {m : sdmap_heap} {T : Tree} {x : Nat} (hW : Walk m T x)
    (hl : (get m x).left = x) :
    Walk m T (get m x).right ∧ ((get m x).right = x → RepZ m [] T) := by
  obtain ⟨c, l, k, v, h, r, e, hnd, hS⟩ := hW
  obtain ⟨-, nl, nr, il, ir, dlr⟩ := node_idx_facts hnd
  rcases hS with hA | hB
  · subst e
    obtain ⟨hw, hr⟩ := walk_after hA hnd
    exact ⟨hw, fun y => walk_restored hA (hr y)⟩
  · exfalso
    obtain ⟨hne, -, -, hg, -, -⟩ := hB
    rw [hg] at hl
    have : l.lnk x = x := hl
    rw [lnk_eq0 hne] at this
    exact il (this ▸ lnk0_mem hne)

/-- A node with a left child: the walk along the right links of the left
subtree ends at its rightmost node, which holds no thread before the walk
goes down and the thread of the node when the walk has come back. -/
theorem walk_inner {m : sdmap_heap} {T : Tree} {x : Nat} (hW : Walk m T x)
    (hl : (get m x).left ≠ x) {fuel : Nat} {p : Nat}
    (hp : detail_sdmap_body_pre fuel m x (get m x).left = some p) :
    valid m p ∧ p ≠ x ∧ p ∈ T.idx ∧
    (((get m p).right = p ∧ ∀ m1, store m p (fun s => { s with right := x }) = some m1 →
        get m1 x = get m x ∧ Walk m1 T (get m x).left) ∨
     ((get m p).right = x ∧ ∀ m1, store m p (fun s => { s with right := p }) = some m1 →
        get m1 x = get m x ∧ Walk m1 T (get m x).right)) := by
  obtain ⟨c, l, k, v, h, r, e, hnd, hS⟩ := hW
  obtain ⟨-, nl, nr, il, ir, dlr⟩ := node_idx_facts hnd
  have hsub : ∀ j, j ∈ (Tree.node l x k v h r).idx ++ cidx c → j ∈ T.idx := by
    intro j hj
    rw [← e]
    exact (plug_idx_perm c _).mem_iff.2 hj
  have hdis := (List.nodup_append.1 hnd).2.2
  have hgx : get m x = ⟨l.lnk x, rlnk (hth c) r x, own c, h, k, v⟩ := by
    rcases hS with hA | hB
    · exact hA.2.2.1
    · exact hB.2.2.2.1
  have hlx : (get m x).left = l.lnk x := by rw [hgx]
  have hne : l ≠ .nil := by
    intro y
    rw [hlx, y] at hl
    exact hl rfl
  rw [hlx] at hp
  have hvx : valid m x := by
    rcases hS with hA | hB
    · exact hA.2.1
    · exact hB.2.2.1
  have hC : RepCT m c x := by
    rcases hS with hA | hB
    · exact hA.1
    · exact hB.2.1
  have hRr : RepT m (hth c) r x := by
    rcases hS with hA | hB
    · exact hA.2.2.2.2
    · exact hB.2.2.2.2.2
  have hpm : p = l.rmost x := by
    rcases hS with hA | hB
    · exact (body_pre_plain fuel l x hA.2.2.2.1 hne nl il p hp).1
    · exact (body_pre_thread fuel l x hB.2.2.2.2.1 hne nl il p hp).1
  have hpl : p ∈ l.idx := hpm ▸ rmost_mem l x hne
  have hpx : p ≠ x := fun y => il (y ▸ hpl)
  have hpr : p ∉ r.idx := dlr p hpl
  have hpc : p ∉ cidx c := fun y => hdis (by simp [Tree.idx, hpl]) y
  have hvp : valid m p := by
    rcases hS with hA | hB
    · exact Rep_valid_of_mem l x hA.2.2.2.1 p hpl
    · exact RepT_valid_of_mem l x hB.2.2.2.2.1 p hpl
  refine ⟨hvp, hpx, hsub p (by simp [Tree.idx, hpl]), ?_⟩
  rcases hS with hA | hB
  · left
    refine ⟨(body_pre_plain fuel l x hA.2.2.2.1 hne nl il p hp).2, fun m1 hs => ?_⟩
    obtain ⟨m1', hs', -, hroot, hv, hg⟩ := store_spec (fun s => { s with right := x }) hvp
    rw [hs] at hs'
    simp only [Option.some.injEq] at hs'
    subst hs'
    have hv1 : ∀ j, valid m j → valid m1 j := fun j => (hv j).2
    have hgn : ∀ j, j ≠ p → get m1 j = get m j := fun j hj => by rw [hg j, if_neg hj]
    have hgx1 : get m1 x = get m x := hgn x (Ne.symm hpx)
    refine ⟨hgx1, ?_⟩
    rw [hlx]
    have hinst : RepT m1 (some x) l x := by
      refine RepT_install _ x hA.2.2.2.1 hne nl hv (fun j => ?_)
      rw [hg j, ← hpm]
      by_cases hj : j = p
      · rw [if_pos hj, if_pos hj, hj]
      · rw [if_neg hj, if_neg hj]
    cases l with
    | nil => exact absurd rfl hne
    | node ll li lk lv lh lr =>
      refine ⟨.L x k v h r :: c, ll, lk, lv, lh, lr, e, (zip_nodup (.L x k v h r) c _).2 hnd,
        Or.inl ⟨⟨hv1 _ hvx, ?_, ?_, ?_⟩, ?_⟩⟩
      · rw [hgx1, hgx]
      · exact RepT_congr hv1 r x (fun j hj => hgn j (fun y => hpr (y ▸ hj))) hRr
      · exact RepCT_congr hroot hv1 c x (fun j hj => hgn j (fun y => hpc (y ▸ hj))) hC
      · exact hinst
  · right
    refine ⟨(body_pre_thread fuel l x hB.2.2.2.2.1 hne nl il p hp).2, fun m1 hs => ?_⟩
    obtain ⟨m1', hs', -, hroot, hv, hg⟩ := store_spec (fun s => { s with right := p }) hvp
    rw [hs] at hs'
    simp only [Option.some.injEq] at hs'
    subst hs'
    have hv1 : ∀ j, valid m j → valid m1 j := fun j => (hv j).2
    have hgn : ∀ j, j ≠ p → get m1 j = get m j := fun j hj => by rw [hg j, if_neg hj]
    have hgx1 : get m1 x = get m x := hgn x (Ne.symm hpx)
    refine ⟨hgx1, ?_⟩
    have hA : StA m1 c l x k v h r := by
      refine ⟨RepCT_congr hroot hv1 c x (fun j hj => hgn j (fun y => hpc (y ▸ hj))) hC,
        hv1 _ hvx, by rw [hgx1, hgx], ?_,
        RepT_congr hv1 r x (fun j hj => hgn j (fun y => hpr (y ▸ hj))) hRr⟩
      refine RepT_remove l x hB.2.2.2.2.1 hne nl hv (fun j => ?_)
      rw [hg j, ← hpm]
      by_cases hj : j = p
      · rw [if_pos hj, if_pos hj, hj]
      · rw [if_neg hj, if_neg hj]
    have := (walk_after hA hnd).1
    rw [e, hgx1] at this
    exact this

theorem RepT_get_eq {m m' : sdmap_heap} : ∀ (t : Tree) (o : Nat), Rep m t o → Rep m' t o →
    ∀ j ∈ t.idx, get m' j = get m j
  | .nil, _, _, _, j, hj => by simp [Tree.idx] at hj
  | .node l i k v h r, o, ⟨_, h2, h3, h4⟩, ⟨_, g2, g3, g4⟩, j, hj => by
    simp only [Tree.idx, List.mem_append, List.mem_cons] at hj
    rcases hj with hj | hj | hj
    · exact RepT_get_eq l i h3 g3 j hj
    · rw [hj, h2, g2]
    · exact RepT_get_eq r i h4 g4 j hj

/-- A block that holds the same tree as another and agrees with it outside
the tree is the same block. -/
theorem walk_same {m0 m : sdmap_heap} {T : Tree} (hz : RepZ m0 [] T) (hr : RepZ m [] T)
    (hh : SameHdr m0 m) (ho : SameOut m0 m T.idx) : m = m0 := by
  have hroot : m.root_slot = m0.root_slot := by rw [hr.1, hz.1]
  have hg : ∀ j, get m j = get m0 j := by
    intro j
    by_cases hj : j ∈ T.idx
    · exact RepT_get_eq T _ hz.2 hr.2 j hj
    · exact ho j hj
  obtain ⟨h1, h2, h3, h4, h5⟩ := hh
  have hs : m.slots = m0.slots := by
    apply List.ext_getElem h5
    intro j hj1 hj2
    have := hg j
    unfold get at this
    rw [List.getD_eq_getElem _ _ hj1, List.getD_eq_getElem _ _ hj2] at this
    exact this
  cases m
  cases m0
  simp only at h1 h2 h3 h4 hs hroot
  simp only [sdmap_heap.mk.injEq]
  exact ⟨by assumption, by assumption, by assumption, by assumption, by assumption, by assumption⟩

/-- A store in a slot of the tree keeps what a walk keeps of the block. -/
theorem walk_store {m0 m m1 : sdmap_heap} {T : Tree} {p : Nat} (f : sdmap_slot → sdmap_slot)
    (hh : SameHdr m0 m) (ho : SameOut m0 m T.idx) (hp : p ∈ T.idx) (hv : valid m p)
    (hs : store m p f = some m1) :
    SameHdr m0 m1 ∧ SameOut m0 m1 T.idx ∧ (∀ j, valid m1 j ↔ valid m j) := by
  obtain ⟨m1', hs', hh1, -, hv1, hg⟩ := store_spec f hv
  rw [hs] at hs'
  simp only [Option.some.injEq] at hs'
  subst hs'
  obtain ⟨a1, a2, a3, a4, a5⟩ := hh
  obtain ⟨b1, b2, b3, b4, b5⟩ := hh1
  refine ⟨⟨by rw [b1, a1], by rw [b2, a2], by rw [b3, a3], by rw [b4, a4], by rw [b5, a5]⟩,
    fun j hj => ?_, hv1⟩
  rw [hg j, if_neg (fun (y : j = p) => hj (y ▸ hp))]
  exact ho j hj

/-- The outer loop of `detail_sdmap_inorder_body` returns the block as it was
before the walk. -/
theorem inorder_loop_restores {α : Type} (visit : sdmap_slot → α) {m0 : sdmap_heap} {T : Tree}
    (hz : RepZ m0 [] T) : ∀ (fuel fi : Nat) (m : sdmap_heap) (cur : Nat) (calls : List α)
    (res : sdmap_heap × List α), SameHdr m0 m → SameOut m0 m T.idx → Walk m T cur →
    detail_sdmap_inorder_loop visit fuel fi m cur calls = some res → res.1 = m0 := by
  intro fuel
  induction fuel with
  | zero => intro fi m cur calls res _ _ _ h; simp [detail_sdmap_inorder_loop] at h
  | succ fuel ih =>
    intro fi m cur calls res hh ho hW h
    have hv := (Walk_valid hW).1
    simp only [detail_sdmap_inorder_loop, slot_eq_some hv] at h
    by_cases hl : (get m cur).left = cur
    · rw [if_pos hl] at h
      obtain ⟨hw, hr⟩ := walk_leaf hW hl
      by_cases hr1 : (get m cur).right = cur
      · rw [if_pos hr1] at h
        simp only [Option.some.injEq] at h
        rw [← h]
        exact walk_same hz (hr hr1) hh ho
      · rw [if_neg hr1] at h
        exact ih _ _ _ _ _ hh ho hw h
    · rw [if_neg hl] at h
      rcases hb : detail_sdmap_body_pre fi m cur (get m cur).left with _ | p
      · simp [hb] at h
      · obtain ⟨hvp, hpx, hpT, hcase⟩ := walk_inner hW hl hb
        simp only [hb, slot_eq_some hvp] at h
        rcases hcase with ⟨hr, hnext⟩ | ⟨hr, hnext⟩
        · rw [if_pos hr] at h
          obtain ⟨m1, hs, -⟩ := store_spec (fun s => { s with right := cur }) hvp
          obtain ⟨hh1, ho1, hv1⟩ := walk_store _ hh ho hpT hvp hs
          obtain ⟨hg1, hw1⟩ := hnext m1 hs
          simp only [hs, slot_eq_some ((hv1 cur).2 hv), hg1] at h
          exact ih _ _ _ _ _ hh1 ho1 hw1 h
        · rw [if_neg (by rw [hr]; exact Ne.symm hpx)] at h
          obtain ⟨m1, hs, -⟩ := store_spec (fun s => { s with right := p }) hvp
          obtain ⟨hh1, ho1, hv1⟩ := walk_store _ hh ho hpT hvp hs
          obtain ⟨hg1, hw1⟩ := hnext m1 hs
          simp only [hs, slot_eq_some ((hv1 cur).2 hv), hg1] at h
          exact ih _ _ _ _ _ hh1 ho1 hw1 h

/-- The outer loop of `detail_sdmap_preorder_body` returns the block as it was
before the walk. -/
theorem preorder_loop_restores {α : Type} (visit : sdmap_slot → α) {m0 : sdmap_heap} {T : Tree}
    (hz : RepZ m0 [] T) : ∀ (fuel fi : Nat) (m : sdmap_heap) (cur : Nat) (calls : List α)
    (res : sdmap_heap × List α), SameHdr m0 m → SameOut m0 m T.idx → Walk m T cur →
    detail_sdmap_preorder_loop visit fuel fi m cur calls = some res → res.1 = m0 := by
  intro fuel
  induction fuel with
  | zero => intro fi m cur calls res _ _ _ h; simp [detail_sdmap_preorder_loop] at h
  | succ fuel ih =>
    intro fi m cur calls res hh ho hW h
    have hv := (Walk_valid hW).1
    simp only [detail_sdmap_preorder_loop, slot_eq_some hv] at h
    by_cases hl : (get m cur).left = cur
    · rw [if_pos hl] at h
      obtain ⟨hw, hr⟩ := walk_leaf hW hl
      by_cases hr1 : (get m cur).right = cur
      · rw [if_pos hr1] at h
        simp only [Option.some.injEq] at h
        rw [← h]
        exact walk_same hz (hr hr1) hh ho
      · rw [if_neg hr1] at h
        exact ih _ _ _ _ _ hh ho hw h
    · rw [if_neg hl] at h
      rcases hb : detail_sdmap_body_pre fi m cur (get m cur).left with _ | p
      · simp [hb] at h
      · obtain ⟨hvp, hpx, hpT, hcase⟩ := walk_inner hW hl hb
        simp only [hb, slot_eq_some hvp] at h
        rcases hcase with ⟨hr, hnext⟩ | ⟨hr, hnext⟩
        · rw [if_neg (by rw [hr]; exact hpx)] at h
          obtain ⟨m1, hs, -⟩ := store_spec (fun s => { s with right := cur }) hvp
          obtain ⟨hh1, ho1, hv1⟩ := walk_store _ hh ho hpT hvp hs
          obtain ⟨hg1, hw1⟩ := hnext m1 hs
          simp only [hs, slot_eq_some ((hv1 cur).2 hv), hg1] at h
          exact ih _ _ _ _ _ hh1 ho1 hw1 h
        · rw [if_pos hr] at h
          obtain ⟨m1, hs, -⟩ := store_spec (fun s => { s with right := p }) hvp
          obtain ⟨hh1, ho1, hv1⟩ := walk_store _ hh ho hpT hvp hs
          obtain ⟨hg1, hw1⟩ := hnext m1 hs
          simp only [hs, slot_eq_some ((hv1 cur).2 hv), hg1] at h
          exact ih _ _ _ _ _ hh1 ho1 hw1 h

theorem Walk_start {m : sdmap_heap} {T : Tree} (hz : ZOK m [] T) (hT : T ≠ .nil) :
    Walk m T m.root_slot := by
  cases T with
  | nil => exact absurd rfl hT
  | node l i k v h r =>
    have e : m.root_slot = i := hz.1.1
    rw [e]
    exact ⟨[], l, k, v, h, r, rfl, hz.2, Or.inl ⟨e, (RepT_none _ _).2 hz.1.2⟩⟩

/-- The walks of `detail_sdmap_inorder_body` and of
`detail_sdmap_preorder_body` over a map that holds a tree return the block as
it was before the walk. -/
theorem traversal_body_restores {α : Type} (visit : sdmap_slot → α) {m : sdmap_heap} {T : Tree}
    (hz : ZOK m [] T) (fuel : Nat) (r : Option sdmap_heap × List α) :
    (detail_sdmap_inorder_body visit fuel (some m) = some r → r.1 = some m) ∧
    (detail_sdmap_preorder_body visit fuel (some m) = some r → r.1 = some m) := by
  have hh : SameHdr m m := ⟨rfl, rfl, rfl, rfl, rfl⟩
  have ho : SameOut m m T.idx := fun _ _ => rfl
  constructor
  · intro h
    unfold detail_sdmap_inorder_body at h
    simp only at h
    by_cases h0 : m.root_slot = NONE
    · rw [if_pos h0] at h
      simp only [Option.some.injEq] at h
      rw [← h]
    · rw [if_neg h0] at h
      have hT : T ≠ .nil := by
        intro e
        subst e
        exact h0 hz.1.1
      obtain ⟨res, hres, e⟩ := Option.map_eq_some'.1 h
      rw [← e]
      exact congrArg some (inorder_loop_restores visit hz.1 _ _ _ _ _ _ hh ho (Walk_start hz hT) hres)
  · intro h
    unfold detail_sdmap_preorder_body at h
    simp only at h
    by_cases h0 : m.root_slot = NONE
    · rw [if_pos h0] at h
      simp only [Option.some.injEq] at h
      rw [← h]
    · rw [if_neg h0] at h
      have hT : T ≠ .nil := by
        intro e
        subst e
        exact h0 hz.1.1
      obtain ⟨res, hres, e⟩ := Option.map_eq_some'.1 h
      rw [← e]
      exact congrArg some (preorder_loop_restores visit hz.1 _ _ _ _ _ _ hh ho (Walk_start hz hT) hres)

/-! ## The claims about the heap map -/

theorem reachable_one_key : Reachable 4 4 one_key :=
  Reachable.set 1 0 0 (Reachable.new 0 [] (by decide) (by decide))
    (show sdmap_set 1 (detail_sdmap_new_heap_impl 0 []) 4 4 0 0 = some one_key by decide)

theorem reachable_emptied : Reachable 4 4 emptied :=
  Reachable.erase 2 0 reachable_one_key
    (show detail_sdmap_erase_impl 2 (some one_key) 0 = some (some emptied) by decide)

theorem reachable_two_keys : Reachable 4 4 two_keys :=
  Reachable.set 2 1 0 reachable_one_key
    (show sdmap_set 2 one_key 4 4 1 0 = some two_keys by decide)

/-- C8 fails in the code: after `sdmap_set(0, 0)` and `sdmap_set(1, 0)` on a new
heap map the root slot 0 has the stored height 0, while
`debug_sdmap_sanity_height` gives its subtree the height 1. -/
theorem root_height_stale_after_second_set :
    Reachable 4 4 two_keys ∧
    (detail_sdmap_slot two_keys two_keys.root_slot).map (fun s => s.height) = some 0 ∧
    ∀ fuel, debug_sdmap_sanity_height (fuel + 2) two_keys two_keys.root_slot = some 1 := by
  refine ⟨reachable_two_keys, by decide, ?_⟩
  intro fuel
  rfl

theorem reachable_single (key value : Int) : Reachable 4 4 (single key value) :=
  Reachable.set 1 key value (Reachable.new 0 [] (by decide) (by decide)) rfl

theorem reachable_left_child_only : Reachable 4 4 left_child_only :=
  Reachable.set 2 0 0 (reachable_single 1 0)
    (show sdmap_set 2 (single 1 0) 4 4 0 0 = some left_child_only by decide)

theorem reachable_three_keys : Reachable 4 4 three_keys :=
  Reachable.set 3 2 30
    (Reachable.set 2 0 20 (reachable_single 1 10)
      (show sdmap_set 2 (single 1 10) 4 4 0 20 = some (root_and_left 10 20) by decide))
    (show sdmap_set 3 (root_and_left 10 20) 4 4 2 30 = some three_keys by decide)

/-- The outer loop of the in-order walk never ends at the root of the map
whose root has a left child only. -/
theorem inorder_loop_left_child_only (finner : Nat) : ∀ (fuel : Nat) (calls : List Int),
    detail_sdmap_inorder_loop (fun current => current.key) fuel finner left_child_only 0 calls
      = none
  | 0, _ => rfl
  | 1, calls => by cases finner <;> rfl
  | 2, calls => by cases finner <;> rfl
  | n + 3, calls => by
    cases finner with
    | zero => rfl
    | succ f =>
      have := inorder_loop_left_child_only (f + 1) n (calls ++ [0] ++ [1])
      rw [← this]
      rfl

/-- C13 fails in the code: in the reachable map with the keys 0 and 1,
`detail_sdmap_get_next_key_impl` of key 0 takes the smallest key of the subtree
of the slot of 0 itself and returns the key 0, not the key 1. -/
theorem next_of_smaller_of_two_is_itself :
    Reachable 4 4 two_keys ∧
    detail_sdmap_contains_impl 2 (some two_keys) 1 = some 1 ∧
    ∀ fuel, detail_sdmap_get_next_key_impl (fuel + 1) (some two_keys) 4 4 0 = some (some 0) := by
  refine ⟨reachable_two_keys, by decide, ?_⟩
  intro fuel
  rfl

/-- C14 fails in the code: in the reachable map with the keys 1 and 0,
`detail_sdmap_get_prev_key_impl` of key 1 takes the largest key of the subtree
of the slot of 1 itself and returns the key 1, not the key 0. -/
theorem prev_of_larger_of_two_is_itself :
    Reachable 4 4 left_child_only ∧
    detail_sdmap_contains_impl 2 (some left_child_only) 0 = some 1 ∧
    ∀ fuel, detail_sdmap_get_prev_key_impl (fuel + 1) (some left_child_only) 4 4 1
      = some (some 1) := by
  refine ⟨reachable_left_child_only, by decide, ?_⟩
  intro fuel
  rfl

/-- C15 fails in the code: on the reachable map whose root holds the largest
key and has a left child only, `detail_sdmap_traverse_inorder_keys_impl`
returns with no fuel: after the call for the root the walk goes to the root's
`right` link, which is the root itself, and starts over. -/
theorem inorder_keys_of_left_child_only_never_returns :
    Reachable 4 4 left_child_only ∧
    ∀ fuel, detail_sdmap_traverse_inorder_keys_impl fuel (some left_child_only) = none := by
  refine ⟨reachable_left_child_only, ?_⟩
  intro fuel
  show (detail_sdmap_inorder_loop (fun current => current.key) fuel fuel left_child_only 0
    []).map _ = none
  rw [inorder_loop_left_child_only]
  rfl

/-- C17 fails in the code: on the reachable map with the keys 1, 0, 2 and the
values 10, 20, 30, `detail_sdmap_traverse_preorder_keys_impl` calls with the
keys 1, 0, 2, while `detail_sdmap_traverse_preorder_values_impl` and
`detail_sdmap_traverse_preorder_pairs_impl` call in the order of the keys 0, 1,
2: with the values 20, 10, 30, not 10, 20, 30. -/
theorem preorder_values_are_visited_in_order :
    Reachable 4 4 three_keys ∧
    ∀ fuel,
      detail_sdmap_traverse_preorder_keys_impl (fuel + 5) (some three_keys)
        = some (some three_keys, [1, 0, 2]) ∧
      detail_sdmap_traverse_preorder_values_impl (fuel + 5) (some three_keys)
        = some (some three_keys, [20, 10, 30]) ∧
      detail_sdmap_traverse_preorder_pairs_impl (fuel + 5) (some three_keys)
        = some (some three_keys, [(0, 20), (1, 10), (2, 30)]) := by
  refine ⟨reachable_three_keys, ?_⟩
  intro fuel
  exact ⟨rfl, rfl, rfl⟩

/-- C20 fails in the code: on the allocated map `one_key`, whose capacity is 16
elements, `sdmap_reserve(map, 100)` only sets the comparison function, and
`detail_sdmap_capacity_impl` still gives 16 elements. -/
theorem reserve_on_allocated_map_keeps_capacity (garbage : List sdmap_slot) :
    sdmap_reserve (some one_key) 4 4 100 garbage = one_key ∧
    detail_sdmap_capacity_impl (some (sdmap_reserve (some one_key) 4 4 100 garbage))
      (slot_size 4 4) = 16 := by
  refine ⟨rfl, ?_⟩
  show detail_sdmap_capacity_impl (some one_key) (slot_size 4 4) = 16
  decide

/-- C3: on a reachable heap map that contains the key, the erase returns with
enough fuel, and in its result the lookup of the key returns 0 and `count` is
one less. -/
theorem erase_of_present_key_removes_it {ks vs : Nat} {m : sdmap_heap} (key : Int) (f0 : Nat)
    (hm : Reachable ks vs m)
    (hc : detail_sdmap_contains_impl f0 (some m) key = some true) :
    ∃ m' F,
      (∀ fuel, F ≤ fuel → detail_sdmap_erase_impl fuel (some m) key = some (some m')) ∧
      (∀ fuel, F ≤ fuel → detail_sdmap_contains_impl fuel (some m') key = some false) ∧
      m'.count + 1 = m.count :=
  erase_present key f0 hm hc

theorem erase_of_present_key_removes_it_witness :
    Reachable 4 4 three_keys ∧ detail_sdmap_contains_impl 2 (some three_keys) 1 = some true ∧
    ∃ m' F,
      (∀ fuel, F ≤ fuel → detail_sdmap_erase_impl fuel (some three_keys) 1 = some (some m')) ∧
      (∀ fuel, F ≤ fuel → detail_sdmap_contains_impl fuel (some m') 1 = some false) ∧
      m'.count + 1 = three_keys.count :=
  ⟨reachable_three_keys, by decide,
    erase_of_present_key_removes_it 1 2 reachable_three_keys (by decide)⟩

/-- C4: on the unallocated map and on every reachable heap map, also one
with `count` 0, the erase of a key that the lookup does not find returns the
header as it was, every field and slot of it; and whatever a first erase of a
key returns, a second erase of that key returns the same. -/
theorem erase_of_absent_key_changes_nothing {ks vs : Nat} (header : Option sdmap_heap)
    (key : Int) (hm : ∀ m, header = some m → Reachable ks vs m) :
    (∀ f0, detail_sdmap_contains_impl f0 header key = some false →
      ∃ F, ∀ fuel, F ≤ fuel → detail_sdmap_erase_impl fuel header key = some header) ∧
    (∀ f1 h1, detail_sdmap_erase_impl f1 header key = some h1 →
      ∃ F, ∀ fuel, F ≤ fuel → detail_sdmap_erase_impl fuel h1 key = some h1) := by
  have main : ∀ (m : sdmap_heap), Reachable ks vs m → ∀ f0,
      detail_sdmap_contains_impl f0 (some m) key = some false →
      ∃ F, ∀ fuel, F ≤ fuel → detail_sdmap_erase_impl fuel (some m) key = some (some m) := by
    intro m hr f0 hc
    obtain ⟨T, fl, hz, hG, hB, hF, hnd, hlt, hcnt, hsc, hcap⟩ := Inv_of_Reachable hr
    have hk : key ∉ T.keys := by
      have := contains_iff hz hB hcnt hc
      simpa using this.symm
    rcases erase_impl_spec key hz hG hB hF hnd hlt hcnt hsc hcap with ⟨-, e⟩ | ⟨hn, -⟩
    · exact ⟨_, e⟩
    · exact absurd hn hk
  cases header with
  | none =>
    refine ⟨fun _ _ => ⟨0, fun _ _ => rfl⟩, fun f1 h1 h => ?_⟩
    simp only [detail_sdmap_erase_impl, Option.some.injEq] at h
    subst h
    exact ⟨0, fun _ _ => rfl⟩
  | some m =>
    have hr := hm m rfl
    refine ⟨main m hr, fun f1 h1 h => ?_⟩
    obtain ⟨T, fl, hz, hG, hB, hF, hnd, hlt, hcnt, hsc, hcap⟩ := Inv_of_Reachable hr
    have hcs := contains_impl_spec key hz hB hcnt T.depth le_rfl
    by_cases hk : key ∈ T.keys
    · rw [decide_eq_true hk] at hcs
      obtain ⟨m', F, e, q, -⟩ := erase_present key T.depth hr hcs
      have h2 := erase_impl_mono m key _ (le_max_left f1 F) h
      rw [e _ (le_max_right _ _)] at h2
      simp only [Option.some.injEq] at h2
      subst h2
      exact main m' (Reachable.erase _ key hr (e F le_rfl)) F (q F le_rfl)
    · rw [decide_eq_false hk] at hcs
      obtain ⟨F, e⟩ := main m hr T.depth hcs
      have h2 := erase_impl_mono m key _ (le_max_left f1 F) h
      rw [e _ (le_max_right _ _)] at h2
      simp only [Option.some.injEq] at h2
      subst h2
      exact ⟨F, e⟩

theorem erase_of_absent_key_changes_nothing_witness :
    (∀ m, some three_keys = some m → Reachable 4 4 m) ∧
    (∀ f0, detail_sdmap_contains_impl f0 (some three_keys) 7 = some false →
      ∃ F, ∀ fuel, F ≤ fuel →
        detail_sdmap_erase_impl fuel (some three_keys) 7 = some (some three_keys)) ∧
    (∀ f1 h1, detail_sdmap_erase_impl f1 (some three_keys) 7 = some h1 →
      ∃ F, ∀ fuel, F ≤ fuel → detail_sdmap_erase_impl fuel h1 7 = some h1) :=
  ⟨fun _ e => Option.some.inj e ▸ reachable_three_keys,
    erase_of_absent_key_changes_nothing (some three_keys) 7
      (fun _ e => Option.some.inj e ▸ reachable_three_keys)⟩

/-- C6: in every heap map that the inserts, erases and compactions reach from a new map,
the keys read in order from `root_slot` through the `left` and `right` links
are strictly increasing, and there are `count` of them. -/
theorem keys_in_order_strictly_increase {ks vs : Nat} {m : sdmap_heap}
    (hm : Reachable ks vs m) :
    ∃ keys F, (∀ fuel, F ≤ fuel → map_keys fuel m = some keys) ∧
      keys.Pairwise (· < ·) ∧ keys.length = m.count := by
  obtain ⟨T, fl, hz, hG, hB, hF, hnd, hlt, hcnt, hsc, hcap⟩ := Inv_of_Reachable hm
  refine ⟨T.keys, T.depth, fun fuel hf => ?_, hB, by rw [hcnt, idx_length_keys]⟩
  unfold map_keys
  by_cases h0 : m.count = 0
  · rw [if_pos ((root_NONE_iff hz hcnt (lt_of_append hlt) hcap).2 h0)]
    have hT : T = .nil := by
      cases T with
      | nil => rfl
      | node l i k v h r => rw [h0] at hcnt; simp [Tree.idx] at hcnt; omega
    subst hT; rfl
  · rw [if_neg (fun e => h0 ((root_NONE_iff hz hcnt (lt_of_append hlt) hcap).1 e))]
    have hT := T_ne_nil hcnt h0
    rw [root_lnk hz hT]
    exact inorder_keys_rep T _ hz.1.2 (ZOK_nodup hz) hT fuel hf

theorem keys_in_order_strictly_increase_witness :
    Reachable 4 4 three_keys ∧
    ∃ keys F, (∀ fuel, F ≤ fuel → map_keys fuel three_keys = some keys) ∧
      keys.Pairwise (· < ·) ∧ keys.length = three_keys.count :=
  ⟨reachable_three_keys, keys_in_order_strictly_increase reachable_three_keys⟩

/-- C7: in every heap map that the inserts, erases and compactions reach from a new map,
every live slot is balanced by the heights that the links give: the height of
its right side minus the height of its left side lies in [-1, 1]. -/
theorem live_slots_are_balanced {ks vs : Nat} {m : sdmap_heap} (i : Nat)
    (hm : Reachable ks vs m) (hi : Live m i) :
    ∃ F, ∀ fuel, F ≤ fuel → ∃ b, structural_balance fuel m i = some b ∧ -1 ≤ b ∧ b ≤ 1 := by
  obtain ⟨T, fl, hz, hG, hB, hF, hnd, hlt, hcnt, hsc, hcap⟩ := Inv_of_Reachable hm
  have hmem := Live_mem hz hcnt (lt_of_append hlt) hcap hi
  exact ⟨T.depth, fun fuel hf =>
    balance_in T _ hz.1.2 (ZOK_nodup hz) (AVL_of_Good hG) i hmem fuel hf⟩

theorem live_slots_are_balanced_witness :
    Reachable 4 4 three_keys ∧ Live three_keys 0 ∧
    ∃ F, ∀ fuel, F ≤ fuel →
      ∃ b, structural_balance fuel three_keys 0 = some b ∧ -1 ≤ b ∧ b ≤ 1 :=
  ⟨reachable_three_keys, Live.root (by decide),
    live_slots_are_balanced 0 reachable_three_keys (Live.root (by decide))⟩

/-- C9: in every heap map that the inserts, erases and compactions reach from a new map,
the `parent` field of a live slot is `NONE` exactly in the slot `root_slot`;
the `parent` field of every other live slot names a live slot whose `left` or
`right` field is the index of the slot; `root_slot` is live when `count` is
not 0, and `root_slot` is `NONE` exactly when `count` is 0. -/
theorem parent_links_name_the_parent {ks vs : Nat} {m : sdmap_heap}
    (hm : Reachable ks vs m) :
    (∀ i, Live m i → ∃ s, detail_sdmap_slot m i = some s ∧
      (s.parent = NONE ↔ i = m.root_slot) ∧
      (i ≠ m.root_slot → Live m s.parent ∧
        ∃ p, detail_sdmap_slot m s.parent = some p ∧ (p.left = i ∨ p.right = i))) ∧
    (m.count ≠ 0 → Live m m.root_slot) ∧
    (m.root_slot = NONE ↔ m.count = 0) := by
  obtain ⟨T, fl, hz, hG, hB, hF, hnd, hlt, hcnt, hsc, hcap⟩ := Inv_of_Reachable hm
  have hlt' := lt_of_append hlt
  have hroot := root_NONE_iff hz hcnt hlt' hcap
  refine ⟨fun i hi => ?_, fun h0 => Live.root (fun e => h0 (hroot.1 e)), hroot⟩
  have hmem := Live_mem hz hcnt hlt' hcap hi
  have hT : T ≠ .nil := by
    intro e; subst e; simp [Tree.idx] at hmem
  have hr := root_lnk hz hT
  obtain ⟨hv, -, -⟩ := links_in T _ hz.1.2 (ZOK_nodup hz) i hmem
  refine ⟨get m i, slot_eq_some hv, ?_⟩
  rcases parent_in T _ hz.1.2 (ZOK_nodup hz) i hmem with ⟨e, p⟩ | ⟨ne, p, q⟩
  · rw [hr]
    exact ⟨⟨fun _ => e, fun _ => p⟩, fun h => absurd e h⟩
  · rw [hr]
    refine ⟨⟨fun e => ?_, fun e => absurd e ne⟩, fun _ => ⟨mem_Live hz hlt' hcap p, ?_⟩⟩
    · rw [e] at p
      exact absurd p (NONE_not_mem hlt' hcap)
    · obtain ⟨hv2, -, -⟩ := links_in T _ hz.1.2 (ZOK_nodup hz) _ p
      exact ⟨_, slot_eq_some hv2, q⟩

theorem parent_links_name_the_parent_witness :
    Reachable 4 4 three_keys ∧
    ((∀ i, Live three_keys i → ∃ s, detail_sdmap_slot three_keys i = some s ∧
      (s.parent = NONE ↔ i = three_keys.root_slot) ∧
      (i ≠ three_keys.root_slot → Live three_keys s.parent ∧
        ∃ p, detail_sdmap_slot three_keys s.parent = some p ∧ (p.left = i ∨ p.right = i))) ∧
    (three_keys.count ≠ 0 → Live three_keys three_keys.root_slot) ∧
    (three_keys.root_slot = NONE ↔ three_keys.count = 0)) :=
  ⟨reachable_three_keys, parent_links_name_the_parent reachable_three_keys⟩

/-- C11: in every heap map that the inserts, erases and compactions reach from a new map,
the number of slots that `debug_sdmap_sanity_count_helper` counts from
`root_slot` is `count`, so that `debug_sdmap_sanity_count` returns 0; with
`root_slot` equal to `NONE` the count is 0. -/
theorem count_is_number_of_tree_slots {ks vs : Nat} {m : sdmap_heap}
    (hm : Reachable ks vs m) :
    (m.root_slot = NONE → m.count = 0) ∧
    (m.root_slot ≠ NONE → ∃ F, ∀ fuel, F ≤ fuel →
      debug_sdmap_sanity_count_helper fuel m m.root_slot = some m.count) ∧
    ∃ F, ∀ fuel, F ≤ fuel → debug_sdmap_sanity_count fuel (some m) = some 0 := by
  obtain ⟨T, fl, hz, hG, hB, hF, hnd, hlt, hcnt, hsc, hcap⟩ := Inv_of_Reachable hm
  have hroot := root_NONE_iff hz hcnt (lt_of_append hlt) hcap
  have key : m.root_slot ≠ NONE → ∀ fuel, T.depth ≤ fuel →
      debug_sdmap_sanity_count_helper fuel m m.root_slot = some m.count := by
    intro hne fuel hf
    have hT := T_ne_nil hcnt (fun e => hne (hroot.2 e))
    rw [root_lnk hz hT, hcnt]
    exact count_helper_rep T _ hz.1.2 (ZOK_nodup hz) hT fuel hf
  refine ⟨hroot.1, fun hne => ⟨T.depth, key hne⟩, T.depth, fun fuel hf => ?_⟩
  unfold debug_sdmap_sanity_count
  by_cases h0 : m.root_slot = NONE
  · simp [h0]
  · simp [h0, key h0 fuel hf]

theorem count_is_number_of_tree_slots_witness :
    Reachable 4 4 three_keys ∧
    ((three_keys.root_slot = NONE → three_keys.count = 0) ∧
    (three_keys.root_slot ≠ NONE → ∃ F, ∀ fuel, F ≤ fuel →
      debug_sdmap_sanity_count_helper fuel three_keys three_keys.root_slot
        = some three_keys.count) ∧
    ∃ F, ∀ fuel, F ≤ fuel → debug_sdmap_sanity_count fuel (some three_keys) = some 0) :=
  ⟨reachable_three_keys, count_is_number_of_tree_slots reachable_three_keys⟩

/-- C12: on a reachable heap map with `count` not 0,
`detail_sdmap_get_min_key_impl` returns a key that the lookup finds and that
is at most every key that the lookup finds, and
`detail_sdmap_get_max_key_impl` one that is at least every such key; both
return `NULL` on the unallocated map and on a map with `count` 0. -/
theorem min_and_max_key_are_extreme {ks vs : Nat} {m : sdmap_heap}
    (hm : Reachable ks vs m) :
    (m.count ≠ 0 → ∃ kmin kmax F,
      (∀ fuel, F ≤ fuel →
        detail_sdmap_get_min_key_impl fuel (some m) = some (some kmin) ∧
        detail_sdmap_get_max_key_impl fuel (some m) = some (some kmax) ∧
        detail_sdmap_contains_impl fuel (some m) kmin = some true ∧
        detail_sdmap_contains_impl fuel (some m) kmax = some true) ∧
      ∀ k f, detail_sdmap_contains_impl f (some m) k = some true → kmin ≤ k ∧ k ≤ kmax) ∧
    (m.count = 0 → ∀ fuel, detail_sdmap_get_min_key_impl fuel (some m) = some none ∧
      detail_sdmap_get_max_key_impl fuel (some m) = some none) ∧
    (∀ fuel, detail_sdmap_get_min_key_impl fuel none = some none ∧
      detail_sdmap_get_max_key_impl fuel none = some none) := by
  obtain ⟨T, fl, hz, hG, hB, hF, hnd, hlt, hcnt, hsc, hcap⟩ := Inv_of_Reachable hm
  refine ⟨fun h0 => ?_, fun h0 fuel => ?_, fun fuel => ⟨rfl, rfl⟩⟩
  · have hT := T_ne_nil hcnt h0
    have hr := root_lnk hz hT
    obtain ⟨kmin, r1, e1, -⟩ := min_key_loop_rep T _ hz.1.2 (ZOK_nodup hz) hT T.depth le_rfl
    obtain ⟨kmax, r2, e2, -⟩ := max_key_loop_rep T _ hz.1.2 (ZOK_nodup hz) hT T.depth le_rfl
    have hmin : kmin ∈ T.keys := by rw [e1]; exact List.mem_cons_self _ _
    have hmax : kmax ∈ T.keys := by rw [e2]; simp
    refine ⟨kmin, kmax, T.depth, fun fuel hf => ⟨?_, ?_, ?_, ?_⟩, fun k f hk => ?_⟩
    · obtain ⟨k0, r0, a, b⟩ := min_key_loop_rep T _ hz.1.2 (ZOK_nodup hz) hT fuel hf
      rw [e1] at a
      obtain ⟨rfl, -⟩ := List.cons.inj a
      simp only [detail_sdmap_get_min_key_impl, h0, if_false, hr, b, Option.map_some']
    · obtain ⟨k0, r0, a, b⟩ := max_key_loop_rep T _ hz.1.2 (ZOK_nodup hz) hT fuel hf
      rw [e2] at a
      obtain ⟨-, e3⟩ := List.append_inj' a rfl
      obtain rfl : kmax = k0 := by simpa using e3
      simp only [detail_sdmap_get_max_key_impl, h0, if_false, hr, b, Option.map_some']
    · rw [contains_impl_spec kmin hz hB hcnt fuel hf, decide_eq_true hmin]
    · rw [contains_impl_spec kmax hz hB hcnt fuel hf, decide_eq_true hmax]
    · have hk' : k ∈ T.keys := by
        have := contains_iff hz hB hcnt hk
        simpa using this.symm
      constructor
      · have hp := hB; unfold BST at hp; rw [e1] at hp hk'
        rcases List.mem_cons.1 hk' with rfl | hx
        · exact le_rfl
        · exact le_of_lt ((List.pairwise_cons.1 hp).1 _ hx)
      · have hp := hB; unfold BST at hp; rw [e2] at hp hk'
        rcases List.mem_append.1 hk' with hx | hx
        · exact le_of_lt ((List.pairwise_append.1 hp).2.2 _ hx _ (List.mem_singleton_self _))
        · rw [List.mem_singleton.1 hx]
  · simp [detail_sdmap_get_min_key_impl, detail_sdmap_get_max_key_impl, h0]

theorem min_and_max_key_are_extreme_witness :
    Reachable 4 4 three_keys ∧
    ((three_keys.count ≠ 0 → ∃ kmin kmax F,
      (∀ fuel, F ≤ fuel →
        detail_sdmap_get_min_key_impl fuel (some three_keys) = some (some kmin) ∧
        detail_sdmap_get_max_key_impl fuel (some three_keys) = some (some kmax) ∧
        detail_sdmap_contains_impl fuel (some three_keys) kmin = some true ∧
        detail_sdmap_contains_impl fuel (some three_keys) kmax = some true) ∧
      ∀ k f, detail_sdmap_contains_impl f (some three_keys) k = some true →
        kmin ≤ k ∧ k ≤ kmax) ∧
    (three_keys.count = 0 → ∀ fuel,
      detail_sdmap_get_min_key_impl fuel (some three_keys) = some none ∧
      detail_sdmap_get_max_key_impl fuel (some three_keys) = some none) ∧
    (∀ fuel, detail_sdmap_get_min_key_impl fuel none = some none ∧
      detail_sdmap_get_max_key_impl fuel none = some none)) :=
  ⟨reachable_three_keys, min_and_max_key_are_extreme reachable_three_keys⟩

/-- C21: on the unallocated map the count and the capacity are 0, the lookup
returns 0 for every key, the smallest, largest and root key and the next and
previous of every key are `NULL`, and the erase, the delete and the in-order
traversal return at once, with no call of the callback; the header is still
`NULL` after each of them. -/
theorem queries_on_unallocated_map (fuel ssize key_size value_size : Nat) (key : Int) :
    detail_sdmap_count_impl none = 0 ∧
    detail_sdmap_capacity_impl none ssize = 0 ∧
    detail_sdmap_contains_impl fuel none key = some false ∧
    detail_sdmap_get_min_key_impl fuel none = some none ∧
    detail_sdmap_get_max_key_impl fuel none = some none ∧
    detail_sdmap_get_root_key_impl none = some none ∧
    detail_sdmap_get_next_impl fuel none key = some none ∧
    detail_sdmap_get_next_key_impl fuel none key_size value_size key = some none ∧
    detail_sdmap_get_prev_impl fuel none key = some none ∧
    detail_sdmap_get_prev_key_impl fuel none key_size value_size key = some none ∧
    detail_sdmap_erase_impl fuel none key = some none ∧
    detail_sdmap_delete_impl none = none ∧
    detail_sdmap_traverse_inorder_keys_impl fuel none = some (none, []) ∧
    detail_sdmap_traverse_inorder_values_impl fuel none = some (none, []) ∧
    detail_sdmap_traverse_inorder_pairs_impl fuel none = some (none, []) :=
  ⟨rfl, rfl, rfl, rfl, rfl, rfl, rfl, rfl, rfl, rfl, rfl, rfl, rfl, rfl, rfl⟩

/-- C22 fails in the code, for every number N >= 1 of elements of a stack
map of keys and values of `key_size` and `value_size` bytes. The argument
`capacity` counts elements and the assertion compares it with bytes: when N is
less than the slot size the first insert into the new map fails the assertion
"sdmap_stack capacity exceeded". Otherwise the first insert returns, and it
leaves `root_slot` at `NONE`, so that the insert of a second key reads the
slot `NONE` outside the block, with any fuel. -/
theorem stack_map_of_n_elements_takes_no_second_key (key_size value_size : Nat)
    (garbage : List sdmap_slot) (key1 key2 : Int) (hN : 1 ≤ garbage.length)
    (h32 : garbage.length < 4294967296) :
    (garbage.length < slot_size key_size value_size →
      ∀ fuel, detail_sdmap_set_stack_impl fuel (detail_sdmap_new_stack_impl garbage)
        key_size value_size key1 garbage.length = .capacity_exceeded) ∧
    (slot_size key_size value_size ≤ garbage.length →
      ∃ m1, (∀ fuel, detail_sdmap_set_stack_impl fuel (detail_sdmap_new_stack_impl garbage)
          key_size value_size key1 garbage.length = .done (m1, 0)) ∧
        m1.count = 1 ∧ m1.root_slot = NONE ∧
        ∀ fuel, detail_sdmap_set_stack_impl fuel m1 key_size value_size key2 garbage.length
          = .fault) := by
  constructor
  · intro h fuel
    simp [detail_sdmap_set_stack_impl, detail_sdmap_new_stack_impl, Nat.not_le.2 h]
  · intro h
    obtain ⟨s, rest, hg⟩ : ∃ s rest, garbage = s :: rest := by
      cases garbage with
      | nil => simp at hN
      | cons s rest => exact ⟨s, rest, rfl⟩
    subst hg
    refine ⟨(⟨0, 1, 1, NONE, NONE,
        { s with left := 0, right := 0, height := 0, key := key1 } :: rest⟩ : sdmap_heap),
      fun fuel => ?_, ?_, ?_, fun fuel => ?_⟩
    · simp only [detail_sdmap_set_stack_impl, detail_sdmap_new_stack_impl, and_self, if_true,
        if_pos h, store, List.getElem?_cons_zero, List.set_cons_zero]
    · rfl
    · rfl
    · have hnone : (({ s with left := 0, right := 0, height := 0, key := key1 } :: rest) :
          List sdmap_slot)[NONE]? = none := by
        apply List.getElem?_eq_none
        simp only [List.length_cons, NONE] at h32 ⊢
        omega
      cases fuel with
      | zero => rfl
      | succ n =>
        simp only [detail_sdmap_set_stack_impl, Nat.zero_add, one_ne_zero, and_self, if_false,
          detail_sdmap_set_stack_loop, detail_sdmap_slot, hnone]

theorem stack_map_of_n_elements_takes_no_second_key_witness :
    1 ≤ (List.replicate 2 fresh_slot).length ∧
    (List.replicate 2 fresh_slot).length < 4294967296 ∧
    ((List.replicate 2 fresh_slot).length < slot_size 4 4 →
      ∀ fuel, detail_sdmap_set_stack_impl fuel
        (detail_sdmap_new_stack_impl (List.replicate 2 fresh_slot))
        4 4 0 (List.replicate 2 fresh_slot).length = .capacity_exceeded) ∧
    (slot_size 4 4 ≤ (List.replicate 2 fresh_slot).length →
      ∃ m1, (∀ fuel, detail_sdmap_set_stack_impl fuel
          (detail_sdmap_new_stack_impl (List.replicate 2 fresh_slot))
          4 4 0 (List.replicate 2 fresh_slot).length = .done (m1, 0)) ∧
        m1.count = 1 ∧ m1.root_slot = NONE ∧
        ∀ fuel, detail_sdmap_set_stack_impl fuel m1 4 4 1
          (List.replicate 2 fresh_slot).length = .fault) :=
  ⟨by decide, by decide,
    stack_map_of_n_elements_takes_no_second_key 4 4 (List.replicate 2 fresh_slot) 0 1
      (by decide) (by decide)⟩

/-- C23 fails in the code: the map that `detail_sdhmap_new_heap_impl` makes
for 0 slots has the byte capacity 0, and on it `sdhmap_set` returns with no
fuel, for any key and value: the loop of `detail_sdhmap_heap_realloc` doubles
the capacity 0 and never reaches the size that is needed. No lookup follows
the call. -/
theorem set_on_table_without_slots_never_returns (hash_func : Int → Nat) (slot_size : Nat) :
    sdhmap_reachable hash_func slot_size empty_table ∧
    ∀ (fuel : Nat) (key value : Int) (garbage : List (Int × Int)),
      sdhmap_set fuel hash_func empty_table slot_size key value garbage = none := by
  refine ⟨reachable_empty_table hash_func slot_size, fun fuel key value garbage => ?_⟩
  have h := resize_of_empty_table fuel hash_func slot_size 15 garbage
  simp only [sdhmap_set, detail_sdhmap_set_heap_impl, SDHMAP_DEFAULT_CAPACITY]
  have e : empty_table.slot_count = 0 := rfl
  simp only [e, or_true, if_true, h]
  rfl

/-- C24 fails in the code: in the reachable map of 2 slots that holds the
keys 0 and 1 the list of empty slots is empty, and `detail_sdhmap_erase_impl`
of the key 0, which the lookup finds, has no result with any fuel:
`detail_sdhmap_erase_at` writes the field `prev` of the slot `empty_slot`,
which is `NONE`, outside the block. -/
theorem erase_from_full_table_writes_outside :
    sdhmap_reachable hash_identity 20 full_table_of_2 ∧
    full_table_of_2.empty_slot = NONE ∧
    (∀ fuel, detail_sdhmap_contains_impl (fuel + 1) hash_identity (some full_table_of_2) 0
      = some true) ∧
    detail_sdhmap_erase_at full_table_of_2 0 0 = none ∧
    ∀ fuel, detail_sdhmap_erase_impl fuel hash_identity (some full_table_of_2) 0 = none := by
  refine ⟨reachable_full_table_of_2, rfl, fun fuel => rfl, by decide, fun fuel => ?_⟩
  cases fuel with
  | zero => rfl
  | succ n => rfl

/-- C25 fails in the code: in the reachable map `chain_of_two` the keys 0 and
16 are in the chain of the bucket 0, the key 0 at its head and the key 16 at
its tail. `detail_sdhmap_insert_to_list` has left the field `prev` of the slot
of 16 at `NONE`, so `detail_sdhmap_erase_at` takes it for the head of the
chain and empties the bucket: after the erase of 16 the lookup of 0 returns 0
and `detail_sdhmap_getp_impl` returns `NULL`. -/
theorem erase_of_chain_tail_loses_chain_head :
    sdhmap_reachable hash_identity 20 chain_of_two ∧
    (∀ fuel, detail_sdhmap_contains_impl (fuel + 2) hash_identity (some chain_of_two) 0
      = some true) ∧
    (∀ fuel, detail_sdhmap_contains_impl (fuel + 2) hash_identity (some chain_of_two) 16
      = some true) ∧
    sdhmap_chain 3 chain_of_two 0 = some [0, 1] ∧
    (∀ fuel, detail_sdhmap_erase_impl (fuel + 2) hash_identity (some chain_of_two) 16
      = some (some chain_lost)) ∧
    (∀ fuel, detail_sdhmap_contains_impl fuel hash_identity (some chain_lost) 0
      = some false) ∧
    ∀ fuel, detail_sdhmap_getp_impl fuel hash_identity (some chain_lost) 0 = some none :=
  ⟨reachable_chain_of_two, fun _ => rfl, fun _ => rfl, by decide, fun _ => rfl,
    fun _ => rfl, fun _ => rfl⟩

/-- C28 fails in the code: in the reachable map `chain_lost`, made by the
erase of the tail of the chain of the bucket 0, the list of empty slots holds
the slots 1, ..., 15 and no bucket has a chain: the slot 0, below
`slot_count`, is in neither of the two sets. -/
theorem erased_chain_tail_leaves_slot_in_neither_list :
    sdhmap_reachable hash_identity 20 chain_lost ∧
    (∀ fuel, sdhmap_free_list (fuel + 16) chain_lost
      = some [1, 2, 3, 4, 5, 6, 7, 8, 9, 10, 11, 12, 13, 14, 15]) ∧
    (∀ fuel, sdhmap_chains (fuel + 1) chain_lost = some []) ∧
    0 < chain_lost.slot_count ∧ chain_lost.count = 1 :=
  ⟨reachable_chain_lost, fun _ => rfl, fun _ => rfl, by decide, rfl⟩

/-- C29 fails in the code: on the reachable map made for 0 slots, whose byte
capacity is 0, `detail_sdhmap_heap_resize` to any target of at least 1
returns with no fuel: the loop of `detail_sdhmap_heap_realloc` doubles the
capacity 0 for ever. -/
theorem resize_of_table_without_slots_never_returns (hash_func : Int → Nat)
    (slot_size : Nat) :
    sdhmap_reachable hash_func slot_size empty_table ∧
    empty_table.count = 0 ∧
    ∀ (fuel target : Nat) (garbage : List (Int × Int)),
      detail_sdhmap_heap_resize fuel hash_func empty_table slot_size (target + 1) garbage
        = none :=
  ⟨reachable_empty_table hash_func slot_size, rfl,
    fun fuel target garbage => resize_of_empty_table fuel hash_func slot_size target garbage⟩

/-- C30 fails in the code: `detail_sdhmap_new_heap_impl` for 0 slots makes the
map `empty_table` with `slot_count` 0 and the byte capacity 0. On it
`detail_sdhmap_set_heap_impl` calls the resize to 16 slots, and the loop of
`detail_sdhmap_heap_realloc`, `while (capacity < needed) capacity *= 2`, does
not end from the capacity 0: the insert-or-get returns with no fuel. -/
theorem first_insert_into_table_without_slots_never_returns (hash_func : Int → Nat)
    (slot_size : Nat) :
    detail_sdhmap_new_heap_impl 0 slot_size [] = some empty_table ∧
    empty_table.slot_count = 0 ∧ empty_table.capacity = 0 ∧
    (∀ fuel needed : Nat, detail_sdhmap_heap_realloc_loop fuel 0 (needed + 1) = none) ∧
    (∀ (fuel : Nat) (garbage : List (Int × Int)),
      detail_sdhmap_heap_resize fuel hash_func empty_table slot_size SDHMAP_DEFAULT_CAPACITY
        garbage = none) ∧
    ∀ (fuel : Nat) (key : Int) (garbage : List (Int × Int)),
      detail_sdhmap_set_heap_impl fuel hash_func empty_table slot_size key garbage = none := by
  refine ⟨by simp [detail_sdhmap_new_heap_impl, detail_sdhmap_new_stack_impl, empty_table],
    rfl, rfl, fun fuel needed => heap_realloc_loop_of_zero needed fuel,
    fun fuel garbage => resize_of_empty_table fuel hash_func slot_size 15 garbage,
    fun fuel key garbage => ?_⟩
  have h := resize_of_empty_table fuel hash_func slot_size 15 garbage
  simp only [detail_sdhmap_set_heap_impl, SDHMAP_DEFAULT_CAPACITY]
  have e : empty_table.slot_count = 0 := rfl
  simp only [e, or_true, if_true, h]
  rfl

/-- C27: in every heap hash map that the construction, the inserts, the
erases and the resizes reach, `used_bucket_count` is the number of the buckets
whose head is not `NONE`, and it is at most `count`. -/
theorem used_bucket_count_is_number_of_used_buckets {hash_func : Int → Nat}
    {slot_size : Nat} {m : sdhmap_heap} (hm : sdhmap_reachable hash_func slot_size m) :
    m.used_bucket_count = sdhmap_used_buckets m ∧ m.used_bucket_count ≤ m.count :=
  used_le_count (HInv_of_reachable hm)

theorem used_bucket_count_is_number_of_used_buckets_witness :
    sdhmap_reachable hash_identity 20 chain_lost ∧
    chain_lost.used_bucket_count = sdhmap_used_buckets chain_lost ∧
    chain_lost.used_bucket_count ≤ chain_lost.count :=
  ⟨reachable_chain_lost, used_bucket_count_is_number_of_used_buckets reachable_chain_lost⟩

theorem inorder_nodes_rep {m : sdmap_heap} : ∀ (t : Tree) (o : Nat), Rep m t o → t.idx.Nodup →
    t ≠ .nil → ∀ fuel, t.depth ≤ fuel → inorder_nodes fuel m (t.lnk 0) = some t.triples
  | .nil, _, _, _, ht, _, _ => absurd rfl ht
  | .node l i k v h r, o, hR, hnd, _, fuel, hf => by
    obtain ⟨hs, hk, hl, hr, hln, hrn, nl, nr⟩ := node_links hR hnd
    obtain ⟨n, rfl⟩ : ∃ n, fuel = n + 1 := ⟨fuel - 1, by simp [Tree.depth] at hf; omega⟩
    simp only [Tree.depth] at hf
    have hG := Rep_get hR
    rw [inorder_nodes, lnk_node, hs]
    simp only [hl, hr]
    have e1 : (if l.lnk i ≠ i then inorder_nodes n m (l.lnk i) else some []) =
        some l.triples := by
      by_cases hl0 : l = .nil
      · subst hl0; simp [Tree.triples]
      · rw [if_pos (hln.2 hl0), lnk_eq0 hl0]
        exact inorder_nodes_rep l i hR.2.2.1 nl hl0 n (by omega)
    have e2 : (if r.lnk i ≠ i then inorder_nodes n m (r.lnk i) else some []) =
        some r.triples := by
      by_cases hr0 : r = .nil
      · subst hr0; simp [Tree.triples]
      · rw [if_pos (hrn.2 hr0), lnk_eq0 hr0]
        exact inorder_nodes_rep r i hR.2.2.2 nr hr0 n (by omega)
    rw [e1, e2, hG]
    rfl

theorem map_nodes_rep {ks vs : Nat} {m : sdmap_heap} {T : Tree} (hz : ZOK m [] T)
    (hcnt : m.count = T.idx.length) (hlt : ∀ j ∈ T.idx, j < m.slot_count) (hcap : CapOK ks vs m)
    (fuel : Nat) (hf : T.depth ≤ fuel) : map_nodes fuel m = some T.triples := by
  unfold map_nodes
  by_cases h0 : m.count = 0
  · rw [if_pos ((root_NONE_iff hz hcnt hlt hcap).2 h0)]
    have hT : T = .nil := by
      cases T with
      | nil => rfl
      | node l i k v h r => rw [h0] at hcnt; simp [Tree.idx] at hcnt; omega
    subst hT; rfl
  · rw [if_neg (fun e => h0 ((root_NONE_iff hz hcnt hlt hcap).1 e))]
    have hT := T_ne_nil hcnt h0
    rw [root_lnk hz hT]
    exact inorder_nodes_rep T _ hz.1.2 (ZOK_nodup hz) hT fuel hf

theorem empty_slots_walk_rep {m : sdmap_heap} : ∀ (fl : List Nat) (e : Nat), FreeL m e fl →
    ∀ fuel, fl.length < fuel → empty_slots_walk fuel m e = some fl
  | [], e, h, fuel, hf => by
    obtain ⟨n, rfl⟩ : ∃ n, fuel = n + 1 := ⟨fuel - 1, by simp at hf; omega⟩
    have : e = NONE := h
    rw [empty_slots_walk, if_pos this]
  | i :: fl, e, ⟨h1, h2, h3, _, h5⟩, fuel, hf => by
    obtain ⟨n, rfl⟩ : ∃ n, fuel = n + 1 := ⟨fuel - 1, by simp at hf; omega⟩
    subst h1
    rw [empty_slots_walk, if_neg h2, slot_eq_some h3]
    simp only
    rw [empty_slots_walk_rep fl _ h5 n (by simp at hf; omega)]
    rfl

theorem sanity_empty_count_loop_rep {m : sdmap_heap} : ∀ (fl : List Nat) (e : Nat),
    FreeL m e fl → ∀ fuel count, fl.length < fuel → count + fl.length < 4294967296 →
    debug_sdmap_sanity_empty_count_loop fuel m e count =
      some (if (count + fl.length + m.count) % 4294967296 ≠ m.slot_count then 1 else 0)
  | [], e, h, fuel, count, hf, _ => by
    obtain ⟨n, rfl⟩ : ∃ n, fuel = n + 1 := ⟨fuel - 1, by simp at hf; omega⟩
    have : e = NONE := h
    rw [debug_sdmap_sanity_empty_count_loop, if_pos this]
    rfl
  | i :: fl, e, ⟨h1, h2, h3, h4, h5⟩, fuel, count, hf, hc => by
    obtain ⟨n, rfl⟩ : ∃ n, fuel = n + 1 := ⟨fuel - 1, by simp at hf; omega⟩
    subst h1
    simp only [List.length_cons] at hf hc
    rw [debug_sdmap_sanity_empty_count_loop, if_neg h2, slot_eq_some h3]
    simp only
    rw [if_neg (by omega), Nat.mod_eq_of_lt (by omega),
      sanity_empty_count_loop_rep fl _ h5 n (count + 1) (by omega) (by omega)]
    simp only [List.length_cons]
    rw [show count + 1 + fl.length = count + (fl.length + 1) by omega]

/-- The `parent` field of the child that a `left` or `right` link names is
the index of the slot with the link. -/
theorem child_in {m : sdmap_heap} : ∀ (t : Tree) (o : Nat), Rep m t o → t.idx.Nodup →
    ∀ i ∈ t.idx, ((get m i).left ≠ i → (get m (get m i).left).parent = i) ∧
      ((get m i).right ≠ i → (get m (get m i).right).parent = i)
  | .nil, _, _, _, i, hi => by simp [Tree.idx] at hi
  | .node l j k v h r, o, hR, hnd, i, hi => by
    obtain ⟨hs, hk, hl, hr, hln, hrn, nl, nr⟩ := node_links hR hnd
    simp only [Tree.idx, List.mem_append, List.mem_cons] at hi
    rcases hi with hi | rfl | hi
    · exact child_in l j hR.2.2.1 nl i hi
    · constructor
      · intro hne
        rw [hl] at hne ⊢
        cases l with
        | nil => exact absurd rfl hne
        | node a x _ _ _ b => rw [lnk_node, Rep_get hR.2.2.1]
      · intro hne
        rw [hr] at hne ⊢
        cases r with
        | nil => exact absurd rfl hne
        | node a x _ _ _ b => rw [lnk_node, Rep_get hR.2.2.2]
    · exact child_in r j hR.2.2.2 nr i hi

theorem reachable_hole_below_top : Reachable 4 4 hole_below_top :=
  Reachable.erase 10 0 reachable_three_keys
    (show detail_sdmap_erase_impl 10 (some three_keys) 0 = some (some hole_below_top) by decide)

/-- The compaction on a reachable map: the map that it returns and the trees
before and after. -/
theorem optimize_reachable {ks vs : Nat} {m : sdmap_heap} (hm : Reachable ks vs m) :
    ∃ m' T T', detail_sdmap_optimize_impl m = some m' ∧
      ZOK m [] T ∧ m.count = T.idx.length ∧ (∀ j ∈ T.idx, j < m.slot_count) ∧ CapOK ks vs m ∧
      ZOK m' [] T' ∧ m'.count = T'.idx.length ∧ (∀ j ∈ T'.idx, j < m'.slot_count) ∧
      CapOK ks vs m' ∧ T'.shape = T.shape ∧
      m'.count = m.count ∧ m'.slot_count = m'.count ∧ m'.empty_slot = NONE := by
  obtain ⟨T, fl, hz, hG, hB, hF, hnd, hlt, hcnt, hsum, hcap⟩ := Inv_of_Reachable hm
  obtain ⟨m', T', e, hz', hsh, hb, hlen, c1, c2, c3, -, -, -⟩ :=
    optimize_impl_spec hz hG hF hnd hlt hcnt hsum hcap.2.1 (not_valid_NONE hcap)
  obtain ⟨-, -, -, -, -, -, -, -, -, -, hcap'⟩ := Inv_of_Reachable (Reachable.optimize hm e)
  exact ⟨m', T, T', e, hz, hcnt, lt_of_append hlt, hcap, hz', by rw [c1, hlen],
    fun j hj => by rw [c2]; exact hb j hj, hcap', hsh, c1, by rw [c2, c1], c3⟩

/-- C10: in every heap map that the inserts, erases and compactions reach
from a new map, the walk of the `right` links from `empty_slot` ends at `NONE`
with enough fuel; the slots that it visits are pairwise distinct, lie below
`slot_count`, have a negative height and are not live; every slot below
`slot_count` is live or visited; `count` plus their number is `slot_count`;
and `debug_sdmap_sanity_empty_count` returns 0. -/
theorem empty_slots_partition_the_slots {ks vs : Nat} {m : sdmap_heap}
    (hm : Reachable ks vs m) :
    ∃ fl F, (∀ fuel, F ≤ fuel → empty_slots_walk fuel m m.empty_slot = some fl ∧
        debug_sdmap_sanity_empty_count fuel (some m) = some 0) ∧
      fl.Nodup ∧
      (∀ j ∈ fl, j < m.slot_count ∧ (∃ s, detail_sdmap_slot m j = some s ∧ s.height < 0) ∧
        ¬ Live m j) ∧
      (∀ j, j < m.slot_count → Live m j ∨ j ∈ fl) ∧
      m.count + fl.length = m.slot_count ∧ m.count ≤ m.slot_count := by
  obtain ⟨T, fl, hz, hG, hB, hF, hnd, hlt, hcnt, hsum, hcap⟩ := Inv_of_Reachable hm
  obtain ⟨ndT, ndf, hdis⟩ := List.nodup_append.1 hnd
  have hlen : m.slots.length < 4294967296 := by
    obtain ⟨h1, _, h3⟩ := hcap
    have : m.capacity / slot_size ks vs ≤ m.capacity := Nat.div_le_self _ _
    omega
  have hsl := hcap.2.1
  refine ⟨fl, fl.length + 1, fun fuel hf => ⟨empty_slots_walk_rep fl _ hF fuel (by omega), ?_⟩,
    ndf, fun j hj => ⟨hlt j (List.mem_append_right _ hj), ?_, ?_⟩, fun j hj => ?_, hsum,
    by omega⟩
  · unfold debug_sdmap_sanity_empty_count
    simp only
    have hne : ¬ (m.empty_slot = NONE ∧ m.count ≠ m.slot_count) := by
      rintro ⟨h1, h2⟩
      cases fl with
      | nil => exact h2 (by simpa using hsum)
      | cons x l => exact hF.2.1 (hF.1.symm.trans h1)
    rw [if_neg hne, sanity_empty_count_loop_rep fl _ hF fuel 0 (by omega) (by omega)]
    rw [show 0 + fl.length + m.count = m.slot_count by omega, Nat.mod_eq_of_lt (by omega)]
    simp
  · obtain ⟨hv, hh⟩ := FreeL_valid fl _ hF j hj
    exact ⟨get m j, slot_eq_some hv, hh⟩
  · intro hL
    exact hdis (Live_mem hz hcnt (lt_of_append hlt) hcap hL) hj
  · have hall := mem_of_nodup_of_length hnd hlt (by rw [List.length_append, ← hcnt, hsum])
    rcases List.mem_append.1 (hall j hj) with h1 | h1
    · exact Or.inl (mem_Live hz (lt_of_append hlt) hcap h1)
    · exact Or.inr h1

theorem empty_slots_partition_the_slots_witness :
    Reachable 4 4 hole_below_top ∧
    ∃ fl F, (∀ fuel, F ≤ fuel →
        empty_slots_walk fuel hole_below_top hole_below_top.empty_slot = some fl ∧
        debug_sdmap_sanity_empty_count fuel (some hole_below_top) = some 0) ∧
      fl.Nodup ∧
      (∀ j ∈ fl, j < hole_below_top.slot_count ∧
        (∃ s, detail_sdmap_slot hole_below_top j = some s ∧ s.height < 0) ∧
        ¬ Live hole_below_top j) ∧
      (∀ j, j < hole_below_top.slot_count → Live hole_below_top j ∨ j ∈ fl) ∧
      hole_below_top.count + fl.length = hole_below_top.slot_count ∧
      hole_below_top.count ≤ hole_below_top.slot_count :=
  ⟨reachable_hole_below_top, empty_slots_partition_the_slots reachable_hole_below_top⟩

/-- C18: on every heap map that the inserts, erases and compactions reach
from a new map, `detail_sdmap_optimize_impl` returns a map with `slot_count`
equal to `count`, the same `count`, `empty_slot` equal to `NONE`, and every
live slot below `count`. -/
theorem compaction_leaves_no_empty_slot {ks vs : Nat} {m : sdmap_heap}
    (hm : Reachable ks vs m) :
    ∃ m', detail_sdmap_optimize_impl m = some m' ∧ m'.slot_count = m'.count ∧
      m'.count = m.count ∧ m'.empty_slot = NONE ∧ ∀ j, Live m' j → j < m'.count := by
  obtain ⟨m', T, T', e, -, -, -, -, hz', hcnt', hlt', hcap', -, c1, c2, c3⟩ :=
    optimize_reachable hm
  refine ⟨m', e, c2, c1, c3, fun j hj => ?_⟩
  rw [← c2]
  exact hlt' j (Live_mem hz' hcnt' hlt' hcap' hj)

theorem compaction_leaves_no_empty_slot_witness :
    Reachable 4 4 hole_below_top ∧
    ∃ m', detail_sdmap_optimize_impl hole_below_top = some m' ∧ m'.slot_count = m'.count ∧
      m'.count = hole_below_top.count ∧ m'.empty_slot = NONE ∧
      ∀ j, Live m' j → j < m'.count :=
  ⟨reachable_hole_below_top, compaction_leaves_no_empty_slot reachable_hole_below_top⟩

/-- C19: on every heap map that the inserts, erases and compactions reach
from a new map, `detail_sdmap_optimize_impl` returns a map in which the keys,
values and stored heights read in order from `root_slot` are the ones read
before; `root_slot` is `NONE` exactly when `count` is 0; the `parent` field of
a live slot is `NONE` exactly in the slot `root_slot`; and a `left` or `right`
field that is not the index of its own slot names a live slot whose `parent`
field is that index. -/
theorem compaction_keeps_the_map {ks vs : Nat} {m : sdmap_heap} (hm : Reachable ks vs m) :
    ∃ m' ns F, detail_sdmap_optimize_impl m = some m' ∧
      (∀ fuel, F ≤ fuel → map_nodes fuel m = some ns ∧ map_nodes fuel m' = some ns) ∧
      (m'.root_slot = NONE ↔ m'.count = 0) ∧
      (∀ i, Live m' i → ∃ s, detail_sdmap_slot m' i = some s ∧
        (s.parent = NONE ↔ i = m'.root_slot) ∧
        (s.left ≠ i → Live m' s.left ∧
          ∃ c, detail_sdmap_slot m' s.left = some c ∧ c.parent = i) ∧
        (s.right ≠ i → Live m' s.right ∧
          ∃ c, detail_sdmap_slot m' s.right = some c ∧ c.parent = i)) := by
  obtain ⟨m', T, T', e, hz, hcnt, hlt, hcap, hz', hcnt', hlt', hcap', hsh, c1, c2, c3⟩ :=
    optimize_reachable hm
  have hroot := root_NONE_iff hz' hcnt' hlt' hcap'
  refine ⟨m', T.triples, T.depth, e, fun fuel hf => ⟨map_nodes_rep hz hcnt hlt hcap fuel hf, ?_⟩,
    hroot, fun i hi => ?_⟩
  · rw [← shape_triples T, ← hsh, shape_triples]
    exact map_nodes_rep hz' hcnt' hlt' hcap' fuel
      (by rw [← shape_depth T', hsh, shape_depth]; exact hf)
  · have hmem := Live_mem hz' hcnt' hlt' hcap' hi
    have hT : T' ≠ .nil := by
      intro e'; subst e'; simp [Tree.idx] at hmem
    have hrt := root_lnk hz' hT
    have hnd := ZOK_nodup hz'
    obtain ⟨hv, hl, hr'⟩ := links_in T' _ hz'.1.2 hnd i hmem
    obtain ⟨cl, cr⟩ := child_in T' _ hz'.1.2 hnd i hmem
    have hsi := slot_eq_some hv
    refine ⟨get m' i, hsi, ?_, fun hne => ⟨Live.left hi hsi hne, ?_⟩,
      fun hne => ⟨Live.right hi hsi hne, ?_⟩⟩
    · rcases parent_in T' _ hz'.1.2 hnd i hmem with ⟨e', p⟩ | ⟨ne, p, -⟩
      · rw [hrt]
        exact ⟨fun _ => e', fun _ => p⟩
      · rw [hrt]
        refine ⟨fun e' => ?_, fun e' => absurd e' ne⟩
        rw [e'] at p
        exact absurd p (NONE_not_mem hlt' hcap')
    · obtain ⟨hv2, -, -⟩ := links_in T' _ hz'.1.2 hnd _ (hl.resolve_left hne)
      exact ⟨_, slot_eq_some hv2, cl hne⟩
    · obtain ⟨hv2, -, -⟩ := links_in T' _ hz'.1.2 hnd _ (hr'.resolve_left hne)
      exact ⟨_, slot_eq_some hv2, cr hne⟩

theorem compaction_keeps_the_map_witness :
    Reachable 4 4 hole_below_top ∧
    ∃ m' ns F, detail_sdmap_optimize_impl hole_below_top = some m' ∧
      (∀ fuel, F ≤ fuel →
        map_nodes fuel hole_below_top = some ns ∧ map_nodes fuel m' = some ns) ∧
      (m'.root_slot = NONE ↔ m'.count = 0) ∧
      (∀ i, Live m' i → ∃ s, detail_sdmap_slot m' i = some s ∧
        (s.parent = NONE ↔ i = m'.root_slot) ∧
        (s.left ≠ i → Live m' s.left ∧
          ∃ c, detail_sdmap_slot m' s.left = some c ∧ c.parent = i) ∧
        (s.right ≠ i → Live m' s.right ∧
          ∃ c, detail_sdmap_slot m' s.right = some c ∧ c.parent = i)) :=
  ⟨reachable_hole_below_top, compaction_keeps_the_map reachable_hole_below_top⟩

/-- C31 fails in the code: in the reachable map `chain_of_two` the iteration
from `detail_sdhmap_first_impl` with `detail_sdhmap_next_impl` visits the keys
0 and 16. After the erase of the key 16, which gives the reachable map
`chain_lost`, `count` is 1 and the key 0 has not been erased, but
`detail_sdhmap_first_impl` returns `NULL` and the iteration visits no key:
the erase of the tail of the chain has emptied the bucket 0. -/
theorem iteration_after_erase_of_chain_tail_visits_no_key :
    sdhmap_reachable hash_identity 20 chain_of_two ∧
    (∀ fuel, sdhmap_iterate (fuel + 16) hash_identity chain_of_two 2 = some [0, 16]) ∧
    (∀ fuel, detail_sdhmap_erase_impl (fuel + 2) hash_identity (some chain_of_two) 16
      = some (some chain_lost)) ∧
    sdhmap_reachable hash_identity 20 chain_lost ∧ chain_lost.count = 1 ∧
    (∀ fuel, detail_sdhmap_first_impl (fuel + 16) (some chain_lost) = some none) ∧
    ∀ fuel n, sdhmap_iterate (fuel + 16) hash_identity chain_lost n = some [] :=
  ⟨reachable_chain_of_two, fun _ => rfl, fun _ => rfl, reachable_chain_lost, rfl,
    fun _ => rfl, fun _ n => by cases n <;> rfl⟩

/-- The claim C33 does not hold of the code: `detail_sdhmap_reserve_heap_impl`
compares the target with `count`, not with `slot_count`. On the reachable map of 16 slots
with no element the reserve of 8, below `slot_count`, resizes the map to 8
slots, and the list of empty slots has 8 slots, not 16; on the reachable map
of 16 slots with the keys 0, ..., 11 the reserve of 14 leaves 14 slots. -/
theorem reserve_below_slot_count_resizes :
    sdhmap_reachable hash_identity 20 table_of_16 ∧ 8 ≤ table_of_16.slot_count ∧
    (∀ fuel, sdhmap_free_list (fuel + 17) table_of_16
      = some [0, 1, 2, 3, 4, 5, 6, 7, 8, 9, 10, 11, 12, 13, 14, 15]) ∧
    (∀ (fuel : Nat) (garbage : List (Int × Int)),
      (detail_sdhmap_reserve_heap_impl (fuel + 1) hash_identity table_of_16 20 8 garbage).map
        (fun m => (m.slot_count, m.count)) = some (8, 0)) ∧
    (∀ (fuel : Nat) (garbage : List (Int × Int)),
      (detail_sdhmap_reserve_heap_impl (fuel + 1) hash_identity table_of_16 20 8 garbage).bind
        (fun m => sdhmap_free_list (fuel + 9) m) = some [0, 1, 2, 3, 4, 5, 6, 7]) ∧
    sdhmap_reachable hash_identity 20 twelve_keys ∧ 14 ≤ twelve_keys.slot_count ∧
    ∀ (fuel : Nat),
      (detail_sdhmap_reserve_heap_impl (fuel + 1) hash_identity twelve_keys 20 14
        (List.replicate 12 (0, 0))).map (fun m => (m.slot_count, m.count)) = some (14, 12) :=
  ⟨reachable_table_of_16, by decide, fun _ => rfl, fun _ _ => rfl, fun _ _ => rfl,
    reachable_twelve_keys, by decide, fun _ => rfl⟩

/-- C34 fails in the code for N = 1. The buffer of a stack hash map of 1
element has one slot, and `detail_sdhmap_new_stack_impl` with `count` 1 writes
the slot 1 outside it: `detail_sdhmap_init_slots` links the slot 0 to the slot
1 before it tests `slot_count`. Where the memory after the buffer can be
written, as a second slot here, the list of empty slots of the new map has
the slots 0 and 1; the first key is stored in the slot 0, and the insert of a
second key does not fail the assertion of `detail_sdhmap_pop_empty`: it
returns the slot 1 outside the buffer, with `count` 2 above the capacity 1. -/
theorem stack_hash_map_of_one_slot_takes_second_key :
    detail_sdhmap_new_stack_impl ⟨0, 0, 0, 0, 0, [fresh_hslot]⟩ 1 = none ∧
    detail_sdhmap_new_stack_impl ⟨0, 0, 0, 0, 0, [fresh_hslot, fresh_hslot]⟩ 1
      = some stack_of_1 ∧
    stack_of_1.slot_count = 1 ∧
    (∀ fuel, sdhmap_free_list (fuel + 3) stack_of_1 = some [0, 1]) ∧
    (∀ (fuel : Nat) (garbage : List (Int × Int)),
      detail_sdhmap_set_stack_impl fuel hash_identity stack_of_1 0 1 garbage
        = some (stack_of_1_full, 0)) ∧
    (∀ (fuel : Nat) (garbage : List (Int × Int)),
      detail_sdhmap_set_stack_impl (fuel + 1) hash_identity stack_of_1_full 1 1 garbage
        = some (stack_of_1_over, 1)) ∧
    stack_of_1_over.slot_count = 1 ∧ stack_of_1_over.count = 2 ∧
    (detail_sdhmap_slot stack_of_1_over 1).map (fun s => s.key) = some 1 :=
  ⟨by decide, by decide, rfl, fun _ => rfl, fun _ _ => rfl, fun _ _ => rfl, rfl, rfl, rfl⟩

/-- C37 fails in the code for `slot_count` 1: `detail_sdhmap_init_slots`
writes `next = 1` into the slot 0 and leaves its loop with `i` equal to 1, so
that the statements after the loop write the slot 1. In a block of one slot
this is a write outside the block; in a block with a second slot `g1` that
slot is overwritten, and the `next` field of the slot 0 names the index 1,
which is not below `slot_count`. -/
theorem init_slots_of_one_slot_writes_second_slot (g0 g1 : sdhmap_slot)
    (capacity count used_bucket_count : Nat) :
    detail_sdhmap_init_slots ⟨capacity, count, 1, used_bucket_count, 0, [g0]⟩ = none ∧
    detail_sdhmap_init_slots ⟨capacity, count, 1, used_bucket_count, 0, [g0, g1]⟩ =
      some ⟨capacity, count, 1, used_bucket_count, 0,
        [{ g0 with slot := NONE, next := 1, prev := NONE },
         { g1 with slot := NONE, next := NONE, prev := 0 }]⟩ ∧
    ∀ slot_size, detail_sdhmap_new_heap_impl 1 slot_size [g0] = none :=
  ⟨rfl, rfl, fun _ => rfl⟩

/-- C35 fails in the code at the first insert. On a new stack map of 24
elements of 4-byte keys and values `detail_sdmap_set_stack_impl` of the key 0
leaves `root_slot` at `NONE` and does not write the field `parent` of the slot
0, while `detail_sdmap_set_heap_impl` on a new heap map with the same block
sets `root_slot` to 0 and the field `parent` to `NONE`. The insert of a second
key then reads the slot `NONE` on the stack map and succeeds on the heap
map. -/
theorem first_insert_differs_between_stack_and_heap :
    ∃ ms mh,
      (∀ fuel, detail_sdmap_set_stack_impl fuel
        (detail_sdmap_new_stack_impl (List.replicate 24 fresh_slot)) 4 4 0 24 = .done (ms, 0)) ∧
      (∀ fuel, detail_sdmap_set_heap_impl fuel
        (detail_sdmap_new_heap_impl 576 (List.replicate 24 fresh_slot)) 4 4 0 = some (mh, 0)) ∧
      ms.count = 1 ∧ mh.count = 1 ∧ ms.slot_count = 1 ∧ mh.slot_count = 1 ∧
      ms.root_slot = NONE ∧ mh.root_slot = 0 ∧
      (detail_sdmap_slot ms 0).map (fun s => s.parent) = some 0 ∧
      (detail_sdmap_slot mh 0).map (fun s => s.parent) = some NONE ∧
      (∀ fuel, detail_sdmap_set_stack_impl fuel ms 4 4 1 24 = .fault) ∧
      ∀ fuel, (detail_sdmap_set_heap_impl (fuel + 1) mh 4 4 1).map (fun r => r.2) = some 1 :=
  ⟨⟨0, 1, 1, NONE, NONE, { fresh_slot with left := 0, right := 0, height := 0, key := 0 } ::
      List.replicate 23 fresh_slot⟩,
    ⟨576, 1, 1, 0, NONE,
      { fresh_slot with left := 0, right := 0, parent := NONE, height := 0, key := 0 } ::
      List.replicate 23 fresh_slot⟩,
    fun _ => rfl, fun _ => rfl, rfl, rfl, rfl, rfl, rfl, rfl, rfl, rfl,
    fun fuel => by cases fuel <;> rfl, fun _ => rfl⟩

/-- C38 fails in the code: in every reachable heap map with `count` 0 and
`slot_count` not 0, which is what the erase of the last element leaves,
`root_slot` is `NONE`, the slot at `root_slot` lies outside the block, and
`detail_sdmap_set_heap_impl` of any key has no result with any fuel: the
test for the empty map asks for `slot_count` 0 as well, so the loop reads the
slot at `root_slot`. -/
theorem insert_into_emptied_map_reads_slot_none {ks vs : Nat} {m : sdmap_heap}
    (hm : Reachable ks vs m) (hc : m.count = 0) (hs : m.slot_count ≠ 0) (key : Int) :
    m.root_slot = NONE ∧ detail_sdmap_slot m m.root_slot = none ∧
    ∀ fuel, detail_sdmap_set_heap_impl fuel m ks vs key = none := by
  obtain ⟨T, fl, hz, hG, hB, hF, hnd, hlt, hcnt, hsum, hcap⟩ := Inv_of_Reachable hm
  have hroot := (root_NONE_iff hz hcnt (lt_of_append hlt) hcap).2 hc
  have hnone : detail_sdmap_slot m m.root_slot = none := by
    rw [hroot]
    exact slot_eq_none (not_valid_NONE hcap)
  refine ⟨hroot, hnone, fun fuel => ?_⟩
  unfold detail_sdmap_set_heap_impl
  rw [if_neg (fun h => hs h.2)]
  cases fuel with
  | zero => rfl
  | succ n => rw [detail_sdmap_set_heap_loop, hnone]

theorem insert_into_emptied_map_reads_slot_none_witness :
    Reachable 4 4 emptied ∧ emptied.count = 0 ∧ emptied.slot_count ≠ 0 ∧
    (emptied.root_slot = NONE ∧ detail_sdmap_slot emptied emptied.root_slot = none ∧
    ∀ fuel, detail_sdmap_set_heap_impl fuel emptied 4 4 7 = none) :=
  ⟨reachable_emptied, rfl, by decide,
    insert_into_emptied_map_reads_slot_none reachable_emptied rfl (by decide) 7⟩

/-- C39 fails in the code: in every reachable heap map with `count` not 0,
for every key that the lookup does not find, `detail_sdmap_get_next_impl` and
`detail_sdmap_get_prev_impl` return with no fuel: the descent from the root
has no test for a missing child, and at a slot whose link on the side of the
key is the index of the slot itself it reads the same slot for ever. -/
theorem next_and_prev_of_absent_key_never_return {ks vs : Nat} {m : sdmap_heap}
    (hm : Reachable ks vs m) (hc : m.count ≠ 0) (key : Int) (f0 : Nat)
    (ha : detail_sdmap_contains_impl f0 (some m) key = some false) :
    ∀ fuel, detail_sdmap_get_next_impl fuel (some m) key = none ∧
      detail_sdmap_get_prev_impl fuel (some m) key = none := by
  obtain ⟨T, fl, hz, hG, hB, hF, hnd, hlt, hcnt, hsum, hcap⟩ := Inv_of_Reachable hm
  have hk : key ∉ T.keys := by
    have := contains_iff hz hB hcnt ha
    simpa using this.symm
  have hT := T_ne_nil hcnt hc
  intro fuel
  unfold detail_sdmap_get_next_impl detail_sdmap_get_prev_impl
  simp only [if_neg hc]
  rw [root_lnk hz hT]
  exact ⟨next_loop_absent fuel T _ hz.1.2 (ZOK_nodup hz) hT hk fuel,
    prev_loop_absent fuel T _ hz.1.2 (ZOK_nodup hz) hT hk fuel⟩

theorem next_and_prev_of_absent_key_never_return_witness :
    Reachable 4 4 three_keys ∧ three_keys.count ≠ 0 ∧
    detail_sdmap_contains_impl 3 (some three_keys) 5 = some false ∧
    ∀ fuel, detail_sdmap_get_next_impl fuel (some three_keys) 5 = none ∧
      detail_sdmap_get_prev_impl fuel (some three_keys) 5 = none :=
  ⟨reachable_three_keys, by decide, by decide,
    next_and_prev_of_absent_key_never_return reachable_three_keys (by decide) 5 3 (by decide)⟩

/-- C32 fails in the code: `detail_sdhmap_erase_impl` takes the header by
value and has no resize: the map that it returns has the `slot_count` that
the map had, whatever `count` it leaves. On the map of 16 slots with the one
key 0 the erase of 0 leaves `count` 0 and `slot_count` 16. -/
theorem erase_keeps_slot_count (hash_func : Int → Nat) (m m' : sdhmap_heap) (key : Int)
    (fuel : Nat)
    (h : detail_sdhmap_erase_impl fuel hash_func (some m) key = some (some m')) :
    m'.slot_count = m.slot_count := by
  unfold detail_sdhmap_erase_impl at h
  simp only at h
  split_ifs at h with h0
  · simp only [Option.some.injEq] at h
    rw [← h]
  · cases hs : detail_sdhmap_slot m (hash_func key % m.slot_count) with
    | none => rw [hs] at h; cases h
    | some s =>
      rw [hs] at h
      simp only at h
      split_ifs at h with h1
      · simp only [Option.some.injEq] at h
        rw [← h]
      · cases hl : detail_sdhmap_erase_loop fuel m (hash_func key % m.slot_count) s.slot key with
        | none => rw [hl] at h; cases h
        | some m2 =>
          rw [hl] at h
          simp only [Option.map_some', Option.some.injEq] at h
          rw [← h]
          exact erase_loop_slot_count fuel _ m2 hl

theorem erase_keeps_slot_count_witness :
    detail_sdhmap_erase_impl 1 hash_identity (some chain_head) 0
      = some (some chain_head_erased) ∧
    chain_head_erased.count = 0 ∧ chain_head.slot_count = 16 ∧
    chain_head_erased.slot_count = chain_head.slot_count :=
  ⟨by decide, rfl, rfl,
    erase_keeps_slot_count hash_identity chain_head chain_head_erased 0 1 (by decide)⟩

/-- C40 fails in the code: in every reachable hash map with `empty_slot`
equal to `NONE` the slot `NONE` lies outside the block, and
`detail_sdhmap_erase_at` writes the field `prev` of the slot `empty_slot` on
every path: it has no result for any bucket and slot, and
`detail_sdhmap_erase_impl` of a key that the lookup finds has no result with
any fuel. -/
theorem erase_with_no_empty_slot_writes_outside {hash_func : Int → Nat} {slot_size : Nat}
    {m : sdhmap_heap} (hm : sdhmap_reachable hash_func slot_size m)
    (he : m.empty_slot = NONE) (key : Int) (f0 : Nat)
    (hc : detail_sdhmap_contains_impl f0 hash_func (some m) key = some true) :
    detail_sdhmap_slot m m.empty_slot = none ∧
    (∀ bucket hash, detail_sdhmap_erase_at m bucket hash = none) ∧
    ∀ fuel, detail_sdhmap_erase_impl fuel hash_func (some m) key = none := by
  have hlen := HInv_length (HInv_of_reachable hm)
  have hv : ¬ hvalid m NONE := by unfold hvalid NONE; omega
  refine ⟨by rw [he]; exact hslot_eq_none hv, erase_at_none he hv, fun fuel => ?_⟩
  unfold detail_sdhmap_contains_impl at hc
  unfold detail_sdhmap_erase_impl
  simp only at hc ⊢
  split_ifs at hc ⊢ with h0
  · cases hc
  · cases hs : detail_sdhmap_slot m (hash_func key % m.slot_count) with
    | none => rfl
    | some s =>
      rw [hs] at hc
      simp only at hc ⊢
      split_ifs at hc ⊢ with h1
      · cases hc
      · cases hf : detail_sdhmap_find_loop f0 m s.slot key with
        | none => rw [hf] at hc; cases hc
        | some r =>
          cases r with
          | none => rw [hf] at hc; simp at hc
          | some i =>
            rw [erase_loop_found_none he hv _ key f0 _ i hf fuel]
            rfl

theorem erase_with_no_empty_slot_writes_outside_witness :
    sdhmap_reachable hash_identity 20 full_table_of_2 ∧ full_table_of_2.empty_slot = NONE ∧
    full_table_of_2.count = full_table_of_2.slot_count ∧
    detail_sdhmap_contains_impl 1 hash_identity (some full_table_of_2) 1 = some true ∧
    (detail_sdhmap_slot full_table_of_2 full_table_of_2.empty_slot = none ∧
    (∀ bucket hash, detail_sdhmap_erase_at full_table_of_2 bucket hash = none) ∧
    ∀ fuel, detail_sdhmap_erase_impl fuel hash_identity (some full_table_of_2) 1 = none) :=
  ⟨reachable_full_table_of_2, rfl, rfl, by decide,
    erase_with_no_empty_slot_writes_outside reachable_full_table_of_2 rfl 1 1 (by decide)⟩

/-- C36 as the code has it: on every reachable heap map the erase of a key
that the lookup finds returns with enough fuel and releases a slot `z` that
was live and is no longer live, with the height -1. When the list of empty
slots was empty or `z` is below its first slot, `z` becomes the first empty
slot and its `right` field is the old `empty_slot`; when `z` is above the
first empty slot, `empty_slot` stays, the `right` field of that slot becomes
`z`, and the `right` field of `z` is the old `right` field of that slot: the
released slot is then the second of the list. -/
theorem erase_links_released_slot_first_or_second {ks vs : Nat} {m : sdmap_heap}
    (key : Int) (f0 : Nat) (hm : Reachable ks vs m)
    (hc : detail_sdmap_contains_impl f0 (some m) key = some true) :
    ∃ m' z F s, (∀ fuel, F ≤ fuel →
        detail_sdmap_erase_impl fuel (some m) key = some (some m')) ∧
      Live m z ∧ ¬ Live m' z ∧ detail_sdmap_slot m' z = some s ∧ s.height = -1 ∧
      (m.empty_slot = NONE ∨ z < m.empty_slot → m'.empty_slot = z ∧ s.right = m.empty_slot) ∧
      (m.empty_slot ≠ NONE ∧ m.empty_slot < z →
        m'.empty_slot = m.empty_slot ∧
        ∃ e e', detail_sdmap_slot m m.empty_slot = some e ∧
          detail_sdmap_slot m' m.empty_slot = some e' ∧ e'.right = z ∧ s.right = e.right) := by
  obtain ⟨T, fl, hz, hG, hB, hF, hnd, hlt, hcnt, hsc, hcap⟩ := Inv_of_Reachable hm
  have hk : key ∈ T.keys := by
    have := contains_iff hz hB hcnt hc
    simpa using this.symm
  obtain ⟨m', z, e, hI, hzT, hvz, hh, r2, r3⟩ :=
    erase_release_spec key hz hG hB hF hnd hlt hcnt hsc hcap hk
  refine ⟨m', z, 2 * T.depth + 2, get m' z, e, mem_Live hz (lt_of_append hlt) hcap hzT, ?_,
    slot_eq_some hvz, hh, fun hc1 => ?_, fun hc1 => ?_⟩
  · intro hL
    obtain ⟨T2, fl2, hz2, hG2, -, -, -, hlt2, hcnt2, -, hcap2⟩ := hI
    have := height_nonneg_of_Good hz2.1.2 hG2 z (Live_mem hz2 hcnt2 (lt_of_append hlt2) hcap2 hL)
    omega
  · exact r3 (fun h => by rcases hc1 with h1 | h1 <;> [exact h.1 h1; omega])
  · obtain ⟨b0, b1, b2, b3, b4⟩ := r2 ⟨hc1.1, hc1.2⟩
    exact ⟨b2, _, _, slot_eq_some b0, slot_eq_some b1, b3, b4⟩

theorem erase_links_released_slot_first_or_second_witness :
    Reachable 4 4 hole_below_top ∧
    detail_sdmap_contains_impl 2 (some hole_below_top) 2 = some true ∧
    ∃ m' z F s, (∀ fuel, F ≤ fuel →
        detail_sdmap_erase_impl fuel (some hole_below_top) 2 = some (some m')) ∧
      Live hole_below_top z ∧ ¬ Live m' z ∧ detail_sdmap_slot m' z = some s ∧ s.height = -1 ∧
      (hole_below_top.empty_slot = NONE ∨ z < hole_below_top.empty_slot →
        m'.empty_slot = z ∧ s.right = hole_below_top.empty_slot) ∧
      (hole_below_top.empty_slot ≠ NONE ∧ hole_below_top.empty_slot < z →
        m'.empty_slot = hole_below_top.empty_slot ∧
        ∃ e e', detail_sdmap_slot hole_below_top hole_below_top.empty_slot = some e ∧
          detail_sdmap_slot m' hole_below_top.empty_slot = some e' ∧ e'.right = z ∧
          s.right = e.right) :=
  ⟨reachable_hole_below_top, by decide,
    erase_links_released_slot_first_or_second 2 2 reachable_hole_below_top (by decide)⟩

/-- The claim C36 does not hold of the code: in the reachable map
`hole_below_top`, whose first empty slot is the slot 1, the erase of the key 2,
which the lookup finds in the slot 2, releases the slot 2 and leaves
`empty_slot` at 1: the released slot is linked behind the slot 1, whose
`right` field becomes 2. -/
theorem released_slot_is_not_the_first_empty_slot :
    Reachable 4 4 hole_below_top ∧
    detail_sdmap_contains_impl 2 (some hole_below_top) 2 = some true ∧
    (detail_sdmap_slot hole_below_top 2).map (fun s => (s.key, s.height)) = some (2, 0) ∧
    hole_below_top.empty_slot = 1 ∧
    (∀ fuel, detail_sdmap_erase_impl (fuel + 4) (some hole_below_top) 2
      = some (some two_holes)) ∧
    two_holes.empty_slot = 1 ∧
    (detail_sdmap_slot two_holes 2).map (fun s => (s.height, s.right)) = some (-1, NONE) ∧
    (detail_sdmap_slot two_holes 1).map (fun s => s.right) = some 2 ∧
    (∀ fuel, empty_slots_walk (fuel + 3) two_holes two_holes.empty_slot = some [1, 2]) :=
  ⟨reachable_hole_below_top, by decide, by decide, rfl, fun _ => rfl, rfl, by decide, by decide,
    fun _ => rfl⟩

theorem reachable_shrink_one_key : ReachableShrink 4 4 one_key :=
  ReachableShrink.set 1 0 0 (ReachableShrink.new 0 [] (by decide) (by decide))
    (show sdmap_set 1 (detail_sdmap_new_heap_impl 0 []) 4 4 0 0 = some one_key by decide)

theorem reachable_shrink_emptied : ReachableShrink 4 4 (detail_sdmap_new_heap_impl 0 []) :=
  ReachableShrink.erase 2 0 reachable_shrink_one_key
    (show sdmap_erase 2 one_key 4 4 0 = some (detail_sdmap_new_heap_impl 0 []) by decide)

theorem reachable_shrink_two_keys : ReachableShrink 4 4 two_keys :=
  ReachableShrink.set 2 1 0 reachable_shrink_one_key
    (show sdmap_set 2 one_key 4 4 1 0 = some two_keys by decide)

theorem reachable_shrink_three_keys : ReachableShrink 4 4 three_keys :=
  ReachableShrink.set 3 2 30
    (ReachableShrink.set 2 0 20
      (ReachableShrink.set 1 1 10 (ReachableShrink.new 0 [] (by decide) (by decide))
        (show sdmap_set 1 (detail_sdmap_new_heap_impl 0 []) 4 4 1 10 = some (single 1 10)
          by decide))
      (show sdmap_set 2 (single 1 10) 4 4 0 20 = some (root_and_left 10 20) by decide))
    (show sdmap_set 3 (root_and_left 10 20) 4 4 2 30 = some three_keys by decide)

/-- C1: on every heap map that the inserts and the shrinking erases reach,
after `sdmap_set(map, k, v)` the insert-or-get of `k` returns, with enough
fuel, a slot that holds the key `k` and the value `v`, and leaves the map,
with its `count`, as it is. The call `sdmap_set(map, k, v)` itself returns
with enough fuel when twice the slots and 16 more fit a 32-bit capacity. -/
theorem set_then_insert_or_get_finds_value {ks vs : Nat} {m : sdmap_heap}
    (hm : ReachableShrink ks vs m) (k v : Int) :
    (∃ F, slot_size ks vs * (2 * m.slot_count + 16) < 4294967296 →
      ∃ m', ∀ fuel, F ≤ fuel → sdmap_set fuel m ks vs k v = some m') ∧
    ∀ fuel m', sdmap_set fuel m ks vs k v = some m' →
      ∃ i F, (∀ f, F ≤ f → detail_sdmap_set_heap_impl f m' ks vs k = some (m', i)) ∧
        (detail_sdmap_slot m' i).map (fun s => (s.key, s.value)) = some (k, v) := by
  obtain ⟨⟨T, hI⟩, h0⟩ := InvT_of_ReachableShrink hm
  refine ⟨⟨T.depth, fun hroom => sdmap_set_returns k v hI h0 hroom⟩, fun fuel m' h => ?_⟩
  obtain ⟨T', hI', hv, -⟩ := sdmap_set_spec hI h
  have hval := hv k
  rw [if_pos rfl] at hval
  obtain ⟨i, hi⟩ := mem_nodes_of_pairs (pairs_value_some hval)
  obtain ⟨a, b⟩ := set_heap_impl_present hI' hi
  exact ⟨i, T'.depth, a, b⟩

theorem set_then_insert_or_get_finds_value_witness :
    ReachableShrink 4 4 (detail_sdmap_new_heap_impl 0 []) ∧
    sdmap_set 1 (detail_sdmap_new_heap_impl 0 []) 4 4 0 0 = some one_key ∧
    sdmap_erase 2 one_key 4 4 0 = some (detail_sdmap_new_heap_impl 0 []) ∧
    sdmap_set 1 (detail_sdmap_new_heap_impl 0 []) 4 4 1 1 = some (single 1 1) ∧
    (∃ F, slot_size 4 4 * (2 * (detail_sdmap_new_heap_impl 0 []).slot_count + 16) < 4294967296 →
      ∃ m', ∀ fuel, F ≤ fuel →
        sdmap_set fuel (detail_sdmap_new_heap_impl 0 []) 4 4 1 1 = some m') ∧
    ∀ fuel m', sdmap_set fuel (detail_sdmap_new_heap_impl 0 []) 4 4 1 1 = some m' →
      ∃ i F, (∀ f, F ≤ f → detail_sdmap_set_heap_impl f m' 4 4 1 = some (m', i)) ∧
        (detail_sdmap_slot m' i).map (fun s => (s.key, s.value)) = some (1, 1) :=
  ⟨reachable_shrink_emptied, by decide, by decide, by decide,
    set_then_insert_or_get_finds_value reachable_shrink_emptied 1 1⟩

/-- C2: on every heap map that the inserts and the shrinking erases reach, the
lookup tells with enough fuel whether the key is present; an insert-or-get of
the key that returns leaves `count` as it is when the key was present and
raises it by exactly 1 when it was not; the write of a value that follows
does not change `count`; and the insert-or-get returns with enough fuel when
the key is present or twice the slots and 16 more fit a 32-bit capacity. -/
theorem insert_or_get_raises_count_for_new_key {ks vs : Nat} {m : sdmap_heap}
    (hm : ReachableShrink ks vs m) (k : Int) :
    ∃ F b, (∀ fuel, F ≤ fuel → detail_sdmap_contains_impl fuel (some m) k = some b) ∧
      (∀ fuel r, detail_sdmap_set_heap_impl fuel m ks vs k = some r →
        r.1.count = m.count + (if b = true then 0 else 1)) ∧
      (∀ fuel r v m', detail_sdmap_set_heap_impl fuel m ks vs k = some r →
        write_value r.1 r.2 v = some m' → m'.count = r.1.count) ∧
      (b = true ∨ slot_size ks vs * (2 * m.slot_count + 16) < 4294967296 →
        ∃ r, ∀ fuel, F ≤ fuel → detail_sdmap_set_heap_impl fuel m ks vs k = some r) := by
  obtain ⟨⟨T, hI⟩, h0⟩ := InvT_of_ReachableShrink hm
  have hI0 := hI
  obtain ⟨fl, hz, hG, hB, hF, hnd, hlt, hcnt, hsc, hcap⟩ := hI
  refine ⟨T.depth, decide (k ∈ T.keys), contains_impl_spec k hz hB hcnt, fun fuel r hr => ?_,
    fun fuel r v m' hr hw => ?_, fun hc => ?_⟩
  · rcases set_heap_impl_spec hI0 hr with ⟨hk, e, -⟩ | ⟨hk, T1, v0, A, B, -, -, -, -, hc⟩
    · rw [e]; simp [hk]
    · rw [hc]; simp [hk]
  · unfold write_value at hw
    cases hs : r.1.slots[r.2]? with
    | none => simp [store, hs] at hw
    | some s =>
      simp only [store, hs, Option.some.injEq] at hw
      rw [← hw]
  · rcases hc with hb | hroom
    · have hk : k ∈ T.keys := of_decide_eq_true hb
      rw [keys_eq_map] at hk
      obtain ⟨⟨ni, nk, nv⟩, hn, e⟩ := List.mem_map.1 hk
      simp only at e
      subst e
      obtain ⟨a, -⟩ := set_heap_impl_present hI0 hn
      exact ⟨_, a⟩
    · exact set_heap_impl_returns k hI0 h0 hroom

theorem insert_or_get_raises_count_for_new_key_witness :
    ReachableShrink 4 4 two_keys ∧
    (((sdmap_set 3 (detail_sdmap_new_heap_impl 0 []) 4 4 0 0).bind fun m1 =>
      (sdmap_set 3 m1 4 4 1 0).bind fun m2 =>
      (sdmap_set 3 m2 4 4 2 0).bind fun m3 =>
      (sdmap_set 3 m3 4 4 2 0).bind fun m4 =>
      (sdmap_set 3 m4 4 4 2 1).map fun m5 =>
        [m1.count, m2.count, m3.count, m4.count, m5.count]) = some [1, 2, 3, 3, 3]) ∧
    ∃ F b, (∀ fuel, F ≤ fuel → detail_sdmap_contains_impl fuel (some two_keys) 2 = some b) ∧
      (∀ fuel r, detail_sdmap_set_heap_impl fuel two_keys 4 4 2 = some r →
        r.1.count = two_keys.count + (if b = true then 0 else 1)) ∧
      (∀ fuel r v m', detail_sdmap_set_heap_impl fuel two_keys 4 4 2 = some r →
        write_value r.1 r.2 v = some m' → m'.count = r.1.count) ∧
      (b = true ∨ slot_size 4 4 * (2 * two_keys.slot_count + 16) < 4294967296 →
        ∃ r, ∀ fuel, F ≤ fuel → detail_sdmap_set_heap_impl fuel two_keys 4 4 2 = some r) :=
  ⟨reachable_shrink_two_keys, by decide,
    insert_or_get_raises_count_for_new_key reachable_shrink_two_keys 2⟩

/-- C5: on every heap map that the inserts and the shrinking erases reach, for
distinct keys `k` and `k2`, the lookup of `k2` gives with enough fuel the same
answer, present or not, and the same value for a present key, before and after
`sdmap_set(map, k, v)` and before and after `sdmap_erase(map, k)`, whichever
path the erase takes. The erase returns with enough fuel, and the insert when
twice the slots and 16 more fit a 32-bit capacity. -/
theorem set_and_erase_keep_other_keys {ks vs : Nat} {m : sdmap_heap}
    (hm : ReachableShrink ks vs m) (k k2 v : Int) (hne : k2 ≠ k) :
    ∃ F r, (∀ fuel, F ≤ fuel → sdmap_value_of fuel m ks vs k2 = some r ∧
        detail_sdmap_contains_impl fuel (some m) k2 = some r.isSome) ∧
      (∀ fuel m', sdmap_set fuel m ks vs k v = some m' →
        ∃ F', ∀ f, F' ≤ f → sdmap_value_of f m' ks vs k2 = some r ∧
          detail_sdmap_contains_impl f (some m') k2 = some r.isSome) ∧
      (∃ m', (∀ fuel, F ≤ fuel → sdmap_erase fuel m ks vs k = some m') ∧
        ∃ F', ∀ f, F' ≤ f → sdmap_value_of f m' ks vs k2 = some r ∧
          detail_sdmap_contains_impl f (some m') k2 = some r.isSome) ∧
      (slot_size ks vs * (2 * m.slot_count + 16) < 4294967296 →
        ∃ m', ∀ fuel, F ≤ fuel → sdmap_set fuel m ks vs k v = some m') := by
  obtain ⟨⟨T, hI⟩, h0⟩ := InvT_of_ReachableShrink hm
  have look : ∀ {m1 : sdmap_heap} {T1 : Tree}, InvT ks vs m1 T1 →
      ∀ f, T1.depth ≤ f → sdmap_value_of f m1 ks vs k2 = some (pairs_value T1.pairs k2) ∧
        detail_sdmap_contains_impl f (some m1) k2 = some (pairs_value T1.pairs k2).isSome := by
    intro m1 T1 hI1 f hf
    refine ⟨value_of_spec k2 hI1 f hf, ?_⟩
    obtain ⟨fl, hz, hG, hB, hF, hnd, hlt, hcnt, hsc, hcap⟩ := hI1
    rw [contains_impl_spec k2 hz hB hcnt f hf, pairs_value_isSome, keys_eq_pairs]
  refine ⟨2 * T.depth + 2, pairs_value T.pairs k2, fun fuel hf => look hI fuel (by omega),
    fun fuel m' h => ?_, ?_, fun hroom => ?_⟩
  · obtain ⟨T', hI', hv, -⟩ := sdmap_set_spec hI h
    refine ⟨T'.depth, fun f hf => ?_⟩
    have := look hI' f hf
    rw [hv k2, if_neg hne] at this
    exact this
  · obtain ⟨m2, T2, e, -, hI2, hv, -, -⟩ := sdmap_erase_spec k hI
    refine ⟨m2, e, T2.depth, fun f hf => ?_⟩
    have := look hI2 f hf
    rw [hv k2, if_neg hne] at this
    exact this
  · obtain ⟨m', hm'⟩ := sdmap_set_returns k v hI h0 hroom
    exact ⟨m', fun fuel hf => hm' fuel (by omega)⟩

theorem set_and_erase_keep_other_keys_witness :
    ReachableShrink 4 4 three_keys ∧ (2 : Int) ≠ 1 ∧
    sdmap_value_of 10 three_keys 4 4 2 = some (some 30) ∧
    (sdmap_erase 10 three_keys 4 4 1).bind (fun m' => sdmap_value_of 10 m' 4 4 2)
      = some (some 30) ∧
    (sdmap_set 10 three_keys 4 4 1 7).bind (fun m' => sdmap_value_of 10 m' 4 4 2)
      = some (some 30) ∧
    ∃ F r, (∀ fuel, F ≤ fuel → sdmap_value_of fuel three_keys 4 4 2 = some r ∧
        detail_sdmap_contains_impl fuel (some three_keys) 2 = some r.isSome) ∧
      (∀ fuel m', sdmap_set fuel three_keys 4 4 1 7 = some m' →
        ∃ F', ∀ f, F' ≤ f → sdmap_value_of f m' 4 4 2 = some r ∧
          detail_sdmap_contains_impl f (some m') 2 = some r.isSome) ∧
      (∃ m', (∀ fuel, F ≤ fuel → sdmap_erase fuel three_keys 4 4 1 = some m') ∧
        ∃ F', ∀ f, F' ≤ f → sdmap_value_of f m' 4 4 2 = some r ∧
          detail_sdmap_contains_impl f (some m') 2 = some r.isSome) ∧
      (slot_size 4 4 * (2 * three_keys.slot_count + 16) < 4294967296 →
        ∃ m', ∀ fuel, F ≤ fuel → sdmap_set fuel three_keys 4 4 1 7 = some m') :=
  ⟨reachable_shrink_three_keys, by decide, by decide, by decide, by decide,
    set_and_erase_keep_other_keys reachable_shrink_three_keys 1 2 7 (by decide)⟩

/-- C33 as the code has it: `detail_sdhmap_reserve_heap_impl` returns the map
as it is, for every fuel and every content of the buffer, when the target is
not above `count` or is equal to `slot_count`; every other target is above
`count`, and the map that the reserve then returns has `slot_count` equal to
that target, also when the target is below the old `slot_count`, and at most
the elements that it had. -/
theorem reserve_changes_nothing_at_or_below_count (fuel : Nat) (hash_func : Int → Nat)
    (m : sdhmap_heap) (slot_size target : Nat) (garbage : List (Int × Int))
    (h : target ≤ m.count ∨ target = m.slot_count) :
    detail_sdhmap_reserve_heap_impl fuel hash_func m slot_size target garbage = some m ∧
    ∀ (other : Nat) (m1 : sdhmap_heap), m.count < other →
      detail_sdhmap_reserve_heap_impl fuel hash_func m slot_size other garbage = some m1 →
      m1.slot_count = other ∧ m1.count ≤ m.count := by
  refine ⟨?_, fun other m1 h h1 => ?_⟩
  · unfold detail_sdhmap_reserve_heap_impl
    split_ifs with hc
    · have ht : target = m.slot_count := by omega
      unfold detail_sdhmap_heap_resize
      rw [if_pos ht.symm]
    · rfl
  · unfold detail_sdhmap_reserve_heap_impl at h1
    rw [if_pos h] at h1
    obtain ⟨a, b⟩ := heap_resize_cnt h1
    exact ⟨b, a⟩

theorem reserve_changes_nothing_at_or_below_count_witness :
    (12 ≤ twelve_keys.count ∨ 12 = twelve_keys.slot_count) ∧
    detail_sdhmap_reserve_heap_impl 0 hash_identity twelve_keys 20 12 [] = some twelve_keys ∧
    ∀ (other : Nat) (m1 : sdhmap_heap), twelve_keys.count < other →
      detail_sdhmap_reserve_heap_impl 0 hash_identity twelve_keys 20 other [] = some m1 →
      m1.slot_count = other ∧ m1.count ≤ twelve_keys.count :=
  ⟨by decide,
    reserve_changes_nothing_at_or_below_count 0 hash_identity twelve_keys 20 12 [] (by decide)⟩

/-- C16: on every reachable map, whether its keys were erased with
`detail_sdmap_erase_impl` alone or with the macro `sdmap_erase`, when the walk
of `detail_sdmap_inorder_body` or of `detail_sdmap_preorder_body` returns,
with a callback that does not write, the block it returns is the block before
the call: `root_slot`, the other fields of the header and every field of every
slot are as before. -/
theorem traversal_restores_the_map {ks vs : Nat} {m : sdmap_heap}
    (hm : Reachable ks vs m ∨ ReachableShrink ks vs m) {α : Type} (visit : sdmap_slot → α)
    (fuel : Nat) (r : Option sdmap_heap × List α)
    (h : detail_sdmap_inorder_body visit fuel (some m) = some r ∨
      detail_sdmap_preorder_body visit fuel (some m) = some r) :
    r.1 = some m := by
  have hI : Inv ks vs m := by
    rcases hm with hm | hm
    · exact Inv_of_Reachable hm
    · obtain ⟨⟨T, hT⟩, -⟩ := InvT_of_ReachableShrink hm
      exact InvT_Inv hT
  obtain ⟨T, fl, hz, -⟩ := hI
  rcases h with h | h
  · exact (traversal_body_restores visit hz fuel r).1 h
  · exact (traversal_body_restores visit hz fuel r).2 h

theorem traversal_restores_the_map_witness :
    Reachable 4 4 three_keys ∧
    detail_sdmap_inorder_body (fun current => current.key) 5 (some three_keys)
      = some (some three_keys, [0, 1, 2]) ∧
    detail_sdmap_preorder_body (fun current => current.key) 5 (some three_keys)
      = some (some three_keys, [1, 0, 2]) ∧
    (some three_keys, [0, 1, 2]).1 = some three_keys ∧
    (some three_keys, [1, 0, 2]).1 = some three_keys :=
  ⟨reachable_three_keys, rfl, rfl,
    traversal_restores_the_map (Or.inl reachable_three_keys) (fun current => current.key) 5
      (some three_keys, [0, 1, 2]) (Or.inl rfl),
    traversal_restores_the_map (Or.inl reachable_three_keys) (fun current => current.key) 5
      (some three_keys, [1, 0, 2]) (Or.inr rfl)⟩

end Sdmap
